import Mathlib

/-! # Reactivity engine and virtual-DOM reconciler

A shallow embedding of `src/core/vdom/vnode.js`, `src/core/vdom/patch.js` and
`src/core/observer/index.js`, followed by theorems about the embedded functions.

Conventions of the embedding.

* A JavaScript `undefined` field is `Option.none`; a call that would raise a
  `TypeError` (a property read on `undefined`) or a backend exception returns `none`.
* Vnodes are values. Where the source mutates a vnode in place (`vnode.elm = ...`) the
  embedded function returns the updated vnode and the caller stores it back into the
  array slot the object lives in. A value stands for one object, named by its field `oid`:
  the embedding follows the source where no vnode object is reached twice, that is where
  the vnodes of the new tree are pairwise distinct objects and none of them is a vnode of
  the old tree (`apart`); the call `patch(V, V)` on one object is embedded as well. An
  assignment to an object that is reached a second time elsewhere is not.
* Backend nodes are natural numbers; the backend tree is a record of maps (`Dom`).
* Every call of a node operation or a hook is appended to a log, so that statements about
  "how many operations were performed" are statements about that log.
-/

namespace VueCore

/-! ## Virtual nodes (`src/core/vdom/vnode.js`) -/

/-- A defined vnode key, `string | number`; the `void` case is `Option.none`. A number is
`num n` when it is an integer `n` of magnitude below `2^53` (negative zero is `num 0`),
`nan` when it is `NaN`, and `other repr` otherwise, where `repr` is the string the number
converts to (`"0.5"`, `"9007199254740992"`, `"1e+21"`, `"-Infinity"`): two such numbers
are one number exactly when they convert to one string. -/
inductive Key
  | str (s : String)
  | num (n : Int)
  | other (repr : String)
  | nan
  deriving DecidableEq, Repr

/-- The comparison `a === b` of two keys, each of which may be `undefined`: `NaN` is not
equal to itself. -/
def keyEq (a b : Option Key) : Bool := decide (a = b) && decide (a ≠ some Key.nan)

/-- The value `isDef(data) && isDef(data.attrs) && data.attrs.type` of `sameInputType`:
the boolean `false` when `data` or `attrs` is missing, otherwise `attrs.type`. -/
inductive TypeVal
  | no
  | undef
  | str (s : String)
  deriving DecidableEq, Repr

/-- The inspected part of `data.domProps`. -/
structure DomProps where
  innerHTML : Option String := none
  textContent : Option String := none
  deriving DecidableEq, Repr

/-- The inspected part of `data.attrs`. -/
structure Attrs where
  type : Option String := none
  deriving DecidableEq, Repr

/-- An async component factory: an object compared by reference (`id`), with its
`error` and `resolved` fields reduced to "is defined". -/
structure AsyncFactory where
  id : Nat
  error : Bool := false
  resolved : Bool := false
  deriving DecidableEq, Repr

/-- A component instance as far as the reconciler reads it: `_vnode` and `$el`. -/
structure ComponentOf (V : Type) where
  _vnode : V
  el : Option Nat

/-- The `data.hook.insert` callback: `merged` and the number of `fns`. -/
structure InsertHook where
  merged : Bool := false
  fns : Nat := 0
  deriving DecidableEq, Repr

/-- The callbacks of `data.hook`. A callback that is a plain notification is a `Bool`
(defined or not). `init` carries the component instance the callback installs on the
vnode (`none` when it installs nothing). `remove` carries whether the callback invokes
the removal callback `rm` it is handed before it returns. -/
structure Hook (V : Type) where
  init : Option (Option (ComponentOf V)) := none
  prepatch : Bool := false
  update : Bool := false
  postpatch : Bool := false
  create : Bool := false
  insert : Option InsertHook := none
  destroy : Bool := false
  remove : Option Bool := none

/-- The data payload of a vnode, `VNodeData`: the fields the reconciler inspects, and
`extraKeys` for the enumerable keys it never reads by name. -/
structure VNodeData (V : Type) where
  key : Option Key := none
  pre : Bool := false
  hook : Option (Hook V) := none
  domProps : Option DomProps := none
  attrs : Option Attrs := none
  keepAlive : Bool := false
  pendingInsert : Option (List V) := none
  transition : Bool := false
  appendAsTree : Bool := false
  class_ : Bool := false
  extraKeys : List String := []

/-- The component a vnode was rendered in, as far as `setScope` reads it:
an identity and `$options._scopeId`. -/
structure Context where
  id : Nat
  scopeId : Option String := none
  deriving DecidableEq, Repr

/-- The class `VNode`. Opaque fields (`componentOptions`, `asyncMeta`, `fnOptions`,
`ssrContext`) are object identities. Two fields are not in the class: `oid` is the
identity of the vnode object and `childrenRef` the identity of its `children` array, so
that the reference comparisons `oldVnode === vnode` and `oldCh !== ch` can be embedded. -/
structure VNode where
  oid : Nat := 0
  childrenRef : Nat := 0
  tag : Option String := none
  data : Option (VNodeData VNode) := none
  children : Option (List VNode) := none
  text : Option String := none
  elm : Option Nat := none
  ns : Option String := none
  context : Option Context := none
  fnContext : Option Context := none
  fnOptions : Option Nat := none
  fnScopeId : Option String := none
  key : Option Key := none
  componentOptions : Option Nat := none
  componentInstance : Option (ComponentOf VNode) := none
  parent : Option VNode := none
  raw : Bool := false
  isStatic : Bool := false
  isRootInsert : Bool := true
  isComment : Bool := false
  isCloned : Bool := false
  isOnce : Bool := false
  asyncFactory : Option AsyncFactory := none
  asyncMeta : Option Nat := none
  isAsyncPlaceholder : Bool := false
  ssrContext : Option Nat := none

instance : Inhabited VNode :=
  ⟨{ data := none, children := none, componentInstance := none, parent := none }⟩

/-- A component instance. -/
abbrev Component := ComponentOf VNode

/-- The constructor `new VNode(tag, data, children, text, elm, context,
componentOptions, asyncFactory)`; `oid` is the identity of the new object and
`childrenRef` that of the array passed as `children`. -/
def VNode.new (oid childrenRef : Nat) (tag : Option String) (data : Option (VNodeData VNode))
    (children : Option (List VNode)) (text : Option String) (elm : Option Nat)
    (context : Option Context) (componentOptions : Option Nat)
    (asyncFactory : Option AsyncFactory) : VNode :=
  { oid := oid
    childrenRef := childrenRef
    tag := tag
    data := data
    children := children
    text := text
    elm := elm
    ns := none
    context := context
    fnContext := none
    fnOptions := none
    fnScopeId := none
    key := data.bind (fun d => d.key)
    componentOptions := componentOptions
    componentInstance := none
    parent := none
    raw := false
    isStatic := false
    isRootInsert := true
    isComment := false
    isCloned := false
    isOnce := false
    asyncFactory := asyncFactory
    asyncMeta := none
    isAsyncPlaceholder := false }

/-- The function `createEmptyVNode(text = "")`; `oid` is the identity of the node. -/
def createEmptyVNode (oid : Nat) (text : String) : VNode :=
  { VNode.new oid 0 none none none none none none none none with
    text := some text
    isComment := true }

/-- The function `createTextVNode(val)`, on the string `String(val)`. -/
def createTextVNode (oid : Nat) (val : String) : VNode :=
  VNode.new oid 0 none none none (some val) none none none none

/-- The function `cloneVNode(vnode)`: an optimized shallow clone; `oid` is the identity
of the clone. -/
def cloneVNode (oid : Nat) (vnode : VNode) : VNode :=
  { VNode.new oid vnode.childrenRef vnode.tag vnode.data vnode.children vnode.text vnode.elm vnode.context
      vnode.componentOptions vnode.asyncFactory with
    ns := vnode.ns
    isStatic := vnode.isStatic
    key := vnode.key
    isComment := vnode.isComment
    fnContext := vnode.fnContext
    fnOptions := vnode.fnOptions
    fnScopeId := vnode.fnScopeId
    asyncMeta := vnode.asyncMeta
    isCloned := true }

/-! ## `sameVnode` and its helpers (`src/core/vdom/patch.js`) -/

/-- Truthiness of a string-valued property: defined and not the empty string. -/
def truthyStr : Option String → Bool
  | some s => s != ""
  | none => false

/-- The function `childrenIgnored(vnode)`, as a truth value:
`vnode.data && vnode.data.domProps && (domProps.innerHTML || domProps.textContent)`. -/
def childrenIgnored (vnode : VNode) : Bool :=
  match vnode.data with
  | none => false
  | some d =>
    match d.domProps with
    | none => false
    | some p => truthyStr p.innerHTML || truthyStr p.textContent

/-- The expression `isDef(i = v.data) && isDef(i = i.attrs) && i.type`. -/
def inputTypeOf (v : VNode) : TypeVal :=
  match v.data with
  | none => TypeVal.no
  | some d =>
    match d.attrs with
    | none => TypeVal.no
    | some a =>
      match a.type with
      | none => TypeVal.undef
      | some s => TypeVal.str s

/-- The function `sameInputType(a, b)`. The table `isTextInputType` is imported from the
platform (`web/util/element`) and is a parameter here. -/
def sameInputType (isTextInputType : TypeVal → Bool) (a b : VNode) : Bool :=
  if a.tag ≠ some "input" then true
  else
    let typeA := inputTypeOf a
    let typeB := inputTypeOf b
    typeA = typeB || (isTextInputType typeA && isTextInputType typeB)

/-- The second disjunct of `sameVnode`:
`isTrue(a.isAsyncPlaceholder) && a.asyncFactory === b.asyncFactory &&
isUndef(b.asyncFactory.error)`. The read `b.asyncFactory.error` raises when it is reached
with `b.asyncFactory` undefined. -/
def sameAsync (a b : VNode) : Option Bool :=
  if a.isAsyncPlaceholder = true then
    if a.asyncFactory.map (fun f => f.id) = b.asyncFactory.map (fun f => f.id) then
      match b.asyncFactory with
      | none => none
      | some f => some (!f.error)
    else some false
  else some false

/-- The function `sameVnode(a, b)`, as a truth value; `none` when the call raises. -/
def sameVnode (isTextInputType : TypeVal → Bool) (a b : VNode) : Option Bool :=
  if keyEq a.key b.key then
    if a.tag = b.tag && a.isComment = b.isComment && a.data.isSome = b.data.isSome &&
        !childrenIgnored a && !childrenIgnored b && sameInputType isTextInputType a b then
      some true
    else sameAsync a b
  else some false

/-! ## The backend: node operations and module hooks

`nodeOps` and the modules are supplied by the platform (`createPatchFunction(backend)`);
they are not part of the analysed sources. -/

/-- The kind of a backend node. -/
inductive NodeKind
  | element (tag : String) (ns : Option String)
  | text
  | comment
  deriving DecidableEq, Repr

/-- Modelled from the spec: the backend presentation tree the node operations act on
(section 6, "create element, create text node, create comment node, get/set text content,
insert-before, append, remove-child, get parent, get next-sibling, set a style-scope
attribute"). Nodes are numbered in creation order, `next` is the first unused number.
`parent` is the `parentNode` pointer, `children` the ordered child list, `text` the
character data of a text or comment node (and the text set on an element by
`setTextContent`), `attrs` the attribute names present, `scopes` the style scopes set and
`leaveCb` whether the property `_leaveCb` is set on the node. -/
structure Dom where
  next : Nat
  kind : Nat → NodeKind
  parent : Nat → Option Nat
  children : Nat → List Nat
  text : Nat → String
  attrs : Nat → List String
  scopes : Nat → List String
  leaveCb : Nat → Bool

/-- The names of the hooks. -/
inductive HookName
  | init | create | activate | update | remove | destroy | prepatch | postpatch | insert
  deriving DecidableEq, Repr

/-- One entry of the log: a node operation that changes the backend, a hook invocation
(`moduleHook` for `cbs[h][i]`, `dataHook` for `vnode.data.hook[h]`, each with the vnode
it is invoked on), or a call into a collaborator (`registerRef`, `traverse`, `warn`). -/
inductive Op
  | createElement (tag : String) (node : Nat)
  | createElementNS (ns tag : String) (node : Nat)
  | createTextNode (text : String) (node : Nat)
  | createComment (text : String) (node : Nat)
  | insertBefore (parent node : Nat) (ref : Option Nat)
  | appendChild (parent node : Nat)
  | removeChild (parent node : Nat)
  | setTextContent (node : Nat) (text : String)
  | setStyleScope (node : Nat) (scope : String)
  | removeAttribute (node : Nat) (name : String)
  | setData (node : Nat) (text : String)
  | moduleHook (h : HookName) (module : Nat) (vnode : VNode)
  | dataHook (h : HookName) (vnode : VNode)
  | insertFn (index : Nat) (vnode : VNode)
  | registerRef (vnode : VNode)
  | traverse (vnode : VNode)
  | warn (msg : String)

/-- The ways a call can fail to return: a `TypeError` of the language, an exception of
the backend, the recursion bound of the embedding being reached, or a `RangeError` of the
language. -/
inductive Err
  | typeError
  | domError
  | outOfFuel
  | rangeError
  deriving DecidableEq, Repr

/-- The result of a call that may raise. -/
abbrev Res (α : Type) := Except Err α

deriving instance DecidableEq for Except

/-- The mutable state of one patch function: the backend tree, the log, the next unused
object identity, and the closure variables `creatingElmInVPre` and `hydrationBailed`. -/
structure St where
  dom : Dom
  log : List Op
  nextOid : Nat
  creatingElmInVPre : Nat
  hydrationBailed : Bool

/-- Append an entry to the log. -/
def St.emit (st : St) (op : Op) : St := { st with log := st.log ++ [op] }

/-- A backend module: which of the five hooks it implements. For `remove`, `some b` says
the module implements the hook and `b` whether the hook invokes the callback `rm` before
it returns (a hook that keeps the callback for later, as a leave transition does, has
`b = false`). -/
structure Module where
  create : Bool := false
  activate : Bool := false
  update : Bool := false
  remove : Option Bool := none
  destroy : Bool := false
  deriving DecidableEq, Repr

/-- What the patch function is created with and the globals it reads. -/
structure Env where
  modules : List Module
  isTextInputType : TypeVal → Bool
  production : Bool
  weex : Bool
  isUnknownElement : String → Bool
  ignoredElement : String → Bool
  activeInstance : Option Context
  innerHTML : Dom → Nat → String
  ssrAttr : String

/-- The indices of the modules that implement a hook: the array `cbs[hook]`. -/
def cbs (E : Env) (sel : Module → Bool) : List Nat :=
  (List.range E.modules.length).filter (fun i => sel (E.modules.getD i {}))

/-- The array `cbs.remove`, each hook with whether it calls `rm` back at once. -/
def cbsRemove (E : Env) : List (Nat × Bool) :=
  (List.range E.modules.length).filterMap
    (fun i => ((E.modules.getD i {}).remove).map (fun b => (i, b)))

/-- Invoke every hook of `cbs[h]` on a vnode. -/
def St.emitModuleHooks (st : St) (h : HookName) (is : List Nat) (vnode : VNode) : St :=
  is.foldl (fun s i => s.emit (Op.moduleHook h i vnode)) st

namespace nodeOps

/-- Unlink a node from the child list of its current parent. -/
def detach (d : Dom) (node : Nat) : Dom :=
  match d.parent node with
  | none => d
  | some q =>
    { d with
      children := Function.update d.children q ((d.children q).erase node)
      parent := Function.update d.parent node none }

/-- Insert `x` in front of the first occurrence of `r`. -/
def insertBeforeL (x r : Nat) : List Nat → List Nat
  | [] => [x]
  | y :: ys => if y = r then x :: y :: ys else y :: insertBeforeL x r ys

/-- A new, unattached node of the given kind. -/
def fresh (st : St) (k : NodeKind) (text : String) : St × Nat :=
  let n := st.dom.next
  ({ st with
     dom := { st.dom with
       next := n + 1
       kind := Function.update st.dom.kind n k
       parent := Function.update st.dom.parent n none
       children := Function.update st.dom.children n []
       text := Function.update st.dom.text n text
       attrs := Function.update st.dom.attrs n []
       scopes := Function.update st.dom.scopes n []
       leaveCb := Function.update st.dom.leaveCb n false } }, n)

/-- `nodeOps.createElement(tag, vnode)`. -/
def createElement (st : St) (tag : String) : St × Nat :=
  let r := fresh st (NodeKind.element tag none) ""
  (r.1.emit (Op.createElement tag r.2), r.2)

/-- `nodeOps.createElementNS(ns, tag)`. -/
def createElementNS (st : St) (ns tag : String) : St × Nat :=
  let r := fresh st (NodeKind.element tag (some ns)) ""
  (r.1.emit (Op.createElementNS ns tag r.2), r.2)

/-- `nodeOps.createTextNode(text)`. -/
def createTextNode (st : St) (text : String) : St × Nat :=
  let r := fresh st NodeKind.text text
  (r.1.emit (Op.createTextNode text r.2), r.2)

/-- `nodeOps.createComment(text)`. -/
def createComment (st : St) (text : String) : St × Nat :=
  let r := fresh st NodeKind.comment text
  (r.1.emit (Op.createComment text r.2), r.2)

/-- `nodeOps.parentNode(node)`. -/
def parentNode (st : St) (node : Nat) : Option Nat := st.dom.parent node

/-- The element that follows `node` in a child list. -/
def nextIn (node : Nat) : List Nat → Option Nat
  | [] => none
  | y :: ys => if y = node then ys.head? else nextIn node ys

/-- `nodeOps.nextSibling(node)`. -/
def nextSibling (st : St) (node : Nat) : Option Nat :=
  match st.dom.parent node with
  | none => none
  | some q => nextIn node (st.dom.children q)

/-- `nodeOps.tagName(node)`. -/
def tagName (st : St) (node : Nat) : Option String :=
  match st.dom.kind node with
  | NodeKind.element tag _ => some tag
  | _ => none

/-- `nodeOps.appendChild(parent, node)`: the node is unlinked from where it is and
becomes the last child of `parent`. -/
def appendChild (st : St) (parent node : Nat) : St :=
  let d := detach st.dom node
  { st with
    dom := { d with
      children := Function.update d.children parent (d.children parent ++ [node])
      parent := Function.update d.parent node (some parent) }
    log := st.log ++ [Op.appendChild parent node] }

/-- `nodeOps.insertBefore(parent, node, ref)`: with `ref` null an append; with `ref` not
a child of `parent` the backend raises; with `ref` the node itself nothing moves;
otherwise the node is unlinked from where it is and put in front of `ref`. -/
def insertBefore (st : St) (parent node : Nat) (ref : Option Nat) : Res St :=
  match ref with
  | none =>
    pure { appendChild st parent node with log := st.log ++ [Op.insertBefore parent node none] }
  | some r =>
    if r ∈ st.dom.children parent then
      if r = node then pure (st.emit (Op.insertBefore parent node ref))
      else
        let d := detach st.dom node
        pure { st with
          dom := { d with
            children := Function.update d.children parent
              (insertBeforeL node r (d.children parent))
            parent := Function.update d.parent node (some parent) }
          log := st.log ++ [Op.insertBefore parent node ref] }
    else throw Err.domError

/-- `nodeOps.removeChild(parent, node)`: the backend raises when `node` is not a child of
`parent`. -/
def removeChild (st : St) (parent node : Nat) : Res St :=
  if node ∈ st.dom.children parent then
    pure { st with
      dom := { st.dom with
        children := Function.update st.dom.children parent
          ((st.dom.children parent).erase node)
        parent := Function.update st.dom.parent node none }
      log := st.log ++ [Op.removeChild parent node] }
  else throw Err.domError

/-- `nodeOps.setTextContent(node, text)`, that is `node.textContent = text`: on a text or
comment node the character data is replaced; on an element every child is unlinked and,
unless `text` is empty, one new text node holding `text` becomes the only child. -/
def setTextContent (st : St) (node : Nat) (text : String) : St :=
  match st.dom.kind node with
  | NodeKind.element _ _ =>
    let st1 : St :=
      { st with
        dom := { st.dom with
          parent := fun x => if st.dom.parent x = some node then none else st.dom.parent x
          children := Function.update st.dom.children node []
          text := Function.update st.dom.text node text } }
    let st2 : St :=
      if text = "" then st1
      else
        let t := fresh st1 NodeKind.text text
        { t.1 with
          dom := { t.1.dom with
            children := Function.update t.1.dom.children node [t.2]
            parent := Function.update t.1.dom.parent t.2 (some node) } }
    { st2 with log := st.log ++ [Op.setTextContent node text] }
  | _ =>
    { st with
      dom := { st.dom with text := Function.update st.dom.text node text }
      log := st.log ++ [Op.setTextContent node text] }

/-- `nodeOps.setStyleScope(node, scopeId)`. -/
def setStyleScope (st : St) (node : Nat) (scope : String) : St :=
  { st with
    dom := { st.dom with
      scopes := Function.update st.dom.scopes node (st.dom.scopes node ++ [scope]) }
    log := st.log ++ [Op.setStyleScope node scope] }

end nodeOps

/-! ## Objects used as maps

`createKeyToOldIdx` and `checkDuplicateKeys` store keys in an object literal `{}`: a key
is converted to a property name, and a read also sees the members inherited from
`Object.prototype`. -/

/-- The property name a key is converted to: `String(key)`. -/
def propName : Key → String
  | Key.str s => s
  | Key.num n => toString n
  | Key.other repr => repr
  | Key.nan => "NaN"

/-- The property names every object literal inherits from `Object.prototype`. -/
def objectPrototypeNames : List String :=
  ["constructor", "hasOwnProperty", "isPrototypeOf", "propertyIsEnumerable",
   "toLocaleString", "toString", "valueOf", "__defineGetter__", "__defineSetter__",
   "__lookupGetter__", "__lookupSetter__", "__proto__"]

/-- The result of the read `map[name]`: `undefined`, an own property, or a member
inherited from `Object.prototype` (a function or object, never an index). -/
inductive Lookup (α : Type)
  | undef
  | own (a : α)
  | inherited
  deriving DecidableEq, Repr

/-- The own properties of an object literal, most recent assignment first. -/
abbrev JsMap (α : Type) := List (String × α)

/-- The read `map[name]`. -/
def JsMap.get {α : Type} (m : JsMap α) (name : String) : Lookup α :=
  match m.lookup name with
  | some a => Lookup.own a
  | none => if name ∈ objectPrototypeNames then Lookup.inherited else Lookup.undef

/-- The assignment `map[name] = a` of a primitive `a`; on the name `__proto__` it is
ignored. -/
def JsMap.set {α : Type} (m : JsMap α) (name : String) (a : α) : JsMap α :=
  if name = "__proto__" then m else (name, a) :: m

/-! ## The patch function (`createPatchFunction`) -/

/-- The array `insertedVnodeQueue`. -/
abbrev Queue := List VNode

/-- The read `xs[i]`; `undefined` outside the array. -/
def getAt {α : Type} (xs : List α) (i : Int) : Option α :=
  if i < 0 then none else xs.get? i.toNat

/-- The assignment `xs[i] = a` at an index inside the array. -/
def setAt {α : Type} (xs : List α) (i : Int) (a : α) : List α :=
  if i < 0 then xs else xs.set i.toNat a

/-- The function `createKeyToOldIdx(children, beginIdx, endIdx)`, scanning `count` slots
from `i`. The read `children[i].key` raises on an undefined slot. -/
def createKeyToOldIdxLoop (children : List (Option VNode)) :
    Nat → Int → JsMap Int → Res (JsMap Int)
  | 0, _, map => pure map
  | count + 1, i, map =>
    match (getAt children i).join with
    | none => throw Err.typeError
    | some c =>
      match c.key with
      | some key => createKeyToOldIdxLoop children count (i + 1) (map.set (propName key) i)
      | none => createKeyToOldIdxLoop children count (i + 1) map

/-- The function `createKeyToOldIdx(children, beginIdx, endIdx)`. -/
def createKeyToOldIdx (children : List (Option VNode)) (beginIdx endIdx : Int) :
    Res (JsMap Int) :=
  createKeyToOldIdxLoop children (endIdx - beginIdx + 1).toNat beginIdx []

/-- The keys `checkDuplicateKeys` warns about, given the keys seen so far. -/
def duplicateKeysFrom (seenKeys : JsMap Unit) : List VNode → List Key
  | [] => []
  | vnode :: rest =>
    match vnode.key with
    | none => duplicateKeysFrom seenKeys rest
    | some key =>
      match seenKeys.get (propName key) with
      | Lookup.undef => duplicateKeysFrom (seenKeys.set (propName key) ()) rest
      | _ => key :: duplicateKeysFrom seenKeys rest

/-- The function `checkDuplicateKeys(children)`: one warning per key found in
`seenKeys`. -/
def checkDuplicateKeys (st : St) (children : List VNode) : St :=
  (duplicateKeysFrom [] children).foldl
    (fun s key => s.emit (Op.warn ("Duplicate keys detected: '" ++ propName key ++
      "'. This may cause an update error."))) st

/-- The function `isUnknownElement(vnode, inVPre)` on a vnode with tag `tag`. -/
def isUnknownElement (E : Env) (vnode : VNode) (tag : String) (inVPre : Bool) : Bool :=
  !inVPre && !truthyStr vnode.ns && !E.ignoredElement tag && E.isUnknownElement tag

/-- The function `removeNode(el)`. -/
def removeNode (st : St) (el : Option Nat) : Res St :=
  match el with
  | none => throw Err.typeError
  | some e =>
    match nodeOps.parentNode st e with
    | some parent => nodeOps.removeChild st parent e
    | none => pure st

/-- The callback made by `createRmCb(childElm, listeners)`. -/
structure RmCb where
  childElm : Option Nat
  listeners : Int
  deriving DecidableEq, Repr

/-- The function `createRmCb(childElm, listeners)`. -/
def createRmCb (childElm : Option Nat) (listeners : Int) : RmCb :=
  { childElm := childElm, listeners := listeners }

/-- One call `rm()` of a callback made by `createRmCb`. -/
def RmCb.call (st : St) (rm : RmCb) : Res (St × RmCb) :=
  let rm1 : RmCb := { rm with listeners := rm.listeners - 1 }
  if rm1.listeners = 0 then do
    let st1 ← removeNode st rm1.childElm
    pure (st1, rm1)
  else pure (st, rm1)

/-- The function `insert(parent, elm, ref)`. -/
def insert (st : St) (parent elm ref : Option Nat) : Res St :=
  match parent with
  | none => pure st
  | some p =>
    match ref with
    | some r =>
      if nodeOps.parentNode st r = some p then
        match elm with
        | some e => nodeOps.insertBefore st p e (some r)
        | none => throw Err.typeError
      else pure st
    | none =>
      match elm with
      | some e => pure (nodeOps.appendChild st p e)
      | none => throw Err.typeError

/-- The function `isPatchable(vnode)`. -/
def isPatchable : Nat → VNode → Res Bool
  | 0, _ => throw Err.outOfFuel
  | fuel + 1, vnode =>
    match vnode.componentInstance with
    | some c => isPatchable fuel c._vnode
    | none => pure vnode.tag.isSome

/-- The function `invokeCreateHooks(vnode, insertedVnodeQueue)`. -/
def invokeCreateHooks (E : Env) (st : St) (queue : Queue) (vnode : VNode) :
    Res (St × Queue) :=
  let st1 := st.emitModuleHooks HookName.create (cbs E (fun m => m.create)) vnode
  match vnode.data with
  | none => throw Err.typeError
  | some data =>
    match data.hook with
    | none => pure (st1, queue)
    | some hook =>
      let st2 := if hook.create then st1.emit (Op.dataHook HookName.create vnode) else st1
      pure (st2, if hook.insert.isSome then queue ++ [vnode] else queue)

/-- The call `nodeOps.setStyleScope(vnode.elm, i)`, which raises on an undefined `elm`. -/
def setStyleScopeAt (st : St) (elm : Option Nat) (scope : String) : Res St :=
  match elm with
  | some e => pure (nodeOps.setStyleScope st e scope)
  | none => throw Err.typeError

/-- The loop `while (ancestor) { ...; ancestor = ancestor.parent }` of `setScope`. -/
def setScopeAncestors (elm : Option Nat) : Nat → St → Option VNode → Res St
  | _, st, none => pure st
  | 0, _, some _ => throw Err.outOfFuel
  | fuel + 1, st, some ancestor => do
    let st1 ← (match ancestor.context.bind (fun c => c.scopeId) with
      | some i => setStyleScopeAt st elm i
      | none => pure st)
    setScopeAncestors elm fuel st1 ancestor.parent

/-- The function `setScope(vnode)`. -/
def setScope (E : Env) (fuel : Nat) (st : St) (vnode : VNode) : Res St := do
  let st1 ← (match vnode.fnScopeId with
    | some i => setStyleScopeAt st vnode.elm i
    | none => setScopeAncestors vnode.elm fuel st (some vnode))
  match E.activeInstance with
  | some i =>
    if some i.id ≠ vnode.context.map (fun c => c.id) ∧
        some i.id ≠ vnode.fnContext.map (fun c => c.id) then
      match i.scopeId with
      | some scope => setStyleScopeAt st1 vnode.elm scope
      | none => pure st1
    else pure st1
  | none => pure st1

/-- The function `removeAndInvokeRemoveHook(vnode, rm)`; the result carries the callback
`rm` the call used. -/
def removeAndInvokeRemoveHook (E : Env) :
    Nat → St → VNode → Option RmCb → Res (St × Option RmCb)
  | 0, _, _, _ => throw Err.outOfFuel
  | fuel + 1, st, vnode, rm =>
    if rm.isSome || vnode.data.isSome then do
      let listeners : Int := (cbsRemove E).length + 1
      let rm0 : RmCb := match rm with
        | some r => { r with listeners := r.listeners + listeners }
        | none => createRmCb vnode.elm listeners
      let r1 ← (match vnode.componentInstance with
        | some c =>
          if c._vnode.data.isSome then do
            let r ← removeAndInvokeRemoveHook E fuel st c._vnode (some rm0)
            pure (r.1, r.2.getD rm0)
          else pure (st, rm0)
        | none => pure (st, rm0))
      let r2 ← (cbsRemove E).foldlM
        (fun (acc : St × RmCb) (m : Nat × Bool) =>
          let s := acc.1.emit (Op.moduleHook HookName.remove m.1 vnode)
          if m.2 then RmCb.call s acc.2 else pure (s, acc.2)) r1
      match vnode.data with
      | none => throw Err.typeError
      | some data =>
        match data.hook.bind (fun h => h.remove) with
        | some callsRm =>
          let s := r2.1.emit (Op.dataHook HookName.remove vnode)
          if callsRm then do
            let r3 ← RmCb.call s r2.2
            pure (r3.1, some r3.2)
          else pure (s, some r2.2)
        | none => do
          let r3 ← RmCb.call r2.1 r2.2
          pure (r3.1, some r3.2)
    else do
      let st1 ← removeNode st vnode.elm
      pure (st1, none)

/-- The function `invokeDestroyHook(vnode)`. -/
def invokeDestroyHook (E : Env) : Nat → St → VNode → Res St
  | 0, _, _ => throw Err.outOfFuel
  | fuel + 1, st, vnode =>
    let st1 := match vnode.data with
      | none => st
      | some data =>
        let s := if (data.hook.map (fun h => h.destroy)) = some true then
            st.emit (Op.dataHook HookName.destroy vnode) else st
        s.emitModuleHooks HookName.destroy (cbs E (fun m => m.destroy)) vnode
    match vnode.children with
    | none => pure st1
    | some children => children.foldlM (fun s c => invokeDestroyHook E fuel s c) st1

/-- The loop of `removeVnodes`, visiting `count` slots from `startIdx`. -/
def removeVnodesLoop (E : Env) (fuel : Nat) (vnodes : List (Option VNode)) :
    Nat → Int → St → Res St
  | 0, _, st => pure st
  | count + 1, startIdx, st => do
    let st1 ← (match (getAt vnodes startIdx).join with
      | some ch =>
        if ch.tag.isSome then do
          let r ← removeAndInvokeRemoveHook E fuel st ch none
          invokeDestroyHook E fuel r.1 ch
        else removeNode st ch.elm
      | none => pure st)
    removeVnodesLoop E fuel vnodes count (startIdx + 1) st1

/-- The function `removeVnodes(parentElm, vnodes, startIdx, endIdx)`; `parentElm` is not
read by the source. -/
def removeVnodes (E : Env) (fuel : Nat) (st : St) (vnodes : List (Option VNode))
    (startIdx endIdx : Int) : Res St :=
  removeVnodesLoop E fuel vnodes (endIdx - startIdx + 1).toNat startIdx st

/-- The function `initComponent(vnode, insertedVnodeQueue)`. -/
def initComponent (E : Env) (fuel : Nat) (st : St) (queue : Queue) (vnode : VNode) :
    Res (St × Queue × VNode) :=
  match vnode.data with
  | none => throw Err.typeError
  | some data =>
    let queue1 := match data.pendingInsert with
      | some pending => queue ++ pending
      | none => queue
    let vnode1 : VNode := match data.pendingInsert with
      | some _ => { vnode with data := some { data with pendingInsert := none } }
      | none => vnode
    match vnode1.componentInstance with
    | none => throw Err.typeError
    | some c => do
      let vnode2 : VNode := { vnode1 with elm := c.el }
      if (← isPatchable fuel vnode2) then do
        let r ← invokeCreateHooks E st queue1 vnode2
        let st2 ← setScope E fuel r.1 vnode2
        pure (st2, r.2, vnode2)
      else
        pure (st.emit (Op.registerRef vnode2), queue1 ++ [vnode2], vnode2)

/-- The loop of `reactivateComponent`: the first inner node with a transition, if any. -/
def reactivateInner (E : Env) : Nat → St → Queue → VNode → Res (St × Queue)
  | 0, _, _, _ => throw Err.outOfFuel
  | fuel + 1, st, queue, innerNode =>
    match innerNode.componentInstance with
    | none => pure (st, queue)
    | some c =>
      let inner := c._vnode
      if (inner.data.map (fun d => d.transition)) = some true then
        pure (st.emitModuleHooks HookName.activate (cbs E (fun m => m.activate)) inner,
          queue ++ [inner])
      else reactivateInner E fuel st queue inner

/-- The function `reactivateComponent(vnode, insertedVnodeQueue, parentElm, refElm)`. -/
def reactivateComponent (E : Env) (fuel : Nat) (st : St) (queue : Queue) (vnode : VNode)
    (parentElm refElm : Option Nat) : Res (St × Queue) := do
  let r ← reactivateInner E fuel st queue vnode
  let st1 ← insert r.1 parentElm vnode.elm refElm
  pure (st1, r.2)

/-- The function `createComponent(vnode, insertedVnodeQueue, parentElm, refElm)`; the
boolean is the truth value returned. The call of `data.hook.init` installs the instance
the hook carries. -/
def createComponent (E : Env) (fuel : Nat) (st : St) (queue : Queue) (vnode : VNode)
    (parentElm refElm : Option Nat) : Res (St × Queue × VNode × Bool) :=
  match vnode.data with
  | none => pure (st, queue, vnode, false)
  | some data =>
    let isReactivated := vnode.componentInstance.isSome && data.keepAlive
    let init := data.hook.bind (fun h => h.init)
    let st1 := match init with
      | some _ => st.emit (Op.dataHook HookName.init vnode)
      | none => st
    let vnode1 : VNode := match init with
      | some (some c) => { vnode with componentInstance := some c }
      | _ => vnode
    if vnode1.componentInstance.isSome then do
      let r ← initComponent E fuel st1 queue vnode1
      let st2 ← insert r.1 parentElm r.2.2.elm refElm
      if isReactivated then do
        let r3 ← reactivateComponent E fuel st2 r.2.1 r.2.2 parentElm refElm
        pure (r3.1, r3.2, r.2.2, true)
      else pure (st2, r.2.1, r.2.2, true)
    else pure (st1, queue, vnode1, false)

/-- The type of `createElm` once the recursion bound is fixed:
`createElm(vnode, insertedVnodeQueue, parentElm, refElm, nested, ownerArray, index)`,
where `owned` says that `ownerArray` is passed and the result is the vnode then found at
`ownerArray[index]`. -/
abbrev CreateFn := St → Queue → VNode → Option Nat → Option Nat → Bool → Bool →
  Res (St × Queue × VNode)

/-- The type of `patchVnode` inside `updateChildren`:
`patchVnode(oldVnode, vnode, insertedVnodeQueue)`, returning the vnode as updated. -/
abbrev PatchFn := St → Queue → VNode → VNode → Res (St × Queue × VNode)

/-- The loop `for (let i = 0; i < children.length; ++i) createElm(children[i], ...)` of
`createChildren`. -/
def createChildrenLoop (createElm : CreateFn) (parentElm : Option Nat) :
    St → Queue → List VNode → Res (St × Queue × List VNode)
  | st, queue, [] => pure (st, queue, [])
  | st, queue, c :: rest => do
    let r ← createElm st queue c parentElm none true true
    let r2 ← createChildrenLoop createElm parentElm r.1 r.2.1 rest
    pure (r2.1, r2.2.1, r.2.2 :: r2.2.2)

/-- The function `createChildren(vnode, children, insertedVnodeQueue)` with
`children = vnode.children`. -/
def createChildren (E : Env) (createElm : CreateFn) (st : St) (queue : Queue)
    (vnode : VNode) : Res (St × Queue × VNode) :=
  match vnode.children with
  | some children => do
    let st1 := if E.production then st else checkDuplicateKeys st children
    let r ← createChildrenLoop createElm vnode.elm st1 queue children
    pure (r.1, r.2.1, { vnode with children := some r.2.2 })
  | none =>
    match vnode.text with
    | some text =>
      match vnode.elm with
      | some e =>
        let t := nodeOps.createTextNode st text
        pure (nodeOps.appendChild t.1 e t.2, queue, vnode)
      | none => throw Err.typeError
    | none => pure (st, queue, vnode)

/-- The branch of `createElm` for a vnode with a tag, after `createComponent` has returned
false: the element is created, its scope set, its children created and the element
inserted (on the other platform the element is inserted first unless `appendAsTree` is
set). -/
def createElmElement (E : Env) (fuel : Nat) (createElm : CreateFn) (st1 : St)
    (queue1 : Queue) (vnode2 : VNode) (tag : String) (parentElm refElm : Option Nat) :
    Res (St × Queue × VNode) := do
  let pre := (vnode2.data.map (fun d => d.pre)) = some true
  let st2 : St :=
    if E.production then st1
    else
      let s : St := if pre then
          { st1 with creatingElmInVPre := st1.creatingElmInVPre + 1 } else st1
      if isUnknownElement E vnode2 tag (decide (0 < s.creatingElmInVPre)) then
        s.emit (Op.warn ("Unknown custom element: <" ++ tag ++ ">"))
      else s
  let n := match vnode2.ns with
    | some ns => if ns ≠ "" then nodeOps.createElementNS st2 ns tag
      else nodeOps.createElement st2 tag
    | none => nodeOps.createElement st2 tag
  let vnode3 : VNode := { vnode2 with elm := some n.2 }
  let st3 ← setScope E (fuel + 1) n.1 vnode3
  let appendAsTree := (vnode3.data.map (fun d => d.appendAsTree)) = some true
  let r ← (if E.weex then do
      let a ← (if appendAsTree then pure (st3, queue1) else do
        let h ← (if vnode3.data.isSome then invokeCreateHooks E st3 queue1 vnode3
          else pure (st3, queue1))
        let s ← insert h.1 parentElm vnode3.elm refElm
        pure (s, h.2))
      let ch ← createChildren E createElm a.1 a.2 vnode3
      if appendAsTree then do
        let h ← (if ch.2.2.data.isSome then invokeCreateHooks E ch.1 ch.2.1 ch.2.2
          else pure (ch.1, ch.2.1))
        let s ← insert h.1 parentElm ch.2.2.elm refElm
        pure (s, h.2, ch.2.2)
      else pure ch
    else do
      let ch ← createChildren E createElm st3 queue1 vnode3
      let h ← (if ch.2.2.data.isSome then invokeCreateHooks E ch.1 ch.2.1 ch.2.2
        else pure (ch.1, ch.2.1))
      let s ← insert h.1 parentElm ch.2.2.elm refElm
      pure (s, h.2, ch.2.2))
  let st4 : St :=
    if !E.production && pre then
      { r.1 with creatingElmInVPre := r.1.creatingElmInVPre - 1 } else r.1
  pure (st4, r.2.1, r.2.2)

/-- The branch of `createElm` for a vnode without a tag: a comment or a text node is
created and inserted. -/
def createElmText (st1 : St) (queue1 : Queue) (vnode2 : VNode)
    (parentElm refElm : Option Nat) : Res (St × Queue × VNode) :=
  let n := if vnode2.isComment then nodeOps.createComment st1 (vnode2.text.getD "undefined")
    else nodeOps.createTextNode st1 (vnode2.text.getD "undefined")
  let vnode3 : VNode := { vnode2 with elm := some n.2 }
  do
    let s ← insert n.1 parentElm vnode3.elm refElm
    pure (s, queue1, vnode3)

/-- The function `createElm`. -/
def createElm (E : Env) (fuel : Nat) (st : St) (queue : Queue) (vnode : VNode)
    (parentElm refElm : Option Nat) (nested owned : Bool) : Res (St × Queue × VNode) :=
  match fuel with
  | 0 => throw Err.outOfFuel
  | fuel + 1 => do
    let st0 : St :=
      if vnode.elm.isSome && owned then { st with nextOid := st.nextOid + 1 } else st
    let vnode0 : VNode :=
      if vnode.elm.isSome && owned then cloneVNode st.nextOid vnode else vnode
    let vnode1 : VNode := { vnode0 with isRootInsert := !nested }
    let c ← createComponent E (fuel + 1) st0 queue vnode1 parentElm refElm
    if c.2.2.2 then pure (c.1, c.2.1, c.2.2.1)
    else
      match c.2.2.1.tag with
      | some tag =>
        createElmElement E fuel (createElm E fuel) c.1 c.2.1 c.2.2.1 tag parentElm refElm
      | none => createElmText c.1 c.2.1 c.2.2.1 parentElm refElm

/-- The loop of `addVnodes`, visiting `count` slots from `startIdx`. -/
def addVnodesLoop (createElm : CreateFn) (parentElm refElm : Option Nat) :
    Nat → Int → St → Queue → List VNode → Res (St × Queue × List VNode)
  | 0, _, st, queue, vnodes => pure (st, queue, vnodes)
  | count + 1, startIdx, st, queue, vnodes =>
    match getAt vnodes startIdx with
    | none => throw Err.typeError
    | some v => do
      let r ← createElm st queue v parentElm refElm false true
      addVnodesLoop createElm parentElm refElm count (startIdx + 1) r.1 r.2.1
        (setAt vnodes startIdx r.2.2)

/-- The function `addVnodes(parentElm, refElm, vnodes, startIdx, endIdx,
insertedVnodeQueue)`; the result carries the array `vnodes` with the slots as
`createElm` left them. -/
def addVnodes (createElm : CreateFn) (st : St) (queue : Queue) (parentElm refElm : Option Nat)
    (vnodes : List VNode) (startIdx endIdx : Int) : Res (St × Queue × List VNode) :=
  addVnodesLoop createElm parentElm refElm (endIdx - startIdx + 1).toNat startIdx st queue
    vnodes

/-- The call `sameVnode(a, b)` on two variables that may hold `undefined`. -/
def sameVnodeAt (E : Env) (a b : Option VNode) : Res Bool :=
  match a, b with
  | some a, some b =>
    match sameVnode E.isTextInputType a b with
    | some r => pure r
    | none => throw Err.typeError
  | _, _ => throw Err.typeError

/-- The loop of `findIdxInOld`, visiting `count` slots from `i`. -/
def findIdxInOldLoop (E : Env) (node : VNode) (oldCh : List (Option VNode)) :
    Nat → Int → Res (Option Int)
  | 0, _ => pure none
  | count + 1, i =>
    match (getAt oldCh i).join with
    | some c => do
      if (← sameVnodeAt E (some node) (some c)) then pure (some i)
      else findIdxInOldLoop E node oldCh count (i + 1)
    | none => findIdxInOldLoop E node oldCh count (i + 1)

/-- The function `findIdxInOld(node, oldCh, start, end)`. -/
def findIdxInOld (E : Env) (node : VNode) (oldCh : List (Option VNode)) (start «end» : Int) :
    Res (Option Int) :=
  findIdxInOldLoop E node oldCh («end» - start).toNat start

/-- What `updateChildren` does at its own level, in order: a call of `patchVnode` on the
old child at `oldIdx` and the new child at `newIdx`, a move
`nodeOps.insertBefore(parentElm, node, ref)`, a call of `createElm` on the new child at
`newIdx`, and the visit by `removeVnodes` of the defined old child at `oldIdx`. -/
inductive Action
  | patch (oldIdx newIdx : Int)
  | move (node : Option Nat) (ref : Option Nat)
  | create (newIdx : Int)
  | remove (oldIdx : Int)
  deriving DecidableEq, Repr

/-- The variables of `updateChildren`. The variables `newStartVnode` and `newEndVnode`
always hold the objects at `newCh[newStartIdx]` and `newCh[newEndIdx]` when they are read
and are embedded as these array reads; `oldKeyToIdx` is `none` until the table is
built; `trace` lists what was done at this level. -/
structure Loop where
  oldStartIdx : Int
  newStartIdx : Int
  oldEndIdx : Int
  oldStartVnode : Option VNode
  oldEndVnode : Option VNode
  newEndIdx : Int
  oldKeyToIdx : Option (JsMap Int)
  oldCh : List (Option VNode)
  newCh : List VNode
  st : St
  queue : Queue
  trace : List Action

/-- The call `nodeOps.insertBefore(parentElm, node, ref)` of a move, which raises on an
undefined `parentElm` or `node`. -/
def moveBefore (st : St) (parentElm node ref : Option Nat) : Res St :=
  match parentElm, node with
  | some p, some n => nodeOps.insertBefore st p n ref
  | _, _ => throw Err.typeError

/-- The call `nodeOps.nextSibling(elm)`, which raises on an undefined `elm`. -/
def nextSiblingAt (st : St) (elm : Option Nat) : Res (Option Nat) :=
  match elm with
  | some e => pure (nodeOps.nextSibling st e)
  | none => throw Err.typeError

/-- The branch of the loop of `updateChildren` that is taken when none of the four
comparisons of the ends succeeds. -/
def updateChildrenKeyed (E : Env) (patchVnode : PatchFn) (createElm : CreateFn)
    (parentElm : Option Nat) (canMove : Bool) (L : Loop) (oldStartVnode : VNode) :
    Res Loop := do
  let oldKeyToIdx ← (match L.oldKeyToIdx with
    | some m => pure m
    | none => createKeyToOldIdx L.oldCh L.oldStartIdx L.oldEndIdx)
  match getAt L.newCh L.newStartIdx with
  | none => throw Err.typeError
  | some newStartVnode =>
    let idxInOld ← (match newStartVnode.key with
      | some key => pure (oldKeyToIdx.get (propName key))
      | none => do
        let r ← findIdxInOld E newStartVnode L.oldCh L.oldStartIdx L.oldEndIdx
        pure (match r with
          | some i => Lookup.own i
          | none => Lookup.undef))
    let createNew : Res Loop := do
      let r ← createElm L.st L.queue newStartVnode parentElm oldStartVnode.elm false true
      pure { L with
        oldKeyToIdx := some oldKeyToIdx
        newCh := setAt L.newCh L.newStartIdx r.2.2
        st := r.1
        queue := r.2.1
        trace := L.trace ++ [Action.create L.newStartIdx]
        newStartIdx := L.newStartIdx + 1 }
    match idxInOld with
    | Lookup.undef => createNew
    | Lookup.inherited => throw Err.typeError
    | Lookup.own i =>
      let vnodeToMove := (getAt L.oldCh i).join
      if (← sameVnodeAt E vnodeToMove (some newStartVnode)) then
        match vnodeToMove with
        | none => throw Err.typeError
        | some vnodeToMove => do
          let r ← patchVnode L.st L.queue vnodeToMove newStartVnode
          let st1 ← (if canMove then
            moveBefore r.1 parentElm vnodeToMove.elm oldStartVnode.elm else pure r.1)
          pure { L with
            oldKeyToIdx := some oldKeyToIdx
            oldCh := setAt L.oldCh i none
            newCh := setAt L.newCh L.newStartIdx r.2.2
            st := st1
            queue := r.2.1
            trace := L.trace ++ [Action.patch i L.newStartIdx] ++
              (if canMove then [Action.move vnodeToMove.elm oldStartVnode.elm] else [])
            newStartIdx := L.newStartIdx + 1 }
      else createNew

/-- One iteration of the loop of `updateChildren`. -/
def updateChildrenStep (E : Env) (patchVnode : PatchFn) (createElm : CreateFn)
    (parentElm : Option Nat) (canMove : Bool) (L : Loop) : Res Loop :=
  match L.oldStartVnode with
  | none =>
    pure { L with
      oldStartIdx := L.oldStartIdx + 1
      oldStartVnode := (getAt L.oldCh (L.oldStartIdx + 1)).join }
  | some oldStartVnode =>
    match L.oldEndVnode with
    | none =>
      pure { L with
        oldEndIdx := L.oldEndIdx - 1
        oldEndVnode := (getAt L.oldCh (L.oldEndIdx - 1)).join }
    | some oldEndVnode => do
      let newStartVnode := getAt L.newCh L.newStartIdx
      let newEndVnode := getAt L.newCh L.newEndIdx
      if (← sameVnodeAt E (some oldStartVnode) newStartVnode) then do
        let r ← patchVnode L.st L.queue oldStartVnode (newStartVnode.getD default)
        pure { L with
          newCh := setAt L.newCh L.newStartIdx r.2.2
          st := r.1
          queue := r.2.1
          trace := L.trace ++ [Action.patch L.oldStartIdx L.newStartIdx]
          oldStartIdx := L.oldStartIdx + 1
          oldStartVnode := (getAt L.oldCh (L.oldStartIdx + 1)).join
          newStartIdx := L.newStartIdx + 1 }
      else if (← sameVnodeAt E (some oldEndVnode) newEndVnode) then do
        let r ← patchVnode L.st L.queue oldEndVnode (newEndVnode.getD default)
        pure { L with
          newCh := setAt L.newCh L.newEndIdx r.2.2
          st := r.1
          queue := r.2.1
          trace := L.trace ++ [Action.patch L.oldEndIdx L.newEndIdx]
          oldEndIdx := L.oldEndIdx - 1
          oldEndVnode := (getAt L.oldCh (L.oldEndIdx - 1)).join
          newEndIdx := L.newEndIdx - 1 }
      else if (← sameVnodeAt E (some oldStartVnode) newEndVnode) then do
        let r ← patchVnode L.st L.queue oldStartVnode (newEndVnode.getD default)
        let st1 ← (if canMove then do
            let ref ← nextSiblingAt r.1 oldEndVnode.elm
            moveBefore r.1 parentElm oldStartVnode.elm ref
          else pure r.1)
        let ref0 := match oldEndVnode.elm with
          | some e => nodeOps.nextSibling r.1 e
          | none => none
        pure { L with
          newCh := setAt L.newCh L.newEndIdx r.2.2
          st := st1
          queue := r.2.1
          trace := L.trace ++ [Action.patch L.oldStartIdx L.newEndIdx] ++
            (if canMove then [Action.move oldStartVnode.elm ref0] else [])
          oldStartIdx := L.oldStartIdx + 1
          oldStartVnode := (getAt L.oldCh (L.oldStartIdx + 1)).join
          newEndIdx := L.newEndIdx - 1 }
      else if (← sameVnodeAt E (some oldEndVnode) newStartVnode) then do
        let r ← patchVnode L.st L.queue oldEndVnode (newStartVnode.getD default)
        let st1 ← (if canMove then
            moveBefore r.1 parentElm oldEndVnode.elm oldStartVnode.elm
          else pure r.1)
        pure { L with
          newCh := setAt L.newCh L.newStartIdx r.2.2
          st := st1
          queue := r.2.1
          trace := L.trace ++ [Action.patch L.oldEndIdx L.newStartIdx] ++
            (if canMove then [Action.move oldEndVnode.elm oldStartVnode.elm] else [])
          oldEndIdx := L.oldEndIdx - 1
          oldEndVnode := (getAt L.oldCh (L.oldEndIdx - 1)).join
          newStartIdx := L.newStartIdx + 1 }
      else updateChildrenKeyed E patchVnode createElm parentElm canMove L oldStartVnode

/-- The loop `while (oldStartIdx <= oldEndIdx && newStartIdx <= newEndIdx)` of
`updateChildren`, run for at most `iterations` iterations. -/
def updateChildrenLoop (E : Env) (patchVnode : PatchFn) (createElm : CreateFn)
    (parentElm : Option Nat) (canMove : Bool) : Nat → Loop → Res Loop
  | iterations, L =>
    if L.oldStartIdx ≤ L.oldEndIdx ∧ L.newStartIdx ≤ L.newEndIdx then
      match iterations with
      | 0 => throw Err.outOfFuel
      | n + 1 => do
        let L1 ← updateChildrenStep E patchVnode createElm parentElm canMove L
        updateChildrenLoop E patchVnode createElm parentElm canMove n L1
    else pure L

/-- The indices of the defined slots among `count` slots from `i`. -/
def definedSlots (vnodes : List (Option VNode)) : Nat → Int → List Int
  | 0, _ => []
  | count + 1, i =>
    (if ((getAt vnodes i).join).isSome then [i] else []) ++ definedSlots vnodes count (i + 1)

/-- The function `updateChildren(parentElm, oldCh, newCh, insertedVnodeQueue,
removeOnly)`. The loop is run for at most `oldCh.length + newCh.length` iterations. The
result holds the variables at the end of the call: `newCh` is the array `newCh` as the
call leaves it. -/
def updateChildren (E : Env) (fuel : Nat) (patchVnode : PatchFn) (createElm : CreateFn)
    (st : St) (queue : Queue) (parentElm : Option Nat) (oldCh : List (Option VNode))
    (newCh : List VNode) (removeOnly : Bool) : Res Loop := do
  let oldEndIdx : Int := (oldCh.length : Int) - 1
  let newEndIdx : Int := (newCh.length : Int) - 1
  let canMove := !removeOnly
  let st0 := if E.production then st else checkDuplicateKeys st newCh
  let L0 : Loop :=
    { oldStartIdx := 0
      newStartIdx := 0
      oldEndIdx := oldEndIdx
      oldStartVnode := (getAt oldCh 0).join
      oldEndVnode := (getAt oldCh oldEndIdx).join
      newEndIdx := newEndIdx
      oldKeyToIdx := none
      oldCh := oldCh
      newCh := newCh
      st := st0
      queue := queue
      trace := [] }
  let L ← updateChildrenLoop E patchVnode createElm parentElm canMove
    (oldCh.length + newCh.length) L0
  if L.oldStartIdx > L.oldEndIdx then do
    let refElm := match getAt L.newCh (L.newEndIdx + 1) with
      | none => none
      | some v => v.elm
    let r ← addVnodes createElm L.st L.queue parentElm refElm L.newCh L.newStartIdx
      L.newEndIdx
    pure { L with
      st := r.1
      queue := r.2.1
      newCh := r.2.2
      trace := L.trace ++
        (List.range (L.newEndIdx - L.newStartIdx + 1).toNat).map
          (fun k => Action.create (L.newStartIdx + k)) }
  else if L.newStartIdx > L.newEndIdx then do
    let st1 ← removeVnodes E fuel L.st L.oldCh L.oldStartIdx L.oldEndIdx
    pure { L with
      st := st1
      trace := L.trace ++
        (definedSlots L.oldCh (L.oldEndIdx - L.oldStartIdx + 1).toNat L.oldStartIdx).map
          Action.remove }
  else pure L

/-- The enumerable keys of a data payload, as `for (const key in data)` visits them: a
field of the embedding counts as present when it is defined (or set, for a flag). -/
def dataKeys (data : VNodeData VNode) : List String :=
  (if data.key.isSome then ["key"] else []) ++
  (if data.pre then ["pre"] else []) ++
  (if data.hook.isSome then ["hook"] else []) ++
  (if data.domProps.isSome then ["domProps"] else []) ++
  (if data.attrs.isSome then ["attrs"] else []) ++
  (if data.keepAlive then ["keepAlive"] else []) ++
  (if data.pendingInsert.isSome then ["pendingInsert"] else []) ++
  (if data.transition then ["transition"] else []) ++
  (if data.appendAsTree then ["appendAsTree"] else []) ++
  (if data.class_ then ["class"] else []) ++
  data.extraKeys

/-- The map `isRenderedModule = makeMap("attrs,class,staticClass,staticStyle,key")`. -/
def isRenderedModule (key : String) : Bool :=
  key ∈ ["attrs", "class", "staticClass", "staticStyle", "key"]

/-- The function `assertNodeMatch(node, vnode, inVPre)`. -/
def assertNodeMatch (E : Env) (st : St) (node : Option Nat) (vnode : VNode) (inVPre : Bool) :
    Res Bool :=
  match vnode.tag with
  | some tag =>
    if "vue-component".isPrefixOf tag then pure true
    else if isUnknownElement E vnode tag inVPre then pure false
    else
      match node with
      | none => throw Err.typeError
      | some n => pure ((nodeOps.tagName st n).map String.toLower = some tag.toLower)
  | none =>
    match node with
    | none => throw Err.typeError
    | some n =>
      pure (st.dom.kind n = (if vnode.isComment then NodeKind.comment else NodeKind.text))

/-- The type of `hydrate` once the recursion bound is fixed:
`hydrate(elm, vnode, insertedVnodeQueue, inVPre)`, returning the vnode as updated and the
boolean result. -/
abbrev HydrateFn := St → Queue → Option Nat → VNode → Bool → Res (St × Queue × VNode × Bool)

/-- The loop of `hydrate` over `children`, from the backend node `childNode`: the result
holds the children as updated, `childrenMatch` and the last value of `childNode`. -/
def hydrateChildren (hydrate : HydrateFn) (inVPre : Bool) :
    St → Queue → Option Nat → List VNode →
      Res (St × Queue × List VNode × Bool × Option Nat)
  | st, queue, childNode, [] => pure (st, queue, [], true, childNode)
  | st, queue, childNode, c :: rest =>
    match childNode with
    | none => pure (st, queue, c :: rest, false, childNode)
    | some n => do
      let r ← hydrate st queue (some n) c inVPre
      if r.2.2.2 then do
        let r2 ← hydrateChildren hydrate inVPre r.1 r.2.1 (nodeOps.nextSibling r.1 n) rest
        pure (r2.1, r2.2.1, r.2.2.1 :: r2.2.2.1, r2.2.2.2.1, r2.2.2.2.2)
      else pure (r.1, r.2.1, r.2.2.1 :: rest, false, childNode)

/-- The function `hydrate(elm, vnode, insertedVnodeQueue, inVPre)`. -/
def hydrate (E : Env) (createElm : Nat → CreateFn) :
    Nat → St → Queue → Option Nat → VNode → Bool → Res (St × Queue × VNode × Bool)
  | 0, _, _, _, _, _ => throw Err.outOfFuel
  | fuel + 1, st, queue, elm, vnode, inVPre0 =>
    let inVPre := inVPre0 || ((vnode.data.map (fun d => d.pre)) = some true)
    let vnode1 : VNode := { vnode with elm := elm }
    if vnode1.isComment && vnode1.asyncFactory.isSome then
      pure (st, queue, { vnode1 with isAsyncPlaceholder := true }, true)
    else do
      let nodeMatch ← (if E.production then pure true
        else assertNodeMatch E st elm vnode1 inVPre)
      if !nodeMatch then pure (st, queue, vnode1, false)
      else
        let init := vnode1.data.bind (fun d => d.hook.bind (fun h => h.init))
        let st1 := match init with
          | some _ => st.emit (Op.dataHook HookName.init vnode1)
          | none => st
        let vnode2 : VNode := match init with
          | some (some c) => { vnode1 with componentInstance := some c }
          | _ => vnode1
        if vnode2.data.isSome && vnode2.componentInstance.isSome then do
          let r ← initComponent E (fuel + 1) st1 queue vnode2
          pure (r.1, r.2.1, r.2.2, true)
        else
          match vnode2.tag with
          | some _ => do
            let r ← (match vnode2.children with
              | none => pure (st1, queue, vnode2, true)
              | some children =>
                match elm with
                | none => throw Err.typeError
                | some e =>
                  if st1.dom.children e = [] then do
                    let c ← createChildren E (createElm fuel) st1 queue vnode2
                    pure (c.1, c.2.1, c.2.2, true)
                  else
                    match vnode2.data.bind (fun d => d.domProps.bind (fun p => p.innerHTML)) with
                    | some i =>
                      if i ≠ E.innerHTML st1.dom e then
                        pure ((if E.production || st1.hydrationBailed then st1 else
                            ({ st1 with hydrationBailed := true }.emit (Op.warn "Parent: "))),
                          queue, vnode2, false)
                      else pure (st1, queue, vnode2, true)
                    | none => do
                      let h ← hydrateChildren (hydrate E createElm fuel) inVPre st1 queue
                        (st1.dom.children e).head? children
                      let vnode3 : VNode := { vnode2 with children := some h.2.2.1 }
                      if !h.2.2.2.1 || h.2.2.2.2.isSome then
                        pure ((if E.production || h.1.hydrationBailed then h.1 else
                            ({ h.1 with hydrationBailed := true }.emit
                              (Op.warn "Mismatching childNodes vs. VNodes: "))),
                          h.2.1, vnode3, false)
                      else pure (h.1, h.2.1, vnode3, true))
            if !r.2.2.2 then pure r
            else
              match r.2.2.1.data with
              | none => pure r
              | some data =>
                if (dataKeys data).any (fun k => !isRenderedModule k) then do
                  let h ← invokeCreateHooks E r.1 r.2.1 r.2.2.1
                  pure (h.1, h.2, r.2.2.1, true)
                else if data.class_ then
                  pure (r.1.emit (Op.traverse r.2.2.1), r.2.1, r.2.2.1, true)
                else pure r
          | none =>
            match elm with
            | none => throw Err.typeError
            | some e =>
              if some (st1.dom.text e) ≠ vnode2.text then
                let text := vnode2.text.getD "undefined"
                pure ({ st1 with
                    dom := { st1.dom with text := Function.update st1.dom.text e text }
                    log := st1.log ++ [Op.setData e text] }, queue, vnode2, true)
              else pure (st1, queue, vnode2, true)

/-- The call `nodeOps.setTextContent(elm, text)`, which raises on an undefined `elm`. -/
def setTextContentAt (st : St) (elm : Option Nat) (text : String) : Res St :=
  match elm with
  | some e => pure (nodeOps.setTextContent st e text)
  | none => throw Err.typeError

/-- The part of `patchVnode` that invokes the `update` hooks:
`if (isDef(data) && isPatchable(vnode)) { cbs.update...; data.hook.update }`. -/
def invokeUpdateHooks (E : Env) (fuel : Nat) (st1 : St) (vnode : VNode) : Res St :=
  let hook := vnode.data.bind (fun d => d.hook)
  if vnode.data.isSome then do
    if (← isPatchable (fuel + 1) vnode) then
      let s := st1.emitModuleHooks HookName.update (cbs E (fun m => m.update)) vnode
      pure (if (hook.map (fun h => h.update)) = some true then
        s.emit (Op.dataHook HookName.update vnode) else s)
    else pure st1
  else pure st1

/-- The part of `patchVnode` that brings the children, or the text, of the backend node up
to date: `if (isUndef(vnode.text)) { ... } else if (oldVnode.text !== vnode.text) { ... }`;
`vnode` has the backend node of `oldVnode` already. -/
def patchVnodeChildren (E : Env) (fuel : Nat) (patchVnode : PatchFn) (createElm : CreateFn)
    (st2 : St) (queue : Queue) (oldVnode vnode : VNode) (removeOnly : Bool) :
    Res (St × Queue × VNode) :=
  let elm := oldVnode.elm
  match vnode.text with
  | none =>
    match oldVnode.children, vnode.children with
    | some oldCh, some ch =>
      if oldVnode.childrenRef ≠ vnode.childrenRef then do
        let L ← updateChildren E fuel patchVnode createElm st2 queue elm (oldCh.map some) ch
          removeOnly
        pure (L.st, L.queue, { vnode with children := some L.newCh })
      else pure (st2, queue, vnode)
    | none, some ch => do
      let s ← (if oldVnode.text.isSome then setTextContentAt st2 elm "" else pure st2)
      let a ← addVnodes createElm s queue elm none ch 0 ((ch.length : Int) - 1)
      pure (a.1, a.2.1, { vnode with children := some a.2.2 })
    | some oldCh, none => do
      let s ← removeVnodes E fuel st2 (oldCh.map some) 0 ((oldCh.length : Int) - 1)
      pure (s, queue, vnode)
    | none, none => do
      let s ← (if oldVnode.text.isSome then setTextContentAt st2 elm "" else pure st2)
      pure (s, queue, vnode)
  | some text =>
    if oldVnode.text ≠ some text then do
      let s ← setTextContentAt st2 elm text
      pure (s, queue, vnode)
    else pure (st2, queue, vnode)

/-- The function `patchVnode(oldVnode, vnode, insertedVnodeQueue, removeOnly)`; the
result carries `vnode` as the call leaves it. -/
def patchVnode (E : Env) :
    Nat → St → Queue → VNode → VNode → Bool → Res (St × Queue × VNode)
  | 0, _, _, _, _, _ => throw Err.outOfFuel
  | fuel + 1, st, queue, oldVnode, vnode0, removeOnly =>
    if oldVnode.oid = vnode0.oid then pure (st, queue, vnode0)
    else
      let elm := oldVnode.elm
      let vnode : VNode := { vnode0 with elm := elm }
      if oldVnode.isAsyncPlaceholder then
        match vnode.asyncFactory with
        | none => throw Err.typeError
        | some f =>
          if f.resolved then do
            let h ← hydrate E (createElm E) fuel st queue oldVnode.elm vnode false
            pure (h.1, h.2.1, h.2.2.1)
          else pure (st, queue, { vnode with isAsyncPlaceholder := true })
      else if vnode.isStatic && oldVnode.isStatic && keyEq vnode.key oldVnode.key &&
          (vnode.isCloned || vnode.isOnce) then
        pure (st, queue, { vnode with componentInstance := oldVnode.componentInstance })
      else do
        let hook := vnode.data.bind (fun d => d.hook)
        let st1 := if (hook.map (fun h => h.prepatch)) = some true then
            st.emit (Op.dataHook HookName.prepatch vnode) else st
        let st2 ← invokeUpdateHooks E fuel st1 vnode
        let r ← patchVnodeChildren E fuel (fun s q o n => patchVnode E fuel s q o n false)
          (createElm E fuel) st2 queue oldVnode vnode removeOnly
        let st3 := if (hook.map (fun h => h.postpatch)) = some true then
            r.1.emit (Op.dataHook HookName.postpatch r.2.2) else r.1
        pure (st3, r.2.1, r.2.2)

/-- The function `invokeInsertHook(vnode, queue, initial)`; the result carries `vnode`
as the call leaves it (its `parent.data.pendingInsert` may be set). -/
def invokeInsertHook (st : St) (vnode : VNode) (queue : Queue) (initial : Bool) :
    Res (St × VNode) :=
  match initial, vnode.parent with
  | true, some parent =>
    match parent.data with
    | none => throw Err.typeError
    | some data =>
      pure (st, { vnode with
        parent := some { parent with data := some { data with pendingInsert := some queue } } })
  | _, _ => do
    let s ← queue.foldlM
      (fun (s : St) (v : VNode) =>
        match v.data.bind (fun d => d.hook.bind (fun h => h.insert)) with
        | some _ => pure (s.emit (Op.dataHook HookName.insert v))
        | none => throw Err.typeError) st
    pure (s, vnode)

/-- The function `emptyNodeAt(elm)`; `oid` is the identity of the new vnode and `aid`
that of its empty `children` array. -/
def emptyNodeAt (st : St) (oid aid : Nat) (elm : Nat) : Res VNode :=
  match nodeOps.tagName st elm with
  | some tag => pure (VNode.new oid aid (some tag.toLower) (some {}) (some []) none (some elm)
      none none none)
  | none => throw Err.typeError

/-- The loop `while (ancestor) { ... }` of `patch` over the placeholder ancestors of a
replaced component root: the result carries the chain of ancestors as updated. -/
def updateAncestors (E : Env) (elm : Option Nat) (patchable : Bool) :
    Nat → St → Option VNode → Res (St × Option VNode)
  | _, st, none => pure (st, none)
  | 0, _, some _ => throw Err.outOfFuel
  | fuel + 1, st, some ancestor0 => do
    let st1 := st.emitModuleHooks HookName.destroy (cbs E (fun m => m.destroy)) ancestor0
    let ancestor : VNode := { ancestor0 with elm := elm }
    let st2 ← (if patchable then
        let s := st1.emitModuleHooks HookName.create (cbs E (fun m => m.create)) ancestor
        match ancestor.data.bind (fun d => d.hook.bind (fun h => h.insert)) with
        | none => throw Err.typeError
        | some ins =>
          pure (if ins.merged then
            ((List.range ins.fns).tail).foldl (fun s i => s.emit (Op.insertFn i ancestor)) s
            else s)
      else pure (st1.emit (Op.registerRef ancestor)))
    let r ← updateAncestors E elm patchable fuel st2 ancestor.parent
    pure (r.1, some { ancestor with parent := r.2 })

/-- The first argument of `patch`: a vnode, or a live backend element (the value has a
`nodeType`). -/
inductive OldNode
  | vnode (v : VNode)
  | element (e : Nat)

/-- The function `patch(oldVnode, vnode, hydrating, removeOnly)` returned by
`createPatchFunction`. The result holds `vnode` as the call leaves it (when it is
defined) and the value returned. When `vnode` is undefined and `oldVnode` is a live
backend element, `invokeDestroyHook` finds no `data` on the element, nor on the backend
nodes its `children` may hold: no hook is invoked. When `oldVnode` and `vnode` are one
object and the call replaces it, `createElm` has overwritten `oldVnode.elm` by the time
`removeVnodes(parentElm, [oldVnode], 0, 0)` reads it. -/
def patch (E : Env) (fuel : Nat) (st : St) (oldVnode : Option OldNode) (vnode : Option VNode)
    (hydrating removeOnly : Bool) : Res (St × Option VNode × Option Nat) :=
  match vnode with
  | none =>
    match oldVnode with
    | some (OldNode.vnode o) => do
      let s ← invokeDestroyHook E fuel st o
      pure (s, none, none)
    | some (OldNode.element _) => pure (st, none, none)
    | none => pure (st, none, none)
  | some vnode =>
    let finish (s : St) (q : Queue) (v : VNode) (isInitialPatch : Bool) :
        Res (St × Option VNode × Option Nat) := do
      let r ← invokeInsertHook s v q isInitialPatch
      pure (r.1, some r.2, r.2.elm)
    let replace (s : St) (q : Queue) (o : VNode) (vnode : VNode) :
        Res (St × Option VNode × Option Nat) :=
      match o.elm with
      | none => throw Err.typeError
      | some oldElm => do
        let parentElm := nodeOps.parentNode s oldElm
        let c ← createElm E fuel s q vnode
          (if s.dom.leaveCb oldElm then none else parentElm)
          (nodeOps.nextSibling s oldElm) false false
        let v := c.2.2
        let a ← (match v.parent with
          | some _ => do
            let patchable ← isPatchable fuel v
            updateAncestors E v.elm patchable fuel c.1 v.parent
          | none => pure (c.1, none))
        let v1 : VNode := { v with parent := a.2 }
        let o1 : VNode := if o.oid = vnode.oid then v1 else o
        let s1 ← (match parentElm with
          | some _ => removeVnodes E fuel a.1 [some o1] 0 0
          | none => if o1.tag.isSome then invokeDestroyHook E fuel a.1 o1 else pure a.1)
        finish s1 c.2.1 v1 false
    match oldVnode with
    | none => do
      let c ← createElm E fuel st [] vnode none none false false
      finish c.1 c.2.1 c.2.2 true
    | some (OldNode.vnode o) => do
      if (← sameVnodeAt E (some o) (some vnode)) then do
        let r ← patchVnode E fuel st [] o vnode removeOnly
        finish r.1 r.2.1 r.2.2 false
      else replace st [] o vnode
    | some (OldNode.element e) => do
      let ssr := (nodeOps.tagName st e).isSome && decide (E.ssrAttr ∈ st.dom.attrs e)
      let st1 : St := if ssr then
          { st with
            dom := { st.dom with
              attrs := Function.update st.dom.attrs e ((st.dom.attrs e).erase E.ssrAttr) }
            log := st.log ++ [Op.removeAttribute e E.ssrAttr] }
        else st
      let attempt ← (if hydrating || ssr then do
          let h ← hydrate E (createElm E) fuel st1 [] (some e) vnode false
          pure (some h)
        else pure none)
      match attempt with
      | some (s, q, v, true) => do
        let r ← invokeInsertHook s v q true
        pure (r.1, some r.2, some e)
      | some (s, q, v, false) =>
        let s1 := if E.production then s else
          s.emit (Op.warn "The client-side rendered virtual DOM tree is not matching server-rendered content.")
        do
          let o ← emptyNodeAt s1 s1.nextOid (s1.nextOid + 1) e
          replace { s1 with nextOid := s1.nextOid + 2 } q o v
      | none => do
        let o ← emptyNodeAt st1 st1.nextOid (st1.nextOid + 1) e
        replace { st1 with nextOid := st1.nextOid + 2 } [] o vnode

/-! ## The reactivity engine (`src/core/observer/index.js`)

Objects live in a heap and are referred to by address, so that values can be shared and
cyclic. The class `Dep` (`./dep`) is not part of the analysed sources. -/

/-- A JavaScript value. Numbers other than `NaN` are integers; an object (array, record
or any other non-function object) is the address of its record in the heap. -/
inductive Val
  | undefined
  | null
  | bool (b : Bool)
  | num (n : Int)
  | nan
  | str (s : String)
  | ref (a : Nat)
  deriving DecidableEq, Repr

/-- Strict equality `a === b`: `NaN` differs from itself, objects are compared by
address. -/
def Val.strictEq (a b : Val) : Bool :=
  match a, b with
  | Val.nan, _ => false
  | _, Val.nan => false
  | a, b => decide (a = b)

/-- What `Array.isArray` and `isPlainObject` tell about an object. -/
inductive ObjKind
  | array
  | plain
  | other
  deriving DecidableEq, Repr

/-- A getter or setter function of a property: a function of the application, or the
`reactiveGetter` / `reactiveSetter` closure made by one call of `defineReactive`. -/
inductive Fn
  | user (id : Nat)
  | reactive (cell : Nat)
  deriving DecidableEq, Repr

/-- An own property, as its descriptor: a data property holds `value`; an accessor
property (`isAccessor`) holds `get` and `set`. -/
structure Slot where
  value : Val := Val.undefined
  get : Option Fn := none
  set : Option Fn := none
  isAccessor : Bool := false
  configurable : Bool := true
  enumerable : Bool := true
  writable : Bool := true
  deriving DecidableEq, Repr

/-- The own property `__ob__` of an object: absent, a value that is not an `Observer`
(with its `configurable` attribute), or the observer with the given identity. -/
inductive ObProp
  | absent
  | foreign (configurable : Bool)
  | observer (id : Nat)
  deriving DecidableEq, Repr

/-- An object of the heap: `isVNode` is `value instanceof VNode`, `isVue` the truth value
of `value._isVue`, `elems` the elements of an array, `props` the own string-keyed
properties in creation order, `augmented` whether the array methods were replaced by
`protoAugment` or `copyAugment`, `frozen` whether the array was passed to
`Object.freeze` (its elements and its length are then neither writable nor configurable,
and it is not extensible). -/
structure ObjRec where
  kind : ObjKind := ObjKind.other
  isVNode : Bool := false
  extensible : Bool := true
  isVue : Bool := false
  ob : ObProp := ObProp.absent
  elems : List Val := []
  props : List (String × Slot) := []
  augmented : Bool := false
  frozen : Bool := false
  deriving DecidableEq, Repr

instance : Inhabited ObjRec := ⟨{}⟩

/-- An instance of the class `Observer`. -/
structure Observer where
  value : Nat
  dep : Nat
  vmCount : Nat
  deriving DecidableEq, Repr

/-- The closure variables of one call of `defineReactive`: `childOb` is the observer
when the variable holds one (it holds `false` or `undefined` otherwise). -/
structure Cell where
  obj : Nat
  key : String
  dep : Nat
  val : Val
  childOb : Option Nat
  getter : Option Fn
  setter : Option Fn
  customSetter : Bool
  shallow : Bool
  deriving DecidableEq, Repr

/-- The state of the reactivity engine. `deps` holds, for every `Dep` created, its
subscribers; `target` is `Dep.target`; `notified` lists the calls of `dep.notify()` in
order and `updated` the subscribers those calls reached; `customSetterCalls` counts the
calls of a `customSetter`. -/
structure OSt where
  heap : List ObjRec
  observers : List Observer
  cells : List Cell
  deps : List (List Nat)
  target : Option Nat
  notified : List Nat
  updated : List Nat
  customSetterCalls : Nat
  shouldObserve : Bool
  serverRendering : Bool
  production : Bool
  deriving DecidableEq, Repr

/-- The functions of the application that are getters and setters of properties: what a
getter returns on a heap, and what a setter does to the heap. -/
structure User where
  get : Nat → List ObjRec → Val
  set : Nat → Val → List ObjRec → List ObjRec

/-- The object at an address. -/
def OSt.obj (st : OSt) (a : Nat) : ObjRec := st.heap.getD a default

/-- Replace the object at an address. -/
def OSt.setObj (st : OSt) (a : Nat) (o : ObjRec) : OSt := { st with heap := st.heap.set a o }

/-- The own property `key` of the object at `a`. -/
def OSt.slot (st : OSt) (a : Nat) (key : String) : Option Slot := (st.obj a).props.lookup key

/-- Replace or add the own property `key` (a replaced property keeps its place). -/
def setSlot (key : String) (slot : Slot) : List (String × Slot) → List (String × Slot)
  | [] => [(key, slot)]
  | (k, s) :: rest => if k = key then (key, slot) :: rest else (k, s) :: setSlot key slot rest

/-- Modelled from the spec: `new Dep()` (section 3, "Dep: identity: unique id.
Attributes: ordered/set-like collection of subscriber references"), a registry with no
subscriber yet. The result is the identity of the new `Dep`. -/
def newDep (st : OSt) : OSt × Nat := ({ st with deps := st.deps ++ [[]] }, st.deps.length)

/-- Modelled from the spec: `dep.depend()` (section 2, "register-current-subscriber-as-
interested"; section 3, "duplicates must be rejected"): the active computation, if any,
becomes a subscriber unless it is one already. -/
def depend (st : OSt) (dep : Nat) : OSt :=
  match st.target with
  | none => st
  | some w =>
    if w ∈ st.deps.getD dep [] then st
    else { st with deps := st.deps.set dep (st.deps.getD dep [] ++ [w]) }

/-- Modelled from the spec: `dep.notify()` (section 2, "notify-all-subscribers"; section
5, "ordering among multiple subscribers of the same Dep is insertion order"). -/
def notify (st : OSt) (dep : Nat) : OSt :=
  { st with notified := st.notified ++ [dep], updated := st.updated ++ st.deps.getD dep [] }

/-- The function `dependArray(value)` on the elements of an array. -/
def dependArray : Nat → OSt → List Val → Res OSt
  | 0, _, _ => throw Err.outOfFuel
  | _ + 1, st, [] => pure st
  | fuel + 1, st, e :: rest =>
    match e with
    | Val.ref a => do
      let o := st.obj a
      let st1 ← (match o.ob with
        | ObProp.absent => pure st
        | ObProp.foreign _ => throw Err.typeError
        | ObProp.observer i =>
          match st.observers.get? i with
          | some ob => pure (depend st ob.dep)
          | none => throw Err.typeError)
      let st2 ← (if o.kind = ObjKind.array then dependArray fuel st1 o.elems else pure st1)
      dependArray fuel st2 rest
    | _ => dependArray fuel st rest

/-- The function `reactiveGetter()` of a cell, and through it the call of any getter:
the result is the state and the value returned. -/
def callGetter (U : User) : Nat → OSt → Fn → Res (OSt × Val)
  | 0, _, _ => throw Err.outOfFuel
  | _ + 1, st, Fn.user g => pure (st, U.get g st.heap)
  | fuel + 1, st, Fn.reactive c =>
    match st.cells.get? c with
    | none => throw Err.typeError
    | some cell => do
      let r ← (match cell.getter with
        | some g => callGetter U fuel st g
        | none => pure (st, cell.val))
      let st1 := r.1
      let value := r.2
      -- the closure variables are read again: the getter may have run this cell
      let childOb := match st1.cells.get? c with
        | some cell1 => cell1.childOb
        | none => cell.childOb
      match st1.target with
      | none => pure (st1, value)
      | some _ =>
        let st2 := depend st1 cell.dep
        match childOb with
        | none => pure (st2, value)
        | some i =>
          match st2.observers.get? i with
          | none => throw Err.typeError
          | some ob =>
            let st3 := depend st2 ob.dep
            match value with
            | Val.ref a =>
              if (st3.obj a).kind = ObjKind.array then do
                let st4 ← dependArray fuel st3 (st3.obj a).elems
                pure (st4, value)
              else pure (st3, value)
            | _ => pure (st3, value)

/-- The read `obj[key]` of an own property. -/
def readProp (U : User) (fuel : Nat) (st : OSt) (obj : Nat) (key : String) : Res (OSt × Val) :=
  match st.slot obj key with
  | none => pure (st, Val.undefined)
  | some slot =>
    if slot.isAccessor then
      match slot.get with
      | some g => callGetter U fuel st g
      | none => pure (st, Val.undefined)
    else pure (st, slot.value)

/-- The type of `observe` once the recursion bound is fixed: `observe(value)`. -/
abbrev ObserveFn := OSt → Val → Res (OSt × Option Nat)

/-- The function `defineReactive(obj, key, val, customSetter, shallow)`; `val` is `none`
when the call passes two arguments. -/
def defineReactive (U : User) (observe : ObserveFn) (fuel : Nat) (st : OSt) (obj : Nat)
    (key : String) (val : Option Val) (customSetter shallow : Bool) : Res OSt :=
  let d := newDep st
  let st1 := d.1
  let dep := d.2
  let property := st1.slot obj key
  if (property.map (fun p => p.configurable)) = some false then pure st1
  else do
    let getter := property.bind (fun p => p.get)
    let setter := property.bind (fun p => p.set)
    let r ← (match val with
      | some v => pure (st1, v)
      | none =>
        if getter.isNone || setter.isSome then readProp U fuel st1 obj key
        else pure (st1, Val.undefined))
    let c ← (if shallow then pure (r.1, none) else observe r.1 r.2)
    let st2 := c.1
    if property.isNone && !(st2.obj obj).extensible then throw Err.typeError
    else
      let cell : Cell :=
        { obj := obj, key := key, dep := dep, val := r.2, childOb := c.2,
          getter := getter, setter := setter, customSetter := customSetter,
          shallow := shallow }
      let id := st2.cells.length
      let slot : Slot :=
        { value := Val.undefined, get := some (Fn.reactive id), set := some (Fn.reactive id),
          isAccessor := true, configurable := true, enumerable := true, writable := true }
      let o := st2.obj obj
      pure ({ st2 with cells := st2.cells ++ [cell] }.setObj obj
        { o with props := setSlot key slot o.props })

/-- The method `walk(obj)` over the keys `Object.keys(obj)`. -/
def walk (U : User) (observe : ObserveFn) (fuel : Nat) (obj : Nat) : OSt → List String → Res OSt
  | st, [] => pure st
  | st, key :: rest => do
    let st1 ← defineReactive U observe fuel st obj key none false false
    walk U observe fuel obj st1 rest

/-- The method `observeArray(items)`. -/
def observeArray (observe : ObserveFn) : OSt → List Val → Res OSt
  | st, [] => pure st
  | st, item :: rest => do
    let r ← observe st item
    observeArray observe r.1 rest

/-- The constructor `new Observer(value)`; the result is the identity of the observer. -/
def Observer.new (U : User) (observe : ObserveFn) (fuel : Nat) (st : OSt) (value : Nat) :
    Res (OSt × Nat) :=
  let d := newDep st
  let id := d.1.observers.length
  let ob : Observer := { value := value, dep := d.2, vmCount := 0 }
  let st1 : OSt := { d.1 with observers := d.1.observers ++ [ob] }
  let o := st1.obj value
  if o.ob = ObProp.foreign false then throw Err.typeError
  else
    let st2 := st1.setObj value { o with ob := ObProp.observer id }
    if o.kind = ObjKind.array then do
      let st3 := st2.setObj value { st2.obj value with augmented := true }
      let st4 ← observeArray observe st3 o.elems
      pure (st4, id)
    else do
      let keys := (o.props.filter (fun p => p.2.enumerable)).map (fun p => p.1)
      let st3 ← walk U observe fuel value st2 keys
      pure (st3, id)

/-- The function `observe(value, asRootData)`; the result is the identity of the
observer returned, `none` when the call returns `undefined`. -/
def observe (U : User) : Nat → OSt → Val → Bool → Res (OSt × Option Nat)
  | 0, _, _, _ => throw Err.outOfFuel
  | fuel + 1, st, value, asRootData =>
    match value with
    | Val.ref a =>
      let o := st.obj a
      if o.isVNode then pure (st, none)
      else do
        let r ← (match o.ob with
          | ObProp.observer i => pure (st, some i)
          | _ =>
            if st.shouldObserve && !st.serverRendering &&
                (o.kind = ObjKind.array || o.kind = ObjKind.plain) &&
                o.extensible && !o.isVue then do
              let n ← Observer.new U (fun s v => observe U fuel s v false) fuel st a
              pure (n.1, some n.2)
            else pure (st, none))
        match asRootData, r.2 with
        | true, some i =>
          match r.1.observers.get? i with
          | some ob =>
            pure ({ r.1 with observers := r.1.observers.set i { ob with vmCount := ob.vmCount + 1 } },
              some i)
          | none => throw Err.typeError
        | _, _ => pure r
    | _ => pure (st, none)

/-- The function `reactiveSetter(newVal)` of a cell, and through it the call of any
setter. -/
def callSetter (U : User) : Nat → OSt → Fn → Val → Res OSt
  | 0, _, _, _ => throw Err.outOfFuel
  | _ + 1, st, Fn.user s, newVal => pure { st with heap := U.set s newVal st.heap }
  | fuel + 1, st, Fn.reactive c, newVal =>
    match st.cells.get? c with
    | none => throw Err.typeError
    | some cell => do
      let r ← (match cell.getter with
        | some g => callGetter U fuel st g
        | none => pure (st, cell.val))
      let st1 := r.1
      let value := r.2
      if newVal.strictEq value || (!newVal.strictEq newVal && !value.strictEq value) then
        pure st1
      else
        let st2 : OSt := if !st1.production && cell.customSetter then
            { st1 with customSetterCalls := st1.customSetterCalls + 1 } else st1
        if cell.getter.isSome && cell.setter.isNone then pure st2
        else do
          let st3 ← (match cell.setter with
            | some f => callSetter U fuel st2 f newVal
            | none =>
              match st2.cells.get? c with
              | some cell1 => pure { st2 with cells := st2.cells.set c { cell1 with val := newVal } }
              | none => throw Err.typeError)
          let o ← (if cell.shallow then pure (st3, none) else observe U fuel st3 newVal false)
          let st4 := o.1
          let st5 : OSt := match st4.cells.get? c with
            | some cell1 => { st4 with cells := st4.cells.set c { cell1 with childOb := o.2 } }
            | none => st4
          pure (notify st5 cell.dep)


/-! ### `set` and `del`

The module is an ES module, so its code runs in strict mode: an assignment that cannot
store and a `delete` that cannot remove raise a `TypeError`. A record inherits from
`Object.prototype` alone and an array from `Array.prototype` as well. An array is dense
(it has no hole), and its elements and its length are data properties that are writable
and configurable unless the array is frozen: an array whose elements were given other
attributes one by one (`Object.defineProperty`, `Object.seal`) is not represented. An own
property `__ob__` that is not an `Observer` is taken to be an object without the members
of an `Observer`. -/

/-- A diagnostic of `set` or `del`, by its first words. -/
inductive Warning
  | cannotSet
  | avoidAdding
  | cannotDelete
  | avoidDeleting
  deriving DecidableEq, Repr

/-- Modelled from the spec: `isUndef(v)` of `../util/index` (section 4.1, "Malformed
input (null/primitive target to set/del)"): `v` is `undefined` or `null`. -/
def Val.isUndef : Val → Bool
  | Val.undefined => true
  | Val.null => true
  | _ => false

/-- Modelled from the spec: `isPrimitive(v)` of `../util/index` (section 4.1, "Malformed
input (null/primitive target to set/del)"): `v` is a string, a number or a boolean. -/
def Val.isPrimitive : Val → Bool
  | Val.bool _ => true
  | Val.num _ => true
  | Val.nan => true
  | Val.str _ => true
  | _ => false

/-- The number behind `other repr` is a non-negative integer (of `2^53` or more): its
string has no sign and is made of digits, or has an exponent `e+`. -/
def integerRepr (repr : String) : Bool :=
  decide (repr.toList.head? ≠ some '-') && decide (repr ≠ "Infinity") &&
    (repr.toList.all Char.isDigit || decide ('+' ∈ repr.toList))

/-- Modelled from the spec: `isValidArrayIndex(key)` of `../util/index` (section 4.1, "a
valid non-negative integer key"): the index the key stands for, when it is a non-negative
integer or a string of decimal digits. An integer of `2^53` or more is above every array
length, and what `set` and `del` do with it does not depend on its value: its index is
given as `2^53`. -/
def isValidArrayIndex : Key → Option Nat
  | Key.num n => if 0 ≤ n then some n.toNat else none
  | Key.str s => s.toNat?
  | Key.other repr => if integerRepr repr then some 9007199254740992 else none
  | Key.nan => none

/-- The greatest length of an array, `2^32 - 1`. -/
def maxArrayLength : Nat := 4294967295

/-- The member names of `Array.prototype` that `Object.prototype` does not have. -/
def arrayPrototypeNames : List String :=
  ["concat", "copyWithin", "entries", "every", "fill", "filter", "find", "findIndex",
   "forEach", "includes", "indexOf", "join", "keys", "lastIndexOf", "map", "pop", "push",
   "reduce", "reduceRight", "reverse", "shift", "slice", "some", "sort", "splice",
   "unshift", "values"]

/-- The assignment `array.length = n` on the elements. -/
def setLength (elems : List Val) (n : Nat) : List Val :=
  elems.take n ++ List.replicate (n - elems.length) Val.undefined

/-- `Array.prototype.splice(i, 1, v)` on the elements, for `i` at most the length. -/
def spliceReplace (elems : List Val) (i : Nat) (v : Val) : List Val :=
  elems.take i ++ v :: elems.drop (i + 1)

/-- `Array.prototype.splice(i, 1)` on the elements. -/
def spliceRemove (elems : List Val) (i : Nat) : List Val :=
  elems.take i ++ elems.drop (i + 1)

/-- Modelled from the spec: what the method `splice` of `arrayMethods` (`./array`) does
after the native `splice` on an observed array (section 4.1, observe (b): "each such call
also triggers observe() on any newly introduced elements and notifies the Observer's
Dep"). -/
def spliceHook (observe : ObserveFn) (st : OSt) (a : Nat) (inserted : List Val) : Res OSt :=
  match (st.obj a).ob with
  | ObProp.observer i =>
    match st.observers.get? i with
    | some ob => do
      let st1 ← observeArray observe st inserted
      pure (notify st1 ob.dep)
    | none => throw Err.typeError
  | _ => throw Err.typeError

/-- The statements `target.length = Math.max(target.length, i); target.splice(i, 1, val)`
on the array at `a`. On a frozen array the assignment to `length`, which is not writable,
raises a `TypeError`. -/
def arraySet (observe : ObserveFn) (st : OSt) (a : Nat) (i : Nat) (val : Val) : Res OSt :=
  let o := st.obj a
  if o.frozen then throw Err.typeError
  else if maxArrayLength < i then throw Err.rangeError
  else
    let grown := setLength o.elems (max o.elems.length i)
    if o.elems.length ≤ i && !o.extensible then throw Err.typeError
    else if maxArrayLength < i + 1 then throw Err.rangeError
    else
      let st1 := st.setObj a { o with elems := spliceReplace grown i val }
      if o.augmented then spliceHook observe st1 a [val] else pure st1

/-- The statement `target.splice(i, 1)` on the array at `a`. On a frozen array `splice`
raises a `TypeError` (at the latest when it stores the length). -/
def arrayDel (observe : ObserveFn) (st : OSt) (a : Nat) (i : Nat) : Res OSt :=
  let o := st.obj a
  if o.frozen then throw Err.typeError
  else
    let st1 := st.setObj a { o with elems := spliceRemove o.elems i }
    if o.augmented then spliceHook observe st1 a [] else pure st1

/-- The test `hasOwn(obj, name)` for a name that is not an index of an array: the
string-keyed properties, the length of an array, and the property `__ob__`. -/
def hasOwn (o : ObjRec) (name : String) : Bool :=
  (o.props.lookup name).isSome || (o.kind = ObjKind.array && name = "length") ||
    (name = "__ob__" && o.ob != ObProp.absent)

/-- The test `name in Object.prototype`. -/
def inObjectPrototype (name : String) : Bool := decide (name ∈ objectPrototypeNames)

/-- The test `name in obj` for a name that is not an index of an array: an own property
or an inherited member. -/
def hasProperty (o : ObjRec) (name : String) : Bool :=
  hasOwn o name || inObjectPrototype name ||
    (o.kind = ObjKind.array && decide (name ∈ arrayPrototypeNames))

/-- The assignment `target[name] = val` on the object at `a`, for a name that is not an
index of an array. A length that is not a number in range raises a `RangeError`. -/
def assignProp (U : User) (fuel : Nat) (st : OSt) (a : Nat) (name : String) (val : Val) :
    Res OSt :=
  let o := st.obj a
  match o.props.lookup name with
  | some slot =>
    if slot.isAccessor then
      match slot.set with
      | some f => callSetter U fuel st f val
      | none => throw Err.typeError
    else if slot.writable then
      pure (st.setObj a { o with props := setSlot name { slot with value := val } o.props })
    else throw Err.typeError
  | none =>
    if name = "__ob__" then
      match o.ob with
      | ObProp.absent =>
        if o.extensible then pure (st.setObj a { o with ob := ObProp.foreign true })
        else throw Err.typeError
      | ObProp.foreign c => pure (st.setObj a { o with ob := ObProp.foreign c })
      | ObProp.observer _ => pure (st.setObj a { o with ob := ObProp.foreign true })
    else if o.kind = ObjKind.array && name = "length" then
      if o.frozen then throw Err.typeError
      else
        match val with
        | Val.num n =>
          if 0 ≤ n ∧ n.toNat ≤ maxArrayLength then
            pure (st.setObj a { o with elems := setLength o.elems n.toNat })
          else throw Err.rangeError
        | _ => throw Err.rangeError
    else if name = "__proto__" then pure st
    else if o.extensible then
      pure (st.setObj a { o with props := setSlot name { value := val } o.props })
    else throw Err.typeError

/-- What a call of `set` or `del` leaves: the state, the value returned and the
diagnostics emitted. -/
structure Outcome where
  st : OSt
  ret : Val
  warnings : List Warning
  deriving DecidableEq, Repr

/-- The function `set(target, key, val)`. -/
def set (U : User) (fuel : Nat) (st : OSt) (target : Val) (key : Key) (val : Val) :
    Res Outcome :=
  let warnings : List Warning :=
    if !st.production && (target.isUndef || target.isPrimitive) then [Warning.cannotSet]
    else []
  match target with
  | Val.ref a =>
    let o := st.obj a
    match (if o.kind = ObjKind.array then isValidArrayIndex key else none) with
    | some i => do
      let st1 ← arraySet (fun s v => observe U fuel s v false) st a i val
      pure { st := st1, ret := val, warnings := warnings }
    | none =>
      let name := propName key
      if hasProperty o name && !inObjectPrototype name then do
        let st1 ← assignProp U fuel st a name val
        pure { st := st1, ret := val, warnings := warnings }
      else
        let avoid : Outcome :=
          { st := st, ret := val,
            warnings := warnings ++ (if st.production then [] else [Warning.avoidAdding]) }
        if o.isVue then pure avoid
        else
          match o.ob with
          | ObProp.foreign _ => throw Err.typeError
          | ObProp.absent => do
            let st1 ← assignProp U fuel st a name val
            pure { st := st1, ret := val, warnings := warnings }
          | ObProp.observer i =>
            match st.observers.get? i with
            | none => throw Err.typeError
            | some ob =>
              if ob.vmCount ≠ 0 then pure avoid
              else do
                let st1 ← defineReactive U (fun s v => observe U fuel s v false) fuel st
                  ob.value name (some val) false false
                pure { st := notify st1 ob.dep, ret := val, warnings := warnings }
  | _ => throw Err.typeError

/-- The statement `delete target[name]` on the object at `a`, for an own property. -/
def deleteProp (st : OSt) (a : Nat) (name : String) : Res OSt :=
  let o := st.obj a
  match o.props.lookup name with
  | some slot =>
    if slot.configurable then
      pure (st.setObj a { o with props := o.props.filter (fun p => p.1 ≠ name) })
    else throw Err.typeError
  | none =>
    if name = "__ob__" then
      if o.ob = ObProp.foreign false then throw Err.typeError
      else pure (st.setObj a { o with ob := ObProp.absent })
    else throw Err.typeError

/-- The function `del(target, key)`. -/
def del (U : User) (fuel : Nat) (st : OSt) (target : Val) (key : Key) : Res Outcome :=
  let warnings : List Warning :=
    if !st.production && (target.isUndef || target.isPrimitive) then [Warning.cannotDelete]
    else []
  match target with
  | Val.ref a =>
    let o := st.obj a
    match (if o.kind = ObjKind.array then isValidArrayIndex key else none) with
    | some i => do
      let st1 ← arrayDel (fun s v => observe U fuel s v false) st a i
      pure { st := st1, ret := Val.undefined, warnings := warnings }
    | none =>
      let name := propName key
      let avoid : Outcome :=
        { st := st, ret := Val.undefined,
          warnings := warnings ++ (if st.production then [] else [Warning.avoidDeleting]) }
      let nothing : Outcome := { st := st, ret := Val.undefined, warnings := warnings }
      if o.isVue then pure avoid
      else
        match o.ob with
        | ObProp.foreign _ => if !hasOwn o name then pure nothing else throw Err.typeError
        | ObProp.absent =>
          if !hasOwn o name then pure nothing
          else do
            let st1 ← deleteProp st a name
            pure { st := st1, ret := Val.undefined, warnings := warnings }
        | ObProp.observer i =>
          match st.observers.get? i with
          | none => throw Err.typeError
          | some ob =>
            if ob.vmCount ≠ 0 then pure avoid
            else if !hasOwn o name then pure nothing
            else do
              let st1 ← deleteProp st a name
              pure { st := notify st1 ob.dep, ret := Val.undefined, warnings := warnings }
  | Val.undefined => throw Err.typeError
  | Val.null => throw Err.typeError
  | Val.str s =>
    let name := propName key
    if name = "length" || name.toNat?.any (fun i => decide (i < s.length)) then
      throw Err.typeError
    else pure { st := st, ret := Val.undefined, warnings := warnings }
  | _ => pure { st := st, ret := Val.undefined, warnings := warnings }

/-! ## Statements of the specification and inputs used in examples

The definitions of this part are not embeddings of source functions: they word the
specification, name the invariants used in proofs, or build concrete inputs. -/

/-- "`domProps.innerHTML` or `domProps.textContent` set": one of the two is defined. -/
def rawContentSet (v : VNode) : Bool :=
  match v.data with
  | none => false
  | some d =>
    match d.domProps with
    | none => false
    | some p => p.innerHTML.isSome || p.textContent.isSome

/-- The `attrs.type` of a vnode, undefined when `data` or `attrs` is. -/
def attrsType (v : VNode) : Option String :=
  v.data.bind (fun d => d.attrs.bind (fun a => a.type))

/-- "Is a text-input type": `attrs.type` is a string of the table. -/
def isTextType (isTextInputType : TypeVal → Bool) (v : VNode) : Bool :=
  match attrsType v with
  | some s => isTextInputType (TypeVal.str s)
  | none => false

/-- The relation "same logical node" in the words of the specification: equal keys, and
either equal tags, equal `isComment`, both or neither with a data payload, neither with
raw content set and, on an `input`, equal or both text-input `attrs.type`; or both
unresolved async placeholders of the same factory, which has no error. -/
def sameVnodeSpec (isTextInputType : TypeVal → Bool) (a b : VNode) : Bool :=
  decide (a.key = b.key) &&
  ((decide (a.tag = b.tag) && decide (a.isComment = b.isComment) &&
      decide (a.data.isSome = b.data.isSome) && !rawContentSet a && !rawContentSet b &&
      (decide (a.tag ≠ some "input") || decide (attrsType a = attrsType b) ||
        (isTextType isTextInputType a && isTextType isTextInputType b))) ||
    (a.isAsyncPlaceholder && b.isAsyncPlaceholder &&
      (match a.asyncFactory, b.asyncFactory with
        | some f, some g => decide (f.id = g.id) && !g.error
        | _, _ => false)))

/-- The table `isTextInputType` of the web platform
(`text,number,password,search,email,tel,url`). -/
def webTextInputType : TypeVal → Bool
  | TypeVal.str s => decide (s ∈ ["text", "number", "password", "search", "email", "tel", "url"])
  | _ => false

/-- An element vnode without data: `new VNode(tag)` with the given key. -/
def elementVNode (oid : Nat) (tag : String) (key : Option Key) : VNode :=
  { VNode.new oid 0 (some tag) none none none none none none none with key := key }

/-- An element vnode with a data payload. -/
def dataVNode (oid : Nat) (tag : String) (data : VNodeData VNode) : VNode :=
  VNode.new oid 0 (some tag) (some data) none none none none none none

/-- The placeholder of an unresolved async component: a comment vnode that carries the
factory, flagged `isAsyncPlaceholder`. -/
def asyncPlaceholder (oid : Nat) (f : AsyncFactory) : VNode :=
  { createEmptyVNode oid "" with asyncFactory := some f, isAsyncPlaceholder := true }

/-- The vnode of the component once the factory has resolved: it has a tag and a data
payload and carries the same factory. -/
def resolvedAsync (oid : Nat) (f : AsyncFactory) : VNode :=
  VNode.new oid 0 (some "vue-component-1-async") (some {}) none none none none none (some f)

/-- Two states of the reactivity engine differ at most in the subscriber lists. -/
def OSt.OnlyDeps (s t : OSt) : Prop :=
  t.heap = s.heap ∧ t.observers = s.observers ∧ t.cells = s.cells ∧ t.target = s.target ∧
  t.notified = s.notified ∧ t.updated = s.updated ∧
  t.customSetterCalls = s.customSetterCalls ∧ t.shouldObserve = s.shouldObserve ∧
  t.serverRendering = s.serverRendering ∧ t.production = s.production

/-- What no call of `observe` undoes: the heap keeps its size and every object its
`instanceof VNode` answer, an object that carries an observer keeps carrying that
observer, and no observer is dropped. -/
def OSt.Ext (s t : OSt) : Prop :=
  s.observers.length ≤ t.observers.length ∧
  t.heap.length = s.heap.length ∧
  ∀ a, (t.obj a).isVNode = (s.obj a).isVNode ∧
    ∀ i, (s.obj a).ob = ObProp.observer i → (t.obj a).ob = ObProp.observer i

/-- A run of later calls `observe(v)` on any values, from a state on. -/
def observeAll (U : User) (fuel : Nat) : OSt → List Val → Res OSt
  | st, [] => pure st
  | st, v :: rest => do
    let r ← observe U fuel st v false
    observeAll U fuel r.1 rest

/-- An application without accessor functions of its own. -/
def noUser : User := { get := fun _ _ => Val.undefined, set := fun _ _ h => h }

/-- An engine state whose heap is the objects given, nothing observed yet. -/
def freshEngine (heap : List ObjRec) : OSt :=
  { heap := heap, observers := [], cells := [], deps := [], target := none, notified := [],
    updated := [], customSetterCalls := 0, shouldObserve := true, serverRendering := false,
    production := false }

/-- The heap of the record `{a: 1}`. -/
def oneRecord : OSt :=
  freshEngine [{ kind := ObjKind.plain, props := [("a", { value := Val.num 1 })] }]

/-- The state `observe` leaves the record `{a: 1}` in: the record carries observer 0 and
its property `a` is the reactive accessor of cell 0. -/
def oneRecordObserved : OSt :=
  { heap := [{ kind := ObjKind.plain, ob := ObProp.observer 0,
               props := [("a", { value := Val.undefined, get := some (Fn.reactive 0),
                                 set := some (Fn.reactive 0), isAccessor := true })] }],
    observers := [{ value := 0, dep := 0, vmCount := 0 }],
    cells := [{ obj := 0, key := "a", dep := 1, val := Val.num 1, childOb := none,
                getter := none, setter := none, customSetter := false, shallow := false }],
    deps := [[], []], target := none, notified := [], updated := [],
    customSetterCalls := 0, shouldObserve := true, serverRendering := false,
    production := false }

/-- The heap of one frozen record: a plain object that is not extensible. -/
def frozenRecord : OSt :=
  freshEngine [{ kind := ObjKind.plain, extensible := false,
                 props := [("a", { value := Val.num 1 })] }]

/-- A relation between engine states that every step of `observe` respects: a read that
changes subscriber lists at most (and nothing without an active computation), a new
`Dep`, a change of the `__ob__`, the properties or the methods of one object, a change of
the observers, and a new cell. -/
structure StepClosed (R : OSt → OSt → Prop) : Prop where
  same : ∀ s, R s s
  andThen : ∀ s t u, R s t → R t u → R s u
  read : ∀ s t, s.OnlyDeps t → (s.target = none → t = s) → R s t
  dep : ∀ s, R s (newDep s).1
  heap : ∀ (s : OSt) a ob props aug,
    R s (s.setObj a { s.obj a with ob := ob, props := props, augmented := aug })
  observers : ∀ (s : OSt) o, R s { s with observers := o }
  cell : ∀ (s : OSt) c, R s { s with cells := s.cells ++ [c] }

/-- The elements of every array are the same in the two states. -/
def OSt.SameElems (s t : OSt) : Prop := ∀ a, (t.obj a).elems = (s.obj a).elems

/-- What no call of `observe` touches: the log of the notifications, the active
computation, the count of `customSetter` calls and the switches; the cells made so far
stay, and without an active computation so do the subscriber lists made so far. -/
def OSt.Keeps (s t : OSt) : Prop :=
  t.notified = s.notified ∧ t.updated = s.updated ∧ t.target = s.target ∧
  t.customSetterCalls = s.customSetterCalls ∧ t.shouldObserve = s.shouldObserve ∧
  t.serverRendering = s.serverRendering ∧ t.production = s.production ∧
  (∃ more, t.cells = s.cells ++ more) ∧
  (s.target = none → ∃ more, t.deps = s.deps ++ more)

/-- The state a write to a slot without custom accessors stores the new value in. -/
def writeState (st : OSt) (c : Nat) (cell : Cell) (newVal : Val) : OSt :=
  let st2 : OSt := if !st.production && cell.customSetter then
      { st with customSetterCalls := st.customSetterCalls + 1 } else st
  { st2 with cells := st2.cells.set c { cell with val := newVal } }

/-- The state a write leaves before the notification: the child observer of the slot is
the result of `observe`. -/
def writeDone (st4 : OSt) (c : Nat) (cell : Cell) (newVal : Val) (ob : Option Nat) : OSt :=
  { st4 with cells := st4.cells.set c { cell with val := newVal, childOb := ob } }

/-- The observed record `{a: 1}` with the computation 7 subscribed to the `Dep` of its
property `a`. -/
def oneRecordWatched : OSt := { oneRecordObserved with deps := [[], [7]] }

/-- The cell of the property `a` of the observed record `{a: 1}`. -/
def cellA : Cell :=
  { obj := 0, key := "a", dep := 1, val := Val.num 1, childOb := none,
    getter := none, setter := none, customSetter := false, shallow := false }

/-- A record `{a: 1}` whose property `a` was made reactive in shallow mode, and an empty
plain record at address 1. -/
def shallowRecord : OSt :=
  { heap := [{ kind := ObjKind.plain,
               props := [("a", { value := Val.undefined, get := some (Fn.reactive 0),
                                 set := some (Fn.reactive 0), isAccessor := true })] },
             { kind := ObjKind.plain }],
    observers := [],
    cells := [{ obj := 0, key := "a", dep := 0, val := Val.num 1, childOb := none,
                getter := none, setter := none, customSetter := false, shallow := true }],
    deps := [[]], target := none, notified := [], updated := [],
    customSetterCalls := 0, shouldObserve := true, serverRendering := false,
    production := false }

/-- A run of `n` reads of the reactive slot of cell `c`, one after the other. -/
def readTimes (U : User) (fuel : Nat) (c : Nat) : Nat → OSt → Res OSt
  | 0, st => pure st
  | n + 1, st => do
    let r ← callGetter U fuel st (Fn.reactive c)
    readTimes U fuel c n r.1

/-- What a read does to the subscriber lists when `w` is the active computation: no list
is dropped, `w` stays where it is registered, and a list that holds `w` at most once
still does. -/
def OSt.Registers (w : Nat) (s t : OSt) : Prop :=
  t.target = s.target ∧ t.cells = s.cells ∧ t.deps.length = s.deps.length ∧
  (s.target = some w → ∀ d, (w ∈ s.deps.getD d [] → w ∈ t.deps.getD d []) ∧
    ((s.deps.getD d []).count w ≤ 1 → (t.deps.getD d []).count w ≤ 1))

/-- The observed record `{a: 1}` while the computation 7 is the active one. -/
def oneRecordActive : OSt := { oneRecordObserved with target := some 7 }

/-- An application whose getters all return 5 and whose setters do nothing. -/
def constUser : User := { get := fun _ _ => Val.num 5, set := fun _ _ h => h }

/-- The cell of a property that had a getter of the application and no setter. -/
def cellGetterOnly : Cell :=
  { obj := 0, key := "a", dep := 0, val := Val.undefined, childOb := none,
    getter := some (Fn.user 0), setter := none, customSetter := false, shallow := false }

/-- A record whose property `a` had a getter and no setter before `defineReactive`, with
the computation 7 subscribed to the `Dep` of the property. -/
def getterRecord : OSt :=
  { heap := [{ kind := ObjKind.plain,
               props := [("a", { value := Val.undefined, get := some (Fn.reactive 0),
                                 set := some (Fn.reactive 0), isAccessor := true })] }],
    observers := [], cells := [cellGetterOnly], deps := [[7]], target := none,
    notified := [], updated := [], customSetterCalls := 0, shouldObserve := true,
    serverRendering := false, production := false }

/-- The heap of a record whose property `a` is not configurable. -/
def sealedRecord : OSt :=
  freshEngine [{ kind := ObjKind.plain,
                 props := [("a", { value := Val.num 1, configurable := false })] }]

/-- An engine with the array `[10, 20, 30]`, not observed. -/
def threeArray : OSt :=
  freshEngine [{ kind := ObjKind.array, elems := [Val.num 10, Val.num 20, Val.num 30] }]

/-- An engine with the array `[10]` after `Object.preventExtensions`. -/
def closedArray : OSt :=
  freshEngine [{ kind := ObjKind.array, extensible := false, elems := [Val.num 10] }]

/-- An engine with the array `[10, 20]` after `Object.freeze`. -/
def frozenList : OSt :=
  freshEngine [{ kind := ObjKind.array, extensible := false, frozen := true,
                 elems := [Val.num 10, Val.num 20] }]

/-- The elements `set` leaves in an array: the array grown to the length `i` if shorter,
then the element at `i` replaced or added. -/
def arraySetElems (elems : List Val) (i : Nat) (v : Val) : List Val :=
  spliceReplace (setLength elems (max elems.length i)) i v

/-- The heap has the same size in the two states, and every object is extensible, a Vue
instance, an array or a record in the one as in the other. -/
def OSt.SameFlags (s t : OSt) : Prop :=
  t.heap.length = s.heap.length ∧
  ∀ a, (t.obj a).extensible = (s.obj a).extensible ∧ (t.obj a).isVue = (s.obj a).isVue ∧
    (t.obj a).kind = (s.obj a).kind

/-- The reactive accessor that cell `id` stands behind. -/
def reactiveSlot (id : Nat) : Slot :=
  { value := Val.undefined, get := some (Fn.reactive id), set := some (Fn.reactive id),
    isAccessor := true, configurable := true, enumerable := true, writable := true }

/-- The cell `set` makes for a new key. -/
def newCell (a : Nat) (name : String) (dep : Nat) (val : Val) (child : Option Nat) : Cell :=
  { obj := a, key := name, dep := dep, val := val, childOb := child, getter := none,
    setter := none, customSetter := false, shallow := false }

/-- An observed record with the own property `toString`, a name of `Object.prototype`. -/
def protoKeyRecord : OSt :=
  { heap := [{ kind := ObjKind.plain, ob := ObProp.observer 0,
               props := [("toString", reactiveSlot 0)] }],
    observers := [{ value := 0, dep := 0, vmCount := 0 }],
    cells := [newCell 0 "toString" 1 (Val.num 1) none],
    deps := [[], []], target := none, notified := [], updated := [],
    customSetterCalls := 0, shouldObserve := true, serverRendering := false,
    production := false }

/-- The observed record `{a: 1}` as the root data of one instance. -/
def rootRecord : OSt :=
  { oneRecordObserved with observers := [{ value := 0, dep := 0, vmCount := 1 }] }

/-- An observed array `[10, 20]` whose observer counts one instance. -/
def rootArray : OSt :=
  { heap := [{ kind := ObjKind.array, ob := ObProp.observer 0, augmented := true,
               elems := [Val.num 10, Val.num 20] }],
    observers := [{ value := 0, dep := 0, vmCount := 1 }],
    cells := [], deps := [[]], target := none, notified := [], updated := [],
    customSetterCalls := 0, shouldObserve := true, serverRendering := false,
    production := false }

/-- The state `defineReactive` leaves when it installs an accessor: the cell is added and
the property is the reactive accessor of that cell. -/
def installAccessor (st2 : OSt) (a : Nat) (name : String) (cell : Cell) : OSt :=
  let o := st2.obj a
  let slots := setSlot name (reactiveSlot st2.cells.length) o.props
  ({ st2 with cells := st2.cells ++ [cell] } : OSt).setObj a { o with props := slots }

/-- The observed record `{a: 1}` after `Object.preventExtensions`. -/
def closedObserved : OSt :=
  { oneRecordObserved with
    heap := [{ kind := ObjKind.plain, ob := ObProp.observer 0, extensible := false,
               props := [("a", reactiveSlot 0)] }] }

/-- Below the values of a list, arrays are nested at most `d` deep, and the `__ob__` of
every object met is undefined or one of the `nobs` observers that exist: what
`dependArray` walks through is finite and well formed. -/
def nestedLe (heap : List ObjRec) (nobs : Nat) : Nat → List Val → Bool
  | 0, l => l.all (fun e => match e with
      | Val.ref a =>
        (match (heap.getD a default).ob with
          | ObProp.absent => true
          | ObProp.foreign _ => false
          | ObProp.observer i => decide (i < nobs)) &&
        decide ((heap.getD a default).kind ≠ ObjKind.array)
      | _ => true)
  | d + 1, l => l.all (fun e => match e with
      | Val.ref a =>
        (match (heap.getD a default).ob with
          | ObProp.absent => true
          | ObProp.foreign _ => false
          | ObProp.observer i => decide (i < nobs)) &&
        (if (heap.getD a default).kind = ObjKind.array then
          nestedLe heap nobs d (heap.getD a default).elems else true)
      | _ => true)

/-- The value a read of the slot of a cell returns, when the getter the property had
before it was made reactive, if it had one, is a function of the application. -/
def Cell.reads (U : User) (heap : List ObjRec) (cell : Cell) : Val :=
  match cell.getter with
  | some (Fn.user g) => U.get g heap
  | _ => cell.val

/-- The heap of a record `{a: arr}` whose array `arr` holds itself: `arr.push(arr)`. -/
def selfArrayHeap : OSt :=
  freshEngine [{ kind := ObjKind.plain, props := [("a", { value := Val.ref 1 })] },
    { kind := ObjKind.array, elems := [Val.ref 1] }]

/-- The state `observe` leaves `selfArrayHeap` in: the record carries observer 0, its
property `a` is the reactive accessor of cell 0, and the array carries observer 1. -/
def selfArrayObserved : OSt :=
  { heap := [{ kind := ObjKind.plain, ob := ObProp.observer 0,
               props := [("a", reactiveSlot 0)] },
             { kind := ObjKind.array, ob := ObProp.observer 1, elems := [Val.ref 1],
               augmented := true }],
    observers := [{ value := 0, dep := 0, vmCount := 0 }, { value := 1, dep := 2, vmCount := 0 }],
    cells := [newCell 0 "a" 1 (Val.ref 1) (some 1)],
    deps := [[], [], []], target := none, notified := [], updated := [],
    customSetterCalls := 0, shouldObserve := true, serverRendering := false,
    production := false }

/-- The observed self-containing array while the computation 7 is the active one. -/
def selfArrayActive : OSt := { selfArrayObserved with target := some 7 }

/-- The heap of a record `{a: [10, 20]}`. -/
def listRecordHeap : OSt :=
  freshEngine [{ kind := ObjKind.plain, props := [("a", { value := Val.ref 1 })] },
    { kind := ObjKind.array, elems := [Val.num 10, Val.num 20] }]

/-- The state `observe` leaves the record `{a: [10, 20]}` in, while the computation 7 is
the active one: the record carries observer 0, its property `a` is the reactive accessor
of cell 0, and the array carries observer 1. -/
def listRecordActive : OSt :=
  { heap := [{ kind := ObjKind.plain, ob := ObProp.observer 0,
               props := [("a", reactiveSlot 0)] },
             { kind := ObjKind.array, ob := ObProp.observer 1,
               elems := [Val.num 10, Val.num 20], augmented := true }],
    observers := [{ value := 0, dep := 0, vmCount := 0 }, { value := 1, dep := 2, vmCount := 0 }],
    cells := [newCell 0 "a" 1 (Val.ref 1) (some 1)],
    deps := [[], [], []], target := some 7, notified := [], updated := [],
    customSetterCalls := 0, shouldObserve := true, serverRendering := false,
    production := false }

/-- The backend nodes a vnode tree refers to, down to depth `d`. -/
def elmsOf : Nat → VNode → List Nat
  | 0, v => v.elm.toList
  | d + 1, v => v.elm.toList ++ (v.children.getD []).flatMap (elmsOf d)

/-- The backend nodes the descendants of a vnode refer to. -/
def strictElmsOf : Nat → VNode → List Nat
  | 0, _ => []
  | d + 1, v => (v.children.getD []).flatMap (elmsOf d)

/-- The vnodes of a tree, down to depth `d`. -/
def nodesOf : Nat → VNode → List VNode
  | 0, v => [v]
  | d + 1, v => v :: (v.children.getD []).flatMap (nodesOf d)

/-- A vnode tree of height at most `d` is rendered in a backend tree: every vnode of it
has a backend node, and the backend children of the node of a vnode with a child list are
the nodes of those children, in order, each with that node as its parent. -/
def rendered : Nat → Dom → VNode → Bool
  | 0, _, _ => false
  | d + 1, dom, v =>
    match v.elm with
    | none => false
    | some e =>
      match v.children with
      | none => true
      | some cs =>
        decide ((dom.children e).map some = cs.map (fun c => c.elm)) &&
          cs.all (fun c =>
            (match c.elm with
              | some x => decide (dom.parent x = some e)
              | none => false) && rendered d dom c)

/-- Every `remove` hook that the removal of a vnode invokes calls the callback it is
handed before it returns. -/
def syncRemove (E : Env) (v : VNode) : Bool :=
  E.modules.all (fun m => decide (m.remove ≠ some false)) &&
    decide (((v.data.bind (fun x => x.hook)).bind (fun h => h.remove)) ≠ some false)

/-- An old vnode tree of height at most `d` without components and without deferred
removal: no vnode of it is an async placeholder or carries a component instance, and every
`remove` hook met when one of them is removed calls its callback at once. -/
def oldPlain (E : Env) : Nat → VNode → Bool
  | 0, _ => false
  | d + 1, v =>
    !v.isAsyncPlaceholder && v.componentInstance.isNone && syncRemove E v &&
      (v.children.getD []).all (oldPlain E d)

/-- A new vnode tree of height at most `d` without components, whose sibling keys pass
`checkDuplicateKeys`: no vnode of it is an async placeholder, carries a component
instance, has a placeholder parent or an `init` hook, and `checkDuplicateKeys` warns on
no child list of it. -/
def newPlain : Nat → VNode → Bool
  | 0, _ => false
  | d + 1, v =>
    !v.isAsyncPlaceholder && v.componentInstance.isNone && v.parent.isNone &&
      ((v.data.bind (fun x => x.hook)).bind (fun h => h.init)).isNone &&
      decide (duplicateKeysFrom [] (v.children.getD []) = []) &&
      (v.children.getD []).all (newPlain d)

/-- A vnode object that occurs both in the old trees and in the new trees is one object:
the nodes with one identity have one `elm`. -/
def SharedOk (d : Nat) (olds news : List VNode) : Prop :=
  ∀ o ∈ olds.flatMap (nodesOf d), ∀ n ∈ news.flatMap (nodesOf d),
    o.oid = n.oid → n.elm = o.elm

/-- No vnode object is reached twice: the vnodes of the new trees are pairwise distinct
objects, and none of them is a vnode of the old trees. On such trees an assignment to a
vnode of the new trees (`vnode.elm = ...`) changes no other vnode. -/
def apart (d : Nat) (olds news : List VNode) : Bool :=
  decide (((news.flatMap (nodesOf d)).map (fun v => v.oid)).Nodup) &&
    (news.flatMap (nodesOf d)).all (fun n =>
      (olds.flatMap (nodesOf d)).all (fun o => decide (o.oid ≠ n.oid)))

/-- What a call leaves untouched in the backend tree: of the nodes that existed before
the call, only those of `Fc` may have their child list changed, and only those of `Fp`
and the children of nodes of `Fd` may have their parent changed. -/
structure Frame (a b : Dom) (Fc Fp Fd : List Nat) : Prop where
  next_le : a.next ≤ b.next
  children_eq : ∀ y, y < a.next → y ∉ Fc → b.children y = a.children y
  parent_eq : ∀ y, y < a.next → y ∉ Fp → (∀ q, a.parent y = some q → q ∉ Fd) →
    b.parent y = a.parent y

/-- The variables of `updateChildren` in terms of the parts of the two arrays: the old
slots in front of, inside and behind the window `oldStartIdx..oldEndIdx`, and the new
vnodes in front of, inside and behind the window `newStartIdx..newEndIdx`. -/
structure Parts where
  oD1 : List (Option VNode)
  oMid : List (Option VNode)
  oD2 : List (Option VNode)
  nF : List VNode
  nMid : List VNode
  nB : List VNode
  map : Option (JsMap Int)
  st : St
  queue : Queue
  trace : List Action

/-- The loop variables that correspond to the parts. -/
def Parts.toLoop (A : Parts) : Loop :=
  { oldStartIdx := (A.oD1.length : Int)
    newStartIdx := (A.nF.length : Int)
    oldEndIdx := (A.oD1.length : Int) + (A.oMid.length : Int) - 1
    oldStartVnode := (getAt (A.oD1 ++ (A.oMid ++ A.oD2)) (A.oD1.length : Int)).join
    oldEndVnode :=
      (getAt (A.oD1 ++ (A.oMid ++ A.oD2)) ((A.oD1.length : Int) + (A.oMid.length : Int) - 1)).join
    newEndIdx := (A.nF.length : Int) + (A.nMid.length : Int) - 1
    oldKeyToIdx := A.map
    oldCh := A.oD1 ++ (A.oMid ++ A.oD2)
    newCh := A.nF ++ (A.nMid ++ A.nB)
    st := A.st
    queue := A.queue
    trace := A.trace }

/-- The child list `l` once `x` is inserted before the reference `ref` (at the end when
there is none). -/
def insertAt (x : Nat) (ref : Option Nat) (l : List Nat) : List Nat :=
  match ref with
  | none => l ++ [x]
  | some r => nodeOps.insertBeforeL x r l

/-- What one call of `updateChildren` is given: the environment, the height bound, the
parent backend node, the two child lists and the backend tree at the call. -/
structure Ctx where
  E : Env
  d : Nat
  p : Nat
  olds : List VNode
  news : List VNode
  dom0 : Dom

/-- The standing assumptions of one call of `updateChildren`: the parent and the backend
nodes of the old trees are pairwise distinct existing nodes, no child is an async
placeholder, no old child carries a component instance, and every `remove` hook met
when an old child is removed calls its callback at once. -/
structure CtxOk (C : Ctx) : Prop where
  nodup : (C.p :: C.olds.flatMap (elmsOf C.d)).Nodup
  bound : ∀ x ∈ C.p :: C.olds.flatMap (elmsOf C.d), x < C.dom0.next
  oldAsync : ∀ o ∈ C.olds, o.isAsyncPlaceholder = false
  oldComp : ∀ o ∈ C.olds, o.componentInstance = none
  oldSync : ∀ o ∈ C.olds, syncRemove C.E o = true
  newAsync : ∀ n ∈ C.news, n.isAsyncPlaceholder = false

/-- The keys of the new children are distinct as property names and name no member of
`Object.prototype`: what the table of `createKeyToOldIdx` needs. -/
structure KeysOk (C : Ctx) : Prop where
  keysNodup : ((C.news.filterMap (fun n => n.key)).map propName).Nodup
  keysProto : ∀ n ∈ C.news, ∀ k, n.key = some k → propName k ∉ objectPrototypeNames

/-- What `updateChildren` relies on from `patchVnode`: on a rendered old child the call
returns, the new vnode takes over the backend node of the old one, and outside the
backend nodes of the old subtree the backend tree is untouched. -/
def PatchSpec (C : Ctx) (patchV : PatchFn) : Prop :=
  ∀ st q o n, o ∈ C.olds → n ∈ C.news → rendered C.d st.dom o = true →
    C.dom0.next ≤ st.dom.next →
    ∃ r, patchV st q o n = Except.ok r ∧ r.2.2.elm = o.elm ∧
      Frame st.dom r.1.dom (elmsOf C.d o) (strictElmsOf C.d o) (elmsOf C.d o)

/-- What `updateChildren` relies on from `createElm`: the call returns, the vnode gets a
new backend node, which is inserted under `par` before `ref` (at the end when there is no
reference), and nothing else changes among the nodes that existed. -/
def CreateSpec (news : List VNode) (createE : CreateFn) : Prop :=
  ∀ st q n par ref, n ∈ news → par < st.dom.next →
    (ref = none ∨ ∃ r, ref = some r ∧ st.dom.parent r = some par ∧
      r ∈ st.dom.children par ∧ r < st.dom.next) →
    ∃ r x, createE st q n (some par) ref false true = Except.ok r ∧
      r.2.2.elm = some x ∧ st.dom.next ≤ x ∧ x < r.1.dom.next ∧
      r.1.dom.children par = insertAt x ref (st.dom.children par) ∧
      r.1.dom.parent x = some par ∧
      Frame st.dom r.1.dom [par] [] []

/-- An old child has met a new child with its key. -/
def KeyMatched (nFo nBo : List VNode) (o : VNode) : Prop :=
  ∃ n ∈ nFo ++ nBo, n.key = o.key

/-- The bookkeeping of the invariant: the old children in front of, inside and behind the
window; the new children, as given, that were processed at the front and at the back; the
backend children of the parent that belong to the processed front, to the old children
still in the window, and to the processed back. -/
structure Ghost where
  o1 : List VNode
  om : List VNode
  o2 : List VNode
  nFo : List VNode
  nBo : List VNode
  fE : List Nat
  mE : List Nat
  bE : List Nat

/-- The invariant of the loop of `updateChildren`. -/
structure LoopInv (C : Ctx) (A : Parts) (G : Ghost) : Prop where
  olds_eq : C.olds = G.o1 ++ (G.om ++ G.o2)
  news_eq : C.news = G.nFo ++ (A.nMid ++ G.nBo)
  lenF : G.nFo.length = A.nF.length
  lenB : G.nBo.length = A.nB.length
  d1 : List.Forall₂ (fun s o => s = none ∨ s = some o) A.oD1 G.o1
  d2 : List.Forall₂ (fun s o => s = none ∨ s = some o) A.oD2 G.o2
  mid : List.Forall₂ (fun s o => s = some o ∨ (s = none ∧ KeyMatched G.nFo G.nBo o))
    A.oMid G.om
  passed : ∀ o ∈ G.o1 ++ G.o2, KeyMatched G.nFo G.nBo o
  noHoles : A.map = none → ∀ s ∈ A.oMid, s ≠ none
  mapOk : ∀ m, A.map = some m → ∀ name i, m.lookup name = some i →
    ∃ o k, getAt C.olds i = some o ∧ o.key = some k ∧ propName k = name
  dom_children : A.st.dom.children C.p = G.fE ++ (G.mE ++ G.bE)
  elmF : A.nF.map (fun v => v.elm) = G.fE.map some
  elmM : A.oMid.reduceOption.map (fun v => v.elm) = G.mE.map some
  elmB : A.nB.map (fun v => v.elm) = G.bE.map some
  nodupP : (G.fE ++ (G.mE ++ G.bE)).Nodup
  boundP : ∀ x ∈ G.fE ++ (G.mE ++ G.bE),
    x < A.st.dom.next ∧ A.st.dom.parent x = some C.p
  fromOld : ∀ x ∈ G.fE ++ (G.mE ++ G.bE),
    (∃ o ∈ C.olds, o.elm = some x) ∨ C.dom0.next ≤ x
  live : ∀ c, some c ∈ A.oMid → rendered C.d A.st.dom c = true
  frame : Frame C.dom0 A.st.dom (C.p :: C.olds.flatMap (elmsOf C.d))
    (C.olds.flatMap (elmsOf C.d)) (C.olds.flatMap (elmsOf C.d))

/-- What `updateChildren` does once its loop has ended, on the variables the loop leaves:
the remaining new children are added, or else the remaining old children are removed. -/
def updateChildrenEnd (E : Env) (fuel : Nat) (createElm : CreateFn) (parentElm : Option Nat)
    (L : Loop) : Res Loop :=
  if L.oldStartIdx > L.oldEndIdx then do
    let refElm := match getAt L.newCh (L.newEndIdx + 1) with
      | none => none
      | some v => v.elm
    let r ← addVnodes createElm L.st L.queue parentElm refElm L.newCh L.newStartIdx
      L.newEndIdx
    pure { L with
      st := r.1
      queue := r.2.1
      newCh := r.2.2
      trace := L.trace ++
        (List.range (L.newEndIdx - L.newStartIdx + 1).toNat).map
          (fun k => Action.create (L.newStartIdx + k)) }
  else if L.newStartIdx > L.newEndIdx then do
    let st1 ← removeVnodes E fuel L.st L.oldCh L.oldStartIdx L.oldEndIdx
    pure { L with
      st := st1
      trace := L.trace ++
        (definedSlots L.oldCh (L.oldEndIdx - L.oldStartIdx + 1).toNat L.oldStartIdx).map
          Action.remove }
  else pure L

/-- Two backend trees with the same nodes, child lists and parent pointers. -/
def TreeEq (a b : Dom) : Prop :=
  b.next = a.next ∧ b.children = a.children ∧ b.parent = a.parent

/-- What the creation of one node leaves: a new node `x`, inserted under `par` before
`ref` (at the end when there is no reference), and nothing else changed among the nodes
that existed. -/
structure Created (a b : Dom) (par x : Nat) (ref : Option Nat) : Prop where
  fresh : a.next ≤ x
  lt : x < b.next
  children_par : b.children par = insertAt x ref (a.children par)
  parent_x : b.parent x = some par
  frame : Frame a b [par] [] []

/-! ## Inputs used in the examples of `updateChildren` -/

/-- A platform with one module that implements the `create`, `update` and `remove`
hooks; `sync` says whether its `remove` hook calls the callback before it returns. -/
def exEnv (sync : Bool) : Env :=
  { modules := [{ create := true, update := true, remove := some sync }]
    isTextInputType := webTextInputType
    production := false
    weex := false
    isUnknownElement := fun _ => false
    ignoredElement := fun _ => false
    activeInstance := none
    innerHTML := fun _ _ => ""
    ssrAttr := "data-server-rendered" }

/-- A backend tree given by the list of its nodes: number, kind, parent and children. -/
def exDom (next : Nat) (nodes : List (Nat × NodeKind × Option Nat × List Nat)) : Dom :=
  { next := next
    kind := fun x => ((nodes.lookup x).map (fun n => n.1)).getD NodeKind.comment
    parent := fun x => (nodes.lookup x).bind (fun n => n.2.1)
    children := fun x => ((nodes.lookup x).map (fun n => n.2.2)).getD []
    text := fun _ => ""
    attrs := fun _ => []
    scopes := fun _ => []
    leaveCb := fun _ => false }

/-- The state of a patch function over a backend tree, before anything is logged. -/
def exSt (dom : Dom) : St :=
  { dom := dom, log := [], nextOid := 1000, creatingElmInVPre := 0, hydrationBailed := false }

/-- An element vnode with a data payload, a key, a backend node (if rendered) and
children (if any). -/
def exItem (oid : Nat) (tag : String) (key : Option Key) (elm : Option Nat)
    (children : Option (List VNode)) : VNode :=
  VNode.new oid (oid + 100) (some tag) (some { key := key }) children none elm none none none

/-- A text vnode with a backend node (if rendered). -/
def exText (oid : Nat) (text : String) (elm : Option Nat) : VNode :=
  { createTextVNode oid text with elm := elm }

/-- A list `ul` (node 0) of three items (nodes 1, 2, 3), the first and the third with a
text (nodes 4 and 5). -/
def exListDom : Dom :=
  exDom 6
    [(0, NodeKind.element "ul" none, none, [1, 2, 3]),
     (1, NodeKind.element "li" none, some 0, [4]),
     (2, NodeKind.element "li" none, some 0, []),
     (3, NodeKind.element "li" none, some 0, [5]),
     (4, NodeKind.text, some 1, []),
     (5, NodeKind.text, some 3, [])]

/-- The old children of the list: items keyed `a`, `b`, `c`. -/
def exListOld : List VNode :=
  [exItem 1 "li" (some (Key.str "a")) (some 1) (some [exText 11 "a" (some 4)]),
   exItem 2 "li" (some (Key.str "b")) (some 2) (some []),
   exItem 3 "li" (some (Key.str "c")) (some 3) (some [exText 13 "c" (some 5)])]

/-- The new children of the list: `c` with a new text, `a` unchanged, and a new item `d`. -/
def exListNew : List VNode :=
  [exItem 21 "li" (some (Key.str "c")) none (some [exText 31 "c2" none]),
   exItem 22 "li" (some (Key.str "a")) none (some [exText 32 "a" none]),
   exItem 23 "li" (some (Key.str "d")) none (some [exText 33 "d" none])]

/-- A parent (node 0) with `n` element children (nodes 1 to `n`), none with children. -/
def exFlatDom (n : Nat) : Dom :=
  exDom (n + 1)
    ((0, NodeKind.element "ul" none, none, (List.range n).map (fun i => i + 1)) ::
      (List.range n).map (fun i => (i + 1, NodeKind.element "li" none, some 0, [])))

/-- The rendered child number `i` (backend node `i`) with tag `tag` and key `key`. -/
def exOld (i : Nat) (tag : String) (key : Option Key) : VNode :=
  exItem i tag key (some i) none

/-- A new child with tag `tag` and key `key`. -/
def exNew (i : Nat) (tag : String) (key : Option Key) : VNode :=
  exItem (i + 20) tag key none none

/-- The call `updateChildren(parentElm, oldCh, newCh, insertedVnodeQueue, false)` as
`patchVnode` makes it, with the recursion bound `d`. -/
def runUpdateChildren (E : Env) (d : Nat) (st : St) (p : Nat) (olds news : List VNode) :
    Res Loop :=
  updateChildren E d (fun s q o n => patchVnode E d s q o n false) (createElm E d) st []
    (some p) (olds.map some) news false

/-- The error a call raised, if it raised. -/
def errorOf {α : Type} : Res α → Option Err
  | Except.error e => some e
  | Except.ok _ => none

/-- What a finished call of `updateChildren` under parent `p` leaves: the backend children
of the parent, the backend nodes of the entries of `newCh`, and the actions taken. -/
def outcome (p : Nat) (r : Res Loop) : Option (List Nat × List (Option Nat) × List Action) :=
  r.toOption.map (fun L => (L.st.dom.children p, L.newCh.map (fun v => v.elm), L.trace))

/-- Three rendered items keyed `"p"`, `"1"`, `"q"`. -/
def exCoerceOld : List VNode :=
  [exOld 1 "li" (some (Key.str "p")), exOld 2 "li" (some (Key.str "1")),
   exOld 3 "li" (some (Key.str "q"))]

/-- Two new items, keyed by the string `"1"` and by the number `1`. -/
def exCoerceNew : List VNode :=
  [exNew 2 "li" (some (Key.str "1")), exNew 4 "li" (some (Key.num 1))]

/-- The rendered items keyed `1`, ..., `n`. -/
def exKeyedOld (n : Nat) : List VNode :=
  (List.range n).map (fun i => exOld (i + 1) "li" (some (Key.num (i + 1))))

/-- New items for the keys of `ks`, in that order. -/
def exKeyedNew (ks : List Nat) : List VNode :=
  ks.map (fun k => exNew k "li" (some (Key.num k)))

/-! ## Inputs and predicates for the claims on `insert`, `createElm`, `patchVnode`,
`patch` and `hydrate` -/

/-- A backend tree with a parent (node 0) that has one child (node 1), and two nodes that
are attached nowhere (nodes 2 and 3). -/
def exLooseDom : Dom :=
  exDom 4
    [(0, NodeKind.element "ul" none, none, [1]),
     (1, NodeKind.element "li" none, some 0, []),
     (2, NodeKind.element "li" none, none, []),
     (3, NodeKind.element "li" none, none, [])]

/-- An entry of the log is a node operation of the backend. -/
def Op.isNodeOp : Op → Bool
  | Op.createElement _ _ => true
  | Op.createElementNS _ _ _ => true
  | Op.createTextNode _ _ => true
  | Op.createComment _ _ => true
  | Op.insertBefore _ _ _ => true
  | Op.appendChild _ _ => true
  | Op.removeChild _ _ => true
  | Op.setTextContent _ _ => true
  | Op.setStyleScope _ _ => true
  | Op.removeAttribute _ _ => true
  | Op.setData _ _ => true
  | _ => false

/-- The node operations of a log, in order. -/
def nodeOpsOf (log : List Op) : List Op := log.filter Op.isNodeOp

/-- The condition of the shortcut of `patchVnode` for static trees. -/
def staticShortcut (oldVnode vnode : VNode) : Bool :=
  vnode.isStatic && oldVnode.isStatic && keyEq vnode.key oldVnode.key &&
    (vnode.isCloned || vnode.isOnce)

/-- A static vnode that is an unresolved async placeholder, rendered as node 1. -/
def exStaticAsync : VNode :=
  { createEmptyVNode 1 "" with isStatic := true, isAsyncPlaceholder := true, elm := some 1 }

/-- A static clone with an async factory that has not resolved. -/
def exStaticClone : VNode :=
  { createEmptyVNode 2 "" with
    isStatic := true
    isCloned := true
    asyncFactory := some { id := 0, resolved := false, error := false } }

/-- A node operation in brief: its name and the node it creates, inserts, removes or
writes to; a hook or a diagnostic is no node operation. -/
def Op.brief : Op → String × Nat
  | Op.createElement _ x => ("createElement", x)
  | Op.createElementNS _ _ x => ("createElementNS", x)
  | Op.createTextNode _ x => ("createTextNode", x)
  | Op.createComment _ x => ("createComment", x)
  | Op.insertBefore _ x _ => ("insertBefore", x)
  | Op.appendChild _ x => ("appendChild", x)
  | Op.removeChild _ x => ("removeChild", x)
  | Op.setTextContent x _ => ("setTextContent", x)
  | Op.setStyleScope x _ => ("setStyleScope", x)
  | Op.removeAttribute x _ => ("removeAttribute", x)
  | Op.setData x _ => ("setData", x)
  | _ => ("none", 0)

/-- An element `<li>` with the key `NaN`, rendered as node 1. -/
def exNanVNode : VNode := exItem 1 "li" (some Key.nan) (some 1) none

/-- An element with `v-html` content (a truthy `domProps.innerHTML`), rendered as node 1. -/
def exHtmlVNode : VNode :=
  { dataVNode 1 "div" { domProps := some { innerHTML := some "<b>x</b>" } } with elm := some 1 }

/-- The vnode `patchVnode(oldVnode, vnode)` works on: `vnode` with the backend node of
`oldVnode`. -/
def adopted (oldVnode vnode : VNode) : VNode := { vnode with elm := oldVnode.elm }

/-- The state after the `prepatch` hook of `patchVnode`, if the vnode has one. -/
def prepatched (st : St) (vnode : VNode) : St :=
  if ((vnode.data.bind (fun d => d.hook)).map (fun h => h.prepatch)) = some true then
    st.emit (Op.dataHook HookName.prepatch vnode) else st

/-- The state after the `postpatch` hook of `patchVnode`, if the vnode `hooked` has one;
the hook is handed the vnode `v`. -/
def postpatched (st : St) (hooked v : VNode) : St :=
  if ((hooked.data.bind (fun d => d.hook)).map (fun h => h.postpatch)) = some true then
    st.emit (Op.dataHook HookName.postpatch v) else st

/-- A text vnode `"a"` rendered as node 1, and a text vnode `"b"` not rendered yet. -/
def exTextOld : VNode := exText 1 "a" (some 1)

/-- A text vnode `"b"`, not rendered. -/
def exTextNew : VNode := exText 2 "b" none

/-- A parent (node 0) with one text node (node 1) holding `"a"`. -/
def exTextDom : Dom :=
  { exDom 2 [(0, NodeKind.element "p" none, none, [1]), (1, NodeKind.text, some 0, [])] with
    text := fun x => if x = 1 then "a" else "" }

/-- An element vnode `<p>` rendered as node 0, with the text `"a"` and no children. -/
def exParaOld : VNode := { exItem 1 "p" none (some 0) none with text := some "a" }

/-- An element vnode `<p>` with one text child `"b"`, not rendered. -/
def exParaNew : VNode := exItem 3 "p" none none (some [exText 4 "b" none])

/-- A list vnode `<ul>` rendered as node 0, with one item rendered as node 1. -/
def exUlOld : VNode :=
  exItem 1 "ul" none (some 0) (some [exItem 2 "li" none (some 1) none])

/-- A list vnode `<ul>` without children, not rendered. -/
def exUlNew : VNode := exItem 3 "ul" none none none

/-- A list vnode `<ul>` with the text `"x"` and no children, not rendered. -/
def exUlText : VNode := { exItem 3 "ul" none none none with text := some "x" }

/-- A vnode tree has height at most `d`: it has at most `d` levels of vnodes. -/
def heightLe : Nat → VNode → Bool
  | 0, _ => false
  | d + 1, v => (v.children.getD []).all (heightLe d)

/-- The modules of a list that implement the `destroy` hook, each by its place in the
platform's list of modules (the first of the list given stands at place `i`), in the
order of the list: "every module destroy hook", read off the modules themselves. -/
def destroyModules : Nat → List Module → List Nat
  | _, [] => []
  | i, m :: rest => (if m.destroy then [i] else []) ++ destroyModules (i + 1) rest

/-- The destroy cascade of a vnode tree of height at most `d`, in the words of the
specification: a vnode with a data payload gets its `data.hook.destroy` hook, if it has
one, and then the `destroy` hook of every module that has one, in the order of the
modules; then its children are visited in order, whether it has a data payload or not. -/
def destroyCascade (modules : List Module) : Nat → VNode → List Op
  | 0, _ => []
  | d + 1, v =>
    (match v.data with
      | none => []
      | some data =>
        (if (data.hook.map (fun h => h.destroy)) = some true then
          [Op.dataHook HookName.destroy v] else []) ++
        (destroyModules 0 modules).map (fun i => Op.moduleHook HookName.destroy i v)) ++
    (v.children.getD []).flatMap (destroyCascade modules d)

/-- A platform with two modules, the second of which implements the `destroy` hook. -/
def exDestroyEnv : Env := { exEnv true with modules := [{ create := true }, { destroy := true }] }

/-- A vnode with a `destroy` hook in its data payload. -/
def exHooked (oid : Nat) (children : Option (List VNode)) : VNode :=
  VNode.new oid (oid + 100) (some "div") (some { hook := some { destroy := true } }) children
    none none none none none

/-- A tree of three levels: a root with a `destroy` hook, a child without a data payload,
and below it a grandchild with a `destroy` hook. -/
def exDestroyTree : VNode :=
  exHooked 1 (some [VNode.new 2 102 (some "p") none (some [exHooked 3 none]) none none none
    none none])

/-- The vnode `b` is the object `a` after some of its fields were assigned: the identity,
`isCloned`, `tag`, `key`, `text` and `parent` are as in `a`. -/
def Kept (a b : VNode) : Prop :=
  b.oid = a.oid ∧ b.isCloned = a.isCloned ∧ b.tag = a.tag ∧ b.key = a.key ∧
    b.text = a.text ∧ b.parent = a.parent

/-- A text vnode `"a"` that was rendered as node 1 in a previous render. -/
def exUsedText : VNode := exText 7 "a" (some 1)

/-- Every vnode of the queue of inserted vnodes has a `data.hook.insert` callback, which
is what `invokeInsertHook` calls on it. -/
def QueueOk (q : Queue) : Prop :=
  ∀ v ∈ q, (v.data.bind (fun d => d.hook.bind (fun h => h.insert))).isSome = true

/-- A vnode tree of height at most `d` without components: no vnode of it carries a
component instance or an `init` hook. -/
def compFree : Nat → VNode → Bool
  | 0, _ => false
  | d + 1, v =>
    v.componentInstance.isNone &&
      ((v.data.bind (fun x => x.hook)).bind (fun h => h.init)).isNone &&
      (v.children.getD []).all (compFree d)

/-- What the variables of `updateChildren` satisfy on trees without components: the
queue holds vnodes with an `insert` hook only, the new children are component-free and
the old children are plain. -/
structure LoopOk (E : Env) (d : Nat) (L : Loop) : Prop where
  queue : QueueOk L.queue
  news : ∀ n ∈ L.newCh, compFree d n = true
  olds : ∀ o, some o ∈ L.oldCh → oldPlain E d o = true
  oldStart : ∀ o, L.oldStartVnode = some o → oldPlain E d o = true
  oldEnd : ∀ o, L.oldEndVnode = some o → oldPlain E d o = true

/-- The tree of `exLooseDom` while the item (node 1) is in a leaving transition: the
property `_leaveCb` is set on it. -/
def exLeavingDom : Dom := { exLooseDom with leaveCb := fun x => decide (x = 1) }

/-- The item of `exLooseDom`, rendered as node 1. -/
def exLiOld : VNode := exItem 1 "li" none (some 1) none

/-- A paragraph that replaces the item. -/
def exParNew : VNode := exItem 2 "p" none none none

/-- A backend tree and a vnode tree of height at most `d` match exactly, in the words of
the specification: an element vnode sits on a backend element with the same tag (in
lower case), a text or comment vnode on a backend node of that kind with the same text,
and the children of the vnode match the children of the backend node one by one, in the
same number; the backend children are distinct nodes that have the node as parent. -/
def matchesTree : Nat → Dom → Nat → VNode → Bool
  | 0, _, _, _ => false
  | d + 1, dom, e, v =>
    match v.tag with
    | some tag =>
      decide ((match dom.kind e with
        | NodeKind.element t _ => some t
        | _ => none).map String.toLower = some tag.toLower) &&
      decide ((dom.children e).length = (v.children.getD []).length) &&
      decide (dom.children e).Nodup &&
      (dom.children e).all (fun x => decide (dom.parent x = some e)) &&
      (List.zip (dom.children e) (v.children.getD [])).all
        (fun xc => matchesTree d dom xc.1 xc.2)
    | none =>
      decide (dom.kind e = (if v.isComment then NodeKind.comment else NodeKind.text)) &&
      decide (some (dom.text e) = v.text)

/-- A vnode tree of height at most `d` that `hydrate` can take over when the backend tree
matches: no vnode of it carries a component instance, an `init` hook or an async factory
on a comment, none has `domProps.innerHTML`, and outside production mode none is an
unknown element (`inVPre` is the argument of `hydrate`). -/
def hydratable (E : Env) : Nat → Bool → VNode → Bool
  | 0, _, _ => false
  | d + 1, inVPre0, v =>
    v.componentInstance.isNone &&
    ((v.data.bind (fun x => x.hook)).bind (fun h => h.init)).isNone &&
    !(v.isComment && v.asyncFactory.isSome) &&
    (match v.tag with
      | some tag => E.production || "vue-component".isPrefixOf tag ||
          !isUnknownElement E v tag (inVPre0 || ((v.data.map (fun d => d.pre)) = some true))
      | none => true) &&
    (v.data.bind (fun d => d.domProps.bind (fun p => p.innerHTML))).isNone &&
    (v.children.getD []).all
      (hydratable E d (inVPre0 || ((v.data.map (fun d => d.pre)) = some true)))

/-- Every vnode of a tree of height at most `d` refers to the backend node at the same
place of the backend tree below `e`: the vnode has `e` as its `elm`, and the children of
an element vnode refer to the children of `e` one by one. -/
def boundTo : Nat → Dom → Nat → VNode → Bool
  | 0, _, _, _ => false
  | d + 1, dom, e, v =>
    decide (v.elm = some e) &&
      (match v.tag, v.children with
        | some _, some cs =>
          decide ((dom.children e).length = cs.length) &&
            (List.zip (dom.children e) cs).all (fun xc => boundTo d dom xc.1 xc.2)
        | _, _ => true)

/-- A server-rendered list: `<ul>` (node 0) with one item `<li>` (node 1) that holds the
text `"a"` (node 2). -/
def exSsrDom : Dom :=
  { exDom 3
      [(0, NodeKind.element "ul" none, none, [1]),
       (1, NodeKind.element "li" none, some 0, [2]),
       (2, NodeKind.text, some 1, [])] with
    text := fun x => if x = 2 then "a" else "" }

/-- The vnode tree of the list of `exSsrDom`, not rendered. -/
def exSsrTree : VNode :=
  exItem 1 "ul" none none (some [exItem 2 "li" none none (some [exText 3 "a" none])])

/-- A platform in development mode on which the tag `ul` is an unknown element. -/
def exUnknownEnv : Env := { exEnv true with isUnknownElement := fun tag => tag == "ul" }

/-- The root of a vnode tree is no component: the vnode carries no component instance and
its data has no `init` hook. -/
def rootPlain (v : VNode) : Bool :=
  v.componentInstance.isNone && ((v.data.bind (fun x => x.hook)).bind (fun h => h.init)).isNone
/-! ## Words of the specification used for `cloneVNode`, `findIdxInOld` and the loop of
`updateChildren` -/

/-- The measure of the loop of `updateChildren`, in the words of the specification:
`(oldEndIdx - oldStartIdx) + (newEndIdx - newStartIdx)`. -/
def Loop.measure (L : Loop) : Int :=
  (L.oldEndIdx - L.oldStartIdx) + (L.newEndIdx - L.newStartIdx)

/-- The variables of `updateChildren` when its loop is entered. -/
def Loop.start (st : St) (queue : Queue) (oldCh : List (Option VNode)) (newCh : List VNode) :
    Loop :=
  ⟨0, 0, (oldCh.length : Int) - 1, (getAt oldCh 0).join,
    (getAt oldCh ((oldCh.length : Int) - 1)).join, (newCh.length : Int) - 1, none, oldCh,
    newCh, st, queue, []⟩

/-- The loop variables at the start of the update of the list of `exListDom`. -/
def exLoop : Loop := Loop.start (exSt exListDom) [] (exListOld.map some) exListNew
/-- The calls `patchVnode(oldCh[i], newCh[i])` for `i = 0, 1, ...` in increasing order and
nothing else, in the words of the specification: the state and the queue they leave, and
the new vnodes as the calls leave them. -/
def patchPairs (patchV : PatchFn) : St → Queue → List VNode → List VNode →
    Res (St × Queue × List VNode)
  | st, q, o :: olds, n :: news => do
    let r ← patchV st q o n
    let r2 ← patchPairs patchV r.1 r.2.1 olds news
    pure (r2.1, r2.2.1, r.2.2 :: r2.2.2)
  | st, q, _, _ => pure (st, q, [])

/-- Two rendered items (the nodes 1 and 2 of `exFlatDom 2`), one keyed and one without
key. -/
def exAlignedOld : List VNode := [exOld 1 "li" (some (Key.str "a")), exOld 2 "li" none]

/-- The new children for `exAlignedOld`, pair by pair `sameVnode`. -/
def exAlignedNew : List VNode := [exNew 1 "li" (some (Key.str "a")), exNew 2 "li" none]
/-! ## Words of the specification used for `dependArray` -/

/-- The `Dep` of the observer an object carries, if it carries one. -/
def observerDep (heap : List ObjRec) (observers : List Observer) (a : Nat) : List Nat :=
  match (heap.getD a default).ob with
  | ObProp.observer i =>
    match observers.get? i with
    | some ob => [ob.dep]
    | none => []
  | _ => []

/-- The `Dep`s `dependArray` is to register on, in the words of the specification: the
observer `Dep` of every element that carries an observer, at every depth of array nesting
(down to depth `d`), in the order of the visit; the properties of an element are not
looked at. -/
def arrayDeps (heap : List ObjRec) (observers : List Observer) : Nat → List Val → List Nat
  | 0, _ => []
  | d + 1, elems =>
    elems.flatMap (fun e =>
      match e with
      | Val.ref a =>
        observerDep heap observers a ++
          (if (heap.getD a default).kind = ObjKind.array then
            arrayDeps heap observers d (heap.getD a default).elems else [])
      | _ => [])

/-- An array value is finitely nested, with at most `d` levels of arrays, and every
`__ob__` property met in it is an observer. -/
def dependable (heap : List ObjRec) (observers : List Observer) : Nat → List Val → Bool
  | 0, _ => false
  | d + 1, elems =>
    elems.all (fun e =>
      match e with
      | Val.ref a =>
        (match (heap.getD a default).ob with
          | ObProp.absent => true
          | ObProp.foreign _ => false
          | ObProp.observer i => decide (i < observers.length)) &&
          (if (heap.getD a default).kind = ObjKind.array then
            dependable heap observers d (heap.getD a default).elems else true)
      | _ => true)

/-- The number of elements of an array value at all depths (down to depth `d`), plus one
for each array: a bound of the number of steps of `dependArray`. -/
def arraySize (heap : List ObjRec) : Nat → List Val → Nat
  | 0, _ => 1
  | d + 1, elems =>
    1 + (elems.map (fun e =>
      match e with
      | Val.ref a =>
        1 + (if (heap.getD a default).kind = ObjKind.array then
          arraySize heap d (heap.getD a default).elems else 0)
      | _ => 1)).sum

/-- An engine with the array `[[r], s, 5]` at address 0 while the computation 7 is the
active one: the inner array (address 1), the record `r` (address 3) and the record `s`
(address 2) carry the observers 1, 3 and 2; `r` has a property that holds the observed
record at address 4. -/
def nestedArray : OSt :=
  { heap := [{ kind := ObjKind.array, ob := ObProp.observer 0,
               elems := [Val.ref 1, Val.ref 2, Val.num 5] },
             { kind := ObjKind.array, ob := ObProp.observer 1, elems := [Val.ref 3] },
             { kind := ObjKind.plain, ob := ObProp.observer 2 },
             { kind := ObjKind.plain, ob := ObProp.observer 3,
               props := [("p", { value := Val.ref 4 })] },
             { kind := ObjKind.plain, ob := ObProp.observer 4 }],
    observers := [{ value := 0, dep := 0, vmCount := 0 }, { value := 1, dep := 1, vmCount := 0 },
                  { value := 2, dep := 2, vmCount := 0 }, { value := 3, dep := 3, vmCount := 0 },
                  { value := 4, dep := 4, vmCount := 0 }],
    cells := [], deps := [[], [], [], [], []], target := some 7, notified := [], updated := [],
    customSetterCalls := 0, shouldObserve := true, serverRendering := false,
    production := false }

/-- An engine with the array `[x, s]` at address 0 while the computation 7 is the active
one: `x` (address 1) has an own property `__ob__` that holds an object which is not an
observer, and the record `s` (address 2) carries the observer 0. -/
def foreignArray : OSt :=
  { heap := [{ kind := ObjKind.array, elems := [Val.ref 1, Val.ref 2] },
             { kind := ObjKind.plain, ob := ObProp.foreign true },
             { kind := ObjKind.plain, ob := ObProp.observer 0 }],
    observers := [{ value := 2, dep := 0, vmCount := 0 }],
    cells := [], deps := [[]], target := some 7, notified := [], updated := [],
    customSetterCalls := 0, shouldObserve := true, serverRendering := false,
    production := false }
/-! ## Words of the specification used for a failing `hydrate` -/

/-- The children of a backend node and of a vnode mismatch, in the order `hydrate` visits
them: after a (possibly empty) run of pairs that are fine (`fine`), either one list has
ended before the other (the child counts differ) or the next pair mismatches (`mis`). -/
def childrenMismatch (mis fine : Nat → VNode → Bool) : List Nat → List VNode → Bool
  | [], [] => false
  | [], _ :: _ => true
  | _ :: _, [] => true
  | x :: xs, c :: cs => mis x c || (fine x c && childrenMismatch mis fine xs cs)

/-- A backend tree below `e` and a vnode tree of height at most `d` mismatch at a place
that `hydrate` detects, everything that is visited before that place matching exactly.
Either the node itself mismatches outside production mode: an element vnode (not a
`vue-component` placeholder) that is an unknown element or sits on a backend node with
another tag, or a text or comment vnode on a backend node of another kind. Or the node
itself is fine (and carries no component instance, no `init` hook and no
`domProps.innerHTML`), its backend node has children, and the children mismatch: the
children before the mismatching place match exactly and are hydratable. -/
def mismatched (E : Env) : Nat → Bool → Dom → Nat → VNode → Bool
  | 0, _, _, _, _ => false
  | d + 1, inVPre0, dom, e, v =>
    !(v.isComment && v.asyncFactory.isSome) &&
    (match v.tag with
      | none =>
        !E.production &&
          decide (dom.kind e ≠ (if v.isComment then NodeKind.comment else NodeKind.text))
      | some tag =>
        (!E.production && !"vue-component".isPrefixOf tag &&
          (isUnknownElement E v tag (inVPre0 || ((v.data.map (fun d => d.pre)) = some true)) ||
            decide ((match dom.kind e with
              | NodeKind.element t _ => some t
              | _ => none).map String.toLower ≠ some tag.toLower))) ||
        ((E.production || "vue-component".isPrefixOf tag ||
            (!isUnknownElement E v tag
                (inVPre0 || ((v.data.map (fun d => d.pre)) = some true)) &&
              decide ((match dom.kind e with
                | NodeKind.element t _ => some t
                | _ => none).map String.toLower = some tag.toLower))) &&
          v.componentInstance.isNone &&
          ((v.data.bind (fun x => x.hook)).bind (fun h => h.init)).isNone &&
          (v.data.bind (fun d => d.domProps.bind (fun p => p.innerHTML))).isNone &&
          (match v.children with
            | none => false
            | some cs =>
              !(dom.children e).isEmpty && decide (dom.children e).Nodup &&
              (dom.children e).all (fun x => decide (dom.parent x = some e)) &&
              childrenMismatch
                (fun x c => mismatched E d
                  (inVPre0 || ((v.data.map (fun d => d.pre)) = some true)) dom x c)
                (fun x c => matchesTree d dom x c &&
                  hydratable E d (inVPre0 || ((v.data.map (fun d => d.pre)) = some true)) c)
                (dom.children e) cs)))

/-- A server-rendered paragraph: `<p>` (node 0) with the text `"server"` (node 1) and a
`<span>` (node 2). -/
def exMisDom : Dom :=
  { exDom 3
      [(0, NodeKind.element "p" none, none, [1, 2]),
       (1, NodeKind.text, some 0, []),
       (2, NodeKind.element "span" none, some 0, [])] with
    text := fun x => if x = 1 then "server" else "" }

/-- A vnode tree for `exMisDom` whose second child has another tag (`b` for `span`); the
text of the first child is the one given. -/
def exMisTree (text : String) : VNode :=
  exItem 1 "p" none none (some [exText 2 text none, exItem 3 "b" none none none])
/-! ## Words of the specification used for the bookkeeping of `updateChildren` -/

/-- The old index of a `patchVnode` call. -/
def Action.oldPatched : Action → Option Int
  | Action.patch i _ => some i
  | _ => none

/-- The new index of a `patchVnode` or `createElm` call. -/
def Action.newHandled : Action → Option Int
  | Action.patch _ j => some j
  | Action.create j => some j
  | _ => none

/-- The new index of a `patchVnode` call. -/
def Action.newPatched : Action → Option Int
  | Action.patch _ j => some j
  | _ => none

/-- The new index of a `createElm` call. -/
def Action.newCreated : Action → Option Int
  | Action.create j => some j
  | _ => none

/-- The old index of a removal. -/
def Action.oldRemoved : Action → Option Int
  | Action.remove i => some i
  | _ => none

/-- The old children that were patched, by index, one entry per call of `patchVnode`. -/
def patchedOld (t : List Action) : List Int := t.filterMap Action.oldPatched

/-- The new children that were patched or created, by index, one entry per call of
`patchVnode` or `createElm`. -/
def handledNew (t : List Action) : List Int := t.filterMap Action.newHandled

/-- The new children that were patched, by index. -/
def patchedNew (t : List Action) : List Int := t.filterMap Action.newPatched

/-- The new children that were created, by index. -/
def createdNew (t : List Action) : List Int := t.filterMap Action.newCreated

/-- The old children that were removed, by index. -/
def removedOld (t : List Action) : List Int := t.filterMap Action.oldRemoved

/-- A list of moves. -/
def movesOnly (mv : List Action) : Prop := ∀ a ∈ mv, ∃ x y, a = Action.move x y

/-- The old index `i` is consumed: it lies in front of the window, behind it, or at a
slot of the window that was set to `undefined`. -/
def consumed (oD1 oMid oD2 : List (Option VNode)) (i : Int) : Prop :=
  (0 ≤ i ∧ i < (oD1.length : Int)) ∨
  ((oD1.length : Int) + (oMid.length : Int) ≤ i ∧
    i < (oD1.length : Int) + (oMid.length : Int) + (oD2.length : Int)) ∨
  ∃ k : Nat, i = (oD1.length : Int) + (k : Int) ∧ oMid.get? k = some none

/-- The new index `j` is handled: it lies in front of the window or behind it (`f`, `m`
and `b` are the numbers of new children in front of, inside and behind the window). -/
def handled (f m b : Nat) (j : Int) : Prop :=
  (0 ≤ j ∧ j < (f : Int)) ∨ ((f : Int) + (m : Int) ≤ j ∧ j < (f : Int) + (m : Int) + (b : Int))

/-- The bookkeeping of the loop of `updateChildren`: the old children patched so far are
exactly the consumed ones, each patched once; the new children patched or created so far
are exactly those outside the window, each handled once; nothing is removed yet. -/
structure TraceInv (A : Parts) : Prop where
  oldNodup : (patchedOld A.trace).Nodup
  oldIff : ∀ i, i ∈ patchedOld A.trace ↔ consumed A.oD1 A.oMid A.oD2 i
  newNodup : (handledNew A.trace).Nodup
  newIff : ∀ j, j ∈ handledNew A.trace ↔ handled A.nF.length A.nMid.length A.nB.length j
  noRemove : removedOld A.trace = []

/-- What one iteration of the loop does to the parts of the two arrays and to the trace,
branch by branch. -/
inductive Shape : Parts → Parts → Prop
  | skipStart (A : Parts) (M : List (Option VNode)) (h : A.oMid = none :: M) :
    Shape A { A with oD1 := A.oD1 ++ [none], oMid := M }
  | skipEnd (A : Parts) (M : List (Option VNode)) (h : A.oMid = M ++ [none]) :
    Shape A { A with oMid := M, oD2 := none :: A.oD2 }
  | matchStart (A : Parts) (o : VNode) (M : List (Option VNode)) (n : VNode) (N : List VNode)
      (r : St × Queue × VNode) (ho : A.oMid = some o :: M) (hn : A.nMid = n :: N) :
    Shape A { A with
      oD1 := A.oD1 ++ [some o], oMid := M, nF := A.nF ++ [r.2.2], nMid := N,
      st := r.1, queue := r.2.1,
      trace := A.trace ++ [Action.patch A.oD1.length A.nF.length] }
  | matchEnd (A : Parts) (oe : VNode) (M : List (Option VNode)) (ne : VNode) (N : List VNode)
      (r : St × Queue × VNode) (hoe : A.oMid = M ++ [some oe]) (hne : A.nMid = N ++ [ne]) :
    Shape A { A with
      oMid := M, oD2 := some oe :: A.oD2, nMid := N, nB := r.2.2 :: A.nB,
      st := r.1, queue := r.2.1,
      trace := A.trace ++ [Action.patch ((A.oD1.length : Int) + (A.oMid.length : Int) - 1)
        ((A.nF.length : Int) + (A.nMid.length : Int) - 1)] }
  | moveRight (A : Parts) (o : VNode) (M : List (Option VNode)) (ne : VNode) (N : List VNode)
      (r : St × Queue × VNode) (st2 : St) (mv : List Action)
      (ho : A.oMid = some o :: M) (hne : A.nMid = N ++ [ne]) (hmv : movesOnly mv) :
    Shape A { A with
      oD1 := A.oD1 ++ [some o], oMid := M, nMid := N, nB := r.2.2 :: A.nB,
      st := st2, queue := r.2.1,
      trace := A.trace ++ [Action.patch (A.oD1.length : Int)
          ((A.nF.length : Int) + (A.nMid.length : Int) - 1)] ++ mv }
  | moveLeft (A : Parts) (oe : VNode) (M : List (Option VNode)) (n : VNode) (N : List VNode)
      (r : St × Queue × VNode) (st2 : St) (mv : List Action)
      (hoe : A.oMid = M ++ [some oe]) (hn : A.nMid = n :: N) (hmv : movesOnly mv) :
    Shape A { A with
      oMid := M, oD2 := some oe :: A.oD2, nF := A.nF ++ [r.2.2], nMid := N,
      st := st2, queue := r.2.1,
      trace := A.trace ++ [Action.patch ((A.oD1.length : Int) + (A.oMid.length : Int) - 1)
          (A.nF.length : Int)] ++ mv }
  | keyedCreate (A : Parts) (m : JsMap Int) (n : VNode) (N : List VNode)
      (r : St × Queue × VNode) (hn : A.nMid = n :: N) :
    Shape A { A with
      map := some m, nF := A.nF ++ [r.2.2], nMid := N, st := r.1, queue := r.2.1,
      trace := A.trace ++ [Action.create (A.nF.length : Int)] }
  | keyedMove (A : Parts) (o c oe : VNode) (m : JsMap Int) (X Y : List (Option VNode))
      (n : VNode) (N : List VNode) (i : Int) (r : St × Queue × VNode) (st2 : St)
      (mv : List Action)
      (ho : A.oMid = some o :: (X ++ some c :: (Y ++ [some oe])))
      (hi : i = (A.oD1.length : Int) + 1 + (X.length : Int))
      (hn : A.nMid = n :: N) (hmv : movesOnly mv) :
    Shape A { A with
      oMid := some o :: (X ++ none :: (Y ++ [some oe])),
      map := some m, nF := A.nF ++ [r.2.2], nMid := N, st := st2, queue := r.2.1,
      trace := A.trace ++ [Action.patch i (A.nF.length : Int)] ++ mv }

/-! ## Words of the specification used for `observe` on object graphs -/

/-- The object carries an observer (it is wrapped). -/
def ObjRec.wrapped (o : ObjRec) : Bool :=
  match o.ob with
  | ObProp.observer _ => true
  | _ => false

/-- The object at `a` is an observable aggregate: `observe` makes an observer for it when
it carries none (an extensible array or plain object that is neither a vnode nor a Vue
instance, while observation is switched on). -/
def OSt.observable (st : OSt) (a : Nat) : Bool :=
  !(st.obj a).isVNode && (st.shouldObserve && !st.serverRendering &&
    (decide ((st.obj a).kind = ObjKind.array) || decide ((st.obj a).kind = ObjKind.plain)) &&
    (st.obj a).extensible && !(st.obj a).isVue)

/-- An aggregate of plain data: its own properties are data properties with pairwise
distinct names, and it has no own `__ob__` that cannot be redefined. -/
def ObjRec.plainData (o : ObjRec) : Bool :=
  decide (o.ob ≠ ObProp.foreign false) && decide ((o.props.map (fun p => p.1)).Nodup) &&
    o.props.all (fun p => !p.2.isAccessor && p.2.get.isNone)

/-- The members of an aggregate that `new Observer` visits: the elements of an array, the
values of the enumerable and configurable properties of a record. -/
def OSt.members (st : OSt) (a : Nat) : List Val :=
  if (st.obj a).kind = ObjKind.array then (st.obj a).elems
  else ((st.obj a).props.filter (fun p => p.2.enumerable && p.2.configurable)).map
    (fun p => p.2.value)

/-- A finite graph of aggregates: every observable object of the heap that carries no
observer is plain data, and every observer carried is one of the engine. The graph may be
cyclic. -/
def OSt.plainGraph (st : OSt) : Bool :=
  (List.range st.heap.length).all (fun a =>
    match (st.obj a).ob with
    | ObProp.observer i => decide (i < st.observers.length)
    | _ => !st.observable a || (st.obj a).plainData)

/-- The graph property of `plainGraph`, object by object. -/
structure OSt.PlainGraph (st : OSt) : Prop where
  plain : ∀ a, st.observable a = true → (st.obj a).wrapped = false →
    (st.obj a).plainData = true
  valid : ∀ a i, (st.obj a).ob = ObProp.observer i → i < st.observers.length

/-- The edge of the visit of `observe`: `b` is an observable aggregate without an observer
and `c` is one of its members. -/
def OSt.edge (st : OSt) (b c : Nat) : Prop :=
  (st.obj b).wrapped = false ∧ st.observable b = true ∧ Val.ref c ∈ st.members b

/-- What a call of `observe` does to the graph, in the words of the specification: an
object that carried an observer is left as it is (the recursion stops there), an object
that carries none afterwards is left as it is, the observers made are those of the objects
that were wrapped by the call, one each, and nothing else of an object changes but its
`__ob__`, its properties and its array methods. -/
structure OSt.Wraps (s t : OSt) : Prop where
  len : t.heap.length = s.heap.length
  obs : s.observers.length ≤ t.observers.length
  stay : ∀ b i, (s.obj b).ob = ObProp.observer i → (t.obj b).ob = ObProp.observer i
  index : ∀ b i, (t.obj b).ob = ObProp.observer i → (s.obj b).wrapped = false →
    i < t.observers.length
  attrs : ∀ b, (t.obj b).isVNode = (s.obj b).isVNode ∧ (t.obj b).kind = (s.obj b).kind ∧
    (t.obj b).extensible = (s.obj b).extensible ∧ (t.obj b).isVue = (s.obj b).isVue ∧
    (t.obj b).elems = (s.obj b).elems
  flags : t.shouldObserve = s.shouldObserve ∧ t.serverRendering = s.serverRendering
  kept : ∀ b, (s.obj b).wrapped = true → t.obj b = s.obj b
  same : ∀ b, (t.obj b).wrapped = false → t.obj b = s.obj b
  fresh : ∃ fresh : List Nat,
    t.observers.map (fun o => o.value) = s.observers.map (fun o => o.value) ++ fresh ∧
    fresh.Nodup ∧
    ∀ b, b ∈ fresh ↔ ((s.obj b).wrapped = false ∧ (t.obj b).wrapped = true)

/-- Every observable member of `b` (as the state `s` has it) carries an observer in `t`. -/
def OSt.Closure (s t : OSt) (b : Nat) : Prop :=
  ∀ c, Val.ref c ∈ s.members b → s.observable c = true → (t.obj c).wrapped = true

/-- What a finished call of `observe` leaves: the changes of `Wraps`, and every object the
call wrapped has all its observable members wrapped. -/
structure OSt.Visits (s t : OSt) : Prop where
  wraps : s.Wraps t
  closed : ∀ b, (s.obj b).wrapped = false → (t.obj b).wrapped = true → s.Closure t b

/-- What holds while `new Observer` visits the members of `a`, from the state `s` in which
`observe` was called: `a` carries its observer, and every other object wrapped since has
all its observable members wrapped. -/
structure OSt.Visiting (s : OSt) (a : Nat) (t : OSt) : Prop where
  wraps : s.Wraps t
  here : (t.obj a).wrapped = true
  closed : ∀ b, b ≠ a → (s.obj b).wrapped = false → (t.obj b).wrapped = true → s.Closure t b

/-- The object with its own property `key` replaced or added. -/
def ObjRec.setProp (o : ObjRec) (key : String) (slot : Slot) : ObjRec :=
  { o with props := setSlot key slot o.props }

/-- A cyclic graph: the record at address 0 holds itself (`self`) and the array at
address 1 (`list`); the array holds the record, itself and the empty record at
address 2. -/
def cyclicGraph : OSt :=
  freshEngine
    [{ kind := ObjKind.plain,
       props := [("self", { value := Val.ref 0 }), ("list", { value := Val.ref 1 })] },
     { kind := ObjKind.array, elems := [Val.ref 0, Val.ref 1, Val.ref 2] },
     { kind := ObjKind.plain }]

/-- A record (address 0) that holds a frozen record (address 1, not extensible), which
holds an empty record (address 2). -/
def frozenGraph : OSt :=
  freshEngine
    [{ kind := ObjKind.plain, props := [("f", { value := Val.ref 1 })] },
     { kind := ObjKind.plain, extensible := false, props := [("c", { value := Val.ref 2 })] },
     { kind := ObjKind.plain }]

/-- A record whose own property `__ob__` holds a value that is not an observer and cannot
be redefined (the property is not configurable). -/
def sealedObGraph : OSt :=
  freshEngine [{ kind := ObjKind.plain, ob := ObProp.foreign false }]

/-- The recursion bound of the embedding is reached inside a call of `patchVnode` or of
`createElm`: one of the two, called on some arguments, fails with `outOfFuel`. -/
def NestedBound (patchV : PatchFn) (createE : CreateFn) : Prop :=
  (∃ s q o v, patchV s q o v = Except.error Err.outOfFuel) ∨
    (∃ s q v p r b c, createE s q v p r b c = Except.error Err.outOfFuel)

/-! # Theorems -/

set_option linter.unusedTactic false
set_option linter.unreachableTactic false
set_option linter.unusedVariables false

/-! ## `sameVnode` -/

theorem keyEq_iff (a b : Option Key) : keyEq a b = true ↔ (a = b ∧ a ≠ some Key.nan) := by
  simp [keyEq]

theorem keyEq_comm (a b : Option Key) : keyEq a b = keyEq b a := by
  by_cases h : a = b
  · subst h; rfl
  · have h' : ¬ b = a := fun e => h e.symm
    simp [keyEq, h, h']

theorem keyEq_of_ne (a b : Option Key) (h : a ≠ b) : keyEq a b = false := by
  simp [keyEq, h]

theorem childrenIgnored_eq_false (v : VNode) :
    childrenIgnored v = false ↔
      ∀ d p, v.data = some d → d.domProps = some p →
        truthyStr p.innerHTML = false ∧ truthyStr p.textContent = false := by
  unfold childrenIgnored
  cases hd : v.data with
  | none => simp
  | some d =>
    cases hp : d.domProps with
    | none =>
      simp only [hp, true_iff]
      intro d1 p1 h1 h2
      cases h1
      rw [hp] at h2
      cases h2
    | some p =>
      simp only [hp, Bool.or_eq_false_iff]
      constructor
      · intro h d1 p1 h1 h2
        cases h1
        rw [hp] at h2
        cases h2
        exact h
      · intro h
        exact h d p rfl hp

theorem sameInputType_eq_true (itt : TypeVal → Bool) (a b : VNode) :
    sameInputType itt a b = true ↔
      (a.tag = some "input" →
        inputTypeOf a = inputTypeOf b ∨ (itt (inputTypeOf a) = true ∧ itt (inputTypeOf b) = true)) := by
  unfold sameInputType
  by_cases h : a.tag = some "input" <;> simp [h]

theorem sameAsync_eq_true (a b : VNode) :
    sameAsync a b = some true ↔
      (a.isAsyncPlaceholder = true ∧
        ∃ f g, a.asyncFactory = some f ∧ b.asyncFactory = some g ∧ f.id = g.id ∧
          g.error = false) := by
  unfold sameAsync
  by_cases hp : a.isAsyncPlaceholder = true
  · simp only [hp, if_true, true_and]
    cases ha : a.asyncFactory with
    | none =>
      cases hb : b.asyncFactory with
      | none => simp
      | some g => simp
    | some f =>
      cases hb : b.asyncFactory with
      | none => simp
      | some g =>
        by_cases hid : f.id = g.id
        · simp [hid]
        · simp [hid]
  · simp [hp]

/-- C2 (as amended): `sameVnode(a, b)` is true exactly when the keys are equal under `===`
(`keyEq`: one key, or both undefined, and not `NaN`) and either
(i) the tags are equal, the `isComment` flags are equal, both or neither have a data
payload, neither has a truthy `domProps.innerHTML` or `domProps.textContent`, and, when
the tag is `input`, the values `data && data.attrs && data.attrs.type` of the two sides
are identical or both in the text-input table; or (ii) `a` is an unresolved async
placeholder, `b` carries the same factory and that factory has no error. -/
theorem sameVnode_eq_true_iff (itt : TypeVal → Bool) (a b : VNode) :
    sameVnode itt a b = some true ↔
      keyEq a.key b.key = true ∧
      ((a.tag = b.tag ∧ a.isComment = b.isComment ∧ a.data.isSome = b.data.isSome ∧
          (∀ d p, a.data = some d → d.domProps = some p →
            truthyStr p.innerHTML = false ∧ truthyStr p.textContent = false) ∧
          (∀ d p, b.data = some d → d.domProps = some p →
            truthyStr p.innerHTML = false ∧ truthyStr p.textContent = false) ∧
          (a.tag = some "input" →
            inputTypeOf a = inputTypeOf b ∨
              (itt (inputTypeOf a) = true ∧ itt (inputTypeOf b) = true))) ∨
        (a.isAsyncPlaceholder = true ∧
          ∃ f g, a.asyncFactory = some f ∧ b.asyncFactory = some g ∧ f.id = g.id ∧
            g.error = false)) := by
  rw [← childrenIgnored_eq_false, ← childrenIgnored_eq_false, ← sameInputType_eq_true,
    ← sameAsync_eq_true]
  unfold sameVnode
  by_cases hk : keyEq a.key b.key = true
  · simp only [hk, if_true, true_and]
    by_cases hc : (decide (a.tag = b.tag) && decide (a.isComment = b.isComment) &&
        decide (a.data.isSome = b.data.isSome) && !childrenIgnored a && !childrenIgnored b &&
        sameInputType itt a b) = true
    · rw [if_pos hc]
      simp only [Bool.and_eq_true, decide_eq_true_eq, Bool.not_eq_true'] at hc
      simp only [true_iff]
      left
      tauto
    · rw [if_neg hc]
      simp only [Bool.and_eq_true, decide_eq_true_eq, Bool.not_eq_true'] at hc
      constructor
      · intro h; right; exact h
      · rintro (h | h)
        · exact absurd (by tauto) hc
        · exact h
  · simp [hk]

/-- C2 (counterexample): the wording of the specification and `sameVnode` differ on three
inputs. A placeholder and the resolved vnode of the same factory are the same node
although the second is no placeholder; two `div` whose `innerHTML` is set to the empty
string are the same node; two `input` without a type, one with `data = {}` and one with
`data = {attrs: {}}`, are not the same node. -/
theorem sameVnode_spec_counterexample :
    (sameVnode webTextInputType (asyncPlaceholder 1 { id := 7 }) (resolvedAsync 2 { id := 7 })
        = some true ∧
      sameVnodeSpec webTextInputType (asyncPlaceholder 1 { id := 7 })
        (resolvedAsync 2 { id := 7 }) = false) ∧
    (sameVnode webTextInputType (dataVNode 1 "div" { domProps := some { innerHTML := some "" } })
        (dataVNode 2 "div" { domProps := some { innerHTML := some "" } }) = some true ∧
      sameVnodeSpec webTextInputType
        (dataVNode 1 "div" { domProps := some { innerHTML := some "" } })
        (dataVNode 2 "div" { domProps := some { innerHTML := some "" } }) = false) ∧
    (sameVnode webTextInputType (dataVNode 1 "input" {})
        (dataVNode 2 "input" { attrs := some {} }) = some false ∧
      sameVnodeSpec webTextInputType (dataVNode 1 "input" {})
        (dataVNode 2 "input" { attrs := some {} }) = true) := by
  decide

theorem sameAsync_comm (a b : VNode) (hp : a.isAsyncPlaceholder = b.isAsyncPlaceholder)
    (hf : ∀ f g, a.asyncFactory = some f → b.asyncFactory = some g → f.id = g.id →
      f.error = g.error) :
    sameAsync a b = sameAsync b a := by
  unfold sameAsync
  rw [← hp]
  by_cases h : a.isAsyncPlaceholder = true
  · simp only [h, if_true]
    cases ha : a.asyncFactory with
    | none =>
      cases hb : b.asyncFactory with
      | none => rfl
      | some g => simp
    | some f =>
      cases hb : b.asyncFactory with
      | none => simp
      | some g =>
        by_cases hid : f.id = g.id
        · have := hf f g ha hb hid
          simp [hid, this]
        · have hid' : ¬ g.id = f.id := fun h => hid h.symm
          simp [hid, hid']
  · simp [h]

theorem sameInputType_comm (itt : TypeVal → Bool) (a b : VNode) (ht : a.tag = b.tag) :
    sameInputType itt a b = sameInputType itt b a := by
  unfold sameInputType
  rw [← ht]
  by_cases h : a.tag = some "input"
  · simp only [h, ne_eq, not_true_eq_false, if_false]
    rw [Bool.and_comm]
    congr 1
    by_cases e : inputTypeOf a = inputTypeOf b
    · simp [e]
    · have e' : ¬ inputTypeOf b = inputTypeOf a := fun h => e h.symm
      simp [e, e']
  · simp [h]

theorem sameVnode_comm_of (itt : TypeVal → Bool) (a b : VNode)
    (hs : sameAsync a b = sameAsync b a) :
    sameVnode itt a b = sameVnode itt b a := by
  unfold sameVnode
  by_cases hk : keyEq a.key b.key = true
  · rw [if_pos hk, if_pos (show keyEq b.key a.key = true by rw [keyEq_comm]; exact hk), hs]
    have ht0 := ((keyEq_iff _ _).1 hk).1
    by_cases ht : a.tag = b.tag
    · rw [sameInputType_comm itt a b ht]
      have e1 : decide (a.tag = b.tag) = decide (b.tag = a.tag) := by simp [ht]
      have e2 : decide (a.isComment = b.isComment) = decide (b.isComment = a.isComment) := by
        by_cases h : a.isComment = b.isComment
        · simp [h]
        · have h' : ¬ b.isComment = a.isComment := fun x => h x.symm
          simp [h, h']
      have e3 : decide (a.data.isSome = b.data.isSome) =
          decide (b.data.isSome = a.data.isSome) := by
        by_cases h : a.data.isSome = b.data.isSome
        · simp [h]
        · have h' : ¬ b.data.isSome = a.data.isSome := fun x => h x.symm
          simp [h, h']
      rw [e1, e2, e3]
      have e4 : (decide (b.tag = a.tag) && decide (b.isComment = a.isComment) &&
            decide (b.data.isSome = a.data.isSome) && !childrenIgnored a && !childrenIgnored b &&
            sameInputType itt b a) =
          (decide (b.tag = a.tag) && decide (b.isComment = a.isComment) &&
            decide (b.data.isSome = a.data.isSome) && !childrenIgnored b && !childrenIgnored a &&
            sameInputType itt b a) := by
        cases childrenIgnored a <;> cases childrenIgnored b <;> simp
      rw [e4]
    · have ht' : ¬ b.tag = a.tag := fun h => ht h.symm
      simp [ht, ht']
  · have hk' : ¬ keyEq b.key a.key = true := by rw [keyEq_comm]; exact hk
    rw [if_neg hk, if_neg hk']

theorem sameVnode_comm (itt : TypeVal → Bool) (a b : VNode)
    (hp : a.isAsyncPlaceholder = b.isAsyncPlaceholder)
    (hf : ∀ f g, a.asyncFactory = some f → b.asyncFactory = some g → f.id = g.id →
      f.error = g.error) :
    sameVnode itt a b = sameVnode itt b a :=
  sameVnode_comm_of itt a b (sameAsync_comm a b hp hf)

theorem sameVnode_swap (itt : TypeVal → Bool) (a b : VNode)
    (ha : a.isAsyncPlaceholder = false) (hb : b.isAsyncPlaceholder = false) :
    sameVnode itt a b = sameVnode itt b a := by
  apply sameVnode_comm_of
  unfold sameAsync
  simp [ha, hb]

/-- C3 (as amended): for all vnodes `a` and `b` whose `isAsyncPlaceholder` flags are equal
(factories compared by reference being one object, so with one `error` field),
`sameVnode(a, b)` equals `sameVnode(b, a)`. -/
theorem sameVnode_symm (itt : TypeVal → Bool) (a b : VNode)
    (hp : a.isAsyncPlaceholder = b.isAsyncPlaceholder)
    (hf : ∀ f g, a.asyncFactory = some f → b.asyncFactory = some g → f.id = g.id →
      f.error = g.error) :
    sameVnode itt a b = sameVnode itt b a :=
  sameVnode_comm itt a b hp hf

/-- C3 (witness): two keyed `li` elements, neither a placeholder. -/
theorem sameVnode_symm_witness :
    sameVnode webTextInputType (elementVNode 1 "li" (some (Key.num 1)))
        (elementVNode 2 "li" (some (Key.num 1))) =
      sameVnode webTextInputType (elementVNode 2 "li" (some (Key.num 1)))
        (elementVNode 1 "li" (some (Key.num 1))) :=
  sameVnode_symm webTextInputType _ _ (by decide) (fun _ _ h => by cases h)

/-- C3 (counterexample): a placeholder is the same node as the resolved vnode of its
factory, but not the other way round. -/
theorem sameVnode_symm_counterexample :
    sameVnode webTextInputType (asyncPlaceholder 1 { id := 7 }) (resolvedAsync 2 { id := 7 })
        = some true ∧
    sameVnode webTextInputType (resolvedAsync 2 { id := 7 }) (asyncPlaceholder 1 { id := 7 })
        = some false := by
  decide

/-- C4 (as amended): for all vnodes `a` and `b` with the same tag, the same key under
`===` (so a key that is not `NaN`) and the same `isComment` flag, that both or neither
have a data payload, neither of which has a truthy `domProps.innerHTML` or
`domProps.textContent`, and whose input types are compatible, `sameVnode(a, b)` is true;
in particular `sameVnode(a, a)` is true for a vnode `a` whose key is not `NaN` and that
has no such raw content. -/
theorem sameVnode_of_same_triple (itt : TypeVal → Bool) (a b : VNode)
    (htag : a.tag = b.tag) (hkey : keyEq a.key b.key = true) (hc : a.isComment = b.isComment)
    (hdata : a.data.isSome = b.data.isSome)
    (ha : childrenIgnored a = false) (hb : childrenIgnored b = false)
    (hin : sameInputType itt a b = true) :
    sameVnode itt a b = some true ∧
      (a.key ≠ some Key.nan → childrenIgnored a = false → sameVnode itt a a = some true) := by
  constructor
  · unfold sameVnode
    simp [htag, hkey, hc, hdata, ha, hb, hin]
  · intro hk hi
    have hself : keyEq a.key a.key = true := (keyEq_iff _ _).2 ⟨rfl, hk⟩
    have hin2 : sameInputType itt a a = true := by
      unfold sameInputType
      by_cases h : a.tag = some "input"
      · simp [h]
      · simp [h]
    unfold sameVnode
    simp [hself, hi, hin2]

/-- C4 (witness): a keyed `li` element and itself. -/
theorem sameVnode_of_same_triple_witness :
    sameVnode webTextInputType (elementVNode 1 "li" (some (Key.num 1)))
        (elementVNode 1 "li" (some (Key.num 1))) = some true ∧
      ((elementVNode 1 "li" (some (Key.num 1))).key ≠ some Key.nan →
        childrenIgnored (elementVNode 1 "li" (some (Key.num 1))) = false →
        sameVnode webTextInputType (elementVNode 1 "li" (some (Key.num 1)))
          (elementVNode 1 "li" (some (Key.num 1))) = some true) :=
  sameVnode_of_same_triple webTextInputType _ _ rfl (by decide) rfl rfl (by decide)
    (by decide) (by decide)

/-- C4 (counterexample): equal tag, key and `isComment` do not make two vnodes the same
node. A `div` without data and one with data differ; a `div` whose `innerHTML` is set is
not even the same node as itself; an `input` of type `checkbox` and one of type `radio`
differ; and a vnode whose key is `NaN` is not the same node as itself, since
`a.key === a.key` is false. -/
theorem sameVnode_triple_counterexample :
    (sameVnode webTextInputType (elementVNode 1 "div" none) (dataVNode 2 "div" {})
      = some false) ∧
    (sameVnode webTextInputType
      (dataVNode 1 "div" { domProps := some { innerHTML := some "<b>x</b>" } })
      (dataVNode 1 "div" { domProps := some { innerHTML := some "<b>x</b>" } }) = some false) ∧
    (sameVnode webTextInputType
      (dataVNode 1 "input" { attrs := some { type := some "checkbox" } })
      (dataVNode 2 "input" { attrs := some { type := some "radio" } }) = some false) ∧
    (sameVnode webTextInputType (elementVNode 1 "li" (some Key.nan))
      (elementVNode 1 "li" (some Key.nan)) = some false) := by
  decide

/-- C5 (as amended): for all vnodes `a` and `b` with equal keys and different tags, where
`a` is not an unresolved async placeholder, `sameVnode(a, b)` is false. -/
theorem sameVnode_of_tag_ne (itt : TypeVal → Bool) (a b : VNode)
    (hkey : a.key = b.key) (htag : a.tag ≠ b.tag) (hp : a.isAsyncPlaceholder = false) :
    sameVnode itt a b = some false := by
  unfold sameVnode sameAsync
  by_cases hk : keyEq a.key b.key = true
  · simp [hk, htag, hp]
  · simp [hk]

/-- C5 (witness): a `div` and a `span` with the same key. -/
theorem sameVnode_of_tag_ne_witness :
    sameVnode webTextInputType (elementVNode 1 "div" (some (Key.str "k")))
      (elementVNode 2 "span" (some (Key.str "k"))) = some false :=
  sameVnode_of_tag_ne webTextInputType _ _ rfl (by decide) rfl

/-- C5 (counterexample): a placeholder (no tag) and the resolved vnode of its factory
(tagged `vue-component-1-async`) have equal keys and different tags and are the same
node. -/
theorem sameVnode_tag_ne_counterexample :
    (asyncPlaceholder 1 { id := 7 }).key = (resolvedAsync 2 { id := 7 }).key ∧
    (asyncPlaceholder 1 { id := 7 }).tag ≠ (resolvedAsync 2 { id := 7 }).tag ∧
    sameVnode webTextInputType (asyncPlaceholder 1 { id := 7 }) (resolvedAsync 2 { id := 7 })
      = some true := by
  decide

/-! ## General lemmas -/

theorem bind_eq_ok {α β : Type} (x : Res α) (f : α → Res β) (b : β) :
    (x >>= f) = Except.ok b ↔ ∃ a, x = Except.ok a ∧ f a = Except.ok b := by
  cases x <;> simp [bind, Except.bind]

theorem pure_eq_ok {α : Type} (a b : α) : (pure a : Res α) = Except.ok b ↔ a = b := by
  simp [pure, Except.pure]

theorem throw_ne_ok {α : Type} (e : Err) (b : α) : (throw e : Res α) ≠ Except.ok b := by
  simp [throw, throwThe, MonadExceptOf.throw]

/-! ## `observe` -/

theorem OSt.OnlyDeps.same (s : OSt) : s.OnlyDeps s := by
  simp [OSt.OnlyDeps]

theorem OSt.OnlyDeps.andThen {s t u : OSt} (h1 : s.OnlyDeps t) (h2 : t.OnlyDeps u) :
    s.OnlyDeps u := by
  unfold OSt.OnlyDeps at *
  obtain ⟨a1, a2, a3, a4, a5, a6, a7, a8, a9, a10⟩ := h1
  obtain ⟨b1, b2, b3, b4, b5, b6, b7, b8, b9, b10⟩ := h2
  exact ⟨b1.trans a1, b2.trans a2, b3.trans a3, b4.trans a4, b5.trans a5, b6.trans a6,
    b7.trans a7, b8.trans a8, b9.trans a9, b10.trans a10⟩

theorem depend_onlyDeps (st : OSt) (dep : Nat) : st.OnlyDeps (depend st dep) := by
  unfold depend
  split
  · exact OSt.OnlyDeps.same _
  · split
    · exact OSt.OnlyDeps.same _
    · simp [OSt.OnlyDeps]

theorem dependArray_onlyDeps :
    ∀ (fuel : Nat) (st : OSt) (l : List Val) (st' : OSt),
      dependArray fuel st l = Except.ok st' → st.OnlyDeps st' := by
  intro fuel
  induction fuel with
  | zero =>
    intro st l st' h
    simp [dependArray, throw_ne_ok] at h
  | succ n ih =>
    intro st l st' h
    cases l with
    | nil =>
      simp only [dependArray, pure_eq_ok] at h
      subst h
      exact OSt.OnlyDeps.same _
    | cons e rest =>
      cases e with
      | ref a =>
        simp only [dependArray, bind_eq_ok] at h
        obtain ⟨st1, h1, st2, h2, h3⟩ := h
        have e1 : st.OnlyDeps st1 := by
          cases hob : (st.obj a).ob with
          | absent =>
            rw [hob] at h1
            simp only [pure_eq_ok] at h1
            subst h1
            exact OSt.OnlyDeps.same _
          | foreign c =>
            rw [hob] at h1
            exact absurd h1 (throw_ne_ok _ _)
          | observer i =>
            rw [hob] at h1
            simp only at h1
            cases hg : st.observers.get? i with
            | none =>
              rw [hg] at h1
              exact absurd h1 (throw_ne_ok _ _)
            | some ob =>
              rw [hg] at h1
              simp only [pure_eq_ok] at h1
              subst h1
              exact depend_onlyDeps _ _
        have e2 : st1.OnlyDeps st2 := by
          split at h2
          · exact ih _ _ _ h2
          · simp only [pure_eq_ok] at h2
            subst h2
            exact OSt.OnlyDeps.same _
        exact (e1.andThen e2).andThen (ih _ _ _ h3)
      | undefined => simp only [dependArray] at h; exact ih _ _ _ h
      | null => simp only [dependArray] at h; exact ih _ _ _ h
      | bool b => simp only [dependArray] at h; exact ih _ _ _ h
      | num k => simp only [dependArray] at h; exact ih _ _ _ h
      | nan => simp only [dependArray] at h; exact ih _ _ _ h
      | str s => simp only [dependArray] at h; exact ih _ _ _ h

theorem callGetter_onlyDeps (U : User) :
    ∀ (fuel : Nat) (st : OSt) (f : Fn) (st' : OSt) (v : Val),
      callGetter U fuel st f = Except.ok (st', v) → st.OnlyDeps st' := by
  intro fuel
  induction fuel with
  | zero =>
    intro st f st' v h
    simp [callGetter, throw_ne_ok] at h
  | succ n ih =>
    intro st f st' v h
    cases f with
    | user g =>
      simp only [callGetter, pure_eq_ok, Prod.mk.injEq] at h
      rw [← h.1]
      exact OSt.OnlyDeps.same _
    | reactive c =>
      simp only [callGetter] at h
      cases hc : st.cells.get? c with
      | none =>
        rw [hc] at h
        exact absurd h (throw_ne_ok _ _)
      | some cell =>
        rw [hc] at h
        simp only [bind_eq_ok] at h
        obtain ⟨r, hr, h⟩ := h
        have e1 : st.OnlyDeps r.1 := by
          cases hg : cell.getter with
          | none =>
            rw [hg] at hr
            simp only [pure_eq_ok] at hr
            rw [← hr]
            exact OSt.OnlyDeps.same _
          | some g =>
            rw [hg] at hr
            exact ih _ _ _ _ hr
        have d1 := depend_onlyDeps r.1 cell.dep
        split at h
        · simp only [pure_eq_ok, Prod.mk.injEq] at h
          rw [← h.1]; exact e1
        · split at h
          · simp only [pure_eq_ok, Prod.mk.injEq] at h
            rw [← h.1]; exact e1.andThen d1
          · split at h
            · exact absurd h (throw_ne_ok _ _)
            · rename_i i _ ob hob
              have d2 := depend_onlyDeps (depend r.1 cell.dep) ob.dep
              split at h
              · split at h
                · simp only [bind_eq_ok, pure_eq_ok, Prod.mk.injEq] at h
                  obtain ⟨st4, h4, h5⟩ := h
                  rw [← h5.1]
                  exact ((e1.andThen d1).andThen d2).andThen (dependArray_onlyDeps _ _ _ _ h4)
                · simp only [pure_eq_ok, Prod.mk.injEq] at h
                  rw [← h.1]; exact (e1.andThen d1).andThen d2
              · simp only [pure_eq_ok, Prod.mk.injEq] at h
                rw [← h.1]; exact (e1.andThen d1).andThen d2

theorem readProp_onlyDeps (U : User) (fuel : Nat) (st : OSt) (obj : Nat) (key : String)
    (st' : OSt) (v : Val) (h : readProp U fuel st obj key = Except.ok (st', v)) :
    st.OnlyDeps st' := by
  unfold readProp at h
  split at h
  · simp only [pure_eq_ok, Prod.mk.injEq] at h
    rw [← h.1]; exact OSt.OnlyDeps.same _
  · split at h
    · split at h
      · exact callGetter_onlyDeps U _ _ _ _ _ h
      · simp only [pure_eq_ok, Prod.mk.injEq] at h
        rw [← h.1]; exact OSt.OnlyDeps.same _
    · simp only [pure_eq_ok, Prod.mk.injEq] at h
      rw [← h.1]; exact OSt.OnlyDeps.same _

theorem OSt.Ext.here (s : OSt) : s.Ext s :=
  ⟨Nat.le_refl _, rfl, fun _ => ⟨rfl, fun _ h => h⟩⟩

theorem OSt.Ext.thenExt {s t u : OSt} (h1 : s.Ext t) (h2 : t.Ext u) : s.Ext u :=
  ⟨Nat.le_trans h1.1 h2.1, h2.2.1.trans h1.2.1,
    fun a => ⟨((h2.2.2 a).1).trans ((h1.2.2 a).1),
      fun i h => (h2.2.2 a).2 i ((h1.2.2 a).2 i h)⟩⟩

theorem OSt.Ext.of_heap {s t : OSt} (hh : t.heap = s.heap)
    (ho : s.observers.length ≤ t.observers.length) : s.Ext t := by
  refine ⟨ho, by rw [hh], fun a => ?_⟩
  have : t.obj a = s.obj a := by simp [OSt.obj, hh]
  rw [this]
  exact ⟨rfl, fun _ h => h⟩

theorem OSt.OnlyDeps.toExt {s t : OSt} (h : s.OnlyDeps t) : s.Ext t :=
  OSt.Ext.of_heap h.1 (by rw [h.2.1])

theorem obj_setObj (st : OSt) (a : Nat) (o : ObjRec) (b : Nat) :
    (st.setObj a o).obj b = if a = b ∧ a < st.heap.length then o else st.obj b := by
  simp only [OSt.obj, OSt.setObj, List.getD_eq_getElem?_getD, List.getElem?_set]
  by_cases hab : a = b
  · subst hab
    by_cases hl : a < st.heap.length
    · simp [hl]
    · have : st.heap[a]? = none := by
        rw [List.getElem?_eq_none_iff]; omega
      simp [hl, this]
  · simp [hab]

theorem setObj_ext (st : OSt) (a : Nat) (o : ObjRec)
    (hv : o.isVNode = (st.obj a).isVNode)
    (ho : ∀ i, (st.obj a).ob = ObProp.observer i → o.ob = ObProp.observer i) :
    st.Ext (st.setObj a o) := by
  refine ⟨Nat.le_refl _, by simp [OSt.setObj], fun b => ?_⟩
  rw [obj_setObj]
  split
  · rename_i h
    rw [← h.1]
    exact ⟨hv, ho⟩
  · exact ⟨rfl, fun _ h => h⟩

theorem newDep_ext (st : OSt) : st.Ext (newDep st).1 :=
  OSt.Ext.of_heap rfl (Nat.le_refl _)

theorem defineReactive_ext (U : User) (observe' : ObserveFn)
    (hobs : ∀ s v s' r, observe' s v = Except.ok (s', r) → s.Ext s')
    (fuel : Nat) (st : OSt) (obj : Nat) (key : String) (val : Option Val)
    (customSetter shallow : Bool) (st' : OSt)
    (h : defineReactive U observe' fuel st obj key val customSetter shallow = Except.ok st') :
    st.Ext st' := by
  unfold defineReactive at h
  simp only at h
  split at h
  · simp only [pure_eq_ok] at h
    rw [← h]; exact newDep_ext st
  · simp only [bind_eq_ok] at h
    obtain ⟨r, hr, c, hc, h⟩ := h
    have e1 : (newDep st).1.Ext r.1 := by
      split at hr
      · simp only [pure_eq_ok] at hr
        rw [← hr]; exact OSt.Ext.here _
      · split at hr
        · exact (readProp_onlyDeps U _ _ _ _ _ _ hr).toExt
        · simp only [pure_eq_ok] at hr
          rw [← hr]; exact OSt.Ext.here _
    have e2 : r.1.Ext c.1 := by
      split at hc
      · simp only [pure_eq_ok] at hc
        rw [← hc]; exact OSt.Ext.here _
      · exact hobs _ _ _ _ hc
    split at h
    · exact absurd h (throw_ne_ok _ _)
    · simp only [pure_eq_ok] at h
      rw [← h]
      refine ((newDep_ext st).thenExt (e1.thenExt e2)).thenExt ?_
      have e3 : c.1.Ext { c.1 with cells := c.1.cells ++ [
          { obj := obj, key := key, dep := (newDep st).2, val := r.2, childOb := c.2,
            getter := ((newDep st).1.slot obj key).bind (fun p => p.get),
            setter := ((newDep st).1.slot obj key).bind (fun p => p.set),
            customSetter := customSetter, shallow := shallow }] } :=
        OSt.Ext.of_heap rfl (Nat.le_refl _)
      refine e3.thenExt ?_
      apply setObj_ext
      · rfl
      · intro i hi; exact hi

theorem walk_ext (U : User) (observe' : ObserveFn)
    (hobs : ∀ s v s' r, observe' s v = Except.ok (s', r) → s.Ext s')
    (fuel : Nat) (obj : Nat) :
    ∀ (keys : List String) (st st' : OSt),
      walk U observe' fuel obj st keys = Except.ok st' → st.Ext st' := by
  intro keys
  induction keys with
  | nil =>
    intro st st' h
    simp only [walk, pure_eq_ok] at h
    rw [← h]; exact OSt.Ext.here _
  | cons k rest ih =>
    intro st st' h
    simp only [walk, bind_eq_ok] at h
    obtain ⟨st1, h1, h2⟩ := h
    exact (defineReactive_ext U observe' hobs _ _ _ _ _ _ _ _ h1).thenExt (ih _ _ h2)

theorem observeArray_ext (observe' : ObserveFn)
    (hobs : ∀ s v s' r, observe' s v = Except.ok (s', r) → s.Ext s') :
    ∀ (items : List Val) (st st' : OSt),
      observeArray observe' st items = Except.ok st' → st.Ext st' := by
  intro items
  induction items with
  | nil =>
    intro st st' h
    simp only [observeArray, pure_eq_ok] at h
    rw [← h]; exact OSt.Ext.here _
  | cons v rest ih =>
    intro st st' h
    simp only [observeArray, bind_eq_ok] at h
    obtain ⟨r, h1, h2⟩ := h
    exact (hobs _ _ _ _ h1).thenExt (ih _ _ h2)

/-- What `new Observer(value)` leaves behind on an object that carried no observer: the
object carries the new observer, which is a valid one. -/
theorem observerNew_spec (U : User) (observe' : ObserveFn)
    (hobs : ∀ s v s' r, observe' s v = Except.ok (s', r) → s.Ext s')
    (fuel : Nat) (st : OSt) (value : Nat) (st' : OSt) (id : Nat)
    (hlen : value < st.heap.length)
    (hno : ∀ i, (st.obj value).ob ≠ ObProp.observer i)
    (h : Observer.new U observe' fuel st value = Except.ok (st', id)) :
    st.Ext st' ∧ (st'.obj value).ob = ObProp.observer id ∧ id < st'.observers.length := by
  unfold Observer.new at h
  simp only at h
  split at h
  · exact absurd h (throw_ne_ok _ _)
  · -- the state once `__ob__` is defined
    have hlen1 : value < ({ (newDep st).1 with observers := (newDep st).1.observers ++
        [{ value := value, dep := (newDep st).2, vmCount := 0 }] } : OSt).heap.length := hlen
    have e0 : st.Ext ({ (newDep st).1 with observers := (newDep st).1.observers ++
        [{ value := value, dep := (newDep st).2, vmCount := 0 }] } : OSt) :=
      OSt.Ext.of_heap rfl (by simp [newDep])
    have hobj0 : ({ (newDep st).1 with observers := (newDep st).1.observers ++
        [{ value := value, dep := (newDep st).2, vmCount := 0 }] } : OSt).obj value
          = st.obj value := rfl
    generalize hs1 : ({ (newDep st).1 with observers := (newDep st).1.observers ++
        [{ value := value, dep := (newDep st).2, vmCount := 0 }] } : OSt) = st1 at h hlen1 e0 hobj0
    have hid : (newDep st).1.observers.length < st1.observers.length := by
      rw [← hs1]; simp
    have e1 : st1.Ext (st1.setObj value
        { st1.obj value with ob := ObProp.observer (newDep st).1.observers.length }) := by
      apply setObj_ext
      · rfl
      · intro i hi
        rw [hobj0] at hi
        exact absurd hi (hno i)
    have hob1 : ((st1.setObj value
        { st1.obj value with ob := ObProp.observer (newDep st).1.observers.length }).obj value).ob
          = ObProp.observer (newDep st).1.observers.length := by
      rw [obj_setObj]; simp [hlen1]
    generalize hs2 : st1.setObj value
        { st1.obj value with ob := ObProp.observer (newDep st).1.observers.length } = st2
        at h e1 hob1
    have hid2 : (newDep st).1.observers.length < st2.observers.length :=
      Nat.lt_of_lt_of_le hid e1.1
    split at h
    · simp only [bind_eq_ok, pure_eq_ok, Prod.mk.injEq] at h
      obtain ⟨st4, h4, h5, h6⟩ := h
      subst h5 h6
      have e2 : st2.Ext (st2.setObj value { st2.obj value with augmented := true }) := by
        apply setObj_ext
        · rfl
        · intro i hi; exact hi
      have e3 := observeArray_ext observe' hobs _ _ _ h4
      refine ⟨e0.thenExt (e1.thenExt (e2.thenExt e3)), ?_, ?_⟩
      · exact ((e2.thenExt e3).2.2 value).2 _ hob1
      · exact Nat.lt_of_lt_of_le hid2 (e2.thenExt e3).1
    · simp only [bind_eq_ok, pure_eq_ok, Prod.mk.injEq] at h
      obtain ⟨st3, h3, h5, h6⟩ := h
      subst h5 h6
      have e3 := walk_ext U observe' hobs _ _ _ _ _ h3
      refine ⟨e0.thenExt (e1.thenExt e3), ?_, ?_⟩
      · exact (e3.2.2 value).2 _ hob1
      · exact Nat.lt_of_lt_of_le hid2 e3.1

theorem obj_default_of_le (st : OSt) (a : Nat) (h : st.heap.length ≤ a) :
    st.obj a = default := by
  simp only [OSt.obj, List.getD_eq_getElem?_getD]
  have : st.heap[a]? = none := by
    rw [List.getElem?_eq_none_iff]; omega
  rw [this]; rfl

/-- What a call of `observe` establishes: nothing is undone, and a returned observer is
the observer the value carries afterwards. -/
theorem observe_spec (U : User) :
    ∀ (fuel : Nat) (st : OSt) (v : Val) (asRoot : Bool) (st' : OSt) (res : Option Nat),
      observe U fuel st v asRoot = Except.ok (st', res) →
      st.Ext st' ∧
        ∀ ob, res = some ob →
          ∃ a, v = Val.ref a ∧ (st'.obj a).ob = ObProp.observer ob ∧
            (st'.obj a).isVNode = false := by
  intro fuel
  induction fuel with
  | zero =>
    intro st v asRoot st' res h
    simp [observe, throw_ne_ok] at h
  | succ n ih =>
    intro st v asRoot st' res h
    have hobs : ∀ s w s' r, (fun s v => observe U n s v false) s w = Except.ok (s', r) →
        s.Ext s' := fun s w s' r hh => (ih s w false s' r hh).1
    cases v with
    | ref a =>
      simp only [observe] at h
      split at h
      · simp only [pure_eq_ok, Prod.mk.injEq] at h
        rw [← h.1, ← h.2]
        exact ⟨OSt.Ext.here _, fun ob hob => by cases hob⟩
      · rename_i hv
        simp only [Bool.not_eq_true] at hv
        simp only [bind_eq_ok] at h
        obtain ⟨r, hr, h⟩ := h
        -- the observer found or made
        have key : st.Ext r.1 ∧ ∀ ob, r.2 = some ob →
            (r.1.obj a).ob = ObProp.observer ob := by
          split at hr
          · rename_i i hi
            simp only [pure_eq_ok] at hr
            rw [← hr]
            refine ⟨OSt.Ext.here _, fun ob hob => ?_⟩
            simp only [Option.some.injEq] at hob
            rw [← hob]; exact hi
          · rename_i hno
            split at hr
            · rename_i hcond
              simp only [bind_eq_ok, pure_eq_ok] at hr
              obtain ⟨nw, hn, hr⟩ := hr
              have hlen : a < st.heap.length := by
                by_contra hc
                have hd := obj_default_of_le st a (by omega)
                rw [hd] at hcond
                simp at hcond
              have sp := observerNew_spec U _ hobs n st a nw.1 nw.2 hlen
                (fun i hi => hno i hi) hn
              rw [← hr]
              refine ⟨sp.1, fun ob hob => ?_⟩
              simp only [Option.some.injEq] at hob
              rw [← hob]; exact sp.2.1
            · simp only [pure_eq_ok] at hr
              rw [← hr]
              exact ⟨OSt.Ext.here _, fun ob hob => by cases hob⟩
        have hvn : (r.1.obj a).isVNode = false := by
          rw [(key.1.2.2 a).1]; exact hv
        split at h
        · rename_i i hri
          split at h
          · rename_i ob hob
            simp only [pure_eq_ok, Prod.mk.injEq] at h
            have e : r.1.Ext st' := by
              rw [← h.1]
              exact OSt.Ext.of_heap rfl (by simp)
            refine ⟨key.1.thenExt e, fun ob' hob' => ⟨a, rfl, ?_, ?_⟩⟩
            · rw [← h.2] at hob'
              simp only [Option.some.injEq] at hob'
              rw [← hob']
              exact (e.2.2 a).2 i (key.2 i hri)
            · rw [(e.2.2 a).1]; exact hvn
          · exact absurd h (throw_ne_ok _ _)
        · simp only [pure_eq_ok] at h
          subst h
          exact ⟨key.1, fun ob hob => ⟨a, rfl, key.2 ob hob, hvn⟩⟩
    | undefined =>
      simp only [observe, pure_eq_ok, Prod.mk.injEq] at h
      rw [← h.1, ← h.2]; exact ⟨OSt.Ext.here _, fun ob hob => by cases hob⟩
    | null =>
      simp only [observe, pure_eq_ok, Prod.mk.injEq] at h
      rw [← h.1, ← h.2]; exact ⟨OSt.Ext.here _, fun ob hob => by cases hob⟩
    | bool b =>
      simp only [observe, pure_eq_ok, Prod.mk.injEq] at h
      rw [← h.1, ← h.2]; exact ⟨OSt.Ext.here _, fun ob hob => by cases hob⟩
    | num k =>
      simp only [observe, pure_eq_ok, Prod.mk.injEq] at h
      rw [← h.1, ← h.2]; exact ⟨OSt.Ext.here _, fun ob hob => by cases hob⟩
    | nan =>
      simp only [observe, pure_eq_ok, Prod.mk.injEq] at h
      rw [← h.1, ← h.2]; exact ⟨OSt.Ext.here _, fun ob hob => by cases hob⟩
    | str s =>
      simp only [observe, pure_eq_ok, Prod.mk.injEq] at h
      rw [← h.1, ← h.2]; exact ⟨OSt.Ext.here _, fun ob hob => by cases hob⟩

theorem observeAll_ext (U : User) (fuel : Nat) :
    ∀ (later : List Val) (st st' : OSt),
      observeAll U fuel st later = Except.ok st' → st.Ext st' := by
  intro later
  induction later with
  | nil =>
    intro st st' h
    simp only [observeAll, pure_eq_ok] at h
    rw [← h]; exact OSt.Ext.here _
  | cons v rest ih =>
    intro st st' h
    simp only [observeAll, bind_eq_ok] at h
    obtain ⟨r, h1, h2⟩ := h
    exact (observe_spec U _ _ _ _ _ _ h1).1.thenExt (ih _ _ h2)

/-- A value that carries an observer is returned that observer, and the state is left as
it is. -/
theorem observe_of_observed (U : User) (fuel : Nat) (st : OSt) (a ob : Nat)
    (hob : (st.obj a).ob = ObProp.observer ob) (hv : (st.obj a).isVNode = false) :
    observe U (fuel + 1) st (Val.ref a) false = Except.ok (st, some ob) := by
  simp only [observe, hv, hob]
  rfl

/-- C8: if `observe(x)` returns an observer `ob`, then after any run of later calls of
`observe` on any values (nothing else runs in between: no `set`, no `del`, no write of
the application), and whatever the flag `shouldObserve` then is, `observe(x)` returns `ob`
again, `x.__ob__` is still `ob`, and the call changes nothing: no second observer is
constructed for `x`. -/
theorem observe_idempotent (U : User) (fuel : Nat) (st : OSt) (x : Val) (asRoot : Bool)
    (st' : OSt) (ob : Nat)
    (h : observe U fuel st x asRoot = Except.ok (st', some ob))
    (later : List Val) (fuel' : Nat) (st'' : OSt)
    (hlater : observeAll U fuel' st' later = Except.ok st'')
    (flag : Bool) (fuel'' : Nat) :
    observe U (fuel'' + 1) { st'' with shouldObserve := flag } x false
        = Except.ok ({ st'' with shouldObserve := flag }, some ob) ∧
      ∃ a, x = Val.ref a ∧ (st''.obj a).ob = ObProp.observer ob := by
  obtain ⟨_, hsp⟩ := observe_spec U fuel st x asRoot st' (some ob) h
  obtain ⟨a, hx, hob, hv⟩ := hsp ob rfl
  have e := observeAll_ext U fuel' later st' st'' hlater
  have hob2 := (e.2.2 a).2 ob hob
  have hv2 : (st''.obj a).isVNode = false := by rw [(e.2.2 a).1]; exact hv
  subst hx
  exact ⟨observe_of_observed U fuel'' { st'' with shouldObserve := flag } a ob hob2 hv2,
    a, rfl, hob2⟩

/-- C8 (witness): the record `{a: 1}` is observed, then observed again with observation
switched off. -/
theorem observe_idempotent_witness :
    observe noUser 2 oneRecord (Val.ref 0) false = Except.ok (oneRecordObserved, some 0) ∧
    observe noUser 1 { oneRecordObserved with shouldObserve := false } (Val.ref 0) false
      = Except.ok ({ oneRecordObserved with shouldObserve := false }, some 0) :=
  have h : observe noUser 2 oneRecord (Val.ref 0) false
      = Except.ok (oneRecordObserved, some 0) := by decide
  ⟨h, (observe_idempotent noUser 2 oneRecord (Val.ref 0) false oneRecordObserved 0 h
    [] 0 oneRecordObserved rfl false 0).1⟩

/-- C8 (counterexample): the record `{a: 1}` is observed, by the observer 0; after
`del(x, '__ob__')`, and likewise after `set(x, '__ob__', 5)`, the next `observe(x)`
constructs a second observer, observer 1, and returns it: `x.__ob__` is no longer the
observer the first call returned. -/
theorem observe_idempotent_counterexample :
    observe noUser 2 oneRecord (Val.ref 0) false = Except.ok (oneRecordObserved, some 0) ∧
    ((del noUser 2 oneRecordObserved (Val.ref 0) (Key.str "__ob__")).bind
      (fun out => (observe noUser 2 out.st (Val.ref 0) false).map
        (fun r => (r.2, r.1.observers.length, (r.1.obj 0).ob))))
      = Except.ok (some 1, 2, ObProp.observer 1) ∧
    ((set noUser 2 oneRecordObserved (Val.ref 0) (Key.str "__ob__") (Val.num 5)).bind
      (fun out => (observe noUser 2 out.st (Val.ref 0) false).map
        (fun r => (r.2, r.1.observers.length, (r.1.obj 0).ob))))
      = Except.ok (some 1, 2, ObProp.observer 1) := by
  refine ⟨by decide, by decide, by decide⟩

/-- C9: `observe(value)` returns nothing and leaves the state as it is (no `__ob__`
attached, no accessor installed) whenever `value` is not an object, is a VNode, or
carries no observer and observation is disabled, or the value is neither an array nor a
plain object, or is not extensible, or is flagged `_isVue`. So a call that constructs an
observer is a call where none of these holds. -/
theorem observe_returns_nothing (U : User) (fuel : Nat) (st : OSt) (value : Val)
    (asRoot : Bool)
    (h : (∀ a, value ≠ Val.ref a) ∨
      ∃ a, value = Val.ref a ∧
        ((st.obj a).isVNode = true ∨
          ((∀ i, (st.obj a).ob ≠ ObProp.observer i) ∧
            (st.shouldObserve = false ∨
              ((st.obj a).kind ≠ ObjKind.array ∧ (st.obj a).kind ≠ ObjKind.plain) ∨
              (st.obj a).extensible = false ∨ (st.obj a).isVue = true)))) :
    observe U (fuel + 1) st value asRoot = Except.ok (st, none) ∧
      ∀ st' r, observe U (fuel + 1) st value asRoot = Except.ok (st', r) →
        st'.observers = st.observers ∧ st'.heap = st.heap ∧ st'.cells = st.cells := by
  have main : observe U (fuel + 1) st value asRoot = Except.ok (st, none) := by
    rcases h with h | ⟨a, hx, h⟩
    · cases value with
      | ref a => exact absurd rfl (h a)
      | undefined => rfl
      | null => rfl
      | bool b => rfl
      | num k => rfl
      | nan => rfl
      | str s => rfl
    · subst hx
      simp only [observe]
      rcases h with h | ⟨hno, h⟩
      · simp [h]; rfl
      · by_cases hv : (st.obj a).isVNode = true
        · simp [hv]; rfl
        · simp only [hv]
          have hcond : (st.shouldObserve && !st.serverRendering &&
              (decide ((st.obj a).kind = ObjKind.array) ||
                decide ((st.obj a).kind = ObjKind.plain)) &&
              (st.obj a).extensible && !(st.obj a).isVue) = false := by
            rcases h with h | h | h | h
            · simp [h]
            · simp [h.1, h.2]
            · simp [h]
            · simp [h]
          cases hob : (st.obj a).ob with
          | observer i => exact absurd hob (hno i)
          | absent =>
            simp only [hcond]
            cases asRoot <;> rfl
          | foreign c =>
            simp only [hcond]
            cases asRoot <;> rfl
  refine ⟨main, fun st' r hr => ?_⟩
  rw [main] at hr
  simp only [Except.ok.injEq, Prod.mk.injEq] at hr
  rw [← hr.1]
  exact ⟨rfl, rfl, rfl⟩

/-- C9 (witness): a frozen record is not observed. -/
theorem observe_returns_nothing_witness :
    observe noUser 1 frozenRecord (Val.ref 0) false = Except.ok (frozenRecord, none) :=
  (observe_returns_nothing noUser 0 frozenRecord (Val.ref 0) false
    (Or.inr ⟨0, rfl, Or.inr ⟨(fun i h => by cases h), Or.inr (Or.inr (Or.inl (by decide)))⟩⟩)).1

/-- C10: a write to a reactive slot of a value identical (`===`) to the slot's current
value, or of `NaN` when the current value is `NaN`, returns without a call of `notify`:
the state is the one the read of the current value left, in which the calls of `notify`
so far, the stored values and cached child observers of all slots, the heap and the
observers are as before the write. -/
theorem reactiveSetter_same_value (U : User) (fuel : Nat) (st : OSt) (c : Nat) (cell : Cell)
    (newVal value : Val) (st1 : OSt)
    (hcell : st.cells.get? c = some cell)
    (hread : (match cell.getter with
      | some g => callGetter U fuel st g
      | none => pure (st, cell.val)) = Except.ok (st1, value))
    (hsame : newVal.strictEq value = true ∨ (newVal = Val.nan ∧ value = Val.nan)) :
    callSetter U (fuel + 1) st (Fn.reactive c) newVal = Except.ok st1 ∧
      st1.notified = st.notified ∧ st1.updated = st.updated ∧ st1.cells = st.cells ∧
      st1.heap = st.heap ∧ st1.observers = st.observers := by
  have hd : st.OnlyDeps st1 := by
    cases hg : cell.getter with
    | none =>
      rw [hg] at hread
      simp only [pure_eq_ok, Prod.mk.injEq] at hread
      rw [← hread.1]; exact OSt.OnlyDeps.same _
    | some g =>
      rw [hg] at hread
      exact callGetter_onlyDeps U _ _ _ _ _ hread
  refine ⟨?_, hd.2.2.2.2.1, hd.2.2.2.2.2.1, hd.2.2.1, hd.1, hd.2.1⟩
  simp only [callSetter, hcell, hread, bind, Except.bind]
  have hc : (newVal.strictEq value || (!newVal.strictEq newVal && !value.strictEq value))
      = true := by
    rcases hsame with h | ⟨h1, h2⟩
    · simp [h]
    · subst h1 h2
      decide
  simp only [hc, if_true]
  rfl

/-- C10 (witness): the property `a` of the observed record `{a: 1}` is written the
value 1 it holds. -/
theorem reactiveSetter_same_value_witness :
    callSetter noUser 1 oneRecordObserved (Fn.reactive 0) (Val.num 1)
      = Except.ok oneRecordObserved :=
  (reactiveSetter_same_value noUser 0 oneRecordObserved 0
    { obj := 0, key := "a", dep := 1, val := Val.num 1, childOb := none,
      getter := none, setter := none, customSetter := false, shallow := false }
    (Val.num 1) (Val.num 1) oneRecordObserved rfl rfl (Or.inl (by decide))).1

/-! ## Arrays -/

theorem getAt_natCast {α : Type} (xs : List α) (n : Nat) : getAt xs (n : Int) = xs.get? n := by
  simp [getAt]

theorem getAt_append_length {α : Type} (A B : List α) :
    getAt (A ++ B) (A.length : Int) = B.head? := by
  rw [getAt_natCast, List.get?_eq_getElem?, List.getElem?_append_right (Nat.le_refl _),
    Nat.sub_self]
  cases B with
  | nil => simp
  | cons b B => simp

theorem getAt_append_length_add {α : Type} (A B : List α) (k : Nat) :
    getAt (A ++ B) ((A.length : Int) + (k : Int)) = B.get? k := by
  have : ((A.length : Int) + (k : Int)) = ((A.length + k : Nat) : Int) := by push_cast; rfl
  rw [this, getAt_natCast]
  simp [List.getElem?_append_right]

theorem getAt_last {α : Type} (A M C : List α) (t : α) :
    getAt (A ++ ((M ++ [t]) ++ C)) ((A.length : Int) + ((M ++ [t]).length : Int) - 1) = some t := by
  have : ((A.length : Int) + ((M ++ [t]).length : Int) - 1) = ((A.length + M.length : Nat) : Int) := by
    simp; omega
  rw [this, getAt_natCast, List.get?_eq_getElem?,
    List.getElem?_append_right (Nat.le_add_right _ _), Nat.add_sub_cancel_left,
    List.append_assoc, List.getElem?_append_right (Nat.le_refl _), Nat.sub_self]
  simp

theorem setAt_append_length {α : Type} (A B : List α) (x y : α) :
    setAt (A ++ x :: B) (A.length : Int) y = A ++ y :: B := by
  simp [setAt]

theorem setAt_last {α : Type} (A M C : List α) (t y : α) :
    setAt (A ++ ((M ++ [t]) ++ C)) ((A.length : Int) + ((M ++ [t]).length : Int) - 1) y
      = A ++ ((M ++ [y]) ++ C) := by
  have : ((A.length : Int) + ((M ++ [t]).length : Int) - 1) = ((A.length + M.length : Nat) : Int) := by
    simp; omega
  rw [this]
  simp only [setAt]
  have h0 : ¬ ((A.length + M.length : Nat) : Int) < 0 := by omega
  rw [if_neg h0]
  simp only [Int.toNat_ofNat]
  rw [List.set_append_right _ _ (by omega)]
  congr 1
  simp only [Nat.add_sub_cancel_left, List.append_assoc]
  rw [List.set_append_right _ _ (by omega)]
  simp

/-! ## One iteration of the loop of `updateChildren`, on the parts of the arrays -/

theorem toLoop_oldStart (A : Parts) (s : Option VNode) (M : List (Option VNode))
    (h : A.oMid = s :: M) : A.toLoop.oldStartVnode = s := by
  simp only [Parts.toLoop, h, getAt_append_length]
  rfl

theorem toLoop_oldEnd (A : Parts) (s : Option VNode) (M : List (Option VNode))
    (h : A.oMid = M ++ [s]) : A.toLoop.oldEndVnode = s := by
  simp only [Parts.toLoop, h]
  rw [getAt_last]
  rfl

theorem toLoop_newStart (A : Parts) (n : VNode) (N : List VNode)
    (h : A.nMid = n :: N) : getAt A.toLoop.newCh A.toLoop.newStartIdx = some n := by
  simp only [Parts.toLoop, h, getAt_append_length]
  rfl

theorem toLoop_newEnd (A : Parts) (n : VNode) (N : List VNode)
    (h : A.nMid = N ++ [n]) : getAt A.toLoop.newCh A.toLoop.newEndIdx = some n := by
  simp only [Parts.toLoop, h]
  rw [getAt_last]

theorem step_skipStart (E : Env) (patchV : PatchFn) (createE : CreateFn)
    (parentElm : Option Nat) (canMove : Bool) (A : Parts) (M : List (Option VNode))
    (h : A.oMid = none :: M) :
    updateChildrenStep E patchV createE parentElm canMove A.toLoop
      = Except.ok ({ A with oD1 := A.oD1 ++ [none], oMid := M } : Parts).toLoop := by
  have h1 := toLoop_oldStart A none M h
  unfold updateChildrenStep
  rw [h1]
  simp only [Parts.toLoop, h, pure, Except.pure, Except.ok.injEq, Loop.mk.injEq]
  simp only [List.length_append, List.length_cons, List.length_nil, List.append_assoc,
    List.singleton_append, List.cons_append, List.nil_append, Nat.cast_add, Nat.cast_one,
    Nat.cast_zero, zero_add, and_true, true_and]
  and_intros
  all_goals first | omega | (congr 2; omega)

theorem step_matchStart (E : Env) (patchV : PatchFn) (createE : CreateFn)
    (parentElm : Option Nat) (canMove : Bool) (A : Parts) (o oe : VNode)
    (M : List (Option VNode)) (n : VNode) (N : List VNode) (r : St × Queue × VNode)
    (ho : A.oMid = some o :: M) (hoe : A.toLoop.oldEndVnode = some oe)
    (hn : A.nMid = n :: N)
    (hsame : sameVnodeAt E (some o) (some n) = Except.ok true)
    (hpatch : patchV A.st A.queue o n = Except.ok r) :
    updateChildrenStep E patchV createE parentElm canMove A.toLoop
      = Except.ok ({ A with
          oD1 := A.oD1 ++ [some o], oMid := M, nF := A.nF ++ [r.2.2], nMid := N,
          st := r.1, queue := r.2.1,
          trace := A.trace ++ [Action.patch A.oD1.length A.nF.length] } : Parts).toLoop := by
  have h1 := toLoop_oldStart A (some o) M ho
  have h2 := toLoop_newStart A n N hn
  have h3 : A.toLoop.st = A.st := rfl
  have h4 : A.toLoop.queue = A.queue := rfl
  unfold updateChildrenStep
  simp only [h1, hoe, h2, hsame, bind, Except.bind, if_true, Option.getD_some, h3, h4, hpatch]
  simp only [Parts.toLoop, ho, hn, pure, Except.pure, Except.ok.injEq, Loop.mk.injEq] at hoe ⊢
  simp only [List.length_append, List.length_cons, List.length_nil, List.append_assoc,
    List.singleton_append, List.cons_append, List.nil_append, Nat.cast_add, Nat.cast_one,
    Nat.cast_zero, zero_add, and_true, true_and, setAt_append_length] at hoe ⊢
  and_intros
  all_goals first | omega | rfl | (rw [← hoe]; congr 2; omega)


theorem step_skipEnd (E : Env) (patchV : PatchFn) (createE : CreateFn)
    (parentElm : Option Nat) (canMove : Bool) (A : Parts) (o : VNode)
    (M : List (Option VNode))
    (ho : A.toLoop.oldStartVnode = some o) (h : A.oMid = M ++ [none]) :
    updateChildrenStep E patchV createE parentElm canMove A.toLoop
      = Except.ok ({ A with oMid := M, oD2 := none :: A.oD2 } : Parts).toLoop := by
  have h1 := toLoop_oldEnd A none M h
  unfold updateChildrenStep
  simp only [ho, h1]
  simp only [Parts.toLoop, h, pure, Except.pure, Except.ok.injEq, Loop.mk.injEq] at ho ⊢
  simp only [List.length_append, List.length_cons, List.length_nil, List.append_assoc,
    List.singleton_append, List.cons_append, List.nil_append, Nat.cast_add, Nat.cast_one,
    Nat.cast_zero, zero_add, and_true, true_and] at ho ⊢
  and_intros
  all_goals first | omega | (congr 2; omega) | (rw [← ho])

theorem step_matchEnd (E : Env) (patchV : PatchFn) (createE : CreateFn)
    (parentElm : Option Nat) (canMove : Bool) (A : Parts) (o oe : VNode)
    (M : List (Option VNode)) (ns ne : VNode) (N : List VNode) (r : St × Queue × VNode)
    (ho : A.toLoop.oldStartVnode = some o) (hoe : A.oMid = M ++ [some oe])
    (hns : getAt A.toLoop.newCh A.toLoop.newStartIdx = some ns)
    (hne : A.nMid = N ++ [ne])
    (h1 : sameVnodeAt E (some o) (some ns) = Except.ok false)
    (h2 : sameVnodeAt E (some oe) (some ne) = Except.ok true)
    (hpatch : patchV A.st A.queue oe ne = Except.ok r) :
    updateChildrenStep E patchV createE parentElm canMove A.toLoop
      = Except.ok ({ A with
          oMid := M, oD2 := some oe :: A.oD2, nMid := N, nB := r.2.2 :: A.nB,
          st := r.1, queue := r.2.1,
          trace := A.trace ++ [Action.patch ((A.oD1.length : Int) + (A.oMid.length : Int) - 1)
            ((A.nF.length : Int) + (A.nMid.length : Int) - 1)] } : Parts).toLoop := by
  have e1 := toLoop_oldEnd A (some oe) M hoe
  have e2 := toLoop_newEnd A ne N hne
  have h3 : A.toLoop.st = A.st := rfl
  have h4 : A.toLoop.queue = A.queue := rfl
  unfold updateChildrenStep
  simp only [ho, e1, hns, e2, h1, h2, bind, Except.bind, if_true, Option.getD_some, h3, h4,
    hpatch, Bool.false_eq_true, if_false]
  simp only [Parts.toLoop, hoe, hne, pure, Except.pure, Except.ok.injEq, Loop.mk.injEq,
    setAt_last] at ho ⊢
  simp only [List.length_append, List.length_cons, List.length_nil, List.append_assoc,
    List.singleton_append, List.cons_append, List.nil_append, Nat.cast_add, Nat.cast_one,
    Nat.cast_zero, zero_add, and_true, true_and] at ho ⊢
  and_intros
  all_goals first | omega | (congr 2; omega) | (rw [← ho])


theorem step_moveRight (E : Env) (patchV : PatchFn) (createE : CreateFn)
    (parentElm : Option Nat) (canMove : Bool) (A : Parts) (o oe : VNode)
    (M : List (Option VNode)) (ns ne : VNode) (N : List VNode) (r : St × Queue × VNode)
    (st2 : St)
    (ho : A.oMid = some o :: M) (hoe : A.toLoop.oldEndVnode = some oe)
    (hns : getAt A.toLoop.newCh A.toLoop.newStartIdx = some ns)
    (hne : A.nMid = N ++ [ne])
    (h1 : sameVnodeAt E (some o) (some ns) = Except.ok false)
    (h2 : sameVnodeAt E (some oe) (some ne) = Except.ok false)
    (h3 : sameVnodeAt E (some o) (some ne) = Except.ok true)
    (hpatch : patchV A.st A.queue o ne = Except.ok r)
    (hmove : (if canMove then do
        let ref ← nextSiblingAt r.1 oe.elm
        moveBefore r.1 parentElm o.elm ref
      else pure r.1) = Except.ok st2) :
    updateChildrenStep E patchV createE parentElm canMove A.toLoop
      = Except.ok ({ A with
          oD1 := A.oD1 ++ [some o], oMid := M, nMid := N, nB := r.2.2 :: A.nB,
          st := st2, queue := r.2.1,
          trace := A.trace ++ [Action.patch (A.oD1.length : Int)
              ((A.nF.length : Int) + (A.nMid.length : Int) - 1)] ++
            (if canMove then [Action.move o.elm (match oe.elm with
              | some e => nodeOps.nextSibling r.1 e
              | none => none)] else []) } : Parts).toLoop := by
  have e1 := toLoop_oldStart A (some o) M ho
  have e2 := toLoop_newEnd A ne N hne
  have h4 : A.toLoop.st = A.st := rfl
  have h5 : A.toLoop.queue = A.queue := rfl
  unfold updateChildrenStep
  simp only [hoe, e1, hns, e2, h1, h2, h3, bind, Except.bind, if_true, Option.getD_some, h4,
    h5, hpatch, Bool.false_eq_true, if_false] at hmove ⊢
  rw [hmove]
  simp only [Parts.toLoop, ho, hne, pure, Except.pure, Except.ok.injEq, Loop.mk.injEq,
    setAt_last] at hoe ⊢
  simp only [List.length_append, List.length_cons, List.length_nil, List.append_assoc,
    List.singleton_append, List.cons_append, List.nil_append, Nat.cast_add, Nat.cast_one,
    Nat.cast_zero, zero_add, and_true, true_and] at hoe ⊢
  and_intros
  all_goals first | omega | rfl | (congr 2; omega) | (rw [← hoe]; congr 2; omega)

theorem step_moveLeft (E : Env) (patchV : PatchFn) (createE : CreateFn)
    (parentElm : Option Nat) (canMove : Bool) (A : Parts) (o oe : VNode)
    (M : List (Option VNode)) (n ne : VNode) (N : List VNode) (r : St × Queue × VNode)
    (st2 : St)
    (ho : A.toLoop.oldStartVnode = some o) (hoe : A.oMid = M ++ [some oe])
    (hn : A.nMid = n :: N)
    (hne : getAt A.toLoop.newCh A.toLoop.newEndIdx = some ne)
    (h1 : sameVnodeAt E (some o) (some n) = Except.ok false)
    (h2 : sameVnodeAt E (some oe) (some ne) = Except.ok false)
    (h3 : sameVnodeAt E (some o) (some ne) = Except.ok false)
    (h4 : sameVnodeAt E (some oe) (some n) = Except.ok true)
    (hpatch : patchV A.st A.queue oe n = Except.ok r)
    (hmove : (if canMove then moveBefore r.1 parentElm oe.elm o.elm else pure r.1)
      = Except.ok st2) :
    updateChildrenStep E patchV createE parentElm canMove A.toLoop
      = Except.ok ({ A with
          oMid := M, oD2 := some oe :: A.oD2, nF := A.nF ++ [r.2.2], nMid := N,
          st := st2, queue := r.2.1,
          trace := A.trace ++ [Action.patch ((A.oD1.length : Int) + (A.oMid.length : Int) - 1)
              (A.nF.length : Int)] ++
            (if canMove then [Action.move oe.elm o.elm] else []) } : Parts).toLoop := by
  have e1 := toLoop_oldEnd A (some oe) M hoe
  have e2 := toLoop_newStart A n N hn
  have h5 : A.toLoop.st = A.st := rfl
  have h6 : A.toLoop.queue = A.queue := rfl
  unfold updateChildrenStep
  simp only [ho, e1, hne, e2, h1, h2, h3, h4, bind, Except.bind, if_true, Option.getD_some,
    h5, h6, hpatch, Bool.false_eq_true, if_false] at hmove ⊢
  rw [hmove]
  simp only [Parts.toLoop, hoe, hn, pure, Except.pure, Except.ok.injEq, Loop.mk.injEq,
    setAt_append_length] at ho ⊢
  simp only [List.length_append, List.length_cons, List.length_nil, List.append_assoc,
    List.singleton_append, List.cons_append, List.nil_append, Nat.cast_add, Nat.cast_one,
    Nat.cast_zero, zero_add, and_true, true_and, setAt_append_length] at ho ⊢
  and_intros
  all_goals first | omega | rfl | (congr 2; omega) | (rw [← ho])

theorem step_keyed (E : Env) (patchV : PatchFn) (createE : CreateFn)
    (parentElm : Option Nat) (canMove : Bool) (A : Parts) (o oe : VNode) (ns ne : VNode)
    (ho : A.toLoop.oldStartVnode = some o) (hoe : A.toLoop.oldEndVnode = some oe)
    (hns : getAt A.toLoop.newCh A.toLoop.newStartIdx = some ns)
    (hne : getAt A.toLoop.newCh A.toLoop.newEndIdx = some ne)
    (h1 : sameVnodeAt E (some o) (some ns) = Except.ok false)
    (h2 : sameVnodeAt E (some oe) (some ne) = Except.ok false)
    (h3 : sameVnodeAt E (some o) (some ne) = Except.ok false)
    (h4 : sameVnodeAt E (some oe) (some ns) = Except.ok false) :
    updateChildrenStep E patchV createE parentElm canMove A.toLoop
      = updateChildrenKeyed E patchV createE parentElm canMove A.toLoop o := by
  unfold updateChildrenStep
  simp only [ho, hoe, hns, hne, h1, h2, h3, h4, bind, Except.bind, Bool.false_eq_true,
    if_false]


theorem keyed_create (E : Env) (patchV : PatchFn) (createE : CreateFn)
    (parentElm : Option Nat) (canMove : Bool) (A : Parts) (o : VNode) (m : JsMap Int)
    (n : VNode) (N : List VNode) (idx : Lookup Int) (r : St × Queue × VNode)
    (hm : (match A.map with
      | some m => pure m
      | none => createKeyToOldIdx A.toLoop.oldCh A.toLoop.oldStartIdx A.toLoop.oldEndIdx)
        = Except.ok m)
    (hn : A.nMid = n :: N)
    (hidx : (match n.key with
      | some key => pure (m.get (propName key))
      | none => do
        let r ← findIdxInOld E n A.toLoop.oldCh A.toLoop.oldStartIdx A.toLoop.oldEndIdx
        pure (match r with
          | some i => Lookup.own i
          | none => Lookup.undef)) = Except.ok idx)
    (hnot : idx = Lookup.undef ∨
      ∃ i, idx = Lookup.own i ∧
        sameVnodeAt E (getAt A.toLoop.oldCh i).join (some n) = Except.ok false)
    (hcreate : createE A.st A.queue n parentElm o.elm false true = Except.ok r) :
    updateChildrenKeyed E patchV createE parentElm canMove A.toLoop o
      = Except.ok ({ A with
          map := some m, nF := A.nF ++ [r.2.2], nMid := N, st := r.1, queue := r.2.1,
          trace := A.trace ++ [Action.create (A.nF.length : Int)] } : Parts).toLoop := by
  have e2 := toLoop_newStart A n N hn
  have h5 : A.toLoop.st = A.st := rfl
  have h6 : A.toLoop.queue = A.queue := rfl
  have h7 : A.toLoop.oldKeyToIdx = A.map := rfl
  unfold updateChildrenKeyed
  rw [h7]
  simp only [hm, bind, Except.bind, e2] at hidx ⊢
  rw [hidx]
  simp only [h5, h6, hcreate]
  have fin : (Except.ok ({ A.toLoop with
        oldKeyToIdx := some m
        newCh := setAt A.toLoop.newCh A.toLoop.newStartIdx r.2.2
        st := r.1
        queue := r.2.1
        trace := A.toLoop.trace ++ [Action.create A.toLoop.newStartIdx]
        newStartIdx := A.toLoop.newStartIdx + 1 } : Loop) : Res Loop)
      = Except.ok ({ A with
          map := some m, nF := A.nF ++ [r.2.2], nMid := N, st := r.1, queue := r.2.1,
          trace := A.trace ++ [Action.create (A.nF.length : Int)] } : Parts).toLoop := by
    simp only [Parts.toLoop, hn, pure, Except.pure, Except.ok.injEq, Loop.mk.injEq,
      setAt_append_length]
    simp only [List.length_append, List.length_cons, List.length_nil, List.append_assoc,
      List.singleton_append, List.cons_append, List.nil_append, Nat.cast_add, Nat.cast_one,
      Nat.cast_zero, zero_add, and_true, true_and, setAt_append_length]
    omega
  rcases hnot with h | ⟨i, h, hs⟩
  · subst h
    exact fin
  · subst h
    simp only [hs, Bool.false_eq_true, if_false]
    exact fin


theorem loop_eq (L : Loop) (A : Parts)
    (h1 : L.oldStartIdx = (A.oD1.length : Int)) (h2 : L.newStartIdx = (A.nF.length : Int))
    (h3 : L.oldEndIdx = (A.oD1.length : Int) + (A.oMid.length : Int) - 1)
    (h4 : L.oldStartVnode = A.toLoop.oldStartVnode)
    (h5 : L.oldEndVnode = A.toLoop.oldEndVnode)
    (h6 : L.newEndIdx = (A.nF.length : Int) + (A.nMid.length : Int) - 1)
    (h7 : L.oldKeyToIdx = A.map) (h8 : L.oldCh = A.oD1 ++ (A.oMid ++ A.oD2))
    (h9 : L.newCh = A.nF ++ (A.nMid ++ A.nB)) (h10 : L.st = A.st) (h11 : L.queue = A.queue)
    (h12 : L.trace = A.trace) : L = A.toLoop := by
  cases L
  simp only [Parts.toLoop, Loop.mk.injEq] at *
  exact ⟨h1, h2, h3, h4, h5, h6, h7, h8, h9, h10, h11, h12⟩

theorem getAt_mid {α : Type} (P Q : List α) (x : α) (i : Int) (hi : i = (P.length : Int)) :
    getAt (P ++ x :: Q) i = some x := by
  subst hi
  rw [getAt_append_length]; rfl

theorem setAt_mid {α : Type} (P Q : List α) (x y : α) (i : Int) (hi : i = (P.length : Int)) :
    setAt (P ++ x :: Q) i y = P ++ y :: Q := by
  subst hi
  exact setAt_append_length P Q x y

theorem keyed_move (E : Env) (patchV : PatchFn) (createE : CreateFn)
    (parentElm : Option Nat) (canMove : Bool) (A : Parts) (o c oe : VNode) (m : JsMap Int)
    (X Y : List (Option VNode)) (n : VNode) (N : List VNode) (i : Int)
    (r : St × Queue × VNode) (st2 : St)
    (ho : A.oMid = some o :: (X ++ some c :: (Y ++ [some oe])))
    (hi : i = (A.oD1.length : Int) + 1 + (X.length : Int))
    (hm : (match A.map with
      | some m => pure m
      | none => createKeyToOldIdx A.toLoop.oldCh A.toLoop.oldStartIdx A.toLoop.oldEndIdx)
        = Except.ok m)
    (hn : A.nMid = n :: N)
    (hidx : (match n.key with
      | some key => pure (m.get (propName key))
      | none => do
        let r ← findIdxInOld E n A.toLoop.oldCh A.toLoop.oldStartIdx A.toLoop.oldEndIdx
        pure (match r with
          | some i => Lookup.own i
          | none => Lookup.undef)) = Except.ok (Lookup.own i))
    (hsame : sameVnodeAt E (some c) (some n) = Except.ok true)
    (hpatch : patchV A.st A.queue c n = Except.ok r)
    (hmove : (if canMove then moveBefore r.1 parentElm c.elm o.elm else pure r.1)
      = Except.ok st2) :
    updateChildrenKeyed E patchV createE parentElm canMove A.toLoop o
      = Except.ok ({ A with
          oMid := some o :: (X ++ none :: (Y ++ [some oe])),
          map := some m, nF := A.nF ++ [r.2.2], nMid := N, st := st2, queue := r.2.1,
          trace := A.trace ++ [Action.patch i (A.nF.length : Int)] ++
            (if canMove then [Action.move c.elm o.elm] else []) } : Parts).toLoop := by
  have e2 := toLoop_newStart A n N hn
  have h5 : A.toLoop.st = A.st := rfl
  have h6 : A.toLoop.queue = A.queue := rfl
  have h7 : A.toLoop.oldKeyToIdx = A.map := rfl
  have hlist : ∀ s : Option VNode,
      A.oD1 ++ ((some o :: (X ++ s :: (Y ++ [some oe]))) ++ A.oD2)
        = (A.oD1 ++ some o :: X) ++ s :: (Y ++ [some oe] ++ A.oD2) := by
    intro s; simp
  have hlen : i = ((A.oD1 ++ some o :: X).length : Int) := by
    rw [hi]; simp; omega
  have hget : (getAt A.toLoop.oldCh i).join = some c := by
    simp only [Parts.toLoop, ho]
    rw [hlist, getAt_mid _ _ _ _ hlen]; rfl
  have hset : setAt A.toLoop.oldCh i none
      = A.oD1 ++ ((some o :: (X ++ none :: (Y ++ [some oe]))) ++ A.oD2) := by
    simp only [Parts.toLoop, ho]
    rw [hlist, setAt_mid _ _ _ _ _ hlen, hlist]
  unfold updateChildrenKeyed
  rw [h7]
  simp only [hm, bind, Except.bind, e2] at hidx ⊢
  rw [hidx]
  simp only [pure, Except.pure] at hmove
  simp only [hget, hsame, if_true, h5, h6, hpatch, pure, Except.pure, hmove]
  congr 1
  apply loop_eq
  · rfl
  · simp only [Parts.toLoop, List.length_append, List.length_cons, List.length_nil,
      Nat.cast_add, Nat.cast_one, Nat.cast_zero, zero_add]
  · simp only [Parts.toLoop, ho, List.length_append, List.length_cons, List.length_nil,
      Nat.cast_add, Nat.cast_one, Nat.cast_zero, zero_add]
  · rw [toLoop_oldStart A (some o) _ ho]
    exact (toLoop_oldStart _ (some o) _ rfl).symm
  · have z1 : A.oMid = (some o :: (X ++ some c :: Y)) ++ [some oe] := by rw [ho]; simp
    rw [toLoop_oldEnd A (some oe) _ z1]
    refine (toLoop_oldEnd _ (some oe) (some o :: (X ++ none :: Y)) ?_).symm
    simp
  · simp only [Parts.toLoop, hn, List.length_append, List.length_cons, List.length_nil,
      Nat.cast_add, Nat.cast_one, Nat.cast_zero, zero_add]
    omega
  · rfl
  · exact hset
  · simp only [Parts.toLoop, hn, setAt_append_length, List.append_assoc, List.singleton_append,
      List.cons_append, List.nil_append]
  · rfl
  · rfl
  · rfl

/-! ## The node operations on child lists -/

theorem insertBeforeL_boundary (x r : Nat) (F R : List Nat) (h : r ∉ F) :
    nodeOps.insertBeforeL x r (F ++ r :: R) = F ++ x :: r :: R := by
  induction F with
  | nil => simp [nodeOps.insertBeforeL]
  | cons f F ih =>
    have hf : f ≠ r := fun e => h (by simp [e])
    have hF : r ∉ F := fun e => h (by simp [e])
    simp [nodeOps.insertBeforeL, hf, ih hF]

theorem insertAt_boundary (x : Nat) (F R : List Nat) (h : ∀ r, R.head? = some r → r ∉ F) :
    insertAt x R.head? (F ++ R) = F ++ x :: R := by
  cases R with
  | nil => simp [insertAt]
  | cons r R =>
    simp only [List.head?_cons, insertAt]
    exact insertBeforeL_boundary x r F R (h r rfl)

theorem nextIn_boundary (y : Nat) (F R : List Nat) (h : y ∉ F) :
    nodeOps.nextIn y (F ++ y :: R) = R.head? := by
  induction F with
  | nil => simp [nodeOps.nextIn]
  | cons f F ih =>
    have hf : f ≠ y := fun e => h (by simp [e])
    have hF : y ∉ F := fun e => h (by simp [e])
    simp [nodeOps.nextIn, hf, ih hF]

theorem erase_boundary (x : Nat) (F R : List Nat) (h : x ∉ F) :
    (F ++ x :: R).erase x = F ++ R := by
  rw [List.erase_append_right _ h]
  simp

/-- A move of a child of `parent` inside `parent`. -/
theorem insertBefore_move (st : St) (parent x : Nat) (ref : Option Nat)
    (hpx : st.dom.parent x = some parent)
    (href : ref = none ∨ ∃ r, ref = some r ∧
      r ∈ st.dom.children parent ∧ r ≠ x) :
    ∃ st', nodeOps.insertBefore st parent x ref = Except.ok st' ∧
      st'.dom.next = st.dom.next ∧
      st'.dom.children = Function.update st.dom.children parent
        (insertAt x ref ((st.dom.children parent).erase x)) ∧
      st'.dom.parent = st.dom.parent := by
  rcases href with h | ⟨r, h, hr, hne⟩
  · subst h
    refine ⟨_, rfl, by simp [nodeOps.appendChild, nodeOps.detach, hpx], ?_, ?_⟩
    · simp only [nodeOps.appendChild, nodeOps.detach, hpx, insertAt]
      funext y
      by_cases hy : y = parent
      · subst hy; simp
      · simp [Function.update, hy]
    · simp only [nodeOps.appendChild, nodeOps.detach, hpx]
      funext y
      by_cases hy : y = x
      · subst hy; simp [hpx]
      · simp [Function.update, hy]
  · subst h
    simp only [nodeOps.insertBefore, hr, if_true, hne, if_false]
    refine ⟨_, rfl, by simp [nodeOps.appendChild, nodeOps.detach, hpx], ?_, ?_⟩
    · simp only [nodeOps.detach, hpx, insertAt]
      funext y
      by_cases hy : y = parent
      · subst hy; simp
      · simp [Function.update, hy]
    · simp only [nodeOps.detach, hpx]
      funext y
      by_cases hy : y = x
      · subst hy; simp [hpx]
      · simp [Function.update, hy]

/-- The insertion of a node that has no parent. -/
theorem insertBefore_fresh (st : St) (parent x : Nat) (ref : Option Nat)
    (hpx : st.dom.parent x = none)
    (href : ref = none ∨ ∃ r, ref = some r ∧ r ∈ st.dom.children parent ∧ r ≠ x) :
    ∃ st', nodeOps.insertBefore st parent x ref = Except.ok st' ∧
      st'.dom.next = st.dom.next ∧
      st'.dom.children = Function.update st.dom.children parent
        (insertAt x ref (st.dom.children parent)) ∧
      st'.dom.parent = Function.update st.dom.parent x (some parent) ∧
      st'.log = st.log ++ [Op.insertBefore parent x ref] := by
  rcases href with h | ⟨r, h, hr, hne⟩
  · subst h
    refine ⟨_, rfl, by simp [nodeOps.appendChild, nodeOps.detach, hpx], ?_, ?_, rfl⟩
    · simp only [nodeOps.appendChild, nodeOps.detach, hpx, insertAt]
    · simp only [nodeOps.appendChild, nodeOps.detach, hpx]
  · subst h
    simp only [nodeOps.insertBefore, hr, if_true, hne, if_false]
    refine ⟨_, rfl, by simp [nodeOps.appendChild, nodeOps.detach, hpx], ?_, ?_, rfl⟩
    · simp only [nodeOps.detach, hpx, insertAt]
    · simp only [nodeOps.detach, hpx]

/-! ## Frames -/

theorem frame_refl (a : Dom) (Fc Fp Fd : List Nat) : Frame a a Fc Fp Fd :=
  ⟨Nat.le_refl _, fun _ _ _ => rfl, fun _ _ _ _ => rfl⟩

theorem frame_trans {a b c : Dom} {Fc Fp Fd : List Nat}
    (h1 : Frame a b Fc Fp Fd) (h2 : Frame b c Fc Fp Fd) : Frame a c Fc Fp Fd := by
  refine ⟨Nat.le_trans h1.next_le h2.next_le, fun y hy hc => ?_, fun y hy hp hd => ?_⟩
  · rw [h2.children_eq y (Nat.lt_of_lt_of_le hy h1.next_le) hc, h1.children_eq y hy hc]
  · have e1 := h1.parent_eq y hy hp hd
    rw [h2.parent_eq y (Nat.lt_of_lt_of_le hy h1.next_le) hp (by rw [e1]; exact hd), e1]

theorem frame_mono {a b : Dom} {Fc Fp Fd Gc Gp Gd : List Nat}
    (h : Frame a b Fc Fp Fd) (hc : ∀ y ∈ Fc, y ∈ Gc) (hp : ∀ y ∈ Fp, y ∈ Gp)
    (hd : ∀ y ∈ Fd, y ∈ Gd) : Frame a b Gc Gp Gd :=
  ⟨h.next_le, fun y hy hn => h.children_eq y hy (fun e => hn (hc y e)),
    fun y hy hn hq => h.parent_eq y hy (fun e => hn (hp y e))
      (fun q e1 e2 => hq q e1 (hd q e2))⟩

/-! ## Rendered vnode trees -/

theorem elmsOf_eq (d : Nat) (v : VNode) :
    elmsOf d v = v.elm.toList ++ strictElmsOf d v := by
  cases d with
  | zero => simp [elmsOf, strictElmsOf]
  | succ d => rfl

theorem strict_subset_elmsOf (d : Nat) (v : VNode) (y : Nat) (h : y ∈ strictElmsOf d v) :
    y ∈ elmsOf d v := by
  rw [elmsOf_eq]; simp [h]

theorem elm_mem_elmsOf (d : Nat) (v : VNode) (x : Nat) (h : v.elm = some x) :
    x ∈ elmsOf d v := by
  rw [elmsOf_eq]; simp [h]

theorem mem_strict_succ (d : Nat) (v : VNode) (y : Nat) :
    y ∈ strictElmsOf (d + 1) v ↔ ∃ cs, v.children = some cs ∧ ∃ c ∈ cs, y ∈ elmsOf d c := by
  simp only [strictElmsOf, List.mem_flatMap]
  cases hc : v.children with
  | none => simp
  | some cs => simp

theorem rendered_succ_iff (d : Nat) (dom : Dom) (v : VNode) :
    rendered (d + 1) dom v = true ↔
      ∃ e, v.elm = some e ∧
        ∀ cs, v.children = some cs →
          (dom.children e).map some = cs.map (fun c => c.elm) ∧
          ∀ c ∈ cs, (∃ x, c.elm = some x ∧ dom.parent x = some e) ∧
            rendered d dom c = true := by
  simp only [rendered]
  cases he : v.elm with
  | none => simp
  | some e =>
    cases hc : v.children with
    | none => simp
    | some cs =>
      simp only [Bool.and_eq_true, decide_eq_true_eq, List.all_eq_true, Option.some.injEq,
        exists_eq_left', forall_eq']
      constructor
      · rintro ⟨h1, h2⟩
        refine ⟨h1, fun c hcm => ?_⟩
        have := h2 c hcm
        cases hx : c.elm with
        | none => rw [hx] at this; simp at this
        | some x =>
          rw [hx] at this
          simp only [decide_eq_true_eq] at this
          exact ⟨⟨x, rfl, this.1⟩, this.2⟩
      · rintro ⟨h1, h2⟩
        refine ⟨h1, fun c hcm => ?_⟩
        obtain ⟨⟨x, hx, hp⟩, hr⟩ := h2 c hcm
        rw [hx]
        simp [hp, hr]

theorem rendered_elm (d : Nat) (dom : Dom) (v : VNode) (h : rendered d dom v = true) :
    ∃ e, v.elm = some e := by
  cases d with
  | zero => simp [rendered] at h
  | succ d =>
    obtain ⟨e, he, _⟩ := (rendered_succ_iff d dom v).1 h
    exact ⟨e, he⟩

theorem rendered_congr :
    ∀ (d : Nat) (a b : Dom) (v : VNode),
      (∀ y ∈ elmsOf d v, b.children y = a.children y) →
      (∀ y ∈ strictElmsOf d v, b.parent y = a.parent y) →
      rendered d a v = true → rendered d b v = true := by
  intro d
  induction d with
  | zero =>
    intro a b v _ _ h
    simp [rendered] at h
  | succ d ih =>
    intro a b v hc hp h
    rw [rendered_succ_iff] at h ⊢
    obtain ⟨e, he, hcs⟩ := h
    refine ⟨e, he, fun cs hcs' => ?_⟩
    obtain ⟨h1, h2⟩ := hcs cs hcs'
    refine ⟨?_, fun c hcm => ?_⟩
    · rw [hc e (elm_mem_elmsOf _ _ _ he)]; exact h1
    · obtain ⟨⟨x, hx, hpx⟩, hr⟩ := h2 c hcm
      have hsub : ∀ y ∈ elmsOf d c, y ∈ strictElmsOf (d + 1) v := fun y hy =>
        (mem_strict_succ d v y).2 ⟨cs, hcs', c, hcm, hy⟩
      refine ⟨⟨x, hx, ?_⟩, ?_⟩
      · rw [hp x (hsub x (elm_mem_elmsOf _ _ _ hx))]; exact hpx
      · apply ih a b c _ _ hr
        · intro y hy
          exact hc y (strict_subset_elmsOf _ _ _ (hsub y hy))
        · intro y hy
          exact hp y (hsub y (strict_subset_elmsOf _ _ _ hy))

theorem rendered_parent_mem :
    ∀ (d : Nat) (a : Dom) (v : VNode), rendered d a v = true →
      ∀ y ∈ strictElmsOf d v, ∃ q ∈ elmsOf d v, a.parent y = some q := by
  intro d
  induction d with
  | zero =>
    intro a v h
    simp [rendered] at h
  | succ d ih =>
    intro a v h y hy
    obtain ⟨e, he, hcs⟩ := (rendered_succ_iff d a v).1 h
    obtain ⟨cs, hcs', c, hcm, hyc⟩ := (mem_strict_succ d v y).1 hy
    obtain ⟨_, h2⟩ := hcs cs hcs'
    obtain ⟨⟨x, hx, hpx⟩, hr⟩ := h2 c hcm
    rw [elmsOf_eq] at hyc
    rcases List.mem_append.1 hyc with h1 | h1
    · rw [hx] at h1
      simp at h1
      subst h1
      exact ⟨e, elm_mem_elmsOf _ _ _ he, hpx⟩
    · obtain ⟨q, hq, hpq⟩ := ih a c hr y h1
      exact ⟨q, strict_subset_elmsOf _ _ _
        ((mem_strict_succ d v q).2 ⟨cs, hcs', c, hcm, hq⟩), hpq⟩

/-- A rendered tree stays rendered over a call whose footprint is away from it. -/
theorem rendered_of_frame (d : Nat) (a b : Dom) (v : VNode) (Fc Fp Fd : List Nat)
    (h : rendered d a v = true) (hf : Frame a b Fc Fp Fd)
    (hv : ∀ y ∈ elmsOf d v, y < a.next ∧ y ∉ Fc ∧ y ∉ Fp ∧ y ∉ Fd) :
    rendered d b v = true := by
  apply rendered_congr d a b v _ _ h
  · intro y hy
    exact hf.children_eq y (hv y hy).1 (hv y hy).2.1
  · intro y hy
    have hy' := strict_subset_elmsOf _ _ _ hy
    apply hf.parent_eq y (hv y hy').1 (hv y hy').2.2.1
    intro q hq
    obtain ⟨q', hq', hpq⟩ := rendered_parent_mem d a v h y hy
    rw [hpq] at hq
    have e := Option.some.inj hq
    rw [← e]
    exact (hv q' hq').2.2.2
/-! ## The invariant of the loop of `updateChildren` -/

theorem sameVnode_key (itt : TypeVal → Bool) (a b : VNode)
    (h : sameVnode itt a b = some true) : a.key = b.key := by
  by_cases hk : keyEq a.key b.key = true
  · exact ((keyEq_iff _ _).1 hk).1
  · unfold sameVnode at h
    simp [hk] at h

theorem sameVnodeAt_total (E : Env) (a b : VNode) (ha : a.isAsyncPlaceholder = false) :
    ∃ r, sameVnodeAt E (some a) (some b) = Except.ok r ∧
      (r = true → a.key = b.key) := by
  have hs : sameAsync a b = some false := by
    unfold sameAsync; simp [ha]
  cases h : sameVnode E.isTextInputType a b with
  | none =>
    exfalso
    unfold sameVnode at h
    rw [hs] at h
    split at h
    · split at h <;> cases h
    · cases h
  | some r =>
    refine ⟨r, ?_, fun hr => ?_⟩
    · simp only [sameVnodeAt, h]; rfl
    · subst hr
      exact sameVnode_key _ _ _ h

theorem ctx_p_notin (C : Ctx) (hC : CtxOk C) (o : VNode) (ho : o ∈ C.olds) :
    C.p ∉ elmsOf C.d o := by
  intro h
  have := (List.nodup_cons.1 hC.nodup).1
  exact this (List.mem_flatMap.2 ⟨o, ho, h⟩)

theorem ctx_bound (C : Ctx) (hC : CtxOk C) (o : VNode) (ho : o ∈ C.olds) (y : Nat)
    (hy : y ∈ elmsOf C.d o) : y < C.dom0.next :=
  hC.bound y (List.mem_cons_of_mem _ (List.mem_flatMap.2 ⟨o, ho, hy⟩))

theorem ctx_disjoint (C : Ctx) (hC : CtxOk C) (U V : List VNode) (o : VNode)
    (h : C.olds = U ++ o :: V) :
    ∀ c ∈ U ++ V, ∀ y ∈ elmsOf C.d c, y ∉ elmsOf C.d o := by
  have hn := (List.nodup_cons.1 hC.nodup).2
  rw [h, List.flatMap_append, List.flatMap_cons, List.nodup_append] at hn
  obtain ⟨_, h2, h3⟩ := hn
  rw [List.nodup_append] at h2
  obtain ⟨_, _, h4⟩ := h2
  intro c hc y hy hyo
  rcases List.mem_append.1 hc with hcU | hcV
  · exact h3 (List.mem_flatMap.2 ⟨c, hcU, hy⟩) (List.mem_append_left _ hyo)
  · exact h4 hyo (List.mem_flatMap.2 ⟨c, hcV, hy⟩)

theorem ctx_nodup_one (C : Ctx) (hC : CtxOk C) (o : VNode) (ho : o ∈ C.olds) :
    (elmsOf C.d o).Nodup := by
  have hn := (List.nodup_cons.1 hC.nodup).2
  rw [List.nodup_flatMap] at hn
  exact hn.1 o ho

theorem ctx_top_notin_strict (C : Ctx) (hC : CtxOk C) (o o' : VNode) (x : Nat)
    (ho : o ∈ C.olds) (ho' : o' ∈ C.olds) (hx : o'.elm = some x) :
    x ∉ strictElmsOf C.d o := by
  intro hs
  by_cases e : o' = o
  · subst e
    have hn := ctx_nodup_one C hC o' ho
    rw [elmsOf_eq, hx] at hn
    simp only [Option.toList_some, List.singleton_append, List.nodup_cons] at hn
    exact hn.1 hs
  · have hn := (List.nodup_cons.1 hC.nodup).2
    rw [List.nodup_flatMap] at hn
    have hd := hn.2.forall (fun a b hab => hab.symm) ho' ho e
    exact hd (elm_mem_elmsOf _ _ _ hx) (strict_subset_elmsOf _ _ _ hs)

theorem forall₂_mem_left {α β : Type} {R : α → β → Prop} {l1 : List α} {l2 : List β}
    (h : List.Forall₂ R l1 l2) : ∀ s ∈ l1, ∃ o ∈ l2, R s o := by
  induction h with
  | nil => intro s hs; cases hs
  | cons hr _ ih =>
    intro s hs
    rcases List.mem_cons.1 hs with e | e
    · subst e; exact ⟨_, List.mem_cons_self _ _, hr⟩
    · obtain ⟨o, ho, hro⟩ := ih s e
      exact ⟨o, List.mem_cons_of_mem _ ho, hro⟩

theorem mid_mem (C : Ctx) (A : Parts) (G : Ghost) (hI : LoopInv C A G) (o : VNode)
    (ho : some o ∈ A.oMid) : o ∈ G.om := by
  obtain ⟨o', ho', hr⟩ := forall₂_mem_left hI.mid (some o) ho
  rcases hr with e | ⟨e, _⟩
  · cases e; exact ho'
  · cases e

theorem mid_mem_olds (C : Ctx) (A : Parts) (G : Ghost) (hI : LoopInv C A G) (o : VNode)
    (ho : some o ∈ A.oMid) : o ∈ C.olds := by
  rw [hI.olds_eq]
  exact List.mem_append_right _ (List.mem_append_left _ (mid_mem C A G hI o ho))

theorem after_patch (C : Ctx) (hC : CtxOk C) (patchV : PatchFn) (hP : PatchSpec C patchV)
    (A : Parts) (G : Ghost) (hI : LoopInv C A G) (o n : VNode)
    (ho : some o ∈ A.oMid) (hn : n ∈ C.news) :
    ∃ r, patchV A.st A.queue o n = Except.ok r ∧ r.2.2.elm = o.elm ∧
      Frame A.st.dom r.1.dom (elmsOf C.d o) (strictElmsOf C.d o) (elmsOf C.d o) ∧
      r.1.dom.children C.p = G.fE ++ (G.mE ++ G.bE) ∧
      (∀ x ∈ G.fE ++ (G.mE ++ G.bE), x < r.1.dom.next ∧ r.1.dom.parent x = some C.p) := by
  have ho' := mid_mem_olds C A G hI o ho
  obtain ⟨r, hr, he, hf⟩ := hP A.st A.queue o n ho' hn (hI.live o ho) hI.frame.next_le
  have hp : C.p < A.st.dom.next :=
    Nat.lt_of_lt_of_le (hC.bound C.p (List.mem_cons_self _ _)) hI.frame.next_le
  refine ⟨r, hr, he, hf, ?_, fun x hx => ?_⟩
  · rw [hf.children_eq C.p hp (ctx_p_notin C hC o ho'), hI.dom_children]
  · obtain ⟨hb, hpar⟩ := hI.boundP x hx
    refine ⟨Nat.lt_of_lt_of_le hb hf.next_le, ?_⟩
    rw [hf.parent_eq x hb ?_ ?_, hpar]
    · rcases hI.fromOld x hx with ⟨o', ho1, ho2⟩ | hfresh
      · exact ctx_top_notin_strict C hC o o' x ho' ho1 ho2
      · intro hs
        have := ctx_bound C hC o ho' x (strict_subset_elmsOf _ _ _ hs)
        omega
    · intro q hq
      rw [hpar] at hq
      have e := Option.some.inj hq
      rw [← e]
      exact ctx_p_notin C hC o ho'

/-- The invariant is re-established from its parts once the footprint of the step is
known to be away from the old children that remain in the window. -/
theorem inv_rebuild (C : Ctx) (hC : CtxOk C) (A : Parts) (G : Ghost) (hI : LoopInv C A G)
    (A' : Parts) (G' : Ghost) (Fc Fp Fd : List Nat)
    (hframe : Frame A.st.dom A'.st.dom Fc Fp Fd)
    (hFc : ∀ y ∈ Fc, y ∈ C.p :: C.olds.flatMap (elmsOf C.d))
    (hFp : ∀ y ∈ Fp, y ∈ C.olds.flatMap (elmsOf C.d))
    (hFd : ∀ y ∈ Fd, y ∈ C.olds.flatMap (elmsOf C.d))
    (hrem : ∀ c, some c ∈ A'.oMid → some c ∈ A.oMid ∧
      ∀ y ∈ elmsOf C.d c, y ∉ Fc ∧ y ∉ Fp ∧ y ∉ Fd)
    (olds_eq : C.olds = G'.o1 ++ (G'.om ++ G'.o2))
    (news_eq : C.news = G'.nFo ++ (A'.nMid ++ G'.nBo))
    (lenF : G'.nFo.length = A'.nF.length)
    (lenB : G'.nBo.length = A'.nB.length)
    (d1 : List.Forall₂ (fun s o => s = none ∨ s = some o) A'.oD1 G'.o1)
    (d2 : List.Forall₂ (fun s o => s = none ∨ s = some o) A'.oD2 G'.o2)
    (mid : List.Forall₂ (fun s o => s = some o ∨ (s = none ∧ KeyMatched G'.nFo G'.nBo o))
      A'.oMid G'.om)
    (passed : ∀ o ∈ G'.o1 ++ G'.o2, KeyMatched G'.nFo G'.nBo o)
    (noHoles : A'.map = none → ∀ s ∈ A'.oMid, s ≠ none)
    (mapOk : ∀ m, A'.map = some m → ∀ name i, m.lookup name = some i →
      ∃ o k, getAt C.olds i = some o ∧ o.key = some k ∧ propName k = name)
    (dom_children : A'.st.dom.children C.p = G'.fE ++ (G'.mE ++ G'.bE))
    (elmF : A'.nF.map (fun v => v.elm) = G'.fE.map some)
    (elmM : A'.oMid.reduceOption.map (fun v => v.elm) = G'.mE.map some)
    (elmB : A'.nB.map (fun v => v.elm) = G'.bE.map some)
    (nodupP : (G'.fE ++ (G'.mE ++ G'.bE)).Nodup)
    (boundP : ∀ x ∈ G'.fE ++ (G'.mE ++ G'.bE),
      x < A'.st.dom.next ∧ A'.st.dom.parent x = some C.p)
    (fromOld : ∀ x ∈ G'.fE ++ (G'.mE ++ G'.bE),
      (∃ o ∈ C.olds, o.elm = some x) ∨ C.dom0.next ≤ x) :
    LoopInv C A' G' := by
  refine ⟨olds_eq, news_eq, lenF, lenB, d1, d2, mid, passed, noHoles, mapOk, dom_children,
    elmF, elmM, elmB, nodupP, boundP, fromOld, fun c hc => ?_, ?_⟩
  · obtain ⟨hc1, hc2⟩ := hrem c hc
    apply rendered_of_frame C.d A.st.dom A'.st.dom c Fc Fp Fd (hI.live c hc1) hframe
    intro y hy
    exact ⟨Nat.lt_of_lt_of_le (ctx_bound C hC c (mid_mem_olds C A G hI c hc1) y hy)
      hI.frame.next_le, hc2 y hy⟩
  · exact frame_trans hI.frame (frame_mono hframe hFc hFp hFd)
theorem forall₂_append_left {α β : Type} {R : α → β → Prop} :
    ∀ (l1 l2 : List α) (u : List β), List.Forall₂ R (l1 ++ l2) u →
      ∃ u1 u2, u = u1 ++ u2 ∧ List.Forall₂ R l1 u1 ∧ List.Forall₂ R l2 u2 := by
  intro l1
  induction l1 with
  | nil => intro l2 u h; exact ⟨[], u, rfl, List.Forall₂.nil, h⟩
  | cons a l1 ih =>
    intro l2 u h
    obtain ⟨b, u', hab, hrest, hu⟩ := List.forall₂_cons_left_iff.1 h
    obtain ⟨u1, u2, e, h1, h2⟩ := ih l2 u' hrest
    exact ⟨b :: u1, u2, by rw [hu, e]; rfl, List.Forall₂.cons hab h1, h2⟩

theorem forall₂_append {α β : Type} {R : α → β → Prop} {l1 l2 : List α} {u1 u2 : List β}
    (h1 : List.Forall₂ R l1 u1) (h2 : List.Forall₂ R l2 u2) :
    List.Forall₂ R (l1 ++ l2) (u1 ++ u2) := by
  induction h1 with
  | nil => exact h2
  | cons hr _ ih => exact List.Forall₂.cons hr ih

theorem forall₂_singleton_left {α β : Type} {R : α → β → Prop} (a : α) (u : List β)
    (h : List.Forall₂ R [a] u) : ∃ b, u = [b] ∧ R a b := by
  obtain ⟨b, u', hab, hrest, hu⟩ := List.forall₂_cons_left_iff.1 h
  rw [List.forall₂_nil_left_iff.1 hrest] at hu
  exact ⟨b, hu, hab⟩

theorem keyMatched_mono {nFo nBo nFo' nBo' : List VNode}
    (h : ∀ x ∈ nFo ++ nBo, x ∈ nFo' ++ nBo') (o : VNode) (hk : KeyMatched nFo nBo o) :
    KeyMatched nFo' nBo' o := by
  obtain ⟨n, hn, e⟩ := hk
  exact ⟨n, h n hn, e⟩

theorem elms_subset (C : Ctx) (o : VNode) (ho : o ∈ C.olds) :
    ∀ y ∈ elmsOf C.d o, y ∈ C.olds.flatMap (elmsOf C.d) :=
  fun y hy => List.mem_flatMap.2 ⟨o, ho, hy⟩

theorem live_away (C : Ctx) (hC : CtxOk C) (U V : List VNode) (o : VNode)
    (h : C.olds = U ++ o :: V) (c : VNode) (hc : c ∈ U ++ V) :
    ∀ y ∈ elmsOf C.d c, y ∉ C.p :: elmsOf C.d o ∧ y ∉ strictElmsOf C.d o ∧
      y ∉ elmsOf C.d o := by
  intro y hy
  have hd := ctx_disjoint C hC U V o h c hc y hy
  have hcm : c ∈ C.olds := by
    rw [h]
    rcases List.mem_append.1 hc with e | e
    · exact List.mem_append_left _ e
    · exact List.mem_append_right _ (List.mem_cons_of_mem _ e)
  refine ⟨fun e => ?_, fun e => hd (strict_subset_elmsOf _ _ _ e), hd⟩
  rcases List.mem_cons.1 e with e1 | e1
  · exact ctx_p_notin C hC c hcm (e1 ▸ hy)
  · exact hd e1

/-- Skipping an emptied slot at the start of the old window keeps the invariant. -/
theorem inv_skipStart (C : Ctx) (hC : CtxOk C) (A : Parts) (G : Ghost) (hI : LoopInv C A G)
    (M : List (Option VNode)) (h : A.oMid = none :: M) :
    ∃ G', LoopInv C { A with oD1 := A.oD1 ++ [none], oMid := M } G' := by
  have hmid := hI.mid
  rw [h] at hmid
  obtain ⟨g, om', hg, hrest, hom⟩ := List.forall₂_cons_left_iff.1 hmid
  have hkm : KeyMatched G.nFo G.nBo g := by
    rcases hg with e | ⟨_, e⟩
    · cases e
    · exact e
  have helm := hI.elmM
  rw [h, List.reduceOption_cons_of_none] at helm
  refine ⟨{ G with o1 := G.o1 ++ [g], om := om' }, ?_⟩
  apply inv_rebuild C hC A G hI _ _ [] [] []
  · exact frame_refl _ _ _ _
  · intro y hy; cases hy
  · intro y hy; cases hy
  · intro y hy; cases hy
  · intro c hc
    exact ⟨by rw [h]; exact List.mem_cons_of_mem _ hc, fun y _ => ⟨by simp, by simp, by simp⟩⟩
  · rw [hI.olds_eq, hom]; simp
  · exact hI.news_eq
  · exact hI.lenF
  · exact hI.lenB
  · exact forall₂_append hI.d1 (List.Forall₂.cons (Or.inl rfl) List.Forall₂.nil)
  · exact hI.d2
  · exact hrest
  · intro o ho
    simp only [List.mem_append, List.mem_singleton] at ho
    rcases ho with (e | e) | e
    · exact hI.passed o (List.mem_append_left _ e)
    · rw [e]; exact hkm
    · exact hI.passed o (List.mem_append_right _ e)
  · intro hm s hs
    exact hI.noHoles hm s (by rw [h]; exact List.mem_cons_of_mem _ hs)
  · exact hI.mapOk
  · exact hI.dom_children
  · exact hI.elmF
  · exact helm
  · exact hI.elmB
  · exact hI.nodupP
  · exact hI.boundP
  · exact hI.fromOld

theorem forall₂_concat_left {α β : Type} {R : α → β → Prop} (l : List α) (a : α)
    (u : List β) (h : List.Forall₂ R (l ++ [a]) u) :
    ∃ u' b, u = u' ++ [b] ∧ List.Forall₂ R l u' ∧ R a b := by
  obtain ⟨u1, u2, e, h1, h2⟩ := forall₂_append_left l [a] u h
  obtain ⟨b, e2, hab⟩ := forall₂_singleton_left a u2 h2
  exact ⟨u1, b, by rw [e, e2], h1, hab⟩

theorem mid_mem_of (nFo nBo : List VNode) (M : List (Option VNode)) (om : List VNode)
    (h : List.Forall₂ (fun s o => s = some o ∨ (s = none ∧ KeyMatched nFo nBo o)) M om)
    (c : VNode) (hc : some c ∈ M) : c ∈ om := by
  obtain ⟨o', ho', hr⟩ := forall₂_mem_left h (some c) hc
  rcases hr with e | ⟨e, _⟩
  · cases e; exact ho'
  · cases e

theorem sameVnodeAt_key (E : Env) (a b : VNode)
    (h : sameVnodeAt E (some a) (some b) = Except.ok true) : a.key = b.key := by
  unfold sameVnodeAt at h
  simp only at h
  split at h
  · rename_i r hr
    simp only [pure, Except.pure, Except.ok.injEq] at h
    subst h
    exact sameVnode_key _ a b hr
  · cases h

/-- Skipping an emptied slot at the end of the old window keeps the invariant. -/
theorem inv_skipEnd (C : Ctx) (hC : CtxOk C) (A : Parts) (G : Ghost) (hI : LoopInv C A G)
    (M : List (Option VNode)) (h : A.oMid = M ++ [none]) :
    ∃ G', LoopInv C { A with oMid := M, oD2 := none :: A.oD2 } G' := by
  have hmid := hI.mid
  rw [h] at hmid
  obtain ⟨om', g, hom, hrest, hg⟩ := forall₂_concat_left _ _ _ hmid
  have hkm : KeyMatched G.nFo G.nBo g := by
    rcases hg with e | ⟨_, e⟩
    · cases e
    · exact e
  have helm := hI.elmM
  rw [h, List.reduceOption_append] at helm
  simp only [List.reduceOption_cons_of_none, List.reduceOption_nil, List.append_nil] at helm
  refine ⟨{ G with om := om', o2 := g :: G.o2 }, ?_⟩
  apply inv_rebuild C hC A G hI _ _ [] [] []
  · exact frame_refl _ _ _ _
  · intro y hy; cases hy
  · intro y hy; cases hy
  · intro y hy; cases hy
  · intro c hc
    exact ⟨by rw [h]; exact List.mem_append_left _ hc, fun y _ => ⟨by simp, by simp, by simp⟩⟩
  · rw [hI.olds_eq, hom]; simp
  · exact hI.news_eq
  · exact hI.lenF
  · exact hI.lenB
  · exact hI.d1
  · exact List.Forall₂.cons (Or.inl rfl) hI.d2
  · exact hrest
  · intro o ho
    simp only [List.mem_append, List.mem_cons] at ho
    rcases ho with e | e | e
    · exact hI.passed o (List.mem_append_left _ e)
    · rw [e]; exact hkm
    · exact hI.passed o (List.mem_append_right _ e)
  · intro hm s hs
    exact hI.noHoles hm s (by rw [h]; exact List.mem_append_left _ hs)
  · exact hI.mapOk
  · exact hI.dom_children
  · exact hI.elmF
  · exact helm
  · exact hI.elmB
  · exact hI.nodupP
  · exact hI.boundP
  · exact hI.fromOld

/-- Patching the old start against the new start keeps the invariant. -/
theorem inv_matchStart (C : Ctx) (hC : CtxOk C) (patchV : PatchFn) (hP : PatchSpec C patchV)
    (A : Parts) (G : Ghost) (hI : LoopInv C A G) (o n : VNode) (M : List (Option VNode))
    (N : List VNode) (tr : List Action) (ho : A.oMid = some o :: M) (hn : A.nMid = n :: N)
    (hkey : o.key = n.key) :
    ∃ r, patchV A.st A.queue o n = Except.ok r ∧
      ∃ G', LoopInv C { A with
        oD1 := A.oD1 ++ [some o], oMid := M, nF := A.nF ++ [r.2.2], nMid := N,
        st := r.1, queue := r.2.1, trace := tr } G' := by
  have hmo : some o ∈ A.oMid := by rw [ho]; exact List.mem_cons_self _ _
  have hmn : n ∈ C.news := by rw [hI.news_eq, hn]; simp
  obtain ⟨r, hr, he, hf, hch, hbp⟩ := after_patch C hC patchV hP A G hI o n hmo hmn
  refine ⟨r, hr, ?_⟩
  have hmid := hI.mid
  rw [ho] at hmid
  obtain ⟨g, om', hg, hrest, hom⟩ := List.forall₂_cons_left_iff.1 hmid
  have hgo : g = o := by
    rcases hg with e | ⟨e, _⟩
    · cases e; rfl
    · cases e
  subst hgo
  have helm := hI.elmM
  rw [ho, List.reduceOption_cons_of_some, List.map_cons] at helm
  obtain ⟨x, mE', hmE, hx, hmE'⟩ := List.map_eq_cons_iff.1 helm.symm
  have holds : C.olds = G.o1 ++ g :: (om' ++ G.o2) := by rw [hI.olds_eq, hom]; simp
  have hmono : ∀ v ∈ G.nFo ++ G.nBo, v ∈ (G.nFo ++ [n]) ++ G.nBo := by
    intro v hv
    simp only [List.mem_append, List.mem_singleton] at hv ⊢
    tauto
  have hP' : (G.fE ++ [x]) ++ (mE' ++ G.bE) = G.fE ++ (G.mE ++ G.bE) := by rw [hmE]; simp
  refine ⟨{ G with
    o1 := G.o1 ++ [g]
    om := om'
    nFo := G.nFo ++ [n]
    fE := G.fE ++ [x]
    mE := mE' }, ?_⟩
  apply inv_rebuild C hC A G hI _ _ (elmsOf C.d g) (strictElmsOf C.d g) (elmsOf C.d g)
  · exact hf
  · exact fun y hy => List.mem_cons_of_mem _ (elms_subset C g (mid_mem_olds C A G hI g hmo) y hy)
  · exact fun y hy => elms_subset C g (mid_mem_olds C A G hI g hmo) y
      (strict_subset_elmsOf _ _ _ hy)
  · exact elms_subset C g (mid_mem_olds C A G hI g hmo)
  · intro c hc
    refine ⟨by rw [ho]; exact List.mem_cons_of_mem _ hc, fun y hy => ?_⟩
    have hcm : c ∈ G.o1 ++ (om' ++ G.o2) :=
      List.mem_append_right _ (List.mem_append_left _ (mid_mem_of _ _ _ _ hrest c hc))
    obtain ⟨h1, h2, h3⟩ := live_away C hC _ _ g holds c hcm y hy
    exact ⟨h3, h2, h3⟩
  · rw [holds]; simp
  · show C.news = (G.nFo ++ [n]) ++ (N ++ G.nBo)
    rw [hI.news_eq, hn]; simp
  · show (G.nFo ++ [n]).length = (A.nF ++ [r.2.2]).length
    simp [hI.lenF]
  · exact hI.lenB
  · exact forall₂_append hI.d1 (List.Forall₂.cons (Or.inr rfl) List.Forall₂.nil)
  · exact hI.d2
  · exact hrest.imp (fun s o' h => h.imp id (fun h2 => ⟨h2.1, keyMatched_mono hmono o' h2.2⟩))
  · intro o' ho'
    simp only [List.mem_append, List.mem_singleton] at ho'
    rcases ho' with (e | e) | e
    · exact keyMatched_mono hmono o' (hI.passed o' (List.mem_append_left _ e))
    · rw [e]; exact ⟨n, by simp, hkey.symm⟩
    · exact keyMatched_mono hmono o' (hI.passed o' (List.mem_append_right _ e))
  · intro hm s hs
    exact hI.noHoles hm s (by rw [ho]; exact List.mem_cons_of_mem _ hs)
  · exact hI.mapOk
  · show r.1.dom.children C.p = (G.fE ++ [x]) ++ (mE' ++ G.bE)
    rw [hP', hch]
  · show (A.nF ++ [r.2.2]).map (fun v => v.elm) = (G.fE ++ [x]).map some
    simp [hI.elmF, he, hx]
  · exact hmE'.symm
  · exact hI.elmB
  · show ((G.fE ++ [x]) ++ (mE' ++ G.bE)).Nodup
    rw [hP']; exact hI.nodupP
  · show ∀ y ∈ (G.fE ++ [x]) ++ (mE' ++ G.bE), _
    rw [hP']; exact hbp
  · show ∀ y ∈ (G.fE ++ [x]) ++ (mE' ++ G.bE), _
    rw [hP']; exact hI.fromOld

theorem map_some_concat (l : List (Option Nat)) (a : Option Nat) (mE : List Nat)
    (h : l ++ [a] = mE.map some) :
    ∃ mE' x, mE = mE' ++ [x] ∧ a = some x ∧ l = mE'.map some := by
  obtain ⟨m1, m2, e, h1, h2⟩ := List.map_eq_append_iff.1 h.symm
  obtain ⟨x, t, e2, hx, ht⟩ := List.map_eq_cons_iff.1 h2
  have : t = [] := by simpa using ht
  subst this
  exact ⟨m1, x, by rw [e, e2], hx.symm, h1.symm⟩

/-- Patching the old end against the new end keeps the invariant. -/
theorem inv_matchEnd (C : Ctx) (hC : CtxOk C) (patchV : PatchFn) (hP : PatchSpec C patchV)
    (A : Parts) (G : Ghost) (hI : LoopInv C A G) (oe ne : VNode) (M : List (Option VNode))
    (N : List VNode) (tr : List Action) (ho : A.oMid = M ++ [some oe])
    (hn : A.nMid = N ++ [ne]) (hkey : oe.key = ne.key) :
    ∃ r, patchV A.st A.queue oe ne = Except.ok r ∧
      ∃ G', LoopInv C { A with
        oMid := M, oD2 := some oe :: A.oD2, nMid := N, nB := r.2.2 :: A.nB,
        st := r.1, queue := r.2.1, trace := tr } G' := by
  have hmo : some oe ∈ A.oMid := by rw [ho]; simp
  have hmn : ne ∈ C.news := by rw [hI.news_eq, hn]; simp
  obtain ⟨r, hr, he, hf, hch, hbp⟩ := after_patch C hC patchV hP A G hI oe ne hmo hmn
  refine ⟨r, hr, ?_⟩
  have hmid := hI.mid
  rw [ho] at hmid
  obtain ⟨om', g, hom, hrest, hg⟩ := forall₂_concat_left _ _ _ hmid
  have hgo : g = oe := by
    rcases hg with e | ⟨e, _⟩
    · cases e; rfl
    · cases e
  subst hgo
  have helm := hI.elmM
  rw [ho, List.reduceOption_append, List.map_append] at helm
  simp only [List.reduceOption_cons_of_some, List.reduceOption_nil, List.map_cons,
    List.map_nil] at helm
  obtain ⟨mE', x, hmE, hx, hmE'⟩ := map_some_concat _ _ _ helm
  have holds : C.olds = (G.o1 ++ om') ++ g :: G.o2 := by rw [hI.olds_eq, hom]; simp
  have hmono : ∀ v ∈ G.nFo ++ G.nBo, v ∈ G.nFo ++ (ne :: G.nBo) := by
    intro v hv
    simp only [List.mem_append, List.mem_cons] at hv ⊢
    tauto
  have hP' : G.fE ++ (mE' ++ (x :: G.bE)) = G.fE ++ (G.mE ++ G.bE) := by rw [hmE]; simp
  refine ⟨{ G with
    om := om'
    o2 := g :: G.o2
    nBo := ne :: G.nBo
    mE := mE'
    bE := x :: G.bE }, ?_⟩
  apply inv_rebuild C hC A G hI _ _ (elmsOf C.d g) (strictElmsOf C.d g) (elmsOf C.d g)
  · exact hf
  · exact fun y hy => List.mem_cons_of_mem _ (elms_subset C g (mid_mem_olds C A G hI g hmo) y hy)
  · exact fun y hy => elms_subset C g (mid_mem_olds C A G hI g hmo) y
      (strict_subset_elmsOf _ _ _ hy)
  · exact elms_subset C g (mid_mem_olds C A G hI g hmo)
  · intro c hc
    refine ⟨by rw [ho]; exact List.mem_append_left _ hc, fun y hy => ?_⟩
    have hcm : c ∈ (G.o1 ++ om') ++ G.o2 :=
      List.mem_append_left _ (List.mem_append_right _ (mid_mem_of _ _ _ _ hrest c hc))
    obtain ⟨h1, h2, h3⟩ := live_away C hC _ _ g holds c hcm y hy
    exact ⟨h3, h2, h3⟩
  · rw [holds]; simp
  · show C.news = G.nFo ++ (N ++ (ne :: G.nBo))
    rw [hI.news_eq, hn]; simp
  · exact hI.lenF
  · show (ne :: G.nBo).length = (r.2.2 :: A.nB).length
    simp [hI.lenB]
  · exact hI.d1
  · exact List.Forall₂.cons (Or.inr rfl) hI.d2
  · exact hrest.imp (fun s o' h => h.imp id (fun h2 => ⟨h2.1, keyMatched_mono hmono o' h2.2⟩))
  · intro o' ho'
    simp only [List.mem_append, List.mem_cons] at ho'
    rcases ho' with e | e | e
    · exact keyMatched_mono hmono o' (hI.passed o' (List.mem_append_left _ e))
    · rw [e]; exact ⟨ne, by simp, hkey.symm⟩
    · exact keyMatched_mono hmono o' (hI.passed o' (List.mem_append_right _ e))
  · intro hm s hs
    exact hI.noHoles hm s (by rw [ho]; exact List.mem_append_left _ hs)
  · exact hI.mapOk
  · show r.1.dom.children C.p = G.fE ++ (mE' ++ (x :: G.bE))
    rw [hP', hch]
  · exact hI.elmF
  · exact hmE'
  · show (r.2.2 :: A.nB).map (fun v => v.elm) = (x :: G.bE).map some
    simp [hI.elmB, he, hx]
  · show (G.fE ++ (mE' ++ (x :: G.bE))).Nodup
    rw [hP']; exact hI.nodupP
  · show ∀ y ∈ G.fE ++ (mE' ++ (x :: G.bE)), _
    rw [hP']; exact hbp
  · show ∀ y ∈ G.fE ++ (mE' ++ (x :: G.bE)), _
    rw [hP']; exact hI.fromOld
theorem move_frame (st st2 : St) (p : Nat) (l : List Nat)
    (h1 : st2.dom.next = st.dom.next)
    (h2 : st2.dom.children = Function.update st.dom.children p l)
    (h3 : st2.dom.parent = st.dom.parent) : Frame st.dom st2.dom [p] [] [] := by
  refine ⟨by rw [h1], fun y _ hy => ?_, fun y _ _ _ => by rw [h3]⟩
  rw [h2]
  have : y ≠ p := fun e => hy (by simp [e])
  simp [Function.update, this]

theorem patch_move_frame (C : Ctx) (A : Parts) (r : St × Queue × VNode) (st2 : St) (o : VNode)
    (hf : Frame A.st.dom r.1.dom (elmsOf C.d o) (strictElmsOf C.d o) (elmsOf C.d o))
    (hm : Frame r.1.dom st2.dom [C.p] [] []) :
    Frame A.st.dom st2.dom (C.p :: elmsOf C.d o) (strictElmsOf C.d o) (elmsOf C.d o) := by
  refine frame_trans (frame_mono hf ?_ ?_ ?_) ?_
  · exact fun y hy => List.mem_cons_of_mem _ hy
  · exact fun y hy => hy
  · exact fun y hy => hy
  · refine ⟨hm.next_le, fun y hy hn => ?_, fun y hy _ _ => ?_⟩
    · exact hm.children_eq y hy (fun e => hn (by
        rcases List.mem_singleton.1 e with e1
        rw [e1]; exact List.mem_cons_self _ _))
    · exact hm.parent_eq y hy (by simp) (by simp)

/-- Patching the old start against the new end and moving its node behind the old end
keeps the invariant. -/
theorem inv_moveRight (C : Ctx) (hC : CtxOk C) (patchV : PatchFn) (hP : PatchSpec C patchV)
    (A : Parts) (G : Ghost) (hI : LoopInv C A G) (o oe ne : VNode)
    (M Mi : List (Option VNode)) (N : List VNode) (tr : List Action)
    (ho : A.oMid = some o :: M) (hoe : A.oMid = Mi ++ [some oe])
    (hn : A.nMid = N ++ [ne]) (hkey : o.key = ne.key) :
    ∃ r st2, patchV A.st A.queue o ne = Except.ok r ∧
      (do
        let ref ← nextSiblingAt r.1 oe.elm
        moveBefore r.1 (some C.p) o.elm ref) = Except.ok st2 ∧
      (match oe.elm with
        | some e => nodeOps.nextSibling r.1 e
        | none => none) = G.bE.head? ∧
      ∃ G', LoopInv C { A with
        oD1 := A.oD1 ++ [some o], oMid := M, nMid := N, nB := r.2.2 :: A.nB,
        st := st2, queue := r.2.1, trace := tr } G' := by
  have hmo : some o ∈ A.oMid := by rw [ho]; exact List.mem_cons_self _ _
  have hmn : ne ∈ C.news := by rw [hI.news_eq, hn]; simp
  obtain ⟨r, hr, he, hf, hch, hbp⟩ := after_patch C hC patchV hP A G hI o ne hmo hmn
  have hmid := hI.mid
  rw [ho] at hmid
  obtain ⟨g, om', hg, hrest, hom⟩ := List.forall₂_cons_left_iff.1 hmid
  have hgo : g = o := by
    rcases hg with e | ⟨e, _⟩
    · cases e; rfl
    · cases e
  subst hgo
  have helm := hI.elmM
  rw [ho, List.reduceOption_cons_of_some, List.map_cons] at helm
  obtain ⟨x, mE', hmE, hx, hmE'⟩ := List.map_eq_cons_iff.1 helm.symm
  have helm2 := hI.elmM
  rw [hoe, List.reduceOption_append, List.map_append] at helm2
  simp only [List.reduceOption_cons_of_some, List.reduceOption_nil, List.map_cons,
    List.map_nil] at helm2
  obtain ⟨mEi, xe, hmEi, hxe, _⟩ := map_some_concat _ _ _ helm2
  have hnd := hI.nodupP
  have hxP : x ∈ G.fE ++ (G.mE ++ G.bE) := by rw [hmE]; simp
  have hxeP : xe ∈ G.fE ++ (G.mE ++ G.bE) := by rw [hmEi]; simp
  -- the reference node
  have hnext : nodeOps.nextSibling r.1 xe = G.bE.head? := by
    unfold nodeOps.nextSibling
    rw [(hbp xe hxeP).2]
    simp only
    rw [hch, hmEi]
    have : G.fE ++ ((mEi ++ [xe]) ++ G.bE) = (G.fE ++ mEi) ++ xe :: G.bE := by simp
    rw [this]
    apply nextIn_boundary
    rw [hmEi] at hnd
    have h2 : (xe :: (G.fE ++ mEi ++ G.bE)).Nodup :=
      (List.Perm.nodup_iff (by
        have := @List.perm_middle _ xe (G.fE ++ mEi) G.bE
        simpa using this)).1 hnd
    intro hmem
    exact (List.nodup_cons.1 h2).1 (List.mem_append_left _ hmem)
  have hxfE : x ∉ G.fE := by
    rw [hmE] at hnd
    intro hmem
    have := (List.nodup_append.1 hnd).2.2
    exact this hmem (by simp) 
  have href : G.bE.head? = none ∨ ∃ b, G.bE.head? = some b ∧
      b ∈ r.1.dom.children C.p ∧ b ≠ x := by
    cases hb : G.bE with
    | nil => left; rfl
    | cons b t =>
      right
      refine ⟨b, rfl, ?_, ?_⟩
      · rw [hch, hb]; simp
      · intro e
        rw [hmE, hb, e] at hnd
        have := (List.nodup_append.1 (List.nodup_append.1 hnd).2.1).2.2
        exact this (List.mem_cons_self _ _) (List.mem_cons_self _ _) 
  obtain ⟨st2, hins, hnx, hchd, hpar⟩ :=
    insertBefore_move r.1 C.p x G.bE.head? (hbp x hxP).2 href
  have hnew : insertAt x G.bE.head? ((r.1.dom.children C.p).erase x)
      = G.fE ++ (mE' ++ (x :: G.bE)) := by
    rw [hch, hmE]
    have e1 : G.fE ++ ((x :: mE') ++ G.bE) = G.fE ++ x :: (mE' ++ G.bE) := by simp
    rw [e1, erase_boundary x G.fE (mE' ++ G.bE) hxfE]
    have e2 : G.fE ++ (mE' ++ G.bE) = (G.fE ++ mE') ++ G.bE := by simp
    rw [e2, insertAt_boundary]
    · simp
    · intro b hb hmem
      rw [hmE] at hnd
      have hbB : b ∈ G.bE := List.mem_of_mem_head? hb
      rcases List.mem_append.1 hmem with h1 | h1
      · exact (List.nodup_append.1 hnd).2.2 h1 (by simp [hbB])
      · exact (List.nodup_append.1 (List.nodup_append.1 hnd).2.1).2.2
          (List.mem_cons_of_mem _ h1) hbB
  refine ⟨r, st2, hr, ?_, ?_, ?_⟩
  · rw [hxe, ← hx]
    simp only [nextSiblingAt, moveBefore, bind, Except.bind, pure, Except.pure, hnext]
    exact hins
  · rw [hxe]; exact hnext
  have holds : C.olds = G.o1 ++ g :: (om' ++ G.o2) := by rw [hI.olds_eq, hom]; simp
  have hmono : ∀ v ∈ G.nFo ++ G.nBo, v ∈ G.nFo ++ (ne :: G.nBo) := by
    intro v hv
    simp only [List.mem_append, List.mem_cons] at hv ⊢
    tauto
  have hperm : (G.fE ++ (mE' ++ (x :: G.bE))).Perm (G.fE ++ (G.mE ++ G.bE)) := by
    rw [hmE]
    apply List.Perm.append_left
    simp
  refine ⟨{ G with
    o1 := G.o1 ++ [g]
    om := om'
    nBo := ne :: G.nBo
    mE := mE'
    bE := x :: G.bE }, ?_⟩
  apply inv_rebuild C hC A G hI _ _ (C.p :: elmsOf C.d g) (strictElmsOf C.d g) (elmsOf C.d g)
  · exact patch_move_frame C A r st2 g hf (move_frame r.1 st2 C.p _ hnx hchd hpar)
  · intro y hy
    rcases List.mem_cons.1 hy with e | e
    · rw [e]; exact List.mem_cons_self _ _
    · exact List.mem_cons_of_mem _ (elms_subset C g (mid_mem_olds C A G hI g hmo) y e)
  · exact fun y hy => elms_subset C g (mid_mem_olds C A G hI g hmo) y
      (strict_subset_elmsOf _ _ _ hy)
  · exact elms_subset C g (mid_mem_olds C A G hI g hmo)
  · intro c hc
    refine ⟨by rw [ho]; exact List.mem_cons_of_mem _ hc, fun y hy => ?_⟩
    have hcm : c ∈ G.o1 ++ (om' ++ G.o2) :=
      List.mem_append_right _ (List.mem_append_left _ (mid_mem_of _ _ _ _ hrest c hc))
    exact live_away C hC _ _ g holds c hcm y hy
  · rw [holds]; simp
  · show C.news = G.nFo ++ (N ++ (ne :: G.nBo))
    rw [hI.news_eq, hn]; simp
  · exact hI.lenF
  · show (ne :: G.nBo).length = (r.2.2 :: A.nB).length
    simp [hI.lenB]
  · exact forall₂_append hI.d1 (List.Forall₂.cons (Or.inr rfl) List.Forall₂.nil)
  · exact hI.d2
  · exact hrest.imp (fun s o' h => h.imp id (fun h2 => ⟨h2.1, keyMatched_mono hmono o' h2.2⟩))
  · intro o' ho'
    simp only [List.mem_append, List.mem_singleton] at ho'
    rcases ho' with (e | e) | e
    · exact keyMatched_mono hmono o' (hI.passed o' (List.mem_append_left _ e))
    · rw [e]; exact ⟨ne, by simp, hkey.symm⟩
    · exact keyMatched_mono hmono o' (hI.passed o' (List.mem_append_right _ e))
  · intro hm s hs
    exact hI.noHoles hm s (by rw [ho]; exact List.mem_cons_of_mem _ hs)
  · exact hI.mapOk
  · show st2.dom.children C.p = G.fE ++ (mE' ++ (x :: G.bE))
    rw [hchd, Function.update_same, hnew]
  · exact hI.elmF
  · exact hmE'.symm
  · show (r.2.2 :: A.nB).map (fun v => v.elm) = (x :: G.bE).map some
    simp [hI.elmB, he, hx]
  · exact (List.Perm.nodup_iff hperm).2 hnd
  · intro y hy
    have := hbp y ((List.Perm.mem_iff hperm).1 hy)
    rw [hnx, hpar]; exact this
  · intro y hy
    exact hI.fromOld y ((List.Perm.mem_iff hperm).1 hy)
theorem move_before_head (st : St) (p x xc : Nat) (fE mX R : List Nat)
    (hch : st.dom.children p = fE ++ x :: (mX ++ xc :: R))
    (hnd : (fE ++ x :: (mX ++ xc :: R)).Nodup)
    (hpar : st.dom.parent xc = some p) :
    ∃ st2, nodeOps.insertBefore st p xc (some x) = Except.ok st2 ∧
      st2.dom.next = st.dom.next ∧
      st2.dom.children p = fE ++ xc :: x :: (mX ++ R) ∧
      st2.dom.parent = st.dom.parent ∧
      Frame st.dom st2.dom [p] [] [] := by
  have hnd2 := (List.nodup_append.1 hnd)
  have hx_ne : x ≠ xc := by
    intro e
    have := (List.nodup_cons.1 hnd2.2.1).1
    exact this (by rw [e]; simp)
  have hxfE : x ∉ fE := fun hm => hnd2.2.2 hm (List.mem_cons_self _ _)
  have hxc : xc ∉ fE ++ x :: mX := by
    have e : fE ++ x :: (mX ++ xc :: R) = (fE ++ x :: mX) ++ xc :: R := by simp
    rw [e] at hnd
    intro hm
    exact (List.nodup_append.1 hnd).2.2 hm (List.mem_cons_self _ _)
  obtain ⟨st2, hins, hnx, hchd, hp2⟩ := insertBefore_move st p xc (some x) hpar
    (Or.inr ⟨x, rfl, by rw [hch]; simp, hx_ne⟩)
  refine ⟨st2, hins, hnx, ?_, hp2, move_frame st st2 p _ hnx hchd hp2⟩
  rw [hchd, Function.update_same, hch]
  have e : fE ++ x :: (mX ++ xc :: R) = (fE ++ x :: mX) ++ xc :: R := by simp
  rw [e, erase_boundary xc _ R hxc]
  have e2 : (fE ++ x :: mX) ++ R = fE ++ x :: (mX ++ R) := by simp
  rw [e2]
  show nodeOps.insertBeforeL xc x (fE ++ x :: (mX ++ R)) = _
  rw [insertBeforeL_boundary xc x fE (mX ++ R) hxfE]

/-- Patching the old end against the new start and moving its node in front of the old
start keeps the invariant. -/
theorem inv_moveLeft (C : Ctx) (hC : CtxOk C) (patchV : PatchFn) (hP : PatchSpec C patchV)
    (A : Parts) (G : Ghost) (hI : LoopInv C A G) (o oe n : VNode)
    (M : List (Option VNode)) (N : List VNode) (tr : List Action)
    (ho : A.oMid = some o :: (M ++ [some oe]))
    (hn : A.nMid = n :: N) (hkey : oe.key = n.key) :
    ∃ r st2, patchV A.st A.queue oe n = Except.ok r ∧
      moveBefore r.1 (some C.p) oe.elm o.elm = Except.ok st2 ∧
      ∃ G', LoopInv C { A with
        oMid := some o :: M, oD2 := some oe :: A.oD2, nF := A.nF ++ [r.2.2], nMid := N,
        st := st2, queue := r.2.1, trace := tr } G' := by
  have hmo : some oe ∈ A.oMid := by rw [ho]; simp
  have hmn : n ∈ C.news := by rw [hI.news_eq, hn]; simp
  obtain ⟨r, hr, he, hf, hch, hbp⟩ := after_patch C hC patchV hP A G hI oe n hmo hmn
  have hmid := hI.mid
  rw [ho] at hmid
  obtain ⟨g, om1, hg, hrest1, hom⟩ := List.forall₂_cons_left_iff.1 hmid
  obtain ⟨omM, ge, hom1, hrest, hge⟩ := forall₂_concat_left _ _ _ hrest1
  have hgo : g = o := by
    rcases hg with e | ⟨e, _⟩
    · cases e; rfl
    · cases e
  have hgeo : ge = oe := by
    rcases hge with e | ⟨e, _⟩
    · cases e; rfl
    · cases e
  subst hgo hgeo
  have helm := hI.elmM
  rw [ho, List.reduceOption_cons_of_some, List.map_cons, List.reduceOption_append,
    List.map_append] at helm
  simp only [List.reduceOption_cons_of_some, List.reduceOption_nil, List.map_cons,
    List.map_nil] at helm
  obtain ⟨x, mE1, hmE, hx, hmE1⟩ := List.map_eq_cons_iff.1 helm.symm
  obtain ⟨mM, xe, hmE1', hxe, hmM⟩ := map_some_concat _ _ _ hmE1.symm
  have hnd := hI.nodupP
  have hxeP : xe ∈ G.fE ++ (G.mE ++ G.bE) := by rw [hmE, hmE1']; simp
  have hch' : r.1.dom.children C.p = G.fE ++ x :: (mM ++ xe :: G.bE) := by
    rw [hch, hmE, hmE1']; simp
  obtain ⟨st2, hins, hnx, hchd, hpar, hmf⟩ := move_before_head r.1 C.p x xe G.fE mM G.bE hch'
    (by rw [← hch', hch]; exact hnd) (hbp xe hxeP).2
  refine ⟨r, st2, hr, ?_, ?_⟩
  · rw [hxe, ← hx]
    exact hins
  have holds : C.olds = (G.o1 ++ g :: omM) ++ ge :: G.o2 := by
    rw [hI.olds_eq, hom, hom1]; simp
  have hmono : ∀ v ∈ G.nFo ++ G.nBo, v ∈ (G.nFo ++ [n]) ++ G.nBo := by
    intro v hv
    simp only [List.mem_append, List.mem_singleton] at hv ⊢
    tauto
  have hperm : ((G.fE ++ [xe]) ++ ((x :: mM) ++ G.bE)).Perm (G.fE ++ (G.mE ++ G.bE)) := by
    rw [hmE, hmE1']
    have e1 : (G.fE ++ [xe]) ++ ((x :: mM) ++ G.bE) = G.fE ++ (xe :: ((x :: mM) ++ G.bE)) := by
      simp
    have e2 : (x :: (mM ++ [xe])) ++ G.bE = (x :: mM) ++ xe :: G.bE := by simp
    rw [e1, e2]
    exact List.Perm.append_left _ (List.perm_middle.symm)
  refine ⟨{ G with
    om := g :: omM
    o2 := ge :: G.o2
    nFo := G.nFo ++ [n]
    fE := G.fE ++ [xe]
    mE := x :: mM }, ?_⟩
  apply inv_rebuild C hC A G hI _ _ (C.p :: elmsOf C.d ge) (strictElmsOf C.d ge)
    (elmsOf C.d ge)
  · exact patch_move_frame C A r st2 ge hf hmf
  · intro y hy
    rcases List.mem_cons.1 hy with e | e
    · rw [e]; exact List.mem_cons_self _ _
    · exact List.mem_cons_of_mem _ (elms_subset C ge (mid_mem_olds C A G hI ge hmo) y e)
  · exact fun y hy => elms_subset C ge (mid_mem_olds C A G hI ge hmo) y
      (strict_subset_elmsOf _ _ _ hy)
  · exact elms_subset C ge (mid_mem_olds C A G hI ge hmo)
  · intro c hc
    refine ⟨by
      rw [ho]
      rcases List.mem_cons.1 hc with e | e
      · rw [e]; exact List.mem_cons_self _ _
      · exact List.mem_cons_of_mem _ (List.mem_append_left _ e), fun y hy => ?_⟩
    have hcm : c ∈ (G.o1 ++ g :: omM) ++ G.o2 := by
      apply List.mem_append_left
      apply List.mem_append_right
      rcases List.mem_cons.1 hc with e | e
      · cases e; exact List.mem_cons_self _ _
      · exact List.mem_cons_of_mem _ (mid_mem_of _ _ _ _ hrest c e)
    exact live_away C hC _ _ ge holds c hcm y hy
  · rw [holds]; simp
  · show C.news = (G.nFo ++ [n]) ++ (N ++ G.nBo)
    rw [hI.news_eq, hn]; simp
  · show (G.nFo ++ [n]).length = (A.nF ++ [r.2.2]).length
    simp [hI.lenF]
  · exact hI.lenB
  · exact hI.d1
  · exact List.Forall₂.cons (Or.inr rfl) hI.d2
  · exact List.Forall₂.cons (Or.inl rfl)
      (hrest.imp (fun s o' h => h.imp id (fun h2 => ⟨h2.1, keyMatched_mono hmono o' h2.2⟩)))
  · intro o' ho'
    simp only [List.mem_append, List.mem_cons] at ho'
    rcases ho' with e | e | e
    · exact keyMatched_mono hmono o' (hI.passed o' (List.mem_append_left _ e))
    · rw [e]; exact ⟨n, by simp, hkey.symm⟩
    · exact keyMatched_mono hmono o' (hI.passed o' (List.mem_append_right _ e))
  · intro hm s hs
    refine hI.noHoles hm s ?_
    rw [ho]
    rcases List.mem_cons.1 hs with e | e
    · rw [e]; exact List.mem_cons_self _ _
    · exact List.mem_cons_of_mem _ (List.mem_append_left _ e)
  · exact hI.mapOk
  · show st2.dom.children C.p = (G.fE ++ [xe]) ++ ((x :: mM) ++ G.bE)
    rw [hchd]; simp
  · show (A.nF ++ [r.2.2]).map (fun v => v.elm) = (G.fE ++ [xe]).map some
    simp [hI.elmF, he, hxe]
  · show (some g :: M).reduceOption.map (fun v => v.elm) = (x :: mM).map some
    rw [List.reduceOption_cons_of_some, List.map_cons, List.map_cons, ← hx, hmM]
  · exact hI.elmB
  · exact (List.Perm.nodup_iff hperm).2 hnd
  · intro y hy
    have := hbp y ((List.Perm.mem_iff hperm).1 hy)
    rw [hnx, hpar]; exact this
  · intro y hy
    exact hI.fromOld y ((List.Perm.mem_iff hperm).1 hy)
/-- Patching an old child found by its key, or by the scan, against the new start, moving
its node in front of the old start and emptying its slot keeps the invariant. -/
theorem inv_keyedMove (C : Ctx) (hC : CtxOk C) (patchV : PatchFn) (hP : PatchSpec C patchV)
    (A : Parts) (G : Ghost) (hI : LoopInv C A G) (o c n : VNode)
    (X Y : List (Option VNode)) (N : List VNode) (tr : List Action) (m : JsMap Int)
    (ho : A.oMid = some o :: (X ++ some c :: Y))
    (hn : A.nMid = n :: N) (hkey : c.key = n.key)
    (hmap : ∀ name i, m.lookup name = some i →
      ∃ o k, getAt C.olds i = some o ∧ o.key = some k ∧ propName k = name) :
    ∃ r st2, patchV A.st A.queue c n = Except.ok r ∧
      moveBefore r.1 (some C.p) c.elm o.elm = Except.ok st2 ∧
      ∃ G', LoopInv C { A with
        oMid := some o :: (X ++ none :: Y), map := some m, nF := A.nF ++ [r.2.2], nMid := N,
        st := st2, queue := r.2.1, trace := tr } G' := by
  have hmo : some c ∈ A.oMid := by rw [ho]; simp
  have hmn : n ∈ C.news := by rw [hI.news_eq, hn]; simp
  obtain ⟨r, hr, he, hf, hch, hbp⟩ := after_patch C hC patchV hP A G hI c n hmo hmn
  have hmid := hI.mid
  rw [ho] at hmid
  obtain ⟨g, om1, hg, hrest1, hom⟩ := List.forall₂_cons_left_iff.1 hmid
  obtain ⟨omX, u2, hom1, hX, hrest2⟩ := forall₂_append_left _ _ _ hrest1
  obtain ⟨gc, omY, hgc, hY, hu2⟩ := List.forall₂_cons_left_iff.1 hrest2
  have hgo : g = o := by
    rcases hg with e | ⟨e, _⟩
    · cases e; rfl
    · cases e
  have hgco : gc = c := by
    rcases hgc with e | ⟨e, _⟩
    · cases e; rfl
    · cases e
  subst hgo hgco
  have helm := hI.elmM
  rw [ho, List.reduceOption_cons_of_some, List.map_cons, List.reduceOption_append,
    List.map_append, List.reduceOption_cons_of_some, List.map_cons] at helm
  obtain ⟨x, mE1, hmE, hx, hmE1⟩ := List.map_eq_cons_iff.1 helm.symm
  obtain ⟨mX, m2, hmE1', hmX, hm2⟩ := List.map_eq_append_iff.1 hmE1
  obtain ⟨xc, mY, hm2', hxc, hmY⟩ := List.map_eq_cons_iff.1 hm2
  have hnd := hI.nodupP
  have hxcP : xc ∈ G.fE ++ (G.mE ++ G.bE) := by rw [hmE, hmE1', hm2']; simp
  have hch' : r.1.dom.children C.p = G.fE ++ x :: (mX ++ xc :: (mY ++ G.bE)) := by
    rw [hch, hmE, hmE1', hm2']; simp
  obtain ⟨st2, hins, hnx, hchd, hpar, hmf⟩ :=
    move_before_head r.1 C.p x xc G.fE mX (mY ++ G.bE) hch'
    (by rw [← hch', hch]; exact hnd) (hbp xc hxcP).2
  refine ⟨r, st2, hr, ?_, ?_⟩
  · rw [← hxc, ← hx]
    exact hins
  have holds : C.olds = (G.o1 ++ g :: omX) ++ gc :: (omY ++ G.o2) := by
    rw [hI.olds_eq, hom, hom1, hu2]; simp
  have hmono : ∀ v ∈ G.nFo ++ G.nBo, v ∈ (G.nFo ++ [n]) ++ G.nBo := by
    intro v hv
    simp only [List.mem_append, List.mem_singleton] at hv ⊢
    tauto
  have hperm : ((G.fE ++ [xc]) ++ ((x :: (mX ++ mY)) ++ G.bE)).Perm
      (G.fE ++ (G.mE ++ G.bE)) := by
    rw [hmE, hmE1', hm2']
    have e1 : (G.fE ++ [xc]) ++ ((x :: (mX ++ mY)) ++ G.bE)
        = G.fE ++ (xc :: ((x :: mX) ++ (mY ++ G.bE))) := by simp
    have e2 : (x :: (mX ++ xc :: mY)) ++ G.bE = (x :: mX) ++ xc :: (mY ++ G.bE) := by simp
    rw [e1, e2]
    exact List.Perm.append_left _ (List.perm_middle.symm)
  have hmemA : ∀ s, s ∈ some g :: (X ++ none :: Y) → s ≠ none → s ∈ A.oMid := by
    intro s hs hne
    rw [ho]
    simp only [List.mem_cons, List.mem_append] at hs ⊢
    rcases hs with e | e | e | e
    · exact Or.inl e
    · exact Or.inr (Or.inl e)
    · exact absurd e hne
    · exact Or.inr (Or.inr (Or.inr e))
  refine ⟨{ G with
    nFo := G.nFo ++ [n]
    fE := G.fE ++ [xc]
    mE := x :: (mX ++ mY) }, ?_⟩
  apply inv_rebuild C hC A G hI _ _ (C.p :: elmsOf C.d gc) (strictElmsOf C.d gc)
    (elmsOf C.d gc)
  · exact patch_move_frame C A r st2 gc hf hmf
  · intro y hy
    rcases List.mem_cons.1 hy with e | e
    · rw [e]; exact List.mem_cons_self _ _
    · exact List.mem_cons_of_mem _ (elms_subset C gc (mid_mem_olds C A G hI gc hmo) y e)
  · exact fun y hy => elms_subset C gc (mid_mem_olds C A G hI gc hmo) y
      (strict_subset_elmsOf _ _ _ hy)
  · exact elms_subset C gc (mid_mem_olds C A G hI gc hmo)
  · intro c' hc
    refine ⟨hmemA _ hc (by simp), fun y hy => ?_⟩
    have hcm : c' ∈ (G.o1 ++ g :: omX) ++ (omY ++ G.o2) := by
      simp only [List.mem_cons, List.mem_append] at hc
      rcases hc with e | e | e | e
      · cases e; simp
      · have := mid_mem_of _ _ _ _ hX c' e
        simp [this]
      · cases e
      · have := mid_mem_of _ _ _ _ hY c' e
        simp [this]
    exact live_away C hC _ _ gc holds c' hcm y hy
  · show C.olds = G.o1 ++ (G.om ++ G.o2)
    exact hI.olds_eq
  · show C.news = (G.nFo ++ [n]) ++ (N ++ G.nBo)
    rw [hI.news_eq, hn]; simp
  · show (G.nFo ++ [n]).length = (A.nF ++ [r.2.2]).length
    simp [hI.lenF]
  · exact hI.lenB
  · exact hI.d1
  · exact hI.d2
  · show List.Forall₂ _ (some g :: (X ++ none :: Y)) G.om
    rw [hom, hom1, hu2]
    refine List.Forall₂.cons (Or.inl rfl) (forall₂_append ?_ (List.Forall₂.cons ?_ ?_))
    · exact hX.imp (fun s o' h => h.imp id (fun h2 => ⟨h2.1, keyMatched_mono hmono o' h2.2⟩))
    · exact Or.inr ⟨rfl, n, by simp, hkey.symm⟩
    · exact hY.imp (fun s o' h => h.imp id (fun h2 => ⟨h2.1, keyMatched_mono hmono o' h2.2⟩))
  · intro o' ho'
    exact keyMatched_mono hmono o' (hI.passed o' ho')
  · intro hm
    cases hm
  · intro m' hm'
    cases hm'
    exact hmap
  · show st2.dom.children C.p = (G.fE ++ [xc]) ++ ((x :: (mX ++ mY)) ++ G.bE)
    rw [hchd]; simp
  · show (A.nF ++ [r.2.2]).map (fun v => v.elm) = (G.fE ++ [xc]).map some
    simp [hI.elmF, he, hxc]
  · show (some g :: (X ++ none :: Y)).reduceOption.map (fun v => v.elm)
      = (x :: (mX ++ mY)).map some
    rw [List.reduceOption_cons_of_some, List.reduceOption_append,
      List.reduceOption_cons_of_none, List.map_cons, List.map_cons, List.map_append,
      List.map_append, ← hx, hmX, hmY]
  · exact hI.elmB
  · exact (List.Perm.nodup_iff hperm).2 hnd
  · intro y hy
    have := hbp y ((List.Perm.mem_iff hperm).1 hy)
    rw [hnx, hpar]; exact this
  · intro y hy
    exact hI.fromOld y ((List.Perm.mem_iff hperm).1 hy)

/-- Creating the new start in front of the old start keeps the invariant. -/
theorem inv_keyedCreate (C : Ctx) (hC : CtxOk C) (createE : CreateFn)
    (hCr : CreateSpec C.news createE)
    (A : Parts) (G : Ghost) (hI : LoopInv C A G) (o n : VNode)
    (M : List (Option VNode)) (N : List VNode) (tr : List Action) (m : JsMap Int)
    (ho : A.oMid = some o :: M) (hn : A.nMid = n :: N)
    (hmap : ∀ name i, m.lookup name = some i →
      ∃ o k, getAt C.olds i = some o ∧ o.key = some k ∧ propName k = name) :
    ∃ r, createE A.st A.queue n (some C.p) o.elm false true = Except.ok r ∧
      ∃ G', LoopInv C { A with
        map := some m, nF := A.nF ++ [r.2.2], nMid := N,
        st := r.1, queue := r.2.1, trace := tr } G' := by
  have hmn : n ∈ C.news := by rw [hI.news_eq, hn]; simp
  have helm := hI.elmM
  rw [ho, List.reduceOption_cons_of_some, List.map_cons] at helm
  obtain ⟨x, mE', hmE, hx, hmE'⟩ := List.map_eq_cons_iff.1 helm.symm
  have hnd := hI.nodupP
  have hxP : x ∈ G.fE ++ (G.mE ++ G.bE) := by rw [hmE]; simp
  have hp : C.p < A.st.dom.next :=
    Nat.lt_of_lt_of_le (hC.bound C.p (List.mem_cons_self _ _)) hI.frame.next_le
  obtain ⟨r, x', hr, he, hfresh, hlt, hchd, hpar, hf⟩ :=
    hCr A.st A.queue n C.p o.elm hmn hp
      (Or.inr ⟨x, hx.symm, (hI.boundP x hxP).2, by rw [hI.dom_children]; exact hxP,
        (hI.boundP x hxP).1⟩)
  refine ⟨r, hr, ?_⟩
  have hxfE : x ∉ G.fE := by
    rw [hmE] at hnd
    intro hmem
    exact (List.nodup_append.1 hnd).2.2 hmem (by simp)
  have hx'P : x' ∉ G.fE ++ (G.mE ++ G.bE) := by
    intro hm
    have := (hI.boundP x' hm).1
    omega
  have hmono : ∀ v ∈ G.nFo ++ G.nBo, v ∈ (G.nFo ++ [n]) ++ G.nBo := by
    intro v hv
    simp only [List.mem_append, List.mem_singleton] at hv ⊢
    tauto
  have hperm : ((G.fE ++ [x']) ++ (G.mE ++ G.bE)).Perm (x' :: (G.fE ++ (G.mE ++ G.bE))) := by
    have e1 : (G.fE ++ [x']) ++ (G.mE ++ G.bE) = G.fE ++ x' :: (G.mE ++ G.bE) := by simp
    rw [e1]
    exact List.perm_middle
  refine ⟨{ G with
    nFo := G.nFo ++ [n]
    fE := G.fE ++ [x'] }, ?_⟩
  apply inv_rebuild C hC A G hI _ _ [C.p] [] []
  · exact hf
  · intro y hy
    rw [List.mem_singleton.1 hy]; exact List.mem_cons_self _ _
  · intro y hy; cases hy
  · intro y hy; cases hy
  · intro c hc
    refine ⟨hc, fun y hy => ⟨?_, by simp, by simp⟩⟩
    intro e
    rw [List.mem_singleton.1 e] at hy
    exact ctx_p_notin C hC c (mid_mem_olds C A G hI c hc) hy
  · exact hI.olds_eq
  · show C.news = (G.nFo ++ [n]) ++ (N ++ G.nBo)
    rw [hI.news_eq, hn]; simp
  · show (G.nFo ++ [n]).length = (A.nF ++ [r.2.2]).length
    simp [hI.lenF]
  · exact hI.lenB
  · exact hI.d1
  · exact hI.d2
  · exact hI.mid.imp
      (fun s o' h => h.imp id (fun h2 => ⟨h2.1, keyMatched_mono hmono o' h2.2⟩))
  · intro o' ho'
    exact keyMatched_mono hmono o' (hI.passed o' ho')
  · intro hm
    cases hm
  · intro m' hm'
    cases hm'
    exact hmap
  · show r.1.dom.children C.p = (G.fE ++ [x']) ++ (G.mE ++ G.bE)
    rw [hchd, ← hx, hI.dom_children, hmE]
    show nodeOps.insertBeforeL x' x (G.fE ++ ((x :: mE') ++ G.bE)) = _
    have e1 : G.fE ++ ((x :: mE') ++ G.bE) = G.fE ++ x :: (mE' ++ G.bE) := by simp
    rw [e1, insertBeforeL_boundary x' x G.fE _ hxfE]
    simp
  · show (A.nF ++ [r.2.2]).map (fun v => v.elm) = (G.fE ++ [x']).map some
    simp [hI.elmF, he]
  · exact hI.elmM
  · exact hI.elmB
  · exact (List.Perm.nodup_iff hperm).2 (List.nodup_cons.2 ⟨hx'P, hnd⟩)
  · intro y hy
    rcases List.mem_cons.1 ((List.Perm.mem_iff hperm).1 hy) with e | e
    · rw [e]; exact ⟨hlt, hpar⟩
    · obtain ⟨h1, h2⟩ := hI.boundP y e
      refine ⟨Nat.lt_of_lt_of_le h1 hf.next_le, ?_⟩
      rw [hf.parent_eq y h1 (by simp) (by simp), h2]
  · intro y hy
    rcases List.mem_cons.1 ((List.Perm.mem_iff hperm).1 hy) with e | e
    · right
      rw [e]
      exact Nat.le_trans hI.frame.next_le hfresh
    · exact hI.fromOld y e
/-! ## The lookups of the keyed branch -/

theorem forall₂_get_left {α β : Type} {R : α → β → Prop} {l : List α} {u : List β}
    (h : List.Forall₂ R l u) : ∀ (k : Nat) (s : α), l.get? k = some s →
      ∃ o, u.get? k = some o ∧ R s o := by
  induction h with
  | nil => intro k s hs; cases hs
  | cons hr _ ih =>
    intro k s hs
    cases k with
    | zero =>
      simp only [List.get?_cons_zero, Option.some.injEq] at hs
      subst hs
      exact ⟨_, rfl, hr⟩
    | succ k => exact ih k s hs

theorem forall₂_get_right {α β : Type} {R : α → β → Prop} {l : List α} {u : List β}
    (h : List.Forall₂ R l u) : ∀ (k : Nat) (o : β), u.get? k = some o →
      ∃ s, l.get? k = some s ∧ R s o := by
  induction h with
  | nil => intro k s hs; cases hs
  | cons hr _ ih =>
    intro k s hs
    cases k with
    | zero =>
      simp only [List.get?_cons_zero, Option.some.injEq] at hs
      subst hs
      exact ⟨_, rfl, hr⟩
    | succ k => exact ih k s hs

theorem get?_split {α : Type} : ∀ (l : List α) (k : Nat) (a : α), l.get? k = some a →
    ∃ P Q, l = P ++ a :: Q ∧ P.length = k := by
  intro l
  induction l with
  | nil => intro k a h; cases h
  | cons b t ih =>
    intro k a h
    cases k with
    | zero =>
      simp only [List.get?_cons_zero, Option.some.injEq] at h
      subst h
      exact ⟨[], t, rfl, rfl⟩
    | succ k =>
      obtain ⟨P, Q, e, hl⟩ := ih k a h
      exact ⟨b :: P, Q, by rw [e]; rfl, by simp [hl]⟩

theorem getAt_eq_get? {α : Type} (xs : List α) (k : Nat) : getAt xs (k : Int) = xs.get? k := by
  unfold getAt
  simp

theorem getAt_some_nat {α : Type} (xs : List α) (i : Int) (a : α) (h : getAt xs i = some a) :
    ∃ k : Nat, i = (k : Int) ∧ xs.get? k = some a := by
  unfold getAt at h
  split at h
  · cases h
  · rename_i hi
    exact ⟨i.toNat, by omega, h⟩

/-- The slots of the old array agree with the old children they were filled with. -/
theorem slots_rel (C : Ctx) (A : Parts) (G : Ghost) (hI : LoopInv C A G) :
    List.Forall₂ (fun s o => s = some o ∨ s = none) (A.oD1 ++ (A.oMid ++ A.oD2)) C.olds := by
  rw [hI.olds_eq]
  refine forall₂_append ?_ (forall₂_append ?_ ?_)
  · exact hI.d1.imp (fun s o h => h.symm)
  · exact hI.mid.imp (fun s o h => h.imp id (fun h2 => h2.1))
  · exact hI.d2.imp (fun s o h => h.symm)

theorem slots_olds (C : Ctx) (A : Parts) (G : Ghost) (hI : LoopInv C A G) (j : Int) (o : VNode)
    (h : (getAt A.toLoop.oldCh j).join = some o) : getAt C.olds j = some o := by
  cases hg : getAt A.toLoop.oldCh j with
  | none => rw [hg] at h; cases h
  | some s =>
    rw [hg] at h
    have hs : s = some o := by simpa using h
    subst hs
    obtain ⟨k, hk, hget⟩ := getAt_some_nat _ _ _ hg
    obtain ⟨o', ho', hr⟩ := forall₂_get_left (slots_rel C A G hI) k (some o) hget
    rw [hk, getAt_eq_get?, ho']
    rcases hr with e | e
    · cases e; rfl
    · cases e

/-- An old child is still in its slot inside the window, or it has met a new child with
its key. -/
theorem slot_or_matched (C : Ctx) (A : Parts) (G : Ghost) (hI : LoopInv C A G) (i : Int)
    (o : VNode) (h : getAt C.olds i = some o) :
    (∃ P Q, A.oMid = P ++ some o :: Q ∧ i = (A.oD1.length : Int) + (P.length : Int)) ∨
      KeyMatched G.nFo G.nBo o := by
  obtain ⟨k, hk, hget⟩ := getAt_some_nat _ _ _ h
  obtain ⟨U, V, hUV, hlen⟩ := get?_split _ _ _ hget
  rw [hI.olds_eq] at hget
  by_cases h1 : k < G.o1.length
  · right
    rw [List.get?_eq_getElem?, List.getElem?_append_left h1] at hget
    exact hI.passed o (List.mem_append_left _ (List.getElem?_mem hget))
  · rw [List.get?_eq_getElem?, List.getElem?_append_right (by omega)] at hget
    by_cases h2 : k - G.o1.length < G.om.length
    · rw [List.getElem?_append_left h2, ← List.get?_eq_getElem?] at hget
      obtain ⟨s, hs, hr⟩ := forall₂_get_right hI.mid _ _ hget
      rcases hr with e | ⟨_, e⟩
      · left
        subst e
        obtain ⟨P, Q, e1, e2⟩ := get?_split _ _ _ hs
        refine ⟨P, Q, e1, ?_⟩
        have := hI.d1.length_eq
        omega
      · right; exact e
    · right
      rw [List.getElem?_append_right (by omega)] at hget
      exact hI.passed o (List.mem_append_right _ (List.getElem?_mem hget))

theorem key_clash (C : Ctx) (hK : KeysOk C) (A : Parts) (G : Ghost) (hI : LoopInv C A G)
    (n : VNode) (N : List VNode) (hn : A.nMid = n :: N) (key : Key) (hk : n.key = some key)
    (o : VNode) (k2 : Key) (ho : o.key = some k2) (hp : propName k2 = propName key)
    (hm : KeyMatched G.nFo G.nBo o) : False := by
  obtain ⟨n2, hn2, hkey⟩ := hm
  have hnd := hK.keysNodup
  rw [hI.news_eq, hn] at hnd
  have e : G.nFo ++ (n :: N ++ G.nBo) = G.nFo ++ n :: (N ++ G.nBo) := by simp
  rw [e, List.filterMap_append, List.filterMap_cons_some hk, List.map_append,
    List.map_cons] at hnd
  have hmem : ∀ l : List VNode, n2 ∈ l →
      propName key ∈ (l.filterMap (fun n => n.key)).map propName := by
    intro l hl
    refine List.mem_map.2 ⟨k2, List.mem_filterMap.2 ⟨n2, hl, by rw [hkey, ho]⟩, hp⟩
  have hnd2 := List.nodup_append.1 hnd
  rcases List.mem_append.1 hn2 with h1 | h1
  · exact hnd2.2.2 (hmem _ h1) (List.mem_cons_self _ _)
  · have := (List.nodup_cons.1 hnd2.2.1).1
    apply this
    rw [List.filterMap_append, List.map_append]
    exact List.mem_append_right _ (hmem _ h1)
theorem createKeyToOldIdxLoop_spec (children : List (Option VNode)) :
    ∀ (count : Nat) (i : Int) (map : JsMap Int),
      (∀ k : Nat, k < count → ∃ c, (getAt children (i + (k : Int))).join = some c) →
      ∃ m, createKeyToOldIdxLoop children count i map = Except.ok m ∧
        ∀ name j, m.lookup name = some j →
          map.lookup name = some j ∨
            ∃ c key, (getAt children j).join = some c ∧ c.key = some key ∧
              propName key = name := by
  intro count
  induction count with
  | zero => intro i map _; exact ⟨map, rfl, fun name j h => Or.inl h⟩
  | succ count ih =>
    intro i map hdef
    obtain ⟨c, hc⟩ := hdef 0 (Nat.succ_pos _)
    simp only [Nat.cast_zero, add_zero] at hc
    have hdef' : ∀ k : Nat, k < count →
        ∃ c, (getAt children (i + 1 + (k : Int))).join = some c := by
      intro k hk
      obtain ⟨c', hc'⟩ := hdef (k + 1) (by omega)
      refine ⟨c', ?_⟩
      rw [← hc']
      congr 2
      push_cast
      ring
    unfold createKeyToOldIdxLoop
    rw [hc]
    simp only
    cases hkey : c.key with
    | none =>
      simp only
      exact ih (i + 1) map hdef'
    | some key =>
      simp only
      obtain ⟨m, hm, hspec⟩ := ih (i + 1) (map.set (propName key) i) hdef'
      refine ⟨m, hm, fun name j hl => ?_⟩
      rcases hspec name j hl with h1 | h1
      · unfold JsMap.set at h1
        split at h1
        · exact Or.inl h1
        · rw [List.lookup_cons] at h1
          by_cases e : (name == propName key) = true
          · rw [e] at h1
            simp only [Option.some.injEq] at h1
            right
            refine ⟨c, key, by rw [← h1]; exact hc, hkey, ?_⟩
            exact (beq_iff_eq.1 e).symm
          · simp only [e] at h1
            exact Or.inl h1
      · exact Or.inr h1

theorem sameVnodeAt_swap (E : Env) (a b : VNode) (ha : a.isAsyncPlaceholder = false)
    (hb : b.isAsyncPlaceholder = false) :
    sameVnodeAt E (some a) (some b) = sameVnodeAt E (some b) (some a) := by
  unfold sameVnodeAt
  simp only
  rw [sameVnode_swap E.isTextInputType a b ha hb]

theorem findIdxInOldLoop_spec (E : Env) (node : VNode) (oldCh : List (Option VNode))
    (hn : node.isAsyncPlaceholder = false) :
    ∀ (count : Nat) (i : Int),
      ∃ r, findIdxInOldLoop E node oldCh count i = Except.ok r ∧
        (r = none ∨ ∃ j c, r = some j ∧ i ≤ j ∧ j < i + (count : Int) ∧
          (getAt oldCh j).join = some c ∧
          sameVnodeAt E (some node) (some c) = Except.ok true) := by
  intro count
  induction count with
  | zero => intro i; exact ⟨none, rfl, Or.inl rfl⟩
  | succ count ih =>
    intro i
    have hrec : ∃ r, findIdxInOldLoop E node oldCh count (i + 1) = Except.ok r ∧
        (r = none ∨ ∃ j c, r = some j ∧ i ≤ j ∧ j < i + ((count + 1 : Nat) : Int) ∧
          (getAt oldCh j).join = some c ∧
          sameVnodeAt E (some node) (some c) = Except.ok true) := by
      obtain ⟨r, hr, hspec⟩ := ih (i + 1)
      refine ⟨r, hr, ?_⟩
      rcases hspec with h | ⟨j, c, h1, h2, h3, h4, h5⟩
      · exact Or.inl h
      · exact Or.inr ⟨j, c, h1, by omega, by push_cast; omega, h4, h5⟩
    unfold findIdxInOldLoop
    cases hc : (getAt oldCh i).join with
    | none => simp only; exact hrec
    | some c =>
      simp only
      obtain ⟨b, hb, _⟩ := sameVnodeAt_total E node c hn
      rw [hb]
      cases b with
      | true =>
        simp only [bind, Except.bind, pure, Except.pure, if_true]
        exact ⟨some i, rfl, Or.inr ⟨i, c, rfl, le_refl _, by push_cast; omega, hc, hb⟩⟩
      | false =>
        simp only [bind, Except.bind, pure, Except.pure]
        exact hrec

theorem window_get (A : Parts) (k : Nat) (hk : k < A.oMid.length) :
    getAt A.toLoop.oldCh ((A.oD1.length : Int) + (k : Int)) = A.oMid.get? k := by
  show getAt (A.oD1 ++ (A.oMid ++ A.oD2)) _ = _
  have : ((A.oD1.length : Int) + (k : Int)) = ((A.oD1.length + k : Nat) : Int) := by
    push_cast; rfl
  rw [this, getAt_eq_get?, List.get?_eq_getElem?, List.getElem?_append_right (by omega),
    List.getElem?_append_left (by omega), List.get?_eq_getElem?]
  congr 1
  omega

theorem window_split (A : Parts) (j : Int) (c : VNode)
    (h1 : (A.oD1.length : Int) ≤ j) (h2 : j < (A.oD1.length : Int) + (A.oMid.length : Int))
    (hc : (getAt A.toLoop.oldCh j).join = some c) :
    ∃ P Q, A.oMid = P ++ some c :: Q ∧ j = (A.oD1.length : Int) + (P.length : Int) := by
  obtain ⟨k, hk⟩ : ∃ k : Nat, j = (A.oD1.length : Int) + (k : Int) :=
    ⟨(j - A.oD1.length).toNat, by omega⟩
  have hkl : k < A.oMid.length := by omega
  rw [hk, window_get A k hkl] at hc
  cases hg : A.oMid.get? k with
  | none => rw [hg] at hc; cases hc
  | some s =>
    rw [hg] at hc
    have hs : s = some c := by simpa using hc
    subst hs
    obtain ⟨P, Q, e1, e2⟩ := get?_split _ _ _ hg
    exact ⟨P, Q, e1, by rw [hk, e2]⟩

theorem window_at (A : Parts) (P Q : List (Option VNode)) (s : Option VNode)
    (h : A.oMid = P ++ s :: Q) :
    (getAt A.toLoop.oldCh ((A.oD1.length : Int) + (P.length : Int))).join = s := by
  rw [window_get A P.length (by rw [h]; simp), h, List.get?_eq_getElem?,
    List.getElem?_append_right (le_refl _)]
  simp

theorem ends_split {α : Type} (l M Mi P Q : List α) (a b c : α)
    (h1 : l = a :: M) (h2 : l = Mi ++ [b]) (h3 : l = P ++ c :: Q)
    (hP : P ≠ []) (hQ : Q ≠ []) :
    ∃ X Y, l = a :: (X ++ c :: (Y ++ [b])) ∧ P = a :: X := by
  cases P with
  | nil => exact absurd rfl hP
  | cons p0 X =>
    rcases List.eq_nil_or_concat Q with e | ⟨Y, q, e⟩
    · exact absurd e hQ
    · rw [List.concat_eq_append] at e
      subst e
      have ha : p0 = a := by
        rw [h1] at h3
        simp only [List.cons_append, List.cons.injEq] at h3
        exact h3.1.symm
      have hb : q = b := by
        rw [h2] at h3
        have e : (p0 :: X) ++ c :: (Y ++ [q]) = ((p0 :: X) ++ c :: Y) ++ [q] := by simp
        rw [e] at h3
        have := List.append_inj_right' h3 rfl
        simp only [List.cons.injEq, and_true] at this
        exact this.symm
      subst ha hb
      exact ⟨X, Y, h3, rfl⟩
theorem found_inner (E : Env) (l M Mi P Q : List (Option VNode)) (o oe c n : VNode)
    (ho : l = some o :: M) (hoe : l = Mi ++ [some oe]) (hc : l = P ++ some c :: Q)
    (h1 : sameVnodeAt E (some o) (some n) = Except.ok false)
    (h4 : sameVnodeAt E (some oe) (some n) = Except.ok false)
    (ht : sameVnodeAt E (some c) (some n) = Except.ok true) :
    ∃ X Y, l = some o :: (X ++ some c :: (Y ++ [some oe])) ∧ P = some o :: X := by
  have hP : P ≠ [] := by
    intro e
    subst e
    rw [ho] at hc
    simp only [List.nil_append, List.cons.injEq, Option.some.injEq] at hc
    rw [hc.1, ht] at h1
    cases h1
  have hQ : Q ≠ [] := by
    intro e
    subst e
    rw [hoe] at hc
    have := List.append_inj_right' hc rfl
    simp only [List.cons.injEq, Option.some.injEq, and_true] at this
    rw [this, ht] at h4
    cases h4
  exact ends_split l M Mi P Q (some o) (some oe) (some c) ho hoe hc hP hQ

/-- The two lookups of the keyed branch return, and what they return. -/
theorem keyed_lookup (C : Ctx) (hC : CtxOk C) (hK : KeysOk C) (A : Parts) (G : Ghost) (hI : LoopInv C A G)
    (o oe n : VNode) (M Mi : List (Option VNode)) (N : List VNode)
    (ho : A.oMid = some o :: M) (hoe : A.oMid = Mi ++ [some oe]) (hn : A.nMid = n :: N)
    (h1 : sameVnodeAt C.E (some o) (some n) = Except.ok false)
    (h4 : sameVnodeAt C.E (some oe) (some n) = Except.ok false) :
    ∃ m idx,
      (match A.map with
        | some m => pure m
        | none => createKeyToOldIdx A.toLoop.oldCh A.toLoop.oldStartIdx A.toLoop.oldEndIdx)
          = Except.ok m ∧
      (∀ name i, m.lookup name = some i →
        ∃ o k, getAt C.olds i = some o ∧ o.key = some k ∧ propName k = name) ∧
      (match n.key with
        | some key => pure (m.get (propName key))
        | none => do
          let r ← findIdxInOld C.E n A.toLoop.oldCh A.toLoop.oldStartIdx A.toLoop.oldEndIdx
          pure (match r with
            | some i => Lookup.own i
            | none => Lookup.undef)) = Except.ok idx ∧
      (idx = Lookup.undef ∨
        (∃ i, idx = Lookup.own i ∧
          sameVnodeAt C.E (getAt A.toLoop.oldCh i).join (some n) = Except.ok false) ∨
        (∃ i c X Y, idx = Lookup.own i ∧
          A.oMid = some o :: (X ++ some c :: (Y ++ [some oe])) ∧
          i = (A.oD1.length : Int) + 1 + (X.length : Int) ∧
          sameVnodeAt C.E (some c) (some n) = Except.ok true)) := by
  have hmn : n ∈ C.news := by rw [hI.news_eq, hn]; simp
  -- the table
  have hm : ∃ m, (match A.map with
        | some m => pure m
        | none => createKeyToOldIdx A.toLoop.oldCh A.toLoop.oldStartIdx A.toLoop.oldEndIdx)
          = Except.ok m ∧
      (∀ name i, m.lookup name = some i →
        ∃ o k, getAt C.olds i = some o ∧ o.key = some k ∧ propName k = name) := by
    cases hmap : A.map with
    | some m => exact ⟨m, rfl, hI.mapOk m hmap⟩
    | none =>
      simp only
      unfold createKeyToOldIdx
      have hcount : (A.toLoop.oldEndIdx - A.toLoop.oldStartIdx + 1).toNat = A.oMid.length := by
        show ((A.oD1.length : Int) + (A.oMid.length : Int) - 1 - (A.oD1.length : Int) + 1).toNat
          = A.oMid.length
        omega
      rw [hcount]
      obtain ⟨m, hm, hspec⟩ := createKeyToOldIdxLoop_spec A.toLoop.oldCh A.oMid.length
        A.toLoop.oldStartIdx [] (by
          intro k hk
          show ∃ c, (getAt A.toLoop.oldCh ((A.oD1.length : Int) + (k : Int))).join = some c
          rw [window_get A k hk]
          cases hg : A.oMid.get? k with
          | none =>
            rw [List.get?_eq_none] at hg
            omega
          | some s =>
            cases s with
            | none => exact absurd rfl (hI.noHoles hmap none (List.get?_mem hg))
            | some c => exact ⟨c, rfl⟩)
      refine ⟨m, hm, fun name i hl => ?_⟩
      rcases hspec name i hl with h | ⟨c, key, hc, hk, hp⟩
      · cases h
      · exact ⟨c, key, slots_olds C A G hI i c hc, hk, hp⟩
  obtain ⟨m, hm1, hm2⟩ := hm
  refine ⟨m, ?_⟩
  -- what a defined slot with the key or the shape of the new child gives
  have hfound : ∀ (P Q : List (Option VNode)) (c : VNode), A.oMid = P ++ some c :: Q →
      (sameVnodeAt C.E (getAt A.toLoop.oldCh ((A.oD1.length : Int) + (P.length : Int))).join
          (some n) = Except.ok false) ∨
        (∃ i c X Y, Lookup.own ((A.oD1.length : Int) + (P.length : Int)) = Lookup.own i ∧
          A.oMid = some o :: (X ++ some c :: (Y ++ [some oe])) ∧
          i = (A.oD1.length : Int) + 1 + (X.length : Int) ∧
          sameVnodeAt C.E (some c) (some n) = Except.ok true) := by
    intro P Q c hc
    have hcm : some c ∈ A.oMid := by rw [hc]; simp
    obtain ⟨b, hb, _⟩ := sameVnodeAt_total C.E c n
      (hC.oldAsync c (mid_mem_olds C A G hI c hcm))
    rw [window_at A P Q (some c) hc]
    cases b with
    | false => exact Or.inl hb
    | true =>
      right
      obtain ⟨X, Y, e1, e2⟩ := found_inner C.E A.oMid M Mi P Q o oe c n ho hoe hc h1 h4 hb
      refine ⟨_, c, X, Y, rfl, e1, ?_, hb⟩
      rw [e2, List.length_cons]
      push_cast
      ring
  cases hk : n.key with
  | some key =>
    refine ⟨m.get (propName key), hm1, hm2, rfl, ?_⟩
    unfold JsMap.get
    cases hl : m.lookup (propName key) with
    | none =>
      simp only
      rw [if_neg (hK.keysProto n hmn key hk)]
      exact Or.inl rfl
    | some i =>
      simp only
      right
      obtain ⟨o', k', ho', hk', hp⟩ := hm2 _ i hl
      rcases slot_or_matched C A G hI i o' ho' with ⟨P, Q, e1, e2⟩ | hmatched
      · rw [e2]
        rcases hfound P Q o' e1 with h | h
        · exact Or.inl ⟨_, rfl, h⟩
        · exact Or.inr h
      · exact (key_clash C hK A G hI n N hn key hk o' k' hk' hp hmatched).elim
  | none =>
    simp only
    unfold findIdxInOld
    obtain ⟨r, hr, hspec⟩ := findIdxInOldLoop_spec C.E n A.toLoop.oldCh
      (hC.newAsync n hmn) (A.toLoop.oldEndIdx - A.toLoop.oldStartIdx).toNat
      A.toLoop.oldStartIdx
    rw [hr]
    simp only [bind, Except.bind, pure, Except.pure]
    refine ⟨_, hm1, hm2, rfl, ?_⟩
    rcases hspec with e | ⟨j, c, e, hj1, hj2, hc, hs⟩
    · subst e; exact Or.inl rfl
    · subst e
      right
      have hj1' : (A.oD1.length : Int) ≤ j := hj1
      have hj2' : j < (A.oD1.length : Int) +
          (((A.oD1.length : Int) + (A.oMid.length : Int) - 1 - (A.oD1.length : Int)).toNat : Int) :=
        hj2
      obtain ⟨P, Q, e1, e2⟩ := window_split A j c hj1' (by omega) hc
      have hcm : some c ∈ A.oMid := by rw [e1]; simp
      have hs' : sameVnodeAt C.E (some c) (some n) = Except.ok true := by
        rw [sameVnodeAt_swap C.E c n (hC.oldAsync c (mid_mem_olds C A G hI c hcm))
          (hC.newAsync n hmn)]
        exact hs
      simp only
      rw [e2]
      rcases hfound P Q c e1 with h | h
      · rw [window_at A P Q (some c) e1, hs'] at h
        cases h
      · exact Or.inr h
/-! ## One iteration of the loop -/

theorem inv_trace (C : Ctx) (A : Parts) (G : Ghost) (hI : LoopInv C A G) (t : List Action) :
    LoopInv C { A with trace := t } G :=
  ⟨hI.olds_eq, hI.news_eq, hI.lenF, hI.lenB, hI.d1, hI.d2, hI.mid, hI.passed, hI.noHoles,
    hI.mapOk, hI.dom_children, hI.elmF, hI.elmM, hI.elmB, hI.nodupP, hI.boundP, hI.fromOld,
    hI.live, hI.frame⟩

/-- While both windows are non-empty an iteration returns, keeps the invariant and makes
the windows shorter. -/
theorem step_progress (C : Ctx) (hC : CtxOk C) (hK : KeysOk C) (patchV : PatchFn)
    (createE : CreateFn)
    (hP : PatchSpec C patchV) (hCr : CreateSpec C.news createE)
    (A : Parts) (G : Ghost) (hI : LoopInv C A G) (hOld : A.oMid ≠ []) (hNew : A.nMid ≠ []) :
    ∃ A' G', updateChildrenStep C.E patchV createE (some C.p) true A.toLoop
        = Except.ok A'.toLoop ∧
      LoopInv C A' G' ∧
      A'.oMid.length + A'.nMid.length < A.oMid.length + A.nMid.length := by
  obtain ⟨s, M, ho⟩ := List.exists_cons_of_ne_nil hOld
  obtain ⟨ns, N, hn⟩ := List.exists_cons_of_ne_nil hNew
  cases s with
  | none =>
    obtain ⟨G', hG'⟩ := inv_skipStart C hC A G hI M ho
    exact ⟨_, G', step_skipStart C.E patchV createE (some C.p) true A M ho, hG', by
      simp only [ho, List.length_cons, List.length_append, List.length_singleton,
        List.length_nil]
      omega⟩
  | some o =>
    have hso := toLoop_oldStart A (some o) M ho
    rcases List.eq_nil_or_concat A.oMid with e | ⟨Mi, t, hoe⟩
    · exact absurd e hOld
    rw [List.concat_eq_append] at hoe
    cases t with
    | none =>
      obtain ⟨G', hG'⟩ := inv_skipEnd C hC A G hI Mi hoe
      exact ⟨_, G', step_skipEnd C.E patchV createE (some C.p) true A o Mi hso hoe, hG', by
      simp only [hoe, List.length_cons, List.length_append, List.length_singleton,
        List.length_nil]
      omega⟩
    | some oe =>
      have hsoe := toLoop_oldEnd A (some oe) Mi hoe
      rcases List.eq_nil_or_concat A.nMid with e | ⟨Ni, ne, hne⟩
      · exact absurd e hNew
      rw [List.concat_eq_append] at hne
      have hns' := toLoop_newStart A ns N hn
      have hne' := toLoop_newEnd A ne Ni hne
      have hom : some o ∈ A.oMid := by rw [ho]; simp
      have hoem : some oe ∈ A.oMid := by rw [hoe]; simp
      have hoa := hC.oldAsync o (mid_mem_olds C A G hI o hom)
      have hoea := hC.oldAsync oe (mid_mem_olds C A G hI oe hoem)
      obtain ⟨b1, hb1, hk1⟩ := sameVnodeAt_total C.E o ns hoa
      cases b1 with
      | true =>
        obtain ⟨r, hr, G', hG'⟩ := inv_matchStart C hC patchV hP A G hI o ns M N
          (A.trace ++ [Action.patch A.oD1.length A.nF.length]) ho hn (hk1 rfl)
        exact ⟨_, G', step_matchStart C.E patchV createE (some C.p) true A o oe M ns N r ho
          hsoe hn hb1 hr, hG', by
      simp only [ho, hn, List.length_cons, List.length_append, List.length_singleton,
        List.length_nil]
      omega⟩
      | false =>
        obtain ⟨b2, hb2, hk2⟩ := sameVnodeAt_total C.E oe ne hoea
        cases b2 with
        | true =>
          obtain ⟨r, hr, G', hG'⟩ := inv_matchEnd C hC patchV hP A G hI oe ne Mi Ni
            (A.trace ++ [Action.patch ((A.oD1.length : Int) + (A.oMid.length : Int) - 1)
              ((A.nF.length : Int) + (A.nMid.length : Int) - 1)]) hoe hne (hk2 rfl)
          exact ⟨_, G', step_matchEnd C.E patchV createE (some C.p) true A o oe Mi ns ne Ni r
            hso hoe hns' hne hb1 hb2 hr, hG', by
      simp only [hoe, hne, List.length_cons, List.length_append, List.length_singleton,
        List.length_nil]
      omega⟩
        | false =>
          obtain ⟨b3, hb3, hk3⟩ := sameVnodeAt_total C.E o ne hoa
          cases b3 with
          | true =>
            obtain ⟨r, st2, hr, hmv, href, G', hG'⟩ := inv_moveRight C hC patchV hP A G hI
              o oe ne M Mi Ni [] ho hoe hne (hk3 rfl)
            exact ⟨_, G', step_moveRight C.E patchV createE (some C.p) true A o oe M ns ne Ni
              r st2 ho hsoe hns' hne hb1 hb2 hb3 hr (by rw [if_pos rfl]; exact hmv),
              inv_trace C _ G' hG' _, by
      simp only [ho, hne, List.length_cons, List.length_append, List.length_singleton,
        List.length_nil]
      omega⟩
          | false =>
            obtain ⟨b4, hb4, hk4⟩ := sameVnodeAt_total C.E oe ns hoea
            cases b4 with
            | true =>
              have hM : M ≠ [] := by
                intro e
                subst e
                rw [ho] at hoe
                have hoe' : [] ++ [some o] = Mi ++ [some oe] := hoe
                have := List.append_inj_right' hoe' rfl
                simp only [List.cons.injEq, Option.some.injEq, and_true] at this
                rw [this, hb4] at hb1
                cases hb1
              rcases List.eq_nil_or_concat M with e | ⟨M', t, hM'⟩
              · exact absurd e hM
              rw [List.concat_eq_append] at hM'
              have ht : t = some oe := by
                rw [ho, hM'] at hoe
                have e : some o :: (M' ++ [t]) = (some o :: M') ++ [t] := by simp
                rw [e] at hoe
                have := List.append_inj_right' hoe rfl
                simpa using this
              subst ht
              have ho2 : A.oMid = some o :: (M' ++ [some oe]) := by rw [ho, hM']
              obtain ⟨r, st2, hr, hmv, G', hG'⟩ := inv_moveLeft C hC patchV hP A G hI
                o oe ns M' N
                (A.trace ++ [Action.patch ((A.oD1.length : Int) + (A.oMid.length : Int) - 1)
                    (A.nF.length : Int)] ++
                  (if true = true then [Action.move oe.elm o.elm] else []))
                ho2 hn (hk4 rfl)
              exact ⟨_, G', step_moveLeft C.E patchV createE (some C.p) true A o oe
                (some o :: M') ns ne N r st2 hso ho2 hn hne' hb1 hb2 hb3 hb4 hr
                (by rw [if_pos rfl]; exact hmv), hG', by
      simp only [ho2, hn, List.length_cons, List.length_append, List.length_singleton,
        List.length_nil]
      omega⟩
            | false =>
              have hstep := step_keyed C.E patchV createE (some C.p) true A o oe ns ne hso hsoe
                hns' hne' hb1 hb2 hb3 hb4
              obtain ⟨m, idx, hm1, hm2, hidx, hcase⟩ :=
                keyed_lookup C hC hK A G hI o oe ns M Mi N ho hoe hn hb1 hb4
              have hcreate : (idx = Lookup.undef ∨
                  ∃ i, idx = Lookup.own i ∧
                    sameVnodeAt C.E (getAt A.toLoop.oldCh i).join (some ns)
                      = Except.ok false) →
                  ∃ A' G', updateChildrenStep C.E patchV createE (some C.p) true A.toLoop
                      = Except.ok A'.toLoop ∧
                    LoopInv C A' G' ∧
                    A'.oMid.length + A'.nMid.length < A.oMid.length + A.nMid.length := by
                intro hnot
                obtain ⟨r, hr, G', hG'⟩ := inv_keyedCreate C hC createE hCr A G hI o ns M N
                  (A.trace ++ [Action.create (A.nF.length : Int)]) m ho hn hm2
                refine ⟨_, G', ?_, hG', by
      simp only [hn, List.length_cons, List.length_append, List.length_singleton,
        List.length_nil]
      omega⟩
                rw [hstep]
                exact keyed_create C.E patchV createE (some C.p) true A o m ns N idx r hm1 hn
                  hidx hnot hr
              rcases hcase with h | h | ⟨i, c, X, Y, hi, hdec, hieq, hsame⟩
              · exact hcreate (Or.inl h)
              · exact hcreate (Or.inr h)
              · subst hi
                obtain ⟨r, st2, hr, hmv, G', hG'⟩ := inv_keyedMove C hC patchV hP A G hI
                  o c ns X (Y ++ [some oe]) N
                  (A.trace ++ [Action.patch i (A.nF.length : Int)] ++
                    (if true = true then [Action.move c.elm o.elm] else []))
                  m hdec hn (sameVnodeAt_key C.E c ns hsame) hm2
                refine ⟨_, G', ?_, hG', by
      simp only [hdec, hn, List.length_cons, List.length_append, List.length_singleton,
        List.length_nil]
      omega⟩
                rw [hstep]
                exact keyed_move C.E patchV createE (some C.p) true A o c oe m X Y ns N i r st2
                  hdec hieq hm1 hn hidx hsame hr (by rw [if_pos rfl]; exact hmv)
theorem toLoop_cond (A : Parts) :
    (A.toLoop.oldStartIdx ≤ A.toLoop.oldEndIdx ∧ A.toLoop.newStartIdx ≤ A.toLoop.newEndIdx) ↔
      (A.oMid ≠ [] ∧ A.nMid ≠ []) := by
  show ((A.oD1.length : Int) ≤ (A.oD1.length : Int) + (A.oMid.length : Int) - 1 ∧
    (A.nF.length : Int) ≤ (A.nF.length : Int) + (A.nMid.length : Int) - 1) ↔ _
  rw [← List.length_pos, ← List.length_pos]
  omega

/-- The loop of `updateChildren` returns, with the invariant and one of the two windows
empty. -/
theorem loop_spec (C : Ctx) (hC : CtxOk C) (hK : KeysOk C) (patchV : PatchFn)
    (createE : CreateFn)
    (hP : PatchSpec C patchV) (hCr : CreateSpec C.news createE) :
    ∀ (fuel : Nat) (A : Parts) (G : Ghost), LoopInv C A G →
      A.oMid.length + A.nMid.length ≤ fuel →
      ∃ A' G', updateChildrenLoop C.E patchV createE (some C.p) true fuel A.toLoop
          = Except.ok A'.toLoop ∧
        LoopInv C A' G' ∧ (A'.oMid = [] ∨ A'.nMid = []) := by
  intro fuel
  induction fuel with
  | zero =>
    intro A G hI hle
    refine ⟨A, G, ?_, hI, ?_⟩
    · unfold updateChildrenLoop
      rw [if_neg]
      · rfl
      · rw [toLoop_cond]
        intro h
        have := List.length_pos.2 h.1
        omega
    · left
      exact List.length_eq_zero.1 (by omega)
  | succ fuel ih =>
    intro A G hI hle
    by_cases hc : A.oMid ≠ [] ∧ A.nMid ≠ []
    · obtain ⟨A1, G1, hstep, hI1, hlt⟩ :=
        step_progress C hC hK patchV createE hP hCr A G hI hc.1 hc.2
      obtain ⟨A2, G2, hrun, hI2, hend⟩ := ih A1 G1 hI1 (by omega)
      refine ⟨A2, G2, ?_, hI2, hend⟩
      unfold updateChildrenLoop
      rw [if_pos ((toLoop_cond A).2 hc)]
      simp only [hstep, bind, Except.bind]
      exact hrun
    · refine ⟨A, G, ?_, hI, ?_⟩
      · unfold updateChildrenLoop
        rw [if_neg (fun h => hc ((toLoop_cond A).1 h))]
        rfl
      · by_cases h1 : A.oMid = []
        · exact Or.inl h1
        · right
          by_contra h2
          exact hc ⟨h1, h2⟩
/-! ## Removing old children -/

theorem removeNode_spec (st : St) (e p : Nat) (hp : st.dom.parent e = some p)
    (hm : e ∈ st.dom.children p) :
    ∃ st', removeNode st (some e) = Except.ok st' ∧ st'.dom.next = st.dom.next ∧
      st'.dom.children = Function.update st.dom.children p ((st.dom.children p).erase e) ∧
      st'.dom.parent = Function.update st.dom.parent e none := by
  unfold removeNode nodeOps.parentNode
  simp only [hp]
  unfold nodeOps.removeChild
  rw [if_pos hm]
  exact ⟨_, rfl, rfl, rfl, rfl⟩

theorem cbsRemove_sync (E : Env)
    (h : E.modules.all (fun m => decide (m.remove ≠ some false)) = true) :
    ∀ m ∈ cbsRemove E, m.2 = true := by
  intro m hm
  unfold cbsRemove at hm
  obtain ⟨i, hi, hmi⟩ := List.mem_filterMap.1 hm
  have hlt : i < E.modules.length := List.mem_range.1 hi
  have hget : E.modules.getD i {} = E.modules[i] := by
    simp [List.getD_eq_getElem?_getD, List.getElem?_eq_getElem hlt]
  rw [hget] at hmi
  have hall := List.all_eq_true.1 h (E.modules[i]) (List.getElem_mem hlt)
  simp only [ne_eq, decide_not, Bool.not_eq_true', decide_eq_false_iff_not] at hall
  cases hr : (E.modules[i]).remove with
  | none => rw [hr] at hmi; cases hmi
  | some b =>
    rw [hr] at hmi
    simp only [Option.map_some', Option.some.injEq] at hmi
    rw [← hmi]
    cases b with
    | true => rfl
    | false => exact absurd hr hall

theorem rmFold_spec (vnode : VNode) :
    ∀ (ms : List (Nat × Bool)) (st : St) (rm : RmCb), (∀ m ∈ ms, m.2 = true) →
      (ms.length : Int) < rm.listeners →
      ∃ st', ms.foldlM
          (fun (acc : St × RmCb) (m : Nat × Bool) =>
            let s := acc.1.emit (Op.moduleHook HookName.remove m.1 vnode)
            if m.2 then RmCb.call s acc.2 else pure (s, acc.2)) (st, rm)
          = Except.ok (st', { rm with listeners := rm.listeners - (ms.length : Int) }) ∧
        st'.dom = st.dom := by
  intro ms
  induction ms with
  | nil =>
    intro st rm _ _
    refine ⟨st, ?_, rfl⟩
    simp [List.foldlM, pure, Except.pure]
  | cons m ms ih =>
    intro st rm hall hlt
    have hm : m.2 = true := hall m (List.mem_cons_self _ _)
    have hlt' : ((ms.length : Int)) < rm.listeners - 1 := by
      simp only [List.length_cons, Nat.cast_add, Nat.cast_one] at hlt
      omega
    obtain ⟨st', hst', hdom⟩ := ih (st.emit (Op.moduleHook HookName.remove m.1 vnode))
      { rm with listeners := rm.listeners - 1 }
      (fun x hx => hall x (List.mem_cons_of_mem _ hx)) hlt'
    refine ⟨st', ?_, hdom⟩
    rw [List.foldlM_cons]
    simp only [hm, if_true]
    have hcall : RmCb.call (st.emit (Op.moduleHook HookName.remove m.1 vnode)) rm
        = Except.ok (st.emit (Op.moduleHook HookName.remove m.1 vnode),
          { rm with listeners := rm.listeners - 1 }) := by
      unfold RmCb.call
      simp only
      rw [if_neg (by omega)]
      rfl
    rw [hcall]
    simp only [bind, Except.bind]
    rw [hst']
    congr 2
    simp only [List.length_cons, Nat.cast_add, Nat.cast_one]
    congr 1
    omega

theorem rmCall_last (st : St) (rm : RmCb) (e p : Nat) (hl : rm.listeners = 1)
    (he : rm.childElm = some e) (hp : st.dom.parent e = some p)
    (hm : e ∈ st.dom.children p) :
    ∃ r, RmCb.call st rm = Except.ok r ∧ r.1.dom.next = st.dom.next ∧
      r.1.dom.children = Function.update st.dom.children p ((st.dom.children p).erase e) ∧
      r.1.dom.parent = Function.update st.dom.parent e none := by
  obtain ⟨st', h1, h2, h3, h4⟩ := removeNode_spec st e p hp hm
  unfold RmCb.call
  simp only [hl, sub_self, if_true, he, h1, bind, Except.bind, pure, Except.pure]
  exact ⟨_, rfl, h2, h3, h4⟩

theorem removeHook_spec (E : Env) (fuel : Nat) (st : St) (v : VNode) (e p : Nat)
    (hv : v.elm = some e) (hci : v.componentInstance = none)
    (hs : syncRemove E v = true) (hp : st.dom.parent e = some p)
    (hm : e ∈ st.dom.children p) :
    ∃ r, removeAndInvokeRemoveHook E (fuel + 1) st v none = Except.ok r ∧
      r.1.dom.next = st.dom.next ∧
      r.1.dom.children = Function.update st.dom.children p ((st.dom.children p).erase e) ∧
      r.1.dom.parent = Function.update st.dom.parent e none := by
  unfold syncRemove at hs
  simp only [Bool.and_eq_true, decide_eq_true_eq] at hs
  obtain ⟨hs1, hs2⟩ := hs
  unfold removeAndInvokeRemoveHook
  cases hd : v.data with
  | none =>
    obtain ⟨st', h1, h2, h3, h4⟩ := removeNode_spec st e p hp hm
    simp only [Option.isSome_none, Bool.or_self, Bool.false_eq_true, if_false, hv, h1, bind,
      Except.bind, pure, Except.pure]
    exact ⟨_, rfl, h2, h3, h4⟩
  | some data =>
    simp only [Option.isSome_none, Option.isSome_some, Bool.or_true, if_true, hci, bind,
      Except.bind, pure, Except.pure]
    obtain ⟨st1, hfold, hdom⟩ := rmFold_spec v (cbsRemove E) st
      (createRmCb v.elm (((cbsRemove E).length : Int) + 1)) (cbsRemove_sync E hs1)
      (by unfold createRmCb; simp)
    simp only [pure, Except.pure] at hfold
    rw [hfold]
    simp only
    have hl : ({ createRmCb v.elm (((cbsRemove E).length : Int) + 1) with
        listeners := (createRmCb v.elm (((cbsRemove E).length : Int) + 1)).listeners -
          ((cbsRemove E).length : Int) } : RmCb).listeners = 1 := by
      unfold createRmCb
      simp
    have hce : ({ createRmCb v.elm (((cbsRemove E).length : Int) + 1) with
        listeners := (createRmCb v.elm (((cbsRemove E).length : Int) + 1)).listeners -
          ((cbsRemove E).length : Int) } : RmCb).childElm = some e := by
      unfold createRmCb
      simp [hv]
    rw [hd] at hs2
    cases hh : (data.hook.bind (fun h => h.remove)) with
    | none =>
      simp only
      obtain ⟨r, h1, h2, h3, h4⟩ := rmCall_last st1 _ e p hl hce (by rw [hdom]; exact hp)
        (by rw [hdom]; exact hm)
      rw [h1]
      simp only
      exact ⟨_, rfl, by rw [h2, hdom], by rw [h3, hdom], by rw [h4, hdom]⟩
    | some callsRm =>
      have hc : callsRm = true := by
        cases callsRm with
        | true => rfl
        | false =>
          exfalso
          apply hs2
          simpa using hh
      subst hc
      simp only [if_true]
      obtain ⟨r, h1, h2, h3, h4⟩ := rmCall_last
        (st1.emit (Op.dataHook HookName.remove v)) _ e p hl hce
        (by show st1.dom.parent e = some p; rw [hdom]; exact hp)
        (by show e ∈ st1.dom.children p; rw [hdom]; exact hm)
      rw [h1]
      simp only
      have hdom' : (st1.emit (Op.dataHook HookName.remove v)).dom = st.dom := hdom
      exact ⟨_, rfl, by rw [h2, hdom'], by rw [h3, hdom'], by rw [h4, hdom']⟩
theorem emitModuleHooks_dom (st : St) (h : HookName) (is : List Nat) (v : VNode) :
    (st.emitModuleHooks h is v).dom = st.dom := by
  unfold St.emitModuleHooks
  induction is generalizing st with
  | nil => rfl
  | cons i is ih =>
    rw [List.foldl_cons, ih]
    rfl

theorem rendered_pos (d : Nat) (dom : Dom) (v : VNode) (h : rendered d dom v = true) :
    ∃ d', d = d' + 1 := by
  cases d with
  | zero => unfold rendered at h; cases h
  | succ d' => exact ⟨d', rfl⟩

theorem destroyFold_spec (E : Env) (d : Nat)
    (ih : ∀ v, (∃ dom0, rendered d dom0 v = true) → ∀ st,
      ∃ st', invokeDestroyHook E d st v = Except.ok st' ∧ st'.dom = st.dom) :
    ∀ (cs : List VNode), (∀ c ∈ cs, ∃ dom0, rendered d dom0 c = true) → ∀ st,
      ∃ st', cs.foldlM (fun s c => invokeDestroyHook E d s c) st = Except.ok st' ∧
        st'.dom = st.dom := by
  intro cs
  induction cs with
  | nil => intro _ st; exact ⟨st, rfl, rfl⟩
  | cons c cs ihc =>
    intro hall st
    obtain ⟨st1, h1, hd1⟩ := ih c (hall c (List.mem_cons_self _ _)) st
    obtain ⟨st2, h2, hd2⟩ := ihc (fun x hx => hall x (List.mem_cons_of_mem _ hx)) st1
    refine ⟨st2, ?_, by rw [hd2, hd1]⟩
    rw [List.foldlM_cons, h1]
    exact h2

theorem invokeDestroyHook_spec (E : Env) :
    ∀ (d : Nat) (v : VNode), (∃ dom0, rendered d dom0 v = true) → ∀ st,
      ∃ st', invokeDestroyHook E d st v = Except.ok st' ∧ st'.dom = st.dom := by
  intro d
  induction d with
  | zero =>
    intro v ⟨dom0, h⟩
    unfold rendered at h
    cases h
  | succ d ih =>
    intro v ⟨dom0, h⟩ st
    obtain ⟨e, he, hcs⟩ := (rendered_succ_iff d dom0 v).1 h
    unfold invokeDestroyHook
    have hst1 : (match v.data with
      | none => st
      | some data =>
        let s := if (data.hook.map (fun (h : Hook VNode) => h.destroy)) = some true then
            st.emit (Op.dataHook HookName.destroy v) else st
        s.emitModuleHooks HookName.destroy (cbs E (fun m => m.destroy)) v).dom = st.dom := by
      cases v.data with
      | none => rfl
      | some data =>
        simp only
        rw [emitModuleHooks_dom]
        split <;> rfl
    cases hch : v.children with
    | none =>
      simp only
      exact ⟨_, rfl, hst1⟩
    | some cs =>
      simp only
      obtain ⟨st', h1, h2⟩ := destroyFold_spec E d ih cs
        (fun c hc => ⟨dom0, ((hcs cs hch).2 c hc).2⟩) _
      exact ⟨st', h1, by rw [h2, hst1]⟩

/-- What the removal of one old child does to the backend tree. -/
theorem removeOne_spec (E : Env) (d : Nat) (dom0 : Dom) (st : St) (ch : VNode) (e p : Nat)
    (hr : rendered d dom0 ch = true) (hv : ch.elm = some e)
    (hci : ch.componentInstance = none) (hs : syncRemove E ch = true)
    (hp : st.dom.parent e = some p) (hm : e ∈ st.dom.children p) :
    ∃ st', (if ch.tag.isSome then do
          let r ← removeAndInvokeRemoveHook E d st ch none
          invokeDestroyHook E d r.1 ch
        else removeNode st ch.elm) = Except.ok st' ∧
      st'.dom.next = st.dom.next ∧
      st'.dom.children = Function.update st.dom.children p ((st.dom.children p).erase e) ∧
      st'.dom.parent = Function.update st.dom.parent e none := by
  obtain ⟨d', hd'⟩ := rendered_pos d dom0 ch hr
  by_cases ht : ch.tag.isSome = true
  · rw [if_pos ht]
    subst hd'
    obtain ⟨r, h1, h2, h3, h4⟩ := removeHook_spec E d' st ch e p hv hci hs hp hm
    obtain ⟨st', h5, h6⟩ := invokeDestroyHook_spec E (d' + 1) ch ⟨dom0, hr⟩ r.1
    rw [h1]
    simp only [bind, Except.bind]
    exact ⟨st', h5, by rw [h6, h2], by rw [h6, h3], by rw [h6, h4]⟩
  · rw [if_neg ht, hv]
    exact removeNode_spec st e p hp hm

/-- The loop of `removeVnodes` over a window of slots removes the backend nodes of the
defined slots from the child list of the parent and touches nothing else. -/
theorem removeVnodesLoop_spec (E : Env) (d : Nat) (dom0 : Dom) (p : Nat) (B : List Nat)
    (D2 : List (Option VNode)) :
    ∀ (W D1 : List (Option VNode)) (st : St) (F mE : List Nat),
      st.dom.children p = F ++ (mE ++ B) →
      W.reduceOption.map (fun v => v.elm) = mE.map some →
      (F ++ (mE ++ B)).Nodup →
      (∀ y ∈ mE, st.dom.parent y = some p) →
      (∀ c, some c ∈ W → rendered d dom0 c = true ∧ c.componentInstance = none ∧
        syncRemove E c = true) →
      ∃ st', removeVnodesLoop E d (D1 ++ (W ++ D2)) W.length (D1.length : Int) st
          = Except.ok st' ∧
        st'.dom.next = st.dom.next ∧
        st'.dom.children p = F ++ B ∧
        (∀ y, y ≠ p → st'.dom.children y = st.dom.children y) ∧
        (∀ y, y ∉ mE → st'.dom.parent y = st.dom.parent y) := by
  intro W
  induction W with
  | nil =>
    intro D1 st F mE hch hel _ _ _
    have : mE = [] := by simpa using hel.symm
    subst this
    exact ⟨st, rfl, rfl, by rw [hch]; simp, fun _ _ => rfl, fun _ _ => rfl⟩
  | cons s W ih =>
    intro D1 st F mE hch hel hnd hpar hall
    have hidx : (getAt (D1 ++ (s :: W ++ D2)) (D1.length : Int)).join = s := by
      rw [show D1 ++ (s :: W ++ D2) = D1 ++ s :: (W ++ D2) by simp,
        getAt_mid D1 (W ++ D2) s _ rfl]
      rfl
    have hlist : D1 ++ (s :: W ++ D2) = (D1 ++ [s]) ++ (W ++ D2) := by simp
    have hlen : ((D1.length : Int) + 1) = ((D1 ++ [s]).length : Int) := by simp
    unfold removeVnodesLoop
    simp only [List.length_cons]
    rw [hidx]
    cases s with
    | none =>
      simp only [bind, Except.bind, pure, Except.pure]
      rw [List.reduceOption_cons_of_none] at hel
      rw [hlist, hlen]
      exact ih (D1 ++ [none]) st F mE hch hel hnd hpar
        (fun c hc => hall c (List.mem_cons_of_mem _ hc))
    | some ch =>
      rw [List.reduceOption_cons_of_some, List.map_cons] at hel
      obtain ⟨e, mE', hmE, he, hmE'⟩ := List.map_eq_cons_iff.1 hel.symm
      subst hmE
      obtain ⟨hr, hci, hs⟩ := hall ch (List.mem_cons_self _ _)
      have heF : e ∉ F := fun h =>
        (List.nodup_append.1 hnd).2.2 h (by simp)
      have hem : e ∈ st.dom.children p := by rw [hch]; simp
      obtain ⟨st1, h1, h2, h3, h4⟩ := removeOne_spec E d dom0 st ch e p hr he.symm hci hs
        (hpar e (List.mem_cons_self _ _)) hem
      have hch1 : st1.dom.children p = F ++ (mE' ++ B) := by
        rw [h3, Function.update_same, hch,
          show F ++ (e :: mE' ++ B) = F ++ e :: (mE' ++ B) by simp,
          erase_boundary e F _ heF]
      have hnd1 : (F ++ (mE' ++ B)).Nodup := by
        have : (F ++ e :: (mE' ++ B)).Nodup := by simpa using hnd
        exact (List.nodup_cons.1 ((List.Perm.nodup_iff List.perm_middle).1 this)).2
      have heM : e ∉ mE' := by
        have := (List.nodup_append.1 (List.nodup_append.1 hnd).2.1).1
        exact (List.nodup_cons.1 this).1
      obtain ⟨st2, h5, h6, h7, h8, h9⟩ := ih (D1 ++ [some ch]) st1 F mE' hch1 hmE'.symm hnd1
        (by
          intro y hy
          have hye : y ≠ e := by
            intro e1
            subst e1
            exact heM hy
          rw [h4, Function.update_noteq hye]
          exact hpar y (List.mem_cons_of_mem _ hy))
        (fun c hc => hall c (List.mem_cons_of_mem _ hc))
      simp only [bind, Except.bind] at h1 ⊢
      rw [h1]
      simp only
      rw [hlist, hlen]
      refine ⟨st2, h5, by rw [h6, h2], h7, ?_, ?_⟩
      · intro y hy
        rw [h8 y hy, h3, Function.update_noteq hy]
      · intro y hy
        have hy1 : y ≠ e := fun e1 => hy (by rw [e1]; simp)
        have hy2 : y ∉ mE' := fun h => hy (List.mem_cons_of_mem _ h)
        rw [h9 y hy2, h4, Function.update_noteq hy1]
/-! ## Adding new children -/

theorem mem_insertAt (x : Nat) (ref : Option Nat) (l : List Nat) (b : Nat) (h : b ∈ l) :
    b ∈ insertAt x ref l := by
  unfold insertAt
  cases ref with
  | none => exact List.mem_append_left _ h
  | some r =>
    simp only
    induction l with
    | nil => cases h
    | cons y ys ih =>
      unfold nodeOps.insertBeforeL
      split
      · exact List.mem_cons_of_mem _ h
      · rcases List.mem_cons.1 h with e | e
        · rw [e]; exact List.mem_cons_self _ _
        · exact List.mem_cons_of_mem _ (ih e)

theorem foldl_insertAt_boundary (B : List Nat) :
    ∀ (xs F : List Nat), (∀ r, B.head? = some r → r ∉ F ++ xs) →
      xs.foldl (fun l x => insertAt x B.head? l) (F ++ B) = F ++ (xs ++ B) := by
  intro xs
  induction xs with
  | nil => intro F _; rfl
  | cons x xs ih =>
    intro F h
    rw [List.foldl_cons, insertAt_boundary x F B (fun r hr hm => h r hr (List.mem_append_left _ hm)),
      show F ++ x :: B = (F ++ [x]) ++ B by simp,
      ih (F ++ [x]) (fun r hr hm => h r hr (by simpa using hm))]
    simp

/-- The loop of `addVnodes` creates the new children of a window one after the other, each
inserted before the reference node. -/
theorem addVnodesLoop_spec (news : List VNode) (createE : CreateFn)
    (hCr : CreateSpec news createE) (p : Nat) (ref : Option Nat) (nB : List VNode) :
    ∀ (Nm nF : List VNode) (st : St) (q : Queue), (∀ n ∈ Nm, n ∈ news) →
      p < st.dom.next →
      (ref = none ∨ ∃ b, ref = some b ∧ st.dom.parent b = some p ∧
        b ∈ st.dom.children p ∧ b < st.dom.next) →
      ∃ (r : St × Queue × List VNode) (nF' : List VNode) (xs : List Nat),
        addVnodesLoop createE (some p) ref Nm.length (nF.length : Int) st q
          (nF ++ (Nm ++ nB)) = Except.ok r ∧
        r.2.2 = nF ++ (nF' ++ nB) ∧
        nF'.length = Nm.length ∧
        nF'.map (fun v => v.elm) = xs.map some ∧
        r.1.dom.children p = xs.foldl (fun l x => insertAt x ref l) (st.dom.children p) ∧
        (∀ x ∈ xs, st.dom.next ≤ x ∧ x < r.1.dom.next ∧ r.1.dom.parent x = some p) ∧
        xs.Nodup ∧
        Frame st.dom r.1.dom [p] [] [] := by
  intro Nm
  induction Nm with
  | nil =>
    intro nF st q _ _ _
    exact ⟨(st, q, nF ++ ([] ++ nB)), [], [], rfl, rfl, rfl, rfl, rfl, (fun x hx => by cases hx),
      List.nodup_nil, frame_refl _ _ _ _⟩
  | cons v Nm ih =>
    intro nF st q hmem hp href
    have hidx : getAt (nF ++ (v :: Nm ++ nB)) (nF.length : Int) = some v := by
      rw [show nF ++ (v :: Nm ++ nB) = nF ++ v :: (Nm ++ nB) by simp]
      exact getAt_mid nF (Nm ++ nB) v _ rfl
    obtain ⟨r1, x, hr1, he, hfresh, hlt, hch, hpar, hf⟩ := hCr st q v p ref
      (hmem v (List.mem_cons_self _ _)) hp
      (by
        rcases href with h | ⟨b, h1, h2, h3, h4⟩
        · exact Or.inl h
        · exact Or.inr ⟨b, h1, h2, h3, h4⟩)
    have hset : setAt (nF ++ (v :: Nm ++ nB)) (nF.length : Int) r1.2.2
        = (nF ++ [r1.2.2]) ++ (Nm ++ nB) := by
      rw [show nF ++ (v :: Nm ++ nB) = nF ++ v :: (Nm ++ nB) by simp,
        setAt_mid nF (Nm ++ nB) v r1.2.2 _ rfl]
      simp
    have hlen : ((nF.length : Int) + 1) = ((nF ++ [r1.2.2]).length : Int) := by simp
    obtain ⟨r2, nF', xs, hr2, hres, hlen', hel, hch2, hxs, hnd, hf2⟩ := ih (nF ++ [r1.2.2]) r1.1 r1.2.1
      (fun n hn => hmem n (List.mem_cons_of_mem _ hn))
      (Nat.lt_of_lt_of_le hp hf.next_le)
      (by
        rcases href with h | ⟨b, h1, h2, h3, h4⟩
        · exact Or.inl h
        · refine Or.inr ⟨b, h1, ?_, ?_, Nat.lt_of_lt_of_le h4 hf.next_le⟩
          · rw [hf.parent_eq b h4 (by simp) (by simp), h2]
          · rw [hch]; exact mem_insertAt x ref _ b h3)
    refine ⟨r2, r1.2.2 :: nF', x :: xs, ?_, ?_, by simp [hlen'], ?_, ?_, ?_, ?_, ?_⟩
    · unfold addVnodesLoop
      simp only [List.length_cons]
      rw [hidx]
      simp only [hr1, bind, Except.bind]
      rw [hset, hlen]
      exact hr2
    · rw [hres]; simp
    · simp [he, hel]
    · rw [hch2, hch]; rfl
    · intro y hy
      rcases List.mem_cons.1 hy with e | e
      · subst e
        refine ⟨hfresh, Nat.lt_of_lt_of_le hlt hf2.next_le, ?_⟩
        rw [hf2.parent_eq y hlt (by simp) (by simp), hpar]
      · obtain ⟨h1, h2, h3⟩ := hxs y e
        exact ⟨Nat.le_trans hf.next_le h1, h2, h3⟩
    · refine List.nodup_cons.2 ⟨fun hm => ?_, hnd⟩
      have := (hxs x hm).1
      omega
    · exact frame_trans hf hf2
/-! ## The whole of `updateChildren` -/

theorem checkDuplicateKeys_dom (st : St) (children : List VNode) :
    (checkDuplicateKeys st children).dom = st.dom := by
  unfold checkDuplicateKeys
  generalize duplicateKeysFrom [] children = ks
  induction ks generalizing st with
  | nil => rfl
  | cons k ks ih =>
    rw [List.foldl_cons, ih]
    rfl

theorem reduceOption_map_some {α : Type} (l : List α) : (l.map some).reduceOption = l := by
  induction l with
  | nil => rfl
  | cons a l ih => rw [List.map_cons, List.reduceOption_cons_of_some, ih]

theorem forall₂_map_some (nFo nBo : List VNode) (l : List VNode) :
    List.Forall₂ (fun s o => s = some o ∨ (s = none ∧ KeyMatched nFo nBo o)) (l.map some) l := by
  induction l with
  | nil => exact List.Forall₂.nil
  | cons a l ih => exact List.Forall₂.cons (Or.inl rfl) ih

theorem top_elms_sublist (d : Nat) :
    ∀ (olds : List VNode) (X : List Nat), X.map some = olds.map (fun v => v.elm) →
      List.Sublist X (olds.flatMap (elmsOf d)) := by
  intro olds
  induction olds with
  | nil =>
    intro X h
    have : X = [] := by simpa using h
    subst this
    exact List.Sublist.slnil
  | cons o os ih =>
    intro X h
    rw [List.map_cons] at h
    obtain ⟨x, X', hX, hx, hX'⟩ := List.map_eq_cons_iff.1 h
    subst hX
    rw [List.flatMap_cons, elmsOf_eq, ← hx]
    show List.Sublist (x :: X') (x :: (strictElmsOf d o ++ os.flatMap (elmsOf d)))
    exact List.Sublist.cons₂ _ (List.Sublist.trans (ih X' hX')
      (List.sublist_append_right _ _))

/-- The state at the entry of the loop satisfies the invariant. -/
theorem inv_init (C : Ctx) (hC : CtxOk C) (st : St) (q : Queue)
    (hdom : st.dom = C.dom0)
    (hch : (st.dom.children C.p).map some = C.olds.map (fun v => v.elm))
    (hpar : ∀ o ∈ C.olds, ∃ x, o.elm = some x ∧ st.dom.parent x = some C.p)
    (hren : ∀ o ∈ C.olds, rendered C.d st.dom o = true) :
    LoopInv C
      { oD1 := [], oMid := C.olds.map some, oD2 := [], nF := [], nMid := C.news, nB := [],
        map := none, st := st, queue := q, trace := [] }
      { o1 := [], om := C.olds, o2 := [], nFo := [], nBo := [], fE := [],
        mE := st.dom.children C.p, bE := [] } := by
  have hsub := top_elms_sublist C.d C.olds _ hch
  have hmem : ∀ x ∈ st.dom.children C.p, ∃ o ∈ C.olds, o.elm = some x := by
    intro x hx
    have : some x ∈ C.olds.map (fun v => v.elm) := by
      rw [← hch]; exact List.mem_map.2 ⟨x, hx, rfl⟩
    obtain ⟨o, ho, he⟩ := List.mem_map.1 this
    exact ⟨o, ho, he⟩
  refine ⟨by simp, by simp, rfl, rfl, List.Forall₂.nil, List.Forall₂.nil,
    forall₂_map_some _ _ _, ?_, ?_, ?_, by simp, rfl, ?_, rfl, ?_, ?_, ?_, ?_, ?_⟩
  · intro o ho; cases ho
  · intro _ s hs
    obtain ⟨o, _, e⟩ := List.mem_map.1 hs
    rw [← e]; simp
  · intro m hm; cases hm
  · show (C.olds.map some).reduceOption.map (fun v => v.elm) = _
    rw [reduceOption_map_some, hch]
  · show ([] ++ (st.dom.children C.p ++ [])).Nodup
    simp only [List.nil_append, List.append_nil]
    exact List.Nodup.sublist hsub (List.nodup_cons.1 hC.nodup).2
  · intro x hx
    have hx' : x ∈ st.dom.children C.p := by simpa using hx
    obtain ⟨o, ho, he⟩ := hmem x hx'
    obtain ⟨x', he', hp'⟩ := hpar o ho
    rw [he] at he'
    cases he'
    refine ⟨?_, hp'⟩
    show x < st.dom.next
    rw [hdom]
    exact hC.bound x (List.mem_cons_of_mem _ (List.Sublist.subset hsub hx'))
  · intro x hx
    have hx' : x ∈ st.dom.children C.p := by simpa using hx
    exact Or.inl (hmem x hx')
  · intro c hc
    obtain ⟨o, ho, e⟩ := List.mem_map.1 hc
    cases e
    exact hren c ho
  · show Frame C.dom0 st.dom _ _ _
    rw [hdom]
    exact frame_refl _ _ _ _
theorem updateChildren_unfold (E : Env) (fuel : Nat) (patchV : PatchFn) (createE : CreateFn)
    (st : St) (q : Queue) (parentElm : Option Nat) (oldCh : List (Option VNode))
    (newCh : List VNode) (removeOnly : Bool) (L : Loop)
    (hrun : updateChildrenLoop E patchV createE parentElm (!removeOnly)
      (oldCh.length + newCh.length)
      { oldStartIdx := 0
        newStartIdx := 0
        oldEndIdx := (oldCh.length : Int) - 1
        oldStartVnode := (getAt oldCh 0).join
        oldEndVnode := (getAt oldCh ((oldCh.length : Int) - 1)).join
        newEndIdx := (newCh.length : Int) - 1
        oldKeyToIdx := none
        oldCh := oldCh
        newCh := newCh
        st := if E.production then st else checkDuplicateKeys st newCh
        queue := q
        trace := [] } = Except.ok L) :
    updateChildren E fuel patchV createE st q parentElm oldCh newCh removeOnly =
      updateChildrenEnd E fuel createE parentElm L := by
  unfold updateChildren updateChildrenEnd
  simp only [hrun, bind, Except.bind]

theorem getAt_after {α : Type} (X Y Z : List α) :
    getAt (X ++ (Y ++ Z)) ((X.length : Int) + (Y.length : Int) - 1 + 1) = Z.head? := by
  have e : ((X.length : Int) + (Y.length : Int) - 1 + 1) = ((X.length + Y.length : Nat) : Int) := by
    push_cast; ring
  rw [e, getAt_eq_get?, List.get?_eq_getElem?, List.getElem?_append_right (by omega),
    List.getElem?_append_right (by omega)]
  cases Z with
  | nil => simp
  | cons z Z => simp

theorem head_elm (nB : List VNode) (bE : List Nat)
    (h : nB.map (fun v => v.elm) = bE.map some) :
    (match nB.head? with
      | none => none
      | some v => v.elm) = bE.head? := by
  cases nB with
  | nil =>
    have : bE = [] := by simpa using h.symm
    subst this
    rfl
  | cons v nB =>
    obtain ⟨x, bE', hb, hx, _⟩ := List.map_eq_cons_iff.1 h.symm
    subst hb
    simp [hx]
theorem mE_subset (C : Ctx) (A : Parts) (G : Ghost) (hI : LoopInv C A G) :
    ∀ y ∈ G.mE, y ∈ C.olds.flatMap (elmsOf C.d) := by
  intro y hy
  have : some y ∈ A.oMid.reduceOption.map (fun v => v.elm) := by
    rw [hI.elmM]; exact List.mem_map.2 ⟨y, hy, rfl⟩
  obtain ⟨c, hc, he⟩ := List.mem_map.1 this
  have hc' : some c ∈ A.oMid := List.reduceOption_mem_iff.1 hc
  exact elms_subset C c (mid_mem_olds C A G hI c hc') y (elm_mem_elmsOf _ _ _ he)

theorem news_length (C : Ctx) (A : Parts) (G : Ghost) (hI : LoopInv C A G) :
    (A.nF ++ (A.nMid ++ A.nB)).length = C.news.length := by
  rw [hI.news_eq]
  simp [hI.lenF, hI.lenB]

/-- Once the loop has ended with the invariant, `updateChildren` returns and the backend
children of the parent are the backend nodes of the new children, in order. -/
theorem end_spec (C : Ctx) (hC : CtxOk C) (createE : CreateFn)
    (hCr : CreateSpec C.news createE) (A : Parts) (G : Ghost) (hI : LoopInv C A G)
    (hend : A.oMid = [] ∨ A.nMid = []) :
    ∃ L, updateChildrenEnd C.E C.d createE (some C.p) A.toLoop = Except.ok L ∧
      (L.st.dom.children C.p).map some = L.newCh.map (fun v => v.elm) ∧
      L.newCh.length = C.news.length ∧
      Frame C.dom0 L.st.dom (C.p :: C.olds.flatMap (elmsOf C.d))
        (C.olds.flatMap (elmsOf C.d)) (C.olds.flatMap (elmsOf C.d)) ∧
      (A.nMid = [] → L.newCh = A.nF ++ A.nB ∧
        L.trace = A.trace ++ (definedSlots (A.oD1 ++ (A.oMid ++ A.oD2)) A.oMid.length
          (A.oD1.length : Int)).map Action.remove) := by
  have hp : C.p < A.st.dom.next :=
    Nat.lt_of_lt_of_le (hC.bound C.p (List.mem_cons_self _ _)) hI.frame.next_le
  by_cases ho : A.oMid = []
  · -- the remaining new children are added
    have hmE : G.mE = [] := by
      have := hI.elmM
      rw [ho] at this
      simpa using this.symm
    have hcond : A.toLoop.oldStartIdx > A.toLoop.oldEndIdx := by
      show (A.oD1.length : Int) > (A.oD1.length : Int) + (A.oMid.length : Int) - 1
      rw [ho]; simp
    have href : (match getAt A.toLoop.newCh (A.toLoop.newEndIdx + 1) with
        | none => none
        | some v => v.elm) = G.bE.head? := by
      show (match getAt (A.nF ++ (A.nMid ++ A.nB))
          ((A.nF.length : Int) + (A.nMid.length : Int) - 1 + 1) with
        | none => none
        | some v => v.elm) = G.bE.head?
      rw [getAt_after]
      exact head_elm A.nB G.bE hI.elmB
    have hcount : (A.toLoop.newEndIdx - A.toLoop.newStartIdx + 1).toNat = A.nMid.length := by
      show ((A.nF.length : Int) + (A.nMid.length : Int) - 1 - (A.nF.length : Int) + 1).toNat
        = A.nMid.length
      omega
    obtain ⟨r, nF', xs, hr, hres, hlen, hel, hch, hxs, hnd, hf⟩ :=
      addVnodesLoop_spec C.news createE hCr C.p G.bE.head? A.nB A.nMid A.nF A.st A.queue
        (fun n hn => by rw [hI.news_eq]; simp [hn]) hp
        (by
          cases hb : G.bE with
          | nil => exact Or.inl rfl
          | cons b t =>
            right
            have hbP : b ∈ G.fE ++ (G.mE ++ G.bE) := by rw [hb]; simp
            exact ⟨b, rfl, (hI.boundP b hbP).2, by rw [hI.dom_children]; exact hbP,
              (hI.boundP b hbP).1⟩)
    refine ⟨{ A.toLoop with
      st := r.1
      queue := r.2.1
      newCh := r.2.2
      trace := A.toLoop.trace ++
        (List.range (A.toLoop.newEndIdx - A.toLoop.newStartIdx + 1).toNat).map
          (fun k => Action.create (A.toLoop.newStartIdx + k)) }, ?_, ?_, ?_, ?_, ?_⟩
    · unfold updateChildrenEnd addVnodes
      rw [if_pos hcond, href, hcount]
      simp only [bind, Except.bind]
      have hr' : addVnodesLoop createE (some C.p) G.bE.head? A.nMid.length A.toLoop.newStartIdx
          A.toLoop.st A.toLoop.queue A.toLoop.newCh = Except.ok r := hr
      rw [hr']
      rfl
    · show (r.1.dom.children C.p).map some = r.2.2.map (fun v => v.elm)
      rw [hch, hI.dom_children, hmE, List.nil_append, foldl_insertAt_boundary G.bE xs G.fE, hres]
      · simp [hI.elmF, hel, hI.elmB]
      · intro b hb hm
        have hbB : b ∈ G.bE := List.mem_of_mem_head? hb
        have hbP : b ∈ G.fE ++ (G.mE ++ G.bE) := by simp [hbB]
        rcases List.mem_append.1 hm with h1 | h1
        · exact (List.nodup_append.1 hI.nodupP).2.2 h1 (by simp [hbB])
        · have := (hxs b h1).1
          have := (hI.boundP b hbP).1
          omega
    · show r.2.2.length = C.news.length
      rw [hres, ← news_length C A G hI]
      simp [hlen]
    · show Frame C.dom0 r.1.dom _ _ _
      refine frame_trans hI.frame (frame_mono hf ?_ ?_ ?_)
      · intro y hy
        rw [List.mem_singleton.1 hy]; exact List.mem_cons_self _ _
      · intro y hy; cases hy
      · intro y hy; cases hy
    · intro hn
      rw [hn] at hlen hcount
      have hnF' : nF' = [] := List.length_eq_zero.1 hlen
      constructor
      · show r.2.2 = A.nF ++ A.nB
        rw [hres, hnF']; simp
      · show A.trace ++ (List.range (A.toLoop.newEndIdx - A.toLoop.newStartIdx + 1).toNat).map
            (fun k => Action.create (A.toLoop.newStartIdx + k)) = _
        rw [hcount, ho]
        simp [definedSlots]
  · -- the remaining old children are removed
    have hn : A.nMid = [] := by
      rcases hend with h | h
      · exact absurd h ho
      · exact h
    have hc1 : ¬ A.toLoop.oldStartIdx > A.toLoop.oldEndIdx := by
      show ¬ (A.oD1.length : Int) > (A.oD1.length : Int) + (A.oMid.length : Int) - 1
      have := List.length_pos.2 ho
      omega
    have hc2 : A.toLoop.newStartIdx > A.toLoop.newEndIdx := by
      show (A.nF.length : Int) > (A.nF.length : Int) + (A.nMid.length : Int) - 1
      rw [hn]; simp
    have hcount : (A.toLoop.oldEndIdx - A.toLoop.oldStartIdx + 1).toNat = A.oMid.length := by
      show ((A.oD1.length : Int) + (A.oMid.length : Int) - 1 - (A.oD1.length : Int) + 1).toNat
        = A.oMid.length
      omega
    obtain ⟨st', hr, hnx, hch, hoth, hparent⟩ :=
      removeVnodesLoop_spec C.E C.d A.st.dom C.p G.bE A.oD2 A.oMid A.oD1 A.st G.fE G.mE
        hI.dom_children hI.elmM hI.nodupP
        (fun y hy => (hI.boundP y (by simp [hy])).2)
        (fun c hc => ⟨hI.live c hc, hC.oldComp c (mid_mem_olds C A G hI c hc),
          hC.oldSync c (mid_mem_olds C A G hI c hc)⟩)
    refine ⟨{ A.toLoop with
      st := st'
      trace := A.toLoop.trace ++
        (definedSlots A.toLoop.oldCh (A.toLoop.oldEndIdx - A.toLoop.oldStartIdx + 1).toNat
          A.toLoop.oldStartIdx).map Action.remove }, ?_, ?_, ?_, ?_, ?_⟩
    · unfold updateChildrenEnd removeVnodes
      rw [if_neg hc1, if_pos hc2, hcount]
      have hr' : removeVnodesLoop C.E C.d A.toLoop.oldCh A.oMid.length A.toLoop.oldStartIdx
          A.toLoop.st = Except.ok st' := hr
      simp only [bind, Except.bind]
      rw [hr']
      rfl
    · show (st'.dom.children C.p).map some = (A.nF ++ (A.nMid ++ A.nB)).map (fun v => v.elm)
      rw [hch, hn]
      simp [hI.elmF, hI.elmB]
    · exact news_length C A G hI
    · show Frame C.dom0 st'.dom _ _ _
      refine frame_trans hI.frame ⟨by rw [hnx], fun y _ hy => ?_, fun y _ hy _ => ?_⟩
      · exact hoth y (fun e => hy (by rw [e]; exact List.mem_cons_self _ _))
      · exact hparent y (fun h => hy (mE_subset C A G hI y h))
    · intro _
      constructor
      · show A.nF ++ (A.nMid ++ A.nB) = A.nF ++ A.nB
        rw [hn]; simp
      · show A.trace ++ (definedSlots A.toLoop.oldCh
            (A.toLoop.oldEndIdx - A.toLoop.oldStartIdx + 1).toNat A.toLoop.oldStartIdx).map
              Action.remove = _
        rw [hcount]
        rfl

/-- The contract of `updateChildren` at one level: given callees that meet their
contracts, a parent whose backend children are the nodes of the old children, in order,
and old children that are rendered, the call returns and the backend children of the
parent are the nodes of the new children, in order. -/
theorem updateChildren_spec (C : Ctx) (hC : CtxOk C) (hK : KeysOk C) (patchV : PatchFn)
    (createE : CreateFn)
    (hP : PatchSpec C patchV) (hCr : CreateSpec C.news createE) (st : St) (q : Queue)
    (hdom : st.dom = C.dom0)
    (hch : (st.dom.children C.p).map some = C.olds.map (fun v => v.elm))
    (hpar : ∀ o ∈ C.olds, ∃ x, o.elm = some x ∧ st.dom.parent x = some C.p)
    (hren : ∀ o ∈ C.olds, rendered C.d st.dom o = true) :
    ∃ L, updateChildren C.E C.d patchV createE st q (some C.p) (C.olds.map some) C.news false
        = Except.ok L ∧
      (L.st.dom.children C.p).map some = L.newCh.map (fun v => v.elm) ∧
      L.newCh.length = C.news.length ∧
      Frame C.dom0 L.st.dom (C.p :: C.olds.flatMap (elmsOf C.d))
        (C.olds.flatMap (elmsOf C.d)) (C.olds.flatMap (elmsOf C.d)) := by
  have hd0 : (if C.E.production then st else checkDuplicateKeys st C.news).dom = st.dom := by
    split
    · rfl
    · exact checkDuplicateKeys_dom st C.news
  have hI0 := inv_init C hC (if C.E.production then st else checkDuplicateKeys st C.news) q
    (by rw [hd0]; exact hdom) (by rw [hd0]; exact hch)
    (by rw [hd0]; exact hpar) (by rw [hd0]; exact hren)
  obtain ⟨A, G, hrun, hI, hend⟩ := loop_spec C hC hK patchV createE hP hCr
    ((C.olds.map some).length + C.news.length) _ _ hI0 (by simp)
  obtain ⟨L, hL, h1, h2, h3, _⟩ := end_spec C hC createE hCr A G hI hend
  refine ⟨L, ?_, h1, h2, h3⟩
  rw [updateChildren_unfold C.E C.d patchV createE st q (some C.p) (C.olds.map some) C.news
    false A.toLoop ?_]
  · exact hL
  · rw [← hrun]
    congr 1
    apply loop_eq <;> simp [Parts.toLoop]
/-! ## `createElm` meets its contract -/

theorem treeEq_refl (a : Dom) : TreeEq a a := ⟨rfl, rfl, rfl⟩

theorem treeEq_trans {a b c : Dom} (h1 : TreeEq a b) (h2 : TreeEq b c) : TreeEq a c :=
  ⟨by rw [h2.1, h1.1], by rw [h2.2.1, h1.2.1], by rw [h2.2.2, h1.2.2]⟩

theorem fresh_facts (st : St) (k : NodeKind) (text : String) :
    (nodeOps.fresh st k text).2 = st.dom.next ∧
      (nodeOps.fresh st k text).1.dom.next = st.dom.next + 1 ∧
      (nodeOps.fresh st k text).1.dom.children
        = Function.update st.dom.children st.dom.next [] ∧
      (nodeOps.fresh st k text).1.dom.parent
        = Function.update st.dom.parent st.dom.next none :=
  ⟨rfl, rfl, rfl, rfl⟩

theorem setStyleScopeAt_spec (st : St) (x : Nat) (scope : String) :
    ∃ st', setStyleScopeAt st (some x) scope = Except.ok st' ∧ TreeEq st.dom st'.dom :=
  ⟨_, rfl, rfl, rfl, rfl⟩

theorem setScope_spec (E : Env) (fuel : Nat) (st : St) (v : VNode) (x : Nat)
    (hx : v.elm = some x) (hp : v.parent = none) :
    ∃ st', setScope E (fuel + 1) st v = Except.ok st' ∧ TreeEq st.dom st'.dom := by
  have h1 : ∃ st1, (match v.fnScopeId with
      | some i => setStyleScopeAt st v.elm i
      | none => setScopeAncestors v.elm (fuel + 1) st (some v)) = Except.ok st1 ∧
      TreeEq st.dom st1.dom := by
    cases v.fnScopeId with
    | some i => simp only [hx]; exact setStyleScopeAt_spec st x i
    | none =>
      simp only
      unfold setScopeAncestors
      simp only [hp, hx]
      cases (v.context.bind (fun c => c.scopeId)) with
      | none =>
        simp only [bind, Except.bind, pure, Except.pure]
        cases fuel <;> exact ⟨_, rfl, treeEq_refl _⟩
      | some i =>
        obtain ⟨s, hs, ht⟩ := setStyleScopeAt_spec st x i
        simp only [hs, bind, Except.bind]
        cases fuel <;> exact ⟨_, rfl, ht⟩
  obtain ⟨st1, hs1, ht1⟩ := h1
  unfold setScope
  simp only [hs1, bind, Except.bind]
  cases E.activeInstance with
  | none => exact ⟨_, rfl, ht1⟩
  | some i =>
    simp only
    split
    · cases i.scopeId with
      | none => exact ⟨_, rfl, ht1⟩
      | some scope =>
        simp only [hx]
        obtain ⟨s, hs, ht⟩ := setStyleScopeAt_spec st1 x scope
        exact ⟨s, hs, treeEq_trans ht1 ht⟩
    · exact ⟨_, rfl, ht1⟩

theorem invokeCreateHooks_spec (E : Env) (st : St) (q : Queue) (v : VNode)
    (hd : v.data.isSome = true) :
    ∃ r, invokeCreateHooks E st q v = Except.ok r ∧ r.1.dom = st.dom := by
  unfold invokeCreateHooks
  cases hdata : v.data with
  | none => rw [hdata] at hd; cases hd
  | some data =>
    simp only
    cases data.hook with
    | none => exact ⟨_, rfl, emitModuleHooks_dom _ _ _ _⟩
    | some hook =>
      simp only
      refine ⟨_, rfl, ?_⟩
      simp only
      split
      · exact emitModuleHooks_dom _ _ _ _
      · exact emitModuleHooks_dom _ _ _ _

theorem hooks_if_spec (E : Env) (st : St) (q : Queue) (v : VNode) :
    ∃ r, (if v.data.isSome then invokeCreateHooks E st q v else pure (st, q))
        = Except.ok r ∧ r.1.dom = st.dom := by
  by_cases hd : v.data.isSome = true
  · rw [if_pos hd]; exact invokeCreateHooks_spec E st q v hd
  · rw [if_neg hd]; exact ⟨_, rfl, rfl⟩

theorem insert_fresh (st : St) (par x : Nat) (ref : Option Nat)
    (hpx : st.dom.parent x = none)
    (href : ref = none ∨ ∃ r, ref = some r ∧ st.dom.parent r = some par ∧
      r ∈ st.dom.children par ∧ r ≠ x) :
    ∃ st', insert st (some par) (some x) ref = Except.ok st' ∧
      st'.dom.next = st.dom.next ∧
      st'.dom.children = Function.update st.dom.children par
        (insertAt x ref (st.dom.children par)) ∧
      st'.dom.parent = Function.update st.dom.parent x (some par) := by
  rcases href with h | ⟨r, h, hr1, hr2, hr3⟩
  · subst h
    unfold insert
    simp only
    refine ⟨_, rfl, ?_, ?_, ?_⟩
    · simp [nodeOps.appendChild, nodeOps.detach, hpx]
    · simp [nodeOps.appendChild, nodeOps.detach, hpx, insertAt]
    · simp [nodeOps.appendChild, nodeOps.detach, hpx]
  · subst h
    unfold insert nodeOps.parentNode
    simp only [hr1, if_true]
    obtain ⟨st', h1, h2, h3, h4, _⟩ := insertBefore_fresh st par x (some r) hpx
      (Or.inr ⟨r, rfl, hr2, hr3⟩)
    exact ⟨st', h1, h2, h3, h4⟩
theorem fresh_pre (a s1 : Dom) (par x : Nat) (ref : Option Nat)
    (hx : x = a.next) (hc : s1.children = Function.update a.children x [])
    (hp : s1.parent = Function.update a.parent x none)
    (hpar : par < a.next)
    (href : ref = none ∨ ∃ r, ref = some r ∧ a.parent r = some par ∧ r ∈ a.children par ∧
      r < a.next) :
    s1.parent x = none ∧ s1.children par = a.children par ∧
      (ref = none ∨ ∃ r, ref = some r ∧ s1.parent r = some par ∧ r ∈ s1.children par ∧
        r ≠ x ∧ r < a.next) := by
  have hne : par ≠ x := by omega
  refine ⟨by rw [hp]; simp, by rw [hc, Function.update_noteq hne], ?_⟩
  rcases href with h | ⟨r, h1, h2, h3, h4⟩
  · exact Or.inl h
  · have hr : r ≠ x := by omega
    exact Or.inr ⟨r, h1, by rw [hp, Function.update_noteq hr]; exact h2,
      by rw [hc, Function.update_noteq hne]; exact h3, hr, h4⟩

theorem frame_pre (s1 s2 : Dom) (par x : Nat) (ref : Option Nat) (n : Nat)
    (hf : Frame s1 s2 [x] [] []) (hx : x < s1.next) (hpar : par < n) (hn : n ≤ x)
    (hpx : s1.parent x = none)
    (href : ref = none ∨ ∃ r, ref = some r ∧ s1.parent r = some par ∧ r ∈ s1.children par ∧
      r ≠ x ∧ r < n) :
    s2.parent x = none ∧ s2.children par = s1.children par ∧
      (ref = none ∨ ∃ r, ref = some r ∧ s2.parent r = some par ∧ r ∈ s2.children par ∧
        r ≠ x) := by
  have hne : par ∉ [x] := by
    intro h
    have := List.mem_singleton.1 h
    omega
  have hcp : s2.children par = s1.children par := hf.children_eq par (by omega) hne
  refine ⟨by rw [hf.parent_eq x hx (by simp) (by simp)]; exact hpx, hcp, ?_⟩
  rcases href with h | ⟨r, h1, h2, h3, h4, h5⟩
  · exact Or.inl h
  · exact Or.inr ⟨r, h1, by rw [hf.parent_eq r (by omega) (by simp) (by simp)]; exact h2,
      by rw [hcp]; exact h3, h4⟩

/-- The order of the web platform: the children are created under the new node, then the
node is inserted. -/
theorem created_web (a s1 s2 s3 : Dom) (par x : Nat) (ref : Option Nat)
    (hx : x = a.next) (hn1 : s1.next = a.next + 1)
    (hc1 : s1.children = Function.update a.children x [])
    (hp1 : s1.parent = Function.update a.parent x none)
    (hf : Frame s1 s2 [x] [] [])
    (hn3 : s3.next = s2.next)
    (hc3 : s3.children = Function.update s2.children par (insertAt x ref (s2.children par)))
    (hp3 : s3.parent = Function.update s2.parent x (some par))
    (hpar : par < a.next) :
    Created a s3 par x ref := by
  have hne : par ≠ x := by omega
  have hnp : par ∉ [x] := fun h => hne (List.mem_singleton.1 h)
  have hcp : s2.children par = a.children par := by
    rw [hf.children_eq par (by omega) hnp, hc1, Function.update_noteq hne]
  refine ⟨by omega, ?_, ?_, by rw [hp3]; simp, ?_, ?_, ?_⟩
  · have := hf.next_le
    omega
  · rw [hc3, Function.update_same, hcp]
  · have := hf.next_le
    omega
  · intro y hy hny
    have h1 : y ≠ par := fun e => hny (by rw [e]; simp)
    have h2 : y ≠ x := by omega
    rw [hc3, Function.update_noteq h1, hf.children_eq y (by omega) (by simp [h2]), hc1,
      Function.update_noteq h2]
  · intro y hy _ _
    have h2 : y ≠ x := by omega
    rw [hp3, Function.update_noteq h2, hf.parent_eq y (by omega) (by simp) (by simp), hp1,
      Function.update_noteq h2]

/-- The order of the other platform: the node is inserted, then its children are created
under it. -/
theorem created_weex (a s1 s2 s3 : Dom) (par x : Nat) (ref : Option Nat)
    (hx : x = a.next) (hn1 : s1.next = a.next + 1)
    (hc1 : s1.children = Function.update a.children x [])
    (hp1 : s1.parent = Function.update a.parent x none)
    (hn2 : s2.next = s1.next)
    (hc2 : s2.children = Function.update s1.children par (insertAt x ref (s1.children par)))
    (hp2 : s2.parent = Function.update s1.parent x (some par))
    (hf : Frame s2 s3 [x] [] [])
    (hpar : par < a.next) :
    Created a s3 par x ref := by
  have hne : par ≠ x := by omega
  have hnp : par ∉ [x] := fun h => hne (List.mem_singleton.1 h)
  refine ⟨by omega, ?_, ?_, ?_, ?_, ?_, ?_⟩
  · have := hf.next_le
    omega
  · rw [hf.children_eq par (by omega) hnp, hc2, Function.update_same, hc1,
      Function.update_noteq hne]
  · rw [hf.parent_eq x (by omega) (by simp) (by simp), hp2]; simp
  · have := hf.next_le
    omega
  · intro y hy hny
    have h1 : y ≠ par := fun e => hny (by rw [e]; simp)
    have h2 : y ≠ x := by omega
    rw [hf.children_eq y (by omega) (by simp [h2]), hc2, Function.update_noteq h1, hc1,
      Function.update_noteq h2]
  · intro y hy _ _
    have h2 : y ≠ x := by omega
    rw [hf.parent_eq y (by omega) (by simp) (by simp), hp2, Function.update_noteq h2, hp1,
      Function.update_noteq h2]

theorem createChildrenLoop_spec (createE : CreateFn) (x : Nat) :
    ∀ (cs : List VNode),
      (∀ c ∈ cs, ∀ (st : St) (q : Queue), x < st.dom.next →
        ∃ r x', createE st q c (some x) none true true = Except.ok r ∧
          Created st.dom r.1.dom x x' none) →
      ∀ (st : St) (q : Queue), x < st.dom.next →
        ∃ r, createChildrenLoop createE (some x) st q cs = Except.ok r ∧
          Frame st.dom r.1.dom [x] [] [] := by
  intro cs
  induction cs with
  | nil => intro _ st q _; exact ⟨_, rfl, frame_refl _ _ _ _⟩
  | cons c cs ih =>
    intro hall st q hx
    obtain ⟨r1, x', h1, hc⟩ := hall c (List.mem_cons_self _ _) st q hx
    obtain ⟨r2, h2, hf2⟩ := ih (fun c' hc' => hall c' (List.mem_cons_of_mem _ hc')) r1.1 r1.2.1
      (Nat.lt_of_lt_of_le hx hc.frame.next_le)
    refine ⟨(r2.1, r2.2.1, r1.2.2 :: r2.2.2), ?_, frame_trans hc.frame hf2⟩
    unfold createChildrenLoop
    simp only [h1, h2, bind, Except.bind, pure, Except.pure]

theorem createChildren_spec (E : Env) (createE : CreateFn) (st : St) (q : Queue) (v : VNode)
    (x : Nat) (hx : v.elm = some x) (hlt : x < st.dom.next)
    (hall : ∀ c ∈ v.children.getD [], ∀ (st : St) (q : Queue), x < st.dom.next →
      ∃ r x', createE st q c (some x) none true true = Except.ok r ∧
        Created st.dom r.1.dom x x' none) :
    ∃ r, createChildren E createE st q v = Except.ok r ∧ r.2.2.elm = some x ∧
      r.2.2.data = v.data ∧ Frame st.dom r.1.dom [x] [] [] := by
  unfold createChildren
  cases hch : v.children with
  | some cs =>
    rw [hch] at hall
    simp only
    have hd : (if E.production then st else checkDuplicateKeys st cs).dom = st.dom := by
      split
      · rfl
      · exact checkDuplicateKeys_dom _ _
    obtain ⟨r, h1, hf⟩ := createChildrenLoop_spec createE x cs hall
      (if E.production then st else checkDuplicateKeys st cs) q (by rw [hd]; exact hlt)
    rw [hx]
    simp only [h1, bind, Except.bind, pure, Except.pure]
    refine ⟨_, rfl, rfl, rfl, ?_⟩
    rw [hd] at hf
    exact hf
  | none =>
    simp only
    cases v.text with
    | none => exact ⟨_, rfl, hx, rfl, frame_refl _ _ _ _⟩
    | some text =>
      simp only [hx]
      refine ⟨_, rfl, hx, rfl, ?_⟩
      have hne : st.dom.next ≠ x := by omega
      refine ⟨?_, ?_, ?_⟩
      · simp [nodeOps.appendChild, nodeOps.detach, nodeOps.createTextNode, nodeOps.fresh,
          St.emit]
      · intro y hy hny
        have h1 : y ≠ x := fun e => hny (by rw [e]; simp)
        have h2 : y ≠ st.dom.next := by omega
        simp [nodeOps.appendChild, nodeOps.detach, nodeOps.createTextNode, nodeOps.fresh,
          St.emit, Function.update, h1, h2]
      · intro y hy _ _
        have h2 : y ≠ st.dom.next := by omega
        simp [nodeOps.appendChild, nodeOps.detach, nodeOps.createTextNode, nodeOps.fresh,
          St.emit, Function.update, h2]
theorem createElmText_spec (st1 : St) (q : Queue) (v : VNode) (par : Nat) (ref : Option Nat)
    (hpar : par < st1.dom.next)
    (href : ref = none ∨ ∃ r, ref = some r ∧ st1.dom.parent r = some par ∧
      r ∈ st1.dom.children par ∧ r < st1.dom.next) :
    ∃ r x, createElmText st1 q v (some par) ref = Except.ok r ∧ r.2.2.elm = some x ∧
      Created st1.dom r.1.dom par x ref := by
  unfold createElmText
  simp only
  generalize hn : (if v.isComment = true then
      nodeOps.createComment st1 (v.text.getD "undefined")
    else nodeOps.createTextNode st1 (v.text.getD "undefined")) = n
  have hfacts : n.2 = st1.dom.next ∧ n.1.dom.next = st1.dom.next + 1 ∧
      n.1.dom.children = Function.update st1.dom.children st1.dom.next [] ∧
      n.1.dom.parent = Function.update st1.dom.parent st1.dom.next none := by
    rw [← hn]
    split <;> exact ⟨rfl, rfl, rfl, rfl⟩
  obtain ⟨h1, h2, h3, h4⟩ := hfacts
  obtain ⟨hpx, _, href'⟩ := fresh_pre st1.dom n.1.dom par n.2 ref h1 (by rw [h3, h1])
    (by rw [h4, h1]) hpar href
  obtain ⟨s, hs, hs1, hs2, hs3⟩ := insert_fresh n.1 par n.2 ref hpx (by
    rcases href' with h | ⟨r, e1, e2, e3, e4, _⟩
    · exact Or.inl h
    · exact Or.inr ⟨r, e1, e2, e3, e4⟩)
  simp only [hs, bind, Except.bind, pure, Except.pure]
  refine ⟨_, n.2, rfl, rfl, ?_⟩
  exact created_web st1.dom n.1.dom n.1.dom s.dom par n.2 ref h1 h2 (by rw [h3, h1])
    (by rw [h4, h1]) (frame_refl _ _ _ _) hs1 hs2 hs3 hpar
theorem createElmElement_spec (E : Env) (d : Nat) (createE : CreateFn) (st1 : St) (q : Queue)
    (v : VNode) (tag : String) (par : Nat) (ref : Option Nat)
    (hvp : v.parent = none)
    (hall : ∀ c ∈ v.children.getD [], ∀ (x : Nat) (st : St) (q : Queue), x < st.dom.next →
      ∃ r x', createE st q c (some x) none true true = Except.ok r ∧
        Created st.dom r.1.dom x x' none)
    (hpar : par < st1.dom.next)
    (href : ref = none ∨ ∃ r, ref = some r ∧ st1.dom.parent r = some par ∧
      r ∈ st1.dom.children par ∧ r < st1.dom.next) :
    ∃ r x, createElmElement E d createE st1 q v tag (some par) ref = Except.ok r ∧
      r.2.2.elm = some x ∧ Created st1.dom r.1.dom par x ref := by
  unfold createElmElement
  simp only
  generalize hst2 : (if E.production = true then st1
    else
      if isUnknownElement E v tag
          (decide (0 < (if (v.data.map (fun d => d.pre)) = some true then
            ({ st1 with creatingElmInVPre := st1.creatingElmInVPre + 1 } : St)
            else st1).creatingElmInVPre)) = true then
        (if (v.data.map (fun d => d.pre)) = some true then
          ({ st1 with creatingElmInVPre := st1.creatingElmInVPre + 1 } : St)
          else st1).emit (Op.warn ("Unknown custom element: <" ++ tag ++ ">"))
      else
        (if (v.data.map (fun d => d.pre)) = some true then
          ({ st1 with creatingElmInVPre := st1.creatingElmInVPre + 1 } : St)
          else st1)) = st2
  have hd2 : st2.dom = st1.dom := by
    rw [← hst2]
    split
    · rfl
    · split
      · split <;> rfl
      · split <;> rfl
  generalize hn : (match v.ns with
    | some ns => if ns ≠ "" then nodeOps.createElementNS st2 ns tag
      else nodeOps.createElement st2 tag
    | none => nodeOps.createElement st2 tag) = n
  have hfacts : n.2 = st1.dom.next ∧ n.1.dom.next = st1.dom.next + 1 ∧
      n.1.dom.children = Function.update st1.dom.children st1.dom.next [] ∧
      n.1.dom.parent = Function.update st1.dom.parent st1.dom.next none := by
    rw [← hn, ← hd2]
    split
    · split <;> exact ⟨rfl, rfl, rfl, rfl⟩
    · exact ⟨rfl, rfl, rfl, rfl⟩
  obtain ⟨h1, h2, h3, h4⟩ := hfacts
  obtain ⟨st3, hs3, ht3⟩ := setScope_spec E d n.1 { v with elm := some n.2 } n.2 rfl hvp
  rw [hs3]
  simp only [bind, Except.bind]
  have hx3 : n.2 < st3.dom.next := by rw [ht3.1, h2, h1]; omega
  obtain ⟨hpx, hcpar, href'⟩ := fresh_pre st1.dom st3.dom par n.2 ref h1
    (by rw [ht3.2.1, h3, h1]) (by rw [ht3.2.2, h4, h1]) hpar href
  -- the two stages, in either order
  have hkids : ∀ (s : St) (q' : Queue), n.2 < s.dom.next →
      ∃ r, createChildren E createE s q' { v with elm := some n.2 } = Except.ok r ∧
        r.2.2.elm = some n.2 ∧ r.2.2.data = v.data ∧ Frame s.dom r.1.dom [n.2] [] [] :=
    fun s q' hs => createChildren_spec E createE s q' { v with elm := some n.2 } n.2 rfl hs
      (fun c hc st q hx => hall c hc n.2 st q hx)
  have hweb : ∃ r x, (do
          let ch ← createChildren E createE st3 q { v with elm := some n.2 }
          let h ← (if ch.2.2.data.isSome then invokeCreateHooks E ch.1 ch.2.1 ch.2.2
            else pure (ch.1, ch.2.1))
          let s ← insert h.1 (some par) ch.2.2.elm ref
          pure (s, h.2, ch.2.2) : Res (St × Queue × VNode)) = Except.ok r ∧
        r.2.2.elm = some x ∧ Created st1.dom r.1.dom par x ref := by
    obtain ⟨ch, hch, he, _, hf⟩ := hkids st3 q hx3
    obtain ⟨h, hh, hhd⟩ := hooks_if_spec E ch.1 ch.2.1 ch.2.2
    obtain ⟨hpx2, _, href2⟩ := frame_pre st3.dom ch.1.dom par n.2 ref st1.dom.next hf hx3 hpar
      (by omega) hpx href'
    obtain ⟨s, hs, hs1, hs2, hs3'⟩ := insert_fresh h.1 par n.2 ref (by rw [hhd]; exact hpx2)
      (by rw [hhd]; exact href2)
    simp only [bind, Except.bind, pure, Except.pure] at hch hh hs ⊢
    simp only [hch, hh, he, hs]
    refine ⟨_, n.2, rfl, he, ?_⟩
    exact created_web st1.dom st3.dom ch.1.dom s.dom par n.2 ref h1 (by rw [ht3.1, h2])
      (by rw [ht3.2.1, h3, h1]) (by rw [ht3.2.2, h4, h1]) hf (by rw [hs1, hhd])
      (by rw [hs2, hhd]) (by rw [hs3', hhd]) hpar
  have hweex : ∃ r x, (do
          let a ← (do
            let h ← (if ({ v with elm := some n.2 } : VNode).data.isSome then
              invokeCreateHooks E st3 q { v with elm := some n.2 } else pure (st3, q))
            let s ← insert h.1 (some par) ({ v with elm := some n.2 } : VNode).elm ref
            pure (s, h.2) : Res (St × Queue))
          let ch ← createChildren E createE a.1 a.2 { v with elm := some n.2 }
          pure ch : Res (St × Queue × VNode)) = Except.ok r ∧
        r.2.2.elm = some x ∧ Created st1.dom r.1.dom par x ref := by
    obtain ⟨h, hh, hhd⟩ := hooks_if_spec E st3 q { v with elm := some n.2 }
    obtain ⟨s, hs, hs1, hs2, hs3'⟩ := insert_fresh h.1 par n.2 ref (by rw [hhd]; exact hpx)
      (by
        rw [hhd]
        rcases href' with e | ⟨r, e1, e2, e3, e4, _⟩
        · exact Or.inl e
        · exact Or.inr ⟨r, e1, e2, e3, e4⟩)
    obtain ⟨ch, hch, he, _, hf⟩ := hkids s h.2 (by rw [hs1, hhd]; exact hx3)
    simp only [bind, Except.bind, pure, Except.pure] at hch hh hs ⊢
    simp only [hh, hs, hch]
    refine ⟨_, n.2, rfl, he, ?_⟩
    exact created_weex st1.dom st3.dom s.dom ch.1.dom par n.2 ref h1 (by rw [ht3.1, h2])
      (by rw [ht3.2.1, h3, h1]) (by rw [ht3.2.2, h4, h1]) (by rw [hs1, hhd])
      (by rw [hs2, hhd]) (by rw [hs3', hhd]) hf hpar
  simp only [bind, Except.bind, pure, Except.pure] at hweb hweex ⊢
  obtain ⟨rb, xb, hrb, heb, hcb⟩ := hweb
  obtain ⟨rx, xx, hrx, hex, hcx⟩ := hweex
  cases hw : E.weex with
  | true =>
    simp only [if_true]
    by_cases ha : (v.data.map (fun d => d.appendAsTree)) = some true
    · simp only [ha, if_true]
      rw [hrb]
      refine ⟨_, xb, rfl, heb, ?_⟩
      simp only
      split <;> exact hcb
    · simp only [ha, if_false]
      rw [hrx]
      refine ⟨_, xx, rfl, hex, ?_⟩
      simp only
      split <;> exact hcx
  | false =>
    simp only [Bool.false_eq_true, if_false]
    rw [hrb]
    refine ⟨_, xb, rfl, heb, ?_⟩
    simp only
    split <;> exact hcb
theorem createComponent_plain (E : Env) (fuel : Nat) (st : St) (q : Queue) (v : VNode)
    (pe re : Option Nat) (hci : v.componentInstance = none)
    (hinit : (v.data.bind (fun x => x.hook)).bind (fun h => h.init) = none) :
    createComponent E fuel st q v pe re = Except.ok (st, q, v, false) := by
  unfold createComponent
  cases hd : v.data with
  | none => rfl
  | some data =>
    rw [hd] at hinit
    simp only [Option.some_bind] at hinit
    simp only [hinit, hci, Option.isSome_none, Bool.false_eq_true, if_false]
    rfl

theorem newPlain_facts (d : Nat) (v : VNode) (h : newPlain (d + 1) v = true) :
    v.isAsyncPlaceholder = false ∧ v.componentInstance = none ∧ v.parent = none ∧
      (v.data.bind (fun x => x.hook)).bind (fun h => h.init) = none ∧
      duplicateKeysFrom [] (v.children.getD []) = [] ∧
      ∀ c ∈ v.children.getD [], newPlain d c = true := by
  unfold newPlain at h
  simp only [Bool.and_eq_true, Bool.not_eq_true', Option.isNone_iff_eq_none,
    decide_eq_true_eq, List.all_eq_true] at h
  obtain ⟨⟨⟨⟨⟨h1, h2⟩, h3⟩, h4⟩, h5⟩, h6⟩ := h
  exact ⟨h1, h2, h3, h4, h5, h6⟩

/-- On a new vnode tree without components `createElm` returns: the vnode gets a new
backend node, inserted under the parent before the reference node, and nothing else
changes among the nodes that existed. -/
theorem createElm_spec (E : Env) :
    ∀ (d : Nat) (n : VNode), newPlain d n = true →
      ∀ (st : St) (q : Queue) (par : Nat) (ref : Option Nat) (nested owned : Bool),
        par < st.dom.next →
        (ref = none ∨ ∃ r, ref = some r ∧ st.dom.parent r = some par ∧
          r ∈ st.dom.children par ∧ r < st.dom.next) →
        ∃ r x, createElm E d st q n (some par) ref nested owned = Except.ok r ∧
          r.2.2.elm = some x ∧ Created st.dom r.1.dom par x ref := by
  intro d
  induction d with
  | zero =>
    intro n hn
    unfold newPlain at hn
    cases hn
  | succ d ih =>
    intro n hn st q par ref nested owned hpar href
    obtain ⟨_, hci, hpn, hinit, _, hkids⟩ := newPlain_facts d n hn
    unfold createElm
    simp only
    generalize hst0 : (if (n.elm.isSome && owned) = true then
      ({ st with nextOid := st.nextOid + 1 } : St) else st) = st0
    have hd0 : st0.dom = st.dom := by
      rw [← hst0]
      split <;> rfl
    generalize hv1 : ({ (if (n.elm.isSome && owned) = true then cloneVNode st.nextOid n
      else n) with isRootInsert := !nested } : VNode) = v1
    have hv1f : v1.componentInstance = none ∧ v1.parent = none ∧
        (v1.data.bind (fun x => x.hook)).bind (fun h => h.init) = none ∧
        v1.children = n.children := by
      rw [← hv1]
      split
      · exact ⟨rfl, rfl, hinit, rfl⟩
      · exact ⟨hci, hpn, hinit, rfl⟩
    obtain ⟨hci1, hp1, hinit1, hch1⟩ := hv1f
    rw [createComponent_plain E (d + 1) st0 q v1 (some par) ref hci1 hinit1]
    simp only [bind, Except.bind, Bool.false_eq_true, if_false]
    have hpar0 : par < st0.dom.next := by rw [hd0]; exact hpar
    have href0 : ref = none ∨ ∃ r, ref = some r ∧ st0.dom.parent r = some par ∧
        r ∈ st0.dom.children par ∧ r < st0.dom.next := by rw [hd0]; exact href
    cases htag : v1.tag with
    | none =>
      simp only
      obtain ⟨r, x, h1, h2, h3⟩ := createElmText_spec st0 q v1 par ref hpar0 href0
      rw [hd0] at h3
      exact ⟨r, x, h1, h2, h3⟩
    | some tag =>
      simp only
      obtain ⟨r, x, h1, h2, h3⟩ := createElmElement_spec E d (createElm E d) st0 q v1 tag par
        ref hp1
        (fun c hc x s q' hx => by
          obtain ⟨r, x', e1, _, e3⟩ := ih c (hkids c (by rw [← hch1]; exact hc)) s q' x none
            true true hx (Or.inl rfl)
          exact ⟨r, x', e1, e3⟩)
        hpar0 href0
      rw [hd0] at h3
      exact ⟨r, x, h1, h2, h3⟩

theorem createElm_meets (E : Env) (d : Nat) (news : List VNode)
    (h : ∀ n ∈ news, newPlain d n = true) : CreateSpec news (createElm E d) := by
  intro st q n par ref hn hpar href
  obtain ⟨r, x, h1, h2, h3⟩ := createElm_spec E d n (h n hn) st q par ref false true hpar href
  exact ⟨r, x, h1, h2, h3.fresh, h3.lt, h3.children_par, h3.parent_x, h3.frame⟩
/-! ## `patchVnode` meets its contract -/

theorem lookup_none_iff {α : Type} (m : JsMap α) (name : String) :
    m.lookup name = none ↔ name ∉ m.map (fun e => e.1) := by
  induction m with
  | nil => simp
  | cons e m ih =>
    obtain ⟨k, a⟩ := e
    rw [List.lookup_cons]
    by_cases h : (name == k) = true
    · rw [h]
      have : name = k := beq_iff_eq.1 h
      simp [this]
    · simp only [h]
      have hne : name ≠ k := fun e => h (beq_iff_eq.2 e)
      rw [ih]
      simp [hne]

/-- When `checkDuplicateKeys` finds nothing, the keys are distinct as property names and
none of them names a member of `Object.prototype`. -/
theorem duplicateKeysFrom_nil :
    ∀ (l : List VNode) (seen : JsMap Unit), duplicateKeysFrom seen l = [] →
      ((l.filterMap (fun n => n.key)).map propName).Nodup ∧
        ∀ name ∈ (l.filterMap (fun n => n.key)).map propName,
          name ∉ seen.map (fun e => e.1) ∧ name ∉ objectPrototypeNames := by
  intro l
  induction l with
  | nil => intro seen _; exact ⟨List.nodup_nil, fun _ h => by cases h⟩
  | cons v l ih =>
    intro seen h
    unfold duplicateKeysFrom at h
    cases hk : v.key with
    | none =>
      rw [hk] at h
      simp only at h
      rw [List.filterMap_cons_none hk]
      exact ih seen h
    | some key =>
      rw [hk] at h
      simp only at h
      rw [List.filterMap_cons_some hk, List.map_cons]
      unfold JsMap.get at h
      cases hl : seen.lookup (propName key) with
      | some a =>
        rw [hl] at h
        simp only at h
        cases h
      | none =>
        rw [hl] at h
        simp only at h
        by_cases hp : propName key ∈ objectPrototypeNames
        · rw [if_pos hp] at h
          simp only at h
          cases h
        · rw [if_neg hp] at h
          simp only at h
          have hproto : propName key ≠ "__proto__" := by
            intro e
            apply hp
            rw [e]
            decide
          unfold JsMap.set at h
          rw [if_neg hproto] at h
          obtain ⟨h1, h2⟩ := ih _ h
          have hseen := (lookup_none_iff seen (propName key)).1 hl
          refine ⟨List.nodup_cons.2 ⟨?_, h1⟩, ?_⟩
          · intro hm
            have := (h2 _ hm).1
            apply this
            simp
          · intro name hname
            rcases List.mem_cons.1 hname with e | e
            · rw [e]; exact ⟨hseen, hp⟩
            · obtain ⟨h3, h4⟩ := h2 name e
              refine ⟨fun hm => h3 ?_, h4⟩
              simp only [List.map_cons, List.mem_cons]
              exact Or.inr hm

theorem keys_of_silent (news : List VNode) (h : duplicateKeysFrom [] news = []) :
    ((news.filterMap (fun n => n.key)).map propName).Nodup ∧
      ∀ n ∈ news, ∀ k, n.key = some k → propName k ∉ objectPrototypeNames := by
  obtain ⟨h1, h2⟩ := duplicateKeysFrom_nil news [] h
  refine ⟨h1, fun n hn k hk => (h2 (propName k) ?_).2⟩
  exact List.mem_map.2 ⟨k, List.mem_filterMap.2 ⟨n, hn, hk⟩, rfl⟩

theorem setTextContent_frame (st : St) (e : Nat) (text : String) :
    Frame st.dom (nodeOps.setTextContent st e text).dom [e] [] [e] := by
  unfold nodeOps.setTextContent
  split
  · by_cases ht : text = ""
    · simp only [ht, if_true]
      refine ⟨Nat.le_refl _, fun y _ hy => ?_, fun y _ _ hq => ?_⟩
      · have : y ≠ e := fun h => hy (by rw [h]; simp)
        simp [Function.update, this]
      · show (if st.dom.parent y = some e then none else st.dom.parent y) = st.dom.parent y
        split
        · rename_i hpe
          exact absurd (List.mem_singleton.2 rfl) (hq e hpe)
        · rfl
    · simp only [ht, if_false]
      refine ⟨?_, fun y hlt hy => ?_, fun y hlt _ hq => ?_⟩
      · show st.dom.next ≤ st.dom.next + 1
        omega
      · have h1 : y ≠ e := fun h => hy (by rw [h]; simp)
        have h2 : y ≠ st.dom.next := by omega
        simp [nodeOps.fresh, Function.update, h1, h2]
      · have h2 : y ≠ st.dom.next := by omega
        simp only [nodeOps.fresh, Function.update, h2]
        simp only [eq_rec_constant, dite_eq_ite, if_false]
        split
        · rename_i hpe
          exact absurd (List.mem_singleton.2 rfl) (hq e hpe)
        · rfl
  · exact ⟨Nat.le_refl _, fun _ _ _ => rfl, fun _ _ _ _ => rfl⟩
theorem oldPlain_facts (E : Env) (d : Nat) (v : VNode) (h : oldPlain E (d + 1) v = true) :
    v.isAsyncPlaceholder = false ∧ v.componentInstance = none ∧ syncRemove E v = true ∧
      ∀ c ∈ v.children.getD [], oldPlain E d c = true := by
  unfold oldPlain at h
  simp only [Bool.and_eq_true, Bool.not_eq_true', Option.isNone_iff_eq_none,
    List.all_eq_true] at h
  obtain ⟨⟨⟨h1, h2⟩, h3⟩, h4⟩ := h
  exact ⟨h1, h2, h3, h4⟩

theorem oldPlain_pos (E : Env) (d : Nat) (v : VNode) (h : oldPlain E d v = true) :
    v.isAsyncPlaceholder = false ∧ v.componentInstance = none ∧ syncRemove E v = true := by
  cases d with
  | zero => unfold oldPlain at h; cases h
  | succ d =>
    obtain ⟨h1, h2, h3, _⟩ := oldPlain_facts E d v h
    exact ⟨h1, h2, h3⟩

theorem newPlain_pos (d : Nat) (v : VNode) (h : newPlain d v = true) :
    v.isAsyncPlaceholder = false ∧ v.componentInstance = none := by
  cases d with
  | zero => unfold newPlain at h; cases h
  | succ d =>
    obtain ⟨h1, h2, _⟩ := newPlain_facts d v h
    exact ⟨h1, h2⟩

theorem isPatchable_plain (fuel : Nat) (v : VNode) (h : v.componentInstance = none) :
    isPatchable (fuel + 1) v = Except.ok v.tag.isSome := by
  unfold isPatchable
  rw [h]
  rfl

theorem sharedOk_of_apart (d : Nat) (olds news : List VNode) (h : apart d olds news = true) :
    SharedOk d olds news := by
  intro o ho n hn e
  unfold apart at h
  simp only [Bool.and_eq_true, List.all_eq_true, decide_eq_true_eq] at h
  exact absurd e (h.2 n hn o ho)

theorem nodesOf_head (d : Nat) (v : VNode) : v ∈ nodesOf d v := by
  cases d with
  | zero => simp [nodesOf]
  | succ d => simp [nodesOf]

theorem apart_top (d : Nat) (o n : VNode) (h : apart d [o] [n] = true) : o.oid ≠ n.oid := by
  unfold apart at h
  simp only [Bool.and_eq_true, List.all_eq_true, decide_eq_true_eq] at h
  exact h.2 n (by simpa using nodesOf_head d n) o (by simpa using nodesOf_head d o)

theorem sharedOk_children (d : Nat) (o n : VNode) (oc nc : List VNode)
    (h : SharedOk (d + 1) [o] [n]) (ho : o.children = some oc) (hn : n.children = some nc) :
    ∀ o' ∈ oc, ∀ n' ∈ nc, SharedOk d [o'] [n'] := by
  intro o' ho' n' hn' a ha b hb hab
  apply h a _ b _ hab
  · simp only [List.flatMap_cons, List.flatMap_nil, List.append_nil] at ha ⊢
    unfold nodesOf
    rw [ho]
    exact List.mem_cons_of_mem _ (List.mem_flatMap.2 ⟨o', ho', ha⟩)
  · simp only [List.flatMap_cons, List.flatMap_nil, List.append_nil] at hb ⊢
    unfold nodesOf
    rw [hn]
    exact List.mem_cons_of_mem _ (List.mem_flatMap.2 ⟨n', hn', hb⟩)

theorem sharedOk_top (d : Nat) (o n : VNode) (h : SharedOk d [o] [n]) (e : o.oid = n.oid) :
    n.elm = o.elm := by
  apply h o _ n _ e
  · simp only [List.flatMap_cons, List.flatMap_nil, List.append_nil]
    cases d <;> (unfold nodesOf; simp)
  · simp only [List.flatMap_cons, List.flatMap_nil, List.append_nil]
    cases d <;> (unfold nodesOf; simp)

theorem elmsOf_succ (d : Nat) (o : VNode) (e : Nat) (cs : List VNode) (he : o.elm = some e)
    (hc : o.children.getD [] = cs) :
    elmsOf (d + 1) o = e :: cs.flatMap (elmsOf d) ∧
      strictElmsOf (d + 1) o = cs.flatMap (elmsOf d) := by
  constructor
  · show o.elm.toList ++ (o.children.getD []).flatMap (elmsOf d) = _
    rw [he, hc]
    rfl
  · show (o.children.getD []).flatMap (elmsOf d) = _
    rw [hc]

theorem invokeUpdateHooks_spec (E : Env) (fuel : Nat) (st1 : St) (v : VNode)
    (hci : v.componentInstance = none) :
    ∃ st2, invokeUpdateHooks E fuel st1 v = Except.ok st2 ∧ st2.dom = st1.dom := by
  unfold invokeUpdateHooks
  rw [isPatchable_plain fuel v hci]
  simp only [bind, Except.bind, pure, Except.pure]
  by_cases hd : v.data.isSome = true
  · rw [if_pos hd]
    by_cases ht : v.tag.isSome = true
    · rw [if_pos ht]
      refine ⟨_, rfl, ?_⟩
      split
      · exact emitModuleHooks_dom _ _ _ _
      · exact emitModuleHooks_dom _ _ _ _
    · rw [if_neg ht]
      exact ⟨_, rfl, rfl⟩
  · rw [if_neg hd]
    exact ⟨_, rfl, rfl⟩

theorem setTextIf_spec (st : St) (e : Nat) (text : String) (c : Prop) [Decidable c] :
    ∃ s, (if c then setTextContentAt st (some e) text else Except.ok st) = Except.ok s ∧
      Frame st.dom s.dom [e] [] [e] := by
  by_cases h : c
  · rw [if_pos h]
    exact ⟨_, rfl, setTextContent_frame st e text⟩
  · rw [if_neg h]
    exact ⟨_, rfl, frame_refl _ _ _ _⟩

/-- The children part of `patchVnode` returns and touches only backend nodes of the old
subtree, given callees that meet their contracts on the children. -/
theorem patchVnodeChildren_spec (E : Env) (d : Nat) (patchV : PatchFn) (createE : CreateFn)
    (o v : VNode) (st2 : St) (q : Queue) (e : Nat)
    (he : o.elm = some e) (hve : v.elm = o.elm)
    (ho : oldPlain E (d + 1) o = true)
    (hkids : ∀ c ∈ v.children.getD [], newPlain d c = true)
    (hdup : duplicateKeysFrom [] (v.children.getD []) = [])
    (hP : ∀ oc nc, o.children = some oc → v.children = some nc →
      PatchSpec { E := E, d := d, p := e, olds := oc, news := nc, dom0 := st2.dom } patchV)
    (hCr : CreateSpec (v.children.getD []) createE)
    (hren : rendered (d + 1) st2.dom o = true)
    (hnd : (elmsOf (d + 1) o).Nodup)
    (hbd : ∀ y ∈ elmsOf (d + 1) o, y < st2.dom.next) :
    ∃ r, patchVnodeChildren E d patchV createE st2 q o v false = Except.ok r ∧
      r.2.2.elm = o.elm ∧
      Frame st2.dom r.1.dom (elmsOf (d + 1) o) (strictElmsOf (d + 1) o)
        (elmsOf (d + 1) o) := by
  obtain ⟨_, _, _, hokids⟩ := oldPlain_facts E d o ho
  obtain ⟨e', he', hcs⟩ := (rendered_succ_iff d st2.dom o).1 hren
  rw [he] at he'
  cases he'
  have heE : e ∈ elmsOf (d + 1) o := elm_mem_elmsOf _ _ _ he
  have hmono1 : ∀ {b : Dom}, Frame st2.dom b [e] [] [e] →
      Frame st2.dom b (elmsOf (d + 1) o) (strictElmsOf (d + 1) o) (elmsOf (d + 1) o) := by
    intro b hf
    refine frame_mono hf ?_ ?_ ?_
    · intro y hy; rw [List.mem_singleton.1 hy]; exact heE
    · intro y hy; cases hy
    · intro y hy; rw [List.mem_singleton.1 hy]; exact heE
  have helt : e < st2.dom.next := hbd e heE
  have hve' : v.elm = some e := hve.trans he
  unfold patchVnodeChildren
  simp only [he, bind, Except.bind, pure, Except.pure]
  cases htext : v.text with
  | some text =>
    simp only
    by_cases hne : o.text ≠ some text
    · rw [if_pos hne]
      exact ⟨_, rfl, hve', hmono1 (setTextContent_frame st2 e text)⟩
    · rw [if_neg hne]
      exact ⟨_, rfl, hve', frame_refl _ _ _ _⟩
  | none =>
    simp only
    cases hoc : o.children with
    | none =>
      cases hnc : v.children with
      | none =>
        simp only
        obtain ⟨s, hs, hf⟩ := setTextIf_spec st2 e "" (o.text.isSome = true)
        rw [hs]
        exact ⟨_, rfl, hve', hmono1 hf⟩
      | some nc =>
        simp only
        obtain ⟨s, hs, hf⟩ := setTextIf_spec st2 e "" (o.text.isSome = true)
        rw [hs]
        simp only
        rw [hnc] at hCr
        obtain ⟨r, nF', xs, hr, hres, _, _, _, _, _, hf2⟩ :=
          addVnodesLoop_spec nc createE hCr e none [] nc [] s q (fun n hn => hn)
            (Nat.lt_of_lt_of_le helt hf.next_le) (Or.inl rfl)
        unfold addVnodes
        have hcount : ((nc.length : Int) - 1 - 0 + 1).toNat = nc.length := by omega
        rw [hcount]
        simp only [List.length_nil, Nat.cast_zero, List.nil_append, List.append_nil] at hr
        rw [hr]
        simp only
        refine ⟨_, rfl, hve', hmono1 (frame_trans hf (frame_mono hf2 ?_ ?_ ?_))⟩
        · exact fun y hy => hy
        · exact fun y hy => hy
        · intro y hy; cases hy
    | some oc =>
      have hoc' : o.children.getD [] = oc := by rw [hoc]; rfl
      obtain ⟨hE1, hE2⟩ := elmsOf_succ d o e oc he hoc'
      obtain ⟨hch, hcall⟩ := hcs oc hoc
      have hnd' : (e :: oc.flatMap (elmsOf d)).Nodup := by rw [← hE1]; exact hnd
      have hbd' : ∀ y ∈ e :: oc.flatMap (elmsOf d), y < st2.dom.next := by
        rw [← hE1]; exact hbd
      cases hnc : v.children with
      | none =>
        simp only
        have hsub := top_elms_sublist d oc _ hch
        obtain ⟨st', hr, hnx, _, hoth, hparent⟩ :=
          removeVnodesLoop_spec E d st2.dom e [] [] (oc.map some) [] st2 []
            (st2.dom.children e) (by simp)
            (by rw [reduceOption_map_some]; exact hch.symm)
            (by
              simp only [List.nil_append, List.append_nil]
              exact List.Nodup.sublist hsub (List.nodup_cons.1 hnd').2)
            (by
              intro y hy
              have : some y ∈ oc.map (fun c => c.elm) := by
                rw [← hch]; exact List.mem_map.2 ⟨y, hy, rfl⟩
              obtain ⟨c, hc, hce⟩ := List.mem_map.1 this
              obtain ⟨⟨x, hx1, hx2⟩, _⟩ := hcall c hc
              rw [hce] at hx1
              cases hx1
              exact hx2)
            (by
              intro c hc
              obtain ⟨c', hc', e1⟩ := List.mem_map.1 hc
              have e2 : c' = c := Option.some.inj e1
              subst e2
              obtain ⟨_, h2, h3⟩ := oldPlain_pos E d c' (hokids c' (by rw [hoc']; exact hc'))
              exact ⟨(hcall c' hc').2, h2, h3⟩)
        unfold removeVnodes
        have hcount : ((oc.length : Int) - 1 - 0 + 1).toNat = (oc.map some).length := by
          simp
        rw [hcount]
        simp only [List.length_nil, Nat.cast_zero, List.nil_append, List.append_nil] at hr
        rw [hr]
        refine ⟨_, rfl, hve', ⟨by rw [hnx], fun y _ hy => ?_, fun y _ hy _ => ?_⟩⟩
        · exact hoth y (fun e1 => hy (by rw [e1]; exact heE))
        · refine hparent y (fun hm => hy ?_)
          rw [hE2]
          exact List.Sublist.subset hsub hm
      | some nc =>
        simp only
        by_cases href : o.childrenRef ≠ v.childrenRef
        · rw [if_pos href]
          have hnc' : v.children.getD [] = nc := by rw [hnc]; rfl
          rw [hnc'] at hkids hdup hCr
          obtain ⟨hk1, hk2⟩ := keys_of_silent nc hdup
          have hC : CtxOk { E := E, d := d, p := e, olds := oc, news := nc, dom0 := st2.dom } :=
            { nodup := hnd'
              bound := hbd'
              oldAsync := fun c hc => (oldPlain_pos E d c (hokids c (by rw [hoc']; exact hc))).1
              oldComp := fun c hc =>
                (oldPlain_pos E d c (hokids c (by rw [hoc']; exact hc))).2.1
              oldSync := fun c hc =>
                (oldPlain_pos E d c (hokids c (by rw [hoc']; exact hc))).2.2
              newAsync := fun c hc => (newPlain_pos d c (hkids c hc)).1 }
          obtain ⟨L, hL, _, _, hf⟩ := updateChildren_spec
            { E := E, d := d, p := e, olds := oc, news := nc, dom0 := st2.dom } hC
            ⟨hk1, hk2⟩ patchV createE
            (hP oc nc hoc hnc) hCr st2 q rfl hch (fun c hc => (hcall c hc).1)
            (fun c hc => (hcall c hc).2)
          simp only at hL
          rw [hL]
          refine ⟨_, rfl, hve', ?_⟩
          rw [hE1, hE2]
          exact frame_mono hf (fun y hy => hy) (fun y hy => hy)
            (fun y hy => List.mem_cons_of_mem _ hy)
        · rw [if_neg href]
          exact ⟨_, rfl, hve', frame_refl _ _ _ _⟩
/-- On an old vnode tree that is rendered, with pairwise distinct backend nodes, and a new
vnode tree, both without components, `patchVnode` returns: the new vnode takes over the
backend node of the old one and only backend nodes of the old subtree are touched. -/
theorem patchVnode_spec (E : Env) :
    ∀ (d : Nat) (o n : VNode), oldPlain E d o = true → newPlain d n = true →
      SharedOk d [o] [n] →
      ∀ (st : St) (q : Queue), rendered d st.dom o = true → (elmsOf d o).Nodup →
        (∀ y ∈ elmsOf d o, y < st.dom.next) →
        ∃ r, patchVnode E d st q o n false = Except.ok r ∧ r.2.2.elm = o.elm ∧
          Frame st.dom r.1.dom (elmsOf d o) (strictElmsOf d o) (elmsOf d o) := by
  intro d
  induction d with
  | zero =>
    intro o n ho
    unfold oldPlain at ho
    cases ho
  | succ d ih =>
    intro o n ho hn hsh st q hren hnd hbd
    obtain ⟨hoa, hoci, hos, hokids⟩ := oldPlain_facts E d o ho
    obtain ⟨hna, hnci, hnp, hninit, hndup, hnkids⟩ := newPlain_facts d n hn
    obtain ⟨e, he, hcs⟩ := (rendered_succ_iff d st.dom o).1 hren
    unfold patchVnode
    by_cases hid : o.oid = n.oid
    · rw [if_pos hid]
      exact ⟨_, rfl, sharedOk_top _ o n hsh hid, frame_refl _ _ _ _⟩
    · rw [if_neg hid]
      simp only [hoa, Bool.false_eq_true, if_false]
      split
      · exact ⟨_, rfl, rfl, frame_refl _ _ _ _⟩
      · have key : ∀ (v : VNode) (st1 : St), v.elm = o.elm → v.componentInstance = none →
            v.children = n.children → st1.dom = st.dom →
            ∃ r, (do
                let st2 ← invokeUpdateHooks E d st1 v
                let r ← patchVnodeChildren E d (fun s q o n => patchVnode E d s q o n false)
                  (createElm E d) st2 q o v false
                pure ((if (Option.map (fun h => h.postpatch) (v.data.bind fun d => d.hook))
                    = some true then r.1.emit (Op.dataHook HookName.postpatch r.2.2)
                  else r.1), r.2.1, r.2.2) : Res (St × Queue × VNode)) = Except.ok r ∧
              r.2.2.elm = o.elm ∧
              Frame st.dom r.1.dom (elmsOf (d + 1) o) (strictElmsOf (d + 1) o)
                (elmsOf (d + 1) o) := by
          intro v st1 hve hvci hvch hd1
          obtain ⟨st2, hs2, hd2⟩ := invokeUpdateHooks_spec E d st1 v hvci
          have hd2' : st2.dom = st.dom := by rw [hd2, hd1]
          have hCr : CreateSpec (v.children.getD []) (createElm E d) :=
            createElm_meets E d _ (by rw [hvch]; exact hnkids)
          have hP : ∀ oc nc, o.children = some oc → v.children = some nc →
              PatchSpec { E := E, d := d, p := e, olds := oc, news := nc, dom0 := st2.dom }
                (fun s q o n => patchVnode E d s q o n false) := by
            intro oc nc hoc hnc s q' o' n' ho' hn' hr hle
            have hoc' : o.children.getD [] = oc := by rw [hoc]; rfl
            have hnc' : n.children.getD [] = nc := by rw [← hvch, hnc]; rfl
            obtain ⟨hE1, _⟩ := elmsOf_succ d o e oc he hoc'
            have hnd' : (oc.flatMap (elmsOf d)).Nodup := by
              rw [hE1] at hnd
              exact (List.nodup_cons.1 hnd).2
            refine ih o' n' (hokids o' (by rw [hoc']; exact ho'))
              (hnkids n' (by rw [hnc']; exact hn'))
              (sharedOk_children d o n oc nc hsh hoc (by rw [← hvch]; exact hnc) o' ho' n' hn')
              s q' hr ((List.nodup_flatMap.1 hnd').1 o' ho') ?_
            intro y hy
            have h1 : y ∈ elmsOf (d + 1) o := by
              rw [hE1]
              exact List.mem_cons_of_mem _ (List.mem_flatMap.2 ⟨o', ho', hy⟩)
            have h2 := hbd y h1
            have h3 : st2.dom.next ≤ s.dom.next := hle
            rw [hd2'] at h3
            omega
          obtain ⟨r, hr, hre, hf⟩ := patchVnodeChildren_spec E d
            (fun s q o n => patchVnode E d s q o n false) (createElm E d) o v st2 q e he hve ho
            (by rw [hvch]; exact hnkids) (by rw [hvch]; exact hndup) hP hCr
            (by rw [hd2']; exact hren) hnd (by rw [hd2']; exact hbd)
          simp only [hs2, hr, bind, Except.bind, pure, Except.pure]
          refine ⟨_, rfl, hre, ?_⟩
          rw [hd2'] at hf
          simp only
          split <;> exact hf
        exact key { n with elm := o.elm } _ rfl hnci rfl (by split <;> rfl)
/-! ## The contract of `updateChildren` on whole trees -/

theorem ctxOk_of (E : Env) (d : Nat) (st : St) (p : Nat) (olds news : List VNode)
    (hold : ∀ o ∈ olds, oldPlain E d o = true)
    (hnew : ∀ n ∈ news, newPlain d n = true)
    (hnd : (p :: olds.flatMap (elmsOf d)).Nodup)
    (hbd : ∀ x ∈ p :: olds.flatMap (elmsOf d), x < st.dom.next) :
    CtxOk { E := E, d := d, p := p, olds := olds, news := news, dom0 := st.dom } :=
  { nodup := hnd
    bound := hbd
    oldAsync := fun o ho => (oldPlain_pos E d o (hold o ho)).1
    oldComp := fun o ho => (oldPlain_pos E d o (hold o ho)).2.1
    oldSync := fun o ho => (oldPlain_pos E d o (hold o ho)).2.2
    newAsync := fun n hn => (newPlain_pos d n (hnew n hn)).1 }

theorem sharedOk_pair (d : Nat) (olds news : List VNode) (h : SharedOk d olds news)
    (o n : VNode) (ho : o ∈ olds) (hn : n ∈ news) : SharedOk d [o] [n] := by
  intro a ha b hb hab
  apply h a _ b _ hab
  · simp only [List.flatMap_cons, List.flatMap_nil, List.append_nil] at ha
    exact List.mem_flatMap.2 ⟨o, ho, ha⟩
  · simp only [List.flatMap_cons, List.flatMap_nil, List.append_nil] at hb
    exact List.mem_flatMap.2 ⟨n, hn, hb⟩

/-- On trees without components `patchVnode` meets the contract `updateChildren` relies
on. -/
theorem patchVnode_meets (C : Ctx) (hC : CtxOk C)
    (hold : ∀ o ∈ C.olds, oldPlain C.E C.d o = true)
    (hnew : ∀ n ∈ C.news, newPlain C.d n = true)
    (hshared : SharedOk C.d C.olds C.news) :
    PatchSpec C (fun s q o n => patchVnode C.E C.d s q o n false) := by
  intro s q o n ho hn hr hle
  refine patchVnode_spec C.E C.d o n (hold o ho) (hnew n hn)
    (sharedOk_pair C.d C.olds C.news hshared o n ho hn) s q hr (ctx_nodup_one C hC o ho) ?_
  intro y hy
  have := ctx_bound C hC o ho y hy
  omega

theorem parent_of_bind (st : St) (p : Nat) (olds : List VNode)
    (hpar : ∀ o ∈ olds, o.elm.bind st.dom.parent = some p) :
    ∀ o ∈ olds, ∃ x, o.elm = some x ∧ st.dom.parent x = some p := by
  intro o ho
  have := hpar o ho
  cases he : o.elm with
  | none => rw [he] at this; cases this
  | some x =>
    rw [he] at this
    exact ⟨x, rfl, this⟩

/-- C1: assume that the old trees are rendered under the parent at every depth (the backend
children of the parent are their backend nodes in order, each with the parent as its parent,
and so on below) on pairwise distinct backend nodes that exist; no vnode of the old or the
new trees is an async placeholder or has a component instance; no new vnode has a
placeholder parent or an `init` hook; the new vnodes are pairwise distinct objects, none of
them a vnode of the old trees (`apart`); no `remove` hook, of a module or of an old vnode,
keeps its callback for later; and `checkDuplicateKeys` is silent on the new children and on
every child list below them (the keys of such a list, as property names, are pairwise
distinct and name no member of `Object.prototype`). Then `updateChildren(parent, oldCh,
newCh)` with `removeOnly` false returns, and the backend children of the parent are the
backend nodes of the entries of `newCh` as the call leaves them, in order, every one of them
defined, whether or not the children carry keys. -/
theorem updateChildren_children (E : Env) (d : Nat) (st : St) (p : Nat)
    (olds news : List VNode)
    (hold : ∀ o ∈ olds, oldPlain E d o = true)
    (hnew : ∀ n ∈ news, newPlain d n = true)
    (hkeys : duplicateKeysFrom [] news = [])
    (hapart : apart d olds news = true)
    (hch : (st.dom.children p).map some = olds.map (fun v => v.elm))
    (hpar : ∀ o ∈ olds, o.elm.bind st.dom.parent = some p)
    (hren : ∀ o ∈ olds, rendered d st.dom o = true)
    (hnd : (p :: olds.flatMap (elmsOf d)).Nodup)
    (hbd : ∀ x ∈ p :: olds.flatMap (elmsOf d), x < st.dom.next) :
    ∃ L, runUpdateChildren E d st p olds news = Except.ok L ∧
      (L.st.dom.children p).map some = L.newCh.map (fun v => v.elm) ∧
      L.newCh.length = news.length := by
  have hshared := sharedOk_of_apart d _ _ hapart
  have hC := ctxOk_of E d st p olds news hold hnew hnd hbd
  obtain ⟨hk1, hk2⟩ := keys_of_silent news hkeys
  obtain ⟨L, hL, h1, h2, _⟩ := updateChildren_spec
    { E := E, d := d, p := p, olds := olds, news := news, dom0 := st.dom } hC ⟨hk1, hk2⟩
    (fun s q o n => patchVnode E d s q o n false) (createElm E d)
    (patchVnode_meets _ hC hold hnew hshared) (createElm_meets E d news hnew) st [] rfl hch
    (parent_of_bind st p olds hpar) hren
  exact ⟨L, hL, h1, h2⟩

/-- C1 (witness): a list of three keyed items, each with a text, patched to a list that
moves one item, keeps one, drops one and adds one. -/
theorem updateChildren_children_witness :
    ∃ L, runUpdateChildren (exEnv true) 2 (exSt exListDom) 0 exListOld exListNew
        = Except.ok L ∧
      (L.st.dom.children 0).map some = L.newCh.map (fun v => v.elm) ∧
      L.newCh.length = exListNew.length :=
  updateChildren_children (exEnv true) 2 (exSt exListDom) 0 exListOld exListNew
    (by decide) (by decide) (by decide) (by decide) (by decide) (by decide)
    (by decide) (by decide) (by decide)
/-- C1 (counterexample): three inputs on which the parent has the backend nodes of the old
children as its children and the keys are pairwise distinct. With the new keys `"1"` and
`1`, which name one property of the table built by `createKeyToOldIdx`, the call raises a
`TypeError` (the second lookup finds the slot the first one emptied). With the new key
`"toString"` the lookup finds a member of `Object.prototype` and the call raises as well.
With a `remove` hook that keeps its callback for later, the old child is still a child of
the parent when the call returns. -/
theorem updateChildren_children_counterexample :
    (((exFlatDom 3).children 0).map some = exCoerceOld.map (fun v => v.elm) ∧
      (exCoerceOld.map (fun v => v.key)).Nodup ∧
      (exCoerceNew.map (fun v => v.key)).Nodup ∧
      errorOf (runUpdateChildren (exEnv true) 1 (exSt (exFlatDom 3)) 0 exCoerceOld exCoerceNew)
        = some Err.typeError) ∧
    errorOf (runUpdateChildren (exEnv true) 1 (exSt (exFlatDom 1)) 0
      [exOld 1 "li" (some (Key.str "a"))] [exNew 2 "li" (some (Key.str "toString"))])
        = some Err.typeError ∧
    outcome 0 (runUpdateChildren (exEnv false) 1 (exSt (exFlatDom 1)) 0
      [exOld 1 "li" (some (Key.str "a"))] [])
        = some ([1], [], [Action.remove 0]) := by
  refine ⟨⟨by decide, by decide, by decide, by decide⟩, by decide, by decide⟩
/-! ## Runs of the loop that only compare the ends -/

theorem loop_done (E : Env) (patchV : PatchFn) (createE : CreateFn) (pe : Option Nat)
    (fuel : Nat) (A : Parts) (h : A.oMid = [] ∨ A.nMid = []) :
    updateChildrenLoop E patchV createE pe true fuel A.toLoop = Except.ok A.toLoop := by
  have hc : ¬ (A.toLoop.oldStartIdx ≤ A.toLoop.oldEndIdx ∧
      A.toLoop.newStartIdx ≤ A.toLoop.newEndIdx) := by
    rw [toLoop_cond]
    intro hh
    rcases h with e | e
    · exact hh.1 e
    · exact hh.2 e
  cases fuel <;> (unfold updateChildrenLoop; rw [if_neg hc]; rfl)

theorem loop_step (E : Env) (patchV : PatchFn) (createE : CreateFn) (pe : Option Nat)
    (fuel : Nat) (A A1 : Parts) (ho : A.oMid ≠ []) (hn : A.nMid ≠ [])
    (hstep : updateChildrenStep E patchV createE pe true A.toLoop = Except.ok A1.toLoop) :
    updateChildrenLoop E patchV createE pe true (fuel + 1) A.toLoop
      = updateChildrenLoop E patchV createE pe true fuel A1.toLoop := by
  conv => lhs; unfold updateChildrenLoop
  rw [if_pos ((toLoop_cond A).2 ⟨ho, hn⟩)]
  simp only [hstep, bind, Except.bind]

theorem range_succ_map {α : Type} (f : Nat → α) (n : Nat) :
    (List.range (n + 1)).map f = f 0 :: (List.range n).map (fun i => f (i + 1)) := by
  rw [List.range_succ_eq_map, List.map_cons, List.map_map]
  rfl

/-- When the old window and the new window match pairwise from the start, the loop patches
the pairs in order and ends with both windows empty. -/
theorem run_matchStart (C : Ctx) (hC : CtxOk C) (patchV : PatchFn) (createE : CreateFn)
    (hP : PatchSpec C patchV) :
    ∀ (X X' : List VNode),
      List.Forall₂ (fun o n => sameVnodeAt C.E (some o) (some n) = Except.ok true) X X' →
      ∀ (A : Parts) (G : Ghost) (fuel : Nat), LoopInv C A G → A.oMid = X.map some →
        A.nMid = X' → X.length ≤ fuel →
        ∃ A' G', updateChildrenLoop C.E patchV createE (some C.p) true fuel A.toLoop
            = Except.ok A'.toLoop ∧
          LoopInv C A' G' ∧ A'.oMid = [] ∧ A'.nMid = [] ∧ A'.nB = A.nB ∧
          A'.nF.map (fun v => v.elm) = A.nF.map (fun v => v.elm) ++ X.map (fun v => v.elm) ∧
          A'.trace = A.trace ++ (List.range X.length).map
            (fun (i : Nat) => Action.patch ((A.oD1.length : Int) + (i : Int))
              ((A.nF.length : Int) + (i : Int))) := by
  intro X X' h
  induction h with
  | nil =>
    intro A G fuel hI ho hn _
    exact ⟨A, G, loop_done C.E patchV createE (some C.p) fuel A (Or.inl ho), hI, ho, hn, rfl,
      by simp, by simp⟩
  | @cons o n Xr Xr' hsame hrest ih =>
    intro A G fuel hI ho hn hfuel
    obtain ⟨f, hf⟩ : ∃ f, fuel = f + 1 := ⟨fuel - 1, by simp at hfuel; omega⟩
    subst hf
    have ho' : A.oMid = some o :: Xr.map some := by rw [ho]; rfl
    -- the old end is defined
    obtain ⟨Mi, oe, hoe⟩ : ∃ Mi oe, A.oMid = Mi ++ [some oe] := by
      rcases List.eq_nil_or_concat (o :: Xr) with e | ⟨Z, z, e⟩
      · cases e
      · rw [List.concat_eq_append] at e
        exact ⟨Z.map some, z, by rw [ho, e]; simp⟩
    obtain ⟨r, hr, G1, hG1⟩ := inv_matchStart C hC patchV hP A G hI o n (Xr.map some) Xr'
      (A.trace ++ [Action.patch A.oD1.length A.nF.length]) ho' hn
      (sameVnodeAt_key C.E o n hsame)
    have hstep := step_matchStart C.E patchV createE (some C.p) true A o oe (Xr.map some) n Xr'
      r ho' (toLoop_oldEnd A (some oe) Mi hoe) hn hsame hr
    obtain ⟨A', G', hrun, hI', h1, h2, h2b, h2f, h3⟩ := ih _ G1 f hG1 rfl rfl
      (by simp at hfuel; omega)
    obtain ⟨r', hr', he', _⟩ := after_patch C hC patchV hP A G hI o n
      (by rw [ho']; exact List.mem_cons_self _ _) (by rw [hI.news_eq, hn]; simp)
    have hrr : r' = r := Except.ok.inj (hr'.symm.trans hr)
    subst hrr
    refine ⟨A', G', ?_, hI', h1, h2, h2b, ?_, ?_⟩
    · rw [loop_step C.E patchV createE (some C.p) f A _ (by rw [ho']; simp) (by rw [hn]; simp)
        hstep]
      exact hrun
    · rw [h2f]
      simp [he']
    · rw [h3, List.length_cons, range_succ_map]
      simp only [List.length_append, List.length_singleton, List.append_assoc,
        List.singleton_append, Nat.cast_add, Nat.cast_one, Nat.cast_zero, add_zero]
      congr 2
      apply List.map_congr_left
      intro i _
      congr 1 <;> ring

/-- When the old start matches no new child and the old end matches the new end, pair
after pair, the loop patches the pairs from the end and stops with the new window
empty. -/
theorem run_matchEnd (C : Ctx) (hC : CtxOk C) (patchV : PatchFn) (createE : CreateFn)
    (hP : PatchSpec C patchV) (a1 : VNode) (M0 : List (Option VNode)) :
    ∀ (n : Nat) (Bs Bs' : List VNode), Bs.length = n →
      List.Forall₂ (fun o n => sameVnodeAt C.E (some o) (some n) = Except.ok true) Bs Bs' →
      (∀ b' ∈ Bs', sameVnodeAt C.E (some a1) (some b') = Except.ok false) →
      ∀ (A : Parts) (G : Ghost) (fuel : Nat), LoopInv C A G →
        A.oMid = some a1 :: (M0 ++ Bs.map some) → A.nMid = Bs' → n ≤ fuel →
        ∃ A' G', updateChildrenLoop C.E patchV createE (some C.p) true fuel A.toLoop
            = Except.ok A'.toLoop ∧
          LoopInv C A' G' ∧ A'.oMid = some a1 :: M0 ∧ A'.nMid = [] ∧
          A'.oD1 = A.oD1 ∧ A'.nF = A.nF ∧
          A'.nB.map (fun v => v.elm) = Bs.map (fun v => v.elm) ++ A.nB.map (fun v => v.elm) ∧
          A'.trace = A.trace ++ (List.range n).map
            (fun (i : Nat) => Action.patch
              ((A.oD1.length : Int) + (A.oMid.length : Int) - 1 - (i : Int))
              ((A.nF.length : Int) + (n : Int) - 1 - (i : Int))) := by
  intro n
  induction n with
  | zero =>
    intro Bs Bs' hlen hsame _ A G fuel hI ho hn _
    have hB : Bs = [] := List.length_eq_zero.1 hlen
    subst hB
    have hB' : Bs' = [] := by
      cases hsame
      rfl
    subst hB'
    exact ⟨A, G, loop_done C.E patchV createE (some C.p) fuel A (Or.inr hn), hI,
      by rw [ho]; simp, hn, rfl, rfl, by simp, by simp⟩
  | succ n ih =>
    intro Bs Bs' hlen hsame hnot A G fuel hI ho hn hfuel
    obtain ⟨f, hf⟩ : ∃ f, fuel = f + 1 := ⟨fuel - 1, by omega⟩
    subst hf
    rcases List.eq_nil_or_concat Bs with e | ⟨Bi, b, e⟩
    · rw [e] at hlen; cases hlen
    rw [List.concat_eq_append] at e
    subst e
    obtain ⟨Bi', b', hB', hrest, hb⟩ := forall₂_concat_left _ _ _ hsame
    subst hB'
    have hlen' : Bi.length = n := by simpa using hlen
    have hoe : A.oMid = (some a1 :: (M0 ++ Bi.map some)) ++ [some b] := by rw [ho]; simp
    have hne : A.nMid = Bi' ++ [b'] := hn
    obtain ⟨ns, N, hns⟩ : ∃ ns N, A.nMid = ns :: N := by
      rw [hn]
      cases Bi' with
      | nil => exact ⟨b', [], rfl⟩
      | cons x t => exact ⟨x, t ++ [b'], rfl⟩
    have hnsm : ns ∈ Bi' ++ [b'] := by rw [← hn, hns]; simp
    obtain ⟨r, hr, G1, hG1⟩ := inv_matchEnd C hC patchV hP A G hI b b'
      (some a1 :: (M0 ++ Bi.map some)) Bi'
      (A.trace ++ [Action.patch ((A.oD1.length : Int) + (A.oMid.length : Int) - 1)
        ((A.nF.length : Int) + (A.nMid.length : Int) - 1)]) hoe hne
      (sameVnodeAt_key C.E b b' hb)
    have hstep := step_matchEnd C.E patchV createE (some C.p) true A a1 b
      (some a1 :: (M0 ++ Bi.map some)) ns b' Bi' r
      (toLoop_oldStart A (some a1) _ ho) hoe (toLoop_newStart A ns N hns) hne
      (hnot ns hnsm) hb hr
    obtain ⟨A', G', hrun, hI', h1, h2, h3, h4, h4b, h5⟩ := ih Bi Bi' hlen' hrest
      (fun x hx => hnot x (List.mem_append_left _ hx)) _ G1 f hG1 rfl rfl (by omega)
    obtain ⟨r', hr', he', _⟩ := after_patch C hC patchV hP A G hI b b'
      (by rw [hoe]; simp) (by rw [hI.news_eq, hne]; simp)
    have hrr : r' = r := Except.ok.inj (hr'.symm.trans hr)
    subst hrr
    refine ⟨A', G', ?_, hI', h1, h2, h3, h4, ?_, ?_⟩
    · rw [loop_step C.E patchV createE (some C.p) f A _ (by rw [ho]; simp) (by rw [hns]; simp)
        hstep]
      exact hrun
    · rw [h4b]
      simp [he']
    · rw [h5, range_succ_map]
      have hlo : A.oMid.length = (M0 ++ Bi.map some).length + 2 := by
        rw [hoe]
        simp only [List.length_cons, List.length_append, List.length_singleton,
          List.length_nil]
      have hln : A.nMid.length = n + 1 := by
        rw [hne]
        simp only [List.length_append, List.length_singleton, ← hrest.length_eq, hlen']
      dsimp only
      rw [List.append_assoc, List.singleton_append]
      congr 2
      · congr 1
        · push_cast
          ring
        · rw [hln]
          push_cast
          ring
      · apply List.map_congr_left
        intro i _
        congr 1
        · rw [hlo]
          simp only [List.length_cons]
          push_cast
          ring
        · push_cast
          ring
/-! ## Two runs of `updateChildren`: a rotation, and children dropped at the front -/

theorem sameVnodeAt_of_key_ne (E : Env) (a b : VNode) (h : a.key ≠ b.key) :
    sameVnodeAt E (some a) (some b) = Except.ok false := by
  unfold sameVnodeAt sameVnode
  simp only [keyEq_of_ne _ _ h, Bool.false_eq_true, if_false]
  rfl

theorem sameVnodeAt_of_same (E : Env) (a b : VNode) (r : Bool)
    (h : sameVnode E.isTextInputType a b = some r) :
    sameVnodeAt E (some a) (some b) = Except.ok r := by
  unfold sameVnodeAt
  simp only [h]
  rfl

/-- The call returns what the part after the loop returns on the variables the loop
leaves. -/
theorem run_of_loop (E : Env) (d : Nat) (st : St) (p : Nat) (olds news : List VNode)
    (A' : Parts) (L : Loop)
    (hrun : updateChildrenLoop E (fun s q o n => patchVnode E d s q o n false) (createElm E d)
      (some p) true ((olds.map some).length + news.length)
      ({ oD1 := [], oMid := olds.map some, oD2 := [], nF := [], nMid := news, nB := [],
         map := none, st := if E.production then st else checkDuplicateKeys st news,
         queue := [], trace := [] } : Parts).toLoop = Except.ok A'.toLoop)
    (hend : updateChildrenEnd E d (createElm E d) (some p) A'.toLoop = Except.ok L) :
    runUpdateChildren E d st p olds news = Except.ok L := by
  unfold runUpdateChildren
  rw [updateChildren_unfold E d _ (createElm E d) st [] (some p) (olds.map some) news
    false A'.toLoop ?_]
  · exact hend
  · rw [← hrun]
    congr 1
    apply loop_eq <;> simp [Parts.toLoop]

theorem definedSlots_zero (vnodes : List (Option VNode)) (i : Int) :
    definedSlots vnodes 0 i = [] := rfl

/-- When only the old end matches the new start, one iteration patches the pair and moves
the node of the old end in front of the node of the old start. -/
theorem run_moveLeft (C : Ctx) (hC : CtxOk C) (patchV : PatchFn) (createE : CreateFn)
    (hP : PatchSpec C patchV) (A : Parts) (G : Ghost) (hI : LoopInv C A G)
    (o oe n ne : VNode) (M : List (Option VNode)) (N : List VNode)
    (ho : A.oMid = some o :: (M ++ [some oe])) (hn : A.nMid = n :: (N ++ [ne]))
    (h1 : sameVnodeAt C.E (some o) (some n) = Except.ok false)
    (h2 : sameVnodeAt C.E (some oe) (some ne) = Except.ok false)
    (h3 : sameVnodeAt C.E (some o) (some ne) = Except.ok false)
    (h4 : sameVnodeAt C.E (some oe) (some n) = Except.ok true) :
    ∃ A1 G1, updateChildrenStep C.E patchV createE (some C.p) true A.toLoop
        = Except.ok A1.toLoop ∧
      LoopInv C A1 G1 ∧ A1.oMid = some o :: M ∧ A1.nMid = N ++ [ne] ∧ A1.oD1 = A.oD1 ∧
      A1.nB = A.nB ∧
      A1.nF.map (fun v => v.elm) = A.nF.map (fun v => v.elm) ++ [oe.elm] ∧
      A1.trace = A.trace ++ [Action.patch ((A.oD1.length : Int) + (A.oMid.length : Int) - 1)
        (A.nF.length : Int), Action.move oe.elm o.elm] := by
  obtain ⟨r, st2, hr, hmv, G1, hG1⟩ := inv_moveLeft C hC patchV hP A G hI o oe n M
    (N ++ [ne])
    (A.trace ++ [Action.patch ((A.oD1.length : Int) + (A.oMid.length : Int) - 1)
        (A.nF.length : Int)] ++
      (if true = true then [Action.move oe.elm o.elm] else []))
    ho hn (sameVnodeAt_key C.E oe n h4)
  obtain ⟨r', hr', he', _⟩ := after_patch C hC patchV hP A G hI oe n
    (by rw [ho]; simp) (by rw [hI.news_eq, hn]; simp)
  have hrr : r' = r := Except.ok.inj (hr'.symm.trans hr)
  subst hrr
  have hn' : A.nMid = (n :: N) ++ [ne] := by rw [hn]; rfl
  refine ⟨_, G1, step_moveLeft C.E patchV createE (some C.p) true A o oe (some o :: M) n ne
    (N ++ [ne]) r' st2 (toLoop_oldStart A (some o) _ ho) ho hn
    (toLoop_newEnd A ne (n :: N) hn') h1 h2 h3 h4 hr (by rw [if_pos rfl]; exact hmv),
    hG1, rfl, rfl, rfl, rfl, ?_, ?_⟩
  · simp [he']
  · simp

/-- C6: take an old list `[x1, ..., xn]` with `n ≥ 3` and pairwise distinct keys and the new
list `[xn', x1', ..., x(n-1)']` with each `xi'` the same vnode as `xi`, and assume that the
old trees are rendered under the parent at every depth (the backend children of the parent
are their backend nodes in order, each with the parent as its parent, and so on below) on
pairwise distinct backend nodes that exist; no vnode of the old or the new trees is an async
placeholder or has a component instance; no new vnode has a placeholder parent or an `init`
hook; the new vnodes are pairwise distinct objects, none of them a vnode of the old trees
(`apart`); no `remove` hook, of a module or of an old vnode, keeps its callback for later;
and `checkDuplicateKeys` is silent on every child list below the new children (the keys of
such a list, as property names, are pairwise distinct and name no member of
`Object.prototype`). Then `updateChildren` returns having patched `xn` against `xn'`, moved
the backend node of `xn` in front of the backend node of `x1` with one `insertBefore`, and
patched each `xi` against `xi'` in place: one move, no creation and no removal at this
level, and the backend children of the parent are the node of `xn` followed by the nodes of
`x1, ..., x(n-1)`. -/
theorem updateChildren_rotation (E : Env) (d : Nat) (st : St) (p : Nat)
    (X X' : List VNode) (xn xn' : VNode)
    (h2 : 2 ≤ X.length)
    (hkeys : ((X ++ [xn]).map (fun v => v.key)).Nodup)
    (hsameX : List.Forall₂ (fun o n => sameVnode E.isTextInputType o n = some true) X X')
    (hsameN : sameVnode E.isTextInputType xn xn' = some true)
    (hold : ∀ o ∈ X ++ [xn], oldPlain E d o = true)
    (hnew : ∀ n ∈ xn' :: X', newPlain d n = true)
    (hapart : apart d (X ++ [xn]) (xn' :: X') = true)
    (hch : (st.dom.children p).map some = (X ++ [xn]).map (fun v => v.elm))
    (hpar : ∀ o ∈ X ++ [xn], o.elm.bind st.dom.parent = some p)
    (hren : ∀ o ∈ X ++ [xn], rendered d st.dom o = true)
    (hnd : (p :: (X ++ [xn]).flatMap (elmsOf d)).Nodup)
    (hbd : ∀ x ∈ p :: (X ++ [xn]).flatMap (elmsOf d), x < st.dom.next) :
    ∃ L, runUpdateChildren E d st p (X ++ [xn]) (xn' :: X') = Except.ok L ∧
      L.trace = [Action.patch (X.length : Int) 0,
          Action.move xn.elm (X.head?.bind (fun v => v.elm))] ++
        (List.range X.length).map (fun (i : Nat) => Action.patch (i : Int) ((i : Int) + 1)) ∧
      (L.st.dom.children p).map some = xn.elm :: X.map (fun v => v.elm) ∧
      L.newCh.map (fun v => v.elm) = xn.elm :: X.map (fun v => v.elm) := by
  have hshared := sharedOk_of_apart d _ _ hapart
  -- the shape of the two lists
  obtain ⟨x1, Xr, hX⟩ : ∃ x1 Xr, X = x1 :: Xr := by
    cases X with
    | nil => simp at h2
    | cons a t => exact ⟨a, t, rfl⟩
  obtain ⟨Xi, xl, hXr⟩ : ∃ Xi xl, Xr = Xi ++ [xl] := by
    rcases List.eq_nil_or_concat Xr with e | ⟨Z, z, e⟩
    · rw [hX, e] at h2; simp at h2
    · exact ⟨Z, z, by rw [e, List.concat_eq_append]⟩
  have hXc : X = (x1 :: Xi) ++ [xl] := by rw [hX, hXr]; rfl
  obtain ⟨Yi, yl, hY, hYrest, hlast⟩ := forall₂_concat_left _ _ _ (hXc ▸ hsameX)
  -- the context
  have hC := ctxOk_of E d st p (X ++ [xn]) (xn' :: X') hold hnew hnd hbd
  have hP := patchVnode_meets
    { E := E, d := d, p := p, olds := X ++ [xn], news := xn' :: X', dom0 := st.dom } hC hold
    hnew hshared
  have hCr := createElm_meets E d (xn' :: X') hnew
  have hd0 : (if E.production then st else checkDuplicateKeys st (xn' :: X')).dom = st.dom := by
    split
    · rfl
    · exact checkDuplicateKeys_dom st _
  have hI0 := inv_init
    { E := E, d := d, p := p, olds := X ++ [xn], news := xn' :: X', dom0 := st.dom } hC
    (if E.production then st else checkDuplicateKeys st (xn' :: X')) []
    (by rw [hd0]) (by rw [hd0]; exact hch)
    (by rw [hd0]; exact parent_of_bind st p _ hpar) (by rw [hd0]; exact hren)
  -- the keys
  have hk := hkeys
  rw [hXc] at hk
  simp only [List.map_append, List.map_cons, List.map_nil, List.cons_append,
    List.nodup_cons, List.mem_append, List.mem_map, List.mem_singleton, List.mem_cons,
    List.nodup_append, List.not_mem_nil, not_or] at hk
  have hx1n : x1.key ≠ xn.key := hk.1.2.1
  have hx1l : x1.key ≠ xl.key := hk.1.1.2.1
  have hxln : xl.key ≠ xn.key := fun e =>
    hk.2.2.2 (List.mem_append_right _ (List.mem_singleton_self _))
      (by rw [e]; exact List.mem_singleton_self _)
  have hkn : xn.key = xn'.key := sameVnode_key _ _ _ hsameN
  have hkl : xl.key = yl.key := sameVnode_key _ _ _ hlast
  have hb1 : sameVnodeAt E (some x1) (some xn') = Except.ok false :=
    sameVnodeAt_of_key_ne E x1 xn' (by rw [← hkn]; exact hx1n)
  have hb2 : sameVnodeAt E (some xn) (some yl) = Except.ok false :=
    sameVnodeAt_of_key_ne E xn yl (by rw [← hkl]; exact fun e => hxln e.symm)
  have hb3 : sameVnodeAt E (some x1) (some yl) = Except.ok false :=
    sameVnodeAt_of_key_ne E x1 yl (by rw [← hkl]; exact hx1l)
  have hb4 := sameVnodeAt_of_same E xn xn' true hsameN
  subst hXr
  subst hX
  subst hY
  -- the first iteration moves the node of the last old child to the front
  obtain ⟨A1, G1, hstep, hG1, ho1, hn1, hd1, hnb1, hnf1, htr1⟩ := run_moveLeft _ hC _
    (createElm E d) hP _ _ hI0 x1 xn xn' yl ((Xi ++ [xl]).map some) Yi
    (by simp) rfl hb1 hb2 hb3 hb4
  -- the other iterations patch in place
  obtain ⟨A', G', hrun, hI', h1, h2, h2b, h2f, h3⟩ := run_matchStart _ hC _ (createElm E d) hP
    (x1 :: (Xi ++ [xl])) (Yi ++ [yl])
    (hsameX.imp (fun a b ha => sameVnodeAt_of_same E a b true ha)) A1 G1
    ((x1 :: (Xi ++ [xl])).length + (Yi ++ [yl]).length + 1) hG1 ho1 hn1 (by omega)
  obtain ⟨L, hL, hLch, _, _, hLt⟩ := end_spec _ hC (createElm E d) hCr A' G' hI' (Or.inl h1)
  obtain ⟨hLn, hLtr⟩ := hLt h2
  have hnF : L.newCh.map (fun v => v.elm) = xn.elm :: (x1 :: (Xi ++ [xl])).map (fun v => v.elm) := by
    rw [hLn, h2b, hnb1, List.map_append, h2f, hnf1]
    simp
  refine ⟨L, ?_, ?_, ?_, hnF⟩
  · apply run_of_loop E d st p _ _ A' L ?_ hL
    have hfuel : (((x1 :: (Xi ++ [xl])) ++ [xn]).map some).length + (xn' :: (Yi ++ [yl])).length
        = ((x1 :: (Xi ++ [xl])).length + (Yi ++ [yl]).length) + 1 + 1 := by
      simp only [List.length_map, List.length_append, List.length_cons, List.length_singleton,
        List.length_nil]
      omega
    rw [hfuel, loop_step E _ (createElm E d) (some p) _ _ A1 (by simp) (by simp) hstep]
    exact hrun
  · have hlen : A1.nF.length = 1 := by
      have := congrArg List.length hnf1
      simpa using this
    rw [hLtr, h3, h1, htr1, hd1, hlen]
    simp only [definedSlots_zero, List.map_nil, List.append_nil, List.length_nil,
      Nat.cast_zero, zero_add, List.head?_cons, Option.bind_some, List.length_map,
      List.length_append, List.length_cons, List.length_singleton, Nat.cast_add, Nat.cast_one]
    congr 1
    · ring_nf
      rfl
    · apply List.map_congr_left
      intro i _
      congr 1
      ring
  · rw [hLch, hnF]

theorem definedSlots_defined (Z : List VNode) :
    ∀ (P R : List (Option VNode)),
      definedSlots (P ++ (Z.map some ++ R)) Z.length (P.length : Int)
        = (List.range Z.length).map (fun (i : Nat) => (P.length : Int) + (i : Int)) := by
  induction Z with
  | nil => intro P R; rfl
  | cons z Zr ih =>
    intro P R
    rw [List.length_cons, range_succ_map]
    unfold definedSlots
    have hget : getAt (P ++ (List.map some (z :: Zr) ++ R)) (P.length : Int) = some (some z) := by
      rw [List.map_cons, List.cons_append]
      exact getAt_mid P _ (some z) _ rfl
    rw [hget]
    have hP : P ++ (List.map some (z :: Zr) ++ R) = (P ++ [some z]) ++ (Zr.map some ++ R) := by
      simp
    have hl : (P.length : Int) + 1 = ((P ++ [some z]).length : Int) := by simp
    rw [hP, hl, ih (P ++ [some z]) R]
    simp only [List.length_append, List.length_singleton,
      Nat.cast_add, Nat.cast_one, Nat.cast_zero, add_zero]
    show [(P.length : Int)] ++ _ = _
    rw [List.singleton_append]
    congr 1
    apply List.map_congr_left
    intro i _
    ring

/-- C7: take an old list `[A1, ..., Ak, B1, ..., Bm]` (`k ≥ 1`) and the new list `[B1', ...,
Bm']` with each `Bi'` the same vnode as `Bi` and `A1` the same vnode as no `Bi'`, and assume
that the old trees are rendered under the parent at every depth (the backend children of the
parent are their backend nodes in order, each with the parent as its parent, and so on
below) on pairwise distinct backend nodes that exist; no vnode of the old or the new trees
is an async placeholder or has a component instance; no new vnode has a placeholder parent
or an `init` hook; the new vnodes are pairwise distinct objects, none of them a vnode of the
old trees (`apart`); no `remove` hook, of a module or of an old vnode, keeps its callback
for later; and `checkDuplicateKeys` is silent on every child list below the new children
(the keys of such a list, as property names, are pairwise distinct and name no member of
`Object.prototype`). Then `updateChildren` returns having patched each `Bi` against `Bi'`
from the last pair to the first, with no move and no creation, and then removed the old
children at the indices `0, ..., k - 1`: the backend children of the parent are the nodes of
`B1, ..., Bm`. -/
theorem updateChildren_drop_front (E : Env) (d : Nat) (st : St) (p : Nat)
    (a1 : VNode) (As Bs Bs' : List VNode)
    (hsame : List.Forall₂ (fun o n => sameVnode E.isTextInputType o n = some true) Bs Bs')
    (hdiff : ∀ b' ∈ Bs', sameVnode E.isTextInputType a1 b' = some false)
    (hold : ∀ o ∈ (a1 :: As) ++ Bs, oldPlain E d o = true)
    (hnew : ∀ n ∈ Bs', newPlain d n = true)
    (hapart : apart d ((a1 :: As) ++ Bs) Bs' = true)
    (hch : (st.dom.children p).map some = ((a1 :: As) ++ Bs).map (fun v => v.elm))
    (hpar : ∀ o ∈ (a1 :: As) ++ Bs, o.elm.bind st.dom.parent = some p)
    (hren : ∀ o ∈ (a1 :: As) ++ Bs, rendered d st.dom o = true)
    (hnd : (p :: ((a1 :: As) ++ Bs).flatMap (elmsOf d)).Nodup)
    (hbd : ∀ x ∈ p :: ((a1 :: As) ++ Bs).flatMap (elmsOf d), x < st.dom.next) :
    ∃ L, runUpdateChildren E d st p ((a1 :: As) ++ Bs) Bs' = Except.ok L ∧
      L.trace = (List.range Bs.length).map (fun (i : Nat) =>
          Action.patch ((As.length : Int) + (Bs.length : Int) - (i : Int))
            ((Bs.length : Int) - 1 - (i : Int))) ++
        (List.range (As.length + 1)).map (fun (i : Nat) => Action.remove (i : Int)) ∧
      (L.st.dom.children p).map some = Bs.map (fun v => v.elm) ∧
      L.newCh.map (fun v => v.elm) = Bs.map (fun v => v.elm) := by
  have hshared := sharedOk_of_apart d _ _ hapart
  have hC := ctxOk_of E d st p ((a1 :: As) ++ Bs) Bs' hold hnew hnd hbd
  have hP := patchVnode_meets
    { E := E, d := d, p := p, olds := (a1 :: As) ++ Bs, news := Bs', dom0 := st.dom } hC hold
    hnew hshared
  have hCr := createElm_meets E d Bs' hnew
  have hd0 : (if E.production then st else checkDuplicateKeys st Bs').dom = st.dom := by
    split
    · rfl
    · exact checkDuplicateKeys_dom st _
  have hI0 := inv_init
    { E := E, d := d, p := p, olds := (a1 :: As) ++ Bs, news := Bs', dom0 := st.dom } hC
    (if E.production then st else checkDuplicateKeys st Bs') []
    (by rw [hd0]) (by rw [hd0]; exact hch)
    (by rw [hd0]; exact parent_of_bind st p _ hpar) (by rw [hd0]; exact hren)
  obtain ⟨A', G', hrun, hI', h1, h2, hd1, hnf, hnb, h3⟩ := run_matchEnd _ hC _ (createElm E d)
    hP a1 (As.map some) Bs.length Bs Bs' rfl
    (hsame.imp (fun a b ha => sameVnodeAt_of_same E a b true ha))
    (fun b' hb' => sameVnodeAt_of_same E a1 b' false (hdiff b' hb')) _ _
    ((((a1 :: As) ++ Bs).map some).length + Bs'.length) hI0 (by simp) rfl (by simp; omega)
  obtain ⟨L, hL, hLch, _, _, hLt⟩ := end_spec _ hC (createElm E d) hCr A' G' hI' (Or.inr h2)
  obtain ⟨hLn, hLtr⟩ := hLt h2
  have hnF : L.newCh.map (fun v => v.elm) = Bs.map (fun v => v.elm) := by
    rw [hLn, hnf, List.map_append, hnb]
    simp
  refine ⟨L, run_of_loop E d st p _ _ A' L hrun hL, ?_, ?_, hnF⟩
  · have hds := definedSlots_defined (a1 :: As) [] A'.oD2
    rw [hLtr, h3, h1, hd1]
    simp only [List.nil_append, List.length_nil, Nat.cast_zero, zero_add, List.length_cons,
      List.length_map] at hds ⊢
    rw [← List.map_cons, hds]
    simp only [List.map_map, List.length_append, List.length_cons, List.length_map,
      Nat.cast_add, Nat.cast_one]
    congr 1
    apply List.map_congr_left
    intro i _
    congr 1
    ring
  · rw [hLch, hnF]

/-- When only the old start matches the new end, one iteration patches the pair and moves
the node of the old start behind the node of the old end. -/
theorem run_moveRight (C : Ctx) (hC : CtxOk C) (patchV : PatchFn) (createE : CreateFn)
    (hP : PatchSpec C patchV) (A : Parts) (G : Ghost) (hI : LoopInv C A G)
    (o oe n ne : VNode) (M : List (Option VNode)) (N : List VNode)
    (ho : A.oMid = some o :: (M ++ [some oe])) (hn : A.nMid = n :: (N ++ [ne]))
    (h1 : sameVnodeAt C.E (some o) (some n) = Except.ok false)
    (h2 : sameVnodeAt C.E (some oe) (some ne) = Except.ok false)
    (h3 : sameVnodeAt C.E (some o) (some ne) = Except.ok true) :
    ∃ A1 G1, updateChildrenStep C.E patchV createE (some C.p) true A.toLoop
        = Except.ok A1.toLoop ∧
      LoopInv C A1 G1 ∧ A1.oMid = M ++ [some oe] ∧ A1.nMid = n :: N ∧
      A1.oD1 = A.oD1 ++ [some o] ∧ A1.nF = A.nF ∧
      A1.nB.map (fun v => v.elm) = o.elm :: A.nB.map (fun v => v.elm) ∧
      A1.trace = A.trace ++ [Action.patch (A.oD1.length : Int)
        ((A.nF.length : Int) + (A.nMid.length : Int) - 1), Action.move o.elm G.bE.head?] := by
  have hoe : A.oMid = (some o :: M) ++ [some oe] := by rw [ho]; rfl
  have hne : A.nMid = (n :: N) ++ [ne] := by rw [hn]; rfl
  obtain ⟨r, st2, hr, hmv, href, G1, hG1⟩ := inv_moveRight C hC patchV hP A G hI o oe ne
    (M ++ [some oe]) (some o :: M) (n :: N) [] ho hoe hne (sameVnodeAt_key C.E o ne h3)
  obtain ⟨r', hr', he', _⟩ := after_patch C hC patchV hP A G hI o ne
    (by rw [ho]; simp) (by rw [hI.news_eq, hn]; simp)
  have hrr : r' = r := Except.ok.inj (hr'.symm.trans hr)
  subst hrr
  refine ⟨_, G1, step_moveRight C.E patchV createE (some C.p) true A o oe (M ++ [some oe]) n ne
    (n :: N) r' st2 ho (toLoop_oldEnd A (some oe) _ hoe) (toLoop_newStart A n _ hn) hne
    h1 h2 h3 hr (by rw [if_pos rfl]; exact hmv),
    inv_trace C _ G1 hG1 _, rfl, rfl, rfl, rfl, ?_, ?_⟩
  · simp [he']
  · simp [href]

/-- The rotation of two keyed children: the loop patches the first old child against the
last new child and moves its node to the end of the parent. -/
theorem rotation_two (E : Env) (d : Nat) (st : St) (p : Nat) (x1 x2 y1 y2 : VNode)
    (hkeys : x1.key ≠ x2.key)
    (hs1 : sameVnode E.isTextInputType x1 y1 = some true)
    (hs2 : sameVnode E.isTextInputType x2 y2 = some true)
    (hold : ∀ o ∈ [x1, x2], oldPlain E d o = true)
    (hnew : ∀ n ∈ [y2, y1], newPlain d n = true)
    (hshared : SharedOk d [x1, x2] [y2, y1])
    (hch : (st.dom.children p).map some = [x1, x2].map (fun v => v.elm))
    (hpar : ∀ o ∈ [x1, x2], o.elm.bind st.dom.parent = some p)
    (hren : ∀ o ∈ [x1, x2], rendered d st.dom o = true)
    (hnd : (p :: [x1, x2].flatMap (elmsOf d)).Nodup)
    (hbd : ∀ x ∈ p :: [x1, x2].flatMap (elmsOf d), x < st.dom.next) :
    ∃ L, runUpdateChildren E d st p [x1, x2] [y2, y1] = Except.ok L ∧
      L.trace = [Action.patch 0 1, Action.move x1.elm none, Action.patch 1 0] ∧
      (L.st.dom.children p).map some = [x2.elm, x1.elm] := by
  have hC := ctxOk_of E d st p [x1, x2] [y2, y1] hold hnew hnd hbd
  have hP := patchVnode_meets
    { E := E, d := d, p := p, olds := [x1, x2], news := [y2, y1], dom0 := st.dom } hC hold
    hnew hshared
  have hCr := createElm_meets E d [y2, y1] hnew
  have hd0 : (if E.production then st else checkDuplicateKeys st [y2, y1]).dom = st.dom := by
    split
    · rfl
    · exact checkDuplicateKeys_dom st _
  have hI0 := inv_init
    { E := E, d := d, p := p, olds := [x1, x2], news := [y2, y1], dom0 := st.dom } hC
    (if E.production then st else checkDuplicateKeys st [y2, y1]) []
    (by rw [hd0]) (by rw [hd0]; exact hch)
    (by rw [hd0]; exact parent_of_bind st p _ hpar) (by rw [hd0]; exact hren)
  have hk1 : x1.key = y1.key := sameVnode_key _ _ _ hs1
  have hk2 : x2.key = y2.key := sameVnode_key _ _ _ hs2
  have hb1 : sameVnodeAt E (some x1) (some y2) = Except.ok false :=
    sameVnodeAt_of_key_ne E x1 y2 (by rw [← hk2]; exact hkeys)
  have hb2 : sameVnodeAt E (some x2) (some y1) = Except.ok false :=
    sameVnodeAt_of_key_ne E x2 y1 (by rw [← hk1]; exact fun e => hkeys e.symm)
  have hb3 := sameVnodeAt_of_same E x1 y1 true hs1
  obtain ⟨A1, G1, hstep, hG1, ho1, hn1, hd1, hnf1, hnb1, htr1⟩ := run_moveRight _ hC _
    (createElm E d) hP _ _ hI0 x1 x2 y2 y1 [] [] rfl rfl hb1 hb2 hb3
  obtain ⟨A', G', hrun, hI', h1, h2, h2b, h2f, h3⟩ := run_matchStart _ hC _ (createElm E d) hP
    [x2] [y2] (List.Forall₂.cons (sameVnodeAt_of_same E x2 y2 true hs2) List.Forall₂.nil)
    A1 G1 3 hG1 ho1 hn1 (by simp)
  obtain ⟨L, hL, hLch, _, _, hLt⟩ := end_spec _ hC (createElm E d) hCr A' G' hI' (Or.inl h1)
  obtain ⟨hLn, hLtr⟩ := hLt h2
  refine ⟨L, ?_, ?_, ?_⟩
  · apply run_of_loop E d st p _ _ A' L ?_ hL
    have hfuel : (([x1, x2] : List VNode).map some).length + ([y2, y1] : List VNode).length
        = 3 + 1 := rfl
    rw [hfuel, loop_step E _ (createElm E d) (some p) _ _ A1 (by simp) (by simp) hstep]
    exact hrun
  · rw [hLtr, h3, h1, htr1, hd1, hnf1]
    rfl
  · rw [hLch, hLn, List.map_append, h2f, hnf1, h2b, hnb1]
    rfl

theorem updateChildren_rotation_witness :
    ∃ L, runUpdateChildren (exEnv true) 1 (exSt (exFlatDom 3)) 0
        ([exOld 1 "li" (some (Key.num 1)), exOld 2 "li" (some (Key.num 2))] ++
          [exOld 3 "li" (some (Key.num 3))])
        (exNew 3 "li" (some (Key.num 3)) ::
          [exNew 1 "li" (some (Key.num 1)), exNew 2 "li" (some (Key.num 2))]) = Except.ok L ∧
      L.trace = [Action.patch 2 0, Action.move (some 3) (some 1)] ++
        (List.range 2).map (fun (i : Nat) => Action.patch (i : Int) ((i : Int) + 1)) ∧
      (L.st.dom.children 0).map some = [some 3, some 1, some 2] ∧
      L.newCh.map (fun v => v.elm) = [some 3, some 1, some 2] :=
  updateChildren_rotation (exEnv true) 1 (exSt (exFlatDom 3)) 0
    [exOld 1 "li" (some (Key.num 1)), exOld 2 "li" (some (Key.num 2))]
    [exNew 1 "li" (some (Key.num 1)), exNew 2 "li" (some (Key.num 2))]
    (exOld 3 "li" (some (Key.num 3))) (exNew 3 "li" (some (Key.num 3)))
    (by decide) (by decide)
    (List.Forall₂.cons (by decide) (List.Forall₂.cons (by decide) List.Forall₂.nil))
    (by decide) (by decide) (by decide) (by decide) (by decide) (by decide)
    (by decide) (by decide) (by decide)

/-- C6 (counterexample): for the old list `[x1, x2]` with keys `1` and `2` and the new
list `[x2', x1']`, the one move is `insertBefore(parent, x1.elm, null)`: the backend node
of `x1` (node 1) is moved to the end, and nothing is inserted before it. -/
theorem updateChildren_rotation_counterexample :
    ∃ L, runUpdateChildren (exEnv true) 1 (exSt (exFlatDom 2)) 0
        [exOld 1 "li" (some (Key.num 1)), exOld 2 "li" (some (Key.num 2))]
        [exNew 2 "li" (some (Key.num 2)), exNew 1 "li" (some (Key.num 1))] = Except.ok L ∧
      L.trace = [Action.patch 0 1, Action.move (some 1) none, Action.patch 1 0] ∧
      (L.st.dom.children 0).map some = [some 2, some 1] :=
  rotation_two (exEnv true) 1 (exSt (exFlatDom 2)) 0
    (exOld 1 "li" (some (Key.num 1))) (exOld 2 "li" (some (Key.num 2)))
    (exNew 1 "li" (some (Key.num 1))) (exNew 2 "li" (some (Key.num 2)))
    (by decide) (by decide) (by decide) (by decide) (by decide) (by unfold SharedOk; decide)
    (by decide) (by decide) (by decide) (by decide) (by decide)

theorem updateChildren_drop_front_witness :
    ∃ L, runUpdateChildren (exEnv true) 1 (exSt (exFlatDom 2)) 0
        ((exOld 1 "p" none :: []) ++ [exOld 2 "div" none]) [exNew 2 "div" none]
        = Except.ok L ∧
      L.trace = (List.range 1).map (fun (i : Nat) =>
          Action.patch ((0 : Int) + (1 : Int) - (i : Int)) ((1 : Int) - 1 - (i : Int))) ++
        (List.range (0 + 1)).map (fun (i : Nat) => Action.remove (i : Int)) ∧
      (L.st.dom.children 0).map some = [some 2] ∧
      L.newCh.map (fun v => v.elm) = [some 2] :=
  updateChildren_drop_front (exEnv true) 1 (exSt (exFlatDom 2)) 0
    (exOld 1 "p" none) [] [exOld 2 "div" none] [exNew 2 "div" none]
    (List.Forall₂.cons (by decide) List.Forall₂.nil)
    (by decide) (by decide) (by decide) (by decide) (by decide) (by decide)
    (by decide) (by decide) (by decide)

/-- C7 (counterexample): for the keyless old list `[A, B]` (a `p` and a `div`) and the new
list `[B']`, on a platform whose `remove` hook keeps the callback for later, the call
patches `B` and asks for the removal of `A`, but the backend node of `A` is still a child of
the parent when the call returns. -/
theorem updateChildren_drop_front_counterexample :
    sameVnode (exEnv false).isTextInputType (exOld 2 "div" none) (exNew 2 "div" none)
      = some true ∧
    sameVnode (exEnv false).isTextInputType (exOld 1 "p" none) (exNew 2 "div" none)
      = some false ∧
    outcome 0 (runUpdateChildren (exEnv false) 1 (exSt (exFlatDom 2)) 0
      [exOld 1 "p" none, exOld 2 "div" none] [exNew 2 "div" none])
      = some ([1, 2], [some 2], [Action.patch 1 0, Action.remove 0]) := by
  refine ⟨by decide, by decide, by decide⟩
/-! ## What `observe` keeps -/

theorem depend_quiet (st : OSt) (dep : Nat) (h : st.target = none) : depend st dep = st := by
  unfold depend
  rw [h]

theorem dependArray_quiet :
    ∀ (fuel : Nat) (st : OSt) (l : List Val) (st' : OSt), st.target = none →
      dependArray fuel st l = Except.ok st' → st' = st := by
  intro fuel
  induction fuel with
  | zero =>
    intro st l st' _ h
    simp [dependArray, throw_ne_ok] at h
  | succ n ih =>
    intro st l st' ht h
    cases l with
    | nil =>
      simp only [dependArray, pure_eq_ok] at h
      exact h.symm
    | cons e rest =>
      cases e with
      | ref a =>
        simp only [dependArray, bind_eq_ok] at h
        obtain ⟨st1, h1, st2, h2, h3⟩ := h
        have e1 : st1 = st := by
          split at h1
          · simp only [pure_eq_ok] at h1; exact h1.symm
          · exact absurd h1 (throw_ne_ok _ _)
          · split at h1
            · simp only [pure_eq_ok] at h1
              rw [← h1, depend_quiet _ _ ht]
            · exact absurd h1 (throw_ne_ok _ _)
        subst e1
        have e2 : st2 = st1 := by
          split at h2
          · exact ih _ _ _ ht h2
          · simp only [pure_eq_ok] at h2; exact h2.symm
        subst e2
        exact ih _ _ _ ht h3
      | undefined => simp only [dependArray] at h; exact ih _ _ _ ht h
      | null => simp only [dependArray] at h; exact ih _ _ _ ht h
      | bool b => simp only [dependArray] at h; exact ih _ _ _ ht h
      | num k => simp only [dependArray] at h; exact ih _ _ _ ht h
      | nan => simp only [dependArray] at h; exact ih _ _ _ ht h
      | str s => simp only [dependArray] at h; exact ih _ _ _ ht h

/-- Without an active computation a getter leaves the state as it is. -/
theorem callGetter_quiet (U : User) :
    ∀ (fuel : Nat) (st : OSt) (f : Fn) (st' : OSt) (v : Val), st.target = none →
      callGetter U fuel st f = Except.ok (st', v) → st' = st := by
  intro fuel
  induction fuel with
  | zero =>
    intro st f st' v _ h
    simp [callGetter, throw_ne_ok] at h
  | succ n ih =>
    intro st f st' v ht h
    cases f with
    | user g =>
      simp only [callGetter, pure_eq_ok, Prod.mk.injEq] at h
      exact h.1.symm
    | reactive c =>
      simp only [callGetter] at h
      cases hc : st.cells.get? c with
      | none =>
        rw [hc] at h
        exact absurd h (throw_ne_ok _ _)
      | some cell =>
        rw [hc] at h
        simp only [bind_eq_ok] at h
        obtain ⟨r, hr, h⟩ := h
        have e1 : r.1 = st := by
          cases hg : cell.getter with
          | none =>
            rw [hg] at hr
            simp only [pure_eq_ok] at hr
            rw [← hr]
          | some g =>
            rw [hg] at hr
            exact ih _ _ _ _ ht hr
        rw [e1, ht] at h
        simp only [pure_eq_ok, Prod.mk.injEq] at h
        exact h.1.symm

theorem readProp_quiet (U : User) (fuel : Nat) (st : OSt) (obj : Nat) (key : String)
    (st' : OSt) (v : Val) (ht : st.target = none)
    (h : readProp U fuel st obj key = Except.ok (st', v)) : st' = st := by
  unfold readProp at h
  split at h
  · simp only [pure_eq_ok, Prod.mk.injEq] at h
    exact h.1.symm
  · split at h
    · split at h
      · exact callGetter_quiet U _ _ _ _ _ ht h
      · simp only [pure_eq_ok, Prod.mk.injEq] at h
        exact h.1.symm
    · simp only [pure_eq_ok, Prod.mk.injEq] at h
      exact h.1.symm

theorem setObj_closed {R : OSt → OSt → Prop} (hR : StepClosed R) (st : OSt) (a : Nat)
    (ob : ObProp) (props : List (String × Slot)) (aug : Bool) :
    R st (st.setObj a { st.obj a with ob := ob, props := props, augmented := aug }) :=
  hR.heap st a ob props aug

theorem defineReactive_closed {R : OSt → OSt → Prop} (hR : StepClosed R) (U : User)
    (observe' : ObserveFn)
    (hobs : ∀ s v s' r, observe' s v = Except.ok (s', r) → R s s')
    (fuel : Nat) (st : OSt) (obj : Nat) (key : String) (val : Option Val)
    (customSetter shallow : Bool) (st' : OSt)
    (h : defineReactive U observe' fuel st obj key val customSetter shallow = Except.ok st') :
    R st st' := by
  unfold defineReactive at h
  simp only at h
  split at h
  · simp only [pure_eq_ok] at h
    rw [← h]; exact hR.dep st
  · simp only [bind_eq_ok] at h
    obtain ⟨r, hr, c, hc, h⟩ := h
    have e1 : R (newDep st).1 r.1 := by
      split at hr
      · simp only [pure_eq_ok] at hr
        rw [← hr]; exact hR.same _
      · split at hr
        · exact hR.read _ _ (readProp_onlyDeps U _ _ _ _ _ _ hr)
            (fun ht => readProp_quiet U _ _ _ _ _ _ ht hr)
        · simp only [pure_eq_ok] at hr
          rw [← hr]; exact hR.same _
    have e2 : R r.1 c.1 := by
      split at hc
      · simp only [pure_eq_ok] at hc
        rw [← hc]; exact hR.same _
      · exact hobs _ _ _ _ hc
    split at h
    · exact absurd h (throw_ne_ok _ _)
    · simp only [pure_eq_ok] at h
      rw [← h]
      exact hR.andThen _ _ _ (hR.dep st) (hR.andThen _ _ _ e1 (hR.andThen _ _ _ e2
        (hR.andThen _ _ _ (hR.cell c.1 _) (setObj_closed hR _ obj (c.1.obj obj).ob _
          (c.1.obj obj).augmented))))

theorem walk_closed {R : OSt → OSt → Prop} (hR : StepClosed R) (U : User)
    (observe' : ObserveFn)
    (hobs : ∀ s v s' r, observe' s v = Except.ok (s', r) → R s s')
    (fuel : Nat) (obj : Nat) :
    ∀ (keys : List String) (st st' : OSt),
      walk U observe' fuel obj st keys = Except.ok st' → R st st' := by
  intro keys
  induction keys with
  | nil =>
    intro st st' h
    simp only [walk, pure_eq_ok] at h
    rw [← h]; exact hR.same _
  | cons k rest ih =>
    intro st st' h
    simp only [walk, bind_eq_ok] at h
    obtain ⟨st1, h1, h2⟩ := h
    exact hR.andThen _ _ _ (defineReactive_closed hR U observe' hobs _ _ _ _ _ _ _ _ h1)
      (ih _ _ h2)

theorem observeArray_closed {R : OSt → OSt → Prop} (hR : StepClosed R)
    (observe' : ObserveFn)
    (hobs : ∀ s v s' r, observe' s v = Except.ok (s', r) → R s s') :
    ∀ (items : List Val) (st st' : OSt),
      observeArray observe' st items = Except.ok st' → R st st' := by
  intro items
  induction items with
  | nil =>
    intro st st' h
    simp only [observeArray, pure_eq_ok] at h
    rw [← h]; exact hR.same _
  | cons v rest ih =>
    intro st st' h
    simp only [observeArray, bind_eq_ok] at h
    obtain ⟨r, h1, h2⟩ := h
    exact hR.andThen _ _ _ (hobs _ _ _ _ h1) (ih _ _ h2)

theorem observerNew_closed {R : OSt → OSt → Prop} (hR : StepClosed R) (U : User)
    (observe' : ObserveFn)
    (hobs : ∀ s v s' r, observe' s v = Except.ok (s', r) → R s s')
    (fuel : Nat) (st : OSt) (value : Nat) (st' : OSt) (id : Nat)
    (h : Observer.new U observe' fuel st value = Except.ok (st', id)) : R st st' := by
  unfold Observer.new at h
  simp only at h
  split at h
  · exact absurd h (throw_ne_ok _ _)
  · have e0 : R st ({ (newDep st).1 with observers := (newDep st).1.observers ++
        [{ value := value, dep := (newDep st).2, vmCount := 0 }] } : OSt) :=
      hR.andThen _ _ _ (hR.dep st) (hR.observers _ _)
    split at h
    · simp only [bind_eq_ok, pure_eq_ok, Prod.mk.injEq] at h
      obtain ⟨st4, h4, h5, _⟩ := h
      subst h5
      have e3 := observeArray_closed hR observe' hobs _ _ _ h4
      exact hR.andThen _ _ _ e0 (hR.andThen _ _ _ (setObj_closed hR _ value _ _ _)
        (hR.andThen _ _ _ (setObj_closed hR _ value _ _ _) e3))
    · simp only [bind_eq_ok, pure_eq_ok, Prod.mk.injEq] at h
      obtain ⟨st3, h3, h5, _⟩ := h
      subst h5
      have e3 := walk_closed hR U observe' hobs _ _ _ _ _ h3
      exact hR.andThen _ _ _ e0 (hR.andThen _ _ _ (setObj_closed hR _ value _ _ _) e3)

/-- Every relation that the steps of `observe` respect holds between the state before
and the state after a call of `observe`. -/
theorem observe_closed {R : OSt → OSt → Prop} (hR : StepClosed R) (U : User) :
    ∀ (fuel : Nat) (st : OSt) (v : Val) (asRoot : Bool) (st' : OSt) (res : Option Nat),
      observe U fuel st v asRoot = Except.ok (st', res) → R st st' := by
  intro fuel
  induction fuel with
  | zero =>
    intro st v asRoot st' res h
    simp [observe, throw_ne_ok] at h
  | succ n ih =>
    intro st v asRoot st' res h
    have hobs : ∀ s w s' r, (fun s v => observe U n s v false) s w = Except.ok (s', r) →
        R s s' := fun s w s' r hh => ih s w false s' r hh
    cases v with
    | ref a =>
      simp only [observe] at h
      split at h
      · simp only [pure_eq_ok, Prod.mk.injEq] at h
        rw [← h.1]
        exact hR.same _
      · simp only [bind_eq_ok] at h
        obtain ⟨r, hr, h⟩ := h
        have key : R st r.1 := by
          split at hr
          · simp only [pure_eq_ok] at hr
            rw [← hr]
            exact hR.same _
          · split at hr
            · simp only [bind_eq_ok, pure_eq_ok] at hr
              obtain ⟨nw, hn, hr⟩ := hr
              rw [← hr]
              exact observerNew_closed hR U _ hobs n st a nw.1 nw.2 hn
            · simp only [pure_eq_ok] at hr
              rw [← hr]
              exact hR.same _
        split at h
        · split at h
          · simp only [pure_eq_ok, Prod.mk.injEq] at h
            rw [← h.1]
            exact hR.andThen _ _ _ key (hR.observers _ _)
          · exact absurd h (throw_ne_ok _ _)
        · simp only [pure_eq_ok] at h
          subst h
          exact key
    | undefined =>
      simp only [observe, pure_eq_ok, Prod.mk.injEq] at h
      rw [← h.1]; exact hR.same _
    | null =>
      simp only [observe, pure_eq_ok, Prod.mk.injEq] at h
      rw [← h.1]; exact hR.same _
    | bool b =>
      simp only [observe, pure_eq_ok, Prod.mk.injEq] at h
      rw [← h.1]; exact hR.same _
    | num k =>
      simp only [observe, pure_eq_ok, Prod.mk.injEq] at h
      rw [← h.1]; exact hR.same _
    | nan =>
      simp only [observe, pure_eq_ok, Prod.mk.injEq] at h
      rw [← h.1]; exact hR.same _
    | str s =>
      simp only [observe, pure_eq_ok, Prod.mk.injEq] at h
      rw [← h.1]; exact hR.same _

theorem keeps_closed : StepClosed OSt.Keeps where
  same := fun s => ⟨rfl, rfl, rfl, rfl, rfl, rfl, rfl, ⟨[], by simp⟩, fun _ => ⟨[], by simp⟩⟩
  andThen := by
    intro s t u h1 h2
    obtain ⟨a1, a2, a3, a4, a5, a6, a7, ⟨m1, a8⟩, a9⟩ := h1
    obtain ⟨b1, b2, b3, b4, b5, b6, b7, ⟨m2, b8⟩, b9⟩ := h2
    refine ⟨b1.trans a1, b2.trans a2, b3.trans a3, b4.trans a4, b5.trans a5, b6.trans a6,
      b7.trans a7, ⟨m1 ++ m2, by rw [b8, a8, List.append_assoc]⟩, fun hs => ?_⟩
    obtain ⟨d1, hd1⟩ := a9 hs
    obtain ⟨d2, hd2⟩ := b9 (a3.trans hs)
    exact ⟨d1 ++ d2, by rw [hd2, hd1, List.append_assoc]⟩
  read := by
    intro s t h hq
    obtain ⟨_, _, h3, h4, h5, h6, h7, h8, h9, h10⟩ := h
    exact ⟨h5, h6, h4, h7, h8, h9, h10, ⟨[], by rw [h3]; simp⟩,
      fun hs => ⟨[], by rw [hq hs]; simp⟩⟩
  dep := fun s => ⟨rfl, rfl, rfl, rfl, rfl, rfl, rfl, ⟨[], by simp [newDep]⟩,
    fun _ => ⟨[[]], rfl⟩⟩
  heap := fun s a ob props aug =>
    ⟨rfl, rfl, rfl, rfl, rfl, rfl, rfl, ⟨[], by simp [OSt.setObj]⟩,
      fun _ => ⟨[], by simp [OSt.setObj]⟩⟩
  observers := fun s o =>
    ⟨rfl, rfl, rfl, rfl, rfl, rfl, rfl, ⟨[], by simp⟩, fun _ => ⟨[], by simp⟩⟩
  cell := fun s c => ⟨rfl, rfl, rfl, rfl, rfl, rfl, rfl, ⟨[c], rfl⟩, fun _ => ⟨[], by simp⟩⟩

theorem observe_keeps (U : User) (fuel : Nat) (st : OSt) (v : Val) (asRoot : Bool)
    (st' : OSt) (res : Option Nat) (h : observe U fuel st v asRoot = Except.ok (st', res)) :
    st.Keeps st' :=
  observe_closed keeps_closed U fuel st v asRoot st' res h

theorem sameElems_closed : StepClosed OSt.SameElems where
  same := fun _ _ => rfl
  andThen := fun _ _ _ h1 h2 a => (h2 a).trans (h1 a)
  read := by
    intro s t h _ a
    have : t.obj a = s.obj a := by simp [OSt.obj, h.1]
    rw [this]
  dep := fun _ _ => rfl
  heap := by
    intro s a ob props aug b
    rw [obj_setObj]
    split
    · rename_i h
      rw [← h.1]
    · rfl
  observers := fun _ _ _ => rfl
  cell := fun _ _ _ => rfl

theorem observe_sameElems (U : User) (fuel : Nat) (st : OSt) (v : Val) (asRoot : Bool)
    (st' : OSt) (res : Option Nat) (h : observe U fuel st v asRoot = Except.ok (st', res)) :
    st.SameElems st' :=
  observe_closed sameElems_closed U fuel st v asRoot st' res h
/-! ## Reads and writes of a reactive slot -/

/-- A read of a slot without a custom getter returns the stored value. -/
theorem callGetter_value (U : User) (fuel : Nat) (st : OSt) (c : Nat) (cell : Cell)
    (hcell : st.cells.get? c = some cell) (hg : cell.getter = none) (s : OSt) (v : Val)
    (h : callGetter U fuel st (Fn.reactive c) = Except.ok (s, v)) : v = cell.val := by
  cases fuel with
  | zero => simp [callGetter, throw_ne_ok] at h
  | succ n =>
    simp only [callGetter, hcell, hg, bind, Except.bind, pure, Except.pure] at h
    split at h
    · simp only [Except.ok.injEq, Prod.mk.injEq] at h
      exact h.2.symm
    · split at h
      · simp only [Except.ok.injEq, Prod.mk.injEq] at h
        exact h.2.symm
      · split at h
        · cases h
        · split at h
          · split at h
            · split at h
              · cases h
              · simp only [Except.ok.injEq, Prod.mk.injEq] at h
                exact h.2.symm
            · simp only [Except.ok.injEq, Prod.mk.injEq] at h
              exact h.2.symm
          · simp only [Except.ok.injEq, Prod.mk.injEq] at h
            exact h.2.symm

/-- Without an active computation, a read of a slot without a custom getter returns the
stored value and leaves the state as it is. -/
theorem callGetter_plain (U : User) (fuel : Nat) (st : OSt) (c : Nat) (cell : Cell)
    (hcell : st.cells.get? c = some cell) (hg : cell.getter = none)
    (ht : st.target = none) :
    callGetter U (fuel + 1) st (Fn.reactive c) = Except.ok (st, cell.val) := by
  simp only [callGetter, hcell, hg, bind, Except.bind, pure, Except.pure, ht]

/-- A write of a new value to a slot without custom accessors: the value is stored, the
result of `observe` (if the slot is not shallow) becomes the child observer, and the
`Dep` of the slot is notified. -/
theorem callSetter_plain (U : User) (fuel : Nat) (st : OSt) (c : Nat) (cell : Cell)
    (newVal : Val) (st4 : OSt) (ob : Option Nat)
    (hcell : st.cells.get? c = some cell)
    (hg : cell.getter = none) (hs : cell.setter = none)
    (hdiff : (newVal.strictEq cell.val ||
      (!newVal.strictEq newVal && !cell.val.strictEq cell.val)) = false)
    (hobs : (if cell.shallow then pure (writeState st c cell newVal, none)
      else observe U fuel (writeState st c cell newVal) newVal false) = Except.ok (st4, ob)) :
    callSetter U (fuel + 1) st (Fn.reactive c) newVal
      = Except.ok (notify (writeDone st4 c cell newVal ob) cell.dep) ∧
      st4.cells.get? c = some { cell with val := newVal } ∧
      st4.notified = st.notified ∧ st4.updated = st.updated ∧ st4.target = st.target := by
  have hlen : c < st.cells.length := by
    rw [List.get?_eq_getElem?] at hcell
    exact (List.getElem?_eq_some_iff.1 hcell).1
  have hws : (writeState st c cell newVal).cells.get? c = some { cell with val := newVal } := by
    unfold writeState
    split <;> simp [List.getElem?_set, hlen]
  have hk : (writeState st c cell newVal).Keeps st4 := by
    split at hobs
    · simp only [pure_eq_ok, Prod.mk.injEq] at hobs
      rw [← hobs.1]
      exact keeps_closed.same _
    · exact observe_keeps U _ _ _ _ _ _ hobs
  obtain ⟨k1, k2, k3, _, _, _, _, ⟨more, k8⟩, _⟩ := hk
  have h4 : st4.cells.get? c = some { cell with val := newVal } := by
    rw [k8, List.get?_eq_getElem?, List.getElem?_append_left]
    · rw [← List.get?_eq_getElem?]; exact hws
    · unfold writeState
      split <;> simp [hlen]
  have hw1 : (writeState st c cell newVal).notified = st.notified := by
    unfold writeState; split <;> rfl
  have hw2 : (writeState st c cell newVal).updated = st.updated := by
    unfold writeState; split <;> rfl
  have hw3 : (writeState st c cell newVal).target = st.target := by
    unfold writeState; split <;> rfl
  refine ⟨?_, h4, k1.trans hw1, k2.trans hw2, k3.trans hw3⟩
  have hc2 : (if (!st.production && cell.customSetter) = true then
      ({ st with customSetterCalls := st.customSetterCalls + 1 } : OSt) else st).cells.get? c
        = some cell := by
    split <;> exact hcell
  have hd : (writeDone st4 c cell newVal ob) = (match st4.cells.get? c with
      | some cell1 => { st4 with cells := st4.cells.set c { cell1 with childOb := ob } }
      | none => st4) := by
    rw [h4]
    rfl
  rw [hd]
  unfold writeState at hobs
  simp only [pure, Except.pure, hg, hs] at hobs
  simp only [callSetter, hcell, hg, hs, bind, Except.bind, pure, Except.pure, hdiff,
    Option.isSome_none, Bool.false_and, Bool.false_eq_true, if_false, hc2, hobs]
theorem writeState_keeps (st : OSt) (c : Nat) (cell : Cell) (w : Val) :
    (writeState st c cell w).notified = st.notified ∧
    (writeState st c cell w).updated = st.updated ∧
    (writeState st c cell w).target = st.target ∧
    (writeState st c cell w).deps = st.deps ∧
    (writeState st c cell w).heap = st.heap ∧
    (writeState st c cell w).observers = st.observers := by
  unfold writeState
  split <;> exact ⟨rfl, rfl, rfl, rfl, rfl, rfl⟩

/-- C11 (as amended): a write to a reactive slot without custom accessors that is not
shallow, of a value `w` that is neither identical to the current value nor `NaN` for
`NaN`, where `observe(w)` returns: the write returns, the slot holds `w` (a later read
returns `w`, and without an active computation it returns at once), the child observer
of the slot is the result of `observe(w)`, and `notify` is called once, on the `Dep` of
the slot, reaching the subscribers of that `Dep` in their order (those registered before
the write when no computation is active). -/
theorem reactiveSetter_write (U : User) (fuel : Nat) (st : OSt) (c : Nat) (cell : Cell)
    (w : Val) (st4 : OSt) (ob : Option Nat)
    (hcell : st.cells.get? c = some cell)
    (hg : cell.getter = none) (hs : cell.setter = none) (hsh : cell.shallow = false)
    (hdiff : (w.strictEq cell.val || (!w.strictEq w && !cell.val.strictEq cell.val)) = false)
    (hobs : observe U fuel (writeState st c cell w) w false = Except.ok (st4, ob)) :
    ∃ st', callSetter U (fuel + 1) st (Fn.reactive c) w = Except.ok st' ∧
      st'.cells.get? c = some { cell with val := w, childOb := ob } ∧
      (∀ n s v, callGetter U n st' (Fn.reactive c) = Except.ok (s, v) → v = w) ∧
      (st.target = none → ∀ n, callGetter U (n + 1) st' (Fn.reactive c) = Except.ok (st', w)) ∧
      st'.notified = st.notified ++ [cell.dep] ∧
      st'.updated = st.updated ++ st4.deps.getD cell.dep [] ∧
      (st.target = none → cell.dep < st.deps.length →
        st4.deps.getD cell.dep [] = st.deps.getD cell.dep []) := by
  have hobs' : (if cell.shallow then pure (writeState st c cell w, none)
      else observe U fuel (writeState st c cell w) w false) = Except.ok (st4, ob) := by
    rw [hsh]; exact hobs
  obtain ⟨hset, h4, hn, hu, ht⟩ := callSetter_plain U fuel st c cell w st4 ob hcell hg hs hdiff
    hobs'
  have hlen4 : c < st4.cells.length := by
    rw [List.get?_eq_getElem?] at h4
    exact (List.getElem?_eq_some_iff.1 h4).1
  have hget : (notify (writeDone st4 c cell w ob) cell.dep).cells.get? c
      = some { cell with val := w, childOb := ob } := by
    simp [notify, writeDone, List.getElem?_set, hlen4]
  have hk := observe_keeps U _ _ _ _ _ _ hobs
  obtain ⟨w1, w2, w3, w4, _, _⟩ := writeState_keeps st c cell w
  refine ⟨_, hset, hget, ?_, ?_, ?_, ?_, ?_⟩
  · intro n s v h
    exact callGetter_value U n _ c _ hget hg s v h
  · intro htn n
    exact callGetter_plain U n _ c _ hget hg (by
      show st4.target = none
      rw [ht]; exact htn)
  · show st4.notified ++ [cell.dep] = _
    rw [hn]
  · show st4.updated ++ _ = _
    rw [hu]
    rfl
  · intro htn hd
    obtain ⟨more, hm⟩ := hk.2.2.2.2.2.2.2.2 (w3.trans htn)
    rw [hm, w4]
    simp only [List.getD_eq_getElem?_getD]
    rw [List.getElem?_append_left hd]

theorem reactiveSetter_write_witness :
    ∃ st', callSetter noUser 2 oneRecordWatched (Fn.reactive 0) (Val.num 2) = Except.ok st' ∧
      st'.cells.get? 0 = some { cellA with val := Val.num 2, childOb := none } ∧
      (∀ n s v, callGetter noUser n st' (Fn.reactive 0) = Except.ok (s, v) → v = Val.num 2) ∧
      (oneRecordWatched.target = none →
        ∀ n, callGetter noUser (n + 1) st' (Fn.reactive 0) = Except.ok (st', Val.num 2)) ∧
      st'.notified = oneRecordWatched.notified ++ [cellA.dep] ∧
      st'.updated = oneRecordWatched.updated ++
        (writeState oneRecordWatched 0 cellA (Val.num 2)).deps.getD cellA.dep [] ∧
      (oneRecordWatched.target = none → cellA.dep < oneRecordWatched.deps.length →
        (writeState oneRecordWatched 0 cellA (Val.num 2)).deps.getD cellA.dep []
          = oneRecordWatched.deps.getD cellA.dep []) :=
  reactiveSetter_write noUser 1 oneRecordWatched 0 cellA (Val.num 2)
    (writeState oneRecordWatched 0 cellA (Val.num 2)) none rfl rfl rfl rfl (by decide) rfl

/-- C11 (counterexample): the property `a` of `shallowRecord` is a reactive plain data
slot in shallow mode. The write of the record at address 1 stores it and notifies, but does
not observe it: the record carries no observer after the write, although `observe` would
give it one. -/
theorem reactiveSetter_write_counterexample :
    (callSetter noUser 3 shallowRecord (Fn.reactive 0) (Val.ref 1)).toOption.map
        (fun s => (s.cells.map (fun x => x.val), s.notified, (s.obj 1).ob, s.observers.length))
      = some ([Val.ref 1], [0], ObProp.absent, 0) ∧
    (observe noUser 2 shallowRecord (Val.ref 1) false).toOption.map
        (fun r => ((r.1.obj 1).ob, r.2)) = some (ObProp.observer 0, some 0) := by
  refine ⟨by decide, by decide⟩
/-! ## Registration of the active computation by a read -/

theorem dependArray_respects {R : OSt → OSt → Prop} (hsame : ∀ s, R s s)
    (hthen : ∀ s t u, R s t → R t u → R s u) (hdep : ∀ s d, R s (depend s d)) :
    ∀ (fuel : Nat) (st : OSt) (l : List Val) (st' : OSt),
      dependArray fuel st l = Except.ok st' → R st st' := by
  intro fuel
  induction fuel with
  | zero =>
    intro st l st' h
    simp [dependArray, throw_ne_ok] at h
  | succ n ih =>
    intro st l st' h
    cases l with
    | nil =>
      simp only [dependArray, pure_eq_ok] at h
      subst h
      exact hsame _
    | cons e rest =>
      cases e with
      | ref a =>
        simp only [dependArray, bind_eq_ok] at h
        obtain ⟨st1, h1, st2, h2, h3⟩ := h
        have e1 : R st st1 := by
          split at h1
          · simp only [pure_eq_ok] at h1
            subst h1
            exact hsame _
          · exact absurd h1 (throw_ne_ok _ _)
          · split at h1
            · simp only [pure_eq_ok] at h1
              subst h1
              exact hdep _ _
            · exact absurd h1 (throw_ne_ok _ _)
        have e2 : R st1 st2 := by
          split at h2
          · exact ih _ _ _ h2
          · simp only [pure_eq_ok] at h2
            subst h2
            exact hsame _
        exact hthen _ _ _ (hthen _ _ _ e1 e2) (ih _ _ _ h3)
      | undefined => simp only [dependArray] at h; exact ih _ _ _ h
      | null => simp only [dependArray] at h; exact ih _ _ _ h
      | bool b => simp only [dependArray] at h; exact ih _ _ _ h
      | num k => simp only [dependArray] at h; exact ih _ _ _ h
      | nan => simp only [dependArray] at h; exact ih _ _ _ h
      | str s => simp only [dependArray] at h; exact ih _ _ _ h

/-- A relation that holds across every call of `depend` holds across a read. -/
theorem callGetter_respects {R : OSt → OSt → Prop} (hsame : ∀ s, R s s)
    (hthen : ∀ s t u, R s t → R t u → R s u) (hdep : ∀ s d, R s (depend s d)) (U : User) :
    ∀ (fuel : Nat) (st : OSt) (f : Fn) (st' : OSt) (v : Val),
      callGetter U fuel st f = Except.ok (st', v) → R st st' := by
  intro fuel
  induction fuel with
  | zero =>
    intro st f st' v h
    simp [callGetter, throw_ne_ok] at h
  | succ n ih =>
    intro st f st' v h
    cases f with
    | user g =>
      simp only [callGetter, pure_eq_ok, Prod.mk.injEq] at h
      rw [← h.1]
      exact hsame _
    | reactive c =>
      simp only [callGetter] at h
      cases hc : st.cells.get? c with
      | none =>
        rw [hc] at h
        exact absurd h (throw_ne_ok _ _)
      | some cell =>
        rw [hc] at h
        simp only [bind_eq_ok] at h
        obtain ⟨r, hr, h⟩ := h
        have e1 : R st r.1 := by
          cases hg : cell.getter with
          | none =>
            rw [hg] at hr
            simp only [pure_eq_ok] at hr
            rw [← hr]
            exact hsame _
          | some g =>
            rw [hg] at hr
            exact ih _ _ _ _ hr
        have d1 := hdep r.1 cell.dep
        split at h
        · simp only [pure_eq_ok, Prod.mk.injEq] at h
          rw [← h.1]; exact e1
        · split at h
          · simp only [pure_eq_ok, Prod.mk.injEq] at h
            rw [← h.1]; exact hthen _ _ _ e1 d1
          · split at h
            · exact absurd h (throw_ne_ok _ _)
            · rename_i i _ ob hob
              have d2 := hdep (depend r.1 cell.dep) ob.dep
              split at h
              · split at h
                · simp only [bind_eq_ok, pure_eq_ok, Prod.mk.injEq] at h
                  obtain ⟨st4, h4, h5⟩ := h
                  rw [← h5.1]
                  exact hthen _ _ _ (hthen _ _ _ (hthen _ _ _ e1 d1) d2)
                    (dependArray_respects hsame hthen hdep _ _ _ _ h4)
                · simp only [pure_eq_ok, Prod.mk.injEq] at h
                  rw [← h.1]; exact hthen _ _ _ (hthen _ _ _ e1 d1) d2
              · simp only [pure_eq_ok, Prod.mk.injEq] at h
                rw [← h.1]; exact hthen _ _ _ (hthen _ _ _ e1 d1) d2

theorem registers_same (w : Nat) (s : OSt) : s.Registers w s :=
  ⟨rfl, rfl, rfl, fun _ _ => ⟨id, id⟩⟩

theorem registers_then (w : Nat) (s t u : OSt) (h1 : s.Registers w t) (h2 : t.Registers w u) :
    s.Registers w u := by
  refine ⟨h2.1.trans h1.1, h2.2.1.trans h1.2.1, h2.2.2.1.trans h1.2.2.1, fun hs d => ?_⟩
  have a := h1.2.2.2 hs d
  have b := h2.2.2.2 (h1.1.trans hs) d
  exact ⟨fun h => b.1 (a.1 h), fun h => b.2 (a.2 h)⟩

theorem getD_set_deps (deps : List (List Nat)) (dep d : Nat) (l : List Nat) :
    (deps.set dep l).getD d [] = if dep = d ∧ dep < deps.length then l else deps.getD d [] := by
  simp only [List.getD_eq_getElem?_getD, List.getElem?_set]
  by_cases hd : dep = d
  · subst hd
    by_cases hl : dep < deps.length
    · simp [hl]
    · have : deps[dep]? = none := by
        rw [List.getElem?_eq_none_iff]; omega
      simp [hl, this]
  · simp [hd]

theorem registers_depend (w : Nat) (s : OSt) (dep : Nat) : s.Registers w (depend s dep) := by
  unfold depend
  split
  · exact registers_same w s
  · rename_i x hx
    split
    · exact registers_same w s
    · rename_i hnot
      refine ⟨rfl, rfl, by simp, fun hs d => ?_⟩
      rw [hx] at hs
      simp only [Option.some.injEq] at hs
      subst hs
      show (x ∈ _ → x ∈ (s.deps.set dep _).getD d []) ∧
        (_ → ((s.deps.set dep _).getD d []).count x ≤ 1)
      rw [getD_set_deps]
      split
      · rename_i hd
        rw [← hd.1]
        refine ⟨fun h => List.mem_append_left _ h, fun _ => ?_⟩
        rw [List.count_append, List.count_eq_zero_of_not_mem hnot]
        simp
      · exact ⟨id, id⟩

theorem depend_registered (w : Nat) (s : OSt) (dep : Nat) (ht : s.target = some w)
    (hd : dep < s.deps.length) : w ∈ (depend s dep).deps.getD dep [] := by
  unfold depend
  rw [ht]
  simp only
  split
  · assumption
  · show w ∈ (s.deps.set dep _).getD dep []
    rw [getD_set_deps, if_pos ⟨rfl, hd⟩]
    simp

theorem callGetter_registers (U : User) (w : Nat) (fuel : Nat) (st : OSt) (f : Fn)
    (st' : OSt) (v : Val) (h : callGetter U fuel st f = Except.ok (st', v)) :
    st.Registers w st' :=
  callGetter_respects (registers_same w) (registers_then w) (registers_depend w) U fuel st f
    st' v h

/-- A read of a reactive slot while `w` is the active computation leaves `w` among the
subscribers of the `Dep` of the slot. -/
theorem callGetter_registered (U : User) (w : Nat) (fuel : Nat) (st : OSt) (c : Nat)
    (cell : Cell) (st' : OSt) (v : Val)
    (hcell : st.cells.get? c = some cell) (ht : st.target = some w)
    (hd : cell.dep < st.deps.length)
    (h : callGetter U fuel st (Fn.reactive c) = Except.ok (st', v)) :
    w ∈ st'.deps.getD cell.dep [] := by
  cases fuel with
  | zero => simp [callGetter, throw_ne_ok] at h
  | succ n =>
    simp only [callGetter, hcell] at h
    simp only [bind_eq_ok] at h
    obtain ⟨r, hr, h⟩ := h
    have e1 : st.Registers w r.1 := by
      cases hg : cell.getter with
      | none =>
        rw [hg] at hr
        simp only [pure_eq_ok] at hr
        rw [← hr]
        exact registers_same w _
      | some g =>
        rw [hg] at hr
        exact callGetter_registers U w _ _ _ _ _ hr
    have ht1 : r.1.target = some w := e1.1.trans ht
    have hd1 : cell.dep < r.1.deps.length := by rw [e1.2.2.1]; exact hd
    have hm := depend_registered w r.1 cell.dep ht1 hd1
    have ht2 : (depend r.1 cell.dep).target = some w :=
      (registers_depend w r.1 cell.dep).1.trans ht1
    rw [ht1] at h
    simp only at h
    split at h
    · simp only [pure_eq_ok, Prod.mk.injEq] at h
      rw [← h.1]; exact hm
    · split at h
      · exact absurd h (throw_ne_ok _ _)
      · rename_i i _ ob hob
        have d2 := registers_depend w (depend r.1 cell.dep) ob.dep
        have hm2 := (d2.2.2.2 ht2 cell.dep).1 hm
        have ht3 : (depend (depend r.1 cell.dep) ob.dep).target = some w := d2.1.trans ht2
        split at h
        · split at h
          · simp only [bind_eq_ok, pure_eq_ok, Prod.mk.injEq] at h
            obtain ⟨st4, h4, h5⟩ := h
            rw [← h5.1]
            exact ((dependArray_respects (registers_same w) (registers_then w)
              (registers_depend w) _ _ _ _ h4).2.2.2 ht3 cell.dep).1 hm2
          · simp only [pure_eq_ok, Prod.mk.injEq] at h
            rw [← h.1]; exact hm2
        · simp only [pure_eq_ok, Prod.mk.injEq] at h
          rw [← h.1]; exact hm2
theorem readTimes_registers (U : User) (w : Nat) (fuel : Nat) (c : Nat) :
    ∀ (n : Nat) (st st' : OSt), readTimes U fuel c n st = Except.ok st' →
      st.Registers w st' := by
  intro n
  induction n with
  | zero =>
    intro st st' h
    simp only [readTimes, pure_eq_ok] at h
    rw [← h]
    exact registers_same w _
  | succ k ih =>
    intro st st' h
    simp only [readTimes, bind_eq_ok] at h
    obtain ⟨r, hr, h⟩ := h
    exact registers_then w _ _ _ (callGetter_registers U w _ _ _ _ _ hr) (ih _ _ h)

theorem readTimes_quiet (U : User) (fuel : Nat) (c : Nat) :
    ∀ (n : Nat) (st st' : OSt), st.target = none →
      readTimes U fuel c n st = Except.ok st' → st' = st := by
  intro n
  induction n with
  | zero =>
    intro st st' _ h
    simp only [readTimes, pure_eq_ok] at h
    exact h.symm
  | succ k ih =>
    intro st st' ht h
    simp only [readTimes, bind_eq_ok] at h
    obtain ⟨r, hr, h⟩ := h
    have e := callGetter_quiet U _ _ _ _ _ ht hr
    rw [e] at h
    exact ih _ _ ht h

/-- Reads of a slot without a custom getter and without a child observer return. -/
theorem readTimes_returns (U : User) (fuel : Nat) (c : Nat) (cell : Cell)
    (hg : cell.getter = none) (hch : cell.childOb = none) :
    ∀ (n : Nat) (st : OSt), st.cells.get? c = some cell →
      ∃ s, readTimes U (fuel + 1) c n st = Except.ok s := by
  intro n
  induction n with
  | zero =>
    intro st _
    exact ⟨st, rfl⟩
  | succ k ih =>
    intro st hcell
    have hread : ∃ s, callGetter U (fuel + 1) st (Fn.reactive c) = Except.ok (s, cell.val) ∧
        s.cells = st.cells := by
      simp only [callGetter, hcell, hg, hch, bind, Except.bind, pure, Except.pure]
      cases ht : st.target with
      | none => exact ⟨st, rfl, rfl⟩
      | some w => exact ⟨depend st cell.dep, rfl, (depend_onlyDeps st cell.dep).2.2.1⟩
    obtain ⟨s, hs, hc⟩ := hread
    obtain ⟨s2, h2⟩ := ih s (by rw [hc]; exact hcell)
    refine ⟨s2, ?_⟩
    simp only [readTimes, hs, bind, Except.bind]
    exact h2

/-! ### The reads return -/

theorem nestedLe_cons (heap : List ObjRec) (nobs d : Nat) (e : Val) (rest : List Val)
    (h : nestedLe heap nobs d (e :: rest) = true) :
    nestedLe heap nobs d [e] = true ∧ nestedLe heap nobs d rest = true := by
  cases d with
  | zero =>
    simp only [nestedLe, List.all_cons, Bool.and_eq_true, List.all_nil, Bool.and_true] at h ⊢
    exact h
  | succ d =>
    simp only [nestedLe, List.all_cons, Bool.and_eq_true, List.all_nil, Bool.and_true] at h ⊢
    exact h

theorem dependArray_step_ref (fuel : Nat) (s : OSt) (a : Nat) (rest : List Val) :
    dependArray (fuel + 1) s (Val.ref a :: rest) = (do
      let st1 ← (match (s.obj a).ob with
        | ObProp.absent => pure s
        | ObProp.foreign _ => throw Err.typeError
        | ObProp.observer i =>
          match s.observers.get? i with
          | some ob => pure (depend s ob.dep)
          | none => throw Err.typeError)
      let st2 ← (if (s.obj a).kind = ObjKind.array then dependArray fuel st1 (s.obj a).elems
        else pure st1)
      dependArray fuel st2 rest) := rfl

/-- With enough fuel `dependArray` returns on a list below which arrays are nested
finitely. -/
theorem dependArray_total (heap : List ObjRec) (obs : List Observer) :
    ∀ (d : Nat) (l : List Val), ∃ f0, ∀ (s : OSt), s.heap = heap → s.observers = obs →
      nestedLe heap obs.length d l = true → ∀ f, f0 ≤ f →
        ∃ s', dependArray f s l = Except.ok s' := by
  intro d
  induction d using Nat.strong_induction_on with
  | _ d ihd =>
    intro l
    induction l with
    | nil =>
      refine ⟨1, fun s _ _ _ f hf => ?_⟩
      obtain ⟨f', rfl⟩ : ∃ f', f = f' + 1 := ⟨f - 1, by omega⟩
      exact ⟨s, rfl⟩
    | cons e rest ihl =>
      obtain ⟨f2, h2⟩ := ihl
      have hother : (∀ a, e ≠ Val.ref a) → ∃ f0, ∀ (s : OSt), s.heap = heap →
          s.observers = obs → nestedLe heap obs.length d (e :: rest) = true → ∀ f, f0 ≤ f →
            ∃ s', dependArray f s (e :: rest) = Except.ok s' := by
        intro hne
        refine ⟨f2 + 1, fun s hh ho hn f hf => ?_⟩
        obtain ⟨f', rfl⟩ : ∃ f', f = f' + 1 := ⟨f - 1, by omega⟩
        have hr := h2 s hh ho (nestedLe_cons heap obs.length d e rest hn).2 f' (by omega)
        cases e with
        | ref a => exact absurd rfl (hne a)
        | undefined => exact hr
        | null => exact hr
        | bool b => exact hr
        | num k => exact hr
        | nan => exact hr
        | str t => exact hr
      cases e with
      | ref a =>
        -- the bound for the elements of the array at `a`
        have hin : ∃ f1, ∀ (s : OSt), s.heap = heap → s.observers = obs →
            nestedLe heap obs.length d [Val.ref a] = true → ∀ f, f1 ≤ f →
              ∃ s', (if (heap.getD a default).kind = ObjKind.array then
                dependArray f s (heap.getD a default).elems else pure s) = Except.ok s' := by
          by_cases hk : (heap.getD a default).kind = ObjKind.array
          · cases d with
            | zero =>
              refine ⟨0, fun s _ _ hn _ _ => ?_⟩
              simp only [nestedLe, List.all_cons, List.all_nil, Bool.and_true,
                Bool.and_eq_true, decide_eq_true_eq] at hn
              exact absurd hk hn.2
            | succ d' =>
              obtain ⟨f1, h1⟩ := ihd d' (Nat.lt_succ_self _) (heap.getD a default).elems
              refine ⟨f1, fun s hh ho hn f hf => ?_⟩
              rw [if_pos hk]
              have hn' : nestedLe heap obs.length d' (heap.getD a default).elems = true := by
                simp only [nestedLe, List.all_cons, List.all_nil, Bool.and_true,
                  Bool.and_eq_true, if_pos hk] at hn
                exact hn.2
              exact h1 s hh ho hn' f hf
          · refine ⟨0, fun s _ _ _ f _ => ?_⟩
            rw [if_neg hk]
            exact ⟨s, rfl⟩
        obtain ⟨f1, h1⟩ := hin
        refine ⟨max f1 f2 + 1, fun s hh ho hn f hf => ?_⟩
        obtain ⟨f', rfl⟩ : ∃ f', f = f' + 1 := ⟨f - 1, by omega⟩
        obtain ⟨hn1, hn2⟩ := nestedLe_cons heap obs.length d _ rest hn
        have hobj : s.obj a = heap.getD a default := by rw [OSt.obj, hh]
        -- the first statement of the body
        have hst1 : ∃ s1, (match (s.obj a).ob with
            | ObProp.absent => (pure s : Res OSt)
            | ObProp.foreign _ => throw Err.typeError
            | ObProp.observer i =>
              match s.observers.get? i with
              | some ob => pure (depend s ob.dep)
              | none => throw Err.typeError) = Except.ok s1 ∧ s.OnlyDeps s1 := by
          have htr : (match (heap.getD a default).ob with
              | ObProp.absent => true
              | ObProp.foreign _ => false
              | ObProp.observer i => decide (i < obs.length)) = true := by
            cases d with
            | zero =>
              simp only [nestedLe, List.all_cons, List.all_nil, Bool.and_true,
                Bool.and_eq_true] at hn1
              exact hn1.1
            | succ d' =>
              simp only [nestedLe, List.all_cons, List.all_nil, Bool.and_true,
                Bool.and_eq_true] at hn1
              exact hn1.1
          rw [hobj]
          cases hob : (heap.getD a default).ob with
          | absent => exact ⟨s, rfl, OSt.OnlyDeps.same _⟩
          | foreign c => rw [hob] at htr; cases htr
          | observer i =>
            rw [hob] at htr
            simp only [decide_eq_true_eq] at htr
            have hget : s.observers.get? i = some (obs.get ⟨i, htr⟩) := by
              rw [ho]
              exact List.get?_eq_get htr
            simp only [hget]
            exact ⟨_, rfl, depend_onlyDeps _ _⟩
        obtain ⟨s1, hs1, e1⟩ := hst1
        obtain ⟨s2, hs2⟩ := h1 s1 (e1.1.trans hh) (e1.2.1.trans ho) hn1 f' (by omega)
        have e2 : s1.OnlyDeps s2 := by
          split at hs2
          · exact dependArray_onlyDeps _ _ _ _ hs2
          · rw [pure_eq_ok] at hs2
            rw [← hs2]
            exact OSt.OnlyDeps.same _
        obtain ⟨s3, hs3⟩ := h2 s2 (e2.1.trans (e1.1.trans hh))
          (e2.2.1.trans (e1.2.1.trans ho)) hn2 f' (by omega)
        refine ⟨s3, ?_⟩
        rw [dependArray_step_ref, hs1]
        simp only [bind, Except.bind]
        rw [hobj, hs2]
        exact hs3
      | undefined => exact hother (fun a h => by cases h)
      | null => exact hother (fun a h => by cases h)
      | bool b => exact hother (fun a h => by cases h)
      | num k => exact hother (fun a h => by cases h)
      | nan => exact hother (fun a h => by cases h)
      | str t => exact hother (fun a h => by cases h)

theorem callGetter_inner (U : User) (f : Nat) (s : OSt) (cell : Cell)
    (hget : cell.getter = none ∨ ∃ g, cell.getter = some (Fn.user g)) :
    (match cell.getter with
      | some g => callGetter U (f + 1) s g
      | none => pure (s, cell.val)) = Except.ok (s, cell.reads U s.heap) := by
  rcases hget with h | ⟨g, h⟩
  · simp only [h, Cell.reads]
    rfl
  · simp only [h, Cell.reads, callGetter]
    rfl

theorem callGetter_total (U : User) (st : OSt) (c : Nat) (cell : Cell) (d : Nat)
    (hcell : st.cells.get? c = some cell)
    (hget : cell.getter = none ∨ ∃ g, cell.getter = some (Fn.user g))
    (hchild : ∀ i, cell.childOb = some i → i < st.observers.length)
    (hval : ∀ a, cell.reads U st.heap = Val.ref a → (st.obj a).kind = ObjKind.array →
      nestedLe st.heap st.observers.length d (st.obj a).elems = true) :
    ∃ f0, ∀ s, st.OnlyDeps s → ∀ f, f0 ≤ f →
      ∃ r, callGetter U f s (Fn.reactive c) = Except.ok r := by
  have hdep : ∃ f1, ∀ a, cell.reads U st.heap = Val.ref a →
      (st.obj a).kind = ObjKind.array → ∀ s, st.OnlyDeps s → ∀ f, f1 ≤ f →
        ∃ s', dependArray f s (st.obj a).elems = Except.ok s' := by
    cases hv : cell.reads U st.heap with
    | ref a =>
      by_cases hk : (st.obj a).kind = ObjKind.array
      · obtain ⟨f1, h1⟩ := dependArray_total st.heap st.observers d (st.obj a).elems
        refine ⟨f1, fun b hb _ s hs f hf => ?_⟩
        cases hb
        exact h1 s hs.1 hs.2.1 (hval a hv hk) f hf
      · refine ⟨0, fun b hb hkb => ?_⟩
        cases hb
        exact absurd hkb hk
    | undefined => exact ⟨0, fun a h => by cases h⟩
    | null => exact ⟨0, fun a h => by cases h⟩
    | bool b => exact ⟨0, fun a h => by cases h⟩
    | num k => exact ⟨0, fun a h => by cases h⟩
    | nan => exact ⟨0, fun a h => by cases h⟩
    | str t => exact ⟨0, fun a h => by cases h⟩
  obtain ⟨f1, h1⟩ := hdep
  refine ⟨f1 + 2, fun s hs f hf => ?_⟩
  obtain ⟨f', rfl⟩ : ∃ f', f = f' + 2 := ⟨f - 2, by omega⟩
  have hcell' : s.cells.get? c = some cell := by rw [hs.2.2.1]; exact hcell
  have hin := callGetter_inner U f' s cell hget
  have hheap : s.heap = st.heap := hs.1
  have hobj : ∀ a, s.obj a = st.obj a := fun a => by rw [OSt.obj, OSt.obj, hheap]
  have e : callGetter U (f' + 2) s (Fn.reactive c) = (do
      let r ← (match cell.getter with
        | some g => callGetter U (f' + 1) s g
        | none => pure (s, cell.val))
      let st1 := r.1
      let value := r.2
      let childOb := match st1.cells.get? c with
        | some cell1 => cell1.childOb
        | none => cell.childOb
      match st1.target with
      | none => pure (st1, value)
      | some _ =>
        let st2 := depend st1 cell.dep
        match childOb with
        | none => pure (st2, value)
        | some i =>
          match st2.observers.get? i with
          | none => throw Err.typeError
          | some ob =>
            let st3 := depend st2 ob.dep
            match value with
            | Val.ref a =>
              if (st3.obj a).kind = ObjKind.array then do
                let st4 ← dependArray (f' + 1) st3 (st3.obj a).elems
                pure (st4, value)
              else pure (st3, value)
            | _ => pure (st3, value)) := by
    simp only [callGetter, hcell'] <;> rfl
  rw [e, hin]
  simp only [bind, Except.bind, hcell']
  cases ht : s.target with
  | none => exact ⟨_, rfl⟩
  | some w =>
    simp only
    cases hch : cell.childOb with
    | none => exact ⟨_, rfl⟩
    | some i =>
      simp only
      have e2 := depend_onlyDeps s cell.dep
      have hi : i < (depend s cell.dep).observers.length := by
        rw [e2.2.1, hs.2.1]
        exact hchild i hch
      rw [List.get?_eq_get hi]
      simp only
      have e3 := depend_onlyDeps (depend s cell.dep)
        ((depend s cell.dep).observers.get ⟨i, hi⟩).dep
      have e13 : st.OnlyDeps (depend (depend s cell.dep)
          ((depend s cell.dep).observers.get ⟨i, hi⟩).dep) := (hs.andThen e2).andThen e3
      rw [hheap]
      cases hv : cell.reads U st.heap with
      | ref a =>
        simp only
        have hobj3 : (depend (depend s cell.dep)
            ((depend s cell.dep).observers.get ⟨i, hi⟩).dep).obj a = st.obj a := by
          rw [OSt.obj, OSt.obj, e13.1]
        rw [hobj3]
        by_cases hk : (st.obj a).kind = ObjKind.array
        · rw [if_pos hk]
          obtain ⟨s4, h4⟩ := h1 a hv hk _ e13 (f' + 1) (by omega)
          rw [h4]
          exact ⟨_, rfl⟩
        · rw [if_neg hk]
          exact ⟨_, rfl⟩
      | undefined => exact ⟨_, rfl⟩
      | null => exact ⟨_, rfl⟩
      | bool b => exact ⟨_, rfl⟩
      | num k => exact ⟨_, rfl⟩
      | nan => exact ⟨_, rfl⟩
      | str t => exact ⟨_, rfl⟩

theorem readTimes_total (U : User) (st : OSt) (c : Nat) (cell : Cell) (d : Nat)
    (hcell : st.cells.get? c = some cell)
    (hget : cell.getter = none ∨ ∃ g, cell.getter = some (Fn.user g))
    (hchild : ∀ i, cell.childOb = some i → i < st.observers.length)
    (hval : ∀ a, cell.reads U st.heap = Val.ref a → (st.obj a).kind = ObjKind.array →
      nestedLe st.heap st.observers.length d (st.obj a).elems = true) :
    ∃ f0, ∀ f, f0 ≤ f → ∀ (n : Nat) (s : OSt), st.OnlyDeps s →
      ∃ s', readTimes U f c n s = Except.ok s' := by
  obtain ⟨f0, h0⟩ := callGetter_total U st c cell d hcell hget hchild hval
  refine ⟨f0, fun f hf n => ?_⟩
  induction n with
  | zero => intro s _; exact ⟨s, rfl⟩
  | succ k ih =>
    intro s hs
    obtain ⟨r, hr⟩ := h0 s hs f hf
    have e1 := callGetter_onlyDeps U f s (Fn.reactive c) r.1 r.2 hr
    obtain ⟨s2, h2⟩ := ih r.1 (hs.andThen e1)
    refine ⟨s2, ?_⟩
    simp only [readTimes, hr, bind, Except.bind]
    exact h2

theorem dependArray_self :
    ∀ (fuel : Nat) (s : OSt), s.heap = selfArrayObserved.heap →
      s.observers = selfArrayObserved.observers →
      dependArray fuel s [Val.ref 1] = Except.error Err.outOfFuel := by
  intro fuel
  induction fuel with
  | zero => intro s _ _; rfl
  | succ n ih =>
    intro s hh ho
    have hobj : s.obj 1 = selfArrayObserved.obj 1 := by
      rw [OSt.obj, OSt.obj, hh]
    have hget : s.observers.get? 1 = some ⟨1, 2, 0⟩ := by
      rw [ho]
      rfl
    have e : dependArray (n + 1) s [Val.ref 1] = (do
        let st2 ← dependArray n (depend s 2) [Val.ref 1]
        dependArray n st2 []) := by
      rw [dependArray_step_ref, hobj]
      show (do
        let st1 ← (match s.observers.get? 1 with
          | some ob => pure (depend s ob.dep)
          | none => throw Err.typeError)
        let st2 ← dependArray n st1 [Val.ref 1]
        dependArray n st2 []) = _
      rw [hget]
      rfl
    rw [e, ih (depend s 2) ((depend_onlyDeps s 2).1.trans hh)
      ((depend_onlyDeps s 2).2.1.trans ho)]
    rfl

theorem read_self :
    ∀ fuel, callGetter noUser fuel selfArrayActive (Fn.reactive 0)
      = Except.error Err.outOfFuel := by
  intro fuel
  cases fuel with
  | zero => rfl
  | succ n =>
    have e : callGetter noUser (n + 1) selfArrayActive (Fn.reactive 0)
        = (do
          let st4 ← dependArray n (depend (depend selfArrayActive 1) 2) [Val.ref 1]
          pure (st4, Val.ref 1)) := rfl
    have h := dependArray_self n (depend (depend selfArrayActive 1) 2) rfl rfl
    rw [e, h]
    rfl

/-- C12: `N ≥ 1` reads of a reactive slot whose `Dep` exists. (1) Whenever the reads
return: while `w` is the active computation they leave `w` exactly once among the
subscribers of the `Dep` of the slot (a collection that held `w` at most once before), and
while no computation is active they leave the state as it is. (2) With enough fuel the
reads do return, with those two results, when the getter the property had before it was
made reactive is absent or a function of the application, the child observer of the slot,
if it has one, exists, and, when the value read is an array, arrays are nested at most `d`
deep below it and every `__ob__` met there is undefined or an existing observer. (3) The
reads of a slot without such a getter and without a child observer return with any fuel
but zero. -/
theorem reactiveGetter_registers_once (U : User) (st : OSt) (c : Nat) (cell : Cell)
    (N : Nat) (hcell : st.cells.get? c = some cell) (hd : cell.dep < st.deps.length)
    (hN : 1 ≤ N) :
    (∀ fuel st', readTimes U fuel c N st = Except.ok st' →
      (∀ w, st.target = some w → (st.deps.getD cell.dep []).count w ≤ 1 →
        (st'.deps.getD cell.dep []).count w = 1) ∧
      (st.target = none → st' = st)) ∧
    (∀ d, (cell.getter = none ∨ ∃ g, cell.getter = some (Fn.user g)) →
      (∀ i, cell.childOb = some i → i < st.observers.length) →
      (∀ a, cell.reads U st.heap = Val.ref a → (st.obj a).kind = ObjKind.array →
        nestedLe st.heap st.observers.length d (st.obj a).elems = true) →
      ∃ f0, ∀ fuel, f0 ≤ fuel → ∃ st', readTimes U fuel c N st = Except.ok st' ∧
        (∀ w, st.target = some w → (st.deps.getD cell.dep []).count w ≤ 1 →
          (st'.deps.getD cell.dep []).count w = 1) ∧
        (st.target = none → st' = st)) ∧
    (cell.getter = none → cell.childOb = none →
      ∀ n M, ∃ s, readTimes U (n + 1) c M st = Except.ok s) := by
  have hA : ∀ fuel st', readTimes U fuel c N st = Except.ok st' →
      (∀ w, st.target = some w → (st.deps.getD cell.dep []).count w ≤ 1 →
        (st'.deps.getD cell.dep []).count w = 1) ∧
      (st.target = none → st' = st) := by
    intro fuel st' hrun
    refine ⟨fun w ht hc => ?_, fun ht => readTimes_quiet U fuel c N st st' ht hrun⟩
    obtain ⟨k, hk⟩ : ∃ k, N = k + 1 := ⟨N - 1, by omega⟩
    subst hk
    simp only [readTimes, bind_eq_ok] at hrun
    obtain ⟨r, hr, hrest⟩ := hrun
    have e1 := callGetter_registers U w _ _ _ _ _ hr
    have hm := callGetter_registered U w _ _ c cell _ _ hcell ht hd hr
    have e2 := readTimes_registers U w _ _ _ _ _ hrest
    have ht1 : r.1.target = some w := e1.1.trans ht
    have hc1 := (e1.2.2.2 ht cell.dep).2 hc
    have hm2 := (e2.2.2.2 ht1 cell.dep).1 hm
    have hc2 := (e2.2.2.2 ht1 cell.dep).2 hc1
    have := List.count_pos_iff.2 hm2
    omega
  refine ⟨hA, fun d hget hchild hval => ?_,
    fun hg hch n M => readTimes_returns U n c cell hg hch M st hcell⟩
  obtain ⟨f0, h0⟩ := readTimes_total U st c cell d hcell hget hchild hval
  refine ⟨f0, fun fuel hf => ?_⟩
  obtain ⟨st', hrun⟩ := h0 fuel hf N st (OSt.OnlyDeps.same st)
  exact ⟨st', hrun, hA fuel st' hrun⟩

/-- C12 (witness): three reads of the property `a` of the observed record `{a: [10, 20]}`
while the computation 7 is the active one. -/
theorem reactiveGetter_registers_once_witness :
    ∃ f0, ∀ fuel, f0 ≤ fuel → ∃ st', readTimes noUser fuel 0 3 listRecordActive
        = Except.ok st' ∧
      (∀ w, listRecordActive.target = some w →
        (listRecordActive.deps.getD (newCell 0 "a" 1 (Val.ref 1) (some 1)).dep []).count w ≤ 1 →
        (st'.deps.getD (newCell 0 "a" 1 (Val.ref 1) (some 1)).dep []).count w = 1) ∧
      (listRecordActive.target = none → st' = listRecordActive) :=
  (reactiveGetter_registers_once noUser listRecordActive 0
    (newCell 0 "a" 1 (Val.ref 1) (some 1)) 3 rfl (by decide) (by decide)).2.1 0
    (Or.inl rfl) (fun i h => by cases h; decide)
    (fun a h _ => by cases h; decide)

/-- C12 (counterexample): the record `{a: arr}` with `arr.push(arr)`, an array that holds
itself, is observed; while the computation 7 is the active one, a read of the property `a`
does not return, whatever the fuel: `dependArray(arr)` calls `dependArray(arr)` without
end. -/
theorem reactiveGetter_registers_once_counterexample :
    observe noUser 4 selfArrayHeap (Val.ref 0) false
      = Except.ok (selfArrayObserved, some 0) ∧
    selfArrayActive = { selfArrayObserved with target := some 7 } ∧
    ∀ fuel, readTimes noUser fuel 0 1 selfArrayActive = Except.error Err.outOfFuel := by
  refine ⟨by decide, rfl, fun fuel => ?_⟩
  simp only [readTimes, read_self, bind, Except.bind]
/-! ## Slots with a getter only, and properties that are not configurable -/

/-- A read of a slot whose getter is a function of the application returns what that
function returns. -/
theorem callGetter_user_value (U : User) (fuel : Nat) (st : OSt) (c : Nat) (cell : Cell)
    (g : Nat) (hcell : st.cells.get? c = some cell) (hg : cell.getter = some (Fn.user g))
    (s : OSt) (v : Val)
    (h : callGetter U fuel st (Fn.reactive c) = Except.ok (s, v)) : v = U.get g st.heap := by
  cases fuel with
  | zero => simp [callGetter, throw_ne_ok] at h
  | succ n =>
    cases n with
    | zero =>
      simp only [callGetter, hcell, hg, bind, Except.bind, throw, throwThe,
        MonadExceptOf.throw] at h
      cases h
    | succ m =>
      simp only [callGetter, hcell, hg, bind, Except.bind, pure, Except.pure] at h
      split at h
      · simp only [Except.ok.injEq, Prod.mk.injEq] at h
        exact h.2.symm
      · split at h
        · simp only [Except.ok.injEq, Prod.mk.injEq] at h
          exact h.2.symm
        · split at h
          · cases h
          · split at h
            · split at h
              · split at h
                · cases h
                · simp only [Except.ok.injEq, Prod.mk.injEq] at h
                  exact h.2.symm
              · simp only [Except.ok.injEq, Prod.mk.injEq] at h
                exact h.2.symm
            · simp only [Except.ok.injEq, Prod.mk.injEq] at h
              exact h.2.symm

/-- C13: a write to a slot that had a getter of the application and no setter before
`defineReactive` returns without an error, whatever the value written: the heap, the
cells, the subscriber lists and the log of notifications are as before (no `notify`), and
a read after the write returns what the getter returns, as a read before the write. -/
theorem reactiveSetter_getter_only (U : User) (fuel : Nat) (st : OSt) (c : Nat)
    (cell : Cell) (g : Nat) (w : Val)
    (hcell : st.cells.get? c = some cell)
    (hg : cell.getter = some (Fn.user g)) (hs : cell.setter = none) :
    ∃ st', callSetter U (fuel + 2) st (Fn.reactive c) w = Except.ok st' ∧
      st'.heap = st.heap ∧ st'.cells = st.cells ∧ st'.deps = st.deps ∧
      st'.observers = st.observers ∧ st'.notified = st.notified ∧
      st'.updated = st.updated ∧
      (∀ n s v, callGetter U n st' (Fn.reactive c) = Except.ok (s, v) → v = U.get g st.heap) ∧
      (∀ n s v, callGetter U n st (Fn.reactive c) = Except.ok (s, v) → v = U.get g st.heap) := by
  have key : ∃ st', callSetter U (fuel + 2) st (Fn.reactive c) w = Except.ok st' ∧
      st'.heap = st.heap ∧ st'.cells = st.cells ∧ st'.deps = st.deps ∧
      st'.observers = st.observers ∧ st'.notified = st.notified ∧
      st'.updated = st.updated := by
    simp only [callSetter, callGetter, hcell, hg, hs, bind, Except.bind, pure, Except.pure,
      Option.isSome_some, Option.isNone_none, Bool.and_self, if_true]
    split
    · exact ⟨st, rfl, rfl, rfl, rfl, rfl, rfl, rfl⟩
    · split
      · exact ⟨_, rfl, rfl, rfl, rfl, rfl, rfl, rfl⟩
      · exact ⟨st, rfl, rfl, rfl, rfl, rfl, rfl, rfl⟩
  obtain ⟨st', h1, h2, h3, h4, h5, h6, h7⟩ := key
  refine ⟨st', h1, h2, h3, h4, h5, h6, h7, ?_, ?_⟩
  · intro n s v h
    rw [← h2]
    exact callGetter_user_value U n st' c cell g (by rw [h3]; exact hcell) hg s v h
  · intro n s v h
    exact callGetter_user_value U n st c cell g hcell hg s v h

theorem reactiveSetter_getter_only_witness :
    ∃ st', callSetter constUser 2 getterRecord (Fn.reactive 0) (Val.num 9) = Except.ok st' ∧
      st'.heap = getterRecord.heap ∧ st'.cells = getterRecord.cells ∧
      st'.deps = getterRecord.deps ∧ st'.observers = getterRecord.observers ∧
      st'.notified = getterRecord.notified ∧ st'.updated = getterRecord.updated ∧
      (∀ n s v, callGetter constUser n st' (Fn.reactive 0) = Except.ok (s, v) →
        v = constUser.get 0 getterRecord.heap) ∧
      (∀ n s v, callGetter constUser n getterRecord (Fn.reactive 0) = Except.ok (s, v) →
        v = constUser.get 0 getterRecord.heap) :=
  reactiveSetter_getter_only constUser 0 getterRecord 0 cellGetterOnly 0 (Val.num 9)
    rfl rfl rfl

/-- C14: on a property whose descriptor is not configurable, `defineReactive` returns
after the creation of its `Dep` and leaves the heap (the descriptor and the value of
every property), the cells and the observers as they are: no accessor is installed. -/
theorem defineReactive_not_configurable (U : User) (observe' : ObserveFn) (fuel : Nat)
    (st : OSt) (obj : Nat) (key : String) (val : Option Val) (customSetter shallow : Bool)
    (slot : Slot) (hslot : st.slot obj key = some slot) (hnc : slot.configurable = false) :
    ∃ st', defineReactive U observe' fuel st obj key val customSetter shallow = Except.ok st' ∧
      st'.heap = st.heap ∧ st'.slot obj key = some slot ∧ st'.cells = st.cells ∧
      st'.observers = st.observers ∧ st'.notified = st.notified := by
  refine ⟨(newDep st).1, ?_, rfl, hslot, rfl, rfl, rfl⟩
  unfold defineReactive
  have h : (newDep st).1.slot obj key = some slot := hslot
  simp only [h, Option.map_some', hnc, if_true]
  rfl

theorem defineReactive_not_configurable_witness :
    ∃ st', defineReactive noUser (fun s v => observe noUser 1 s v false) 1 sealedRecord 0 "a"
        none false false = Except.ok st' ∧
      st'.heap = sealedRecord.heap ∧
      st'.slot 0 "a" = some { value := Val.num 1, configurable := false } ∧
      st'.cells = sealedRecord.cells ∧ st'.observers = sealedRecord.observers ∧
      st'.notified = sealedRecord.notified :=
  defineReactive_not_configurable noUser (fun s v => observe noUser 1 s v false) 1
    sealedRecord 0 "a" none false false { value := Val.num 1, configurable := false } rfl rfl
/-! ## `set` and `del` -/

theorem getElem?_spliceReplace (l : List Val) (i : Nat) (v : Val) (hi : i ≤ l.length) (j : Nat) :
    (spliceReplace l i v)[j]? = if j = i then some v else
      if j < max l.length (i + 1) then l[j]? else none := by
  unfold spliceReplace
  by_cases hji : j = i
  · subst hji
    rw [if_pos rfl, List.getElem?_append_right (by simp [hi])]
    simp [hi]
  · rw [if_neg hji]
    by_cases hlt : j < i
    · rw [List.getElem?_append_left (by simp; omega), List.getElem?_take_of_lt hlt]
      rw [if_pos (by omega)]
    · have hgt : i < j := by omega
      rw [List.getElem?_append_right (by simp [hi]; omega)]
      simp only [List.length_take, Nat.min_eq_left hi]
      obtain ⟨k, hk⟩ : ∃ k, j - i = k + 1 := ⟨j - i - 1, by omega⟩
      rw [hk, List.getElem?_cons_succ, List.getElem?_drop]
      have : i + 1 + k = j := by omega
      rw [this]
      split
      · rfl
      · rw [List.getElem?_eq_none_iff]; omega

theorem length_spliceReplace (l : List Val) (i : Nat) (v : Val) (hi : i ≤ l.length) :
    (spliceReplace l i v).length = max l.length (i + 1) := by
  unfold spliceReplace
  simp only [List.length_append, List.length_take, List.length_cons, List.length_drop]
  omega

theorem length_setLength (l : List Val) (n : Nat) : (setLength l n).length = n := by
  unfold setLength
  simp only [List.length_append, List.length_take, List.length_replicate]
  omega

theorem getElem?_setLength (l : List Val) (n : Nat) (hn : l.length ≤ n) (j : Nat)
    (hj : j < l.length) : (setLength l n)[j]? = l[j]? := by
  unfold setLength
  rw [List.take_of_length_le hn, List.getElem?_append_left hj]
theorem kind_lt_heap (st : OSt) (a : Nat) (h : (st.obj a).kind ≠ ObjKind.other) :
    a < st.heap.length := by
  by_contra hc
  have hd := obj_default_of_le st a (by omega)
  rw [hd] at h
  exact h rfl

/-- C15 (as amended): for a dense array of length `n` that is not frozen (its elements
and its length are writable) and that is extensible or longer than `i`, a key that is a
valid index `i` below `2^32 - 1` and a value `v` (where, on an observed array,
`observe(v)` returns), `set(arr, i, v)` returns `v` and leaves the array with length
`max(n, i + 1)`, `arr[i] = v`, and every element at an index `j < n` other than `i` as it
was. -/
theorem set_array_index (U : User) (fuel : Nat) (st : OSt) (a : Nat) (key : Key) (i : Nat)
    (v : Val)
    (hkind : (st.obj a).kind = ObjKind.array)
    (hidx : isValidArrayIndex key = some i)
    (hmax : i + 1 ≤ maxArrayLength)
    (hfrozen : (st.obj a).frozen = false)
    (hext : (st.obj a).extensible = true ∨ i < (st.obj a).elems.length)
    (haug : (st.obj a).augmented = true → ∃ j ob r, (st.obj a).ob = ObProp.observer j ∧
      st.observers.get? j = some ob ∧
      observe U fuel
        (st.setObj a { st.obj a with elems := arraySetElems (st.obj a).elems i v }) v false
        = Except.ok r) :
    ∃ out, set U fuel st (Val.ref a) key v = Except.ok out ∧ out.ret = v ∧
      (out.st.obj a).elems.length = max (st.obj a).elems.length (i + 1) ∧
      (out.st.obj a).elems[i]? = some v ∧
      ∀ j, j < (st.obj a).elems.length → j ≠ i →
        (out.st.obj a).elems[j]? = (st.obj a).elems[j]? := by
  have ha : a < st.heap.length := kind_lt_heap st a (by rw [hkind]; decide)
  have hgl : (setLength (st.obj a).elems (max (st.obj a).elems.length i)).length
      = max (st.obj a).elems.length i := length_setLength _ _
  have hi : i ≤ (setLength (st.obj a).elems (max (st.obj a).elems.length i)).length := by
    rw [hgl]; omega
  have h1 : (spliceReplace (setLength (st.obj a).elems (max (st.obj a).elems.length i)) i
      v).length = max (st.obj a).elems.length (i + 1) := by
    rw [length_spliceReplace _ _ _ hi, hgl]; omega
  have h2 : (spliceReplace (setLength (st.obj a).elems (max (st.obj a).elems.length i)) i
      v)[i]? = some v := by
    rw [getElem?_spliceReplace _ _ _ hi, if_pos rfl]
  have h3 : ∀ j, j < (st.obj a).elems.length → j ≠ i →
      (spliceReplace (setLength (st.obj a).elems (max (st.obj a).elems.length i)) i v)[j]?
        = (st.obj a).elems[j]? := by
    intro j hj hji
    rw [getElem?_spliceReplace _ _ _ hi, if_neg hji, hgl, if_pos (by omega)]
    exact getElem?_setLength _ _ (by omega) j hj
  unfold arraySetElems at haug
  generalize hel : spliceReplace (setLength (st.obj a).elems (max (st.obj a).elems.length i))
    i v = elems at haug h1 h2 h3
  have hobj : ∀ o', (st.setObj a o').obj a = o' := by
    intro o'
    rw [obj_setObj, if_pos ⟨rfl, ha⟩]
  have hc1 : ¬ maxArrayLength < i := by omega
  have hc2 : ((decide ((st.obj a).elems.length ≤ i)) && !(st.obj a).extensible) = false := by
    rcases hext with h | h
    · simp [h]
    · simp; intro h'; omega
  have hc3 : ¬ maxArrayLength < i + 1 := by omega
  unfold set
  simp only [hkind, if_true, hidx, arraySet, hfrozen, if_neg hc1, hc2, Bool.false_eq_true,
    if_false, if_neg hc3, hel, bind, Except.bind, pure, Except.pure]
  cases haugc : (st.obj a).augmented with
  | false =>
    simp only [Bool.false_eq_true, if_false]
    exact ⟨_, rfl, rfl, by simp only [hobj]; exact h1, by simp only [hobj]; exact h2,
      fun j hj hji => by simp only [hobj]; exact h3 j hj hji⟩
  | true =>
    obtain ⟨j, ob, r, hob, hget, hobs⟩ := haug haugc
    have hse := observe_sameElems U _ _ _ _ _ _ hobs a
    rw [hobj] at hse
    simp only at hse
    have hget' : ∀ o', (st.setObj a o').observers.get? j = some ob := fun _ => hget
    simp only [haugc, hkind, hob, hfrozen] at hobs
    simp only [if_true, spliceHook, hobj, hob, hget', observeArray, hobs, bind, Except.bind,
      pure, Except.pure]
    refine ⟨_, rfl, rfl, ?_, ?_, ?_⟩
    · show (r.1.obj a).elems.length = _
      rw [hse]; exact h1
    · show (r.1.obj a).elems[i]? = _
      rw [hse]; exact h2
    · intro j' hj hji
      show (r.1.obj a).elems[j']? = _
      rw [hse]; exact h3 j' hj hji

theorem set_array_index_witness :
    ∃ out, set noUser 1 threeArray (Val.ref 0) (Key.num 5) (Val.num 7) = Except.ok out ∧
      out.ret = Val.num 7 ∧
      (out.st.obj 0).elems.length = max (threeArray.obj 0).elems.length (5 + 1) ∧
      (out.st.obj 0).elems[5]? = some (Val.num 7) ∧
      ∀ j, j < (threeArray.obj 0).elems.length → j ≠ 5 →
        (out.st.obj 0).elems[j]? = (threeArray.obj 0).elems[j]? :=
  set_array_index noUser 1 threeArray 0 (Key.num 5) 5 (Val.num 7) rfl rfl (by decide) rfl
    (Or.inl rfl) (fun h => by cases h)

/-- C15 (counterexample): on the array `[10]` after `Object.preventExtensions`, the call
`set(arr, 1, 5)` raises a `TypeError` (`splice` cannot add the element); on the array
`[10, 20, 30]`, the call `set(arr, 4294967295, 5)` raises a `RangeError` (the length
`2^32` is not an array length), although `isValidArrayIndex` accepts both keys; on the
frozen array `[10, 20]` the call `set(arr, 0, 5)` raises a `TypeError` (the length is not
writable), although the index is inside the array. -/
theorem set_array_index_counterexample :
    isValidArrayIndex (Key.num 1) = some 1 ∧
    set noUser 1 closedArray (Val.ref 0) (Key.num 1) (Val.num 5)
      = Except.error Err.typeError ∧
    isValidArrayIndex (Key.num 4294967295) = some 4294967295 ∧
    set noUser 1 threeArray (Val.ref 0) (Key.num 4294967295) (Val.num 5)
      = Except.error Err.rangeError ∧
    set noUser 1 frozenList (Val.ref 0) (Key.num 0) (Val.num 5)
      = Except.error Err.typeError := by
  refine ⟨by decide, by decide, by decide, by decide, by decide⟩
theorem sameFlags_closed : StepClosed OSt.SameFlags where
  same := fun _ => ⟨rfl, fun _ => ⟨rfl, rfl, rfl⟩⟩
  andThen := fun _ _ _ h1 h2 => ⟨h2.1.trans h1.1, fun a =>
    ⟨(h2.2 a).1.trans (h1.2 a).1, (h2.2 a).2.1.trans (h1.2 a).2.1,
      (h2.2 a).2.2.trans (h1.2 a).2.2⟩⟩
  read := by
    intro s t h _
    refine ⟨by rw [h.1], fun a => ?_⟩
    have : t.obj a = s.obj a := by simp [OSt.obj, h.1]
    rw [this]
    exact ⟨rfl, rfl, rfl⟩
  dep := fun _ => ⟨rfl, fun _ => ⟨rfl, rfl, rfl⟩⟩
  heap := by
    intro s a ob props aug
    refine ⟨by simp [OSt.setObj], fun b => ?_⟩
    rw [obj_setObj]
    split
    · rename_i h
      rw [← h.1]
      exact ⟨rfl, rfl, rfl⟩
    · exact ⟨rfl, rfl, rfl⟩
  observers := fun _ _ => ⟨rfl, fun _ => ⟨rfl, rfl, rfl⟩⟩
  cell := fun _ _ => ⟨rfl, fun _ => ⟨rfl, rfl, rfl⟩⟩

theorem observe_sameFlags (U : User) (fuel : Nat) (st : OSt) (v : Val) (asRoot : Bool)
    (st' : OSt) (res : Option Nat) (h : observe U fuel st v asRoot = Except.ok (st', res)) :
    st.SameFlags st' :=
  observe_closed sameFlags_closed U fuel st v asRoot st' res h

theorem lookup_setSlot (key : String) (slot : Slot) :
    ∀ (l : List (String × Slot)), (setSlot key slot l).lookup key = some slot := by
  intro l
  induction l with
  | nil => simp [setSlot, List.lookup]
  | cons p rest ih =>
    obtain ⟨k, s⟩ := p
    unfold setSlot
    split
    · simp [List.lookup]
    · rename_i hk
      have : (key == k) = false := by
        simp only [beq_eq_false_iff_ne, ne_eq]
        exact fun e => hk e.symm
      simp only [List.lookup, this]
      exact ih

theorem lookup_filter_ne (name : String) :
    ∀ (l : List (String × Slot)), (l.filter (fun p => p.1 ≠ name)).lookup name = none := by
  intro l
  induction l with
  | nil => rfl
  | cons p rest ih =>
    obtain ⟨k, s⟩ := p
    by_cases hk : k = name
    · have hd : decide ((k, s).1 ≠ name) = false := by simp [hk]
      rw [List.filter_cons_of_neg (by simp [hk])]
      exact ih
    · have : (name == k) = false := by
        simp only [beq_eq_false_iff_ne, ne_eq]
        exact fun e => hk e.symm
      rw [List.filter_cons_of_pos (by simp [hk])]
      simp only [List.lookup, this]
      exact ih

theorem ob_lt_heap (st : OSt) (a : Nat) (h : (st.obj a).ob ≠ ObProp.absent) :
    a < st.heap.length := by
  by_contra hc
  have hd := obj_default_of_le st a (by omega)
  rw [hd] at h
  exact h rfl

theorem props_lt_heap (st : OSt) (a : Nat) (name : String) (slot : Slot)
    (h : (st.obj a).props.lookup name = some slot) : a < st.heap.length := by
  by_contra hc
  have hd := obj_default_of_le st a (by omega)
  rw [hd] at h
  cases h
/-- C16: for a record (or an array and a key that is no valid index) and a key that is an
own property of it and not a member name of `Object.prototype`, `set(record, key, val)` is
the assignment `record[key] = val` followed by `return val`, without a diagnostic, and it
returns when the assignment does: on a writable data property the call returns, the value
is stored in the existing slot, no `Dep` is notified and no cell or observer is made; on
an accessor with a setter, `set` is the one call of that setter with `val`: `set` itself
calls neither `defineReactive` nor `notify`. -/
theorem set_existing_key (U : User) (fuel : Nat) (st : OSt) (a : Nat) (key : Key)
    (val : Val) (slot : Slot)
    (hrec : (if (st.obj a).kind = ObjKind.array then isValidArrayIndex key else none) = none)
    (hslot : (st.obj a).props.lookup (propName key) = some slot)
    (hproto : inObjectPrototype (propName key) = false) :
    set U fuel st (Val.ref a) key val
      = (assignProp U fuel st a (propName key) val).map
          (fun s => { st := s, ret := val, warnings := [] }) ∧
    (slot.isAccessor = false → slot.writable = true →
      ∃ st1, set U fuel st (Val.ref a) key val
          = Except.ok { st := st1, ret := val, warnings := [] } ∧
        st1.slot a (propName key) = some { slot with value := val } ∧
        st1.notified = st.notified ∧ st1.cells = st.cells ∧ st1.observers = st.observers) ∧
    (slot.isAccessor = true → ∀ f, slot.set = some f →
      set U fuel st (Val.ref a) key val
        = (callSetter U fuel st f val).map
            (fun s => { st := s, ret := val, warnings := [] })) := by
  have ha := props_lt_heap st a _ slot hslot
  have hown : hasOwn (st.obj a) (propName key) = true := by
    simp [hasOwn, hslot]
  have hset : set U fuel st (Val.ref a) key val
      = (assignProp U fuel st a (propName key) val).map
          (fun s => { st := s, ret := val, warnings := [] }) := by
    unfold set
    simp only [hrec, hasProperty, hown, hproto, Bool.true_or, Bool.not_false, Bool.and_self,
      if_true, Val.isUndef, Val.isPrimitive, Bool.or_self, Bool.and_false, Bool.false_eq_true,
      if_false, bind, Except.bind, pure, Except.pure, Except.map]
  refine ⟨hset, ?_, ?_⟩
  · intro hacc hw
    refine ⟨st.setObj a { st.obj a with
      props := setSlot (propName key) { slot with value := val } (st.obj a).props },
      ?_, ?_, rfl, rfl, rfl⟩
    · rw [hset]
      unfold assignProp
      simp only [hslot]
      rw [if_neg (by simp [hacc]), if_pos hw]
      rfl
    · simp only [OSt.slot]
      rw [obj_setObj, if_pos ⟨rfl, ha⟩]
      exact lookup_setSlot _ _ _
  · intro hacc f hf
    rw [hset]
    unfold assignProp
    simp only [hslot, hacc, if_true, hf]

/-- C16 (witness): the key `a` of the observed record `{a: 1}` is an accessor installed by
`defineReactive`, with the setter of cell 0. -/
theorem set_existing_key_witness :
    set noUser 2 oneRecordObserved (Val.ref 0) (Key.str "a") (Val.num 2)
      = (assignProp noUser 2 oneRecordObserved 0 (propName (Key.str "a")) (Val.num 2)).map
          (fun s => { st := s, ret := Val.num 2, warnings := [] }) ∧
    ((reactiveSlot 0).isAccessor = false → (reactiveSlot 0).writable = true →
      ∃ st1, set noUser 2 oneRecordObserved (Val.ref 0) (Key.str "a") (Val.num 2)
          = Except.ok { st := st1, ret := Val.num 2, warnings := [] } ∧
        st1.slot 0 (propName (Key.str "a"))
          = some { reactiveSlot 0 with value := Val.num 2 } ∧
        st1.notified = oneRecordObserved.notified ∧ st1.cells = oneRecordObserved.cells ∧
        st1.observers = oneRecordObserved.observers) ∧
    ((reactiveSlot 0).isAccessor = true → ∀ f, (reactiveSlot 0).set = some f →
      set noUser 2 oneRecordObserved (Val.ref 0) (Key.str "a") (Val.num 2)
        = (callSetter noUser 2 oneRecordObserved f (Val.num 2)).map
            (fun s => { st := s, ret := Val.num 2, warnings := [] })) :=
  set_existing_key noUser 2 oneRecordObserved 0 (Key.str "a") (Val.num 2) (reactiveSlot 0)
    rfl (by decide) (by decide)

/-- C16 (counterexample): `toString` is an own property of the observed record
`protoKeyRecord`, a reactive accessor that holds 1, but `"toString" in Object.prototype`
holds, so `set(record, 'toString', 2)` does not take the assignment: it calls
`defineReactive` (a second cell is made, and its accessor replaces the first) and notifies
the structural `Dep` (number 0) of the record; the new accessor reads through the old one,
so the property still reads 1 after the call. -/
theorem set_existing_key_counterexample :
    (protoKeyRecord.obj 0).props.lookup "toString" = some (reactiveSlot 0) ∧
    (protoKeyRecord.observers.get? 0).map (fun ob => ob.dep) = some 0 ∧
    (set noUser 2 protoKeyRecord (Val.ref 0) (Key.str "toString") (Val.num 2)).toOption.map
        (fun out => (out.ret, out.st.cells.length, out.st.notified,
          out.st.slot 0 "toString"))
      = some (Val.num 2, 2, [0], some (reactiveSlot 1)) ∧
    ((set noUser 2 protoKeyRecord (Val.ref 0) (Key.str "toString") (Val.num 2)).bind
      (fun out => (callGetter noUser 3 out.st (Fn.reactive 1)).map (fun r => r.2)))
      = Except.ok (Val.num 1) := by
  refine ⟨by decide, by decide, by decide, by decide⟩

/-- C17: for an observed record that is extensible and not root state (it is no Vue
instance and its observer counts no instance) and a key that is not in the record (`key in
record` is false), where `observe(val)` returns, `set(record, key, val)` returns `val`
without a diagnostic, having installed a reactive accessor for the key that holds `val`
(a later read returns `val`, at once when no computation is active; a later write of a
different value, with `observe` returning, notifies the `Dep` of the accessor) and then
called `notify` once on the structural `Dep` of the observer. -/
theorem set_new_key (U : User) (fuel : Nat) (st : OSt) (a : Nat) (key : Key) (val : Val)
    (i : Nat) (ob : Observer) (st2 : OSt) (child : Option Nat)
    (hrec : (if (st.obj a).kind = ObjKind.array then isValidArrayIndex key else none) = none)
    (hnew : hasProperty (st.obj a) (propName key) = false)
    (hvue : (st.obj a).isVue = false) (hext : (st.obj a).extensible = true)
    (hob : (st.obj a).ob = ObProp.observer i) (hget : st.observers.get? i = some ob)
    (hvm : ob.vmCount = 0) (hval : ob.value = a)
    (hobs : observe U fuel (newDep st).1 val false = Except.ok (st2, child)) :
    ∃ out, set U fuel st (Val.ref a) key val = Except.ok out ∧ out.ret = val ∧
      out.warnings = [] ∧
      out.st.slot a (propName key) = some (reactiveSlot st2.cells.length) ∧
      out.st.cells.get? st2.cells.length
        = some (newCell a (propName key) st.deps.length val child) ∧
      out.st.notified = st.notified ++ [ob.dep] ∧
      (∀ n s v, callGetter U n out.st (Fn.reactive st2.cells.length) = Except.ok (s, v) →
        v = val) ∧
      (st.target = none → ∀ n,
        callGetter U (n + 1) out.st (Fn.reactive st2.cells.length) = Except.ok (out.st, val)) ∧
      (∀ n w st4 ob4,
        (w.strictEq val || (!w.strictEq w && !val.strictEq val)) = false →
        observe U n (writeState out.st st2.cells.length
          (newCell a (propName key) st.deps.length val child) w) w false
            = Except.ok (st4, ob4) →
        ∃ st', callSetter U (n + 1) out.st (Fn.reactive st2.cells.length) w = Except.ok st' ∧
          st'.notified = out.st.notified ++ [st.deps.length]) := by
  have ha : a < st.heap.length := ob_lt_heap st a (by rw [hob]; intro h; cases h)
  have hown : hasOwn (st.obj a) (propName key) = false := by
    unfold hasProperty at hnew
    simp only [Bool.or_eq_false_iff] at hnew
    exact hnew.1.1
  have hprop : (st.obj a).props.lookup (propName key) = none := by
    unfold hasOwn at hown
    simp only [Bool.or_eq_false_iff] at hown
    cases h : (st.obj a).props.lookup (propName key) with
    | none => rfl
    | some s => rw [h] at hown; simp at hown
  have hk := observe_keeps U _ _ _ _ _ _ hobs
  have hf := observe_sameFlags U _ _ _ _ _ _ hobs
  have hext2 : (st2.obj a).extensible = true := by
    rw [(hf.2 a).1]; exact hext
  have ha2 : a < st2.heap.length := by rw [hf.1]; exact ha
  -- the call of `defineReactive`
  have hdef : defineReactive U (fun s v => observe U fuel s v false) fuel st a (propName key)
      (some val) false false
      = Except.ok (installAccessor st2 a (propName key)
          (newCell a (propName key) st.deps.length val child)) := by
    unfold defineReactive
    have hp : (newDep st).1.slot a (propName key) = none := hprop
    simp only [hp, Option.map_none', Option.bind_none, Option.isNone_none, Bool.true_and,
      hobs, bind, Except.bind, pure, Except.pure, Bool.false_eq_true, if_false, hext2,
      Bool.not_true, installAccessor, newCell, reactiveSlot, Option.bind]
    rfl
  generalize hfin : installAccessor st2 a (propName key)
      (newCell a (propName key) st.deps.length val child) = st3 at hdef
  have hcells3 : st3.cells = st2.cells ++ [newCell a (propName key) st.deps.length val child] := by
    rw [← hfin]; rfl
  have hslot3 : st3.slot a (propName key) = some (reactiveSlot st2.cells.length) := by
    rw [← hfin]
    simp only [OSt.slot, installAccessor]
    rw [obj_setObj, if_pos ⟨rfl, ha2⟩]
    exact lookup_setSlot _ _ _
  have hnot3 : st3.notified = st.notified := by
    rw [← hfin]
    exact hk.1
  have htar3 : st3.target = st.target := by
    rw [← hfin]
    exact hk.2.2.1
  have hcell : (notify st3 ob.dep).cells.get? st2.cells.length
      = some (newCell a (propName key) st.deps.length val child) := by
    show st3.cells.get? _ = _
    rw [hcells3]
    simp
  have hset : set U fuel st (Val.ref a) key val
      = Except.ok { st := notify st3 ob.dep, ret := val, warnings := [] } := by
    unfold set
    have hc : (hasProperty (st.obj a) (propName key) && !inObjectPrototype (propName key))
        = false := by rw [hnew]; rfl
    simp only [hrec, hc, hvue, hob, hget, hvm, hval, hdef, Bool.false_eq_true, if_false,
      ne_eq, not_true_eq_false, bind, Except.bind, pure, Except.pure, Val.isUndef,
      Val.isPrimitive, Bool.or_self, Bool.and_false]
  refine ⟨_, hset, rfl, rfl, hslot3, hcell, ?_, ?_, ?_, ?_⟩
  · show st3.notified ++ [ob.dep] = _
    rw [hnot3]
  · intro n s v h
    exact callGetter_value U n _ _ _ hcell rfl s v h
  · intro ht n
    exact callGetter_plain U n _ _ _ hcell rfl (htar3.trans ht)
  · intro n w st4 ob4 hdiff hobs4
    obtain ⟨h1, _, h3, _, _⟩ := callSetter_plain U n (notify st3 ob.dep) st2.cells.length
      (newCell a (propName key) st.deps.length val child) w st4 ob4 hcell rfl rfl hdiff hobs4
    exact ⟨_, h1, by
      show st4.notified ++ [st.deps.length] = _
      rw [h3]⟩
theorem set_new_key_witness :
    ∃ out, set noUser 1 oneRecordObserved (Val.ref 0) (Key.str "b") (Val.num 2)
        = Except.ok out ∧ out.ret = Val.num 2 ∧ out.warnings = [] ∧
      out.st.slot 0 (propName (Key.str "b"))
        = some (reactiveSlot (newDep oneRecordObserved).1.cells.length) ∧
      out.st.cells.get? (newDep oneRecordObserved).1.cells.length
        = some (newCell 0 (propName (Key.str "b")) oneRecordObserved.deps.length (Val.num 2)
            none) ∧
      out.st.notified = oneRecordObserved.notified ++
        [({ value := 0, dep := 0, vmCount := 0 } : Observer).dep] ∧
      (∀ n s v, callGetter noUser n out.st
          (Fn.reactive (newDep oneRecordObserved).1.cells.length) = Except.ok (s, v) →
        v = Val.num 2) ∧
      (oneRecordObserved.target = none → ∀ n,
        callGetter noUser (n + 1) out.st
          (Fn.reactive (newDep oneRecordObserved).1.cells.length)
            = Except.ok (out.st, Val.num 2)) ∧
      (∀ n w st4 ob4,
        (w.strictEq (Val.num 2) || (!w.strictEq w && !(Val.num 2).strictEq (Val.num 2)))
          = false →
        observe noUser n (writeState out.st (newDep oneRecordObserved).1.cells.length
          (newCell 0 (propName (Key.str "b")) oneRecordObserved.deps.length (Val.num 2) none)
            w) w false = Except.ok (st4, ob4) →
        ∃ st', callSetter noUser (n + 1) out.st
            (Fn.reactive (newDep oneRecordObserved).1.cells.length) w = Except.ok st' ∧
          st'.notified = out.st.notified ++ [oneRecordObserved.deps.length]) :=
  set_new_key noUser 1 oneRecordObserved 0 (Key.str "b") (Val.num 2) 0
    { value := 0, dep := 0, vmCount := 0 } (newDep oneRecordObserved).1 none
    rfl (by decide) rfl rfl rfl rfl rfl rfl rfl

/-- C17 (counterexample): the observed record `{a: 1}` was made non-extensible after it
was observed; it is not root state and has no property `b`, and `set(record, "b", 2)`
raises a `TypeError` (`Object.defineProperty` cannot add the accessor). -/
theorem set_new_key_counterexample :
    (closedObserved.obj 0).ob = ObProp.observer 0 ∧ (closedObserved.obj 0).isVue = false ∧
    (closedObserved.observers.get? 0).map (fun ob => ob.vmCount) = some 0 ∧
    hasProperty (closedObserved.obj 0) "b" = false ∧
    set noUser 2 closedObserved (Val.ref 0) (Key.str "b") (Val.num 2)
      = Except.error Err.typeError := by
  refine ⟨by decide, by decide, by decide, by decide, by decide⟩

/-- C18 (as amended): for a target that is a Vue instance or whose observer counts an
instance, and a key that is not a valid index of an array target: `set(target, key, val)`
with a key that is not in the target (or only as a member of `Object.prototype`) and
`del(target, key)` leave the state as it is (no property changes, no `Dep` is notified);
outside production they emit one diagnostic; `set` returns `val`. -/
theorem set_del_root (U : User) (fuel : Nat) (st : OSt) (a : Nat) (key : Key) (val : Val)
    (hrec : (if (st.obj a).kind = ObjKind.array then isValidArrayIndex key else none) = none)
    (hroot : (st.obj a).isVue = true ∨ ∃ i ob, (st.obj a).ob = ObProp.observer i ∧
      st.observers.get? i = some ob ∧ ob.vmCount ≠ 0) :
    ((hasProperty (st.obj a) (propName key) && !inObjectPrototype (propName key)) = false →
      set U fuel st (Val.ref a) key val
        = Except.ok ⟨st, val, if st.production then [] else [Warning.avoidAdding]⟩) ∧
    del U fuel st (Val.ref a) key
      = Except.ok ⟨st, Val.undefined, if st.production then [] else [Warning.avoidDeleting]⟩ := by
  constructor
  · intro hnew
    unfold set
    simp only [hrec, hnew, Bool.false_eq_true, if_false, Val.isUndef, Val.isPrimitive,
      Bool.or_self, Bool.and_false, List.nil_append]
    rcases hroot with h | ⟨i, ob, h1, h2, h3⟩
    · simp only [h, if_true]
      rfl
    · cases hv : (st.obj a).isVue with
      | true => simp only [if_true]; rfl
      | false =>
        simp only [Bool.false_eq_true, if_false, h1, h2, ne_eq, h3, not_false_eq_true, if_true]
        rfl
  · unfold del
    simp only [hrec, Val.isUndef, Val.isPrimitive, Bool.or_self, Bool.and_false,
      Bool.false_eq_true, if_false, List.nil_append]
    rcases hroot with h | ⟨i, ob, h1, h2, h3⟩
    · simp only [h, if_true]
      rfl
    · cases hv : (st.obj a).isVue with
      | true => simp only [if_true]; rfl
      | false =>
        simp only [Bool.false_eq_true, if_false, h1, h2, ne_eq, h3, not_false_eq_true, if_true]
        rfl

theorem set_del_root_witness :
    ((hasProperty (rootRecord.obj 0) (propName (Key.str "b")) &&
        !inObjectPrototype (propName (Key.str "b"))) = false →
      set noUser 1 rootRecord (Val.ref 0) (Key.str "b") (Val.num 2)
        = Except.ok ⟨rootRecord, Val.num 2,
            if rootRecord.production then [] else [Warning.avoidAdding]⟩) ∧
    del noUser 1 rootRecord (Val.ref 0) (Key.str "b")
      = Except.ok ⟨rootRecord, Val.undefined,
          if rootRecord.production then [] else [Warning.avoidDeleting]⟩ :=
  set_del_root noUser 1 rootRecord 0 (Key.str "b") (Val.num 2) rfl
    (Or.inr ⟨0, { value := 0, dep := 0, vmCount := 1 }, rfl, rfl, by decide⟩)

/-- C18 (counterexample): the observer of the array `[10, 20]` counts one instance;
`del(arr, 0)` removes the first element and notifies the structural `Dep` (number 0), and
`set(arr, 2, 5)` adds an element. -/
theorem set_del_root_counterexample :
    (rootArray.observers.get? 0).map (fun ob => (ob.vmCount, ob.dep)) = some (1, 0) ∧
    (del noUser 1 rootArray (Val.ref 0) (Key.num 0)).toOption.map
        (fun out => ((out.st.obj 0).elems, out.st.notified, out.warnings))
      = some ([Val.num 20], [0], []) ∧
    (set noUser 1 rootArray (Val.ref 0) (Key.num 2) (Val.num 5)).toOption.map
        (fun out => ((out.st.obj 0).elems, out.st.notified, out.warnings))
      = some ([Val.num 10, Val.num 20, Val.num 5], [0], []) := by
  refine ⟨by decide, by decide, by decide⟩
/-- C19 (as amended): for an observed record that is not root state and a key that is no
valid index of an array target: when the key is an own, configurable property,
`del(record, key)` removes it and then calls `notify` once on the structural `Dep` of the
observer; when the key is no own property, `del` returns without a change and without a
notification. -/
theorem del_observed_key (U : User) (fuel : Nat) (st : OSt) (a : Nat) (key : Key)
    (i : Nat) (ob : Observer)
    (hrec : (if (st.obj a).kind = ObjKind.array then isValidArrayIndex key else none) = none)
    (hvue : (st.obj a).isVue = false)
    (hob : (st.obj a).ob = ObProp.observer i) (hget : st.observers.get? i = some ob)
    (hvm : ob.vmCount = 0) :
    (∀ slot, (st.obj a).props.lookup (propName key) = some slot → slot.configurable = true →
      ∃ out, del U fuel st (Val.ref a) key = Except.ok out ∧ out.ret = Val.undefined ∧
        out.warnings = [] ∧ out.st.slot a (propName key) = none ∧
        out.st.notified = st.notified ++ [ob.dep] ∧ out.st.cells = st.cells) ∧
    (hasOwn (st.obj a) (propName key) = false →
      del U fuel st (Val.ref a) key = Except.ok ⟨st, Val.undefined, []⟩) := by
  have ha : a < st.heap.length := ob_lt_heap st a (by rw [hob]; intro h; cases h)
  constructor
  · intro slot hslot hconf
    have hown : hasOwn (st.obj a) (propName key) = true := by
      simp [hasOwn, hslot]
    have hdel : deleteProp st a (propName key) = Except.ok (st.setObj a
        { st.obj a with props := (st.obj a).props.filter (fun p => p.1 ≠ propName key) }) := by
      unfold deleteProp
      simp only [hslot]
      rw [if_pos hconf]
      rfl
    refine ⟨⟨notify (st.setObj a
        { st.obj a with props := (st.obj a).props.filter (fun p => p.1 ≠ propName key) })
        ob.dep, Val.undefined, []⟩, ?_, rfl, rfl, ?_, rfl, rfl⟩
    · unfold del
      simp only [hrec, hvue, hob, hget, hvm, hown, hdel, Val.isUndef, Val.isPrimitive,
        Bool.or_self, Bool.and_false, Bool.false_eq_true, if_false, ne_eq, not_true_eq_false,
        Bool.not_true, bind, Except.bind, pure, Except.pure]
    · show ((st.setObj a _).obj a).props.lookup (propName key) = none
      rw [obj_setObj, if_pos ⟨rfl, ha⟩]
      exact lookup_filter_ne _ _
  · intro hown
    unfold del
    simp only [hrec, hvue, hob, hget, hvm, hown, Val.isUndef, Val.isPrimitive,
      Bool.or_self, Bool.and_false, Bool.false_eq_true, if_false, ne_eq, not_true_eq_false,
      Bool.not_false, if_true, pure, Except.pure]

theorem del_observed_key_witness :
    (∀ slot, (oneRecordObserved.obj 0).props.lookup (propName (Key.str "a")) = some slot →
      slot.configurable = true →
      ∃ out, del noUser 1 oneRecordObserved (Val.ref 0) (Key.str "a") = Except.ok out ∧
        out.ret = Val.undefined ∧ out.warnings = [] ∧
        out.st.slot 0 (propName (Key.str "a")) = none ∧
        out.st.notified = oneRecordObserved.notified ++
          [({ value := 0, dep := 0, vmCount := 0 } : Observer).dep] ∧
        out.st.cells = oneRecordObserved.cells) ∧
    (hasOwn (oneRecordObserved.obj 0) (propName (Key.str "a")) = false →
      del noUser 1 oneRecordObserved (Val.ref 0) (Key.str "a")
        = Except.ok ⟨oneRecordObserved, Val.undefined, []⟩) :=
  del_observed_key noUser 1 oneRecordObserved 0 (Key.str "a") 0
    { value := 0, dep := 0, vmCount := 0 } rfl rfl rfl rfl rfl

/-- C19 (counterexample): the observed record `{a: 1}` is not root state and has no
property `b`; `del(record, "b")` returns without a call of `notify`. -/
theorem del_observed_key_counterexample :
    (oneRecordObserved.obj 0).ob = ObProp.observer 0 ∧
    (oneRecordObserved.observers.get? 0).map (fun ob => ob.vmCount) = some 0 ∧
    del noUser 1 oneRecordObserved (Val.ref 0) (Key.str "b")
      = Except.ok ⟨oneRecordObserved, Val.undefined, []⟩ ∧
    oneRecordObserved.notified = [] := by
  refine ⟨by decide, by decide, by decide, by decide⟩

/-- C20 (as amended): for a target that is `undefined`, `null` or a primitive,
`set(target, key, val)` raises a `TypeError` (at `key in target`, after the diagnostic);
`del(target, key)` raises a `TypeError` on `undefined` and `null` (at `target.__ob__`)
and returns normally on a boolean or a number, the state unchanged and one diagnostic
emitted outside production. -/
theorem set_del_primitive (U : User) (fuel : Nat) (st : OSt) (target : Val) (key : Key)
    (val : Val) (h : target.isUndef = true ∨ target.isPrimitive = true) :
    set U fuel st target key val = Except.error Err.typeError ∧
    (target.isUndef = true → del U fuel st target key = Except.error Err.typeError) ∧
    ((∀ s, target ≠ Val.str s) → target.isPrimitive = true →
      del U fuel st target key = Except.ok ⟨st, Val.undefined,
        if st.production then [] else [Warning.cannotDelete]⟩) := by
  cases target with
  | ref a => simp [Val.isUndef, Val.isPrimitive] at h
  | undefined =>
    refine ⟨rfl, fun _ => rfl, fun _ hp => ?_⟩
    simp [Val.isPrimitive] at hp
  | null =>
    refine ⟨rfl, fun _ => rfl, fun _ hp => ?_⟩
    simp [Val.isPrimitive] at hp
  | bool b =>
    refine ⟨rfl, fun hu => ?_, fun _ _ => ?_⟩
    · simp [Val.isUndef] at hu
    · cases hp : st.production <;> simp [del, hp, Val.isUndef, Val.isPrimitive, pure, Except.pure]
  | num n =>
    refine ⟨rfl, fun hu => ?_, fun _ _ => ?_⟩
    · simp [Val.isUndef] at hu
    · cases hp : st.production <;> simp [del, hp, Val.isUndef, Val.isPrimitive, pure, Except.pure]
  | nan =>
    refine ⟨rfl, fun hu => ?_, fun _ _ => ?_⟩
    · simp [Val.isUndef] at hu
    · cases hp : st.production <;> simp [del, hp, Val.isUndef, Val.isPrimitive, pure, Except.pure]
  | str s =>
    refine ⟨rfl, fun hu => ?_, fun hs _ => absurd rfl (hs s)⟩
    simp [Val.isUndef] at hu

theorem set_del_primitive_witness :
    set noUser 1 oneRecord (Val.num 3) (Key.str "a") (Val.num 1)
      = Except.error Err.typeError ∧
    ((Val.num 3).isUndef = true →
      del noUser 1 oneRecord (Val.num 3) (Key.str "a") = Except.error Err.typeError) ∧
    ((∀ s, Val.num 3 ≠ Val.str s) → (Val.num 3).isPrimitive = true →
      del noUser 1 oneRecord (Val.num 3) (Key.str "a") = Except.ok ⟨oneRecord, Val.undefined,
        if oneRecord.production then [] else [Warning.cannotDelete]⟩) :=
  set_del_primitive noUser 1 oneRecord (Val.num 3) (Key.str "a") (Val.num 1) (Or.inr rfl)

/-- C20 (counterexample): `set(null, "a", 1)`, `set(3, "a", 1)` and `del(undefined, "a")`
raise a `TypeError`. -/
theorem set_del_primitive_counterexample :
    set noUser 1 oneRecord Val.null (Key.str "a") (Val.num 1) = Except.error Err.typeError ∧
    set noUser 1 oneRecord (Val.num 3) (Key.str "a") (Val.num 1)
      = Except.error Err.typeError ∧
    del noUser 1 oneRecord Val.undefined (Key.str "a") = Except.error Err.typeError := by
  refine ⟨by decide, by decide, by decide⟩
/-! ## `insert`, and the shortcuts of `patch` and `patchVnode` -/

/-- C21 (as amended): a call `insert(parent, elm, ref)` with `parent` defined and `ref`
defined but not a child of `parent` (`parentNode(ref)` is not `parent`) inserts nothing:
it returns and leaves the backend and the log as they are. -/
theorem insert_foreign_ref (st : St) (p r : Nat) (elm : Option Nat)
    (h : st.dom.parent r ≠ some p) : insert st (some p) elm (some r) = Except.ok st := by
  unfold insert
  simp only [nodeOps.parentNode, if_neg h]
  rfl

theorem insert_foreign_ref_witness :
    insert (exSt exLooseDom) (some 0) (some 2) (some 3) = Except.ok (exSt exLooseDom) :=
  insert_foreign_ref (exSt exLooseDom) 0 3 (some 2) (by decide)

/-- C21 (counterexample): node 3 is not a child of node 0; after `insert(0, 2, 3)` the
children of node 0 are `[1]` as before: node 2 is not the last child of the parent. -/
theorem insert_foreign_ref_counterexample :
    exLooseDom.parent 3 = none ∧ exLooseDom.children 0 = [1] ∧
    (insert (exSt exLooseDom) (some 0) (some 2) (some 3)).toOption.map
      (fun s => (s.dom.children 0, s.dom.parent 2)) = some ([1], none) := by
  refine ⟨by decide, by decide, by decide⟩

theorem sameVnode_self (itt : TypeVal → Bool) (v : VNode) (hk : v.key ≠ some Key.nan)
    (hc : childrenIgnored v = false) :
    sameVnode itt v v = some true := by
  have hself : keyEq v.key v.key = true := (keyEq_iff _ _).2 ⟨rfl, hk⟩
  unfold sameVnode sameInputType
  simp [hc, hself]

/-- C23: for every vnode `V` whose key is not `NaN` and that has no truthy
`domProps.innerHTML` or `domProps.textContent`, `patch(V, V)` returns `V.elm` and leaves
the state as it is: no backend operation and no hook is logged, and `V` is unchanged. -/
theorem patch_same_reference (E : Env) (fuel : Nat) (st : St) (v : VNode)
    (hydrating removeOnly : Bool) (hk : v.key ≠ some Key.nan)
    (hc : childrenIgnored v = false) :
    patch E (fuel + 1) st (some (OldNode.vnode v)) (some v) hydrating removeOnly
      = Except.ok (st, some v, v.elm) := by
  unfold patch
  simp only [sameVnodeAt, sameVnode_self _ v hk hc, bind, Except.bind, pure, Except.pure,
    if_true, patchVnode, invokeInsertHook, List.foldlM]

theorem patch_same_reference_witness :
    patch (exEnv true) 1 (exSt exLooseDom) (some (OldNode.vnode (exOld 1 "li" none)))
      (some (exOld 1 "li" none)) false false
      = Except.ok (exSt exLooseDom, some (exOld 1 "li" none), (exOld 1 "li" none).elm) :=
  patch_same_reference (exEnv true) 0 (exSt exLooseDom) (exOld 1 "li" none) false false
    (by decide) (by decide)

/-- C23 (counterexample): `exHtmlVNode` is an element with `v-html` content rendered as
node 1, the only child of node 0; `sameVnode(V, V)` is false for it, so `patch(V, V)`
never reaches the test `oldVnode === vnode` of `patchVnode` and takes the replacement
path: a new element, node 4, is created and appended to node 0, `V.elm` becomes node 4,
and the removal of the old vnode, which is `V`, removes node 4 again. The value returned
is node 4, which has no parent, and node 1 is still the only child of node 0. The same
path is taken by a vnode whose key is `NaN`. -/
theorem patch_same_reference_counterexample :
    exHtmlVNode.elm = some 1 ∧ (exSt exLooseDom).dom.children 0 = [1] ∧
    sameVnode (exEnv true).isTextInputType exHtmlVNode exHtmlVNode = some false ∧
    (patch (exEnv true) 3 (exSt exLooseDom) (some (OldNode.vnode exHtmlVNode))
        (some exHtmlVNode) false false).toOption.map
      (fun r => (r.1.dom.next, r.1.dom.children 0, r.1.dom.parent 4, r.1.dom.parent 1,
        r.2.2)) = some (5, [1], none, some 0, some 4) ∧
    (patch (exEnv true) 3 (exSt exLooseDom) (some (OldNode.vnode exHtmlVNode))
        (some exHtmlVNode) false false).toOption.map
      (fun r => (nodeOpsOf r.1.log).map Op.brief)
      = some [("createElement", 4), ("appendChild", 4), ("removeChild", 4)] ∧
    sameVnode (exEnv true).isTextInputType exNanVNode exNanVNode = some false ∧
    (patch (exEnv true) 3 (exSt exLooseDom) (some (OldNode.vnode exNanVNode))
        (some exNanVNode) false false).toOption.map
      (fun r => (nodeOpsOf r.1.log).map Op.brief)
      = some [("createElement", 4), ("appendChild", 4), ("removeChild", 4)] := by
  refine ⟨by decide, by decide, by decide, by decide, by decide, by decide, by decide⟩

/-- C24 (as amended): for vnodes `old` and `new` that are distinct objects, both static,
with keys equal under `===`, `new` a clone or a once-only node, and `old` no async
placeholder,
`patchVnode(old, new)` returns with the state and the queue as they are (no child-list
operation, no text mutation, no hook): `new` takes over `elm` and `componentInstance`
from `old` and is otherwise unchanged. -/
theorem patchVnode_static (E : Env) (fuel : Nat) (st : St) (queue : Queue)
    (old new : VNode) (removeOnly : Bool)
    (hne : old.oid ≠ new.oid) (hasync : old.isAsyncPlaceholder = false)
    (hs1 : new.isStatic = true) (hs2 : old.isStatic = true)
    (hkey : keyEq new.key old.key = true)
    (hclone : new.isCloned = true ∨ new.isOnce = true) :
    patchVnode E (fuel + 1) st queue old new removeOnly
      = Except.ok (st, queue,
          { new with elm := old.elm, componentInstance := old.componentInstance }) := by
  unfold patchVnode
  have hc : (new.isCloned || new.isOnce) = true := by
    rcases hclone with h | h <;> simp [h]
  simp only [if_neg hne, hasync, Bool.false_eq_true, if_false, hs1, hs2, hkey, hc,
    decide_True, Bool.and_self, if_true]
  rfl

theorem patchVnode_static_witness :
    patchVnode (exEnv true) 1 (exSt exLooseDom) []
      { exStaticAsync with isAsyncPlaceholder := false } exStaticClone false
      = Except.ok (exSt exLooseDom, [],
          { exStaticClone with
            elm := ({ exStaticAsync with isAsyncPlaceholder := false } : VNode).elm
            componentInstance :=
              ({ exStaticAsync with isAsyncPlaceholder := false } : VNode).componentInstance }) :=
  patchVnode_static (exEnv true) 0 (exSt exLooseDom) []
    { exStaticAsync with isAsyncPlaceholder := false } exStaticClone false
    (by decide) rfl rfl rfl rfl (Or.inl rfl)

/-- C24 (counterexample): `exStaticAsync` and `exStaticClone` are distinct, both static,
with equal keys, and the second is a clone; the first is an async placeholder, so
`patchVnode` takes the branch for placeholders before the one for static trees and flags
the new vnode `isAsyncPlaceholder`. -/
theorem patchVnode_static_counterexample :
    exStaticAsync.oid ≠ exStaticClone.oid ∧ staticShortcut exStaticAsync exStaticClone = true ∧
    exStaticClone.isAsyncPlaceholder = false ∧
    (patchVnode (exEnv true) 1 (exSt exLooseDom) [] exStaticAsync exStaticClone false).toOption.map
      (fun r => (r.2.2.isAsyncPlaceholder, r.2.2.elm)) = some (true, some 1) := by
  refine ⟨by decide, by decide, by decide, by decide⟩
/-! ## The node operations of `patchVnode` -/

theorem nodeOpsOf_append (a b : List Op) : nodeOpsOf (a ++ b) = nodeOpsOf a ++ nodeOpsOf b := by
  simp [nodeOpsOf]

theorem emit_hook_ops (st : St) (op : Op) (h : op.isNodeOp = false) :
    nodeOpsOf (st.emit op).log = nodeOpsOf st.log ∧ (st.emit op).dom = st.dom := by
  refine ⟨?_, rfl⟩
  show nodeOpsOf (st.log ++ [op]) = _
  rw [nodeOpsOf_append]
  simp [nodeOpsOf, h]

theorem emitModuleHooks_ops (h : HookName) (v : VNode) :
    ∀ (is : List Nat) (st : St),
      nodeOpsOf (st.emitModuleHooks h is v).log = nodeOpsOf st.log ∧
        (st.emitModuleHooks h is v).dom = st.dom := by
  intro is
  induction is with
  | nil => intro st; exact ⟨rfl, rfl⟩
  | cons i rest ih =>
    intro st
    have h1 := emit_hook_ops st (Op.moduleHook h i v) rfl
    have h2 := ih (st.emit (Op.moduleHook h i v))
    exact ⟨h2.1.trans h1.1, h2.2.trans h1.2⟩

/-- The `update` hooks log no node operation and leave the backend as it is. -/
theorem invokeUpdateHooks_ops (E : Env) (fuel : Nat) (st1 st2 : St) (v : VNode)
    (h : invokeUpdateHooks E fuel st1 v = Except.ok st2) :
    nodeOpsOf st2.log = nodeOpsOf st1.log ∧ st2.dom = st1.dom := by
  unfold invokeUpdateHooks at h
  simp only at h
  split at h
  · simp only [bind_eq_ok] at h
    obtain ⟨b, _, h⟩ := h
    split at h
    · simp only [pure_eq_ok] at h
      rw [← h]
      have hm := emitModuleHooks_ops HookName.update v (cbs E (fun m => m.update)) st1
      split
      · have he := emit_hook_ops (st1.emitModuleHooks HookName.update
          (cbs E (fun m => m.update)) v) (Op.dataHook HookName.update v) rfl
        exact ⟨he.1.trans hm.1, he.2.trans hm.2⟩
      · exact hm
    · simp only [pure_eq_ok] at h
      rw [← h]
      exact ⟨rfl, rfl⟩
  · simp only [pure_eq_ok] at h
    rw [← h]
    exact ⟨rfl, rfl⟩

/-- The state `patchVnode` hands to its `update` hooks: the `prepatch` hook is logged. -/
theorem prepatch_ops (st : St) (v : VNode) (c : Prop) [Decidable c] :
    nodeOpsOf (if c then st.emit (Op.dataHook HookName.prepatch v) else st).log
        = nodeOpsOf st.log ∧
      (if c then st.emit (Op.dataHook HookName.prepatch v) else st).dom = st.dom := by
  split
  · exact emit_hook_ops st _ rfl
  · exact ⟨rfl, rfl⟩

theorem postpatch_ops (st : St) (v : VNode) (c : Prop) [Decidable c] :
    nodeOpsOf (if c then st.emit (Op.dataHook HookName.postpatch v) else st).log
        = nodeOpsOf st.log ∧
      (if c then st.emit (Op.dataHook HookName.postpatch v) else st).dom = st.dom := by
  split
  · exact emit_hook_ops st _ rfl
  · exact ⟨rfl, rfl⟩
/-- The path of `patchVnode` for two distinct vnodes, the old one no async placeholder,
when the shortcut for static trees does not apply. -/
theorem patchVnode_path (E : Env) (fuel : Nat) (st : St) (queue : Queue)
    (old new : VNode) (removeOnly : Bool)
    (hne : old.oid ≠ new.oid) (hasync : old.isAsyncPlaceholder = false)
    (hstatic : staticShortcut old new = false) :
    patchVnode E (fuel + 1) st queue old new removeOnly
      = (invokeUpdateHooks E fuel (prepatched st (adopted old new)) (adopted old new)).bind
          (fun st2 => (patchVnodeChildren E fuel (fun s q o n => patchVnode E fuel s q o n false)
            (createElm E fuel) st2 queue old (adopted old new) removeOnly).bind
            (fun r => Except.ok (postpatched r.1 (adopted old new) r.2.2, r.2.1, r.2.2))) := by
  unfold staticShortcut at hstatic
  conv => lhs; unfold patchVnode
  have hs : ((adopted old new).isStatic && old.isStatic &&
      keyEq (adopted old new).key old.key &&
      ((adopted old new).isCloned || (adopted old new).isOnce)) = false := hstatic
  simp only [if_neg hne, hasync, Bool.false_eq_true, if_false]
  show (if ((adopted old new).isStatic && old.isStatic &&
      keyEq (adopted old new).key old.key &&
      ((adopted old new).isCloned || (adopted old new).isOnce)) = true then _ else _) = _
  rw [hs]
  rfl

theorem setTextContent_congr (a b : St) (h : a.dom = b.dom) (e : Nat) (t : String) :
    (nodeOps.setTextContent a e t).dom = (nodeOps.setTextContent b e t).dom := by
  unfold nodeOps.setTextContent
  rw [h]
  split
  · by_cases ht : t = ""
    · simp only [ht, if_true]
    · simp only [ht, if_false, nodeOps.fresh]
  · rfl

theorem setTextContent_log (st : St) (e : Nat) (t : String) :
    (nodeOps.setTextContent st e t).log = st.log ++ [Op.setTextContent e t] := by
  unfold nodeOps.setTextContent
  split <;> rfl

/-- The call of `patchVnode` in terms of its part that updates the children, for a new
vnode without a component instance. -/
theorem patchVnode_via (E : Env) (fuel : Nat) (st : St) (queue : Queue)
    (old new : VNode) (removeOnly : Bool)
    (hne : old.oid ≠ new.oid) (hasync : old.isAsyncPlaceholder = false)
    (hstatic : staticShortcut old new = false) (hci : new.componentInstance = none) :
    ∃ st2, st2.dom = st.dom ∧ nodeOpsOf st2.log = nodeOpsOf st.log ∧
      ∀ r, patchVnodeChildren E fuel (fun s q o n => patchVnode E fuel s q o n false)
          (createElm E fuel) st2 queue old (adopted old new) removeOnly = Except.ok r →
        (patchVnode E (fuel + 1) st queue old new removeOnly
            = Except.ok (postpatched r.1 (adopted old new) r.2.2, r.2.1, r.2.2) ∧
          (postpatched r.1 (adopted old new) r.2.2).dom = r.1.dom ∧
          nodeOpsOf (postpatched r.1 (adopted old new) r.2.2).log = nodeOpsOf r.1.log) := by
  obtain ⟨st2, h2, h2d⟩ := invokeUpdateHooks_spec E fuel (prepatched st (adopted old new))
    (adopted old new) hci
  have hu := invokeUpdateHooks_ops E fuel _ _ _ h2
  have hp : nodeOpsOf (prepatched st (adopted old new)).log = nodeOpsOf st.log ∧
      (prepatched st (adopted old new)).dom = st.dom := prepatch_ops st _ _
  refine ⟨st2, hu.2.trans hp.2, hu.1.trans hp.1, fun r hr => ?_⟩
  have hpost := postpatch_ops r.1 r.2.2
    (((adopted old new).data.bind (fun d => d.hook)).map (fun h => h.postpatch) = some true)
  refine ⟨?_, hpost.2, hpost.1⟩
  rw [patchVnode_path E fuel st queue old new removeOnly hne hasync hstatic, h2]
  simp only [Except.bind]
  rw [hr]


/-- C26: `patchVnode(old, new)` on distinct vnodes, `old` rendered as the node `elm` and
no async placeholder, the shortcut for static trees not applying, `new` with the text `t`
and no component instance: the call returns, `new` has the backend node of `old`, and the
node operations of the call are one `setTextContent(elm, t)` when `old.text` differs from
`t` and none when they are equal, in which case the backend tree is as before: no node is
created, inserted, moved or removed by an operation of `patchVnode` itself. When `elm` is a
text or comment node its children, its parent and the number of nodes are as before and
its text is `t`. When `elm` is an element and `old.text` differs from `t`, the one
`setTextContent` replaces the children of `elm`: every former child of `elm` is left
without a parent, and the children of `elm` are one newly created text node holding `t`
when `t` is not empty, and none when it is. -/
theorem patchVnode_text (E : Env) (fuel : Nat) (st : St) (queue : Queue)
    (old new : VNode) (removeOnly : Bool) (t : String) (e : Nat)
    (hne : old.oid ≠ new.oid) (hasync : old.isAsyncPlaceholder = false)
    (hstatic : staticShortcut old new = false)
    (htext : new.text = some t) (helm : old.elm = some e)
    (hci : new.componentInstance = none) :
    ∃ r, patchVnode E (fuel + 1) st queue old new removeOnly = Except.ok r ∧
      r.2.1 = queue ∧ r.2.2 = adopted old new ∧
      nodeOpsOf r.1.log = nodeOpsOf st.log ++
        (if old.text ≠ some t then [Op.setTextContent e t] else []) ∧
      (old.text = some t → r.1.dom = st.dom) ∧
      ((∀ tag ns, st.dom.kind e ≠ NodeKind.element tag ns) →
        r.1.dom.children = st.dom.children ∧ r.1.dom.parent = st.dom.parent ∧
        r.1.dom.next = st.dom.next ∧ (old.text ≠ some t → r.1.dom.text e = t)) ∧
      (∀ tag ns, st.dom.kind e = NodeKind.element tag ns → old.text ≠ some t →
        r.1.dom.children e = (if t = "" then [] else [st.dom.next]) ∧
        (∀ c, c ≠ st.dom.next → st.dom.parent c = some e → r.1.dom.parent c = none) ∧
        r.1.dom.next = st.dom.next + (if t = "" then 0 else 1) ∧
        (t ≠ "" → r.1.dom.kind st.dom.next = NodeKind.text ∧
          r.1.dom.text st.dom.next = t ∧ r.1.dom.parent st.dom.next = some e)) := by
  obtain ⟨st2, h2d, h2l, hvia⟩ :=
    patchVnode_via E fuel st queue old new removeOnly hne hasync hstatic hci
  have htext' : (adopted old new).text = some t := htext
  by_cases hd : old.text ≠ some t
  · have hch : patchVnodeChildren E fuel (fun s q o n => patchVnode E fuel s q o n false)
        (createElm E fuel) st2 queue old (adopted old new) removeOnly
        = Except.ok (nodeOps.setTextContent st2 e t, queue, adopted old new) := by
      unfold patchVnodeChildren
      simp only [htext', helm, if_pos hd, setTextContentAt, bind, Except.bind, pure,
        Except.pure]
    obtain ⟨hp, hpd, hpl⟩ := hvia _ hch
    refine ⟨_, hp, rfl, rfl, ?_, fun h => absurd h hd, fun hk => ?_,
      fun tag ns hkind _ => ?_⟩
    · show nodeOpsOf (postpatched _ _ _).log = _
      rw [hpl]
      show nodeOpsOf (nodeOps.setTextContent st2 e t).log = _
      rw [setTextContent_log, nodeOpsOf_append, h2l, if_pos hd]
      rfl
    · have hset : (nodeOps.setTextContent st2 e t).dom
          = { st2.dom with text := Function.update st2.dom.text e t } := by
        unfold nodeOps.setTextContent
        split
        · rename_i tag ns hkind
          rw [h2d] at hkind
          exact absurd hkind (hk tag ns)
        · rfl
      show (postpatched _ _ _).dom.children = _ ∧ _
      rw [hpd]
      show (nodeOps.setTextContent st2 e t).dom.children = _ ∧ _
      rw [hset, h2d]
      exact ⟨rfl, rfl, rfl, fun _ => by simp⟩
    · show (postpatched _ _ _).dom.children e = _ ∧ _
      rw [hpd]
      have hkind2 : st2.dom.kind e = NodeKind.element tag ns := by rw [h2d]; exact hkind
      by_cases ht : t = ""
      · have hset : (nodeOps.setTextContent st2 e t).dom
            = { st.dom with
                parent := fun x => if st.dom.parent x = some e then none else st.dom.parent x
                children := Function.update st.dom.children e []
                text := Function.update st.dom.text e t } := by
          unfold nodeOps.setTextContent
          rw [hkind2]
          simp only [if_pos ht, h2d]
        rw [hset]
        refine ⟨by simp [ht], fun c _ hc => by simp [hc], by simp [ht],
          fun h => absurd ht h⟩
      · have hset : (nodeOps.setTextContent st2 e t).dom.children e = [st.dom.next] ∧
            (∀ c, c ≠ st.dom.next → st.dom.parent c = some e →
              (nodeOps.setTextContent st2 e t).dom.parent c = none) ∧
            (nodeOps.setTextContent st2 e t).dom.next = st.dom.next + 1 ∧
            (nodeOps.setTextContent st2 e t).dom.kind st.dom.next = NodeKind.text ∧
            (nodeOps.setTextContent st2 e t).dom.text st.dom.next = t ∧
            (nodeOps.setTextContent st2 e t).dom.parent st.dom.next = some e := by
          unfold nodeOps.setTextContent
          rw [hkind2]
          simp only [if_neg ht, nodeOps.fresh, h2d]
          refine ⟨by simp, fun c hc hp => ?_, trivial, by simp, by simp, by simp⟩
          simp [Function.update, hc, hp]
        obtain ⟨h1, h2, h3, h4, h5, h6⟩ := hset
        exact ⟨by rw [h1, if_neg ht], h2, by rw [h3, if_neg ht], fun _ => ⟨h4, h5, h6⟩⟩
  · have hch : patchVnodeChildren E fuel (fun s q o n => patchVnode E fuel s q o n false)
        (createElm E fuel) st2 queue old (adopted old new) removeOnly
        = Except.ok (st2, queue, adopted old new) := by
      unfold patchVnodeChildren
      simp only [htext', if_neg hd, pure, Except.pure]
    obtain ⟨hp, hpd, hpl⟩ := hvia _ hch
    have hdom : (postpatched st2 (adopted old new) (adopted old new)).dom = st.dom :=
      hpd.trans h2d
    refine ⟨_, hp, rfl, rfl, ?_, fun _ => hdom, fun _ => ?_, fun _ _ _ h => absurd h hd⟩
    · show nodeOpsOf (postpatched _ _ _).log = _
      rw [hpl, if_neg hd, List.append_nil]
      exact h2l
    · show (postpatched _ _ _).dom.children = _ ∧ _
      rw [hdom]
      exact ⟨rfl, rfl, rfl, fun h => absurd h hd⟩

/-- C26 (witness): the text vnode `"a"`, rendered as the text node 1, is patched with the
text vnode `"b"`. -/
theorem patchVnode_text_witness :
    ∃ r, patchVnode (exEnv true) 1 (exSt exTextDom) [] exTextOld exTextNew false
        = Except.ok r ∧
      r.2.1 = [] ∧ r.2.2 = adopted exTextOld exTextNew ∧
      nodeOpsOf r.1.log = nodeOpsOf (exSt exTextDom).log ++
        (if exTextOld.text ≠ some "b" then [Op.setTextContent 1 "b"] else []) ∧
      (exTextOld.text = some "b" → r.1.dom = (exSt exTextDom).dom) ∧
      ((∀ tag ns, (exSt exTextDom).dom.kind 1 ≠ NodeKind.element tag ns) →
        r.1.dom.children = (exSt exTextDom).dom.children ∧
        r.1.dom.parent = (exSt exTextDom).dom.parent ∧
        r.1.dom.next = (exSt exTextDom).dom.next ∧
        (exTextOld.text ≠ some "b" → r.1.dom.text 1 = "b")) ∧
      (∀ tag ns, (exSt exTextDom).dom.kind 1 = NodeKind.element tag ns →
        exTextOld.text ≠ some "b" →
        r.1.dom.children 1 = (if "b" = "" then [] else [(exSt exTextDom).dom.next]) ∧
        (∀ c, c ≠ (exSt exTextDom).dom.next → (exSt exTextDom).dom.parent c = some 1 →
          r.1.dom.parent c = none) ∧
        r.1.dom.next = (exSt exTextDom).dom.next + (if "b" = "" then 0 else 1) ∧
        ("b" ≠ "" → r.1.dom.kind (exSt exTextDom).dom.next = NodeKind.text ∧
          r.1.dom.text (exSt exTextDom).dom.next = "b" ∧
          r.1.dom.parent (exSt exTextDom).dom.next = some 1)) :=
  patchVnode_text (exEnv true) 0 (exSt exTextDom) [] exTextOld exTextNew false "b" 1
    (by decide) rfl (by decide) rfl rfl rfl

/-- C26 (counterexample): the list `<ul>`, rendered as node 0 with one item rendered as
node 1, is patched with a `<ul>` vnode that has the text `"x"`: the two are distinct, no
async placeholder, not static, yet after the call the item is no child of node 0 any more
(it has no parent), and a text node, node 4, has been created as the only child of node
0. -/
theorem patchVnode_text_counterexample :
    exUlOld.oid ≠ exUlText.oid ∧ exUlOld.isAsyncPlaceholder = false ∧
      staticShortcut exUlOld exUlText = false ∧ exUlText.text = some "x" ∧
      (exSt exLooseDom).dom.children 0 = [1] ∧ (exSt exLooseDom).dom.next = 4 ∧
      (patchVnode (exEnv true) 2 (exSt exLooseDom) [] exUlOld exUlText false).toOption.map
        (fun r => (r.1.dom.children 0, r.1.dom.parent 1, r.1.dom.next))
        = some ([4], none, 5) ∧
      (patchVnode (exEnv true) 2 (exSt exLooseDom) [] exUlOld exUlText false).toOption.map
        (fun r => (r.1.dom.kind 4, r.1.dom.text 4, r.1.dom.parent 4))
        = some (NodeKind.text, "x", some 0) := by
  refine ⟨by decide, rfl, by decide, rfl, by decide, rfl, ?_, ?_⟩
  · decide
  · decide
/-- C25: `patchVnode(old, new)` on distinct vnodes, `old` rendered as the existing node
`elm` and no async placeholder, the shortcut for static trees not applying, `new` without
text and without a component instance. (1) Only `new` has children, each a tree of height
at most `d` in which no vnode is an async placeholder or has a component instance, a
placeholder parent (`parent`) or an `init` hook, and in which `checkDuplicateKeys` warns
on no child list: the call returns, the text of `elm` is cleared by
`setTextContent(elm, "")` when `old.text` is defined, and the new children get new backend
nodes that are appended to the children of `elm` in order. (2) Only `old` has children,
`old` a tree of height at most `d + 1` rendered at every depth on pairwise distinct
backend nodes, no vnode of it an async placeholder or with a component instance, and every
`remove` hook (of the modules and of the vnodes of `old`) calling its callback before it
returns: the call returns and `elm` has no children left, no node being created and the
children of the other nodes as before. (3) Neither has children and `old.text` is defined:
the call returns and its only node operation is `setTextContent(elm, "")`. (4) Both have
children and the two arrays are one object: the call returns and performs no node
operation. -/
theorem patchVnode_children (E : Env) (d : Nat) (st : St) (queue : Queue)
    (old new : VNode) (removeOnly : Bool) (e : Nat)
    (hne : old.oid ≠ new.oid) (hasync : old.isAsyncPlaceholder = false)
    (hstatic : staticShortcut old new = false)
    (htext : new.text = none) (helm : old.elm = some e) (hlt : e < st.dom.next)
    (hci : new.componentInstance = none) :
    (∀ ch, old.children = none → new.children = some ch →
      (∀ c ∈ ch, newPlain d c = true) →
      ∃ r cs xs, patchVnode E (d + 1) st queue old new removeOnly = Except.ok r ∧
        r.2.2.elm = some e ∧ r.2.2.children = some cs ∧ cs.length = ch.length ∧
        cs.map (fun v => v.elm) = xs.map some ∧ xs.Nodup ∧
        (∀ x ∈ xs, st.dom.next ≤ x ∧ r.1.dom.parent x = some e) ∧
        r.1.dom.children e =
          (if old.text.isSome then (nodeOps.setTextContent st e "").dom.children e
            else st.dom.children e) ++ xs) ∧
    (∀ oc, old.children = some oc → new.children = none →
      oldPlain E (d + 1) old = true → rendered (d + 1) st.dom old = true →
      (elmsOf (d + 1) old).Nodup →
      ∃ r, patchVnode E (d + 1) st queue old new removeOnly = Except.ok r ∧
        r.2.2.elm = some e ∧ r.1.dom.next = st.dom.next ∧ r.1.dom.children e = [] ∧
        (∀ y, y ≠ e → r.1.dom.children y = st.dom.children y)) ∧
    (old.children = none → new.children = none → old.text.isSome = true →
      ∃ r, patchVnode E (d + 1) st queue old new removeOnly = Except.ok r ∧
        r.2.2.elm = some e ∧ r.1.dom = (nodeOps.setTextContent st e "").dom ∧
        nodeOpsOf r.1.log = nodeOpsOf st.log ++ [Op.setTextContent e ""]) ∧
    (∀ oc ch, old.children = some oc → new.children = some ch →
      old.childrenRef = new.childrenRef →
      ∃ r, patchVnode E (d + 1) st queue old new removeOnly = Except.ok r ∧
        r.2.2.elm = some e ∧ r.1.dom = st.dom ∧ nodeOpsOf r.1.log = nodeOpsOf st.log) := by
  obtain ⟨st2, h2d, h2l, hvia⟩ :=
    patchVnode_via E d st queue old new removeOnly hne hasync hstatic hci
  have hvt : (adopted old new).text = none := htext
  have hve : (adopted old new).elm = some e := helm
  refine ⟨?_, ?_, ?_, ?_⟩
  · intro ch hoc hnc hplain
    have hnc' : (adopted old new).children = some ch := hnc
    obtain ⟨s, hs, hf⟩ := setTextIf_spec st2 e "" (old.text.isSome = true)
    have hsdom : s.dom.children e =
        (if old.text.isSome then (nodeOps.setTextContent st e "").dom.children e
          else st.dom.children e) := by
      by_cases ht : old.text.isSome = true
      · rw [if_pos ht] at hs ⊢
        have : s = nodeOps.setTextContent st2 e "" := by
          simp only [setTextContentAt, pure, Except.pure] at hs
          exact (Except.ok.inj hs).symm
        rw [this, setTextContent_congr st2 st h2d]
      · rw [if_neg ht] at hs ⊢
        have : s = st2 := (Except.ok.inj hs).symm
        rw [this, h2d]
    have hlt2 : e < s.dom.next := by
      have := hf.next_le
      rw [h2d] at this
      omega
    obtain ⟨r, nF', xs, hr, hres, hlen, helms, hchild, hxs, hnd, _⟩ :=
      addVnodesLoop_spec ch (createElm E d) (createElm_meets E d ch hplain) e none [] ch []
        s queue (fun n hn => hn) hlt2 (Or.inl rfl)
    simp only [List.length_nil, Nat.cast_zero, List.nil_append, List.append_nil] at hr hres
    have hcount : ((ch.length : Int) - 1 - 0 + 1).toNat = ch.length := by omega
    have hch : patchVnodeChildren E d (fun s q o n => patchVnode E d s q o n false)
        (createElm E d) st2 queue old (adopted old new) removeOnly
        = Except.ok (r.1, r.2.1, { adopted old new with children := some r.2.2 }) := by
      unfold patchVnodeChildren
      simp only [hvt, hoc, hnc', helm, bind, Except.bind, pure, Except.pure]
      rw [hs]
      simp only
      unfold addVnodes
      rw [hcount, hr]
    obtain ⟨hp, hpd, _⟩ := hvia _ hch
    refine ⟨_, nF', xs, hp, hve, ?_, hlen, helms, hnd, ?_, ?_⟩
    · show some r.2.2 = some nF'
      rw [hres]
    · intro x hx
      obtain ⟨h1, _, h3⟩ := hxs x hx
      refine ⟨?_, ?_⟩
      · have := hf.next_le
        rw [h2d] at this
        omega
      · show (postpatched _ _ _).dom.parent x = _
        rw [hpd]
        exact h3
    · show (postpatched _ _ _).dom.children e = _
      rw [hpd]
      show r.1.dom.children e = _
      rw [hchild, hsdom]
      have := foldl_insertAt_boundary [] xs
        (if old.text.isSome then (nodeOps.setTextContent st e "").dom.children e
          else st.dom.children e) (by simp)
      simpa using this
  · intro oc hoc hnc hplain hren hnd
    have hnc' : (adopted old new).children = none := hnc
    obtain ⟨_, _, _, hokids⟩ := oldPlain_facts E d old hplain
    obtain ⟨e', he', hcs⟩ := (rendered_succ_iff d st.dom old).1 hren
    rw [helm] at he'
    cases he'
    have hoc' : old.children.getD [] = oc := by rw [hoc]; rfl
    obtain ⟨hE1, hE2⟩ := elmsOf_succ d old e oc helm hoc'
    obtain ⟨hch, hcall⟩ := hcs oc hoc
    have hnd' : (e :: oc.flatMap (elmsOf d)).Nodup := by rw [← hE1]; exact hnd
    have hsub := top_elms_sublist d oc _ hch
    obtain ⟨st', hr, hnx, hce, hoth, _⟩ :=
      removeVnodesLoop_spec E d st.dom e [] [] (oc.map some) [] st2 []
        (st.dom.children e) (by rw [h2d]; simp)
        (by rw [reduceOption_map_some]; exact hch.symm)
        (by
          simp only [List.nil_append, List.append_nil]
          exact List.Nodup.sublist hsub (List.nodup_cons.1 hnd').2)
        (by
          intro y hy
          have : some y ∈ oc.map (fun c => c.elm) := by
            rw [← hch]; exact List.mem_map.2 ⟨y, hy, rfl⟩
          obtain ⟨c, hc, hce⟩ := List.mem_map.1 this
          obtain ⟨⟨x, hx1, hx2⟩, _⟩ := hcall c hc
          rw [hce] at hx1
          cases hx1
          rw [h2d]
          exact hx2)
        (by
          intro c hc
          obtain ⟨c', hc', e1⟩ := List.mem_map.1 hc
          have e2 : c' = c := Option.some.inj e1
          subst e2
          obtain ⟨_, h2, h3⟩ := oldPlain_pos E d c' (hokids c' (by rw [hoc']; exact hc'))
          exact ⟨(hcall c' hc').2, h2, h3⟩)
    simp only [List.length_nil, Nat.cast_zero, List.nil_append, List.append_nil] at hr hce
    have hcount : ((oc.length : Int) - 1 - 0 + 1).toNat = (oc.map some).length := by
      simp
    have hchn : patchVnodeChildren E d (fun s q o n => patchVnode E d s q o n false)
        (createElm E d) st2 queue old (adopted old new) removeOnly
        = Except.ok (st', queue, adopted old new) := by
      unfold patchVnodeChildren
      simp only [hvt, hoc, hnc', bind, Except.bind, pure, Except.pure]
      unfold removeVnodes
      rw [hcount, hr]
    obtain ⟨hp, hpd, _⟩ := hvia _ hchn
    refine ⟨_, hp, hve, ?_, ?_, ?_⟩
    · show (postpatched _ _ _).dom.next = _
      rw [hpd]
      show st'.dom.next = _
      rw [hnx, h2d]
    · show (postpatched _ _ _).dom.children e = _
      rw [hpd]
      exact hce
    · intro y hy
      show (postpatched _ _ _).dom.children y = _
      rw [hpd]
      show st'.dom.children y = _
      rw [hoth y hy, h2d]
  · intro hoc hnc ht
    have hnc' : (adopted old new).children = none := hnc
    have hchn : patchVnodeChildren E d (fun s q o n => patchVnode E d s q o n false)
        (createElm E d) st2 queue old (adopted old new) removeOnly
        = Except.ok (nodeOps.setTextContent st2 e "", queue, adopted old new) := by
      unfold patchVnodeChildren
      simp only [hvt, hoc, hnc', helm, ht, if_true, setTextContentAt, bind, Except.bind, pure,
        Except.pure]
    obtain ⟨hp, hpd, hpl⟩ := hvia _ hchn
    refine ⟨_, hp, hve, ?_, ?_⟩
    · show (postpatched _ _ _).dom = _
      rw [hpd]
      exact setTextContent_congr st2 st h2d e ""
    · show nodeOpsOf (postpatched _ _ _).log = _
      rw [hpl]
      show nodeOpsOf (nodeOps.setTextContent st2 e "").log = _
      rw [setTextContent_log, nodeOpsOf_append, h2l]
      rfl
  · intro oc ch hoc hnc href
    have hnc' : (adopted old new).children = some ch := hnc
    have href' : old.childrenRef = (adopted old new).childrenRef := href
    have hchn : patchVnodeChildren E d (fun s q o n => patchVnode E d s q o n false)
        (createElm E d) st2 queue old (adopted old new) removeOnly
        = Except.ok (st2, queue, adopted old new) := by
      unfold patchVnodeChildren
      simp only [hvt, hoc, hnc', href', ne_eq, not_true_eq_false, if_false, pure, Except.pure]
    obtain ⟨hp, hpd, hpl⟩ := hvia _ hchn
    refine ⟨_, hp, hve, ?_, ?_⟩
    · show (postpatched _ _ _).dom = _
      rw [hpd]
      exact h2d
    · show nodeOpsOf (postpatched _ _ _).log = _
      rw [hpl]
      exact h2l

theorem patchVnode_children_witness :
    (∃ r cs xs, patchVnode (exEnv true) 2 (exSt exTextDom) [] exParaOld exParaNew false
        = Except.ok r ∧
      r.2.2.elm = some 0 ∧ r.2.2.children = some cs ∧
      cs.length = [exText 4 "b" none].length ∧
      cs.map (fun v => v.elm) = xs.map some ∧ xs.Nodup ∧
      (∀ x ∈ xs, (exSt exTextDom).dom.next ≤ x ∧ r.1.dom.parent x = some 0) ∧
      r.1.dom.children 0 =
        (if exParaOld.text.isSome then
            (nodeOps.setTextContent (exSt exTextDom) 0 "").dom.children 0
          else (exSt exTextDom).dom.children 0) ++ xs) ∧
    (∃ r, patchVnode (exEnv true) 2 (exSt exLooseDom) [] exUlOld exUlNew false
        = Except.ok r ∧
      r.2.2.elm = some 0 ∧ r.1.dom.next = (exSt exLooseDom).dom.next ∧
      r.1.dom.children 0 = [] ∧
      (∀ y, y ≠ 0 → r.1.dom.children y = (exSt exLooseDom).dom.children y)) :=
  ⟨(patchVnode_children (exEnv true) 1 (exSt exTextDom) [] exParaOld exParaNew false 0
      (by decide) rfl (by decide) rfl rfl (by decide) rfl).1
      [exText 4 "b" none] rfl rfl (by decide),
    (patchVnode_children (exEnv true) 1 (exSt exLooseDom) [] exUlOld exUlNew false 0
      (by decide) rfl (by decide) rfl rfl (by decide) rfl).2.1
      [exItem 2 "li" none (some 1) none] rfl rfl (by decide) (by decide) (by decide)⟩

/-- With a `remove` hook that keeps its callback for later, the old child is still a
child of `elm` when `patchVnode` returns. -/
theorem patchVnode_children_counterexample :
    exUlOld.children = some [exItem 2 "li" none (some 1) none] ∧
      exUlNew.children = none ∧ exUlNew.text = none ∧
      (patchVnode (exEnv false) 2 (exSt exLooseDom) [] exUlOld exUlNew false).toOption.map
        (fun r => r.1.dom.children 0) = some [1] := by
  refine ⟨rfl, rfl, rfl, ?_⟩
  decide
theorem emitModuleHooks_log (h : HookName) (v : VNode) :
    ∀ (is : List Nat) (st : St),
      st.emitModuleHooks h is v
        = { st with log := st.log ++ is.map (fun i => Op.moduleHook h i v) } := by
  intro is
  induction is with
  | nil => intro st; simp [St.emitModuleHooks]
  | cons i is ih =>
    intro st
    have := ih (st.emit (Op.moduleHook h i v))
    unfold St.emitModuleHooks at this ⊢
    rw [List.foldl_cons, this]
    simp [St.emit]

theorem destroyModules_filter (pre : List Module) :
    ∀ (l : List Module) (i : Nat), pre.length = i →
      (List.range' i l.length).filter (fun j => ((pre ++ l).getD j {}).destroy)
        = destroyModules i l := by
  intro l
  induction l generalizing pre with
  | nil => intro i _; rfl
  | cons m rest ih =>
    intro i hi
    have hm : (pre ++ m :: rest).getD i {} = m := by
      subst hi
      simp [List.getD]
      exact List.getElem_append_right (Nat.le_refl _) |>.trans (by simp)
    have hrest := ih (pre ++ [m]) (i + 1) (by simp [hi])
    rw [List.append_assoc, List.singleton_append] at hrest
    rw [List.length_cons, List.range'_succ, List.filter_cons, hm, destroyModules, hrest]
    cases m.destroy <;> rfl

theorem cbs_destroy (E : Env) :
    cbs E (fun m => m.destroy) = destroyModules 0 E.modules := by
  unfold cbs
  rw [List.range_eq_range']
  exact destroyModules_filter [] E.modules 0 rfl

theorem destroyFold_log (E : Env) (d : Nat)
    (ih : ∀ v, heightLe d v = true → ∀ st : St,
      invokeDestroyHook E d st v
        = Except.ok { st with log := st.log ++ destroyCascade E.modules d v }) :
    ∀ (cs : List VNode), (∀ c ∈ cs, heightLe d c = true) → ∀ st : St,
      cs.foldlM (fun s c => invokeDestroyHook E d s c) st
        = Except.ok { st with log := st.log ++ cs.flatMap (destroyCascade E.modules d) } := by
  intro cs
  induction cs with
  | nil => intro _ st; simp [pure, Except.pure]
  | cons c cs ihc =>
    intro hall st
    rw [List.foldlM_cons, ih c (hall c (List.mem_cons_self _ _)) st]
    simp only [bind, Except.bind]
    rw [ihc (fun x hx => hall x (List.mem_cons_of_mem _ hx))]
    simp

theorem invokeDestroyHook_log (E : Env) :
    ∀ (d : Nat) (v : VNode), heightLe d v = true → ∀ st : St,
      invokeDestroyHook E d st v
        = Except.ok { st with log := st.log ++ destroyCascade E.modules d v } := by
  intro d
  induction d with
  | zero =>
    intro v h
    unfold heightLe at h
    cases h
  | succ d ih =>
    intro v h st
    unfold heightLe at h
    rw [List.all_eq_true] at h
    unfold invokeDestroyHook destroyCascade
    rw [cbs_destroy]
    cases hd : v.data with
    | none =>
      cases hc : v.children with
      | none => simp [pure, Except.pure]
      | some cs =>
        rw [hc] at h
        simp only
        rw [destroyFold_log E d ih cs h]
        simp
    | some data =>
      have hst1 : ((if (data.hook.map (fun (h : Hook VNode) => h.destroy)) = some true then
            st.emit (Op.dataHook HookName.destroy v) else st).emitModuleHooks HookName.destroy
              (destroyModules 0 E.modules) v)
          = { st with log := st.log ++
              ((if (data.hook.map (fun (h : Hook VNode) => h.destroy)) = some true then
                [Op.dataHook HookName.destroy v] else []) ++
              (destroyModules 0 E.modules).map
                (fun i => Op.moduleHook HookName.destroy i v)) } := by
        rw [emitModuleHooks_log]
        split <;> simp [St.emit]
      cases hc : v.children with
      | none =>
        simp only [pure, Except.pure]
        rw [hst1]
        simp
      | some cs =>
        rw [hc] at h
        simp only
        rw [hst1, destroyFold_log E d ih cs h]
        simp

theorem nodeOpsOf_cascade (E : Env) :
    ∀ (d : Nat) (v : VNode), nodeOpsOf (destroyCascade E.modules d v) = [] := by
  intro d
  induction d with
  | zero => intro v; rfl
  | succ d ih =>
    intro v
    unfold destroyCascade
    rw [nodeOpsOf_append]
    have h1 : nodeOpsOf ((v.children.getD []).flatMap (destroyCascade E.modules d)) = [] := by
      generalize v.children.getD [] = cs
      induction cs with
      | nil => rfl
      | cons c cs ihc =>
        rw [List.flatMap_cons, nodeOpsOf_append, ih c, ihc]
        rfl
    rw [h1, List.append_nil]
    cases v.data with
    | none => rfl
    | some data =>
      simp only
      rw [nodeOpsOf_append]
      have h2 : nodeOpsOf ((destroyModules 0 E.modules).map
          (fun i => Op.moduleHook HookName.destroy i v)) = [] := by
        simp [nodeOpsOf, Op.isNodeOp]
      rw [h2, List.append_nil]
      split <;> rfl

/-- C27: for every old vnode tree (of height at most `d`), `patch(old, undefined)`
returns, the value returned is undefined, the backend tree is as before, and what the
call appends to the log is the destroy cascade of the tree, which holds no node
operation: every vnode with a data payload gets its `data.hook.destroy` (if present) and
then the `destroy` hook of every module that has one, in the order of the modules, once,
a parent before its children, and the children of a vnode without data are visited all
the same. -/
theorem patch_unmount (E : Env) (d : Nat) (st : St) (old : VNode)
    (hydrating removeOnly : Bool) (h : heightLe d old = true) :
    patch E d st (some (OldNode.vnode old)) none hydrating removeOnly
        = Except.ok ({ st with log := st.log ++ destroyCascade E.modules d old }, none, none) ∧
      nodeOpsOf (destroyCascade E.modules d old) = [] := by
  refine ⟨?_, nodeOpsOf_cascade E d old⟩
  unfold patch
  simp only [bind, Except.bind, pure, Except.pure]
  rw [invokeDestroyHook_log E d old h st]

theorem patch_unmount_witness :
    patch exDestroyEnv 3 (exSt exLooseDom) (some (OldNode.vnode exDestroyTree)) none
        false false
        = Except.ok ({ exSt exLooseDom with
            log := (exSt exLooseDom).log ++ destroyCascade exDestroyEnv.modules 3 exDestroyTree },
          none, none) ∧
      nodeOpsOf (destroyCascade exDestroyEnv.modules 3 exDestroyTree) = [] :=
  patch_unmount exDestroyEnv 3 (exSt exLooseDom) exDestroyTree false false (by decide)
theorem cascade_example :
    destroyCascade exDestroyEnv.modules 3 exDestroyTree
      = [Op.dataHook HookName.destroy exDestroyTree,
         Op.moduleHook HookName.destroy 1 exDestroyTree,
         Op.dataHook HookName.destroy (exHooked 3 none),
         Op.moduleHook HookName.destroy 1 (exHooked 3 none)] := by
  rfl
theorem kept_refl (a : VNode) : Kept a a := ⟨rfl, rfl, rfl, rfl, rfl, rfl⟩

theorem kept_trans {a b c : VNode} (h1 : Kept a b) (h2 : Kept b c) : Kept a c :=
  ⟨h2.1.trans h1.1, h2.2.1.trans h1.2.1, h2.2.2.1.trans h1.2.2.1,
    h2.2.2.2.1.trans h1.2.2.2.1, h2.2.2.2.2.1.trans h1.2.2.2.2.1,
    h2.2.2.2.2.2.trans h1.2.2.2.2.2⟩

theorem initComponent_kept (E : Env) (fuel : Nat) (st : St) (q : Queue) (v : VNode)
    (r : St × Queue × VNode) (h : initComponent E fuel st q v = Except.ok r) :
    Kept v r.2.2 := by
  unfold initComponent at h
  split at h
  · exact absurd h (throw_ne_ok _ _)
  · rename_i data hd
    simp only at h
    split at h
    · exact absurd h (throw_ne_ok _ _)
    · rename_i c hc
      simp only [bind_eq_ok] at h
      obtain ⟨b, _, h⟩ := h
      have hk : Kept v ({ (match data.pendingInsert with
          | some _ => { v with data := some { data with pendingInsert := none } }
          | none => v) with elm := c.el } : VNode) := by
        cases data.pendingInsert <;> exact ⟨rfl, rfl, rfl, rfl, rfl, rfl⟩
      split at h
      · simp only [bind_eq_ok, pure_eq_ok] at h
        obtain ⟨_, _, _, _, h⟩ := h
        rw [← h]
        exact hk
      · rw [pure_eq_ok] at h
        rw [← h]
        exact hk

theorem createComponent_kept (E : Env) (fuel : Nat) (st : St) (q : Queue) (v : VNode)
    (pe re : Option Nat) (r : St × Queue × VNode × Bool)
    (h : createComponent E fuel st q v pe re = Except.ok r) : Kept v r.2.2.1 := by
  unfold createComponent at h
  split at h
  · rw [pure_eq_ok] at h
    rw [← h]
    exact kept_refl v
  · rename_i data hd
    simp only at h
    have hk1 : Kept v (match data.hook.bind (fun h => h.init) with
        | some (some c) => { v with componentInstance := some c }
        | _ => v) := by
      split
      · exact ⟨rfl, rfl, rfl, rfl, rfl, rfl⟩
      · exact kept_refl v
    split at h
    · simp only [bind_eq_ok] at h
      obtain ⟨a, ha, b, _, h⟩ := h
      have hk2 := kept_trans hk1 (initComponent_kept E fuel _ q _ a ha)
      split at h
      · simp only [bind_eq_ok, pure_eq_ok] at h
        obtain ⟨_, _, h⟩ := h
        rw [← h]
        exact hk2
      · rw [pure_eq_ok] at h
        rw [← h]
        exact hk2
    · rw [pure_eq_ok] at h
      rw [← h]
      exact hk1

theorem createChildren_kept (E : Env) (createE : CreateFn) (st : St) (q : Queue) (v : VNode)
    (r : St × Queue × VNode) (h : createChildren E createE st q v = Except.ok r) :
    Kept v r.2.2 := by
  unfold createChildren at h
  split at h
  · simp only [bind_eq_ok, pure_eq_ok] at h
    obtain ⟨_, _, h⟩ := h
    rw [← h]
    exact ⟨rfl, rfl, rfl, rfl, rfl, rfl⟩
  · split at h
    · split at h
      · rw [pure_eq_ok] at h
        rw [← h]
        exact kept_refl v
      · exact absurd h (throw_ne_ok _ _)
    · rw [pure_eq_ok] at h
      rw [← h]
      exact kept_refl v

theorem createElmText_kept (st : St) (q : Queue) (v : VNode) (pe re : Option Nat)
    (r : St × Queue × VNode) (h : createElmText st q v pe re = Except.ok r) :
    Kept v r.2.2 := by
  unfold createElmText at h
  simp only [bind_eq_ok, pure_eq_ok] at h
  obtain ⟨_, _, h⟩ := h
  rw [← h]
  exact ⟨rfl, rfl, rfl, rfl, rfl, rfl⟩

theorem createElmElement_kept (E : Env) (fuel : Nat) (createE : CreateFn) (st : St)
    (q : Queue) (v : VNode) (tag : String) (pe re : Option Nat) (r : St × Queue × VNode)
    (h : createElmElement E fuel createE st q v tag pe re = Except.ok r) : Kept v r.2.2 := by
  unfold createElmElement at h
  simp only [bind_eq_ok] at h
  obtain ⟨st3, _, r1, h1, h⟩ := h
  rw [pure_eq_ok] at h
  rw [← h]
  show Kept v r1.2.2
  split at h1
  · simp only [bind_eq_ok] at h1
    obtain ⟨a, _, ch, hch, h1⟩ := h1
    have hkc := createChildren_kept E createE _ _ _ ch hch
    have hkc2 : Kept v ch.2.2 := by
      refine kept_trans ?_ hkc
      exact ⟨rfl, rfl, rfl, rfl, rfl, rfl⟩
    split at h1
    · simp only [bind_eq_ok, pure_eq_ok] at h1
      obtain ⟨_, _, _, _, h1⟩ := h1
      rw [← h1]
      exact hkc2
    · rw [pure_eq_ok] at h1
      rw [← h1]
      exact hkc2
  · simp only [bind_eq_ok, pure_eq_ok] at h1
    obtain ⟨ch, hch, _, _, _, _, h1⟩ := h1
    rw [← h1]
    refine kept_trans ?_ (createChildren_kept E createE _ _ _ ch hch)
    exact ⟨rfl, rfl, rfl, rfl, rfl, rfl⟩

/-- The vnode `createElm` leaves behind is the one it was given, or its clone when the
vnode was rendered before and an owner array is passed. -/
theorem createElm_kept (E : Env) (fuel : Nat) (st : St) (q : Queue) (v : VNode)
    (pe re : Option Nat) (nested owned : Bool) (r : St × Queue × VNode)
    (h : createElm E fuel st q v pe re nested owned = Except.ok r) :
    Kept (if v.elm.isSome && owned then cloneVNode st.nextOid v else v) r.2.2 := by
  unfold createElm at h
  split at h
  · exact absurd h (throw_ne_ok _ _)
  · simp only [bind_eq_ok] at h
    obtain ⟨c, hc, h⟩ := h
    have hk0 : Kept (if v.elm.isSome && owned then cloneVNode st.nextOid v else v)
        ({ (if v.elm.isSome && owned then cloneVNode st.nextOid v else v) with
          isRootInsert := !nested } : VNode) := ⟨rfl, rfl, rfl, rfl, rfl, rfl⟩
    have hk1 := kept_trans hk0 (createComponent_kept E _ _ q _ pe re c hc)
    split at h
    · rw [pure_eq_ok] at h
      rw [← h]
      exact hk1
    · split at h
      · exact kept_trans hk1 (createElmElement_kept E _ _ _ _ _ _ pe re r h)
      · exact kept_trans hk1 (createElmText_kept _ _ _ pe re r h)

/-- C22: `createElm` called with an owner array (as `createChildren`, `addVnodes` and
`updateChildren` call it) on a vnode that was rendered before, as the node `x0` (the
vnode is an object that exists when the call is made: its identity is below the counter
of new identities). (1) Whatever the vnode, the parent and the reference node are, if the
call returns then the vnode it mounted and stored in the owner array is a clone made by
`cloneVNode`, a new object flagged `isCloned`; the vnode that was passed is not assigned
to, so its `elm` is still `x0`. (2) The call does return, and the backend node of the
clone is a new node inserted under the parent (before the reference node, at the end
without one), when the vnode tree has height at most `d`, no vnode of it is an async
placeholder or has a component instance, a placeholder parent (`parent`) or an `init`
hook, `checkDuplicateKeys` warns on no child list of it, `x0` and the parent are existing
nodes, and the reference node is undefined or an existing child of the parent. -/
theorem createElm_clones (E : Env) (d : Nat) (st : St) (queue : Queue) (vnode : VNode)
    (x0 : Nat) (nested : Bool)
    (helm : vnode.elm = some x0) (hoid : vnode.oid < st.nextOid) :
    (∀ (parentElm ref : Option Nat) (r : St × Queue × VNode),
      createElm E d st queue vnode parentElm ref nested true = Except.ok r →
        Kept (cloneVNode st.nextOid vnode) r.2.2 ∧ r.2.2.oid ≠ vnode.oid ∧
          r.2.2.isCloned = true) ∧
    (∀ (par : Nat) (ref : Option Nat), newPlain d vnode = true → x0 < st.dom.next →
      par < st.dom.next →
      (ref = none ∨ ∃ r, ref = some r ∧ st.dom.parent r = some par ∧
        r ∈ st.dom.children par ∧ r < st.dom.next) →
      ∃ r x, createElm E d st queue vnode (some par) ref nested true = Except.ok r ∧
        Kept (cloneVNode st.nextOid vnode) r.2.2 ∧ r.2.2.oid ≠ vnode.oid ∧
        r.2.2.isCloned = true ∧ r.2.2.elm = some x ∧ x ≠ x0 ∧
        r.1.dom.children par = insertAt x ref (st.dom.children par)) := by
  have hA : ∀ (parentElm ref : Option Nat) (r : St × Queue × VNode),
      createElm E d st queue vnode parentElm ref nested true = Except.ok r →
        Kept (cloneVNode st.nextOid vnode) r.2.2 ∧ r.2.2.oid ≠ vnode.oid ∧
          r.2.2.isCloned = true := by
    intro parentElm ref r hr
    have hk := createElm_kept E d st queue vnode parentElm ref nested true r hr
    simp only [helm, Option.isSome_some, Bool.and_self, if_true] at hk
    refine ⟨hk, ?_, ?_⟩
    · rw [hk.1]
      show st.nextOid ≠ vnode.oid
      omega
    · rw [hk.2.1]
      rfl
  refine ⟨hA, fun par ref hplain hx0 hpar href => ?_⟩
  · obtain ⟨r, x, hr, hx, hc⟩ := createElm_spec E d vnode hplain st queue par ref nested
      true hpar href
    obtain ⟨h1, h2, h3⟩ := hA (some par) ref r hr
    refine ⟨r, x, hr, h1, h2, h3, hx, ?_, hc.children_par⟩
    have := hc.fresh
    omega

/-- C22 (witness): the text vnode `"a"`, rendered before as node 1, is mounted again as
the last child of node 0. -/
theorem createElm_clones_witness :
    ∃ r x, createElm (exEnv true) 1 (exSt exLooseDom) [] exUsedText (some 0) none true true
        = Except.ok r ∧
      Kept (cloneVNode (exSt exLooseDom).nextOid exUsedText) r.2.2 ∧
      r.2.2.oid ≠ exUsedText.oid ∧ r.2.2.isCloned = true ∧ r.2.2.elm = some x ∧ x ≠ 1 ∧
      r.1.dom.children 0 = insertAt x none ((exSt exLooseDom).dom.children 0) :=
  (createElm_clones (exEnv true) 1 (exSt exLooseDom) [] exUsedText 1 true
    rfl (by decide)).2 0 none (by decide) (by decide) (by decide) (Or.inl rfl)

/-- The top-level mount `patch(undefined, vnode)` calls `createElm` without an owner
array: a vnode that was rendered before is not cloned, and its `elm` is overwritten. -/
theorem createElm_clones_counterexample :
    exUsedText.elm = some 1 ∧
      (patch (exEnv true) 1 (exSt exLooseDom) none (some exUsedText) false false).toOption.map
        (fun r => r.2.1.map (fun v => (v.oid, v.isCloned, v.elm)))
        = some (some (7, false, some 4)) := by
  refine ⟨rfl, ?_⟩
  decide
/-! ## The queue of inserted vnodes -/

theorem queueOk_nil : QueueOk [] := fun _ h => by cases h

theorem queueOk_append {q : Queue} {v : VNode} (hq : QueueOk q)
    (hv : (v.data.bind (fun d => d.hook.bind (fun h => h.insert))).isSome = true) :
    QueueOk (q ++ [v]) := by
  intro x hx
  rcases List.mem_append.1 hx with h | h
  · exact hq x h
  · rw [List.mem_singleton.1 h]
    exact hv

theorem compFree_facts (d : Nat) (v : VNode) (h : compFree (d + 1) v = true) :
    v.componentInstance = none ∧
      (v.data.bind (fun x => x.hook)).bind (fun h => h.init) = none ∧
      ∀ c ∈ v.children.getD [], compFree d c = true := by
  unfold compFree at h
  simp only [Bool.and_eq_true, Option.isNone_iff_eq_none, List.all_eq_true] at h
  exact ⟨h.1.1, h.1.2, h.2⟩

theorem compFree_intro (d : Nat) (v : VNode) (h1 : v.componentInstance = none)
    (h2 : (v.data.bind (fun x => x.hook)).bind (fun h => h.init) = none)
    (h3 : ∀ c ∈ v.children.getD [], compFree d c = true) : compFree (d + 1) v = true := by
  unfold compFree
  simp only [Bool.and_eq_true, Option.isNone_iff_eq_none, List.all_eq_true]
  exact ⟨⟨h1, h2⟩, h3⟩

theorem compFree_pos (d : Nat) (v : VNode) (h : compFree d v = true) : ∃ d', d = d' + 1 := by
  cases d with
  | zero => unfold compFree at h; cases h
  | succ d' => exact ⟨d', rfl⟩

theorem compFree_of_newPlain : ∀ (d : Nat) (v : VNode), newPlain d v = true →
    compFree d v = true := by
  intro d
  induction d with
  | zero => intro v h; unfold newPlain at h; cases h
  | succ d ih =>
    intro v h
    obtain ⟨_, h2, _, h4, _, h6⟩ := newPlain_facts d v h
    exact compFree_intro d v h2 h4 (fun c hc => ih c (h6 c hc))

theorem invokeCreateHooks_queue (E : Env) (st : St) (q : Queue) (v : VNode)
    (r : St × Queue) (h : invokeCreateHooks E st q v = Except.ok r) (hq : QueueOk q) :
    QueueOk r.2 := by
  unfold invokeCreateHooks at h
  simp only at h
  split at h
  · exact absurd h (throw_ne_ok _ _)
  · rename_i data hd
    split at h
    · rw [pure_eq_ok] at h
      rw [← h]
      exact hq
    · rename_i hook hh
      rw [pure_eq_ok] at h
      rw [← h]
      show QueueOk (if hook.insert.isSome then q ++ [v] else q)
      split
      · rename_i hi
        refine queueOk_append hq ?_
        rw [hd]
        simp only [Option.some_bind, hh]
        exact hi
      · exact hq

theorem hooks_if_queue (E : Env) (st : St) (q : Queue) (v : VNode) (r : St × Queue)
    (c : Prop) [Decidable c]
    (h : (if c then invokeCreateHooks E st q v else pure (st, q)) = Except.ok r)
    (hq : QueueOk q) : QueueOk r.2 := by
  split at h
  · exact invokeCreateHooks_queue E st q v r h hq
  · rw [pure_eq_ok] at h
    rw [← h]
    exact hq

theorem createChildrenLoop_closed (d : Nat) (createE : CreateFn) (pe : Option Nat) :
    ∀ (cs : List VNode),
      (∀ c ∈ cs, ∀ st q r, createE st q c pe none true true = Except.ok r → QueueOk q →
        QueueOk r.2.1 ∧ compFree d r.2.2 = true) →
      ∀ st q r, createChildrenLoop createE pe st q cs = Except.ok r → QueueOk q →
        QueueOk r.2.1 ∧ ∀ c ∈ r.2.2, compFree d c = true := by
  intro cs
  induction cs with
  | nil =>
    intro _ st q r h hq
    unfold createChildrenLoop at h
    rw [pure_eq_ok] at h
    rw [← h]
    exact ⟨hq, fun c hc => by cases hc⟩
  | cons c cs ih =>
    intro hall st q r h hq
    unfold createChildrenLoop at h
    simp only [bind_eq_ok, pure_eq_ok] at h
    obtain ⟨r1, h1, r2, h2, h⟩ := h
    obtain ⟨hq1, hc1⟩ := hall c (List.mem_cons_self _ _) st q r1 h1 hq
    obtain ⟨hq2, hc2⟩ := ih (fun c' hc' => hall c' (List.mem_cons_of_mem _ hc')) _ _ r2 h2 hq1
    rw [← h]
    refine ⟨hq2, fun x hx => ?_⟩
    rcases List.mem_cons.1 hx with e | e
    · rw [e]; exact hc1
    · exact hc2 x e

theorem createChildren_closed (E : Env) (d : Nat) (createE : CreateFn) (st : St) (q : Queue)
    (v : VNode) (hv : compFree (d + 1) v = true)
    (hall : ∀ c ∈ v.children.getD [], ∀ st q r,
      createE st q c v.elm none true true = Except.ok r → QueueOk q →
        QueueOk r.2.1 ∧ compFree d r.2.2 = true)
    (r : St × Queue × VNode) (h : createChildren E createE st q v = Except.ok r)
    (hq : QueueOk q) : QueueOk r.2.1 ∧ compFree (d + 1) r.2.2 = true := by
  obtain ⟨h1, h2, h3⟩ := compFree_facts d v hv
  unfold createChildren at h
  split at h
  · rename_i cs hcs
    rw [hcs] at hall
    simp only [bind_eq_ok, pure_eq_ok] at h
    obtain ⟨r1, hr1, h⟩ := h
    obtain ⟨hq1, hc1⟩ := createChildrenLoop_closed d createE v.elm cs hall _ _ r1 hr1 hq
    rw [← h]
    exact ⟨hq1, compFree_intro d _ h1 h2 hc1⟩
  · split at h
    · split at h
      · rw [pure_eq_ok] at h
        rw [← h]
        exact ⟨hq, hv⟩
      · exact absurd h (throw_ne_ok _ _)
    · rw [pure_eq_ok] at h
      rw [← h]
      exact ⟨hq, hv⟩

theorem createElmElement_closed (E : Env) (fuel d : Nat) (createE : CreateFn) (st : St)
    (q : Queue) (v : VNode) (tag : String) (pe re : Option Nat)
    (hv : compFree (d + 1) v = true)
    (hall : ∀ c ∈ v.children.getD [], ∀ x st q r,
      createE st q c x none true true = Except.ok r → QueueOk q →
        QueueOk r.2.1 ∧ compFree d r.2.2 = true)
    (r : St × Queue × VNode)
    (h : createElmElement E fuel createE st q v tag pe re = Except.ok r) (hq : QueueOk q) :
    QueueOk r.2.1 ∧ compFree (d + 1) r.2.2 = true := by
  obtain ⟨hv1, hv2, hv3⟩ := compFree_facts d v hv
  unfold createElmElement at h
  simp only [bind_eq_ok] at h
  obtain ⟨st3, _, r1, h1, h⟩ := h
  rw [pure_eq_ok] at h
  rw [← h]
  show QueueOk r1.2.1 ∧ compFree (d + 1) r1.2.2 = true
  split at h1
  · simp only [bind_eq_ok] at h1
    obtain ⟨a, ha, ch, hch, h1⟩ := h1
    have hqa : QueueOk a.2 := by
      split at ha
      · rw [pure_eq_ok] at ha
        rw [← ha]
        exact hq
      · simp only [bind_eq_ok, pure_eq_ok] at ha
        obtain ⟨hh, hhh, _, _, ha⟩ := ha
        rw [← ha]
        exact hooks_if_queue E _ _ _ hh _ hhh hq
    have key := fun hcf hall' => createChildren_closed E d createE _ _ _ hcf hall' ch hch hqa
    obtain ⟨hqc, hcc⟩ := key (compFree_intro d _ hv1 hv2 hv3) (fun c hc => hall c hc _)
    split at h1
    · simp only [bind_eq_ok, pure_eq_ok] at h1
      obtain ⟨hh, hhh, _, _, h1⟩ := h1
      rw [← h1]
      exact ⟨hooks_if_queue E _ _ _ hh _ hhh hqc, hcc⟩
    · rw [pure_eq_ok] at h1
      rw [← h1]
      exact ⟨hqc, hcc⟩
  · simp only [bind_eq_ok, pure_eq_ok] at h1
    obtain ⟨ch, hch, hh, hhh, _, _, h1⟩ := h1
    have key := fun hcf hall' => createChildren_closed E d createE _ _ _ hcf hall' ch hch hq
    obtain ⟨hqc, hcc⟩ := key (compFree_intro d _ hv1 hv2 hv3) (fun c hc => hall c hc _)
    rw [← h1]
    exact ⟨hooks_if_queue E _ _ _ hh _ hhh hqc, hcc⟩

/-- On a component-free vnode tree, `createElm` queues only vnodes with an `insert` hook,
and the vnode it leaves is component-free. -/
theorem createElm_closed (E : Env) :
    ∀ (d : Nat) (v : VNode), compFree d v = true →
      ∀ (st : St) (q : Queue) (pe re : Option Nat) (nested owned : Bool)
        (r : St × Queue × VNode),
        createElm E d st q v pe re nested owned = Except.ok r → QueueOk q →
          QueueOk r.2.1 ∧ compFree d r.2.2 = true := by
  intro d
  induction d with
  | zero => intro v h; unfold compFree at h; cases h
  | succ d ih =>
    intro v hv st q pe re nested owned r h hq
    obtain ⟨hv1, hv2, hv3⟩ := compFree_facts d v hv
    unfold createElm at h
    simp only at h
    generalize hst0 : (if (v.elm.isSome && owned) = true then
      ({ st with nextOid := st.nextOid + 1 } : St) else st) = st0 at h
    generalize hv1' : ({ (if (v.elm.isSome && owned) = true then cloneVNode st.nextOid v
      else v) with isRootInsert := !nested } : VNode) = v1 at h
    have hv1f : v1.componentInstance = none ∧
        (v1.data.bind (fun x => x.hook)).bind (fun h => h.init) = none ∧
        v1.children = v.children := by
      rw [← hv1']
      split
      · exact ⟨rfl, hv2, rfl⟩
      · exact ⟨hv1, hv2, rfl⟩
    obtain ⟨hci1, hinit1, hch1⟩ := hv1f
    have hcf1 : compFree (d + 1) v1 = true :=
      compFree_intro d v1 hci1 hinit1 (by rw [hch1]; exact hv3)
    rw [createComponent_plain E (d + 1) st0 q v1 pe re hci1 hinit1] at h
    simp only [bind, Except.bind, Bool.false_eq_true, if_false] at h
    split at h
    · exact createElmElement_closed E d d (createElm E d) st0 q v1 _ pe re hcf1
        (fun c hc x s q' r' hr' hq' =>
          ih c (hv3 c (by rw [← hch1]; exact hc)) s q' x none true true r' hr' hq') r h hq
    · unfold createElmText at h
      simp only [bind_eq_ok, pure_eq_ok] at h
      obtain ⟨_, _, h⟩ := h
      rw [← h]
      exact ⟨hq, compFree_intro d _ hci1 hinit1 (by
        show ∀ c ∈ v1.children.getD [], compFree d c = true
        rw [hch1]; exact hv3)⟩
theorem getAt_mem {α : Type} (xs : List α) (i : Int) (a : α) (h : getAt xs i = some a) :
    a ∈ xs := by
  unfold getAt at h
  split at h
  · cases h
  · exact List.get?_mem h

theorem getAt_join_mem {α : Type} (xs : List (Option α)) (i : Int) (a : α)
    (h : (getAt xs i).join = some a) : some a ∈ xs := by
  cases hg : getAt xs i with
  | none => rw [hg] at h; cases h
  | some o =>
    rw [hg] at h
    have : o = some a := h
    rw [← this]
    exact getAt_mem xs i o hg

theorem mem_setAt {α : Type} (xs : List α) (i : Int) (a x : α) (h : x ∈ setAt xs i a) :
    x = a ∨ x ∈ xs := by
  unfold setAt at h
  split at h
  · exact Or.inr h
  · rcases List.mem_or_eq_of_mem_set h with h1 | h1
    · exact Or.inr h1
    · exact Or.inl h1

theorem sameVnodeAt_some (E : Env) (a b : Option VNode) (t : Bool)
    (h : sameVnodeAt E a b = Except.ok t) : ∃ x y, a = some x ∧ b = some y := by
  unfold sameVnodeAt at h
  split at h
  · exact ⟨_, _, rfl, rfl⟩
  · exact absurd h (throw_ne_ok _ _)

theorem loopOk_patched (E : Env) (d : Nat) (L L1 : Loop) (hL : LoopOk E d L)
    (hq : QueueOk L1.queue) (i : Int) (v : VNode) (hv : compFree d v = true)
    (hn : L1.newCh = setAt L.newCh i v) (ho : L1.oldCh = L.oldCh)
    (hs : L1.oldStartVnode = L.oldStartVnode ∨ ∃ j, L1.oldStartVnode = (getAt L.oldCh j).join)
    (he : L1.oldEndVnode = L.oldEndVnode ∨ ∃ j, L1.oldEndVnode = (getAt L.oldCh j).join) :
    LoopOk E d L1 := by
  refine ⟨hq, ?_, ?_, ?_, ?_⟩
  · intro n hn'
    rw [hn] at hn'
    rcases mem_setAt _ _ _ _ hn' with e | e
    · rw [e]; exact hv
    · exact hL.news n e
  · intro o ho'
    rw [ho] at ho'
    exact hL.olds o ho'
  · intro o ho'
    rcases hs with e | ⟨j, e⟩
    · rw [e] at ho'; exact hL.oldStart o ho'
    · rw [e] at ho'; exact hL.olds o (getAt_join_mem _ _ _ ho')
  · intro o ho'
    rcases he with e | ⟨j, e⟩
    · rw [e] at ho'; exact hL.oldEnd o ho'
    · rw [e] at ho'; exact hL.olds o (getAt_join_mem _ _ _ ho')

theorem keyed_closed (E : Env) (d : Nat) (patchV : PatchFn) (createE : CreateFn)
    (hP : ∀ st q o n r, oldPlain E d o = true → compFree d n = true →
      patchV st q o n = Except.ok r → QueueOk q → QueueOk r.2.1 ∧ compFree d r.2.2 = true)
    (hC : ∀ st q n pe re r, compFree d n = true →
      createE st q n pe re false true = Except.ok r → QueueOk q →
        QueueOk r.2.1 ∧ compFree d r.2.2 = true)
    (pe : Option Nat) (canMove : Bool) (L L1 : Loop) (o : VNode)
    (h : updateChildrenKeyed E patchV createE pe canMove L o = Except.ok L1)
    (hL : LoopOk E d L) : LoopOk E d L1 := by
  unfold updateChildrenKeyed at h
  simp only [bind_eq_ok] at h
  obtain ⟨m, _, h⟩ := h
  split at h
  · exact absurd h (throw_ne_ok _ _)
  · rename_i n hn
    have hnc : compFree d n = true := hL.news n (getAt_mem _ _ _ hn)
    simp only [bind_eq_ok] at h
    obtain ⟨idx, _, h⟩ := h
    have hcreate : ∀ L2 : Loop, (do
          let r ← createE L.st L.queue n pe o.elm false true
          pure { L with
            oldKeyToIdx := some m
            newCh := setAt L.newCh L.newStartIdx r.2.2
            st := r.1
            queue := r.2.1
            trace := L.trace ++ [Action.create L.newStartIdx]
            newStartIdx := L.newStartIdx + 1 } : Res Loop) = Except.ok L2 →
        LoopOk E d L2 := by
      intro L2 h2
      simp only [bind_eq_ok, pure_eq_ok] at h2
      obtain ⟨r, hr, h2⟩ := h2
      obtain ⟨hq1, hc1⟩ := hC _ _ _ _ _ r hnc hr hL.queue
      rw [← h2]
      exact loopOk_patched E d L _ hL hq1 L.newStartIdx r.2.2 hc1 rfl rfl (Or.inl rfl)
        (Or.inl rfl)
    split at h
    · exact hcreate L1 h
    · exact absurd h (throw_ne_ok _ _)
    · rename_i i
      simp only [bind_eq_ok] at h
      obtain ⟨b, hb, h⟩ := h
      split at h
      · split at h
        · exact absurd h (throw_ne_ok _ _)
        · rename_i vm hvm
          simp only [bind_eq_ok, pure_eq_ok] at h
          obtain ⟨r, hr, st1, _, h⟩ := h
          have hvo : oldPlain E d vm = true := hL.olds vm (getAt_join_mem _ _ _ hvm)
          obtain ⟨hq1, hc1⟩ := hP _ _ _ _ r hvo hnc hr hL.queue
          rw [← h]
          refine ⟨hq1, ?_, ?_, hL.oldStart, hL.oldEnd⟩
          · intro x hx
            rcases mem_setAt _ _ _ _ hx with e | e
            · rw [e]; exact hc1
            · exact hL.news x e
          · intro x hx
            rcases mem_setAt _ _ _ _ hx with e | e
            · cases e
            · exact hL.olds x e
      · exact hcreate L1 h

theorem step_closed (E : Env) (d : Nat) (patchV : PatchFn) (createE : CreateFn)
    (hP : ∀ st q o n r, oldPlain E d o = true → compFree d n = true →
      patchV st q o n = Except.ok r → QueueOk q → QueueOk r.2.1 ∧ compFree d r.2.2 = true)
    (hC : ∀ st q n pe re r, compFree d n = true →
      createE st q n pe re false true = Except.ok r → QueueOk q →
        QueueOk r.2.1 ∧ compFree d r.2.2 = true)
    (pe : Option Nat) (canMove : Bool) (L L1 : Loop)
    (h : updateChildrenStep E patchV createE pe canMove L = Except.ok L1)
    (hL : LoopOk E d L) : LoopOk E d L1 := by
  unfold updateChildrenStep at h
  split at h
  · rw [pure_eq_ok] at h
    rw [← h]
    exact ⟨hL.queue, hL.news, hL.olds,
      fun o ho => hL.olds o (getAt_join_mem _ _ _ ho), hL.oldEnd⟩
  · rename_i os hos
    split at h
    · rw [pure_eq_ok] at h
      rw [← h]
      exact ⟨hL.queue, hL.news, hL.olds, hL.oldStart,
        fun o ho => hL.olds o (getAt_join_mem _ _ _ ho)⟩
    · rename_i oe hoe
      have hpos : oldPlain E d os = true := hL.oldStart os hos
      have hpoe : oldPlain E d oe = true := hL.oldEnd oe hoe
      simp only [bind_eq_ok] at h
      obtain ⟨b1, hb1, h⟩ := h
      split at h
      · obtain ⟨_, n, _, hn⟩ := sameVnodeAt_some E _ _ _ hb1
        simp only [bind_eq_ok, pure_eq_ok] at h
        obtain ⟨r, hr, h⟩ := h
        rw [hn] at hr
        obtain ⟨hq1, hc1⟩ := hP _ _ _ _ r hpos (hL.news n (getAt_mem _ _ _ hn)) hr hL.queue
        rw [← h]
        exact loopOk_patched E d L _ hL hq1 L.newStartIdx r.2.2 hc1 rfl rfl
          (Or.inr ⟨_, rfl⟩) (Or.inl rfl)
      · simp only [bind_eq_ok] at h
        obtain ⟨b2, hb2, h⟩ := h
        split at h
        · obtain ⟨_, n, _, hn⟩ := sameVnodeAt_some E _ _ _ hb2
          simp only [bind_eq_ok, pure_eq_ok] at h
          obtain ⟨r, hr, h⟩ := h
          rw [hn] at hr
          obtain ⟨hq1, hc1⟩ := hP _ _ _ _ r hpoe (hL.news n (getAt_mem _ _ _ hn)) hr hL.queue
          rw [← h]
          exact loopOk_patched E d L _ hL hq1 L.newEndIdx r.2.2 hc1 rfl rfl
            (Or.inl rfl) (Or.inr ⟨_, rfl⟩)
        · simp only [bind_eq_ok] at h
          obtain ⟨b3, hb3, h⟩ := h
          split at h
          · obtain ⟨_, n, _, hn⟩ := sameVnodeAt_some E _ _ _ hb3
            simp only [bind_eq_ok, pure_eq_ok] at h
            obtain ⟨r, hr, st1, _, h⟩ := h
            rw [hn] at hr
            obtain ⟨hq1, hc1⟩ := hP _ _ _ _ r hpos (hL.news n (getAt_mem _ _ _ hn)) hr
              hL.queue
            rw [← h]
            exact loopOk_patched E d L _ hL hq1 L.newEndIdx r.2.2 hc1 rfl rfl
              (Or.inr ⟨_, rfl⟩) (Or.inl rfl)
          · simp only [bind_eq_ok] at h
            obtain ⟨b4, hb4, h⟩ := h
            split at h
            · obtain ⟨_, n, _, hn⟩ := sameVnodeAt_some E _ _ _ hb4
              simp only [bind_eq_ok, pure_eq_ok] at h
              obtain ⟨r, hr, st1, _, h⟩ := h
              rw [hn] at hr
              obtain ⟨hq1, hc1⟩ := hP _ _ _ _ r hpoe (hL.news n (getAt_mem _ _ _ hn)) hr
                hL.queue
              rw [← h]
              exact loopOk_patched E d L _ hL hq1 L.newStartIdx r.2.2 hc1 rfl rfl
                (Or.inl rfl) (Or.inr ⟨_, rfl⟩)
            · exact keyed_closed E d patchV createE hP hC pe canMove L L1 os h hL
theorem loop_closed (E : Env) (d : Nat) (patchV : PatchFn) (createE : CreateFn)
    (hP : ∀ st q o n r, oldPlain E d o = true → compFree d n = true →
      patchV st q o n = Except.ok r → QueueOk q → QueueOk r.2.1 ∧ compFree d r.2.2 = true)
    (hC : ∀ st q n pe re r, compFree d n = true →
      createE st q n pe re false true = Except.ok r → QueueOk q →
        QueueOk r.2.1 ∧ compFree d r.2.2 = true)
    (pe : Option Nat) (canMove : Bool) :
    ∀ (iterations : Nat) (L L1 : Loop),
      updateChildrenLoop E patchV createE pe canMove iterations L = Except.ok L1 →
      LoopOk E d L → LoopOk E d L1 := by
  intro iterations
  induction iterations with
  | zero =>
    intro L L1 h hL
    unfold updateChildrenLoop at h
    split at h
    · exact absurd h (throw_ne_ok _ _)
    · rw [pure_eq_ok] at h
      rw [← h]
      exact hL
  | succ n ih =>
    intro L L1 h hL
    unfold updateChildrenLoop at h
    split at h
    · simp only [bind_eq_ok] at h
      obtain ⟨L2, h2, h⟩ := h
      exact ih L2 L1 h (step_closed E d patchV createE hP hC pe canMove L L2 h2 hL)
    · rw [pure_eq_ok] at h
      rw [← h]
      exact hL

theorem addVnodesLoop_closed (d : Nat) (createE : CreateFn)
    (hC : ∀ st q n pe re r, compFree d n = true →
      createE st q n pe re false true = Except.ok r → QueueOk q →
        QueueOk r.2.1 ∧ compFree d r.2.2 = true)
    (pe re : Option Nat) :
    ∀ (count : Nat) (i : Int) (st : St) (q : Queue) (vnodes : List VNode)
      (r : St × Queue × List VNode),
      addVnodesLoop createE pe re count i st q vnodes = Except.ok r → QueueOk q →
      (∀ n ∈ vnodes, compFree d n = true) →
      QueueOk r.2.1 ∧ ∀ n ∈ r.2.2, compFree d n = true := by
  intro count
  induction count with
  | zero =>
    intro i st q vnodes r h hq hv
    unfold addVnodesLoop at h
    rw [pure_eq_ok] at h
    rw [← h]
    exact ⟨hq, hv⟩
  | succ n ih =>
    intro i st q vnodes r h hq hv
    unfold addVnodesLoop at h
    split at h
    · exact absurd h (throw_ne_ok _ _)
    · rename_i v hg
      simp only [bind_eq_ok] at h
      obtain ⟨r1, h1, h⟩ := h
      obtain ⟨hq1, hc1⟩ := hC _ _ _ _ _ r1 (hv v (getAt_mem _ _ _ hg)) h1 hq
      refine ih _ _ _ _ r h hq1 (fun x hx => ?_)
      rcases mem_setAt _ _ _ _ hx with e | e
      · rw [e]; exact hc1
      · exact hv x e

theorem checkDuplicateKeys_if (E : Env) (st : St) (cs : List VNode) :
    (if E.production then st else checkDuplicateKeys st cs).dom = st.dom := by
  split
  · rfl
  · exact checkDuplicateKeys_dom _ _

theorem updateChildren_closed (E : Env) (d fuel : Nat) (patchV : PatchFn) (createE : CreateFn)
    (hP : ∀ st q o n r, oldPlain E d o = true → compFree d n = true →
      patchV st q o n = Except.ok r → QueueOk q → QueueOk r.2.1 ∧ compFree d r.2.2 = true)
    (hC : ∀ st q n pe re r, compFree d n = true →
      createE st q n pe re false true = Except.ok r → QueueOk q →
        QueueOk r.2.1 ∧ compFree d r.2.2 = true)
    (st : St) (q : Queue) (pe : Option Nat) (oldCh : List (Option VNode))
    (newCh : List VNode) (removeOnly : Bool) (L : Loop)
    (h : updateChildren E fuel patchV createE st q pe oldCh newCh removeOnly = Except.ok L)
    (hq : QueueOk q) (hn : ∀ n ∈ newCh, compFree d n = true)
    (ho : ∀ o, some o ∈ oldCh → oldPlain E d o = true) :
    QueueOk L.queue ∧ ∀ n ∈ L.newCh, compFree d n = true := by
  unfold updateChildren at h
  simp only [bind_eq_ok] at h
  obtain ⟨L1, h1, h⟩ := h
  have hL1 := loop_closed E d patchV createE hP hC pe _ _ _ L1 h1
    ⟨hq, hn, ho, fun o ho' => ho o (getAt_join_mem _ _ _ ho'),
      fun o ho' => ho o (getAt_join_mem _ _ _ ho')⟩
  split at h
  · simp only [bind_eq_ok, pure_eq_ok] at h
    obtain ⟨r, hr, h⟩ := h
    unfold addVnodes at hr
    obtain ⟨hq2, hc2⟩ := addVnodesLoop_closed d createE hC _ _ _ _ _ _ _ r hr hL1.queue
      hL1.news
    rw [← h]
    exact ⟨hq2, hc2⟩
  · split at h
    · simp only [bind_eq_ok, pure_eq_ok] at h
      obtain ⟨_, _, h⟩ := h
      rw [← h]
      exact ⟨hL1.queue, hL1.news⟩
    · rw [pure_eq_ok] at h
      rw [← h]
      exact ⟨hL1.queue, hL1.news⟩

theorem compFree_adopt (d : Nat) (a b : VNode) (h : compFree d a = true)
    (h1 : b.componentInstance = a.componentInstance) (h2 : b.data = a.data)
    (h3 : b.children = a.children) : compFree d b = true := by
  obtain ⟨d', hd⟩ := compFree_pos d a h
  subst hd
  obtain ⟨f1, f2, f3⟩ := compFree_facts d' a h
  exact compFree_intro d' b (by rw [h1, f1]) (by rw [h2]; exact f2) (by rw [h3]; exact f3)

theorem patchVnodeChildren_closed (E : Env) (d : Nat) (patchV : PatchFn)
    (createE : CreateFn)
    (hP : ∀ st q o n r, oldPlain E d o = true → compFree d n = true →
      patchV st q o n = Except.ok r → QueueOk q → QueueOk r.2.1 ∧ compFree d r.2.2 = true)
    (hC : ∀ st q n pe re r, compFree d n = true →
      createE st q n pe re false true = Except.ok r → QueueOk q →
        QueueOk r.2.1 ∧ compFree d r.2.2 = true)
    (st : St) (q : Queue) (o v : VNode) (removeOnly : Bool)
    (ho : oldPlain E (d + 1) o = true) (hv : compFree (d + 1) v = true)
    (r : St × Queue × VNode)
    (h : patchVnodeChildren E d patchV createE st q o v removeOnly = Except.ok r)
    (hq : QueueOk q) : QueueOk r.2.1 ∧ compFree (d + 1) r.2.2 = true := by
  obtain ⟨_, _, _, hokids⟩ := oldPlain_facts E d o ho
  obtain ⟨hv1, hv2, hv3⟩ := compFree_facts d v hv
  unfold patchVnodeChildren at h
  simp only at h
  split at h
  · split at h
    · rename_i oc nc hoc hnc
      split at h
      · simp only [bind_eq_ok, pure_eq_ok] at h
        obtain ⟨L, hL, h⟩ := h
        obtain ⟨hq1, hc1⟩ := updateChildren_closed E d d patchV createE hP hC _ _ _ _ _ _ L hL
          hq (by rw [hnc] at hv3; exact hv3)
          (by
            intro x hx
            obtain ⟨y, hy, e⟩ := List.mem_map.1 hx
            have e2 : y = x := Option.some.inj e
            rw [← e2]
            exact hokids y (by rw [hoc]; exact hy))
        rw [← h]
        exact ⟨hq1, compFree_intro d _ hv1 hv2 hc1⟩
      · rw [pure_eq_ok] at h
        rw [← h]
        exact ⟨hq, hv⟩
    · rename_i nc hoc hnc
      simp only [bind_eq_ok, pure_eq_ok] at h
      obtain ⟨s, _, a, ha, h⟩ := h
      unfold addVnodes at ha
      obtain ⟨hq1, hc1⟩ := addVnodesLoop_closed d createE hC _ _ _ _ _ _ _ a ha hq
        (by rw [hnc] at hv3; exact hv3)
      rw [← h]
      exact ⟨hq1, compFree_intro d _ hv1 hv2 hc1⟩
    · simp only [bind_eq_ok, pure_eq_ok] at h
      obtain ⟨_, _, h⟩ := h
      rw [← h]
      exact ⟨hq, hv⟩
    · simp only [bind_eq_ok, pure_eq_ok] at h
      obtain ⟨_, _, h⟩ := h
      rw [← h]
      exact ⟨hq, hv⟩
  · split at h
    · simp only [bind_eq_ok, pure_eq_ok] at h
      obtain ⟨_, _, h⟩ := h
      rw [← h]
      exact ⟨hq, hv⟩
    · rw [pure_eq_ok] at h
      rw [← h]
      exact ⟨hq, hv⟩

/-- On an old tree and a new tree without components, `patchVnode` queues only vnodes
with an `insert` hook, and the vnode it leaves is component-free. -/
theorem patchVnode_closed (E : Env) :
    ∀ (d : Nat) (o n : VNode), oldPlain E d o = true → compFree d n = true →
      ∀ (st : St) (q : Queue) (removeOnly : Bool) (r : St × Queue × VNode),
        patchVnode E d st q o n removeOnly = Except.ok r → QueueOk q →
          QueueOk r.2.1 ∧ compFree d r.2.2 = true := by
  intro d
  induction d with
  | zero => intro o n ho; unfold oldPlain at ho; cases ho
  | succ d ih =>
    intro o n ho hn st q removeOnly r h hq
    obtain ⟨hoa, hoci, _, _⟩ := oldPlain_facts E d o ho
    obtain ⟨hn1, hn2, hn3⟩ := compFree_facts d n hn
    unfold patchVnode at h
    split at h
    · rw [pure_eq_ok] at h
      rw [← h]
      exact ⟨hq, hn⟩
    · simp only [hoa, Bool.false_eq_true, if_false] at h
      split at h
      · rw [pure_eq_ok] at h
        rw [← h]
        exact ⟨hq, compFree_intro d _ hoci hn2 hn3⟩
      · simp only [bind_eq_ok, pure_eq_ok] at h
        obtain ⟨st2, _, r1, hr1, h⟩ := h
        obtain ⟨hq1, hc1⟩ := patchVnodeChildren_closed E d
          (fun s q o n => patchVnode E d s q o n false) (createElm E d)
          (fun st q o n r ho' hn' hr hq' => ih o n ho' hn' st q false r hr hq')
          (fun st q n pe re r hn' hr hq' => createElm_closed E d n hn' st q pe re false true r
            hr hq')
          st2 q o (adopted o n) removeOnly ho (compFree_intro d _ hn1 hn2 hn3) r1 hr1 hq
        rw [← h]
        exact ⟨hq1, hc1⟩
theorem invokeInsertHook_spec (v : VNode) (initial : Bool)
    (hp : initial = false ∨ v.parent = none) :
    ∀ (q : Queue), QueueOk q → ∀ (st : St),
      ∃ s, invokeInsertHook st v q initial = Except.ok (s, v) ∧ s.dom = st.dom ∧
        nodeOpsOf s.log = nodeOpsOf st.log := by
  have hunf : ∀ (q : Queue) (st : St), invokeInsertHook st v q initial
      = (q.foldlM
        (fun (s : St) (v : VNode) =>
          match v.data.bind (fun d => d.hook.bind (fun h => h.insert)) with
          | some _ => (pure (s.emit (Op.dataHook HookName.insert v)) : Res St)
          | none => throw Err.typeError) st).bind (fun s => Except.ok (s, v)) := by
    intro q st
    unfold invokeInsertHook
    rcases hp with h | h
    · rw [h]
      rfl
    · rw [h]
      cases initial <;> rfl
  intro q
  induction q with
  | nil =>
    intro _ st
    rw [hunf]
    exact ⟨st, rfl, rfl, rfl⟩
  | cons x xs ih =>
    intro hq st
    have hx := hq x (List.mem_cons_self _ _)
    obtain ⟨i, hi⟩ := Option.isSome_iff_exists.1 hx
    obtain ⟨s, h1, h2, h3⟩ := ih (fun y hy => hq y (List.mem_cons_of_mem _ hy))
      (st.emit (Op.dataHook HookName.insert x))
    refine ⟨s, ?_, h2, ?_⟩
    · rw [hunf] at h1 ⊢
      rw [List.foldlM_cons]
      simp only [hi, bind, Except.bind, pure, Except.pure] at h1 ⊢
      exact h1
    · rw [h3]
      exact (emit_hook_ops st (Op.dataHook HookName.insert x) rfl).1

theorem createElmText_mount (st1 : St) (q : Queue) (v : VNode) (ref : Option Nat) :
    ∃ r, createElmText st1 q v none ref = Except.ok r ∧ r.2.2.elm = some st1.dom.next ∧
      r.1.dom.next = st1.dom.next + 1 := by
  unfold createElmText insert
  simp only [bind, Except.bind, pure, Except.pure]
  cases v.isComment <;> exact ⟨_, rfl, rfl, rfl⟩

theorem createElmElement_mount (E : Env) (d : Nat) (createE : CreateFn) (st1 : St)
    (q : Queue) (v : VNode) (tag : String) (ref : Option Nat)
    (hvp : v.parent = none)
    (hall : ∀ c ∈ v.children.getD [], ∀ (x : Nat) (st : St) (q : Queue), x < st.dom.next →
      ∃ r x', createE st q c (some x) none true true = Except.ok r ∧
        Created st.dom r.1.dom x x' none) :
    ∃ r, createElmElement E d createE st1 q v tag none ref = Except.ok r ∧
      r.2.2.elm = some st1.dom.next ∧ st1.dom.next < r.1.dom.next := by
  unfold createElmElement
  simp only
  generalize hst2 : (if E.production = true then st1
    else
      if isUnknownElement E v tag
          (decide (0 < (if (v.data.map (fun d => d.pre)) = some true then
            ({ st1 with creatingElmInVPre := st1.creatingElmInVPre + 1 } : St)
            else st1).creatingElmInVPre)) = true then
        (if (v.data.map (fun d => d.pre)) = some true then
          ({ st1 with creatingElmInVPre := st1.creatingElmInVPre + 1 } : St)
          else st1).emit (Op.warn ("Unknown custom element: <" ++ tag ++ ">"))
      else
        (if (v.data.map (fun d => d.pre)) = some true then
          ({ st1 with creatingElmInVPre := st1.creatingElmInVPre + 1 } : St)
          else st1)) = st2
  have hd2 : st2.dom = st1.dom := by
    rw [← hst2]
    split
    · rfl
    · split
      · split <;> rfl
      · split <;> rfl
  generalize hn : (match v.ns with
    | some ns => if ns ≠ "" then nodeOps.createElementNS st2 ns tag
      else nodeOps.createElement st2 tag
    | none => nodeOps.createElement st2 tag) = n
  have hfacts : n.2 = st1.dom.next ∧ n.1.dom.next = st1.dom.next + 1 := by
    rw [← hn, ← hd2]
    split
    · split <;> exact ⟨rfl, rfl⟩
    · exact ⟨rfl, rfl⟩
  obtain ⟨h1, h2⟩ := hfacts
  obtain ⟨st3, hs3, ht3⟩ := setScope_spec E d n.1 { v with elm := some n.2 } n.2 rfl hvp
  rw [hs3]
  simp only [bind, Except.bind]
  have hx3 : n.2 < st3.dom.next := by rw [ht3.1, h2, h1]; omega
  have hkids : ∀ (s : St) (q' : Queue), n.2 < s.dom.next →
      ∃ r, createChildren E createE s q' { v with elm := some n.2 } = Except.ok r ∧
        r.2.2.elm = some n.2 ∧ r.2.2.data = v.data ∧ Frame s.dom r.1.dom [n.2] [] [] :=
    fun s q' hs => createChildren_spec E createE s q' { v with elm := some n.2 } n.2 rfl hs
      (fun c hc st q hx => hall c hc n.2 st q hx)
  have hweb : ∃ r, (do
          let ch ← createChildren E createE st3 q { v with elm := some n.2 }
          let h ← (if ch.2.2.data.isSome then invokeCreateHooks E ch.1 ch.2.1 ch.2.2
            else pure (ch.1, ch.2.1))
          let s ← insert h.1 none ch.2.2.elm ref
          pure (s, h.2, ch.2.2) : Res (St × Queue × VNode)) = Except.ok r ∧
        r.2.2.elm = some n.2 ∧ n.2 < r.1.dom.next := by
    obtain ⟨ch, hch, he, _, hf⟩ := hkids st3 q hx3
    obtain ⟨h, hh, hhd⟩ := hooks_if_spec E ch.1 ch.2.1 ch.2.2
    simp only [bind, Except.bind, pure, Except.pure] at hch hh ⊢
    simp only [hch, hh, insert, pure, Except.pure]
    refine ⟨_, rfl, he, ?_⟩
    show n.2 < h.1.dom.next
    rw [hhd]
    exact Nat.lt_of_lt_of_le hx3 hf.next_le
  have hweex : ∃ r, (do
          let a ← (do
            let h ← (if ({ v with elm := some n.2 } : VNode).data.isSome then
              invokeCreateHooks E st3 q { v with elm := some n.2 } else pure (st3, q))
            let s ← insert h.1 none ({ v with elm := some n.2 } : VNode).elm ref
            pure (s, h.2) : Res (St × Queue))
          let ch ← createChildren E createE a.1 a.2 { v with elm := some n.2 }
          pure ch : Res (St × Queue × VNode)) = Except.ok r ∧
        r.2.2.elm = some n.2 ∧ n.2 < r.1.dom.next := by
    obtain ⟨h, hh, hhd⟩ := hooks_if_spec E st3 q { v with elm := some n.2 }
    obtain ⟨ch, hch, he, _, hf⟩ := hkids h.1 h.2 (by rw [hhd]; exact hx3)
    simp only [bind, Except.bind, pure, Except.pure] at hch hh ⊢
    simp only [hh, insert, pure, Except.pure, hch]
    refine ⟨_, rfl, he, ?_⟩
    have := hf.next_le
    rw [hhd] at this
    omega
  simp only [bind, Except.bind, pure, Except.pure] at hweb hweex ⊢
  obtain ⟨rb, hrb, heb, hcb⟩ := hweb
  obtain ⟨rx, hrx, hex, hcx⟩ := hweex
  rw [h1] at heb hex hcb hcx
  cases hw : E.weex with
  | true =>
    simp only [if_true]
    by_cases ha : (v.data.map (fun d => d.appendAsTree)) = some true
    · simp only [ha, if_true]
      rw [hrb]
      refine ⟨_, rfl, heb, ?_⟩
      simp only
      split <;> exact hcb
    · simp only [ha, if_false]
      rw [hrx]
      refine ⟨_, rfl, hex, ?_⟩
      simp only
      split <;> exact hcx
  | false =>
    simp only [Bool.false_eq_true, if_false]
    rw [hrb]
    refine ⟨_, rfl, heb, ?_⟩
    simp only
    split <;> exact hcb

/-- On a new vnode tree without components `createElm` without a parent returns: the vnode
gets a new backend node. -/
theorem createElm_mount (E : Env) (d : Nat) (n : VNode) (hn : newPlain d n = true)
    (st : St) (q : Queue) (ref : Option Nat) (nested owned : Bool) :
    ∃ r, createElm E d st q n none ref nested owned = Except.ok r ∧
      r.2.2.elm = some st.dom.next ∧ st.dom.next < r.1.dom.next := by
  obtain ⟨d', hd'⟩ : ∃ d', d = d' + 1 := by
    cases d with
    | zero => unfold newPlain at hn; cases hn
    | succ d' => exact ⟨d', rfl⟩
  subst hd'
  obtain ⟨_, hci, hpn, hinit, _, hkids⟩ := newPlain_facts d' n hn
  unfold createElm
  simp only
  generalize hst0 : (if (n.elm.isSome && owned) = true then
    ({ st with nextOid := st.nextOid + 1 } : St) else st) = st0
  have hd0 : st0.dom = st.dom := by
    rw [← hst0]
    split <;> rfl
  generalize hv1 : ({ (if (n.elm.isSome && owned) = true then cloneVNode st.nextOid n
    else n) with isRootInsert := !nested } : VNode) = v1
  have hv1f : v1.componentInstance = none ∧ v1.parent = none ∧
      (v1.data.bind (fun x => x.hook)).bind (fun h => h.init) = none ∧
      v1.children = n.children := by
    rw [← hv1]
    split
    · exact ⟨rfl, rfl, hinit, rfl⟩
    · exact ⟨hci, hpn, hinit, rfl⟩
  obtain ⟨hci1, hp1, hinit1, hch1⟩ := hv1f
  rw [createComponent_plain E (d' + 1) st0 q v1 none ref hci1 hinit1]
  simp only [bind, Except.bind, Bool.false_eq_true, if_false]
  cases htag : v1.tag with
  | none =>
    simp only
    obtain ⟨r, h1, h2, h3⟩ := createElmText_mount st0 q v1 ref
    rw [hd0] at h2 h3
    exact ⟨r, h1, h2, by omega⟩
  | some tag =>
    simp only
    obtain ⟨r, h1, h2, h3⟩ := createElmElement_mount E d' (createElm E d') st0 q v1 tag ref
      hp1
      (fun c hc x s q' hx => by
        obtain ⟨r, x', e1, _, e3⟩ := createElm_spec E d' c
          (hkids c (by rw [← hch1]; exact hc)) s q' x none true true hx (Or.inl rfl)
        exact ⟨r, x', e1, e3⟩)
    rw [hd0] at h2 h3
    exact ⟨r, h1, h2, h3⟩
/-! ## The replace path of `patch` -/

theorem kept_newPlain_parent (d : Nat) (n : VNode) (owned : Bool) (st : St)
    (hn : newPlain d n = true) :
    (if n.elm.isSome && owned then cloneVNode st.nextOid n else n).parent = none := by
  obtain ⟨d', hd'⟩ : ∃ d', d = d' + 1 := by
    cases d with
    | zero => unfold newPlain at hn; cases hn
    | succ d' => exact ⟨d', rfl⟩
  subst hd'
  obtain ⟨_, _, hpn, _⟩ := newPlain_facts d' n hn
  split
  · rfl
  · exact hpn

/-- The replace path of `patch`, on a rendered old vnode attached under a parent and a
component-free new tree that is not `sameVnode` to it: the new node is created and
inserted after the old one, then the old node is removed. -/
theorem replace_spec (E : Env) (d : Nat) (st : St) (o new : VNode) (p e : Nat)
    (F B : List Nat) (hydrating removeOnly : Bool)
    (hsame : sameVnode E.isTextInputType o new = some false)
    (hoid : o.oid ≠ new.oid) (hnew : newPlain d new = true)
    (helm : o.elm = some e) (hren : rendered d st.dom o = true)
    (hci : o.componentInstance = none) (hsync : syncRemove E o = true)
    (hleave : st.dom.leaveCb e = false)
    (hpar : st.dom.parent e = some p) (hp : p < st.dom.next)
    (hch : st.dom.children p = F ++ e :: B) (hnd : (F ++ e :: B).Nodup)
    (hkids : ∀ y ∈ F ++ e :: B, st.dom.parent y = some p ∧ y < st.dom.next) :
    ∃ c s2 r v x,
      createElm E d st [] new (some p) B.head? false false = Except.ok c ∧
      c.2.2.elm = some x ∧ st.dom.next ≤ x ∧
      c.1.dom.children p = F ++ e :: x :: B ∧
      removeVnodes E d c.1 [some o] 0 0 = Except.ok s2 ∧
      patch E d st (some (OldNode.vnode o)) (some new) hydrating removeOnly = Except.ok r ∧
      r.1.dom = s2.dom ∧ r.2.1 = some v ∧ v.elm = some x ∧ r.2.2 = some x ∧
      r.1.dom.children p = F ++ x :: B ∧ r.1.dom.parent x = some p ∧
      r.1.dom.parent e = none := by
  have heF : e ∉ F := fun h => (List.nodup_append.1 hnd).2.2 h (by simp)
  have hnext : nodeOps.nextSibling st e = B.head? := by
    unfold nodeOps.nextSibling
    rw [hpar]
    simp only [hch]
    exact nextIn_boundary e F B heF
  have href : B.head? = none ∨ ∃ r, B.head? = some r ∧ st.dom.parent r = some p ∧
      r ∈ st.dom.children p ∧ r < st.dom.next := by
    cases hB : B with
    | nil => exact Or.inl rfl
    | cons b B' =>
      refine Or.inr ⟨b, rfl, ?_, ?_, ?_⟩
      · exact (hkids b (by rw [hB]; simp)).1
      · rw [hch, hB]; simp
      · exact (hkids b (by rw [hB]; simp)).2
  obtain ⟨c, x, hc, hx, hcr⟩ := createElm_spec E d new hnew st [] p B.head? false false hp href
  have hk := createElm_kept E d st [] new (some p) B.head? false false c hc
  have hcp : c.2.2.parent = none := by
    rw [hk.2.2.2.2.2]
    exact kept_newPlain_parent d new false st hnew
  obtain ⟨hq, _⟩ := createElm_closed E d new (compFree_of_newPlain d new hnew) st []
    (some p) B.head? false false c hc queueOk_nil
  have hxe : x ≠ e := by
    have := (hkids e (by simp)).2
    have := hcr.fresh
    omega
  have hxF : x ∉ F ++ e :: B := by
    intro hm
    have := (hkids x hm).2
    have := hcr.fresh
    omega
  have hch1 : c.1.dom.children p = F ++ e :: x :: B := by
    rw [hcr.children_par, hch,
      show F ++ e :: B = (F ++ [e]) ++ B by simp,
      insertAt_boundary x (F ++ [e]) B (by
        intro r hr hm
        have hrB : r ∈ B := List.mem_of_mem_head? hr
        have hnd2 : ((F ++ [e]) ++ B).Nodup := by simpa using hnd
        exact (List.nodup_append.1 hnd2).2.2 hm hrB)]
    simp
  have hpe1 : c.1.dom.parent e = some p := by
    rw [hcr.frame.parent_eq e (hkids e (by simp)).2 (by simp) (by simp)]
    exact hpar
  obtain ⟨s2, hs2, hn2, hc2, hp2⟩ := removeOne_spec E d st.dom c.1 o e p hren helm hci hsync
    hpe1 (by rw [hch1]; simp)
  have hrem : removeVnodes E d c.1 [some o] 0 0 = Except.ok s2 := by
    unfold removeVnodes
    show removeVnodesLoop E d [some o] 1 0 c.1 = _
    unfold removeVnodesLoop
    simp only [bind, Except.bind, pure, Except.pure] at hs2 ⊢
    have hg : (getAt [some o] 0).join = some o := rfl
    rw [hg]
    simp only
    rw [hs2]
    simp only
    unfold removeVnodesLoop
    rfl
  obtain ⟨s3, hs3, hd3, _⟩ := invokeInsertHook_spec ({ c.2.2 with parent := none }) false (Or.inl rfl)
    c.2.1 hq s2
  have hfin := erase_boundary e F (x :: B) heF
  refine ⟨c, s2, (s3, some { c.2.2 with parent := none }, some x), _, x, hc, hx, hcr.fresh,
    hch1, hrem, ?_, hd3, rfl, hx, rfl, ?_, ?_, ?_⟩
  · unfold patch
    simp only [sameVnodeAt, hsame, helm, nodeOps.parentNode, hpar, hleave, hnext, bind,
      Except.bind, pure, Except.pure, Bool.false_eq_true, if_false]
    rw [hc]
    simp only [hcp, if_neg hoid]
    rw [hrem]
    simp only
    rw [hs3]
    simp only [hx]
  · show s3.dom.children p = _
    rw [hd3, hc2, Function.update_same, hch1]
    exact hfin
  · show s3.dom.parent x = _
    rw [hd3, hp2, Function.update_noteq hxe]
    exact hcr.parent_x
  · show s3.dom.parent e = _
    rw [hd3, hp2, Function.update_same]

/-- C28 (as amended): `patch(old, new)` on an old vnode rendered (at every depth) as the
node `e`, a child of the parent `p` between the nodes `F` and `B` (the children of `p`
pairwise distinct nodes that exist, each with `p` as its parent), not in a leaving
transition (no `_leaveCb` on `e`), without component instance, with no `remove` hook of a
module or of its own data that keeps its callback for later, and a new tree that is not
`sameVnode` to it, holds no async placeholder, no component instance, no placeholder
parent and no `init` hook, passes `checkDuplicateKeys` on every child list, and is made
of pairwise distinct vnode objects none of which is a vnode of the old tree (`apart`).
The call returns; `createElm` runs on the tree as given and inserts the new node `x`
before the next sibling of `e`, so that the children of `p` are `F, e, x, B`; the removal
of `e` runs on that tree; at the end the children of `p` are `F, x, B`, `x` is the `elm`
of the new vnode and the value returned, and `e` has no parent. -/
theorem patch_replace (E : Env) (d : Nat) (st : St) (o new : VNode) (p e : Nat)
    (F B : List Nat) (hydrating removeOnly : Bool)
    (hsame : sameVnode E.isTextInputType o new = some false)
    (hapart : apart d [o] [new] = true) (hnew : newPlain d new = true)
    (helm : o.elm = some e) (hren : rendered d st.dom o = true)
    (hci : o.componentInstance = none) (hsync : syncRemove E o = true)
    (hleave : st.dom.leaveCb e = false)
    (hpar : st.dom.parent e = some p) (hp : p < st.dom.next)
    (hch : st.dom.children p = F ++ e :: B) (hnd : (F ++ e :: B).Nodup)
    (hkids : ∀ y ∈ F ++ e :: B, st.dom.parent y = some p ∧ y < st.dom.next) :
    ∃ c s2 r v x,
      createElm E d st [] new (some p) B.head? false false = Except.ok c ∧
      c.2.2.elm = some x ∧ st.dom.next ≤ x ∧
      c.1.dom.children p = F ++ e :: x :: B ∧
      removeVnodes E d c.1 [some o] 0 0 = Except.ok s2 ∧
      patch E d st (some (OldNode.vnode o)) (some new) hydrating removeOnly = Except.ok r ∧
      r.1.dom = s2.dom ∧ r.2.1 = some v ∧ v.elm = some x ∧ r.2.2 = some x ∧
      r.1.dom.children p = F ++ x :: B ∧ r.1.dom.parent x = some p ∧
      r.1.dom.parent e = none :=
  replace_spec E d st o new p e F B hydrating removeOnly hsame (apart_top d o new hapart)
    hnew helm hren hci hsync hleave hpar hp hch hnd hkids

theorem patch_replace_witness :
    ∃ c s2 r v x,
      createElm (exEnv true) 1 (exSt exLooseDom) [] exParNew (some 0) ([] : List Nat).head?
        false false = Except.ok c ∧
      c.2.2.elm = some x ∧ (exSt exLooseDom).dom.next ≤ x ∧
      c.1.dom.children 0 = [] ++ 1 :: x :: [] ∧
      removeVnodes (exEnv true) 1 c.1 [some exLiOld] 0 0 = Except.ok s2 ∧
      patch (exEnv true) 1 (exSt exLooseDom) (some (OldNode.vnode exLiOld)) (some exParNew)
        false false = Except.ok r ∧
      r.1.dom = s2.dom ∧ r.2.1 = some v ∧ v.elm = some x ∧ r.2.2 = some x ∧
      r.1.dom.children 0 = [] ++ x :: [] ∧ r.1.dom.parent x = some 0 ∧
      r.1.dom.parent 1 = none :=
  patch_replace (exEnv true) 1 (exSt exLooseDom) exLiOld exParNew 0 1 [] [] false false
    (by decide) (by decide) (by decide) rfl (by decide) rfl (by decide) rfl rfl (by decide)
    rfl (by decide) (by decide)

/-- While the old node is in a leaving transition the new node is created but inserted
nowhere: the old node is removed and the parent is left without children. -/
theorem patch_replace_counterexample :
    exLiOld.elm = some 1 ∧ exLeavingDom.parent 1 = some 0 ∧
      exLeavingDom.children 0 = [1] ∧
      sameVnode (exEnv true).isTextInputType exLiOld exParNew = some false ∧
      (patch (exEnv true) 1 (exSt exLeavingDom) (some (OldNode.vnode exLiOld))
          (some exParNew) false false).toOption.map
        (fun r => (r.1.dom.children 0, r.2.2, r.2.2.bind r.1.dom.parent))
        = some ([], some 4, none) := by
  refine ⟨rfl, rfl, rfl, by decide, ?_⟩
  decide
/-! ## Hydration of a matching tree -/

theorem invokeCreateHooks_ops (E : Env) (st : St) (q : Queue) (v : VNode)
    (hd : v.data.isSome = true) :
    ∃ r, invokeCreateHooks E st q v = Except.ok r ∧ r.1.dom = st.dom ∧
      nodeOpsOf r.1.log = nodeOpsOf st.log ∧ (QueueOk q → QueueOk r.2) := by
  obtain ⟨r, hr, hdom⟩ := invokeCreateHooks_spec E st q v hd
  refine ⟨r, hr, hdom, ?_, invokeCreateHooks_queue E st q v r hr⟩
  unfold invokeCreateHooks at hr
  simp only at hr
  split at hr
  · exact absurd hr (throw_ne_ok _ _)
  · split at hr
    · rw [pure_eq_ok] at hr
      rw [← hr]
      exact (emitModuleHooks_ops _ _ _ _).1
    · rw [pure_eq_ok] at hr
      rw [← hr]
      simp only
      split
      · rw [(emit_hook_ops _ (Op.dataHook HookName.create v) rfl).1]
        exact (emitModuleHooks_ops _ _ _ _).1
      · exact (emitModuleHooks_ops _ _ _ _).1

theorem forall₂_of_zip {α β : Type} (R : α → β → Prop) (xs : List α) (ys : List β)
    (hl : xs.length = ys.length) (h : ∀ p ∈ List.zip xs ys, R p.1 p.2) :
    List.Forall₂ R xs ys :=
  List.forall₂_iff_zip.2 ⟨hl, fun hab => h _ hab⟩

theorem zip_of_forall₂ {α β : Type} (R : α → β → Prop) (xs : List α) (ys : List β)
    (h : List.Forall₂ R xs ys) : xs.length = ys.length ∧ ∀ p ∈ List.zip xs ys, R p.1 p.2 :=
  ⟨h.length_eq, fun _ hp => (List.forall₂_iff_zip.1 h).2 hp⟩

theorem matchesTree_elem (d : Nat) (dom : Dom) (e : Nat) (v : VNode) (tag : String)
    (h : matchesTree (d + 1) dom e v = true) (ht : v.tag = some tag) :
    (∀ st : St, st.dom = dom →
      (nodeOps.tagName st e).map String.toLower = some tag.toLower) ∧
    (dom.children e).Nodup ∧ (∀ x ∈ dom.children e, dom.parent x = some e) ∧
    List.Forall₂ (fun x c => matchesTree d dom x c = true) (dom.children e)
      (v.children.getD []) := by
  unfold matchesTree at h
  rw [ht] at h
  simp only [Bool.and_eq_true, decide_eq_true_eq, List.all_eq_true] at h
  obtain ⟨⟨⟨⟨h1, h2⟩, h3⟩, h4⟩, h5⟩ := h
  refine ⟨?_, h3, h4, forall₂_of_zip _ _ _ h2 h5⟩
  intro st hst
  unfold nodeOps.tagName
  rw [hst]
  exact h1

theorem matchesTree_text (d : Nat) (dom : Dom) (e : Nat) (v : VNode)
    (h : matchesTree (d + 1) dom e v = true) (ht : v.tag = none) :
    dom.kind e = (if v.isComment then NodeKind.comment else NodeKind.text) ∧
      some (dom.text e) = v.text := by
  unfold matchesTree at h
  rw [ht] at h
  simp only [Bool.and_eq_true, decide_eq_true_eq] at h
  exact h

theorem hydratable_facts (E : Env) (d : Nat) (inVPre0 : Bool) (v : VNode)
    (h : hydratable E (d + 1) inVPre0 v = true) :
    v.componentInstance = none ∧
      (v.data.bind (fun x => x.hook)).bind (fun h => h.init) = none ∧
      (v.isComment && v.asyncFactory.isSome) = false ∧
      (∀ tag, v.tag = some tag → E.production = true ∨ "vue-component".isPrefixOf tag = true ∨
        isUnknownElement E v tag (inVPre0 || ((v.data.map (fun d => d.pre)) = some true))
          = false) ∧
      v.data.bind (fun d => d.domProps.bind (fun p => p.innerHTML)) = none ∧
      ∀ c ∈ v.children.getD [],
        hydratable E d (inVPre0 || ((v.data.map (fun d => d.pre)) = some true)) c = true := by
  unfold hydratable at h
  simp only [Bool.and_eq_true, Option.isNone_iff_eq_none, List.all_eq_true,
    Bool.not_eq_true'] at h
  obtain ⟨⟨⟨⟨⟨h1, h2⟩, h3⟩, h4⟩, h5⟩, h6⟩ := h
  refine ⟨h1, h2, h3, ?_, h5, h6⟩
  intro tag ht
  rw [ht] at h4
  simp only [Bool.or_eq_true, Bool.not_eq_true'] at h4
  rcases h4 with (h | h) | h
  · exact Or.inl h
  · exact Or.inr (Or.inl h)
  · exact Or.inr (Or.inr h)

theorem hydrateChildren_spec (hyd : HydrateFn) (inVPre : Bool) (dom : Dom) (e : Nat)
    (P : Nat → VNode → Prop) (R : Nat → VNode → Prop)
    (hhyd : ∀ x c, P x c → ∀ (st : St) (q : Queue), st.dom = dom →
      ∃ r, hyd st q (some x) c inVPre = Except.ok r ∧ r.2.2.2 = true ∧ r.1.dom = st.dom ∧
        nodeOpsOf r.1.log = nodeOpsOf st.log ∧ (QueueOk q → QueueOk r.2.1) ∧ R x r.2.2.1) :
    ∀ (xs : List Nat) (cs : List VNode) (pre : List Nat),
      dom.children e = pre ++ xs → (pre ++ xs).Nodup → (∀ x ∈ xs, dom.parent x = some e) →
      List.Forall₂ P xs cs →
      ∀ (st : St) (q : Queue), st.dom = dom →
        ∃ r, hydrateChildren hyd inVPre st q xs.head? cs = Except.ok r ∧
          r.2.2.2.1 = true ∧ r.2.2.2.2 = none ∧ r.1.dom = st.dom ∧
          nodeOpsOf r.1.log = nodeOpsOf st.log ∧ (QueueOk q → QueueOk r.2.1) ∧
          List.Forall₂ R xs r.2.2.1 := by
  intro xs
  induction xs with
  | nil =>
    intro cs pre _ _ _ hf st q _
    cases hf
    exact ⟨(st, q, [], true, none), rfl, rfl, rfl, rfl, rfl, fun hq => hq, List.Forall₂.nil⟩
  | cons x xs ih =>
    intro cs pre hch hnd hpar hf st q hst
    cases hf with
    | cons hxc hrest =>
      rename_i c cs'
      obtain ⟨r1, h1, ht1, hd1, hl1, hq1, hR1⟩ := hhyd x c hxc st q hst
      have hxpre : x ∉ pre := fun h => (List.nodup_append.1 hnd).2.2 h (by simp)
      have hnext : nodeOps.nextSibling r1.1 x = xs.head? := by
        unfold nodeOps.nextSibling
        rw [hd1, hst, hpar x (List.mem_cons_self _ _)]
        simp only [hch]
        exact nextIn_boundary x pre xs hxpre
      obtain ⟨r2, h2, ht2, hn2, hd2, hl2, hq2, hR2⟩ := ih cs' (pre ++ [x])
        (by rw [hch]; simp) (by simpa using hnd)
        (fun y hy => hpar y (List.mem_cons_of_mem _ hy)) hrest r1.1 r1.2.1
        (by rw [hd1, hst])
      refine ⟨(r2.1, r2.2.1, r1.2.2.1 :: r2.2.2.1, r2.2.2.2.1, r2.2.2.2.2), ?_, ht2, hn2,
        by rw [hd2, hd1], by rw [hl2, hl1], fun hq => hq2 (hq1 hq),
        List.Forall₂.cons hR1 hR2⟩
      unfold hydrateChildren
      simp only [List.head?_cons, h1, ht1, hnext, h2, bind, Except.bind, pure, Except.pure,
        if_true]
theorem nodeMatch_ok (E : Env) (d : Nat) (st : St) (e : Nat) (v v1 : VNode) (inV : Bool)
    (hm : matchesTree (d + 1) st.dom e v = true)
    (h1 : v1.tag = v.tag) (h2 : v1.ns = v.ns) (h3 : v1.isComment = v.isComment)
    (hknown : ∀ tag, v.tag = some tag → E.production = true ∨
      "vue-component".isPrefixOf tag = true ∨ isUnknownElement E v tag inV = false) :
    (if E.production = true then (pure true : Res Bool)
      else assertNodeMatch E st (some e) v1 inV) = Except.ok true := by
  by_cases hp : E.production = true
  · rw [if_pos hp]; rfl
  · rw [if_neg hp]
    unfold assertNodeMatch
    rw [h1]
    cases ht : v.tag with
    | some tag =>
      simp only
      by_cases hpre : "vue-component".isPrefixOf tag = true
      · rw [if_pos hpre]; rfl
      · rw [if_neg hpre]
        have hu : isUnknownElement E v1 tag inV = false := by
          have : isUnknownElement E v1 tag inV = isUnknownElement E v tag inV := by
            unfold isUnknownElement
            rw [h2]
          rw [this]
          rcases hknown tag ht with h | h | h
          · exact absurd h hp
          · exact absurd h hpre
          · exact h
        rw [hu]
        simp only [Bool.false_eq_true, if_false]
        have := (matchesTree_elem d st.dom e v tag hm ht).1 st rfl
        simp only [this, pure, Except.pure, decide_True]
    | none =>
      simp only
      have := (matchesTree_text d st.dom e v hm ht).1
      rw [h3]
      simp only [this, pure, Except.pure, decide_True]

theorem hydrate_hooks (E : Env) (s : St) (q : Queue) (w : VNode) :
    ∃ r, (match w.data with
        | none => (pure (s, q, w, true) : Res (St × Queue × VNode × Bool))
        | some data =>
          if (dataKeys data).any (fun k => !isRenderedModule k) then do
            let h ← invokeCreateHooks E s q w
            pure (h.1, h.2, w, true)
          else if data.class_ then pure (s.emit (Op.traverse w), q, w, true)
          else pure (s, q, w, true)) = Except.ok r ∧
      r.2.2.2 = true ∧ r.1.dom = s.dom ∧ nodeOpsOf r.1.log = nodeOpsOf s.log ∧
      (QueueOk q → QueueOk r.2.1) ∧ r.2.2.1 = w := by
  cases hd : w.data with
  | none => exact ⟨_, rfl, rfl, rfl, rfl, fun hq => hq, rfl⟩
  | some data =>
    simp only
    split
    · obtain ⟨h, hh, h1, h2, h3⟩ := invokeCreateHooks_ops E s q w (by rw [hd]; rfl)
      rw [hh]
      exact ⟨_, rfl, rfl, h1, h2, h3, rfl⟩
    · split
      · exact ⟨_, rfl, rfl, rfl, (emit_hook_ops s (Op.traverse w) rfl).1, fun hq => hq, rfl⟩
      · exact ⟨_, rfl, rfl, rfl, rfl, fun hq => hq, rfl⟩

theorem forall₂_and_right {α β : Type} (R : α → β → Prop) (Q : β → Prop) :
    ∀ (xs : List α) (ys : List β), List.Forall₂ R xs ys → (∀ y ∈ ys, Q y) →
      List.Forall₂ (fun x y => R x y ∧ Q y) xs ys := by
  intro xs ys h
  induction h with
  | nil => intro _; exact List.Forall₂.nil
  | cons hab _ ih =>
    intro hq
    exact List.Forall₂.cons ⟨hab, hq _ (List.mem_cons_self _ _)⟩
      (ih (fun y hy => hq y (List.mem_cons_of_mem _ hy)))

theorem boundTo_intro (d : Nat) (dom : Dom) (e : Nat) (w : VNode) (he : w.elm = some e)
    (hc : ∀ tag cs, w.tag = some tag → w.children = some cs →
      List.Forall₂ (fun x c => boundTo d dom x c = true) (dom.children e) cs) :
    boundTo (d + 1) dom e w = true := by
  unfold boundTo
  simp only [he, decide_True, Bool.true_and]
  split
  · rename_i tag cs ht hcs
    obtain ⟨h1, h2⟩ := zip_of_forall₂ _ _ _ (hc tag cs ht hcs)
    simp only [Bool.and_eq_true, decide_eq_true_eq, List.all_eq_true]
    exact ⟨h1, h2⟩
  · rfl

theorem hydrate_step (E : Env) (cE : Nat → CreateFn) (d : Nat)
    (ih : ∀ (dom : Dom) (e : Nat) (v : VNode) (inVPre0 : Bool),
      matchesTree d dom e v = true → hydratable E d inVPre0 v = true →
      ∀ (st : St) (q : Queue), st.dom = dom →
        ∃ r, hydrate E cE d st q (some e) v inVPre0 = Except.ok r ∧ r.2.2.2 = true ∧
          r.1.dom = st.dom ∧ nodeOpsOf r.1.log = nodeOpsOf st.log ∧
          (QueueOk q → QueueOk r.2.1) ∧
          boundTo d dom e r.2.2.1 = true ∧ r.2.2.1.parent = v.parent)
    (dom : Dom) (e : Nat) (v : VNode) (inVPre0 : Bool)
    (hm : matchesTree (d + 1) dom e v = true) (hh : hydratable E (d + 1) inVPre0 v = true)
    (st : St) (q : Queue) (hst : st.dom = dom) :
        ∃ r, hydrate E cE (d + 1) st q (some e) v inVPre0 = Except.ok r ∧ r.2.2.2 = true ∧
          r.1.dom = st.dom ∧ nodeOpsOf r.1.log = nodeOpsOf st.log ∧
          (QueueOk q → QueueOk r.2.1) ∧
          boundTo (d + 1) dom e r.2.2.1 = true ∧ r.2.2.1.parent = v.parent := by
  obtain ⟨hci, hinit, hasync, hknown, hinner, hkids⟩ := hydratable_facts E d inVPre0 v hh
  subst hst
  unfold hydrate
  simp only
  generalize hv1 : ({ v with elm := some e } : VNode) = v1
  have hf : v1.tag = v.tag ∧ v1.ns = v.ns ∧ v1.isComment = v.isComment ∧
      v1.asyncFactory = v.asyncFactory ∧ v1.data = v.data ∧
      v1.componentInstance = v.componentInstance ∧ v1.children = v.children ∧
      v1.text = v.text ∧ v1.elm = some e ∧ v1.parent = v.parent := by
    rw [← hv1]
    exact ⟨rfl, rfl, rfl, rfl, rfl, rfl, rfl, rfl, rfl, rfl⟩
  obtain ⟨f1, f2, f3, f4, f5, f6, f7, f8, f9, f10⟩ := hf
  have hnm := nodeMatch_ok E d st e v v1
    (inVPre0 || ((v.data.map (fun d => d.pre)) = some true)) hm f1 f2 f3 hknown
  have hinit' : v1.data.bind (fun d => d.hook.bind (fun h => h.init)) = none := by
    rw [f5]
    cases hd : v.data with
    | none => rfl
    | some data =>
      rw [hd] at hinit
      exact hinit
  have hasync' : (v1.isComment && v1.asyncFactory.isSome) = false := by
    rw [f3, f4]; exact hasync
  have hci' : v1.componentInstance = none := by rw [f6]; exact hci
  have hinitv : v.data.bind (fun d => d.hook.bind (fun h => h.init)) = none := by
    rw [← f5]; exact hinit'
  simp only [hasync, hasync', Bool.false_eq_true, if_false, hnm, bind, Except.bind,
    Bool.not_true, hinit', hinitv, hci', Option.isSome_none, Bool.and_false]
  cases htag : v1.tag with
  | none =>
    simp only
    have ht := (matchesTree_text d st.dom e v hm (by rw [← f1]; exact htag)).2
    rw [← f8] at ht
    simp only [ht, ne_eq, not_true_eq_false, if_false, pure, Except.pure]
    refine ⟨_, rfl, rfl, rfl, rfl, fun hq => hq, ?_, f10⟩
    exact boundTo_intro d st.dom e v1 f9 (fun tag cs h _ => by rw [htag] at h; cases h)
  | some tag =>
    simp only
    obtain ⟨_, hnd, hpar, hfor⟩ := matchesTree_elem d st.dom e v tag hm (by rw [← f1]; exact htag)
    cases hch : v1.children with
    | none =>
      simp only [pure, Except.pure, Bool.not_true, Bool.false_eq_true, if_false]
      obtain ⟨r, hr, h1, h2, h3, h4, h5⟩ := hydrate_hooks E st q v1
      simp only [bind, Except.bind, pure, Except.pure] at hr
      refine ⟨r, hr, h1, h2, h3, h4, ?_, by rw [h5]; exact f10⟩
      rw [h5]
      exact boundTo_intro d st.dom e v1 f9 (fun tag cs _ h => by rw [hch] at h; cases h)
    | some cs =>
      have hcs : v.children.getD [] = cs := by rw [← f7, hch]; rfl
      rw [hcs] at hfor hkids
      simp only
      by_cases hempty : st.dom.children e = []
      · rw [if_pos hempty]
        rw [hempty] at hfor
        cases hfor
        have hcc : createChildren E (cE d) st q v1
            = Except.ok (if E.production then st else checkDuplicateKeys st [], q,
                { v1 with children := some [] }) := by
          unfold createChildren
          rw [hch]
          rfl
        have hst1 : (if E.production then st else checkDuplicateKeys st []) = st := by
          split <;> rfl
        rw [hcc, hst1]
        simp only [pure, Except.pure, Bool.not_true, Bool.false_eq_true, if_false]
        obtain ⟨r, hr, h1, h2, h3, h4, h5⟩ := hydrate_hooks E st q
          { v1 with children := some [] }
        simp only [bind, Except.bind, pure, Except.pure] at hr
        refine ⟨r, hr, h1, h2, h3, h4, ?_, by rw [h5]; exact f10⟩
        rw [h5]
        refine boundTo_intro d st.dom e _ f9 (fun tag cs' _ hc' => ?_)
        have : cs' = [] := (Option.some.inj hc').symm
        rw [this, hempty]
        exact List.Forall₂.nil
      · rw [if_neg hempty]
        have hin : v1.data.bind (fun a => a.domProps.bind (fun p => p.innerHTML)) = none := by
          rw [f5]; exact hinner
        simp only [hin]
        obtain ⟨h, hh, hm1, hm2, hd1, hl1, hq1, hb1⟩ := hydrateChildren_spec
          (hydrate E cE d) (inVPre0 || ((v.data.map (fun d => d.pre)) = some true)) st.dom e
          (fun x c => matchesTree d st.dom x c = true ∧
            hydratable E d (inVPre0 || ((v.data.map (fun d => d.pre)) = some true)) c = true)
          (fun x c => boundTo d st.dom x c = true)
          (fun x c hp s q' hs => by
            obtain ⟨r, e1, e2, e3, e4, e5, e6, _⟩ := ih st.dom x c _ hp.1 hp.2 s q' hs
            exact ⟨r, e1, e2, e3, e4, e5, e6⟩)
          (st.dom.children e) cs [] rfl hnd hpar
          (forall₂_and_right _ _ _ _ hfor hkids) st q rfl
        rw [hh]
        simp only [hm1, hm2, Bool.not_true, Option.isSome_none, Bool.or_false,
          Bool.false_eq_true, if_false, pure, Except.pure]
        obtain ⟨r, hr, h1, h2, h3, h4, h5⟩ := hydrate_hooks E h.1 h.2.1
          { v1 with tag := some tag, children := some h.2.2.1, componentInstance := none }
        simp only [bind, Except.bind, pure, Except.pure] at hr
        refine ⟨r, hr, h1, by rw [h2, hd1], by rw [h3, hl1], fun hq => h4 (hq1 hq), ?_,
          by rw [h5]; exact f10⟩
        rw [h5]
        refine boundTo_intro d st.dom e _ f9 (fun tag cs' _ hc' => ?_)
        have : cs' = h.2.2.1 := (Option.some.inj hc').symm
        rw [this]
        exact hb1

/-- On a backend tree and a component-free vnode tree that match, `hydrate` returns true,
leaves the backend as it is and binds every vnode to its backend node. -/
theorem hydrate_spec (E : Env) (cE : Nat → CreateFn) :
    ∀ (d : Nat) (dom : Dom) (e : Nat) (v : VNode) (inVPre0 : Bool),
      matchesTree d dom e v = true → hydratable E d inVPre0 v = true →
      ∀ (st : St) (q : Queue), st.dom = dom →
        ∃ r, hydrate E cE d st q (some e) v inVPre0 = Except.ok r ∧ r.2.2.2 = true ∧
          r.1.dom = st.dom ∧ nodeOpsOf r.1.log = nodeOpsOf st.log ∧
          (QueueOk q → QueueOk r.2.1) ∧
          boundTo d dom e r.2.2.1 = true ∧ r.2.2.1.parent = v.parent := by
  intro d
  induction d with
  | zero => intro dom e v _ h; unfold matchesTree at h; cases h
  | succ d ih =>
    intro dom e v inVPre0 hm hh st q hst
    exact hydrate_step E cE d ih dom e v inVPre0 hm hh st q hst

/-- C30: for a backend tree below the node `e` and a vnode tree (of height at most `d`)
that match exactly (same tag at every element, same text at every text or comment node,
as many children at every level), the vnode tree being component-free, without
`domProps.innerHTML` and, outside production mode, without an unknown element: `hydrate`
returns true, every vnode of the tree has the corresponding backend node as its `elm`, the
backend tree is as before and no node operation is performed. -/
theorem hydrate_matching (E : Env) (cE : Nat → CreateFn) (d : Nat) (st : St) (q : Queue)
    (e : Nat) (v : VNode) (inVPre : Bool)
    (hm : matchesTree d st.dom e v = true) (hh : hydratable E d inVPre v = true) :
    ∃ r, hydrate E cE d st q (some e) v inVPre = Except.ok r ∧ r.2.2.2 = true ∧
      boundTo d st.dom e r.2.2.1 = true ∧ r.1.dom = st.dom ∧
      nodeOpsOf r.1.log = nodeOpsOf st.log := by
  obtain ⟨r, h1, h2, h3, h4, _, h6, _⟩ := hydrate_spec E cE d st.dom e v inVPre hm hh st q rfl
  exact ⟨r, h1, h2, h6, h3, h4⟩

theorem hydrate_matching_witness :
    ∃ r, hydrate (exEnv true) (createElm (exEnv true)) 3 (exSt exSsrDom) [] (some 0) exSsrTree
        false = Except.ok r ∧ r.2.2.2 = true ∧
      boundTo 3 (exSt exSsrDom).dom 0 r.2.2.1 = true ∧ r.1.dom = (exSt exSsrDom).dom ∧
      nodeOpsOf r.1.log = nodeOpsOf (exSt exSsrDom).log :=
  hydrate_matching (exEnv true) (createElm (exEnv true)) 3 (exSt exSsrDom) [] 0 exSsrTree
    false (by decide!) (by decide)

/-- Outside production mode `hydrate` reports failure on an unknown element although the
backend tree matches the vnode tree exactly. -/
theorem hydrate_matching_counterexample :
    matchesTree 3 (exSt exSsrDom).dom 0 exSsrTree = true ∧
      compFree 3 exSsrTree = true ∧ exUnknownEnv.production = false ∧
      (hydrate exUnknownEnv (createElm exUnknownEnv) 3 (exSt exSsrDom) [] (some 0) exSsrTree
        false).toOption.map (fun r => r.2.2.2) = some false := by
  refine ⟨by decide!, by decide, rfl, ?_⟩
  decide
/-! ## The value returned by `patch` -/

theorem matchesTree_attrs (f : Nat → List String) :
    ∀ (d : Nat) (dom : Dom) (e : Nat) (v : VNode),
      matchesTree d { dom with attrs := f } e v = matchesTree d dom e v := by
  intro d
  induction d with
  | zero => intro dom e v; rfl
  | succ d ih =>
    intro dom e v
    unfold matchesTree
    simp only [ih]

theorem patch_mount (E : Env) (d : Nat) (st : St) (new : VNode)
    (hydrating removeOnly : Bool) (hnew : newPlain d new = true) :
    ∃ r v x, patch E d st none (some new) hydrating removeOnly = Except.ok r ∧
      r.2.1 = some v ∧ r.2.2 = v.elm ∧ v.elm = some x ∧ x < r.1.dom.next := by
  obtain ⟨c, hc, hx, hlt⟩ := createElm_mount E d new hnew st [] none false false
  have hk := createElm_kept E d st [] new none none false false c hc
  have hcp : c.2.2.parent = none := by
    rw [hk.2.2.2.2.2]
    exact kept_newPlain_parent d new false st hnew
  obtain ⟨hq, _⟩ := createElm_closed E d new (compFree_of_newPlain d new hnew) st []
    none none false false c hc queueOk_nil
  obtain ⟨s, hs, hd, _⟩ := invokeInsertHook_spec c.2.2 true (Or.inr hcp) c.2.1 hq c.1
  refine ⟨(s, some c.2.2, c.2.2.elm), c.2.2, st.dom.next, ?_, rfl, rfl, hx, ?_⟩
  · unfold patch
    simp only [bind, Except.bind, pure, Except.pure]
    rw [hc]
    simp only
    rw [hs]
  · show st.dom.next < s.dom.next
    rw [hd]
    exact hlt

theorem patch_same (E : Env) (d : Nat) (st : St) (o new : VNode) (hydrating : Bool)
    (hsame : sameVnode E.isTextInputType o new = some true)
    (ho : oldPlain E d o = true) (hnew : newPlain d new = true)
    (hsh : SharedOk d [o] [new]) (hren : rendered d st.dom o = true)
    (hnd : (elmsOf d o).Nodup) (hbd : ∀ y ∈ elmsOf d o, y < st.dom.next) :
    ∃ r v, patch E d st (some (OldNode.vnode o)) (some new) hydrating false = Except.ok r ∧
      r.2.1 = some v ∧ r.2.2 = v.elm ∧ v.elm = o.elm := by
  obtain ⟨c, hc, he, _⟩ := patchVnode_spec E d o new ho hnew hsh st [] hren hnd hbd
  obtain ⟨hq, _⟩ := patchVnode_closed E d o new ho (compFree_of_newPlain d new hnew) st []
    false c hc queueOk_nil
  obtain ⟨s, hs, _, _⟩ := invokeInsertHook_spec c.2.2 false (Or.inl rfl) c.2.1 hq c.1
  refine ⟨(s, some c.2.2, c.2.2.elm), c.2.2, ?_, rfl, rfl, he⟩
  unfold patch
  simp only [sameVnodeAt, hsame, bind, Except.bind, pure, Except.pure, if_true]
  rw [hc]
  simp only
  rw [hs]

theorem patch_hydrated (E : Env) (d : Nat) (st : St) (new : VNode) (e : Nat)
    (removeOnly : Bool) (hp : new.parent = none)
    (hm : matchesTree d st.dom e new = true) (hh : hydratable E d false new = true) :
    ∃ r v, patch E d st (some (OldNode.element e)) (some new) true removeOnly
        = Except.ok r ∧
      r.2.1 = some v ∧ r.2.2 = some e ∧ v.elm = some e ∧ boundTo d st.dom e v = true := by
  unfold patch
  simp only [Bool.true_or, if_true]
  generalize hst1 : (if ((nodeOps.tagName st e).isSome &&
      decide (E.ssrAttr ∈ st.dom.attrs e)) = true then
      ({ st with
          dom := { st.dom with
            attrs := Function.update st.dom.attrs e ((st.dom.attrs e).erase E.ssrAttr) }
          log := st.log ++ [Op.removeAttribute e E.ssrAttr] } : St)
      else st) = st1
  have hm1 : matchesTree d st1.dom e new = true := by
    rw [← hst1]
    split
    · show matchesTree d { st.dom with attrs := _ } e new = true
      rw [matchesTree_attrs]
      exact hm
    · exact hm
  have hb : ∀ w, boundTo d st1.dom e w = boundTo d st.dom e w := by
    intro w
    rw [← hst1]
    split
    · have hbt : ∀ (f : Nat → List String) (d : Nat) (dom : Dom) (e : Nat) (w : VNode),
          boundTo d { dom with attrs := f } e w = boundTo d dom e w := by
        intro f d
        induction d with
        | zero => intro dom e w; rfl
        | succ d ih =>
          intro dom e w
          unfold boundTo
          simp only [ih]
      exact hbt _ d st.dom e w
    · rfl
  obtain ⟨r, h1, h2, _, _, h5, h6, h7⟩ := hydrate_spec E (createElm E) d st1.dom e new false
    hm1 hh st1 [] rfl
  obtain ⟨s, hs, _, _⟩ := invokeInsertHook_spec r.2.2.1 true (Or.inr (by rw [h7]; exact hp))
    r.2.1 (h5 queueOk_nil) r.1
  have hbe : boundTo d st.dom e r.2.2.1 = true := by rw [← hb]; exact h6
  have helm : r.2.2.1.elm = some e := by
    obtain ⟨d', hd'⟩ : ∃ d', d = d' + 1 := by
      cases d with
      | zero => unfold boundTo at hbe; cases hbe
      | succ d' => exact ⟨d', rfl⟩
    subst hd'
    unfold boundTo at hbe
    simp only [Bool.and_eq_true, decide_eq_true_eq] at hbe
    exact hbe.1
  refine ⟨(s, some r.2.2.1, some e), r.2.2.1, ?_, rfl, rfl, helm, hbe⟩
  simp only [bind, Except.bind, pure, Except.pure]
  rw [h1]
  obtain ⟨s1, q1, w1, b1⟩ := r
  simp only at h2 hs ⊢
  subst h2
  simp only
  rw [hs]

/-! ### The value returned, whatever the path -/

theorem rootPlain_facts (v : VNode) (h : rootPlain v = true) :
    v.componentInstance = none ∧
      (v.data.bind (fun x => x.hook)).bind (fun h => h.init) = none := by
  simpa [rootPlain] using h

theorem rootPlain_of (v w : VNode) (hv : rootPlain v = true)
    (h1 : w.componentInstance = v.componentInstance) (h2 : w.data = v.data) :
    rootPlain w = true := by
  unfold rootPlain at hv ⊢
  rw [h1, h2]
  exact hv

theorem createChildren_root (E : Env) (createE : CreateFn) (st : St) (q : Queue)
    (v : VNode) (r : St × Queue × VNode) (h : createChildren E createE st q v = Except.ok r) :
    r.2.2.elm = v.elm ∧ r.2.2.componentInstance = v.componentInstance ∧
      r.2.2.data = v.data := by
  unfold createChildren at h
  split at h
  · simp only [bind_eq_ok, pure_eq_ok] at h
    obtain ⟨_, _, h⟩ := h
    rw [← h]
    exact ⟨rfl, rfl, rfl⟩
  · split at h
    · split at h
      · rw [pure_eq_ok] at h
        rw [← h]
        exact ⟨rfl, rfl, rfl⟩
      · exact absurd h (throw_ne_ok _ _)
    · rw [pure_eq_ok] at h
      rw [← h]
      exact ⟨rfl, rfl, rfl⟩

theorem createChildren_elm (E : Env) (createE : CreateFn) (st : St) (q : Queue) (v : VNode)
    (r : St × Queue × VNode) (h : createChildren E createE st q v = Except.ok r) :
    r.2.2.elm = v.elm :=
  (createChildren_root E createE st q v r h).1

theorem createElmText_elm (st : St) (q : Queue) (v : VNode) (pe re : Option Nat)
    (r : St × Queue × VNode) (h : createElmText st q v pe re = Except.ok r) :
    r.2.2.elm.isSome = true := by
  unfold createElmText at h
  simp only [bind_eq_ok, pure_eq_ok] at h
  obtain ⟨_, _, h⟩ := h
  rw [← h]
  rfl

theorem createElmElement_elm (E : Env) (fuel : Nat) (createE : CreateFn) (st : St)
    (q : Queue) (v : VNode) (tag : String) (pe re : Option Nat) (r : St × Queue × VNode)
    (h : createElmElement E fuel createE st q v tag pe re = Except.ok r) :
    r.2.2.elm.isSome = true := by
  unfold createElmElement at h
  simp only [bind_eq_ok] at h
  obtain ⟨st3, _, r1, h1, h⟩ := h
  rw [pure_eq_ok] at h
  rw [← h]
  show r1.2.2.elm.isSome = true
  split at h1
  · simp only [bind_eq_ok] at h1
    obtain ⟨a, _, ch, hch, h1⟩ := h1
    have hkc := createChildren_elm E createE _ _ _ ch hch
    split at h1
    · simp only [bind_eq_ok, pure_eq_ok] at h1
      obtain ⟨_, _, _, _, h1⟩ := h1
      rw [← h1]
      show ch.2.2.elm.isSome = true
      rw [hkc]
      rfl
    · rw [pure_eq_ok] at h1
      rw [← h1, hkc]
      rfl
  · simp only [bind_eq_ok, pure_eq_ok] at h1
    obtain ⟨ch, hch, _, _, _, _, h1⟩ := h1
    rw [← h1]
    show ch.2.2.elm.isSome = true
    rw [createChildren_elm E createE _ _ _ ch hch]
    rfl

/-- The vnode `createElm` leaves behind has a backend node, when it is no component. -/
theorem createElm_elm (E : Env) (fuel : Nat) (st : St) (q : Queue) (v : VNode)
    (pe re : Option Nat) (nested : Bool) (r : St × Queue × VNode) (hv : rootPlain v = true)
    (h : createElm E fuel st q v pe re nested false = Except.ok r) :
    r.2.2.elm.isSome = true := by
  obtain ⟨hci, hinit⟩ := rootPlain_facts v hv
  unfold createElm at h
  split at h
  · exact absurd h (throw_ne_ok _ _)
  · rename_i f
    simp only [Bool.and_false, Bool.false_eq_true, if_false, bind_eq_ok] at h
    obtain ⟨c, hc, h⟩ := h
    have hcp := createComponent_plain E (f + 1) st q ({ v with isRootInsert := !nested }) pe re
      hci hinit
    rw [hcp] at hc
    have hc' := (Except.ok.inj hc).symm
    subst hc'
    simp only [Bool.false_eq_true, if_false] at h
    split at h
    · exact createElmElement_elm E _ _ _ _ _ _ pe re r h
    · exact createElmText_elm _ _ _ pe re r h

theorem createElm_oid (E : Env) (fuel : Nat) (st : St) (q : Queue) (v : VNode)
    (pe re : Option Nat) (nested : Bool) (r : St × Queue × VNode)
    (h : createElm E fuel st q v pe re nested false = Except.ok r) :
    r.2.2.oid = v.oid := by
  have hk := createElm_kept E fuel st q v pe re nested false r h
  simp only [Bool.and_false, Bool.false_eq_true, if_false] at hk
  exact hk.1

theorem invokeInsertHook_elm (st : St) (v : VNode) (q : Queue) (initial : Bool)
    (r : St × VNode) (h : invokeInsertHook st v q initial = Except.ok r) :
    r.2.elm = v.elm ∧ r.2.oid = v.oid := by
  unfold invokeInsertHook at h
  split at h
  · split at h
    · exact absurd h (throw_ne_ok _ _)
    · rw [pure_eq_ok] at h
      rw [← h]
      exact ⟨rfl, rfl⟩
  · simp only [bind_eq_ok, pure_eq_ok] at h
    obtain ⟨_, _, h⟩ := h
    rw [← h]
    exact ⟨rfl, rfl⟩

theorem patchVnodeChildren_elm (E : Env) (fuel : Nat) (patchV : PatchFn) (createE : CreateFn)
    (st : St) (q : Queue) (o v : VNode) (removeOnly : Bool) (r : St × Queue × VNode)
    (h : patchVnodeChildren E fuel patchV createE st q o v removeOnly = Except.ok r) :
    r.2.2.elm = v.elm ∧ r.2.2.oid = v.oid := by
  unfold patchVnodeChildren at h
  split at h
  · split at h
    · split at h
      · simp only [bind_eq_ok, pure_eq_ok] at h
        obtain ⟨_, _, h⟩ := h
        rw [← h]
        exact ⟨rfl, rfl⟩
      · rw [pure_eq_ok] at h
        rw [← h]
        exact ⟨rfl, rfl⟩
    · simp only [bind_eq_ok, pure_eq_ok] at h
      obtain ⟨_, _, _, _, h⟩ := h
      rw [← h]
      exact ⟨rfl, rfl⟩
    · simp only [bind_eq_ok, pure_eq_ok] at h
      obtain ⟨_, _, h⟩ := h
      rw [← h]
      exact ⟨rfl, rfl⟩
    · simp only [bind_eq_ok, pure_eq_ok] at h
      obtain ⟨_, _, h⟩ := h
      rw [← h]
      exact ⟨rfl, rfl⟩
  · split at h
    · simp only [bind_eq_ok, pure_eq_ok] at h
      obtain ⟨_, _, h⟩ := h
      rw [← h]
      exact ⟨rfl, rfl⟩
    · rw [pure_eq_ok] at h
      rw [← h]
      exact ⟨rfl, rfl⟩

theorem hydrate_elm (E : Env) (cE : Nat → CreateFn) (fuel : Nat) (st : St) (q : Queue)
    (elm : Option Nat) (v : VNode) (inVPre : Bool) (r : St × Queue × VNode × Bool)
    (hv : rootPlain v = true)
    (h : hydrate E cE fuel st q elm v inVPre = Except.ok r) :
    r.2.2.1.elm = elm ∧ r.2.2.1.oid = v.oid ∧ rootPlain r.2.2.1 = true := by
  obtain ⟨hci, hinit⟩ := rootPlain_facts v hv
  have hinit' : (v.data.bind (fun d => d.hook.bind (fun h => h.init))) = none := by
    cases hd : v.data with
    | none => rfl
    | some data =>
      rw [hd] at hinit
      simpa using hinit
  cases fuel with
  | zero => exact absurd h (throw_ne_ok _ _)
  | succ f =>
    unfold hydrate at h
    simp only [hinit', hci, Option.isSome_none, Bool.and_false, Bool.false_eq_true,
      if_false] at h
    split at h
    · rw [pure_eq_ok] at h
      rw [← h]
      exact ⟨rfl, rfl, rootPlain_of v _ hv hci.symm rfl⟩
    · simp only [bind_eq_ok] at h
      obtain ⟨nm, _, h⟩ := h
      split at h
      · rw [pure_eq_ok] at h
        rw [← h]
        exact ⟨rfl, rfl, rootPlain_of v _ hv hci.symm rfl⟩
      · split at h
        · simp only [bind_eq_ok] at h
          obtain ⟨r1, hr1, h⟩ := h
          have hA : r1.2.2.1.elm = elm ∧ r1.2.2.1.oid = v.oid ∧ rootPlain r1.2.2.1 = true := by
            split at hr1
            · rw [pure_eq_ok] at hr1
              rw [← hr1]
              exact ⟨rfl, rfl, rootPlain_of v _ hv hci.symm rfl⟩
            · split at hr1
              · exact absurd hr1 (throw_ne_ok _ _)
              · split at hr1
                · simp only [bind_eq_ok, pure_eq_ok] at hr1
                  obtain ⟨c, hc, hr1⟩ := hr1
                  rw [← hr1]
                  obtain ⟨c1, c2, c3⟩ := createChildren_root E _ _ _ _ c hc
                  exact ⟨c1, (createChildren_kept E _ _ _ _ c hc).1,
                    rootPlain_of v _ hv (c2.trans hci.symm) c3⟩
                · split at hr1
                  · split at hr1
                    · rw [pure_eq_ok] at hr1
                      rw [← hr1]
                      exact ⟨rfl, rfl, rootPlain_of v _ hv hci.symm rfl⟩
                    · rw [pure_eq_ok] at hr1
                      rw [← hr1]
                      exact ⟨rfl, rfl, rootPlain_of v _ hv hci.symm rfl⟩
                  · simp only [bind_eq_ok] at hr1
                    obtain ⟨hc, _, hr1⟩ := hr1
                    split at hr1
                    · rw [pure_eq_ok] at hr1
                      rw [← hr1]
                      exact ⟨rfl, rfl, rootPlain_of v _ hv hci.symm rfl⟩
                    · rw [pure_eq_ok] at hr1
                      rw [← hr1]
                      exact ⟨rfl, rfl, rootPlain_of v _ hv hci.symm rfl⟩
          split at h
          · rw [pure_eq_ok] at h
            rw [← h]
            exact hA
          · split at h
            · rw [pure_eq_ok] at h
              rw [← h]
              exact hA
            · split at h
              · simp only [bind_eq_ok, pure_eq_ok] at h
                obtain ⟨_, _, h⟩ := h
                rw [← h]
                exact hA
              · split at h
                · rw [pure_eq_ok] at h
                  rw [← h]
                  exact hA
                · rw [pure_eq_ok] at h
                  rw [← h]
                  exact hA
        · split at h
          · exact absurd h (throw_ne_ok _ _)
          · split at h
            · rw [pure_eq_ok] at h
              rw [← h]
              exact ⟨rfl, rfl, rootPlain_of v _ hv hci.symm rfl⟩
            · rw [pure_eq_ok] at h
              rw [← h]
              exact ⟨rfl, rfl, rootPlain_of v _ hv hci.symm rfl⟩

/-- The vnode `patchVnode` leaves behind has the backend node of the old vnode (its own
when the two are one object). -/
theorem patchVnode_elm (E : Env) (fuel : Nat) (st : St) (q : Queue) (o v : VNode)
    (removeOnly : Bool) (r : St × Queue × VNode) (hv : rootPlain v = true)
    (h : patchVnode E fuel st q o v removeOnly = Except.ok r) :
    r.2.2.elm = (if o.oid = v.oid then v.elm else o.elm) ∧ r.2.2.oid = v.oid := by
  cases fuel with
  | zero => exact absurd h (throw_ne_ok _ _)
  | succ f =>
    unfold patchVnode at h
    by_cases hoid : o.oid = v.oid
    · rw [if_pos hoid, pure_eq_ok] at h
      rw [← h, if_pos hoid]
      exact ⟨rfl, rfl⟩
    · rw [if_neg hoid] at h
      rw [if_neg hoid]
      simp only at h
      split at h
      · split at h
        · exact absurd h (throw_ne_ok _ _)
        · split at h
          · simp only [bind_eq_ok, pure_eq_ok] at h
            obtain ⟨hy, hhy, h⟩ := h
            rw [← h]
            obtain ⟨e1, e2, _⟩ := hydrate_elm E (createElm E) f st q o.elm
              ({ v with elm := o.elm }) false hy hv hhy
            exact ⟨e1, e2⟩
          · rw [pure_eq_ok] at h
            rw [← h]
            exact ⟨rfl, rfl⟩
      · split at h
        · rw [pure_eq_ok] at h
          rw [← h]
          exact ⟨rfl, rfl⟩
        · simp only [bind_eq_ok, pure_eq_ok] at h
          obtain ⟨st2, _, r1, hr1, h⟩ := h
          rw [← h]
          exact patchVnodeChildren_elm E f _ _ _ _ _ _ _ r1 hr1

/-- The replacement path of `patch`: the value returned is the backend node `createElm`
made for the new vnode. -/
theorem replace_value (E : Env) (fuel : Nat) (s : St) (q : Queue) (o vnode : VNode)
    (r : St × Option VNode × Option Nat) (hv : rootPlain vnode = true)
    (h : (match o.elm with
      | none => throw Err.typeError
      | some oldElm => do
        let parentElm := nodeOps.parentNode s oldElm
        let c ← createElm E fuel s q vnode
          (if s.dom.leaveCb oldElm then none else parentElm)
          (nodeOps.nextSibling s oldElm) false false
        let v := c.2.2
        let a ← (match v.parent with
          | some _ => do
            let patchable ← isPatchable fuel v
            updateAncestors E v.elm patchable fuel c.1 v.parent
          | none => pure (c.1, none))
        let v1 : VNode := { v with parent := a.2 }
        let o1 : VNode := if o.oid = vnode.oid then v1 else o
        let s1 ← (match parentElm with
          | some _ => removeVnodes E fuel a.1 [some o1] 0 0
          | none => if o1.tag.isSome then invokeDestroyHook E fuel a.1 o1 else pure a.1)
        (do
          let r ← invokeInsertHook s1 v1 c.2.1 false
          pure (r.1, some r.2, r.2.elm)) : Res (St × Option VNode × Option Nat))
        = Except.ok r) :
    ∃ v, r.2.1 = some v ∧ v.oid = vnode.oid ∧ r.2.2 = v.elm ∧ v.elm.isSome = true := by
  split at h
  · exact absurd h (throw_ne_ok _ _)
  · simp only [bind_eq_ok, pure_eq_ok] at h
    obtain ⟨c, hc, a, _, s1, _, r0, hr0, h⟩ := h
    have h1 := createElm_elm E fuel s q vnode _ _ false c hv hc
    have h2 := createElm_oid E fuel s q vnode _ _ false c hc
    obtain ⟨h3, h4⟩ := invokeInsertHook_elm _ _ _ _ r0 hr0
    rw [← h]
    refine ⟨r0.2, rfl, ?_, rfl, ?_⟩
    · rw [h4]
      exact h2
    · rw [h3]
      exact h1

/-- The value `patch(old, new)` returns, whenever it returns, on a new vnode that is no
component. -/
theorem patch_value (E : Env) (fuel : Nat) (st : St) (old : Option OldNode) (new : VNode)
    (hydrating removeOnly : Bool) (r : St × Option VNode × Option Nat)
    (hv : rootPlain new = true)
    (h : patch E fuel st old (some new) hydrating removeOnly = Except.ok r) :
    ∃ v, r.2.1 = some v ∧ v.oid = new.oid ∧ r.2.2 = v.elm ∧
      (∀ o, old = some (OldNode.vnode o) → sameVnode E.isTextInputType o new = some true →
        v.elm = (if o.oid = new.oid then new.elm else o.elm)) ∧
      ((∀ o, old = some (OldNode.vnode o) → sameVnode E.isTextInputType o new ≠ some true) →
        v.elm.isSome = true) := by
  unfold patch at h
  cases old with
  | none =>
    simp only [bind_eq_ok, pure_eq_ok] at h
    obtain ⟨c, hc, r0, hr0, h⟩ := h
    have h1 := createElm_elm E fuel st [] new _ _ false c hv hc
    have h2 := createElm_oid E fuel st [] new _ _ false c hc
    obtain ⟨h3, h4⟩ := invokeInsertHook_elm _ _ _ _ r0 hr0
    rw [← h]
    refine ⟨r0.2, rfl, by rw [h4]; exact h2, rfl, (fun o ho => by cases ho),
      fun _ => by rw [h3]; exact h1⟩
  | some node =>
    cases node with
    | vnode o =>
      simp only [bind_eq_ok] at h
      obtain ⟨b, hb, h⟩ := h
      have hsv : sameVnode E.isTextInputType o new = some b := by
        unfold sameVnodeAt at hb
        simp only at hb
        split at hb
        · rename_i x hx
          rw [pure_eq_ok] at hb
          rw [hx, hb]
        · exact absurd hb (throw_ne_ok _ _)
      cases b with
      | true =>
        simp only [if_true, bind_eq_ok, pure_eq_ok] at h
        obtain ⟨p, hp, r0, hr0, h⟩ := h
        obtain ⟨h1, h2⟩ := patchVnode_elm E fuel st [] o new removeOnly p hv hp
        obtain ⟨h3, h4⟩ := invokeInsertHook_elm _ _ _ _ r0 hr0
        rw [← h]
        refine ⟨r0.2, rfl, by rw [h4]; exact h2, rfl, fun o' ho' _ => ?_, fun hn => ?_⟩
        · simp only [Option.some.injEq, OldNode.vnode.injEq] at ho'
          subst ho'
          show r0.2.elm = _
          rw [h3]
          exact h1
        · exact absurd hsv (hn o rfl)
      | false =>
        simp only [Bool.false_eq_true, if_false] at h
        obtain ⟨v, k1, k2, k3, k4⟩ := replace_value E fuel st [] o new r hv h
        refine ⟨v, k1, k2, k3, fun o' ho' hs' => ?_, fun _ => k4⟩
        simp only [Option.some.injEq, OldNode.vnode.injEq] at ho'
        subst ho'
        rw [hsv] at hs'
        cases hs'
    | element e =>
      simp only [bind_eq_ok] at h
      obtain ⟨att, hatt, h⟩ := h
      split at h
      · rename_i s q w
        simp only [bind_eq_ok, pure_eq_ok] at h
        obtain ⟨r0, hr0, h⟩ := h
        obtain ⟨h3, h4⟩ := invokeInsertHook_elm _ _ _ _ r0 hr0
        have hhy : w.elm = some e ∧ w.oid = new.oid ∧ rootPlain w = true := by
          split at hatt
          · simp only [bind_eq_ok, pure_eq_ok] at hatt
            obtain ⟨hy, hhy, hatt⟩ := hatt
            have := hydrate_elm E (createElm E) fuel _ [] (some e) new false hy hv hhy
            simp only [Option.some.injEq] at hatt
            rw [hatt] at this
            exact this
          · rw [pure_eq_ok] at hatt
            cases hatt
        rw [← h]
        refine ⟨r0.2, rfl, by rw [h4]; exact hhy.2.1, ?_, (fun o ho => by cases ho),
          fun _ => ?_⟩
        · show some e = r0.2.elm
          rw [h3, hhy.1]
        · rw [h3, hhy.1]
          rfl
      · rename_i s q w
        simp only [bind_eq_ok] at h
        obtain ⟨o, _, h⟩ := h
        have hw2 : w.elm = some e ∧ w.oid = new.oid ∧ rootPlain w = true := by
          split at hatt
          · simp only [bind_eq_ok, pure_eq_ok] at hatt
            obtain ⟨hy, hhy, hatt⟩ := hatt
            have := hydrate_elm E (createElm E) fuel _ [] (some e) new false hy hv hhy
            simp only [Option.some.injEq] at hatt
            rw [hatt] at this
            exact this
          · rw [pure_eq_ok] at hatt
            cases hatt
        obtain ⟨v, k1, k2, k3, k4⟩ := replace_value E fuel _ q o w r hw2.2.2 h
        exact ⟨v, k1, k2.trans hw2.2.1, k3, (fun o ho => by cases ho), fun _ => k4⟩
      · simp only [bind_eq_ok] at h
        obtain ⟨o, _, h⟩ := h
        obtain ⟨v, k1, k2, k3, k4⟩ := replace_value E fuel _ [] o new r hv h
        exact ⟨v, k1, k2, k3, (fun o ho => by cases ho), fun _ => k4⟩

/-- The mount on a live element without children that is not hydrated: the element is
replaced by the backend node of the new vnode. -/
theorem patch_element (E : Env) (d : Nat) (st : St) (new : VNode) (p e : Nat) (tag : String)
    (F B : List Nat) (removeOnly : Bool)
    (hnew : newPlain d new = true) (hoid : new.oid < st.nextOid)
    (htag : nodeOps.tagName st e = some tag) (hssr : E.ssrAttr ∉ st.dom.attrs e)
    (hempty : st.dom.children e = [])
    (hsync : E.modules.all (fun m => decide (m.remove ≠ some false)) = true)
    (hleave : st.dom.leaveCb e = false)
    (hpar : st.dom.parent e = some p) (hp : p < st.dom.next)
    (hch : st.dom.children p = F ++ e :: B) (hnd : (F ++ e :: B).Nodup)
    (hkids : ∀ y ∈ F ++ e :: B, st.dom.parent y = some p ∧ y < st.dom.next) :
    ∃ r v x, patch E d st (some (OldNode.element e)) (some new) false removeOnly
        = Except.ok r ∧
      r.2.1 = some v ∧ v.elm = some x ∧ r.2.2 = some x ∧ st.dom.next ≤ x ∧
      r.1.dom.children p = F ++ x :: B ∧ r.1.dom.parent x = some p ∧
      r.1.dom.parent e = none := by
  obtain ⟨d', hd'⟩ : ∃ d', d = d' + 1 := by
    cases d with
    | zero => unfold newPlain at hnew; cases hnew
    | succ d' => exact ⟨d', rfl⟩
  generalize hs : ({ st with nextOid := st.nextOid + 2 } : St) = s
  have hsd : s.dom = st.dom := by rw [← hs]
  generalize ho : VNode.new st.nextOid (st.nextOid + 1) (some tag.toLower) (some {})
    (some []) none (some e) none none none = o
  have helm : o.elm = some e := by rw [← ho]; rfl
  have hci : o.componentInstance = none := by rw [← ho]; rfl
  have hotag : o.tag.isSome = true := by rw [← ho]; rfl
  have hooid : o.oid ≠ new.oid := by
    rw [← ho]
    show st.nextOid ≠ new.oid
    omega
  have hren : rendered d st.dom o = true := by
    rw [hd', rendered_succ_iff]
    refine ⟨e, helm, fun cs hcs => ?_⟩
    rw [← ho] at hcs
    have : cs = [] := by
      have h2 : (some [] : Option (List VNode)) = some cs := hcs
      simp only [Option.some.injEq] at h2
      exact h2.symm
    subst this
    simp [hempty]
  have hsy : syncRemove E o = true := by
    unfold syncRemove
    rw [hsync, ← ho]
    rfl
  have heF : e ∉ F := fun h => (List.nodup_append.1 hnd).2.2 h (by simp)
  have hnext : nodeOps.nextSibling s e = B.head? := by
    unfold nodeOps.nextSibling
    rw [hsd, hpar]
    simp only [hch]
    exact nextIn_boundary e F B heF
  have href : B.head? = none ∨ ∃ r, B.head? = some r ∧ s.dom.parent r = some p ∧
      r ∈ s.dom.children p ∧ r < s.dom.next := by
    rw [hsd]
    cases hB : B with
    | nil => exact Or.inl rfl
    | cons b B' =>
      refine Or.inr ⟨b, rfl, ?_, ?_, ?_⟩
      · exact (hkids b (by rw [hB]; simp)).1
      · rw [hch, hB]; simp
      · exact (hkids b (by rw [hB]; simp)).2
  obtain ⟨c, x, hc, hx, hcr⟩ := createElm_spec E d new hnew s [] p B.head? false false
    (by rw [hsd]; exact hp) href
  rw [hsd] at hcr
  have hk := createElm_kept E d s [] new (some p) B.head? false false c hc
  have hcp : c.2.2.parent = none := by
    rw [hk.2.2.2.2.2]
    exact kept_newPlain_parent d new false s hnew
  obtain ⟨hq, _⟩ := createElm_closed E d new (compFree_of_newPlain d new hnew) s []
    (some p) B.head? false false c hc queueOk_nil
  have hxe : x ≠ e := by
    have := (hkids e (by simp)).2
    have := hcr.fresh
    omega
  have hch1 : c.1.dom.children p = F ++ e :: x :: B := by
    rw [hcr.children_par, hch,
      show F ++ e :: B = (F ++ [e]) ++ B by simp,
      insertAt_boundary x (F ++ [e]) B (by
        intro r hr hm
        have hrB : r ∈ B := List.mem_of_mem_head? hr
        have hnd2 : ((F ++ [e]) ++ B).Nodup := by simpa using hnd
        exact (List.nodup_append.1 hnd2).2.2 hm hrB)]
    simp
  have hpe1 : c.1.dom.parent e = some p := by
    rw [hcr.frame.parent_eq e (hkids e (by simp)).2 (by simp) (by simp)]
    exact hpar
  obtain ⟨s2, hs2, hn2, hc2, hp2⟩ := removeOne_spec E d st.dom c.1 o e p hren helm hci hsy
    hpe1 (by rw [hch1]; simp)
  have hrem : removeVnodes E d c.1 [some o] 0 0 = Except.ok s2 := by
    unfold removeVnodes
    show removeVnodesLoop E d [some o] 1 0 c.1 = _
    unfold removeVnodesLoop
    simp only [bind, Except.bind, pure, Except.pure] at hs2 ⊢
    have hg : (getAt [some o] 0).join = some o := rfl
    rw [hg]
    simp only
    rw [hs2]
    simp only
    unfold removeVnodesLoop
    rfl
  obtain ⟨s3, hs3, hd3, _⟩ := invokeInsertHook_spec ({ c.2.2 with parent := none }) false
    (Or.inl rfl) c.2.1 hq s2
  have hfin := erase_boundary e F (x :: B) heF
  refine ⟨(s3, some { c.2.2 with parent := none }, some x), _, x, ?_, rfl, hx, rfl,
    hcr.fresh, ?_, ?_, ?_⟩
  · unfold patch
    simp only [htag, hssr, emptyNodeAt, Option.isSome_some, decide_False, Bool.and_false,
      Bool.or_self, Bool.false_eq_true, if_false, bind, Except.bind, pure, Except.pure, hs, ho,
      helm, nodeOps.parentNode, hsd, hpar, hleave, hnext]
    rw [hc]
    simp only [hcp, if_neg hooid]
    rw [hrem]
    simp only
    rw [hs3]
    simp only [hx]
  · show s3.dom.children p = _
    rw [hd3, hc2, Function.update_same, hch1]
    exact hfin
  · show s3.dom.parent x = _
    rw [hd3, hp2, Function.update_noteq hxe]
    exact hcr.parent_x
  · show s3.dom.parent e = _
    rw [hd3, hp2, Function.update_same]

theorem rootPlain_of_newPlain (d : Nat) (v : VNode) (h : newPlain d v = true) :
    rootPlain v = true := by
  cases d with
  | zero => unfold newPlain at h; cases h
  | succ d =>
    obtain ⟨_, h2, _, h4, _, _⟩ := newPlain_facts d v h
    unfold rootPlain
    rw [h2, h4]
    rfl

/-- C29: the value `patch(old, new)` returns, `new` being a vnode that is no component (no
component instance, no `init` hook). (A) Whatever `old` is, whenever the call returns, the
value returned is the `elm` of `new` as the call leaves it; when `old` is a vnode with
`sameVnode(old, new)` it is `old.elm` (the `elm` `new` had when the two are one object),
defined or not as `old.elm` is; on every other path (first mount, replacement of a vnode,
a live element hydrated or not) it is defined. (B) The call does return, with these
values, on a new tree of height at most `d` that holds no async placeholder, component
instance, placeholder parent or `init` hook and passes `checkDuplicateKeys` throughout:
(1) on the first mount, where the value is a new node; (2) when `old` is a vnode tree
rendered at every depth on pairwise distinct existing nodes, without async placeholder or
component instance and with no `remove` hook that defers, `sameVnode(old, new)` holds and
the vnodes of `new` are pairwise distinct objects none of which is a vnode of `old`, where
the value is `old.elm`; (3) when `old` is such a vnode attached under a parent, not in a
leaving transition, and `sameVnode(old, new)` is false, where the value is the new node, a
child of that parent; (4) when `old` is a live element whose tree matches `new` and
hydration is asked for, where the value is that element; (5) when `old` is a live element
without children and without the server-rendering mark, attached under a parent and not in
a leaving transition, no hydration is asked for, no `remove` hook of a module defers and
`new` is an object that exists before the call, where the value is the new node, which has
taken the place of the element. -/
theorem patch_returns_elm (E : Env) (d : Nat) (st : St) (new : VNode)
    (hydrating removeOnly : Bool) (hroot : rootPlain new = true) :
    (∀ old r, patch E d st old (some new) hydrating removeOnly = Except.ok r →
      ∃ v, r.2.1 = some v ∧ v.oid = new.oid ∧ r.2.2 = v.elm ∧
        (∀ o, old = some (OldNode.vnode o) →
          sameVnode E.isTextInputType o new = some true →
          v.elm = (if o.oid = new.oid then new.elm else o.elm)) ∧
        ((∀ o, old = some (OldNode.vnode o) →
          sameVnode E.isTextInputType o new ≠ some true) → v.elm.isSome = true)) ∧
    (newPlain d new = true →
      ∃ r v x, patch E d st none (some new) hydrating removeOnly = Except.ok r ∧
        r.2.1 = some v ∧ r.2.2 = v.elm ∧ v.elm = some x ∧ x < r.1.dom.next) ∧
    (∀ o, newPlain d new = true → sameVnode E.isTextInputType o new = some true →
      oldPlain E d o = true → apart d [o] [new] = true → rendered d st.dom o = true →
      (elmsOf d o).Nodup → (∀ y ∈ elmsOf d o, y < st.dom.next) →
      ∃ r v x, patch E d st (some (OldNode.vnode o)) (some new) hydrating false
          = Except.ok r ∧
        r.2.1 = some v ∧ r.2.2 = v.elm ∧ v.elm = o.elm ∧ o.elm = some x) ∧
    (∀ o p e F B, newPlain d new = true → sameVnode E.isTextInputType o new = some false →
      apart d [o] [new] = true → o.elm = some e →
      rendered d st.dom o = true → o.componentInstance = none → syncRemove E o = true →
      st.dom.leaveCb e = false → st.dom.parent e = some p → p < st.dom.next →
      st.dom.children p = F ++ e :: B → (F ++ e :: B).Nodup →
      (∀ y ∈ F ++ e :: B, st.dom.parent y = some p ∧ y < st.dom.next) →
      ∃ r v x, patch E d st (some (OldNode.vnode o)) (some new) hydrating removeOnly
          = Except.ok r ∧
        r.2.1 = some v ∧ r.2.2 = v.elm ∧ v.elm = some x ∧ st.dom.next ≤ x ∧
        r.1.dom.children p = F ++ x :: B) ∧
    (∀ e, newPlain d new = true → matchesTree d st.dom e new = true →
      hydratable E d false new = true →
      ∃ r v, patch E d st (some (OldNode.element e)) (some new) true removeOnly
          = Except.ok r ∧
        r.2.1 = some v ∧ r.2.2 = v.elm ∧ v.elm = some e) ∧
    (∀ e p tag F B, newPlain d new = true → new.oid < st.nextOid →
      nodeOps.tagName st e = some tag → E.ssrAttr ∉ st.dom.attrs e →
      st.dom.children e = [] →
      E.modules.all (fun m => decide (m.remove ≠ some false)) = true →
      st.dom.leaveCb e = false → st.dom.parent e = some p → p < st.dom.next →
      st.dom.children p = F ++ e :: B → (F ++ e :: B).Nodup →
      (∀ y ∈ F ++ e :: B, st.dom.parent y = some p ∧ y < st.dom.next) →
      ∃ r v x, patch E d st (some (OldNode.element e)) (some new) false removeOnly
          = Except.ok r ∧
        r.2.1 = some v ∧ r.2.2 = v.elm ∧ v.elm = some x ∧ st.dom.next ≤ x ∧
        r.1.dom.children p = F ++ x :: B ∧ r.1.dom.parent e = none) := by
  refine ⟨fun old r h => patch_value E d st old new hydrating removeOnly r hroot h,
    fun hnew => patch_mount E d st new hydrating removeOnly hnew, ?_, ?_, ?_, ?_⟩
  · intro o hnew hsame ho hap hren hnd hbd
    obtain ⟨r, v, h1, h2, h3, h4⟩ := patch_same E d st o new hydrating hsame ho hnew
      (sharedOk_of_apart d _ _ hap) hren hnd hbd
    obtain ⟨x, hx⟩ := rendered_elm d st.dom o hren
    exact ⟨r, v, x, h1, h2, h3, h4, hx⟩
  · intro o p e F B hnew hsame hap helm hren hci hsync hleave hpar hp hch hnd hkids
    obtain ⟨c, s2, r, v, x, _, _, hfr, _, _, h1, _, h2, h3, h4, h5, _, _⟩ :=
      replace_spec E d st o new p e F B hydrating removeOnly hsame (apart_top d o new hap)
        hnew helm hren hci hsync hleave hpar hp hch hnd hkids
    exact ⟨r, v, x, h1, h2, by rw [h4, h3], h3, hfr, h5⟩
  · intro e hnew hm hh
    have hp : new.parent = none := by
      obtain ⟨d', hd'⟩ : ∃ d', d = d' + 1 := by
        cases d with
        | zero => unfold newPlain at hnew; cases hnew
        | succ d' => exact ⟨d', rfl⟩
      subst hd'
      exact (newPlain_facts d' new hnew).2.2.1
    obtain ⟨r, v, h1, h2, h3, h4, _⟩ := patch_hydrated E d st new e removeOnly hp hm hh
    exact ⟨r, v, h1, h2, by rw [h3, h4], h4⟩
  · intro e p tag F B hnew hoid htag hssr hempty hsync hleave hpar hp hch hnd hkids
    obtain ⟨r, v, x, h1, h2, h3, h4, h5, h6, _, h8⟩ := patch_element E d st new p e tag F B
      removeOnly hnew hoid htag hssr hempty hsync hleave hpar hp hch hnd hkids
    exact ⟨r, v, x, h1, h2, by rw [h4, h3], h3, h5, h6, h8⟩

/-- C29 (witness): the paragraph vnode `exParNew` is mounted for the first time, and it
replaces the rendered item `exLiOld`, the only child of node 0. -/
theorem patch_returns_elm_witness :
    (∃ r v x, patch (exEnv true) 1 (exSt exLooseDom) none (some exParNew) false false
        = Except.ok r ∧
      r.2.1 = some v ∧ r.2.2 = v.elm ∧ v.elm = some x ∧ x < r.1.dom.next) ∧
    (∃ r v x, patch (exEnv true) 1 (exSt exLooseDom) (some (OldNode.vnode exLiOld))
        (some exParNew) false false = Except.ok r ∧
      r.2.1 = some v ∧ r.2.2 = v.elm ∧ v.elm = some x ∧ (exSt exLooseDom).dom.next ≤ x ∧
      r.1.dom.children 0 = [] ++ x :: []) :=
  have h := patch_returns_elm (exEnv true) 1 (exSt exLooseDom) exParNew false false
    (by decide)
  ⟨h.2.1 (by decide),
    h.2.2.2.1 exLiOld 0 1 [] [] (by decide) (by decide) (by decide) rfl (by decide) rfl
      (by decide) rfl rfl (by decide) rfl (by decide) (by decide)⟩

/-- C29 (counterexample): a vnode `<li>` that was never rendered is patched with another
`<li>` vnode: the two are `sameVnode`, `patchVnode` hands the undefined `elm` of the old
vnode to the new one, and `patch` returns undefined. -/
theorem patch_returns_elm_counterexample :
    (exItem 1 "li" none none none).elm = none ∧
    sameVnode (exEnv true).isTextInputType (exItem 1 "li" none none none)
      (exItem 3 "li" none none none) = some true ∧
    (patch (exEnv true) 2 (exSt exLooseDom)
        (some (OldNode.vnode (exItem 1 "li" none none none)))
        (some (exItem 3 "li" none none none)) false false).toOption.map
      (fun r => (r.2.1.map (fun v => (v.oid, v.elm)), r.2.2))
      = some (some (3, none), none) := by
  refine ⟨rfl, by decide, ?_⟩
  decide
/-! ## `cloneVNode` -/

/-- C32: `cloneVNode(v)` returns a new vnode (its identity is the one of the new object,
so it is distinct from `v` whenever that identity is not `v`'s) with `isCloned = true`
whose tag, data, children (the same array, `childrenRef`, not a copy), text, elm, context,
componentOptions, asyncFactory, ns, isStatic, key, isComment, fnContext, fnOptions,
fnScopeId and asyncMeta are those of `v`; the function reads `v` and writes only the new
object. -/
theorem cloneVNode_fields (oid : Nat) (v : VNode) (hnew : oid ≠ v.oid) :
    cloneVNode oid v ≠ v ∧ (cloneVNode oid v).oid = oid ∧
      (cloneVNode oid v).isCloned = true ∧
      (cloneVNode oid v).tag = v.tag ∧ (cloneVNode oid v).data = v.data ∧
      (cloneVNode oid v).children = v.children ∧
      (cloneVNode oid v).childrenRef = v.childrenRef ∧
      (cloneVNode oid v).text = v.text ∧ (cloneVNode oid v).elm = v.elm ∧
      (cloneVNode oid v).context = v.context ∧
      (cloneVNode oid v).componentOptions = v.componentOptions ∧
      (cloneVNode oid v).asyncFactory = v.asyncFactory ∧
      (cloneVNode oid v).ns = v.ns ∧ (cloneVNode oid v).isStatic = v.isStatic ∧
      (cloneVNode oid v).key = v.key ∧ (cloneVNode oid v).isComment = v.isComment ∧
      (cloneVNode oid v).fnContext = v.fnContext ∧
      (cloneVNode oid v).fnOptions = v.fnOptions ∧
      (cloneVNode oid v).fnScopeId = v.fnScopeId ∧
      (cloneVNode oid v).asyncMeta = v.asyncMeta := by
  refine ⟨fun h => hnew ?_, rfl, rfl, rfl, rfl, rfl, rfl, rfl, rfl, rfl, rfl, rfl, rfl, rfl,
    rfl, rfl, rfl, rfl, rfl, rfl⟩
  have := congrArg VNode.oid h
  exact this

theorem cloneVNode_fields_witness :
    cloneVNode 50 exLiOld ≠ exLiOld ∧ (cloneVNode 50 exLiOld).oid = 50 ∧
      (cloneVNode 50 exLiOld).isCloned = true ∧
      (cloneVNode 50 exLiOld).tag = exLiOld.tag ∧ (cloneVNode 50 exLiOld).data = exLiOld.data ∧
      (cloneVNode 50 exLiOld).children = exLiOld.children ∧
      (cloneVNode 50 exLiOld).childrenRef = exLiOld.childrenRef ∧
      (cloneVNode 50 exLiOld).text = exLiOld.text ∧ (cloneVNode 50 exLiOld).elm = exLiOld.elm ∧
      (cloneVNode 50 exLiOld).context = exLiOld.context ∧
      (cloneVNode 50 exLiOld).componentOptions = exLiOld.componentOptions ∧
      (cloneVNode 50 exLiOld).asyncFactory = exLiOld.asyncFactory ∧
      (cloneVNode 50 exLiOld).ns = exLiOld.ns ∧
      (cloneVNode 50 exLiOld).isStatic = exLiOld.isStatic ∧
      (cloneVNode 50 exLiOld).key = exLiOld.key ∧
      (cloneVNode 50 exLiOld).isComment = exLiOld.isComment ∧
      (cloneVNode 50 exLiOld).fnContext = exLiOld.fnContext ∧
      (cloneVNode 50 exLiOld).fnOptions = exLiOld.fnOptions ∧
      (cloneVNode 50 exLiOld).fnScopeId = exLiOld.fnScopeId ∧
      (cloneVNode 50 exLiOld).asyncMeta = exLiOld.asyncMeta :=
  cloneVNode_fields 50 exLiOld (by decide)

/-! ## `findIdxInOld` -/

theorem sameVnodeAt_eq (E : Env) (a b : VNode) (r : Bool) :
    sameVnodeAt E (some a) (some b) = Except.ok r ↔
      sameVnode E.isTextInputType a b = some r := by
  cases h : sameVnode E.isTextInputType a b with
  | none =>
    simp only [sameVnodeAt, h]
    constructor
    · intro h1; exact absurd h1 (throw_ne_ok _ _)
    · intro h1; cases h1
  | some x =>
    simp only [sameVnodeAt, h, pure_eq_ok, Option.some.injEq]

theorem sameVnodeAt_none (E : Env) (a b : VNode)
    (h : sameVnode E.isTextInputType a b = none) :
    sameVnodeAt E (some a) (some b) = Except.error Err.typeError := by
  simp only [sameVnodeAt, h]
  rfl

theorem findIdxInOldLoop_some (E : Env) (node : VNode) (oldCh : List (Option VNode)) :
    ∀ (count : Nat) (i j : Int),
      findIdxInOldLoop E node oldCh count i = Except.ok (some j) ↔
        (i ≤ j ∧ j < i + (count : Int) ∧
          (∃ c, (getAt oldCh j).join = some c ∧
            sameVnode E.isTextInputType node c = some true) ∧
          ∀ k, i ≤ k → k < j → ∀ c, (getAt oldCh k).join = some c →
            sameVnode E.isTextInputType node c = some false) := by
  intro count
  induction count with
  | zero =>
    intro i j
    simp only [findIdxInOldLoop, pure_eq_ok]
    constructor
    · intro h; cases h
    · rintro ⟨h1, h2, _⟩
      simp at h2
      omega
  | succ count ih =>
    intro i j
    have hrec : ∀ (hskip : ∀ c, (getAt oldCh i).join = some c →
        sameVnode E.isTextInputType node c = some false),
        (findIdxInOldLoop E node oldCh count (i + 1) = Except.ok (some j) ↔
        (i ≤ j ∧ j < i + ((count + 1 : Nat) : Int) ∧
          (∃ c, (getAt oldCh j).join = some c ∧
            sameVnode E.isTextInputType node c = some true) ∧
          ∀ k, i ≤ k → k < j → ∀ c, (getAt oldCh k).join = some c →
            sameVnode E.isTextInputType node c = some false)) := by
      intro hskip
      rw [ih (i + 1) j]
      constructor
      · rintro ⟨h1, h2, h3, h4⟩
        refine ⟨by omega, by push_cast; omega, h3, fun k hk1 hk2 c hc => ?_⟩
        by_cases e : k = i
        · subst e; exact hskip c hc
        · exact h4 k (by omega) hk2 c hc
      · rintro ⟨h1, h2, ⟨c, hc, ht⟩, h4⟩
        have hne : j ≠ i := by
          intro e
          subst e
          have := hskip c hc
          rw [ht] at this
          cases this
        refine ⟨by omega, by push_cast at h2; omega, ⟨c, hc, ht⟩,
          fun k hk1 hk2 c' hc' => h4 k (by omega) hk2 c' hc'⟩
    unfold findIdxInOldLoop
    cases hc : (getAt oldCh i).join with
    | none =>
      simp only
      exact hrec (fun c h => by rw [hc] at h; cases h)
    | some c =>
      simp only
      cases hs : sameVnode E.isTextInputType node c with
      | none =>
        rw [sameVnodeAt_none E node c hs]
        simp only [bind, Except.bind]
        constructor
        · intro h; cases h
        · rintro ⟨h1, h2, ⟨c', hc', ht⟩, h4⟩
          exfalso
          by_cases e : j = i
          · subst e
            rw [hc] at hc'
            cases hc'
            rw [hs] at ht
            cases ht
          · have := h4 i (le_refl _) (by omega) c hc
            rw [hs] at this
            cases this
      | some b =>
        have hb : sameVnodeAt E (some node) (some c) = Except.ok b :=
          (sameVnodeAt_eq E node c b).2 hs
        rw [hb]
        cases b with
        | true =>
          simp only [bind, Except.bind, pure, Except.pure, if_true]
          constructor
          · intro h
            have e : i = j := by
              simpa using h
            subst e
            exact ⟨le_refl _, by push_cast; omega, ⟨c, hc, hs⟩, fun k h1 h2 => by omega⟩
          · rintro ⟨h1, h2, _, h4⟩
            by_cases e : j = i
            · rw [e]
            · have := h4 i (le_refl _) (by omega) c hc
              rw [hs] at this
              cases this
        | false =>
          simp only [bind, Except.bind, pure, Except.pure, Bool.false_eq_true, if_false]
          exact hrec (fun c' h => by
            rw [hc] at h
            have e : c = c' := Option.some.inj h
            rw [← e]; exact hs)

theorem findIdxInOldLoop_none (E : Env) (node : VNode) (oldCh : List (Option VNode)) :
    ∀ (count : Nat) (i : Int),
      findIdxInOldLoop E node oldCh count i = Except.ok none ↔
        ∀ k, i ≤ k → k < i + (count : Int) → ∀ c, (getAt oldCh k).join = some c →
          sameVnode E.isTextInputType node c = some false := by
  intro count
  induction count with
  | zero =>
    intro i
    simp only [findIdxInOldLoop, pure_eq_ok, true_iff]
    intro k h1 h2
    simp at h2
    omega
  | succ count ih =>
    intro i
    have hrec : ∀ (hskip : ∀ c, (getAt oldCh i).join = some c →
        sameVnode E.isTextInputType node c = some false),
        (findIdxInOldLoop E node oldCh count (i + 1) = Except.ok none ↔
        ∀ k, i ≤ k → k < i + ((count + 1 : Nat) : Int) → ∀ c, (getAt oldCh k).join = some c →
          sameVnode E.isTextInputType node c = some false) := by
      intro hskip
      rw [ih (i + 1)]
      constructor
      · intro h k hk1 hk2 c hc
        by_cases e : k = i
        · subst e; exact hskip c hc
        · exact h k (by omega) (by push_cast at hk2; omega) c hc
      · intro h k hk1 hk2 c hc
        exact h k (by omega) (by push_cast; omega) c hc
    unfold findIdxInOldLoop
    cases hc : (getAt oldCh i).join with
    | none =>
      simp only
      exact hrec (fun c h => by rw [hc] at h; cases h)
    | some c =>
      simp only
      cases hs : sameVnode E.isTextInputType node c with
      | none =>
        rw [sameVnodeAt_none E node c hs]
        simp only [bind, Except.bind]
        constructor
        · intro h; cases h
        · intro h
          have := h i (le_refl _) (by push_cast; omega) c hc
          rw [hs] at this
          cases this
      | some b =>
        have hb : sameVnodeAt E (some node) (some c) = Except.ok b :=
          (sameVnodeAt_eq E node c b).2 hs
        rw [hb]
        cases b with
        | true =>
          simp only [bind, Except.bind, pure, Except.pure, if_true]
          constructor
          · intro h; cases h
          · intro h
            have := h i (le_refl _) (by push_cast; omega) c hc
            rw [hs] at this
            cases this
        | false =>
          simp only [bind, Except.bind, pure, Except.pure, Bool.false_eq_true, if_false]
          exact hrec (fun c' h => by
            rw [hc] at h
            have e : c = c' := Option.some.inj h
            rw [← e]; exact hs)

theorem findIdxInOldLoop_congr (E : Env) (node : VNode) (oldCh oldCh' : List (Option VNode)) :
    ∀ (count : Nat) (i : Int),
      (∀ k, i ≤ k → k < i + (count : Int) → getAt oldCh' k = getAt oldCh k) →
      findIdxInOldLoop E node oldCh' count i = findIdxInOldLoop E node oldCh count i := by
  intro count
  induction count with
  | zero => intro i _; rfl
  | succ count ih =>
    intro i h
    have h0 := h i (le_refl _) (by push_cast; omega)
    have hr := ih (i + 1) (fun k h1 h2 => h k (by omega) (by push_cast; omega))
    unfold findIdxInOldLoop
    rw [h0, hr]

/-- C38: `findIdxInOld(node, oldCh, start, end)` returns the index `j` exactly when `j` is
the smallest index with `start <= j < end` whose slot is defined and `sameVnode` to
`node` (every defined slot before it in the range is not `sameVnode`), and returns
`undefined` exactly when no defined slot of the range is `sameVnode` to `node`; the
result depends on the slots `start .. end - 1` only, so the slot at index `end` is never
examined. -/
theorem findIdxInOld_least (E : Env) (node : VNode) (oldCh : List (Option VNode))
    (start «end» : Int) :
    (∀ j, findIdxInOld E node oldCh start «end» = Except.ok (some j) ↔
      (start ≤ j ∧ j < «end» ∧
        (∃ c, (getAt oldCh j).join = some c ∧
          sameVnode E.isTextInputType node c = some true) ∧
        ∀ k, start ≤ k → k < j → ∀ c, (getAt oldCh k).join = some c →
          sameVnode E.isTextInputType node c = some false)) ∧
    (findIdxInOld E node oldCh start «end» = Except.ok none ↔
      ∀ k, start ≤ k → k < «end» → ∀ c, (getAt oldCh k).join = some c →
        sameVnode E.isTextInputType node c = some false) ∧
    (∀ oldCh' : List (Option VNode),
      (∀ k, start ≤ k → k < «end» → getAt oldCh' k = getAt oldCh k) →
      findIdxInOld E node oldCh' start «end» = findIdxInOld E node oldCh start «end») := by
  unfold findIdxInOld
  refine ⟨fun j => ?_, ?_, fun oldCh' h => ?_⟩
  · rw [findIdxInOldLoop_some]
    constructor
    · rintro ⟨h1, h2, h3, h4⟩
      exact ⟨h1, by omega, h3, h4⟩
    · rintro ⟨h1, h2, h3, h4⟩
      exact ⟨h1, by omega, h3, h4⟩
  · rw [findIdxInOldLoop_none]
    constructor
    · intro h k h1 h2 c hc
      exact h k h1 (by omega) c hc
    · intro h k h1 h2 c hc
      exact h k h1 (by omega) c hc
  · exact findIdxInOldLoop_congr E node oldCh oldCh' _ _
      (fun k h1 h2 => h k h1 (by omega))
/-! ## Termination of the loop of `updateChildren` -/

/-- The fallback branch advances `newStartIdx` by one and leaves the other three pointers
as they are. -/
theorem keyed_pointers (E : Env) (patchV : PatchFn) (createE : CreateFn) (pe : Option Nat)
    (canMove : Bool) (L L1 : Loop) (o : VNode)
    (h : updateChildrenKeyed E patchV createE pe canMove L o = Except.ok L1) :
    L1.newStartIdx = L.newStartIdx + 1 ∧ L1.oldStartIdx = L.oldStartIdx ∧
      L1.oldEndIdx = L.oldEndIdx ∧ L1.newEndIdx = L.newEndIdx := by
  unfold updateChildrenKeyed at h
  simp only [bind_eq_ok] at h
  obtain ⟨m, _, h⟩ := h
  split at h
  · exact absurd h (throw_ne_ok _ _)
  · rename_i n hn
    simp only [bind_eq_ok] at h
    obtain ⟨idx, _, h⟩ := h
    have hcreate : ∀ L2 : Loop, (do
          let r ← createE L.st L.queue n pe o.elm false true
          pure { L with
            oldKeyToIdx := some m
            newCh := setAt L.newCh L.newStartIdx r.2.2
            st := r.1
            queue := r.2.1
            trace := L.trace ++ [Action.create L.newStartIdx]
            newStartIdx := L.newStartIdx + 1 } : Res Loop) = Except.ok L2 →
        L2.newStartIdx = L.newStartIdx + 1 ∧ L2.oldStartIdx = L.oldStartIdx ∧
          L2.oldEndIdx = L.oldEndIdx ∧ L2.newEndIdx = L.newEndIdx := by
      intro L2 h2
      simp only [bind_eq_ok, pure_eq_ok] at h2
      obtain ⟨r, _, h2⟩ := h2
      rw [← h2]
      exact ⟨rfl, rfl, rfl, rfl⟩
    split at h
    · exact hcreate L1 h
    · exact absurd h (throw_ne_ok _ _)
    · rename_i i
      simp only [bind_eq_ok] at h
      obtain ⟨b, _, h⟩ := h
      split at h
      · split at h
        · exact absurd h (throw_ne_ok _ _)
        · simp only [bind_eq_ok, pure_eq_ok] at h
          obtain ⟨r, _, st1, _, h⟩ := h
          rw [← h]
          exact ⟨rfl, rfl, rfl, rfl⟩
      · exact hcreate L1 h

/-- An iteration moves no pointer away from the other end and moves at least one of them
toward it. -/
theorem step_pointers (E : Env) (patchV : PatchFn) (createE : CreateFn) (pe : Option Nat)
    (canMove : Bool) (L L1 : Loop)
    (h : updateChildrenStep E patchV createE pe canMove L = Except.ok L1) :
    L.oldStartIdx ≤ L1.oldStartIdx ∧ L1.oldEndIdx ≤ L.oldEndIdx ∧
      L.newStartIdx ≤ L1.newStartIdx ∧ L1.newEndIdx ≤ L.newEndIdx ∧
      (L.oldStartIdx < L1.oldStartIdx ∨ L1.oldEndIdx < L.oldEndIdx ∨
        L.newStartIdx < L1.newStartIdx ∨ L1.newEndIdx < L.newEndIdx) := by
  unfold updateChildrenStep at h
  split at h
  · rw [pure_eq_ok] at h
    rw [← h]
    simp only
    omega
  · split at h
    · rw [pure_eq_ok] at h
      rw [← h]
      simp only
      omega
    · simp only [bind_eq_ok] at h
      obtain ⟨b1, _, h⟩ := h
      split at h
      · simp only [bind_eq_ok, pure_eq_ok] at h
        obtain ⟨r, _, h⟩ := h
        rw [← h]
        simp only
        omega
      · simp only [bind_eq_ok] at h
        obtain ⟨b2, _, h⟩ := h
        split at h
        · simp only [bind_eq_ok, pure_eq_ok] at h
          obtain ⟨r, _, h⟩ := h
          rw [← h]
          simp only
          omega
        · simp only [bind_eq_ok] at h
          obtain ⟨b3, _, h⟩ := h
          split at h
          · simp only [bind_eq_ok, pure_eq_ok] at h
            obtain ⟨r, _, st1, _, h⟩ := h
            rw [← h]
            simp only
            omega
          · simp only [bind_eq_ok] at h
            obtain ⟨b4, _, h⟩ := h
            split at h
            · simp only [bind_eq_ok, pure_eq_ok] at h
              obtain ⟨r, _, st1, _, h⟩ := h
              rw [← h]
              simp only
              omega
            · obtain ⟨k1, k2, k3, k4⟩ := keyed_pointers E patchV createE pe canMove L L1 _ h
              omega

theorem step_measure (E : Env) (patchV : PatchFn) (createE : CreateFn) (pe : Option Nat)
    (canMove : Bool) (L L1 : Loop)
    (h : updateChildrenStep E patchV createE pe canMove L = Except.ok L1) :
    L1.measure < L.measure := by
  have := step_pointers E patchV createE pe canMove L L1 h
  unfold Loop.measure
  omega

/-- Once the number of iterations allowed exceeds the measure, the loop does not depend on
that number. -/
theorem loop_fuel (E : Env) (patchV : PatchFn) (createE : CreateFn) (pe : Option Nat)
    (canMove : Bool) :
    ∀ (n : Nat) (L : Loop), L.measure < (n : Int) → ∀ k, n ≤ k →
      updateChildrenLoop E patchV createE pe canMove k L
        = updateChildrenLoop E patchV createE pe canMove n L := by
  intro n
  induction n with
  | zero =>
    intro L hm k _
    have hc : ¬ (L.oldStartIdx ≤ L.oldEndIdx ∧ L.newStartIdx ≤ L.newEndIdx) := by
      unfold Loop.measure at hm
      simp only [Nat.cast_zero] at hm
      omega
    conv => lhs; unfold updateChildrenLoop
    conv => rhs; unfold updateChildrenLoop
    rw [if_neg hc, if_neg hc]
  | succ n ih =>
    intro L hm k hk
    obtain ⟨k', hk'⟩ : ∃ k', k = k' + 1 := ⟨k - 1, by omega⟩
    subst hk'
    conv => lhs; unfold updateChildrenLoop
    conv => rhs; unfold updateChildrenLoop
    by_cases hc : L.oldStartIdx ≤ L.oldEndIdx ∧ L.newStartIdx ≤ L.newEndIdx
    · rw [if_pos hc, if_pos hc]
      simp only
      cases hs : updateChildrenStep E patchV createE pe canMove L with
      | error e => rfl
      | ok L1 =>
        simp only [bind, Except.bind]
        have := step_measure E patchV createE pe canMove L L1 hs
        exact ih L1 (by push_cast at hm; omega) k' (by omega)
    · rw [if_neg hc, if_neg hc]

/-- The call `updateChildren` is its loop, entered with the variables `Loop.start` and
run for `oldCh.length + newCh.length` iterations, followed by the additions or removals. -/
theorem updateChildren_start (E : Env) (fuel : Nat) (patchV : PatchFn) (createE : CreateFn)
    (st : St) (q : Queue) (pe : Option Nat) (oldCh : List (Option VNode))
    (newCh : List VNode) (removeOnly : Bool) :
    updateChildren E fuel patchV createE st q pe oldCh newCh removeOnly =
      (updateChildrenLoop E patchV createE pe (!removeOnly) (oldCh.length + newCh.length)
        (Loop.start (if E.production then st else checkDuplicateKeys st newCh) q oldCh newCh))
        >>= updateChildrenEnd E fuel createE pe := by
  rfl

/-! ### The loop does not run into its bound -/

theorem bind_eq_error {α β : Type} (x : Res α) (f : α → Res β) (e : Err) :
    (x >>= f) = Except.error e ↔
      x = Except.error e ∨ ∃ a, x = Except.ok a ∧ f a = Except.error e := by
  cases x <;> simp [bind, Except.bind]

theorem pure_ne_error {α : Type} (a : α) (e : Err) : (pure a : Res α) ≠ Except.error e := by
  simp [pure, Except.pure]

theorem throw_eq_error {α : Type} (e e' : Err) :
    (throw e : Res α) = Except.error e' ↔ e = e' := by
  simp [throw, throwThe, MonadExceptOf.throw]

theorem sameVnodeAt_bounded (E : Env) (a b : Option VNode) :
    sameVnodeAt E a b ≠ Except.error Err.outOfFuel := by
  unfold sameVnodeAt
  split
  · split
    · exact pure_ne_error _ _
    · rw [Ne, throw_eq_error]; decide
  · rw [Ne, throw_eq_error]; decide

theorem insertBefore_bounded (st : St) (p n : Nat) (ref : Option Nat) :
    nodeOps.insertBefore st p n ref ≠ Except.error Err.outOfFuel := by
  unfold nodeOps.insertBefore
  split
  · exact pure_ne_error _ _
  · split
    · split
      · exact pure_ne_error _ _
      · exact pure_ne_error _ _
    · rw [Ne, throw_eq_error]; decide

theorem moveBefore_bounded (st : St) (p n ref : Option Nat) :
    moveBefore st p n ref ≠ Except.error Err.outOfFuel := by
  unfold moveBefore
  split
  · exact insertBefore_bounded _ _ _ _
  · rw [Ne, throw_eq_error]; decide

theorem nextSiblingAt_bounded (st : St) (e : Option Nat) :
    nextSiblingAt st e ≠ Except.error Err.outOfFuel := by
  unfold nextSiblingAt
  split
  · exact pure_ne_error _ _
  · rw [Ne, throw_eq_error]; decide

theorem createKeyToOldIdxLoop_bounded (children : List (Option VNode)) :
    ∀ (count : Nat) (i : Int) (map : JsMap Int),
      createKeyToOldIdxLoop children count i map ≠ Except.error Err.outOfFuel := by
  intro count
  induction count with
  | zero => intro i map; unfold createKeyToOldIdxLoop; exact pure_ne_error _ _
  | succ c ih =>
    intro i map
    unfold createKeyToOldIdxLoop
    split
    · rw [Ne, throw_eq_error]; decide
    · split
      · exact ih _ _
      · exact ih _ _

theorem findIdxInOldLoop_bounded (E : Env) (node : VNode) (oldCh : List (Option VNode)) :
    ∀ (count : Nat) (i : Int),
      findIdxInOldLoop E node oldCh count i ≠ Except.error Err.outOfFuel := by
  intro count
  induction count with
  | zero => intro i; unfold findIdxInOldLoop; exact pure_ne_error _ _
  | succ c ih =>
    intro i
    unfold findIdxInOldLoop
    split
    · intro h
      rw [bind_eq_error] at h
      rcases h with h | ⟨b, _, h⟩
      · exact sameVnodeAt_bounded _ _ _ h
      · split at h
        · exact pure_ne_error _ _ h
        · exact ih _ h
    · exact ih _

theorem keyed_bounded (E : Env) (patchV : PatchFn) (createE : CreateFn) (pe : Option Nat)
    (canMove : Bool) (L : Loop) (o : VNode)
    (h : updateChildrenKeyed E patchV createE pe canMove L o = Except.error Err.outOfFuel) :
    NestedBound patchV createE := by
  unfold updateChildrenKeyed at h
  rw [bind_eq_error] at h
  rcases h with h | ⟨m, _, h⟩
  · split at h
    · exact absurd h (pure_ne_error _ _)
    · exact absurd h (createKeyToOldIdxLoop_bounded _ _ _ _)
  split at h
  · rw [throw_eq_error] at h; cases h
  · rename_i n hn
    rw [bind_eq_error] at h
    rcases h with h | ⟨idx, _, h⟩
    · split at h
      · exact absurd h (pure_ne_error _ _)
      · rw [bind_eq_error] at h
        rcases h with h | ⟨r, _, h⟩
        · exact absurd h (findIdxInOldLoop_bounded _ _ _ _ _)
        · exact absurd h (pure_ne_error _ _)
    have hcreate : (do
          let r ← createE L.st L.queue n pe o.elm false true
          pure { L with
            oldKeyToIdx := some m
            newCh := setAt L.newCh L.newStartIdx r.2.2
            st := r.1
            queue := r.2.1
            trace := L.trace ++ [Action.create L.newStartIdx]
            newStartIdx := L.newStartIdx + 1 } : Res Loop) = Except.error Err.outOfFuel →
        NestedBound patchV createE := by
      intro h2
      rw [bind_eq_error] at h2
      rcases h2 with h2 | ⟨r, _, h2⟩
      · exact Or.inr ⟨_, _, _, _, _, _, _, h2⟩
      · exact absurd h2 (pure_ne_error _ _)
    split at h
    · exact hcreate h
    · rw [throw_eq_error] at h; cases h
    · rename_i i
      rw [bind_eq_error] at h
      rcases h with h | ⟨b, _, h⟩
      · exact absurd h (sameVnodeAt_bounded _ _ _)
      split at h
      · split at h
        · rw [throw_eq_error] at h; cases h
        · rw [bind_eq_error] at h
          rcases h with h | ⟨r, _, h⟩
          · exact Or.inl ⟨_, _, _, _, h⟩
          · rw [bind_eq_error] at h
            rcases h with h | ⟨st1, _, h⟩
            · split at h
              · exact absurd h (moveBefore_bounded _ _ _ _)
              · exact absurd h (pure_ne_error _ _)
            · exact absurd h (pure_ne_error _ _)
      · exact hcreate h

theorem step_bounded (E : Env) (patchV : PatchFn) (createE : CreateFn) (pe : Option Nat)
    (canMove : Bool) (L : Loop)
    (h : updateChildrenStep E patchV createE pe canMove L = Except.error Err.outOfFuel) :
    NestedBound patchV createE := by
  unfold updateChildrenStep at h
  split at h
  · exact absurd h (pure_ne_error _ _)
  · split at h
    · exact absurd h (pure_ne_error _ _)
    · rw [bind_eq_error] at h
      rcases h with h | ⟨b1, _, h⟩
      · exact absurd h (sameVnodeAt_bounded _ _ _)
      split at h
      · rw [bind_eq_error] at h
        rcases h with h | ⟨r, _, h⟩
        · exact Or.inl ⟨_, _, _, _, h⟩
        · exact absurd h (pure_ne_error _ _)
      · rw [bind_eq_error] at h
        rcases h with h | ⟨b2, _, h⟩
        · exact absurd h (sameVnodeAt_bounded _ _ _)
        split at h
        · rw [bind_eq_error] at h
          rcases h with h | ⟨r, _, h⟩
          · exact Or.inl ⟨_, _, _, _, h⟩
          · exact absurd h (pure_ne_error _ _)
        · rw [bind_eq_error] at h
          rcases h with h | ⟨b3, _, h⟩
          · exact absurd h (sameVnodeAt_bounded _ _ _)
          split at h
          · rw [bind_eq_error] at h
            rcases h with h | ⟨r, _, h⟩
            · exact Or.inl ⟨_, _, _, _, h⟩
            · rw [bind_eq_error] at h
              rcases h with h | ⟨st1, _, h⟩
              · split at h
                · rw [bind_eq_error] at h
                  rcases h with h | ⟨ref, _, h⟩
                  · exact absurd h (nextSiblingAt_bounded _ _)
                  · exact absurd h (moveBefore_bounded _ _ _ _)
                · exact absurd h (pure_ne_error _ _)
              · exact absurd h (pure_ne_error _ _)
          · rw [bind_eq_error] at h
            rcases h with h | ⟨b4, _, h⟩
            · exact absurd h (sameVnodeAt_bounded _ _ _)
            split at h
            · rw [bind_eq_error] at h
              rcases h with h | ⟨r, _, h⟩
              · exact Or.inl ⟨_, _, _, _, h⟩
              · rw [bind_eq_error] at h
                rcases h with h | ⟨st1, _, h⟩
                · split at h
                  · exact absurd h (moveBefore_bounded _ _ _ _)
                  · exact absurd h (pure_ne_error _ _)
                · exact absurd h (pure_ne_error _ _)
            · exact keyed_bounded E patchV createE pe canMove L _ h

theorem loop_bounded (E : Env) (patchV : PatchFn) (createE : CreateFn) (pe : Option Nat)
    (canMove : Bool) :
    ∀ (n : Nat) (L : Loop), L.measure < (n : Int) →
      updateChildrenLoop E patchV createE pe canMove n L = Except.error Err.outOfFuel →
      NestedBound patchV createE := by
  intro n
  induction n with
  | zero =>
    intro L hm h
    have hc : ¬ (L.oldStartIdx ≤ L.oldEndIdx ∧ L.newStartIdx ≤ L.newEndIdx) := by
      unfold Loop.measure at hm
      simp only [Nat.cast_zero] at hm
      omega
    unfold updateChildrenLoop at h
    rw [if_neg hc] at h
    exact absurd h (pure_ne_error _ _)
  | succ n ih =>
    intro L hm h
    unfold updateChildrenLoop at h
    by_cases hc : L.oldStartIdx ≤ L.oldEndIdx ∧ L.newStartIdx ≤ L.newEndIdx
    · rw [if_pos hc] at h
      simp only at h
      rw [bind_eq_error] at h
      rcases h with h | ⟨L1, hs, h⟩
      · exact step_bounded E patchV createE pe canMove L h
      · have := step_measure E patchV createE pe canMove L L1 hs
        exact ih L1 (by push_cast at hm; omega) h
    · rw [if_neg hc] at h
      exact absurd h (pure_ne_error _ _)

theorem loop_exit (E : Env) (patchV : PatchFn) (createE : CreateFn) (pe : Option Nat)
    (canMove : Bool) :
    ∀ (n : Nat) (L L1 : Loop),
      updateChildrenLoop E patchV createE pe canMove n L = Except.ok L1 →
      ¬ (L1.oldStartIdx ≤ L1.oldEndIdx ∧ L1.newStartIdx ≤ L1.newEndIdx) := by
  intro n
  induction n with
  | zero =>
    intro L L1 h
    unfold updateChildrenLoop at h
    split at h
    · exact absurd h (throw_ne_ok _ _)
    · rename_i hc
      rw [pure_eq_ok] at h
      rw [← h]
      exact hc
  | succ n ih =>
    intro L L1 h
    unfold updateChildrenLoop at h
    split at h
    · simp only [bind_eq_ok] at h
      obtain ⟨L2, _, h⟩ := h
      exact ih L2 L1 h
    · rename_i hc
      rw [pure_eq_ok] at h
      rw [← h]
      exact hc

/-- C33: the main loop of `updateChildren` terminates. Run for any number `n` of
iterations above the measure `(oldEndIdx - oldStartIdx) + (newEndIdx - newStartIdx)`, the
loop does not run into that number: it fails with the recursion bound only when a call of
`patchVnode` or of `createElm` does (otherwise it returns or raises an exception of the
language or of the backend), when it returns one of the two ranges is exhausted, and it
gives the result it gives with every larger number. Every iteration that returns moves no
pointer away from the other end and moves at least one of the four toward it (the
fallback branch moves `newStartIdx` by one and no other pointer), so the measure decreases
strictly; and the `oldCh.length + newCh.length` iterations `updateChildren` is run with
are above the measure at the entry of the loop. -/
theorem updateChildrenLoop_terminates (E : Env) (patchV : PatchFn) (createE : CreateFn)
    (pe : Option Nat) (canMove : Bool) (L : Loop) (n k : Nat)
    (hn : L.measure < (n : Int)) (hk : n ≤ k) :
    (updateChildrenLoop E patchV createE pe canMove n L = Except.error Err.outOfFuel →
        NestedBound patchV createE) ∧
      (∀ L1, updateChildrenLoop E patchV createE pe canMove n L = Except.ok L1 →
        ¬ (L1.oldStartIdx ≤ L1.oldEndIdx ∧ L1.newStartIdx ≤ L1.newEndIdx)) ∧
      updateChildrenLoop E patchV createE pe canMove k L
        = updateChildrenLoop E patchV createE pe canMove n L ∧
      (∀ L1, updateChildrenStep E patchV createE pe canMove L = Except.ok L1 →
        L1.measure < L.measure ∧
        L.oldStartIdx ≤ L1.oldStartIdx ∧ L1.oldEndIdx ≤ L.oldEndIdx ∧
        L.newStartIdx ≤ L1.newStartIdx ∧ L1.newEndIdx ≤ L.newEndIdx ∧
        (L.oldStartIdx < L1.oldStartIdx ∨ L1.oldEndIdx < L.oldEndIdx ∨
          L.newStartIdx < L1.newStartIdx ∨ L1.newEndIdx < L.newEndIdx)) ∧
      (updateChildrenStep E patchV createE pe canMove L = Except.error Err.outOfFuel →
        NestedBound patchV createE) ∧
      (∀ o L1, updateChildrenKeyed E patchV createE pe canMove L o = Except.ok L1 →
        L1.newStartIdx = L.newStartIdx + 1 ∧ L1.oldStartIdx = L.oldStartIdx ∧
          L1.oldEndIdx = L.oldEndIdx ∧ L1.newEndIdx = L.newEndIdx) ∧
      (∀ (fuel : Nat) (st : St) (q : Queue) (oldCh : List (Option VNode)) (newCh : List VNode)
          (removeOnly : Bool),
        updateChildren E fuel patchV createE st q pe oldCh newCh removeOnly =
          (updateChildrenLoop E patchV createE pe (!removeOnly) (oldCh.length + newCh.length)
            (Loop.start (if E.production then st else checkDuplicateKeys st newCh) q oldCh
              newCh)) >>= updateChildrenEnd E fuel createE pe ∧
        (Loop.start (if E.production then st else checkDuplicateKeys st newCh) q oldCh
          newCh).measure < ((oldCh.length + newCh.length : Nat) : Int)) := by
  refine ⟨loop_bounded E patchV createE pe canMove n L hn,
    fun L1 h => loop_exit E patchV createE pe canMove n L L1 h,
    loop_fuel E patchV createE pe canMove n L hn k hk, fun L1 h => ?_,
    step_bounded E patchV createE pe canMove L,
    fun o L1 h => keyed_pointers E patchV createE pe canMove L L1 o h,
    fun fuel st q oldCh newCh removeOnly => ⟨rfl, ?_⟩⟩
  · have := step_pointers E patchV createE pe canMove L L1 h
    exact ⟨step_measure E patchV createE pe canMove L L1 h, this⟩
  · unfold Loop.start Loop.measure
    push_cast
    omega

/-- C33 (witness): the loop entered on the variables `exLoop`, whose measure is below 6,
with 6 and with 9 iterations allowed. -/
theorem updateChildrenLoop_terminates_witness :
    (updateChildrenLoop (exEnv true) (fun s q o n => patchVnode (exEnv true) 3 s q o n false)
          (createElm (exEnv true) 3) (some 0) true 6 exLoop = Except.error Err.outOfFuel →
        NestedBound (fun s q o n => patchVnode (exEnv true) 3 s q o n false)
          (createElm (exEnv true) 3)) ∧
      updateChildrenLoop (exEnv true) (fun s q o n => patchVnode (exEnv true) 3 s q o n false)
          (createElm (exEnv true) 3) (some 0) true 9 exLoop
        = updateChildrenLoop (exEnv true)
          (fun s q o n => patchVnode (exEnv true) 3 s q o n false)
          (createElm (exEnv true) 3) (some 0) true 6 exLoop :=
  have h := updateChildrenLoop_terminates (exEnv true)
    (fun s q o n => patchVnode (exEnv true) 3 s q o n false) (createElm (exEnv true) 3)
    (some 0) true exLoop 6 9 (by decide) (by decide)
  ⟨h.1, h.2.2.1⟩

/-! ## Two lists that are `sameVnode` index by index -/

theorem loop_done_any (E : Env) (patchV : PatchFn) (createE : CreateFn) (pe : Option Nat)
    (canMove : Bool) (fuel : Nat) (A : Parts) (h : A.oMid = [] ∨ A.nMid = []) :
    updateChildrenLoop E patchV createE pe canMove fuel A.toLoop = Except.ok A.toLoop := by
  have hc : ¬ (A.toLoop.oldStartIdx ≤ A.toLoop.oldEndIdx ∧
      A.toLoop.newStartIdx ≤ A.toLoop.newEndIdx) := by
    rw [toLoop_cond]
    intro hh
    rcases h with e | e
    · exact hh.1 e
    · exact hh.2 e
  cases fuel <;> (unfold updateChildrenLoop; rw [if_neg hc]; rfl)

theorem loop_step_any (E : Env) (patchV : PatchFn) (createE : CreateFn) (pe : Option Nat)
    (canMove : Bool) (fuel : Nat) (A A1 : Parts) (ho : A.oMid ≠ []) (hn : A.nMid ≠ [])
    (hstep : updateChildrenStep E patchV createE pe canMove A.toLoop = Except.ok A1.toLoop) :
    updateChildrenLoop E patchV createE pe canMove (fuel + 1) A.toLoop
      = updateChildrenLoop E patchV createE pe canMove fuel A1.toLoop := by
  conv => lhs; unfold updateChildrenLoop
  rw [if_pos ((toLoop_cond A).2 ⟨ho, hn⟩)]
  simp only [hstep, bind, Except.bind]

/-- When the old window and the new window are `sameVnode` pair by pair, the loop takes
the branch of the two start pointers at every iteration: it makes the calls of
`patchPairs`, in that order, and nothing else, and it never builds the key table. -/
theorem run_aligned (E : Env) (patchV : PatchFn) (createE : CreateFn) (pe : Option Nat)
    (canMove : Bool) :
    ∀ (X X' : List VNode),
      List.Forall₂ (fun o n => sameVnode E.isTextInputType o n = some true) X X' →
      ∀ (A : Parts) (fuel : Nat) (r : St × Queue × List VNode),
        A.oMid = X.map some → A.nMid = X' → X.length ≤ fuel →
        patchPairs patchV A.st A.queue X X' = Except.ok r →
        ∃ A' : Parts, updateChildrenLoop E patchV createE pe canMove fuel A.toLoop
            = Except.ok A'.toLoop ∧
          A'.oD1 = A.oD1 ++ X.map some ∧ A'.oMid = [] ∧ A'.oD2 = A.oD2 ∧
          A'.nF = A.nF ++ r.2.2 ∧ A'.nMid = [] ∧ A'.nB = A.nB ∧ A'.map = A.map ∧
          A'.st = r.1 ∧ A'.queue = r.2.1 ∧
          A'.trace = A.trace ++ (List.range X.length).map
            (fun (i : Nat) => Action.patch ((A.oD1.length : Int) + (i : Int))
              ((A.nF.length : Int) + (i : Int))) := by
  intro X X' h
  induction h with
  | nil =>
    intro A fuel r ho hn _ hp
    simp only [patchPairs, pure_eq_ok] at hp
    subst hp
    exact ⟨A, loop_done_any E patchV createE pe canMove fuel A (Or.inl ho), by simp, ho, rfl,
      by simp, hn, rfl, rfl, rfl, rfl, by simp⟩
  | @cons o n Xr Xr' hsame hrest ih =>
    intro A fuel r ho hn hfuel hp
    obtain ⟨f, hf⟩ : ∃ f, fuel = f + 1 := ⟨fuel - 1, by simp at hfuel; omega⟩
    subst hf
    have ho' : A.oMid = some o :: Xr.map some := by rw [ho]; rfl
    obtain ⟨Mi, oe, hoe⟩ : ∃ Mi oe, A.oMid = Mi ++ [some oe] := by
      rcases List.eq_nil_or_concat (o :: Xr) with e | ⟨Z, z, e⟩
      · cases e
      · rw [List.concat_eq_append] at e
        exact ⟨Z.map some, z, by rw [ho, e]; simp⟩
    simp only [patchPairs, bind_eq_ok, pure_eq_ok] at hp
    obtain ⟨r1, hr1, r2, hr2, hp⟩ := hp
    have hstep := step_matchStart E patchV createE pe canMove A o oe (Xr.map some) n Xr'
      r1 ho' (toLoop_oldEnd A (some oe) Mi hoe) hn ((sameVnodeAt_eq E o n true).2 hsame) hr1
    obtain ⟨A', hrun, h1, h2, h3, h4, h5, h6, h7, h8, h9, h10⟩ :=
      ih ⟨A.oD1 ++ [some o], Xr.map some, A.oD2, A.nF ++ [r1.2.2], Xr', A.nB, A.map, r1.1,
        r1.2.1, A.trace ++ [Action.patch A.oD1.length A.nF.length]⟩ f r2 rfl rfl
      (by simp at hfuel; omega) hr2
    refine ⟨A', ?_, ?_, h2, h3, ?_, h5, h6, h7, ?_, ?_, ?_⟩
    · rw [loop_step_any E patchV createE pe canMove f A _ (by rw [ho']; simp)
        (by rw [hn]; simp) hstep]
      exact hrun
    · rw [h1]; simp
    · rw [h4, ← hp]; simp
    · rw [h8, ← hp]
    · rw [h9, ← hp]
    · rw [h10, List.length_cons, range_succ_map]
      simp only [List.length_append, List.length_singleton, List.append_assoc,
        List.singleton_append, Nat.cast_add, Nat.cast_one, Nat.cast_zero, add_zero]
      congr 2
      apply List.map_congr_left
      intro i _
      congr 1 <;> ring

theorem patchPairs_length (patchV : PatchFn) :
    ∀ (X X' : List VNode) (st : St) (q : Queue) (r : St × Queue × List VNode),
      X.length = X'.length → patchPairs patchV st q X X' = Except.ok r →
      r.2.2.length = X.length := by
  intro X
  induction X with
  | nil =>
    intro X' st q r _ h
    simp only [patchPairs, pure_eq_ok] at h
    rw [← h]
  | cons o X ih =>
    intro X' st q r hl h
    cases X' with
    | nil => cases hl
    | cons n X' =>
      simp only [patchPairs, bind_eq_ok, pure_eq_ok] at h
      obtain ⟨r1, _, r2, hr2, h⟩ := h
      rw [← h]
      simp only [List.length_cons]
      rw [ih X' _ _ r2 (by simpa using hl) hr2]

theorem ok_of_errorOf {α : Type} (x : Res α) (h : errorOf x = none) : ∃ r, x = Except.ok r := by
  cases x with
  | error e => cases h
  | ok r => exact ⟨r, rfl⟩

/-- C34: when `oldCh` and `newCh` have the same length and `sameVnode(oldCh[i], newCh[i])`
holds at every index, `updateChildren` makes the calls `patchVnode(oldCh[i], newCh[i])` in
increasing index order and nothing else at its own level: when these calls raise no error,
the call returns the state and the queue they leave, its actions are the patches `(i, i)`
for `i = 0, 1, ...` (no creation, no move, no removal) and the key table is never built. -/
theorem updateChildren_aligned (E : Env) (fuel : Nat) (patchV : PatchFn) (createE : CreateFn)
    (st : St) (q : Queue) (pe : Option Nat) (olds news : List VNode) (removeOnly : Bool)
    (hsame : List.Forall₂ (fun o n => sameVnode E.isTextInputType o n = some true) olds news)
    (hpatch : errorOf (patchPairs patchV
      (if E.production then st else checkDuplicateKeys st news) q olds news) = none) :
    ∃ L r, patchPairs patchV (if E.production then st else checkDuplicateKeys st news) q
        olds news = Except.ok r ∧
      updateChildren E fuel patchV createE st q pe (olds.map some) news removeOnly
        = Except.ok L ∧
      L.st = r.1 ∧ L.queue = r.2.1 ∧ L.newCh = r.2.2 ∧
      L.trace = (List.range olds.length).map (fun (i : Nat) => Action.patch i i) ∧
      L.oldKeyToIdx = none := by
  obtain ⟨r, hr⟩ := ok_of_errorOf _ hpatch
  obtain ⟨A', hrun, h1, h2, h3, h4, h5, h6, h7, h8, h9, h10⟩ :=
    run_aligned E patchV createE pe (!removeOnly) olds news hsame
      ⟨[], olds.map some, [], [], news, [], none,
        if E.production then st else checkDuplicateKeys st news, q, []⟩
      ((olds.map some).length + news.length) r rfl rfl (by simp) hr
  have hstart : Loop.start (if E.production then st else checkDuplicateKeys st news) q
      (olds.map some) news = (⟨[], olds.map some, [], [], news, [], none,
        if E.production then st else checkDuplicateKeys st news, q, []⟩ : Parts).toLoop := by
    apply loop_eq <;> simp [Parts.toLoop, Loop.start]
  have hgt : A'.toLoop.oldStartIdx > A'.toLoop.oldEndIdx := by
    show (A'.oD1.length : Int) > (A'.oD1.length : Int) + (A'.oMid.length : Int) - 1
    rw [h2]
    simp
  have hcount : (A'.toLoop.newEndIdx - A'.toLoop.newStartIdx + 1).toNat = 0 := by
    show ((A'.nF.length : Int) + (A'.nMid.length : Int) - 1 - (A'.nF.length : Int) + 1).toNat = 0
    rw [h5]
    simp
  refine ⟨{ A'.toLoop with trace := A'.toLoop.trace ++ [] }, r, hr, ?_, h8, h9, ?_, ?_, h7⟩
  · rw [updateChildren_start, hstart, hrun]
    simp only [bind, Except.bind]
    unfold updateChildrenEnd
    rw [if_pos hgt]
    unfold addVnodes
    rw [hcount]
    simp only [addVnodesLoop, bind, Except.bind, pure, Except.pure, List.range_zero,
      List.map_nil]
    rfl
  · show A'.nF ++ (A'.nMid ++ A'.nB) = r.2.2
    rw [h4, h5, h6]
    simp
  · show A'.trace ++ [] = _
    rw [h10]
    simp

theorem updateChildren_aligned_witness :
    ∃ L r, patchPairs (fun s q o n => patchVnode (exEnv true) 3 s q o n false)
        (if (exEnv true).production then exSt (exFlatDom 2)
          else checkDuplicateKeys (exSt (exFlatDom 2)) exAlignedNew) []
        exAlignedOld exAlignedNew = Except.ok r ∧
      updateChildren (exEnv true) 3
          (fun s q o n => patchVnode (exEnv true) 3 s q o n false) (createElm (exEnv true) 3)
          (exSt (exFlatDom 2)) [] (some 0) (exAlignedOld.map some) exAlignedNew false
        = Except.ok L ∧
      L.st = r.1 ∧ L.queue = r.2.1 ∧ L.newCh = r.2.2 ∧
      L.trace = (List.range exAlignedOld.length).map (fun (i : Nat) => Action.patch i i) ∧
      L.oldKeyToIdx = none :=
  updateChildren_aligned (exEnv true) 3
    (fun s q o n => patchVnode (exEnv true) 3 s q o n false) (createElm (exEnv true) 3)
    (exSt (exFlatDom 2)) [] (some 0) exAlignedOld exAlignedNew false
    (List.Forall₂.cons (by decide) (List.Forall₂.cons (by decide) List.Forall₂.nil))
    (by decide)
/-! ## `dependArray` -/

theorem depend_heap (st : OSt) (dep : Nat) :
    (depend st dep).heap = st.heap ∧ (depend st dep).observers = st.observers :=
  ⟨(depend_onlyDeps st dep).1, (depend_onlyDeps st dep).2.1⟩

theorem foldl_depend_heap (l : List Nat) :
    ∀ st : OSt, (l.foldl depend st).heap = st.heap ∧
      (l.foldl depend st).observers = st.observers := by
  induction l with
  | nil => intro st; exact ⟨rfl, rfl⟩
  | cons x l ih =>
    intro st
    rw [List.foldl_cons]
    exact ⟨(ih _).1.trans (depend_heap st x).1, (ih _).2.trans (depend_heap st x).2⟩

theorem arraySize_pos (heap : List ObjRec) (d : Nat) (elems : List Val) :
    1 ≤ arraySize heap d elems := by
  cases d with
  | zero => exact Nat.le_refl _
  | succ d =>
    unfold arraySize
    omega

/-- On a finitely nested array whose `__ob__` properties are observers, `dependArray`
returns once it is given as many steps as the array has elements at all depths, and what
it does is to call `depend` on the `Dep`s of `arrayDeps`, in that order. -/
theorem dependArray_run :
    ∀ (fuel d : Nat) (st : OSt) (heap : List ObjRec) (observers : List Observer)
      (elems : List Val),
      st.heap = heap → st.observers = observers →
      dependable heap observers d elems = true → arraySize heap d elems ≤ fuel →
      dependArray fuel st elems
        = Except.ok ((arrayDeps heap observers d elems).foldl depend st) := by
  intro fuel
  induction fuel with
  | zero =>
    intro d st heap observers elems _ _ _ hs
    have := arraySize_pos heap d elems
    omega
  | succ fuel ih =>
    intro d st heap observers elems hh ho hd hs
    cases d with
    | zero => simp [dependable] at hd
    | succ d =>
      cases elems with
      | nil => rfl
      | cons e rest =>
        have hdr : dependable heap observers (d + 1) rest = true := by
          unfold dependable at hd ⊢
          simp only [List.all_cons, Bool.and_eq_true] at hd
          exact hd.2
        have hsr : arraySize heap (d + 1) rest ≤ fuel := by
          unfold arraySize at hs ⊢
          simp only [List.map_cons, List.sum_cons] at hs
          cases e <;> simp only at hs <;> omega
        have hrest : ∀ s : OSt, s.heap = heap → s.observers = observers →
            dependArray fuel s rest
              = Except.ok ((arrayDeps heap observers (d + 1) rest).foldl depend s) :=
          fun s h1 h2 => ih (d + 1) s heap observers rest h1 h2 hdr hsr
        have hnone : (∀ a, e ≠ Val.ref a) →
            dependArray (fuel + 1) st (e :: rest)
              = Except.ok ((arrayDeps heap observers (d + 1) (e :: rest)).foldl depend st) := by
          intro hne
          have e1 : dependArray (fuel + 1) st (e :: rest) = dependArray fuel st rest := by
            cases e with
            | ref a => exact absurd rfl (hne a)
            | _ => rfl
          have e2 : arrayDeps heap observers (d + 1) (e :: rest)
              = arrayDeps heap observers (d + 1) rest := by
            cases e with
            | ref a => exact absurd rfl (hne a)
            | _ => simp [arrayDeps]
          rw [e1, e2]
          exact hrest st hh ho
        cases e with
        | ref a =>
          have hobj : st.obj a = heap.getD a default := by
            unfold OSt.obj
            rw [hh]
          have hde : (match (heap.getD a default).ob with
              | ObProp.absent => true
              | ObProp.foreign _ => false
              | ObProp.observer i => decide (i < observers.length)) = true ∧
              (if (heap.getD a default).kind = ObjKind.array then
                dependable heap observers d (heap.getD a default).elems else true) = true := by
            unfold dependable at hd
            simp only [List.all_cons, Bool.and_eq_true] at hd
            exact hd.1
          -- the registration on the element itself
          have h1 : (match (st.obj a).ob with
              | ObProp.absent => (pure st : Res OSt)
              | ObProp.foreign _ => throw Err.typeError
              | ObProp.observer i =>
                match st.observers.get? i with
                | some ob => pure (depend st ob.dep)
                | none => throw Err.typeError)
              = Except.ok ((observerDep heap observers a).foldl depend st) := by
            rw [hobj, ho]
            unfold observerDep
            cases hob : (heap.getD a default).ob with
            | absent => rfl
            | foreign c =>
              rw [hob] at hde
              exact absurd hde.1 (by simp)
            | observer i =>
              rw [hob] at hde
              have hi : i < observers.length := by simpa using hde.1
              have : observers.get? i = some (observers.get ⟨i, hi⟩) := by
                rw [List.get?_eq_get hi]
              simp only [this]
              rfl
          have hst1 := foldl_depend_heap (observerDep heap observers a) st
          -- the visit of the element when it is an array
          have h2 : (if (st.obj a).kind = ObjKind.array then
                dependArray fuel ((observerDep heap observers a).foldl depend st)
                  (st.obj a).elems
              else pure ((observerDep heap observers a).foldl depend st))
              = Except.ok ((if (heap.getD a default).kind = ObjKind.array then
                  arrayDeps heap observers d (heap.getD a default).elems else []).foldl depend
                  ((observerDep heap observers a).foldl depend st)) := by
            rw [hobj]
            by_cases hk : (heap.getD a default).kind = ObjKind.array
            · rw [if_pos hk, if_pos hk]
              have hsub : arraySize heap d (heap.getD a default).elems ≤ fuel := by
                unfold arraySize at hs
                simp only [List.map_cons, List.sum_cons, if_pos hk] at hs
                omega
              have hdd := hde.2
              rw [if_pos hk] at hdd
              exact ih d _ heap observers _ (hst1.1.trans hh) (hst1.2.trans ho) hdd hsub
            · rw [if_neg hk, if_neg hk]
              rfl
          have hst2 := foldl_depend_heap (if (heap.getD a default).kind = ObjKind.array then
              arrayDeps heap observers d (heap.getD a default).elems else [])
            ((observerDep heap observers a).foldl depend st)
          have h3 := hrest _ ((hst2.1.trans hst1.1).trans hh) ((hst2.2.trans hst1.2).trans ho)
          have e2 : arrayDeps heap observers (d + 1) (Val.ref a :: rest)
              = (observerDep heap observers a ++
                  (if (heap.getD a default).kind = ObjKind.array then
                    arrayDeps heap observers d (heap.getD a default).elems else [])) ++
                arrayDeps heap observers (d + 1) rest := by
            simp [arrayDeps]
          rw [e2, List.foldl_append, List.foldl_append, ← h3]
          show ((match (st.obj a).ob with
              | ObProp.absent => (pure st : Res OSt)
              | ObProp.foreign _ => throw Err.typeError
              | ObProp.observer i =>
                match st.observers.get? i with
                | some ob => pure (depend st ob.dep)
                | none => throw Err.typeError) >>= fun st1 =>
              (if (st.obj a).kind = ObjKind.array then dependArray fuel st1 (st.obj a).elems
                else pure st1) >>= fun st2 => dependArray fuel st2 rest) = _
          rw [h1]
          simp only [bind, Except.bind]
          rw [h2]
        | undefined => exact hnone (fun a h => by cases h)
        | null => exact hnone (fun a h => by cases h)
        | bool b => exact hnone (fun a h => by cases h)
        | num k => exact hnone (fun a h => by cases h)
        | nan => exact hnone (fun a h => by cases h)
        | str s => exact hnone (fun a h => by cases h)

/-- C35: for every array value that is finitely nested (at most `d` levels of arrays) and
in which every `__ob__` property met is an observer, `dependArray` terminates (it returns
once it is given as many steps as the array value has elements) and what it does is one
call of `depend` on the observer `Dep` of every element, at every depth of array nesting,
that carries an observer, in the order of the visit, and nothing else; it descends into
the elements of nested arrays only, never into the properties of an element. -/
theorem dependArray_registers (fuel d : Nat) (st : OSt) (elems : List Val)
    (hd : dependable st.heap st.observers d elems = true)
    (hfuel : arraySize st.heap d elems ≤ fuel) :
    dependArray fuel st elems
      = Except.ok ((arrayDeps st.heap st.observers d elems).foldl depend st) :=
  dependArray_run fuel d st st.heap st.observers elems rfl rfl hd hfuel

theorem dependArray_registers_witness :
    dependArray 9 nestedArray [Val.ref 1, Val.ref 2, Val.num 5]
      = Except.ok ((arrayDeps nestedArray.heap nestedArray.observers 2
          [Val.ref 1, Val.ref 2, Val.num 5]).foldl depend nestedArray) :=
  dependArray_registers 9 2 nestedArray [Val.ref 1, Val.ref 2, Val.num 5] (by decide)
    (by decide)

/-- The array `[[r], s, 5]`: the `Dep`s registered on are those of the inner array, of `r`
and of `s`, and the computation is a subscriber of these three and of no other `Dep` (not
of the one of the record that `r` holds in a property). -/
theorem dependArray_example :
    arrayDeps nestedArray.heap nestedArray.observers 2 [Val.ref 1, Val.ref 2, Val.num 5]
        = [1, 3, 2] ∧
      (dependArray 9 nestedArray [Val.ref 1, Val.ref 2, Val.num 5]).toOption.map
        (fun s => s.deps) = some [[], [7], [7], [7], []] := by
  decide

/-- An element whose own `__ob__` property holds an object that is not an observer makes
`dependArray` raise a `TypeError` (at `e.__ob__.dep.depend()`), before the observer of the
next element is registered on. -/
theorem dependArray_registers_counterexample :
    errorOf (dependArray 9 foreignArray [Val.ref 1, Val.ref 2]) = some Err.typeError ∧
      (foreignArray.obj 2).ob = ObProp.observer 0 ∧
      (foreignArray.obj 1).kind ≠ ObjKind.array := by
  decide
/-! ## Hydration of a mismatching tree -/

theorem hydrateChildren_mismatch (hyd : HydrateFn) (inVPre : Bool) (dom : Dom) (e : Nat)
    (mis fine : Nat → VNode → Bool)
    (hfine : ∀ x c, fine x c = true → ∀ (st : St) (q : Queue), st.dom = dom →
      ∃ r, hyd st q (some x) c inVPre = Except.ok r ∧ r.2.2.2 = true ∧ r.1.dom = st.dom ∧
        nodeOpsOf r.1.log = nodeOpsOf st.log)
    (hmis : ∀ x c, mis x c = true → ∀ (st : St) (q : Queue), st.dom = dom →
      ∃ r, hyd st q (some x) c inVPre = Except.ok r ∧ r.2.2.2 = false ∧ r.1.dom = st.dom ∧
        nodeOpsOf r.1.log = nodeOpsOf st.log) :
    ∀ (xs : List Nat) (cs : List VNode) (pre : List Nat),
      dom.children e = pre ++ xs → (pre ++ xs).Nodup → (∀ x ∈ xs, dom.parent x = some e) →
      childrenMismatch mis fine xs cs = true →
      ∀ (st : St) (q : Queue), st.dom = dom →
        ∃ r, hydrateChildren hyd inVPre st q xs.head? cs = Except.ok r ∧
          (r.2.2.2.1 = false ∨ r.2.2.2.2.isSome = true) ∧ r.1.dom = st.dom ∧
          nodeOpsOf r.1.log = nodeOpsOf st.log := by
  intro xs
  induction xs with
  | nil =>
    intro cs pre _ _ _ hcm st q _
    cases cs with
    | nil => simp [childrenMismatch] at hcm
    | cons c cs => exact ⟨(st, q, c :: cs, false, none), rfl, Or.inl rfl, rfl, rfl⟩
  | cons x xs ih =>
    intro cs pre hch hnd hpar hcm st q hst
    cases cs with
    | nil => exact ⟨(st, q, [], true, some x), rfl, Or.inr rfl, rfl, rfl⟩
    | cons c cs =>
      simp only [childrenMismatch, Bool.or_eq_true, Bool.and_eq_true] at hcm
      rcases hcm with hm | ⟨hf, hrest⟩
      · obtain ⟨r1, h1, ht1, hd1, hl1⟩ := hmis x c hm st q hst
        refine ⟨(r1.1, r1.2.1, r1.2.2.1 :: cs, false, some x), ?_, Or.inl rfl, hd1, hl1⟩
        unfold hydrateChildren
        simp only [List.head?_cons, h1, ht1, bind, Except.bind, pure, Except.pure,
          Bool.false_eq_true, if_false]
      · obtain ⟨r1, h1, ht1, hd1, hl1⟩ := hfine x c hf st q hst
        have hxpre : x ∉ pre := fun h => (List.nodup_append.1 hnd).2.2 h (by simp)
        have hnext : nodeOps.nextSibling r1.1 x = xs.head? := by
          unfold nodeOps.nextSibling
          rw [hd1, hst, hpar x (List.mem_cons_self _ _)]
          simp only [hch]
          exact nextIn_boundary x pre xs hxpre
        obtain ⟨r2, h2, ht2, hd2, hl2⟩ := ih cs (pre ++ [x])
          (by rw [hch]; simp) (by simpa using hnd)
          (fun y hy => hpar y (List.mem_cons_of_mem _ hy)) hrest r1.1 r1.2.1
          (by rw [hd1, hst])
        refine ⟨(r2.1, r2.2.1, r1.2.2.1 :: r2.2.2.1, r2.2.2.2.1, r2.2.2.2.2), ?_, ht2,
          by rw [hd2, hd1], by rw [hl2, hl1]⟩
        unfold hydrateChildren
        simp only [List.head?_cons, h1, ht1, hnext, h2, bind, Except.bind, pure, Except.pure,
          if_true]

/-- The test of `assertNodeMatch` fails on a node that mismatches itself. -/
theorem nodeMatch_fails (E : Env) (st : St) (e : Nat) (v v1 : VNode) (inV : Bool)
    (hp : E.production = false)
    (h1 : v1.tag = v.tag) (h2 : v1.ns = v.ns) (h3 : v1.isComment = v.isComment)
    (hm : match v.tag with
      | none => st.dom.kind e ≠ (if v.isComment then NodeKind.comment else NodeKind.text)
      | some tag => "vue-component".isPrefixOf tag = false ∧
          (isUnknownElement E v tag inV = true ∨
            (match st.dom.kind e with
              | NodeKind.element t _ => some t
              | _ => none).map String.toLower ≠ some tag.toLower)) :
    (if E.production = true then (pure true : Res Bool)
      else assertNodeMatch E st (some e) v1 inV) = Except.ok false := by
  rw [if_neg (by rw [hp]; simp)]
  unfold assertNodeMatch
  rw [h1]
  cases ht : v.tag with
  | none =>
    rw [ht] at hm
    simp only at hm ⊢
    rw [h3]
    simp only [pure, Except.pure, Except.ok.injEq, decide_eq_false_iff_not]
    exact hm
  | some tag =>
    rw [ht] at hm
    simp only at hm ⊢
    rw [if_neg (by rw [hm.1]; simp)]
    have hu : isUnknownElement E v1 tag inV = isUnknownElement E v tag inV := by
      unfold isUnknownElement
      rw [h2]
    rw [hu]
    rcases hm.2 with h | h
    · rw [if_pos h]; rfl
    · by_cases hk : isUnknownElement E v tag inV = true
      · rw [if_pos hk]; rfl
      · rw [if_neg hk]
        simp only [pure, Except.pure, Except.ok.injEq, decide_eq_false_iff_not]
        exact h

/-- The test of `assertNodeMatch` succeeds on a node that is fine itself. -/
theorem nodeMatch_passes (E : Env) (st : St) (e : Nat) (v v1 : VNode) (inV : Bool)
    (tag : String) (ht : v.tag = some tag)
    (h1 : v1.tag = v.tag) (h2 : v1.ns = v.ns)
    (hm : E.production = true ∨ "vue-component".isPrefixOf tag = true ∨
      (isUnknownElement E v tag inV = false ∧
        (match st.dom.kind e with
          | NodeKind.element t _ => some t
          | _ => none).map String.toLower = some tag.toLower)) :
    (if E.production = true then (pure true : Res Bool)
      else assertNodeMatch E st (some e) v1 inV) = Except.ok true := by
  by_cases hp : E.production = true
  · rw [if_pos hp]; rfl
  · rw [if_neg hp]
    unfold assertNodeMatch
    rw [h1, ht]
    simp only
    by_cases hpre : "vue-component".isPrefixOf tag = true
    · rw [if_pos hpre]; rfl
    · rw [if_neg hpre]
      rcases hm with h | h | ⟨hu, hk⟩
      · exact absurd h hp
      · exact absurd h hpre
      · have hu1 : isUnknownElement E v1 tag inV = false := by
          unfold isUnknownElement at hu ⊢
          rw [h2]; exact hu
        rw [hu1]
        simp only [Bool.false_eq_true, if_false, pure, Except.pure, Except.ok.injEq,
          decide_eq_true_eq]
        exact hk

theorem mismatched_cases (E : Env) (d : Nat) (inVPre0 : Bool) (dom : Dom) (e : Nat)
    (v : VNode) (hm : mismatched E (d + 1) inVPre0 dom e v = true) :
    (v.isComment && v.asyncFactory.isSome) = false ∧
    ((E.production = false ∧
      (match v.tag with
        | none => dom.kind e ≠ (if v.isComment then NodeKind.comment else NodeKind.text)
        | some tag => "vue-component".isPrefixOf tag = false ∧
          (isUnknownElement E v tag (inVPre0 || ((v.data.map (fun d => d.pre)) = some true))
              = true ∨
            (match dom.kind e with
              | NodeKind.element t _ => some t
              | _ => none).map String.toLower ≠ some tag.toLower))) ∨
    (∃ tag cs, v.tag = some tag ∧ v.children = some cs ∧
      (E.production = true ∨ "vue-component".isPrefixOf tag = true ∨
        (isUnknownElement E v tag (inVPre0 || ((v.data.map (fun d => d.pre)) = some true))
            = false ∧
          (match dom.kind e with
            | NodeKind.element t _ => some t
            | _ => none).map String.toLower = some tag.toLower)) ∧
      v.componentInstance = none ∧
      (v.data.bind (fun x => x.hook)).bind (fun h => h.init) = none ∧
      v.data.bind (fun d => d.domProps.bind (fun p => p.innerHTML)) = none ∧
      dom.children e ≠ [] ∧ (dom.children e).Nodup ∧
      (∀ x ∈ dom.children e, dom.parent x = some e) ∧
      childrenMismatch
        (fun x c => mismatched E d
          (inVPre0 || ((v.data.map (fun d => d.pre)) = some true)) dom x c)
        (fun x c => matchesTree d dom x c &&
          hydratable E d (inVPre0 || ((v.data.map (fun d => d.pre)) = some true)) c)
        (dom.children e) cs = true)) := by
  unfold mismatched at hm
  rw [Bool.and_eq_true] at hm
  obtain ⟨hasync, hm⟩ := hm
  simp only [Bool.not_eq_true'] at hasync
  refine ⟨hasync, ?_⟩
  cases ht : v.tag with
  | none =>
    rw [ht] at hm
    simp only [Bool.and_eq_true, Bool.not_eq_true', decide_eq_true_eq] at hm
    exact Or.inl ⟨hm.1, hm.2⟩
  | some tag =>
    rw [ht] at hm
    simp only [Bool.or_eq_true, Bool.and_eq_true, Bool.not_eq_true', decide_eq_true_eq,
      Option.isNone_iff_eq_none] at hm
    rcases hm with ⟨⟨hp, hpre⟩, hmm⟩ | ⟨⟨⟨⟨hpass, hci⟩, hinit⟩, hinner⟩, hkids⟩
    · exact Or.inl ⟨hp, hpre, hmm⟩
    · right
      cases hc : v.children with
      | none => rw [hc] at hkids; cases hkids
      | some cs =>
        rw [hc] at hkids
        simp only [Bool.and_eq_true, Bool.not_eq_true', decide_eq_true_eq,
          List.all_eq_true, List.isEmpty_eq_false] at hkids
        obtain ⟨⟨⟨h1, h2⟩, h3⟩, h4⟩ := hkids
        refine ⟨tag, cs, rfl, rfl, ?_, hci, hinit, hinner, h1, h2, h3, h4⟩
        rcases hpass with (h | h) | h
        · exact Or.inl h
        · exact Or.inr (Or.inl h)
        · exact Or.inr (Or.inr h)

theorem hydrate_mismatch_step (E : Env) (cE : Nat → CreateFn) (d : Nat)
    (ih : ∀ (dom : Dom) (e : Nat) (v : VNode) (inVPre0 : Bool),
      mismatched E d inVPre0 dom e v = true →
      ∀ (st : St) (q : Queue), st.dom = dom →
        ∃ r, hydrate E cE d st q (some e) v inVPre0 = Except.ok r ∧ r.2.2.2 = false ∧
          r.1.dom = st.dom ∧ nodeOpsOf r.1.log = nodeOpsOf st.log)
    (dom : Dom) (e : Nat) (v : VNode) (inVPre0 : Bool)
    (hm : mismatched E (d + 1) inVPre0 dom e v = true)
    (st : St) (q : Queue) (hst : st.dom = dom) :
    ∃ r, hydrate E cE (d + 1) st q (some e) v inVPre0 = Except.ok r ∧ r.2.2.2 = false ∧
      r.1.dom = st.dom ∧ nodeOpsOf r.1.log = nodeOpsOf st.log := by
  subst hst
  obtain ⟨hasync, hcase⟩ := mismatched_cases E d inVPre0 st.dom e v hm
  unfold hydrate
  simp only
  generalize hv1 : ({ v with elm := some e } : VNode) = v1
  have hf : v1.tag = v.tag ∧ v1.ns = v.ns ∧ v1.isComment = v.isComment ∧
      v1.asyncFactory = v.asyncFactory ∧ v1.data = v.data ∧
      v1.componentInstance = v.componentInstance ∧ v1.children = v.children ∧
      v1.text = v.text ∧ v1.elm = some e ∧ v1.parent = v.parent := by
    rw [← hv1]
    exact ⟨rfl, rfl, rfl, rfl, rfl, rfl, rfl, rfl, rfl, rfl⟩
  obtain ⟨f1, f2, f3, f4, f5, f6, f7, f8, f9, f10⟩ := hf
  have hasync' : (v1.isComment && v1.asyncFactory.isSome) = false := by
    rw [f3, f4]; exact hasync
  simp only [hasync, hasync', Bool.false_eq_true, if_false]
  rcases hcase with ⟨hp, hmm⟩ | ⟨tag, cs, ht, hcs, hpass, hci, hinit, hinner, hne, hnd, hpar, hcm⟩
  · rw [nodeMatch_fails E st e v v1 _ hp f1 f2 f3 hmm]
    exact ⟨(st, q, v1, false), rfl, rfl, rfl, rfl⟩
  · have hnm := nodeMatch_passes E st e v v1
      (inVPre0 || ((v.data.map (fun d => d.pre)) = some true)) tag ht f1 f2 hpass
    have hinit' : v1.data.bind (fun d => d.hook.bind (fun h => h.init)) = none := by
      rw [f5]
      cases hd : v.data with
      | none => rfl
      | some data =>
        rw [hd] at hinit
        exact hinit
    have hci' : v1.componentInstance = none := by rw [f6]; exact hci
    have hinitv : v.data.bind (fun d => d.hook.bind (fun h => h.init)) = none := by
      rw [← f5]; exact hinit'
    have htag1 : v1.tag = some tag := by rw [f1]; exact ht
    have hch1 : v1.children = some cs := by rw [f7]; exact hcs
    have hin : v1.data.bind (fun a => a.domProps.bind (fun p => p.innerHTML)) = none := by
      rw [f5]; exact hinner
    simp only [hnm, bind, Except.bind, Bool.not_true, hinit', hinitv, hci',
      Option.isSome_none, Bool.and_false, Bool.false_eq_true, if_false, htag1, hch1,
      if_neg hne, hin]
    obtain ⟨h, hh, hres, hd1, hl1⟩ := hydrateChildren_mismatch
      (hydrate E cE d) (inVPre0 || ((v.data.map (fun d => d.pre)) = some true)) st.dom e
      (fun x c => mismatched E d
        (inVPre0 || ((v.data.map (fun d => d.pre)) = some true)) st.dom x c)
      (fun x c => matchesTree d st.dom x c &&
        hydratable E d (inVPre0 || ((v.data.map (fun d => d.pre)) = some true)) c)
      (fun x c hp s q' hs => by
        simp only [Bool.and_eq_true] at hp
        obtain ⟨r, e1, e2, e3, e4, _⟩ := hydrate_spec E cE d st.dom x c _ hp.1 hp.2 s q' hs
        exact ⟨r, e1, e2, e3, e4⟩)
      (fun x c hp s q' hs => ih st.dom x c _ hp s q' hs)
      (st.dom.children e) cs [] rfl hnd hpar hcm st q rfl
    rw [hh]
    have hcond : (!h.2.2.2.1 || h.2.2.2.2.isSome) = true := by
      rcases hres with h1 | h1
      · rw [h1]; rfl
      · rw [h1]; simp
    simp only [hcond, if_true, pure, Except.pure, Bool.not_false]
    refine ⟨_, rfl, rfl, ?_, ?_⟩
    · rw [← hd1]
      split <;> rfl
    · rw [← hl1]
      split
      · rfl
      · exact (emit_hook_ops { h.1 with hydrationBailed := true }
          (Op.warn "Mismatching childNodes vs. VNodes: ") rfl).1

/-- On a backend tree and a vnode tree that mismatch at a place `hydrate` detects, all
that is visited before matching exactly, `hydrate` returns false and leaves the backend
tree as it is. -/
theorem hydrate_mismatch (E : Env) (cE : Nat → CreateFn) :
    ∀ (d : Nat) (dom : Dom) (e : Nat) (v : VNode) (inVPre0 : Bool),
      mismatched E d inVPre0 dom e v = true →
      ∀ (st : St) (q : Queue), st.dom = dom →
        ∃ r, hydrate E cE d st q (some e) v inVPre0 = Except.ok r ∧ r.2.2.2 = false ∧
          r.1.dom = st.dom ∧ nodeOpsOf r.1.log = nodeOpsOf st.log := by
  intro d
  induction d with
  | zero => intro dom e v _ h; unfold mismatched at h; cases h
  | succ d ih =>
    intro dom e v inVPre0 hm st q hst
    exact hydrate_mismatch_step E cE d ih dom e v inVPre0 hm st q hst

/-- C31: for every backend tree and vnode tree that mismatch at a place `hydrate` detects
(outside production mode a child, at any depth, whose tag or node kind differs from the
one of its backend node; in any mode a backend node that has children, but more or fewer
of them than its vnode), everything that is visited before that place matching exactly and
being hydratable: `hydrate` returns false, the backend tree (structure and text data) is
exactly as before the call and no node operation is performed. -/
theorem hydrate_mismatching (E : Env) (cE : Nat → CreateFn) (d : Nat) (st : St) (q : Queue)
    (e : Nat) (v : VNode) (inVPre : Bool)
    (hm : mismatched E d inVPre st.dom e v = true) :
    ∃ r, hydrate E cE d st q (some e) v inVPre = Except.ok r ∧ r.2.2.2 = false ∧
      r.1.dom = st.dom ∧ nodeOpsOf r.1.log = nodeOpsOf st.log :=
  hydrate_mismatch E cE d st.dom e v inVPre hm st q rfl

theorem hydrate_mismatching_witness :
    ∃ r, hydrate (exEnv true) (createElm (exEnv true)) 3 (exSt exMisDom) [] (some 0)
        (exMisTree "server") false = Except.ok r ∧ r.2.2.2 = false ∧
      r.1.dom = (exSt exMisDom).dom ∧ nodeOpsOf r.1.log = nodeOpsOf (exSt exMisDom).log :=
  hydrate_mismatching (exEnv true) (createElm (exEnv true)) 3 (exSt exMisDom) [] 0
    (exMisTree "server") false (by decide!)

/-- A paragraph whose second child has another tag than its backend node (`b` on a
`<span>`). When the text of the first child differs from the server-rendered text,
`hydrate` returns false after it has overwritten the text data of the first backend child;
in production mode the tags are not compared and `hydrate` returns true. -/
theorem hydrate_mismatching_counterexample :
    exMisDom.text 1 = "server" ∧
      (hydrate (exEnv true) (createElm (exEnv true)) 3 (exSt exMisDom) [] (some 0)
        (exMisTree "client") false).toOption.map (fun r => (r.2.2.2, r.1.dom.text 1))
          = some (false, "client") ∧
      (hydrate { exEnv true with production := true }
        (createElm { exEnv true with production := true }) 3 (exSt exMisDom) [] (some 0)
        (exMisTree "server") false).toOption.map (fun r => r.2.2.2) = some true := by
  refine ⟨by decide, by decide!, by decide⟩
/-! ## The bookkeeping of `updateChildren`: who is patched, created and removed -/

theorem movesOnly_filter (mv : List Action) (h : movesOnly mv) :
    patchedOld mv = [] ∧ handledNew mv = [] ∧ removedOld mv = [] := by
  induction mv with
  | nil => exact ⟨rfl, rfl, rfl⟩
  | cons a mv ih =>
    obtain ⟨x, y, e⟩ := h a (List.mem_cons_self _ _)
    obtain ⟨h1, h2, h3⟩ := ih (fun b hb => h b (List.mem_cons_of_mem _ hb))
    subst e
    refine ⟨?_, ?_, ?_⟩
    · show patchedOld mv = []; exact h1
    · show handledNew mv = []; exact h2
    · show removedOld mv = []; exact h3

theorem movesOnly_ite (c : Prop) [Decidable c] (x y : Option Nat) :
    movesOnly (if c then [Action.move x y] else []) := by
  intro a ha
  split at ha
  · simp only [List.mem_singleton] at ha
    exact ⟨x, y, ha⟩
  · cases ha

theorem patchedOld_append (s t : List Action) :
    patchedOld (s ++ t) = patchedOld s ++ patchedOld t := by
  unfold patchedOld
  exact List.filterMap_append _ _ _

theorem handledNew_append (s t : List Action) :
    handledNew (s ++ t) = handledNew s ++ handledNew t := by
  unfold handledNew
  exact List.filterMap_append _ _ _

theorem removedOld_append (s t : List Action) :
    removedOld (s ++ t) = removedOld s ++ removedOld t := by
  unfold removedOld
  exact List.filterMap_append _ _ _

/-- One more index in a list without repetition that lists exactly the indices of a
set. -/
theorem nodup_add (l : List Int) (R R' : Int → Prop) (x : Int) (hN : l.Nodup)
    (hI : ∀ i, i ∈ l ↔ R i) (hx : ¬ R x) (hR : ∀ i, R' i ↔ (R i ∨ i = x)) :
    (l ++ [x]).Nodup ∧ ∀ i, i ∈ l ++ [x] ↔ R' i := by
  refine ⟨?_, fun i => ?_⟩
  · rw [List.nodup_append]
    refine ⟨hN, List.nodup_singleton _, ?_⟩
    intro a ha hb
    simp only [List.mem_singleton] at hb
    subst hb
    exact hx ((hI a).1 ha)
  · rw [List.mem_append, List.mem_singleton, hI, hR]

theorem get?_around {α : Type} (P Q : List α) (a b : α) (k : Nat) (hk : k ≠ P.length) :
    (P ++ a :: Q).get? k = (P ++ b :: Q).get? k := by
  simp only [List.get?_eq_getElem?]
  by_cases h : k < P.length
  · rw [List.getElem?_append_left h, List.getElem?_append_left h]
  · have h2 : P.length ≤ k := by omega
    rw [List.getElem?_append_right h2, List.getElem?_append_right h2]
    obtain ⟨j, hj⟩ : ∃ j, k - P.length = j + 1 := ⟨k - P.length - 1, by omega⟩
    rw [hj]
    rfl

theorem get?_at {α : Type} (P Q : List α) (a : α) : (P ++ a :: Q).get? P.length = some a := by
  rw [List.get?_eq_getElem?, List.getElem?_append_right (Nat.le_refl _), Nat.sub_self]
  exact List.getElem?_cons_zero

/-- The slot at the place `P.length` of the window is not consumed while it is defined. -/
theorem unconsumed_at (oD1 oD2 P Q : List (Option VNode)) (c : VNode) :
    ¬ consumed oD1 (P ++ some c :: Q) oD2 ((oD1.length : Int) + (P.length : Int)) := by
  intro h
  rcases h with ⟨_, h⟩ | ⟨h, _⟩ | ⟨k, hk, hg⟩
  · omega
  · simp only [List.length_append, List.length_cons, Nat.cast_add, Nat.cast_one] at h
    omega
  · have : k = P.length := by omega
    subst this
    rw [get?_at] at hg
    cases hg

theorem consumed_shiftStart (oD1 M oD2 : List (Option VNode)) (s : Option VNode) (i : Int) :
    consumed (oD1 ++ [s]) M oD2 i ↔ (consumed oD1 (s :: M) oD2 i ∨ i = (oD1.length : Int)) := by
  unfold consumed
  simp only [List.length_append, List.length_cons, List.length_nil, Nat.cast_add,
    Nat.cast_one, Nat.cast_zero, zero_add]
  constructor
  · rintro (⟨h1, h2⟩ | ⟨h1, h2⟩ | ⟨k, hk, hg⟩)
    · by_cases e : i = (oD1.length : Int)
      · exact Or.inr e
      · exact Or.inl (Or.inl ⟨h1, by omega⟩)
    · exact Or.inl (Or.inr (Or.inl ⟨by omega, by omega⟩))
    · exact Or.inl (Or.inr (Or.inr ⟨k + 1, by push_cast; omega, by simpa using hg⟩))
  · rintro ((⟨h1, h2⟩ | ⟨h1, h2⟩ | ⟨k, hk, hg⟩) | e)
    · exact Or.inl ⟨h1, by omega⟩
    · exact Or.inr (Or.inl ⟨by omega, by omega⟩)
    · cases k with
      | zero => exact Or.inl ⟨by omega, by simp at hk; omega⟩
      | succ k =>
        exact Or.inr (Or.inr ⟨k, by push_cast at hk; omega, by simpa using hg⟩)
    · exact Or.inl ⟨by omega, by omega⟩

theorem consumed_shiftEnd (oD1 M oD2 : List (Option VNode)) (s : Option VNode) (i : Int) :
    consumed oD1 M (s :: oD2) i ↔
      (consumed oD1 (M ++ [s]) oD2 i ∨ i = (oD1.length : Int) + (M.length : Int)) := by
  unfold consumed
  simp only [List.length_append, List.length_cons, List.length_nil, Nat.cast_add,
    Nat.cast_one, Nat.cast_zero, zero_add]
  constructor
  · rintro (⟨h1, h2⟩ | ⟨h1, h2⟩ | ⟨k, hk, hg⟩)
    · exact Or.inl (Or.inl ⟨h1, h2⟩)
    · by_cases e : i = (oD1.length : Int) + (M.length : Int)
      · exact Or.inr e
      · exact Or.inl (Or.inr (Or.inl ⟨by omega, by omega⟩))
    · refine Or.inl (Or.inr (Or.inr ⟨k, hk, ?_⟩))
      have hlt : k < M.length := by
        rw [List.get?_eq_getElem?] at hg
        exact (List.getElem?_eq_some_iff.1 hg).1
      rw [List.get?_eq_getElem?, List.getElem?_append_left hlt, ← List.get?_eq_getElem?]
      exact hg
  · rintro ((⟨h1, h2⟩ | ⟨h1, h2⟩ | ⟨k, hk, hg⟩) | e)
    · exact Or.inl ⟨h1, h2⟩
    · exact Or.inr (Or.inl ⟨by omega, by omega⟩)
    · by_cases hlt : k < M.length
      · refine Or.inr (Or.inr ⟨k, hk, ?_⟩)
        rw [List.get?_eq_getElem?, List.getElem?_append_left hlt,
          ← List.get?_eq_getElem?] at hg
        exact hg
      · have hle : k < (M ++ [s]).length := by
          rw [List.get?_eq_getElem?] at hg
          exact (List.getElem?_eq_some_iff.1 hg).1
        simp only [List.length_append, List.length_cons, List.length_nil] at hle
        exact Or.inr (Or.inl ⟨by omega, by omega⟩)
    · exact Or.inr (Or.inl ⟨by omega, by omega⟩)

theorem consumed_inner (oD1 oD2 P Q : List (Option VNode)) (s : Option VNode) (i : Int) :
    consumed oD1 (P ++ none :: Q) oD2 i ↔
      (consumed oD1 (P ++ s :: Q) oD2 i ∨ i = (oD1.length : Int) + (P.length : Int)) := by
  unfold consumed
  simp only [List.length_append, List.length_cons, Nat.cast_add, Nat.cast_one]
  constructor
  · rintro (⟨h1, h2⟩ | ⟨h1, h2⟩ | ⟨k, hk, hg⟩)
    · exact Or.inl (Or.inl ⟨h1, h2⟩)
    · exact Or.inl (Or.inr (Or.inl ⟨h1, h2⟩))
    · by_cases e : k = P.length
      · exact Or.inr (by omega)
      · refine Or.inl (Or.inr (Or.inr ⟨k, hk, ?_⟩))
        rw [get?_around P Q s none k e]
        exact hg
  · rintro ((⟨h1, h2⟩ | ⟨h1, h2⟩ | ⟨k, hk, hg⟩) | e)
    · exact Or.inl ⟨h1, h2⟩
    · exact Or.inr (Or.inl ⟨h1, h2⟩)
    · by_cases e : k = P.length
      · exact Or.inr (Or.inr ⟨k, hk, by rw [e]; exact get?_at P Q none⟩)
      · refine Or.inr (Or.inr ⟨k, hk, ?_⟩)
        rw [get?_around P Q none s k e]
        exact hg
    · exact Or.inr (Or.inr ⟨P.length, e, get?_at P Q none⟩)

theorem handled_start (f m b : Nat) (j : Int) :
    handled (f + 1) m b j ↔ (handled f (m + 1) b j ∨ j = (f : Int)) := by
  unfold handled
  push_cast
  omega

theorem handled_end (f m b : Nat) (j : Int) :
    handled f m (b + 1) j ↔ (handled f (m + 1) b j ∨ j = (f : Int) + (m : Int)) := by
  unfold handled
  push_cast
  omega

theorem unhandled_start (f m b : Nat) : ¬ handled f (m + 1) b (f : Int) := by
  unfold handled
  push_cast
  omega

theorem unhandled_end (f m b : Nat) : ¬ handled f (m + 1) b ((f : Int) + (m : Int)) := by
  unfold handled
  push_cast
  omega

/-- The bookkeeping after a step that handles at most one old and at most one new
child. -/
theorem traceInv_step (A A' : Parts) (hT : TraceInv A) (acts : List Action)
    (htr : A'.trace = A.trace ++ acts) (hrm : removedOld acts = [])
    (hold : (patchedOld acts = [] ∧
        ∀ i, consumed A'.oD1 A'.oMid A'.oD2 i ↔ consumed A.oD1 A.oMid A.oD2 i) ∨
      (∃ x, patchedOld acts = [x] ∧ ¬ consumed A.oD1 A.oMid A.oD2 x ∧
        ∀ i, consumed A'.oD1 A'.oMid A'.oD2 i ↔ (consumed A.oD1 A.oMid A.oD2 i ∨ i = x)))
    (hnew : (handledNew acts = [] ∧
        ∀ j, handled A'.nF.length A'.nMid.length A'.nB.length j ↔
          handled A.nF.length A.nMid.length A.nB.length j) ∨
      (∃ y, handledNew acts = [y] ∧ ¬ handled A.nF.length A.nMid.length A.nB.length y ∧
        ∀ j, handled A'.nF.length A'.nMid.length A'.nB.length j ↔
          (handled A.nF.length A.nMid.length A.nB.length j ∨ j = y))) :
    TraceInv A' := by
  have ho : (patchedOld A'.trace).Nodup ∧
      ∀ i, i ∈ patchedOld A'.trace ↔ consumed A'.oD1 A'.oMid A'.oD2 i := by
    rw [htr, patchedOld_append]
    rcases hold with ⟨h1, h2⟩ | ⟨x, h1, h2, h3⟩
    · rw [h1, List.append_nil]
      exact ⟨hT.oldNodup, fun i => (hT.oldIff i).trans (h2 i).symm⟩
    · rw [h1]
      exact nodup_add _ _ _ x hT.oldNodup hT.oldIff h2 h3
  have hn : (handledNew A'.trace).Nodup ∧
      ∀ j, j ∈ handledNew A'.trace ↔
        handled A'.nF.length A'.nMid.length A'.nB.length j := by
    rw [htr, handledNew_append]
    rcases hnew with ⟨h1, h2⟩ | ⟨y, h1, h2, h3⟩
    · rw [h1, List.append_nil]
      exact ⟨hT.newNodup, fun j => (hT.newIff j).trans (h2 j).symm⟩
    · rw [h1]
      exact nodup_add _ _ _ y hT.newNodup hT.newIff h2 h3
  refine ⟨ho.1, ho.2, hn.1, hn.2, ?_⟩
  rw [htr, removedOld_append, hT.noRemove, hrm]
  rfl

theorem consumed_head_none (oD1 M oD2 : List (Option VNode)) :
    consumed oD1 (none :: M) oD2 (oD1.length : Int) :=
  Or.inr (Or.inr ⟨0, by simp, rfl⟩)

theorem consumed_last_none (oD1 M oD2 : List (Option VNode)) :
    consumed oD1 (M ++ [none]) oD2 ((oD1.length : Int) + (M.length : Int)) :=
  Or.inr (Or.inr ⟨M.length, rfl, get?_at M [] none⟩)

/-- Every branch of the loop keeps the bookkeeping. -/
theorem shape_trace (A A' : Parts) (hS : Shape A A') (hT : TraceInv A) : TraceInv A' := by
  cases hS with
  | skipStart M h =>
    refine traceInv_step A _ hT [] (List.append_nil _).symm rfl (Or.inl ⟨rfl, fun i => ?_⟩)
      (Or.inl ⟨rfl, fun j => Iff.rfl⟩)
    show consumed (A.oD1 ++ [none]) M A.oD2 i ↔ consumed A.oD1 A.oMid A.oD2 i
    rw [h, consumed_shiftStart]
    constructor
    · rintro (h1 | h1)
      · exact h1
      · rw [h1]; exact consumed_head_none _ _ _
    · exact Or.inl
  | skipEnd M h =>
    refine traceInv_step A _ hT [] (List.append_nil _).symm rfl (Or.inl ⟨rfl, fun i => ?_⟩)
      (Or.inl ⟨rfl, fun j => Iff.rfl⟩)
    show consumed A.oD1 M (none :: A.oD2) i ↔ consumed A.oD1 A.oMid A.oD2 i
    rw [h, consumed_shiftEnd]
    constructor
    · rintro (h1 | h1)
      · exact h1
      · rw [h1]; exact consumed_last_none _ _ _
    · exact Or.inl
  | matchStart o M n N r ho hn =>
    refine traceInv_step A _ hT [Action.patch A.oD1.length A.nF.length] rfl rfl
      (Or.inr ⟨(A.oD1.length : Int), rfl, ?_, fun i => ?_⟩)
      (Or.inr ⟨(A.nF.length : Int), rfl, ?_, fun j => ?_⟩)
    · rw [ho]
      have := unconsumed_at A.oD1 A.oD2 [] M o
      simpa using this
    · show consumed (A.oD1 ++ [some o]) M A.oD2 i ↔ _
      rw [ho, consumed_shiftStart]
    · rw [hn]
      exact unhandled_start _ _ _
    · show handled (A.nF ++ [r.2.2]).length N.length A.nB.length j ↔ _
      rw [hn, List.length_append, List.length_singleton, List.length_cons]
      exact handled_start _ _ _ _
  | matchEnd oe M ne N r hoe hne =>
    refine traceInv_step A _ hT
      [Action.patch ((A.oD1.length : Int) + (A.oMid.length : Int) - 1)
        ((A.nF.length : Int) + (A.nMid.length : Int) - 1)] rfl rfl
      (Or.inr ⟨(A.oD1.length : Int) + (A.oMid.length : Int) - 1, rfl, ?_, fun i => ?_⟩)
      (Or.inr ⟨(A.nF.length : Int) + (A.nMid.length : Int) - 1, rfl, ?_, fun j => ?_⟩)
    · rw [hoe]
      have := unconsumed_at A.oD1 A.oD2 M [] oe
      simp only [List.length_append, List.length_singleton, Nat.cast_add, Nat.cast_one]
      have e : (A.oD1.length : Int) + ((M.length : Int) + 1) - 1
          = (A.oD1.length : Int) + (M.length : Int) := by omega
      rw [e]
      exact this
    · show consumed A.oD1 M (some oe :: A.oD2) i ↔ _
      rw [hoe, consumed_shiftEnd]
      simp only [List.length_append, List.length_singleton, Nat.cast_add, Nat.cast_one]
      have e : (A.oD1.length : Int) + ((M.length : Int) + 1) - 1
          = (A.oD1.length : Int) + (M.length : Int) := by omega
      rw [e]
    · rw [hne]
      simp only [List.length_append, List.length_singleton, Nat.cast_add, Nat.cast_one]
      have e : (A.nF.length : Int) + ((N.length : Int) + 1) - 1
          = (A.nF.length : Int) + (N.length : Int) := by omega
      rw [e]
      exact unhandled_end _ _ _
    · show handled A.nF.length N.length (r.2.2 :: A.nB).length j ↔ _
      rw [hne, List.length_append, List.length_singleton, List.length_cons]
      have e : (A.nF.length : Int) + ((N.length + 1 : Nat) : Int) - 1
          = (A.nF.length : Int) + (N.length : Int) := by push_cast; omega
      rw [e]
      exact handled_end _ _ _ _
  | moveRight o M ne N r st2 mv ho hne hmv =>
    obtain ⟨m1, m2, m3⟩ := movesOnly_filter mv hmv
    refine traceInv_step A _ hT
      ([Action.patch (A.oD1.length : Int)
        ((A.nF.length : Int) + (A.nMid.length : Int) - 1)] ++ mv)
      (List.append_assoc _ _ _) (by rw [removedOld_append, m3]; rfl)
      (Or.inr ⟨(A.oD1.length : Int), by rw [patchedOld_append, m1]; rfl, ?_, fun i => ?_⟩)
      (Or.inr ⟨(A.nF.length : Int) + (A.nMid.length : Int) - 1,
        by rw [handledNew_append, m2]; rfl, ?_, fun j => ?_⟩)
    · rw [ho]
      have := unconsumed_at A.oD1 A.oD2 [] M o
      simpa using this
    · show consumed (A.oD1 ++ [some o]) M A.oD2 i ↔ _
      rw [ho, consumed_shiftStart]
    · rw [hne]
      simp only [List.length_append, List.length_singleton, Nat.cast_add, Nat.cast_one]
      have e : (A.nF.length : Int) + ((N.length : Int) + 1) - 1
          = (A.nF.length : Int) + (N.length : Int) := by omega
      rw [e]
      exact unhandled_end _ _ _
    · show handled A.nF.length N.length (r.2.2 :: A.nB).length j ↔ _
      rw [hne, List.length_append, List.length_singleton, List.length_cons]
      have e : (A.nF.length : Int) + ((N.length + 1 : Nat) : Int) - 1
          = (A.nF.length : Int) + (N.length : Int) := by push_cast; omega
      rw [e]
      exact handled_end _ _ _ _
  | moveLeft oe M n N r st2 mv hoe hn hmv =>
    obtain ⟨m1, m2, m3⟩ := movesOnly_filter mv hmv
    refine traceInv_step A _ hT
      ([Action.patch ((A.oD1.length : Int) + (A.oMid.length : Int) - 1)
        (A.nF.length : Int)] ++ mv)
      (List.append_assoc _ _ _) (by rw [removedOld_append, m3]; rfl)
      (Or.inr ⟨(A.oD1.length : Int) + (A.oMid.length : Int) - 1,
        by rw [patchedOld_append, m1]; rfl, ?_, fun i => ?_⟩)
      (Or.inr ⟨(A.nF.length : Int), by rw [handledNew_append, m2]; rfl, ?_, fun j => ?_⟩)
    · rw [hoe]
      have := unconsumed_at A.oD1 A.oD2 M [] oe
      simp only [List.length_append, List.length_singleton, Nat.cast_add, Nat.cast_one]
      have e : (A.oD1.length : Int) + ((M.length : Int) + 1) - 1
          = (A.oD1.length : Int) + (M.length : Int) := by omega
      rw [e]
      exact this
    · show consumed A.oD1 M (some oe :: A.oD2) i ↔ _
      rw [hoe, consumed_shiftEnd]
      simp only [List.length_append, List.length_singleton, Nat.cast_add, Nat.cast_one]
      have e : (A.oD1.length : Int) + ((M.length : Int) + 1) - 1
          = (A.oD1.length : Int) + (M.length : Int) := by omega
      rw [e]
    · rw [hn]
      exact unhandled_start _ _ _
    · show handled (A.nF ++ [r.2.2]).length N.length A.nB.length j ↔ _
      rw [hn, List.length_append, List.length_singleton, List.length_cons]
      exact handled_start _ _ _ _
  | keyedCreate m n N r hn =>
    refine traceInv_step A _ hT [Action.create (A.nF.length : Int)] rfl rfl
      (Or.inl ⟨rfl, fun i => Iff.rfl⟩)
      (Or.inr ⟨(A.nF.length : Int), rfl, ?_, fun j => ?_⟩)
    · rw [hn]
      exact unhandled_start _ _ _
    · show handled (A.nF ++ [r.2.2]).length N.length A.nB.length j ↔ _
      rw [hn, List.length_append, List.length_singleton, List.length_cons]
      exact handled_start _ _ _ _
  | keyedMove o c oe m X Y n N i r st2 mv ho hi hn hmv =>
    obtain ⟨m1, m2, m3⟩ := movesOnly_filter mv hmv
    have hix : i = (A.oD1.length : Int) + ((some o :: X).length : Int) := by
      rw [hi]; simp; omega
    refine traceInv_step A _ hT ([Action.patch i (A.nF.length : Int)] ++ mv)
      (List.append_assoc _ _ _) (by rw [removedOld_append, m3]; rfl)
      (Or.inr ⟨i, by rw [patchedOld_append, m1]; rfl, ?_, fun k => ?_⟩)
      (Or.inr ⟨(A.nF.length : Int), by rw [handledNew_append, m2]; rfl, ?_, fun j => ?_⟩)
    · rw [ho, hix]
      exact unconsumed_at A.oD1 A.oD2 (some o :: X) (Y ++ [some oe]) c
    · show consumed A.oD1 (some o :: (X ++ none :: (Y ++ [some oe]))) A.oD2 k ↔ _
      rw [ho, hix]
      exact consumed_inner A.oD1 A.oD2 (some o :: X) (Y ++ [some oe]) (some c) k
    · rw [hn]
      exact unhandled_start _ _ _
    · show handled (A.nF ++ [r.2.2]).length N.length A.nB.length j ↔ _
      rw [hn, List.length_append, List.length_singleton, List.length_cons]
      exact handled_start _ _ _ _
/-! ## The shapes of the iterations -/

/-- While both windows are non-empty an iteration returns, keeps the invariant, makes the
windows shorter and has one of the eight shapes. -/
theorem step_shape (C : Ctx) (hC : CtxOk C) (hK : KeysOk C) (patchV : PatchFn)
    (createE : CreateFn)
    (hP : PatchSpec C patchV) (hCr : CreateSpec C.news createE)
    (A : Parts) (G : Ghost) (hI : LoopInv C A G) (hOld : A.oMid ≠ []) (hNew : A.nMid ≠ []) :
    ∃ A' G', updateChildrenStep C.E patchV createE (some C.p) true A.toLoop
        = Except.ok A'.toLoop ∧
      LoopInv C A' G' ∧
      A'.oMid.length + A'.nMid.length < A.oMid.length + A.nMid.length ∧ Shape A A' := by
  obtain ⟨s, M, ho⟩ := List.exists_cons_of_ne_nil hOld
  obtain ⟨ns, N, hn⟩ := List.exists_cons_of_ne_nil hNew
  cases s with
  | none =>
    obtain ⟨G', hG'⟩ := inv_skipStart C hC A G hI M ho
    exact ⟨_, G', step_skipStart C.E patchV createE (some C.p) true A M ho, hG', by
      simp only [ho, List.length_cons, List.length_append, List.length_singleton,
        List.length_nil]
      omega, Shape.skipStart A M ho⟩
  | some o =>
    have hso := toLoop_oldStart A (some o) M ho
    rcases List.eq_nil_or_concat A.oMid with e | ⟨Mi, t, hoe⟩
    · exact absurd e hOld
    rw [List.concat_eq_append] at hoe
    cases t with
    | none =>
      obtain ⟨G', hG'⟩ := inv_skipEnd C hC A G hI Mi hoe
      exact ⟨_, G', step_skipEnd C.E patchV createE (some C.p) true A o Mi hso hoe, hG', by
      simp only [hoe, List.length_cons, List.length_append, List.length_singleton,
        List.length_nil]
      omega, Shape.skipEnd A Mi hoe⟩
    | some oe =>
      have hsoe := toLoop_oldEnd A (some oe) Mi hoe
      rcases List.eq_nil_or_concat A.nMid with e | ⟨Ni, ne, hne⟩
      · exact absurd e hNew
      rw [List.concat_eq_append] at hne
      have hns' := toLoop_newStart A ns N hn
      have hne' := toLoop_newEnd A ne Ni hne
      have hom : some o ∈ A.oMid := by rw [ho]; simp
      have hoem : some oe ∈ A.oMid := by rw [hoe]; simp
      have hoa := hC.oldAsync o (mid_mem_olds C A G hI o hom)
      have hoea := hC.oldAsync oe (mid_mem_olds C A G hI oe hoem)
      obtain ⟨b1, hb1, hk1⟩ := sameVnodeAt_total C.E o ns hoa
      cases b1 with
      | true =>
        obtain ⟨r, hr, G', hG'⟩ := inv_matchStart C hC patchV hP A G hI o ns M N
          (A.trace ++ [Action.patch A.oD1.length A.nF.length]) ho hn (hk1 rfl)
        exact ⟨_, G', step_matchStart C.E patchV createE (some C.p) true A o oe M ns N r ho
          hsoe hn hb1 hr, hG', by
      simp only [ho, hn, List.length_cons, List.length_append, List.length_singleton,
        List.length_nil]
      omega, Shape.matchStart A o M ns N r ho hn⟩
      | false =>
        obtain ⟨b2, hb2, hk2⟩ := sameVnodeAt_total C.E oe ne hoea
        cases b2 with
        | true =>
          obtain ⟨r, hr, G', hG'⟩ := inv_matchEnd C hC patchV hP A G hI oe ne Mi Ni
            (A.trace ++ [Action.patch ((A.oD1.length : Int) + (A.oMid.length : Int) - 1)
              ((A.nF.length : Int) + (A.nMid.length : Int) - 1)]) hoe hne (hk2 rfl)
          exact ⟨_, G', step_matchEnd C.E patchV createE (some C.p) true A o oe Mi ns ne Ni r
            hso hoe hns' hne hb1 hb2 hr, hG', by
      simp only [hoe, hne, List.length_cons, List.length_append, List.length_singleton,
        List.length_nil]
      omega, Shape.matchEnd A oe Mi ne Ni r hoe hne⟩
        | false =>
          obtain ⟨b3, hb3, hk3⟩ := sameVnodeAt_total C.E o ne hoa
          cases b3 with
          | true =>
            obtain ⟨r, st2, hr, hmv, href, G', hG'⟩ := inv_moveRight C hC patchV hP A G hI
              o oe ne M Mi Ni [] ho hoe hne (hk3 rfl)
            exact ⟨_, G', step_moveRight C.E patchV createE (some C.p) true A o oe M ns ne Ni
              r st2 ho hsoe hns' hne hb1 hb2 hb3 hr (by rw [if_pos rfl]; exact hmv),
              inv_trace C _ G' hG' _, by
      simp only [ho, hne, List.length_cons, List.length_append, List.length_singleton,
        List.length_nil]
      omega, Shape.moveRight A o M ne Ni r st2 _ ho hne (movesOnly_ite _ _ _)⟩
          | false =>
            obtain ⟨b4, hb4, hk4⟩ := sameVnodeAt_total C.E oe ns hoea
            cases b4 with
            | true =>
              have hM : M ≠ [] := by
                intro e
                subst e
                rw [ho] at hoe
                have hoe' : [] ++ [some o] = Mi ++ [some oe] := hoe
                have := List.append_inj_right' hoe' rfl
                simp only [List.cons.injEq, Option.some.injEq, and_true] at this
                rw [this, hb4] at hb1
                cases hb1
              rcases List.eq_nil_or_concat M with e | ⟨M', t, hM'⟩
              · exact absurd e hM
              rw [List.concat_eq_append] at hM'
              have ht : t = some oe := by
                rw [ho, hM'] at hoe
                have e : some o :: (M' ++ [t]) = (some o :: M') ++ [t] := by simp
                rw [e] at hoe
                have := List.append_inj_right' hoe rfl
                simpa using this
              subst ht
              have ho2 : A.oMid = some o :: (M' ++ [some oe]) := by rw [ho, hM']
              obtain ⟨r, st2, hr, hmv, G', hG'⟩ := inv_moveLeft C hC patchV hP A G hI
                o oe ns M' N
                (A.trace ++ [Action.patch ((A.oD1.length : Int) + (A.oMid.length : Int) - 1)
                    (A.nF.length : Int)] ++
                  (if true = true then [Action.move oe.elm o.elm] else []))
                ho2 hn (hk4 rfl)
              exact ⟨_, G', step_moveLeft C.E patchV createE (some C.p) true A o oe
                (some o :: M') ns ne N r st2 hso ho2 hn hne' hb1 hb2 hb3 hb4 hr
                (by rw [if_pos rfl]; exact hmv), hG', by
      simp only [ho2, hn, List.length_cons, List.length_append, List.length_singleton,
        List.length_nil]
      omega, Shape.moveLeft A oe (some o :: M') ns N r st2 _ ho2 hn (movesOnly_ite _ _ _)⟩
            | false =>
              have hstep := step_keyed C.E patchV createE (some C.p) true A o oe ns ne hso hsoe
                hns' hne' hb1 hb2 hb3 hb4
              obtain ⟨m, idx, hm1, hm2, hidx, hcase⟩ :=
                keyed_lookup C hC hK A G hI o oe ns M Mi N ho hoe hn hb1 hb4
              have hcreate : (idx = Lookup.undef ∨
                  ∃ i, idx = Lookup.own i ∧
                    sameVnodeAt C.E (getAt A.toLoop.oldCh i).join (some ns)
                      = Except.ok false) →
                  ∃ A' G', updateChildrenStep C.E patchV createE (some C.p) true A.toLoop
                      = Except.ok A'.toLoop ∧
                    LoopInv C A' G' ∧
                    A'.oMid.length + A'.nMid.length < A.oMid.length + A.nMid.length ∧
                    Shape A A' := by
                intro hnot
                obtain ⟨r, hr, G', hG'⟩ := inv_keyedCreate C hC createE hCr A G hI o ns M N
                  (A.trace ++ [Action.create (A.nF.length : Int)]) m ho hn hm2
                refine ⟨_, G', ?_, hG', by
      simp only [hn, List.length_cons, List.length_append, List.length_singleton,
        List.length_nil]
      omega, Shape.keyedCreate A m ns N r hn⟩
                rw [hstep]
                exact keyed_create C.E patchV createE (some C.p) true A o m ns N idx r hm1 hn
                  hidx hnot hr
              rcases hcase with h | h | ⟨i, c, X, Y, hi, hdec, hieq, hsame⟩
              · exact hcreate (Or.inl h)
              · exact hcreate (Or.inr h)
              · subst hi
                obtain ⟨r, st2, hr, hmv, G', hG'⟩ := inv_keyedMove C hC patchV hP A G hI
                  o c ns X (Y ++ [some oe]) N
                  (A.trace ++ [Action.patch i (A.nF.length : Int)] ++
                    (if true = true then [Action.move c.elm o.elm] else []))
                  m hdec hn (sameVnodeAt_key C.E c ns hsame) hm2
                refine ⟨_, G', ?_, hG', by
      simp only [hdec, hn, List.length_cons, List.length_append, List.length_singleton,
        List.length_nil]
      omega, Shape.keyedMove A o c oe m X Y ns N i r st2 _ hdec hieq hn (movesOnly_ite _ _ _)⟩
                rw [hstep]
                exact keyed_move C.E patchV createE (some C.p) true A o c oe m X Y ns N i r st2
                  hdec hieq hm1 hn hidx hsame hr (by rw [if_pos rfl]; exact hmv)
/-! ## The bookkeeping of a whole call -/

theorem traceInv_init (olds news : List VNode) (st : St) (q : Queue) :
    TraceInv ⟨[], olds.map some, [], [], news, [], none, st, q, []⟩ := by
  refine ⟨List.nodup_nil, fun i => ?_, List.nodup_nil, fun j => ?_, rfl⟩
  · show i ∈ ([] : List Int) ↔ consumed [] (olds.map some) [] i
    unfold consumed
    simp only [List.not_mem_nil, List.length_nil, Nat.cast_zero, false_iff, not_or, not_and,
      not_exists]
    refine ⟨fun _ => by omega, fun _ => by omega, fun k _ hg => ?_⟩
    rw [List.get?_eq_getElem?, List.getElem?_map] at hg
    cases h : olds[k]? with
    | none => rw [h] at hg; cases hg
    | some o => rw [h] at hg; cases hg
  · show j ∈ ([] : List Int) ↔ handled 0 news.length 0 j
    unfold handled
    simp only [List.not_mem_nil, Nat.cast_zero, false_iff]
    omega

/-- The loop of `updateChildren` returns with the invariant, one of the two windows empty
and the bookkeeping. -/
theorem loop_trace (C : Ctx) (hC : CtxOk C) (hK : KeysOk C) (patchV : PatchFn)
    (createE : CreateFn)
    (hP : PatchSpec C patchV) (hCr : CreateSpec C.news createE) :
    ∀ (fuel : Nat) (A : Parts) (G : Ghost), LoopInv C A G → TraceInv A →
      A.oMid.length + A.nMid.length ≤ fuel →
      ∃ A' G', updateChildrenLoop C.E patchV createE (some C.p) true fuel A.toLoop
          = Except.ok A'.toLoop ∧
        LoopInv C A' G' ∧ (A'.oMid = [] ∨ A'.nMid = []) ∧ TraceInv A' := by
  intro fuel
  induction fuel with
  | zero =>
    intro A G hI hT hle
    refine ⟨A, G, ?_, hI, ?_, hT⟩
    · unfold updateChildrenLoop
      rw [if_neg]
      · rfl
      · rw [toLoop_cond]
        intro h
        have := List.length_pos.2 h.1
        omega
    · left
      exact List.length_eq_zero.1 (by omega)
  | succ fuel ih =>
    intro A G hI hT hle
    by_cases hc : A.oMid ≠ [] ∧ A.nMid ≠ []
    · obtain ⟨A1, G1, hstep, hI1, hlt, hS⟩ :=
        step_shape C hC hK patchV createE hP hCr A G hI hc.1 hc.2
      obtain ⟨A2, G2, hrun, hI2, hend, hT2⟩ := ih A1 G1 hI1 (shape_trace A A1 hS hT) (by omega)
      refine ⟨A2, G2, ?_, hI2, hend, hT2⟩
      unfold updateChildrenLoop
      rw [if_pos ((toLoop_cond A).2 hc)]
      simp only [hstep, bind, Except.bind]
      exact hrun
    · refine ⟨A, G, ?_, hI, ?_, hT⟩
      · unfold updateChildrenLoop
        rw [if_neg (fun h => hc ((toLoop_cond A).1 h))]
        rfl
      · by_cases h1 : A.oMid = []
        · exact Or.inl h1
        · right
          by_contra h2
          exact hc ⟨h1, h2⟩

/-- The actions of the end of `updateChildren`: creations of the new children left in the
window, or else removals of the defined old children left in the window. -/
theorem end_trace (E : Env) (fuel : Nat) (createE : CreateFn) (pe : Option Nat) (L0 L : Loop)
    (h : updateChildrenEnd E fuel createE pe L0 = Except.ok L) :
    L.trace = L0.trace ++
      (if L0.oldStartIdx > L0.oldEndIdx then
        (List.range (L0.newEndIdx - L0.newStartIdx + 1).toNat).map
          (fun k => Action.create (L0.newStartIdx + k))
      else if L0.newStartIdx > L0.newEndIdx then
        (definedSlots L0.oldCh (L0.oldEndIdx - L0.oldStartIdx + 1).toNat L0.oldStartIdx).map
          Action.remove
      else []) := by
  unfold updateChildrenEnd at h
  split at h
  · rename_i h1
    simp only [bind_eq_ok, pure_eq_ok] at h
    obtain ⟨r, _, h⟩ := h
    rw [← h, if_pos h1]
  · rename_i h1
    split at h
    · rename_i h2
      simp only [bind_eq_ok, pure_eq_ok] at h
      obtain ⟨r, _, h⟩ := h
      rw [← h, if_neg h1, if_pos h2]
    · rename_i h2
      rw [pure_eq_ok] at h
      rw [← h, if_neg h1, if_neg h2, List.append_nil]

theorem mem_definedSlots (l : List (Option VNode)) :
    ∀ (count : Nat) (s i : Int),
      i ∈ definedSlots l count s ↔
        (s ≤ i ∧ i < s + (count : Int) ∧ ((getAt l i).join).isSome = true) := by
  intro count
  induction count with
  | zero =>
    intro s i
    simp only [definedSlots, List.not_mem_nil, Nat.cast_zero, add_zero, false_iff]
    omega
  | succ count ih =>
    intro s i
    unfold definedSlots
    rw [List.mem_append, ih]
    constructor
    · rintro (h | ⟨h1, h2, h3⟩)
      · split at h
        · rename_i hs
          simp only [List.mem_singleton] at h
          subst h
          exact ⟨le_refl _, by push_cast; omega, hs⟩
        · cases h
      · exact ⟨by omega, by push_cast; omega, h3⟩
    · rintro ⟨h1, h2, h3⟩
      by_cases e : i = s
      · left
        subst e
        rw [if_pos h3]
        exact List.mem_singleton_self _
      · right
        exact ⟨by omega, by push_cast at h2; omega, h3⟩

theorem nodup_definedSlots (l : List (Option VNode)) :
    ∀ (count : Nat) (s : Int), (definedSlots l count s).Nodup := by
  intro count
  induction count with
  | zero => intro s; exact List.nodup_nil
  | succ count ih =>
    intro s
    unfold definedSlots
    rw [List.nodup_append]
    refine ⟨?_, ih _, ?_⟩
    · split
      · exact List.nodup_singleton _
      · exact List.nodup_nil
    · intro a ha hb
      have h1 : a = s := by
        split at ha
        · simpa using ha
        · cases ha
      have h2 := (mem_definedSlots l count (s + 1) a).1 hb
      omega

theorem handledNew_split (t : List Action) (h : (handledNew t).Nodup) :
    (patchedNew t).Nodup ∧ (createdNew t).Nodup ∧
      (∀ j, j ∈ patchedNew t → j ∉ createdNew t) ∧
      (∀ j, j ∈ handledNew t ↔ (j ∈ patchedNew t ∨ j ∈ createdNew t)) := by
  induction t with
  | nil =>
    simp [handledNew, patchedNew, createdNew]
  | cons a t ih =>
    cases a with
    | patch i j0 =>
      have e1 : handledNew (Action.patch i j0 :: t) = j0 :: handledNew t := rfl
      have e2 : patchedNew (Action.patch i j0 :: t) = j0 :: patchedNew t := rfl
      have e3 : createdNew (Action.patch i j0 :: t) = createdNew t := rfl
      rw [e1, List.nodup_cons] at h
      obtain ⟨k1, k2, k3, k4⟩ := ih h.2
      rw [e1, e2, e3]
      refine ⟨List.nodup_cons.2 ⟨fun hj => h.1 ((k4 j0).2 (Or.inl hj)), k1⟩, k2, ?_, ?_⟩
      · intro j hj
        rcases List.mem_cons.1 hj with e | hj'
        · rw [e]
          exact fun hc => h.1 ((k4 j0).2 (Or.inr hc))
        · exact k3 j hj'
      · intro j
        rw [List.mem_cons, List.mem_cons, k4, or_assoc]
    | create j0 =>
      have e1 : handledNew (Action.create j0 :: t) = j0 :: handledNew t := rfl
      have e2 : patchedNew (Action.create j0 :: t) = patchedNew t := rfl
      have e3 : createdNew (Action.create j0 :: t) = j0 :: createdNew t := rfl
      rw [e1, List.nodup_cons] at h
      obtain ⟨k1, k2, k3, k4⟩ := ih h.2
      rw [e1, e2, e3]
      refine ⟨k1, List.nodup_cons.2 ⟨fun hj => h.1 ((k4 j0).2 (Or.inr hj)), k2⟩, ?_, ?_⟩
      · intro j hj hc
        rcases List.mem_cons.1 hc with e | hc'
        · rw [e] at hj
          exact h.1 ((k4 j0).2 (Or.inl hj))
        · exact k3 j hj hc'
      · intro j
        rw [List.mem_cons, List.mem_cons, k4]
        constructor
        · rintro (e | e | e)
          · exact Or.inr (Or.inl e)
          · exact Or.inl e
          · exact Or.inr (Or.inr e)
        · rintro (e | e | e)
          · exact Or.inr (Or.inl e)
          · exact Or.inl e
          · exact Or.inr (Or.inr e)
    | move x y => exact ih h
    | remove i => exact ih h
theorem creates_cast (s : Int) (l : List Nat) :
    List.map (fun (k : Int) => Action.create (s + k)) ((l : List Nat) : List Int)
      = l.map (fun (k : Nat) => Action.create (s + (k : Int))) := by
  induction l with
  | nil => rfl
  | cons a l ih =>
    simp only [List.map_cons]
    rw [← ih]
    rfl

theorem patchedOld_creates (f : Nat → Int) (l : List Nat) :
    patchedOld (l.map (fun k => Action.create (f k))) = [] ∧
      removedOld (l.map (fun k => Action.create (f k))) = [] ∧
      handledNew (l.map (fun k => Action.create (f k))) = l.map f := by
  induction l with
  | nil => exact ⟨rfl, rfl, rfl⟩
  | cons a l ih =>
    obtain ⟨h1, h2, h3⟩ := ih
    refine ⟨h1, h2, ?_⟩
    show f a :: handledNew (l.map (fun k => Action.create (f k))) = f a :: l.map f
    rw [h3]

theorem patchedOld_removes (l : List Int) :
    patchedOld (l.map Action.remove) = [] ∧ handledNew (l.map Action.remove) = [] ∧
      removedOld (l.map Action.remove) = l := by
  induction l with
  | nil => exact ⟨rfl, rfl, rfl⟩
  | cons a l ih =>
    obtain ⟨h1, h2, h3⟩ := ih
    refine ⟨h1, h2, ?_⟩
    show a :: removedOld (l.map Action.remove) = a :: l
    rw [h3]

theorem old_length (C : Ctx) (A : Parts) (G : Ghost) (hI : LoopInv C A G) :
    A.oD1.length + A.oMid.length + A.oD2.length = C.olds.length := by
  rw [hI.olds_eq, hI.d1.length_eq, hI.d2.length_eq, hI.mid.length_eq]
  simp only [List.length_append]
  omega

/-- The bookkeeping of a call of `updateChildren`: no old child is patched twice, no new
child is patched or created twice, every new child is patched or created, and an old child
is removed exactly when it was not patched. -/
theorem updateChildren_trace (C : Ctx) (hC : CtxOk C) (hK : KeysOk C) (patchV : PatchFn)
    (createE : CreateFn)
    (hP : PatchSpec C patchV) (hCr : CreateSpec C.news createE) (st : St) (q : Queue)
    (hdom : st.dom = C.dom0)
    (hch : (st.dom.children C.p).map some = C.olds.map (fun v => v.elm))
    (hpar : ∀ o ∈ C.olds, ∃ x, o.elm = some x ∧ st.dom.parent x = some C.p)
    (hren : ∀ o ∈ C.olds, rendered C.d st.dom o = true) :
    ∃ L, updateChildren C.E C.d patchV createE st q (some C.p) (C.olds.map some) C.news false
        = Except.ok L ∧
      (patchedOld L.trace).Nodup ∧ (handledNew L.trace).Nodup ∧ (removedOld L.trace).Nodup ∧
      (∀ j, j ∈ handledNew L.trace ↔ (0 ≤ j ∧ j < (C.news.length : Int))) ∧
      (∀ i, i ∈ patchedOld L.trace → (0 ≤ i ∧ i < (C.olds.length : Int))) ∧
      (∀ i, i ∈ removedOld L.trace → (0 ≤ i ∧ i < (C.olds.length : Int))) ∧
      (∀ i, 0 ≤ i → i < (C.olds.length : Int) →
        (i ∈ patchedOld L.trace ↔ i ∉ removedOld L.trace)) := by
  have hd0 : (if C.E.production then st else checkDuplicateKeys st C.news).dom = st.dom := by
    split
    · rfl
    · exact checkDuplicateKeys_dom st C.news
  have hI0 := inv_init C hC (if C.E.production then st else checkDuplicateKeys st C.news) q
    (by rw [hd0]; exact hdom) (by rw [hd0]; exact hch)
    (by rw [hd0]; exact hpar) (by rw [hd0]; exact hren)
  have hT0 := traceInv_init C.olds C.news
    (if C.E.production then st else checkDuplicateKeys st C.news) q
  obtain ⟨A, G, hrun, hI, hend, hT⟩ := loop_trace C hC hK patchV createE hP hCr
    ((C.olds.map some).length + C.news.length) _ _ hI0 hT0 (by simp)
  obtain ⟨L, hL, _⟩ := end_spec C hC createE hCr A G hI hend
  have htr := end_trace C.E C.d createE (some C.p) A.toLoop L hL
  have hlo := old_length C A G hI
  have hln := news_length C A G hI
  simp only [List.length_append] at hln
  refine ⟨L, ?_, ?_⟩
  · rw [updateChildren_unfold C.E C.d patchV createE st q (some C.p) (C.olds.map some) C.news
      false A.toLoop ?_]
    · exact hL
    · rw [← hrun]
      congr 1
      apply loop_eq <;> simp [Parts.toLoop]
  have hos : A.toLoop.oldStartIdx = (A.oD1.length : Int) := rfl
  have hoe : A.toLoop.oldEndIdx = (A.oD1.length : Int) + (A.oMid.length : Int) - 1 := rfl
  have hns : A.toLoop.newStartIdx = (A.nF.length : Int) := rfl
  have hne : A.toLoop.newEndIdx = (A.nF.length : Int) + (A.nMid.length : Int) - 1 := rfl
  have htt : A.toLoop.trace = A.trace := rfl
  have hoc : A.toLoop.oldCh = A.oD1 ++ (A.oMid ++ A.oD2) := rfl
  rw [hos, hoe, hns, hne, htt, hoc] at htr
  by_cases ho : A.oMid = []
  · -- the old window is empty: the new children left are created
    have hlen0 : A.oMid.length = 0 := by rw [ho]; rfl
    rw [if_pos (by rw [hlen0]; simp)] at htr
    have hcnt : ((A.nF.length : Int) + (A.nMid.length : Int) - 1 - (A.nF.length : Int) + 1).toNat
        = A.nMid.length := by omega
    rw [hcnt, creates_cast] at htr
    obtain ⟨c1, c2, c3⟩ := patchedOld_creates (fun k => (A.nF.length : Int) + (k : Int))
      (List.range A.nMid.length)
    have hpo : patchedOld L.trace = patchedOld A.trace := by
      rw [htr, patchedOld_append, c1, List.append_nil]
    have hrm : removedOld L.trace = [] := by
      rw [htr, removedOld_append, c2, hT.noRemove]
      rfl
    have hhn : handledNew L.trace = handledNew A.trace ++
        (List.range A.nMid.length).map (fun (k : Nat) => (A.nF.length : Int) + (k : Int)) := by
      rw [htr, handledNew_append, c3]
    have hcons : ∀ i, consumed A.oD1 A.oMid A.oD2 i ↔ (0 ≤ i ∧ i < (C.olds.length : Int)) := by
      intro i
      rw [hlen0] at hlo
      unfold consumed
      rw [ho]
      constructor
      · rintro (⟨h1, h2⟩ | ⟨h1, h2⟩ | ⟨k, _, hg⟩)
        · omega
        · simp only [List.length_nil, Nat.cast_zero, add_zero] at h1 h2
          omega
        · cases hg
      · rintro ⟨h1, h2⟩
        by_cases h3 : i < (A.oD1.length : Int)
        · exact Or.inl ⟨h1, h3⟩
        · refine Or.inr (Or.inl ⟨?_, ?_⟩)
          · simp only [List.length_nil, Nat.cast_zero, add_zero]
            omega
          · simp only [List.length_nil, Nat.cast_zero, add_zero]
            omega
    have hmemr : ∀ j : Int,
        j ∈ (List.range A.nMid.length).map (fun (k : Nat) => (A.nF.length : Int) + (k : Int)) ↔
          ((A.nF.length : Int) ≤ j ∧ j < (A.nF.length : Int) + (A.nMid.length : Int)) := by
      intro j
      rw [List.mem_map]
      constructor
      · rintro ⟨k, hk, e⟩
        rw [List.mem_range] at hk
        omega
      · rintro ⟨h1, h2⟩
        refine ⟨(j - (A.nF.length : Int)).toNat, ?_, by omega⟩
        rw [List.mem_range]
        omega
    refine ⟨by rw [hpo]; exact hT.oldNodup, ?_, by rw [hrm]; exact List.nodup_nil, ?_, ?_, ?_, ?_⟩
    · rw [hhn, List.nodup_append]
      refine ⟨hT.newNodup, ?_, ?_⟩
      · refine (List.nodup_range _).map ?_
        intro a b hab
        simp only at hab
        omega
      · intro j hj hj2
        have h1 := (hT.newIff j).1 hj
        have h2 := (hmemr j).1 hj2
        unfold handled at h1
        omega
    · intro j
      rw [hhn, List.mem_append, hT.newIff, hmemr]
      unfold handled
      omega
    · intro i hi
      rw [hpo, hT.oldIff, hcons] at hi
      exact hi
    · intro i hi
      rw [hrm] at hi
      cases hi
    · intro i h1 h2
      rw [hpo, hrm, hT.oldIff, hcons]
      simp only [List.not_mem_nil, not_false_eq_true, iff_true]
      exact ⟨h1, h2⟩
  · -- the new window is empty: the defined old children left are removed
    have hn : A.nMid = [] := by
      rcases hend with h | h
      · exact absurd h ho
      · exact h
    have hlenn : A.nMid.length = 0 := by rw [hn]; rfl
    have hpos : 0 < A.oMid.length := List.length_pos.2 ho
    rw [if_neg (by omega), if_pos (by rw [hlenn]; simp)] at htr
    have hcnt : ((A.oD1.length : Int) + (A.oMid.length : Int) - 1 - (A.oD1.length : Int) + 1).toNat
        = A.oMid.length := by omega
    rw [hcnt] at htr
    obtain ⟨c1, c2, c3⟩ := patchedOld_removes
      (definedSlots (A.oD1 ++ (A.oMid ++ A.oD2)) A.oMid.length (A.oD1.length : Int))
    have hpo : patchedOld L.trace = patchedOld A.trace := by
      rw [htr, patchedOld_append, c1, List.append_nil]
    have hrm : removedOld L.trace
        = definedSlots (A.oD1 ++ (A.oMid ++ A.oD2)) A.oMid.length (A.oD1.length : Int) := by
      rw [htr, removedOld_append, c3, hT.noRemove]
      rfl
    have hhn : handledNew L.trace = handledNew A.trace := by
      rw [htr, handledNew_append, c2, List.append_nil]
    refine ⟨by rw [hpo]; exact hT.oldNodup, by rw [hhn]; exact hT.newNodup,
      by rw [hrm]; exact nodup_definedSlots _ _ _, ?_, ?_, ?_, ?_⟩
    · intro j
      rw [hhn, hT.newIff]
      unfold handled
      rw [hlenn] at hln ⊢
      omega
    · intro i hi
      rw [hpo, hT.oldIff] at hi
      rcases hi with ⟨h1, h2⟩ | ⟨h1, h2⟩ | ⟨k, hk, hg⟩
      · omega
      · omega
      · have hlt : k < A.oMid.length := by
          rw [List.get?_eq_getElem?] at hg
          exact (List.getElem?_eq_some_iff.1 hg).1
        omega
    · intro i hi
      rw [hrm, mem_definedSlots] at hi
      omega
    · intro i h1 h2
      rw [hpo, hrm, hT.oldIff, mem_definedSlots]
      by_cases hw : (A.oD1.length : Int) ≤ i ∧ i < (A.oD1.length : Int) + (A.oMid.length : Int)
      · obtain ⟨k, hk⟩ : ∃ k : Nat, i = (A.oD1.length : Int) + (k : Int) :=
          ⟨(i - (A.oD1.length : Int)).toNat, by omega⟩
        have hklt : k < A.oMid.length := by omega
        have hget := window_get A k hklt
        rw [hoc, ← hk] at hget
        rw [hget]
        obtain ⟨s, hs⟩ : ∃ s, A.oMid.get? k = some s := by
          rw [List.get?_eq_getElem?]
          exact ⟨A.oMid[k], List.getElem?_eq_getElem hklt⟩
        rw [hs]
        constructor
        · rintro (⟨_, h⟩ | ⟨h, _⟩ | ⟨k', hk', hg⟩)
          · omega
          · omega
          · have : k' = k := by omega
            subst this
            rw [hs] at hg
            have : s = none := Option.some.inj hg
            subst this
            rintro ⟨_, _, h3⟩
            cases h3
        · intro hnot
          refine Or.inr (Or.inr ⟨k, hk, ?_⟩)
          rw [hs]
          cases s with
          | none => rfl
          | some c => exact absurd ⟨hw.1, hw.2, rfl⟩ hnot
      · constructor
        · intro _ h3
          exact hw ⟨h3.1, h3.2.1⟩
        · intro _
          by_cases h3 : i < (A.oD1.length : Int)
          · exact Or.inl ⟨h1, h3⟩
          · exact Or.inr (Or.inl ⟨by omega, by omega⟩)
/-- C36: within one call of `updateChildren`, assume that the old trees are rendered under
the parent at every depth (the backend children of the parent are their backend nodes in
order, each with the parent as its parent, and so on below) on pairwise distinct backend
nodes that exist; no vnode of the old or the new trees is an async placeholder or has a
component instance; no new vnode has a placeholder parent or an `init` hook; the new vnodes
are pairwise distinct objects, none of them a vnode of the old trees (`apart`); no `remove`
hook, of a module or of an old vnode, keeps its callback for later; and `checkDuplicateKeys`
is silent on the new children and on every child list below them (the keys of such a list,
as property names, are pairwise distinct and name no member of `Object.prototype`). Then the
call returns and: no old child is patched twice (each is patched against at most one new
child); no new child is patched twice or created twice, none is both patched and created,
and every new child is patched or created; an old child is removed exactly when it was not
patched, and none is removed twice. -/
theorem updateChildren_bookkeeping (E : Env) (d : Nat) (st : St) (p : Nat)
    (olds news : List VNode)
    (hold : ∀ o ∈ olds, oldPlain E d o = true)
    (hnew : ∀ n ∈ news, newPlain d n = true)
    (hkeys : duplicateKeysFrom [] news = [])
    (hapart : apart d olds news = true)
    (hch : (st.dom.children p).map some = olds.map (fun v => v.elm))
    (hpar : ∀ o ∈ olds, o.elm.bind st.dom.parent = some p)
    (hren : ∀ o ∈ olds, rendered d st.dom o = true)
    (hnd : (p :: olds.flatMap (elmsOf d)).Nodup)
    (hbd : ∀ x ∈ p :: olds.flatMap (elmsOf d), x < st.dom.next) :
    ∃ L, runUpdateChildren E d st p olds news = Except.ok L ∧
      (patchedOld L.trace).Nodup ∧
      (patchedNew L.trace).Nodup ∧ (createdNew L.trace).Nodup ∧
      (∀ j, j ∈ patchedNew L.trace → j ∉ createdNew L.trace) ∧
      (∀ j : Int, 0 ≤ j → j < (news.length : Int) →
        (j ∈ patchedNew L.trace ∨ j ∈ createdNew L.trace)) ∧
      (removedOld L.trace).Nodup ∧
      (∀ i : Int, 0 ≤ i → i < (olds.length : Int) →
        (i ∈ patchedOld L.trace ↔ i ∉ removedOld L.trace)) := by
  have hshared := sharedOk_of_apart d _ _ hapart
  have hC := ctxOk_of E d st p olds news hold hnew hnd hbd
  obtain ⟨hk1, hk2⟩ := keys_of_silent news hkeys
  obtain ⟨L, hL, h1, h2, h3, h4, _, _, h7⟩ := updateChildren_trace
    { E := E, d := d, p := p, olds := olds, news := news, dom0 := st.dom } hC ⟨hk1, hk2⟩
    (fun s q o n => patchVnode E d s q o n false) (createElm E d)
    (patchVnode_meets _ hC hold hnew hshared) (createElm_meets E d news hnew) st [] rfl hch
    (parent_of_bind st p olds hpar) hren
  obtain ⟨k1, k2, k3, k4⟩ := handledNew_split L.trace h2
  exact ⟨L, hL, h1, k1, k2, k3, fun j hj1 hj2 => (k4 j).1 ((h4 j).2 ⟨hj1, hj2⟩), h3, h7⟩

theorem updateChildren_bookkeeping_witness :
    ∃ L, runUpdateChildren (exEnv true) 2 (exSt exListDom) 0 exListOld exListNew
        = Except.ok L ∧
      (patchedOld L.trace).Nodup ∧
      (patchedNew L.trace).Nodup ∧ (createdNew L.trace).Nodup ∧
      (∀ j, j ∈ patchedNew L.trace → j ∉ createdNew L.trace) ∧
      (∀ j : Int, 0 ≤ j → j < (exListNew.length : Int) →
        (j ∈ patchedNew L.trace ∨ j ∈ createdNew L.trace)) ∧
      (removedOld L.trace).Nodup ∧
      (∀ i : Int, 0 ≤ i → i < (exListOld.length : Int) →
        (i ∈ patchedOld L.trace ↔ i ∉ removedOld L.trace)) :=
  updateChildren_bookkeeping (exEnv true) 2 (exSt exListDom) 0 exListOld exListNew
    (by decide) (by decide) (by decide) (by decide) (by decide) (by decide)
    (by decide) (by decide) (by decide)

/-- The list of `exListDom`: the item `c` is patched and moved, the item `a` is patched,
the item `d` is created and the item `b` is removed. -/
theorem bookkeeping_example :
    (runUpdateChildren (exEnv true) 2 (exSt exListDom) 0 exListOld exListNew).toOption.map
        (fun L => (patchedOld L.trace, patchedNew L.trace, createdNew L.trace,
          removedOld L.trace))
      = some ([2, 0], [0, 1], [2], [1]) := by
  decide!

/-- On keys that are pairwise distinct but name one property (`"1"` and `1`), the call
raises a `TypeError` after it has patched one old child: the other old children are
neither patched nor removed, and the second new child is neither patched nor created. -/
theorem updateChildren_bookkeeping_counterexample :
    ((exFlatDom 3).children 0).map some = exCoerceOld.map (fun v => v.elm) ∧
      (exCoerceOld.map (fun v => v.key)).Nodup ∧
      (exCoerceNew.map (fun v => v.key)).Nodup ∧
      errorOf (runUpdateChildren (exEnv true) 1 (exSt (exFlatDom 3)) 0 exCoerceOld exCoerceNew)
        = some Err.typeError := by
  decide

/-! ## The key lookup of the fallback branch -/

/-- C37: in a call of `updateChildren`, assume that the old trees are rendered under the
parent at every depth (the backend children of the parent are their backend nodes in order,
each with the parent as its parent, and so on below) on pairwise distinct backend nodes that
exist; no vnode of the old or the new trees is an async placeholder or has a component
instance; no new vnode has a placeholder parent or an `init` hook; the new vnodes are
pairwise distinct objects, none of them a vnode of the old trees (`apart`); no `remove`
hook, of a module or of an old vnode, keeps its callback for later; and `checkDuplicateKeys`
is silent on the new children and on every child list below them (the keys of such a list,
as property names, are pairwise distinct and name no member of `Object.prototype`). Then no
`TypeError` is raised: `sameVnode` and the read of `.key` are never applied to an undefined
slot, neither by the key lookup of the fallback branch nor while the key table is built; the
old children the call patches are slots of `oldCh`, none of them twice (an already consumed
slot is never selected again). -/
theorem updateChildren_lookup_defined (E : Env) (d : Nat) (st : St) (p : Nat)
    (olds news : List VNode)
    (hold : ∀ o ∈ olds, oldPlain E d o = true)
    (hnew : ∀ n ∈ news, newPlain d n = true)
    (hkeys : duplicateKeysFrom [] news = [])
    (hapart : apart d olds news = true)
    (hch : (st.dom.children p).map some = olds.map (fun v => v.elm))
    (hpar : ∀ o ∈ olds, o.elm.bind st.dom.parent = some p)
    (hren : ∀ o ∈ olds, rendered d st.dom o = true)
    (hnd : (p :: olds.flatMap (elmsOf d)).Nodup)
    (hbd : ∀ x ∈ p :: olds.flatMap (elmsOf d), x < st.dom.next) :
    errorOf (runUpdateChildren E d st p olds news) = none ∧
      ∃ L, runUpdateChildren E d st p olds news = Except.ok L ∧
        (patchedOld L.trace).Nodup ∧
        ∀ i, i ∈ patchedOld L.trace → (0 ≤ i ∧ i < (olds.length : Int)) := by
  have hshared := sharedOk_of_apart d _ _ hapart
  have hC := ctxOk_of E d st p olds news hold hnew hnd hbd
  obtain ⟨hk1, hk2⟩ := keys_of_silent news hkeys
  obtain ⟨L, hL, h1, _, _, _, h5, _, _⟩ := updateChildren_trace
    { E := E, d := d, p := p, olds := olds, news := news, dom0 := st.dom } hC ⟨hk1, hk2⟩
    (fun s q o n => patchVnode E d s q o n false) (createElm E d)
    (patchVnode_meets _ hC hold hnew hshared) (createElm_meets E d news hnew) st [] rfl hch
    (parent_of_bind st p olds hpar) hren
  refine ⟨?_, L, hL, h1, h5⟩
  have hL' : runUpdateChildren E d st p olds news = Except.ok L := hL
  rw [hL']
  rfl

theorem updateChildren_lookup_defined_witness :
    errorOf (runUpdateChildren (exEnv true) 2 (exSt exListDom) 0 exListOld exListNew) = none ∧
      ∃ L, runUpdateChildren (exEnv true) 2 (exSt exListDom) 0 exListOld exListNew
          = Except.ok L ∧
        (patchedOld L.trace).Nodup ∧
        ∀ i, i ∈ patchedOld L.trace → (0 ≤ i ∧ i < (exListOld.length : Int)) :=
  updateChildren_lookup_defined (exEnv true) 2 (exSt exListDom) 0 exListOld exListNew
    (by decide) (by decide) (by decide) (by decide) (by decide) (by decide)
    (by decide) (by decide) (by decide)

/-- The old children keyed `"p"`, `"1"`, `"q"` and the new children keyed `"1"` and `1`:
the keys are pairwise distinct in each list. The first iteration takes the fallback
branch, builds the table and consumes the old slot 1; in the second iteration the lookup of
the key `1` selects that slot again, which is now `undefined`, and `sameVnode` is applied
to it: the iteration raises a `TypeError`. -/
theorem updateChildren_lookup_defined_counterexample :
    (exCoerceOld.map (fun v => v.key)).Nodup ∧
      (exCoerceNew.map (fun v => v.key)).Nodup ∧
      (updateChildrenStep (exEnv true)
          (fun s q o n => patchVnode (exEnv true) 1 s q o n false) (createElm (exEnv true) 1)
          (some 0) true
          (Loop.start (exSt (exFlatDom 3)) [] (exCoerceOld.map some) exCoerceNew)).toOption.map
        (fun L1 =>
          (L1.oldKeyToIdx.map (fun m => m.get (propName (Key.num 1))),
            (getAt L1.oldCh 1).map (fun s => s.isSome),
            (getAt L1.newCh L1.newStartIdx).map (fun n => n.key),
            errorOf (updateChildrenStep (exEnv true)
              (fun s q o n => patchVnode (exEnv true) 1 s q o n false)
              (createElm (exEnv true) 1) (some 0) true L1)))
        = some (some (Lookup.own 1), some false, some (some (Key.num 1)),
            some Err.typeError) := by
  decide
/-! ## `observe` on a graph of aggregates -/

theorem wrapped_iff (o : ObjRec) : o.wrapped = true ↔ ∃ i, o.ob = ObProp.observer i := by
  unfold ObjRec.wrapped
  cases o.ob with
  | absent => simp
  | foreign c => simp
  | observer i => simp

theorem wrapped_false_iff (o : ObjRec) : o.wrapped = false ↔ ∀ i, o.ob ≠ ObProp.observer i := by
  unfold ObjRec.wrapped
  cases o.ob with
  | absent => simp
  | foreign c => simp
  | observer i => simp

theorem observable_lt (st : OSt) (a : Nat) (h : st.observable a = true) :
    a < st.heap.length := by
  apply kind_lt_heap
  unfold OSt.observable at h
  simp only [Bool.and_eq_true, Bool.or_eq_true, decide_eq_true_eq] at h
  rcases h.2.1.1.2 with e | e <;> rw [e] <;> simp

theorem plainGraph_sound (st : OSt) (h : st.plainGraph = true) : st.PlainGraph := by
  unfold OSt.plainGraph at h
  rw [List.all_eq_true] at h
  constructor
  · intro a ho hw
    have := h a (List.mem_range.2 (observable_lt st a ho))
    rw [wrapped_false_iff] at hw
    cases hob : (st.obj a).ob with
    | observer i => exact absurd hob (hw i)
    | absent =>
      rw [hob] at this
      simpa [ho] using this
    | foreign c =>
      rw [hob] at this
      simpa [ho] using this
  · intro a i hob
    have hlt : a < st.heap.length := ob_lt_heap st a (by rw [hob]; simp)
    have := h a (List.mem_range.2 hlt)
    rw [hob] at this
    simpa using this

theorem OSt.Wraps.self (s : OSt) : s.Wraps s :=
  ⟨rfl, Nat.le_refl _, fun _ _ h => h,
    fun b i h hw => by
      rw [wrapped_false_iff] at hw
      exact absurd h (hw i),
    fun _ => ⟨rfl, rfl, rfl, rfl, rfl⟩, ⟨rfl, rfl⟩, fun _ _ => rfl, fun _ _ => rfl,
    ⟨[], by simp, List.nodup_nil, fun b => by
      constructor
      · intro h; cases h
      · rintro ⟨h1, h2⟩
        rw [h1] at h2
        cases h2⟩⟩

theorem OSt.Wraps.wrapped_mono {s t : OSt} (h : s.Wraps t) (b : Nat)
    (hw : (s.obj b).wrapped = true) : (t.obj b).wrapped = true := by
  rw [h.kept b hw]
  exact hw

theorem OSt.Wraps.observable_eq {s t : OSt} (h : s.Wraps t) (b : Nat) :
    t.observable b = s.observable b := by
  unfold OSt.observable
  obtain ⟨a1, a2, a3, a4, _⟩ := h.attrs b
  rw [a1, a2, a3, a4, h.flags.1, h.flags.2]

theorem OSt.Wraps.thenWraps {s t u : OSt} (h1 : s.Wraps t) (h2 : t.Wraps u) : s.Wraps u := by
  obtain ⟨f1, e1, n1, m1⟩ := h1.fresh
  obtain ⟨f2, e2, n2, m2⟩ := h2.fresh
  refine ⟨h2.len.trans h1.len, Nat.le_trans h1.obs h2.obs,
    fun b i h => h2.stay b i (h1.stay b i h), ?_, ?_, ⟨h2.flags.1.trans h1.flags.1,
      h2.flags.2.trans h1.flags.2⟩, ?_, ?_, ⟨f1 ++ f2, ?_, ?_, ?_⟩⟩
  · intro b i hu hs
    by_cases ht : (t.obj b).wrapped = true
    · obtain ⟨j, hj⟩ := (wrapped_iff _).1 ht
      have := h2.stay b j hj
      rw [hu] at this
      have e : i = j := by
        simpa using this
      rw [e]
      exact Nat.lt_of_lt_of_le (h1.index b j hj hs) h2.obs
    · simp only [Bool.not_eq_true] at ht
      exact h2.index b i hu ht
  · intro b
    obtain ⟨a1, a2, a3, a4, a5⟩ := h1.attrs b
    obtain ⟨b1, b2, b3, b4, b5⟩ := h2.attrs b
    exact ⟨b1.trans a1, b2.trans a2, b3.trans a3, b4.trans a4, b5.trans a5⟩
  · intro b hw
    rw [h2.kept b (h1.wrapped_mono b hw), h1.kept b hw]
  · intro b hw
    have e2' := h2.same b hw
    have hwt : (t.obj b).wrapped = false := by rw [← e2']; exact hw
    rw [e2', h1.same b hwt]
  · rw [e2, e1, List.append_assoc]
  · rw [List.nodup_append]
    refine ⟨n1, n2, ?_⟩
    intro b hb1 hb2
    have k1 := (m1 b).1 hb1
    have k2 := (m2 b).1 hb2
    rw [k1.2] at k2
    cases k2.1
  · intro b
    rw [List.mem_append, m1, m2]
    constructor
    · rintro (⟨k1, k2⟩ | ⟨k1, k2⟩)
      · exact ⟨k1, h2.wrapped_mono b k2⟩
      · refine ⟨?_, k2⟩
        by_contra hc
        simp only [Bool.not_eq_false] at hc
        rw [h1.wrapped_mono b hc] at k1
        cases k1
    · rintro ⟨k1, k2⟩
      by_cases ht : (t.obj b).wrapped = true
      · exact Or.inl ⟨k1, ht⟩
      · simp only [Bool.not_eq_true] at ht
        exact Or.inr ⟨ht, k2⟩

/-- A change that leaves the heap, the objects of the observers and the switches as they
are. -/
theorem OSt.Wraps.congr {s t t' : OSt} (h : s.Wraps t) (hh : t'.heap = t.heap)
    (ho : t'.observers.map (fun o => o.value) = t.observers.map (fun o => o.value))
    (h1 : t'.shouldObserve = t.shouldObserve)
    (h2 : t'.serverRendering = t.serverRendering) : s.Wraps t' := by
  have hobj : ∀ b, t'.obj b = t.obj b := fun b => by simp [OSt.obj, hh]
  have hlen : t'.observers.length = t.observers.length := by
    have := congrArg List.length ho
    simpa using this
  obtain ⟨f1, e1, n1, m1⟩ := h.fresh
  refine ⟨by rw [hh]; exact h.len, by rw [hlen]; exact h.obs, ?_, ?_, ?_,
    ⟨h1.trans h.flags.1, h2.trans h.flags.2⟩, ?_, ?_, ⟨f1, by rw [ho]; exact e1, n1, ?_⟩⟩
  · intro b i hb; rw [hobj]; exact h.stay b i hb
  · intro b i hb hs; rw [hlen]; rw [hobj] at hb; exact h.index b i hb hs
  · intro b; rw [hobj]; exact h.attrs b
  · intro b hb; rw [hobj]; exact h.kept b hb
  · intro b hb; rw [hobj] at hb ⊢; exact h.same b hb
  · intro b; rw [hobj]; exact m1 b

theorem plainGraph_of_wraps {s t : OSt} (hs : s.PlainGraph) (h : s.Wraps t) : t.PlainGraph := by
  constructor
  · intro a ho hw
    have e := h.same a hw
    rw [e]
    rw [h.observable_eq] at ho
    rw [e] at hw
    exact hs.plain a ho hw
  · intro a i hob
    by_cases hw : (s.obj a).wrapped = true
    · rw [h.kept a hw] at hob
      exact Nat.lt_of_lt_of_le (hs.valid a i hob) h.obs
    · simp only [Bool.not_eq_true] at hw
      exact h.index a i hob hw

theorem pigeon (W : List Nat) (n : Nat) (hnd : W.Nodup) (hlt : ∀ b ∈ W, b < n) :
    W.length ≤ n := by
  have hsub : W ⊆ List.range n := fun b hb => List.mem_range.2 (hlt b hb)
  have := (List.subperm_of_subset hnd hsub).length_le
  simpa using this
theorem obj_of_set (t t' : OSt) (a : Nat) (o : ObjRec) (hlt : a < t.heap.length)
    (hh : t'.heap = t.heap.set a o) (b : Nat) :
    t'.obj b = if a = b then o else t.obj b := by
  have := obj_setObj t a o b
  simp only [OSt.obj, OSt.setObj] at this
  simp only [OSt.obj, hh, this]
  by_cases hab : a = b
  · subst hab; simp [hlt]
  · simp [hab]

theorem members_congr (s t : OSt) (b : Nat) (h : t.obj b = s.obj b) :
    t.members b = s.members b := by
  simp only [OSt.members, h]

theorem edge_of_wraps {s t : OSt} (h : s.Wraps t) {b c : Nat} (he : t.edge b c) :
    s.edge b c := by
  obtain ⟨hu, hob, hmem⟩ := he
  have e := h.same b hu
  refine ⟨by rw [← e]; exact hu, by rw [← h.observable_eq]; exact hob, ?_⟩
  rw [← members_congr s t b e]
  exact hmem

/-- A path of the visit in a later state is a path in the state the call started from. -/
theorem reach_of_wraps {s t : OSt} (h : s.Wraps t) {c0 b : Nat}
    (hr : Relation.ReflTransGen t.edge c0 b) : Relation.ReflTransGen s.edge c0 b :=
  Relation.ReflTransGen.mono (fun _ _ he => edge_of_wraps h he) hr

theorem OSt.Closure.mono {s t u : OSt} {b : Nat} (h : s.Closure t b)
    (hm : ∀ c, (t.obj c).wrapped = true → (u.obj c).wrapped = true) : s.Closure u b :=
  fun c hc ho => hm c (h c hc ho)

theorem OSt.Visits.selfVisits (s : OSt) : s.Visits s :=
  ⟨OSt.Wraps.self s, fun b h1 h2 => by rw [h1] at h2; cases h2⟩

theorem OSt.Visits.congrEngine {s t t' : OSt} (h : s.Visits t) (hh : t'.heap = t.heap)
    (ho : t'.observers.map (fun o => o.value) = t.observers.map (fun o => o.value))
    (h1 : t'.shouldObserve = t.shouldObserve)
    (h2 : t'.serverRendering = t.serverRendering) : s.Visits t' := by
  have hobj : ∀ b, t'.obj b = t.obj b := fun b => by simp [OSt.obj, hh]
  refine ⟨h.wraps.congr hh ho h1 h2, ?_⟩
  intro b hs ht
  rw [hobj] at ht
  exact (h.closed b hs ht).mono (fun c hc => by rw [hobj]; exact hc)

/-- A nested call of `observe` while the members of `a` are visited. -/
theorem OSt.Visiting.step {s t u : OSt} {a : Nat} (h : s.Visiting a t) (hv : t.Visits u) :
    s.Visiting a u := by
  refine ⟨h.wraps.thenWraps hv.wraps, hv.wraps.wrapped_mono a h.here, ?_⟩
  intro b hba hs hu
  by_cases ht : (t.obj b).wrapped = true
  · exact (h.closed b hba hs ht).mono (fun c hc => hv.wraps.wrapped_mono c hc)
  · simp only [Bool.not_eq_true] at ht
    have e := h.wraps.same b ht
    intro c hc ho
    refine hv.closed b ht hu c ?_ ?_
    · rw [members_congr s t b e]; exact hc
    · rw [h.wraps.observable_eq]; exact ho

/-- A change of the object `a` under visit that keeps its observer and what `observe`
tests, and of the engine that keeps the objects of the observers. -/
theorem OSt.Visiting.edit {s t t' : OSt} {a : Nat} (h : s.Visiting a t)
    (hu : (s.obj a).wrapped = false) (o : ObjRec) (hob : o.ob = (t.obj a).ob)
    (a1 : o.isVNode = (t.obj a).isVNode) (a2 : o.kind = (t.obj a).kind)
    (a3 : o.extensible = (t.obj a).extensible) (a4 : o.isVue = (t.obj a).isVue)
    (a5 : o.elems = (t.obj a).elems)
    (hh : t'.heap = t.heap.set a o)
    (ho : t'.observers.map (fun o => o.value) = t.observers.map (fun o => o.value))
    (h1 : t'.shouldObserve = t.shouldObserve)
    (h2 : t'.serverRendering = t.serverRendering) : s.Visiting a t' := by
  have hlt : a < t.heap.length := ob_lt_heap t a (by
    obtain ⟨i, hi⟩ := (wrapped_iff _).1 h.here
    rw [hi]; simp)
  have hobj : ∀ b, t'.obj b = if a = b then o else t.obj b := fun b => by
    have := obj_setObj t a o b
    simp only [OSt.obj, OSt.setObj] at this
    simp only [OSt.obj, hh, this]
    by_cases hab : a = b
    · subst hab; simp [hlt]
    · simp [hab]
  have hne : ∀ b, b ≠ a → t'.obj b = t.obj b := fun b hb => by
    rw [hobj, if_neg (fun e => hb e.symm)]
  have hwr : ∀ b, (t'.obj b).wrapped = (t.obj b).wrapped := fun b => by
    by_cases hab : b = a
    · subst hab
      rw [hobj, if_pos rfl]
      simp only [ObjRec.wrapped, hob]
    · rw [hne b hab]
  have hlen : t'.observers.length = t.observers.length := by
    have := congrArg List.length ho
    simpa using this
  obtain ⟨f1, e1, n1, m1⟩ := h.wraps.fresh
  refine ⟨⟨by rw [hh, List.length_set]; exact h.wraps.len, by rw [hlen]; exact h.wraps.obs,
    ?_, ?_, ?_, ⟨h1.trans h.wraps.flags.1, h2.trans h.wraps.flags.2⟩, ?_, ?_,
    ⟨f1, by rw [ho]; exact e1, n1, ?_⟩⟩, by rw [hwr]; exact h.here, ?_⟩
  · intro b i hb
    by_cases hab : b = a
    · subst hab
      rw [hobj, if_pos rfl, hob]
      exact h.wraps.stay b i hb
    · rw [hne b hab]; exact h.wraps.stay b i hb
  · intro b i hb hs
    rw [hlen]
    by_cases hab : b = a
    · subst hab
      rw [hobj, if_pos rfl, hob] at hb
      exact h.wraps.index b i hb hs
    · rw [hne b hab] at hb; exact h.wraps.index b i hb hs
  · intro b
    by_cases hab : b = a
    · subst hab
      rw [hobj, if_pos rfl, a1, a2, a3, a4, a5]
      exact h.wraps.attrs b
    · rw [hne b hab]; exact h.wraps.attrs b
  · intro b hb
    have hab : b ≠ a := fun e => by
      rw [e, hu] at hb; cases hb
    rw [hne b hab]; exact h.wraps.kept b hb
  · intro b hb
    rw [hwr] at hb
    have hab : b ≠ a := fun e => by
      rw [e, h.here] at hb; cases hb
    rw [hne b hab]; exact h.wraps.same b hb
  · intro b; rw [hwr]; exact m1 b
  · intro b hba hs ht
    rw [hwr] at ht
    exact (h.closed b hba hs ht).mono (fun c hc => by rw [hwr]; exact hc)

/-- The visit of an object is over: every object wrapped by the call has its observable
members wrapped. -/
theorem OSt.Visiting.done {s t : OSt} {a : Nat} (h : s.Visiting a t)
    (hc : s.Closure t a) : s.Visits t :=
  ⟨h.wraps, fun b hs ht => by
    by_cases hab : b = a
    · rw [hab]; exact hc
    · exact h.closed b hab hs ht⟩
/-- The first step of `new Observer`: the object `a` gets its observer. -/
theorem OSt.Visiting.start {s t : OSt} {a : Nat} (hu : (s.obj a).wrapped = false)
    (hlt : a < s.heap.length)
    (hh : t.heap = s.heap.set a { s.obj a with ob := ObProp.observer s.observers.length })
    (ho : t.observers.map (fun o => o.value) = s.observers.map (fun o => o.value) ++ [a])
    (h1 : t.shouldObserve = s.shouldObserve)
    (h2 : t.serverRendering = s.serverRendering) : s.Visiting a t := by
  have hobj : ∀ b, t.obj b =
      if a = b then { s.obj a with ob := ObProp.observer s.observers.length } else s.obj b :=
    fun b => by
      have := obj_setObj s a { s.obj a with ob := ObProp.observer s.observers.length } b
      simp only [OSt.obj, OSt.setObj] at this
      simp only [OSt.obj, hh, this]
      by_cases hab : a = b
      · subst hab; simp [hlt]
      · simp [hab]
  have hne : ∀ b, b ≠ a → t.obj b = s.obj b := fun b hb => by
    rw [hobj, if_neg (fun e => hb e.symm)]
  have ha : t.obj a = { s.obj a with ob := ObProp.observer s.observers.length } := by
    rw [hobj, if_pos rfl]
  have hwa : (t.obj a).wrapped = true := by rw [ha]; rfl
  have hlen : t.observers.length = s.observers.length + 1 := by
    have := congrArg List.length ho
    simpa using this
  have hnw : ∀ b, (s.obj b).wrapped = true → b ≠ a := fun b hb e => by
    rw [e, hu] at hb; cases hb
  refine ⟨⟨by rw [hh, List.length_set], by omega, ?_, ?_, ?_, ⟨h1, h2⟩, ?_, ?_,
    ⟨[a], ho, List.nodup_singleton a, ?_⟩⟩, hwa, ?_⟩
  · intro b i hb
    rw [hne b (hnw b ((wrapped_iff _).2 ⟨i, hb⟩))]; exact hb
  · intro b i hb hs
    by_cases hab : b = a
    · subst hab
      rw [ha] at hb
      simp only [ObProp.observer.injEq] at hb
      omega
    · rw [hne b hab] at hb
      rw [wrapped_false_iff] at hs
      exact absurd hb (hs i)
  · intro b
    by_cases hab : b = a
    · subst hab
      rw [ha]
      exact ⟨rfl, rfl, rfl, rfl, rfl⟩
    · rw [hne b hab]
      exact ⟨rfl, rfl, rfl, rfl, rfl⟩
  · intro b hb
    exact hne b (hnw b hb)
  · intro b hb
    have hab : b ≠ a := fun e => by
      rw [e, hwa] at hb; cases hb
    exact hne b hab
  · intro b
    rw [List.mem_singleton]
    constructor
    · intro e
      rw [e]
      exact ⟨hu, hwa⟩
    · rintro ⟨k1, k2⟩
      by_contra hab
      rw [hne b hab, k1] at k2
      cases k2
  · intro b hba hs ht
    rw [hne b hba, hs] at ht
    cases ht

theorem lookup_setSlot_other (key : String) (slot : Slot) (k : String) (hk : k ≠ key) :
    ∀ (l : List (String × Slot)), (setSlot key slot l).lookup k = l.lookup k := by
  intro l
  induction l with
  | nil =>
    have : (k == key) = false := by simpa using hk
    simp [setSlot, List.lookup, this]
  | cons p rest ih =>
    obtain ⟨k1, s1⟩ := p
    unfold setSlot
    split
    · rename_i h1
      have e1 : (k == key) = false := by simpa using hk
      have e2 : (k == k1) = false := by rw [h1]; exact e1
      simp only [List.lookup, e1, e2]
    · cases hkk : k == k1
      · simp only [List.lookup, hkk]
        exact ih
      · simp only [List.lookup, hkk]

theorem lookup_of_mem (k : String) (v : Slot) :
    ∀ (l : List (String × Slot)), (l.map (fun p => p.1)).Nodup → (k, v) ∈ l →
      l.lookup k = some v := by
  intro l
  induction l with
  | nil => intro _ h; cases h
  | cons p rest ih =>
    obtain ⟨k1, s1⟩ := p
    intro hnd hm
    simp only [List.map_cons, List.nodup_cons] at hnd
    rcases List.mem_cons.1 hm with e | hm
    · simp only [Prod.mk.injEq] at e
      rw [← e.1, ← e.2]
      simp [List.lookup]
    · have hne : (k == k1) = false := by
        have : k ≠ k1 := fun e => hnd.1 (by
          rw [← e]
          exact List.mem_map.2 ⟨(k, v), hm, rfl⟩)
        simpa using this
      simp only [List.lookup, hne]
      exact ih hnd.2 hm

theorem mem_of_lookup (k : String) (v : Slot) :
    ∀ (l : List (String × Slot)), l.lookup k = some v → (k, v) ∈ l := by
  intro l
  induction l with
  | nil => intro h; cases h
  | cons p rest ih =>
    obtain ⟨k1, s1⟩ := p
    intro h
    cases hkk : k == k1
    · simp only [List.lookup, hkk] at h
      exact List.mem_cons_of_mem _ (ih h)
    · simp only [List.lookup, hkk, Option.some.injEq] at h
      have : k = k1 := by simpa using hkk
      rw [this, h]
      exact List.mem_cons_self _ _
/-- The method `observeArray` during the visit of `a`, when every nested call of `observe`
returns and wraps what it reaches. -/
theorem observeArray_visiting (obs : ObserveFn) (s : OSt) (a : Nat)
    (H : ∀ t v, s.Visiting a t → ∃ r, obs t v = Except.ok r ∧ t.Visits r.1 ∧
      (∀ c, v = Val.ref c → t.observable c = true → (r.1.obj c).wrapped = true) ∧
      ∀ b, (t.obj b).wrapped = false → (r.1.obj b).wrapped = true →
        ∃ c0, v = Val.ref c0 ∧ Relation.ReflTransGen t.edge c0 b) :
    ∀ (elems : List Val) (t : OSt), s.Visiting a t →
      ∃ t', observeArray obs t elems = Except.ok t' ∧ s.Visiting a t' ∧
        (∀ c, (t.obj c).wrapped = true → (t'.obj c).wrapped = true) ∧
        (∀ c, Val.ref c ∈ elems → s.observable c = true → (t'.obj c).wrapped = true) ∧
        ∀ b, (t.obj b).wrapped = false → (t'.obj b).wrapped = true →
          ∃ c0, Val.ref c0 ∈ elems ∧ Relation.ReflTransGen s.edge c0 b := by
  intro elems
  induction elems with
  | nil =>
    intro t h
    exact ⟨t, rfl, h, fun _ hc => hc, (fun c hc => by cases hc),
      fun b h1 h2 => by rw [h1] at h2; cases h2⟩
  | cons item rest ih =>
    intro t h
    obtain ⟨r, hr, hv, hroot, htr⟩ := H t item h
    obtain ⟨t', ht', hvis, hmono, hall, htr2⟩ := ih r.1 (h.step hv)
    refine ⟨t', ?_, hvis, fun c hc => hmono c (hv.wraps.wrapped_mono c hc), ?_, ?_⟩
    · simp only [observeArray, bind, Except.bind, hr]
      exact ht'
    · intro c hc ho
      rcases List.mem_cons.1 hc with e | hc
      · apply hmono
        apply hroot c e.symm
        rw [h.wraps.observable_eq]; exact ho
      · exact hall c hc ho
    · intro b hu hw
      by_cases hrw : (r.1.obj b).wrapped = true
      · obtain ⟨c0, hc0, hreach⟩ := htr b hu hrw
        exact ⟨c0, List.mem_cons.2 (Or.inl hc0.symm), reach_of_wraps h.wraps hreach⟩
      · simp only [Bool.not_eq_true] at hrw
        obtain ⟨c0, hc0, hreach⟩ := htr2 b hrw hw
        exact ⟨c0, List.mem_cons_of_mem _ hc0, hreach⟩

theorem slot_congr (s t : OSt) (a : Nat) (key : String) (h : t.heap = s.heap) :
    t.slot a key = s.slot a key := by
  simp only [OSt.slot, OSt.obj, h]

/-- One call of `defineReactive(obj, key)` by `walk` during the visit of `a`, on a data
property. -/
theorem defineReactive_visiting (U : User) (obs : ObserveFn) (fuel : Nat) (s : OSt) (a : Nat)
    (hu : (s.obj a).wrapped = false)
    (H : ∀ t v, s.Visiting a t → ∃ r, obs t v = Except.ok r ∧ t.Visits r.1 ∧
      (∀ c, v = Val.ref c → t.observable c = true → (r.1.obj c).wrapped = true) ∧
      ∀ b, (t.obj b).wrapped = false → (r.1.obj b).wrapped = true →
        ∃ c0, v = Val.ref c0 ∧ Relation.ReflTransGen t.edge c0 b)
    (t : OSt) (key : String) (slot : Slot) (h : s.Visiting a t)
    (hslot : (t.obj a).props.lookup key = some slot) (hacc : slot.isAccessor = false)
    (hget : slot.get = none) :
    ∃ t', defineReactive U obs fuel t a key none false false = Except.ok t' ∧
      s.Visiting a t' ∧
      (∀ c, (t.obj c).wrapped = true → (t'.obj c).wrapped = true) ∧
      (slot.configurable = true → ∀ c, slot.value = Val.ref c → s.observable c = true →
        (t'.obj c).wrapped = true) ∧
      (∀ k, k ≠ key → (t'.obj a).props.lookup k = (t.obj a).props.lookup k) ∧
      ∀ b, (t.obj b).wrapped = false → (t'.obj b).wrapped = true →
        slot.configurable = true ∧
          ∃ c0, slot.value = Val.ref c0 ∧ Relation.ReflTransGen s.edge c0 b := by
  have hobj1 : ∀ b, (newDep t).1.obj b = t.obj b := fun b => rfl
  have hv1 : t.Visits (newDep t).1 := (OSt.Visits.selfVisits t).congrEngine rfl rfl rfl rfl
  have h1 : s.Visiting a (newDep t).1 := h.step hv1
  have hs1 : (newDep t).1.slot a key = some slot := hslot
  by_cases hc : slot.configurable = false
  · refine ⟨(newDep t).1, ?_, h1, fun c hc => hc, fun hcc => ?_, fun k _ => rfl,
      fun b k1 k2 => ?_⟩
    · simp only [defineReactive, hs1, Option.map_some', hc, if_true]
      rfl
    · rw [hc] at hcc; cases hcc
    · rw [hobj1, k1] at k2
      cases k2
  · simp only [Bool.not_eq_false] at hc
    obtain ⟨r, hr, hv, hroot, htr⟩ := H (newDep t).1 slot.value h1
    have h2 : s.Visiting a r.1 := h1.step hv
    have hra : r.1.obj a = t.obj a := hv.wraps.kept a h1.here
    have hread : readProp U fuel (newDep t).1 a key = Except.ok ((newDep t).1, slot.value) := by
      simp only [readProp, hs1, hacc]
      rfl
    have hdef : defineReactive U obs fuel t a key none false false = Except.ok
        (installAccessor r.1 a key
          ⟨a, key, (newDep t).2, slot.value, r.2, none, slot.set, false, false⟩) := by
      simp only [defineReactive, hs1, Option.map_some', hc, Option.some_bind, hget,
        Option.isNone_none, Bool.true_or, if_true, hread, bind, Except.bind, hr,
        Option.isNone_some, Bool.false_and, Bool.false_eq_true, if_false, OSt.setObj]
      rfl
    have h3 : s.Visiting a (installAccessor r.1 a key
          ⟨a, key, (newDep t).2, slot.value, r.2, none, slot.set, false, false⟩) :=
      h2.edit hu ((r.1.obj a).setProp key (reactiveSlot r.1.cells.length))
        rfl rfl rfl rfl rfl rfl rfl rfl rfl rfl
    have hlt : a < r.1.heap.length := ob_lt_heap r.1 a (by
      obtain ⟨i, hi⟩ := (wrapped_iff _).1 h2.here
      rw [hi]; simp)
    have hobj : ∀ b, (installAccessor r.1 a key
          ⟨a, key, (newDep t).2, slot.value, r.2, none, slot.set, false, false⟩).obj b =
        if a = b then (r.1.obj a).setProp key (reactiveSlot r.1.cells.length)
        else r.1.obj b :=
      fun b => obj_of_set r.1 _ a _ hlt rfl b
    have hwr : ∀ c, (r.1.obj c).wrapped = true → ((installAccessor r.1 a key
          ⟨a, key, (newDep t).2, slot.value, r.2, none, slot.set, false, false⟩).obj c).wrapped
          = true := fun c hcw => by
      rw [hobj]
      by_cases hab : a = c
      · subst hab
        rw [if_pos rfl]
        exact hcw
      · rw [if_neg hab]; exact hcw
    refine ⟨_, hdef, h3, fun c hcw => hwr c (hv.wraps.wrapped_mono c hcw), ?_, ?_, ?_⟩
    · intro _ c hval ho
      apply hwr
      apply hroot c hval
      rw [h1.wraps.observable_eq]; exact ho
    · intro k hk
      rw [hobj, if_pos rfl]
      show (setSlot key (reactiveSlot r.1.cells.length) (r.1.obj a).props).lookup k = _
      rw [lookup_setSlot_other key _ k hk, hra]
    · intro b k1 k2
      have hrw : (r.1.obj b).wrapped = true := by
        rw [hobj] at k2
        by_cases hab : a = b
        · subst hab
          exact h2.here
        · rw [if_neg hab] at k2
          exact k2
      obtain ⟨c0, hc0, hreach⟩ := htr b k1 hrw
      exact ⟨hc, c0, hc0, reach_of_wraps h1.wraps hreach⟩

/-- The method `walk` during the visit of `a`, over keys that are still data properties. -/
theorem walk_visiting (U : User) (obs : ObserveFn) (fuel : Nat) (s : OSt) (a : Nat)
    (hu : (s.obj a).wrapped = false)
    (H : ∀ t v, s.Visiting a t → ∃ r, obs t v = Except.ok r ∧ t.Visits r.1 ∧
      (∀ c, v = Val.ref c → t.observable c = true → (r.1.obj c).wrapped = true) ∧
      ∀ b, (t.obj b).wrapped = false → (r.1.obj b).wrapped = true →
        ∃ c0, v = Val.ref c0 ∧ Relation.ReflTransGen t.edge c0 b) :
    ∀ (keys : List String) (t : OSt), s.Visiting a t → keys.Nodup →
      (∀ k ∈ keys, ∃ slot, (t.obj a).props.lookup k = some slot ∧ slot.isAccessor = false ∧
        slot.get = none) →
      ∃ t', walk U obs fuel a t keys = Except.ok t' ∧ s.Visiting a t' ∧
        (∀ c, (t.obj c).wrapped = true → (t'.obj c).wrapped = true) ∧
        (∀ k ∈ keys, ∀ slot, (t.obj a).props.lookup k = some slot →
          slot.configurable = true → ∀ c, slot.value = Val.ref c → s.observable c = true →
            (t'.obj c).wrapped = true) ∧
        ∀ b, (t.obj b).wrapped = false → (t'.obj b).wrapped = true →
          ∃ k ∈ keys, ∃ slot, (t.obj a).props.lookup k = some slot ∧
            slot.configurable = true ∧
            ∃ c0, slot.value = Val.ref c0 ∧ Relation.ReflTransGen s.edge c0 b := by
  intro keys
  induction keys with
  | nil =>
    intro t h _ _
    exact ⟨t, rfl, h, fun _ hc => hc, (fun k hk => by cases hk),
      fun b h1 h2 => by rw [h1] at h2; cases h2⟩
  | cons key rest ih =>
    intro t h hnd hdata
    obtain ⟨slot, hslot, hacc, hget⟩ := hdata key (List.mem_cons_self _ _)
    obtain ⟨t1, hd, h1, hm1, hroot, hother, htr1⟩ :=
      defineReactive_visiting U obs fuel s a hu H t key slot h hslot hacc hget
    rw [List.nodup_cons] at hnd
    have hne : ∀ k ∈ rest, k ≠ key := fun k hk e => hnd.1 (e ▸ hk)
    obtain ⟨t', hw, h2, hm2, hall, htr2⟩ := ih t1 h1 hnd.2 (fun k hk => by
      rw [hother k (hne k hk)]
      exact hdata k (List.mem_cons_of_mem _ hk))
    refine ⟨t', ?_, h2, fun c hc => hm2 c (hm1 c hc), ?_, ?_⟩
    · simp only [walk, bind, Except.bind, hd]
      exact hw
    · intro k hk sl hsl hcf c hval ho
      rcases List.mem_cons.1 hk with e | hk
      · rw [e, hslot] at hsl
        simp only [Option.some.injEq] at hsl
        rw [← hsl] at hcf hval
        exact hm2 c (hroot hcf c hval ho)
      · refine hall k hk sl ?_ hcf c hval ho
        rw [hother k (hne k hk)]
        exact hsl
    · intro b k1 k2
      by_cases hrw : (t1.obj b).wrapped = true
      · obtain ⟨hcf, c0, hc0, hreach⟩ := htr1 b k1 hrw
        exact ⟨key, List.mem_cons_self _ _, slot, hslot, hcf, c0, hc0, hreach⟩
      · simp only [Bool.not_eq_true] at hrw
        obtain ⟨k, hk, sl, hsl, hcf, c0, hc0, hreach⟩ := htr2 b hrw k2
        refine ⟨k, List.mem_cons_of_mem _ hk, sl, ?_, hcf, c0, hc0, hreach⟩
        rw [← hother k (hne k hk)]
        exact hsl
theorem plainData_iff (o : ObjRec) : o.plainData = true ↔
    (o.ob ≠ ObProp.foreign false ∧ (o.props.map (fun p => p.1)).Nodup ∧
      ∀ p ∈ o.props, p.2.isAccessor = false ∧ p.2.get = none) := by
  simp only [ObjRec.plainData, Bool.and_eq_true, decide_eq_true_eq, List.all_eq_true,
    Bool.not_eq_true', Option.isNone_iff_eq_none, and_assoc]

/-- The constructor `new Observer(value)` on an observable aggregate of plain data that
carries no observer, when every nested call of `observe` returns and wraps what it
reaches. -/
theorem observerNew_visits (U : User) (obs : ObserveFn) (fuel : Nat) (s : OSt) (a : Nat)
    (hp : s.PlainGraph) (ho : s.observable a = true) (hu : (s.obj a).wrapped = false)
    (H : ∀ t v, s.Visiting a t → ∃ r, obs t v = Except.ok r ∧ t.Visits r.1 ∧
      (∀ c, v = Val.ref c → t.observable c = true → (r.1.obj c).wrapped = true) ∧
      ∀ b, (t.obj b).wrapped = false → (r.1.obj b).wrapped = true →
        ∃ c0, v = Val.ref c0 ∧ Relation.ReflTransGen t.edge c0 b) :
    ∃ n, Observer.new U obs fuel s a = Except.ok n ∧ n.2 = s.observers.length ∧
      s.Visits n.1 ∧ (n.1.obj a).wrapped = true ∧
      ∀ b, (s.obj b).wrapped = false → (n.1.obj b).wrapped = true →
        Relation.ReflTransGen s.edge a b := by
  obtain ⟨hforeign, hnd, hdata⟩ := (plainData_iff _).1 (hp.plain a ho hu)
  have hlt := observable_lt s a ho
  have h2 : s.Visiting a (({ (newDep s).1 with observers := (newDep s).1.observers ++
      [⟨a, (newDep s).2, 0⟩] } : OSt).setObj a
      { s.obj a with ob := ObProp.observer s.observers.length }) :=
    OSt.Visiting.start hu hlt rfl (by simp [OSt.setObj, newDep]) rfl rfl
  have e : Observer.new U obs fuel s a =
      (if (s.obj a).ob = ObProp.foreign false then throw Err.typeError
       else if (s.obj a).kind = ObjKind.array then
         (observeArray obs ((({ (newDep s).1 with observers := (newDep s).1.observers ++
            [⟨a, (newDep s).2, 0⟩] } : OSt).setObj a
            { s.obj a with ob := ObProp.observer s.observers.length }).setObj a
            { (({ (newDep s).1 with observers := (newDep s).1.observers ++
              [⟨a, (newDep s).2, 0⟩] } : OSt).setObj a
              { s.obj a with ob := ObProp.observer s.observers.length }).obj a with
              augmented := true }) (s.obj a).elems >>= fun st4 =>
            pure (st4, s.observers.length))
       else
         (walk U obs fuel a (({ (newDep s).1 with observers := (newDep s).1.observers ++
            [⟨a, (newDep s).2, 0⟩] } : OSt).setObj a
            { s.obj a with ob := ObProp.observer s.observers.length })
            (((s.obj a).props.filter (fun p => p.2.enumerable)).map (fun p => p.1)) >>=
          fun st3 => pure (st3, s.observers.length))) := rfl
  generalize hst2 : (({ (newDep s).1 with observers := (newDep s).1.observers ++
      [⟨a, (newDep s).2, 0⟩] } : OSt).setObj a
      { s.obj a with ob := ObProp.observer s.observers.length }) = st2 at h2 e
  have hobj2 : st2.obj a = { s.obj a with ob := ObProp.observer s.observers.length } := by
    rw [← hst2, obj_setObj]
    have : a < (newDep s).1.heap.length := hlt
    simp [this]
  have hobj2b : ∀ b, b ≠ a → st2.obj b = s.obj b := fun b hb => by
    rw [← hst2, obj_setObj, if_neg (fun e => hb e.1.symm)]
    rfl
  by_cases hk : (s.obj a).kind = ObjKind.array
  · have h3 : s.Visiting a (st2.setObj a { st2.obj a with augmented := true }) :=
      h2.edit hu { st2.obj a with augmented := true } rfl rfl rfl rfl rfl rfl rfl rfl rfl rfl
    obtain ⟨t', ht', hvis, _, hall, htr⟩ :=
      observeArray_visiting obs s a H (s.obj a).elems _ h3
    refine ⟨(t', s.observers.length), ?_, rfl, hvis.done ?_, hvis.here, ?_⟩
    · rw [e, if_neg hforeign, if_pos hk]
      simp only [bind, Except.bind]
      rw [ht']
      rfl
    · intro c hc hoc
      apply hall c _ hoc
      simpa [OSt.members, hk] using hc
    · intro b k1 k2
      by_cases hab : b = a
      · rw [hab]
      · have k3 : ((st2.setObj a { st2.obj a with augmented := true }).obj b).wrapped
            = false := by
          rw [obj_setObj, if_neg (fun e => hab e.1.symm), hobj2b b hab]
          exact k1
        obtain ⟨c0, hc0, hreach⟩ := htr b k3 k2
        refine Relation.ReflTransGen.head ⟨hu, ho, ?_⟩ hreach
        simpa [OSt.members, hk] using hc0
  · have hkeys : ((((s.obj a).props.filter (fun p => p.2.enumerable)).map
        (fun p => p.1))).Nodup :=
      (hnd.sublist ((List.filter_sublist _).map _))
    have hprops : (st2.obj a).props = (s.obj a).props := by rw [hobj2]
    obtain ⟨t', ht', hvis, _, hall, htr⟩ :=
      walk_visiting U obs fuel s a hu H
        (((s.obj a).props.filter (fun p => p.2.enumerable)).map (fun p => p.1)) st2 h2 hkeys
        (fun k hk => by
          obtain ⟨p, hp, e⟩ := List.mem_map.1 hk
          have hm := (List.mem_filter.1 hp).1
          refine ⟨p.2, ?_, (hdata p hm).1, (hdata p hm).2⟩
          rw [hprops, ← e]
          exact lookup_of_mem p.1 p.2 _ hnd hm)
    refine ⟨(t', s.observers.length), ?_, rfl, hvis.done ?_, hvis.here, ?_⟩
    · rw [e, if_neg hforeign, if_neg hk]
      simp only [bind, Except.bind]
      rw [ht']
      rfl
    · intro c hc hoc
      simp only [OSt.members, hk, if_false, List.mem_map, List.mem_filter,
        Bool.and_eq_true] at hc
      obtain ⟨p, ⟨hm, hen, hcf⟩, hval⟩ := hc
      refine hall p.1 (List.mem_map.2 ⟨p, List.mem_filter.2 ⟨hm, hen⟩, rfl⟩) p.2 ?_ hcf c hval hoc
      rw [hprops]
      exact lookup_of_mem p.1 p.2 _ hnd hm
    · intro b k1 k2
      by_cases hab : b = a
      · rw [hab]
      · have k3 : (st2.obj b).wrapped = false := by
          rw [hobj2b b hab]
          exact k1
        obtain ⟨k, hkm, sl, hsl, hcf, c0, hc0, hreach⟩ := htr b k3 k2
        refine Relation.ReflTransGen.head ⟨hu, ho, ?_⟩ hreach
        obtain ⟨p, hp, e1⟩ := List.mem_map.1 hkm
        obtain ⟨hm, hen⟩ := List.mem_filter.1 hp
        have hlk := lookup_of_mem p.1 p.2 _ hnd hm
        rw [hprops, ← e1, hlk] at hsl
        simp only [Option.some.injEq] at hsl
        simp only [OSt.members, hk, if_false, List.mem_map, List.mem_filter,
          Bool.and_eq_true]
        refine ⟨p, ⟨hm, hen, ?_⟩, ?_⟩
        · rw [hsl]; exact hcf
        · rw [hsl]; exact hc0
theorem OSt.Wraps.grows {s t : OSt} (h : s.Wraps t) (a : Nat)
    (hu : (s.obj a).wrapped = false) (hw : (t.obj a).wrapped = true) :
    s.observers.length < t.observers.length := by
  obtain ⟨f, e, _, m⟩ := h.fresh
  have hm : a ∈ f := (m a).2 ⟨hu, hw⟩
  have hl := congrArg List.length e
  simp only [List.length_map, List.length_append] at hl
  have : 0 < f.length := List.length_pos_of_mem hm
  omega

/-- The last step of `observe`: the count of root data of the observer goes up. -/
theorem bump_visits (s : OSt) (r : OSt × Option Nat) (asRoot : Bool) (hv : s.Visits r.1)
    (hi : ∀ i, r.2 = some i → i < r.1.observers.length) :
    ∃ r', (match asRoot, r.2 with
      | true, some i =>
        match r.1.observers.get? i with
        | some ob =>
          pure ({ r.1 with observers := r.1.observers.set i { ob with vmCount := ob.vmCount + 1 } },
            some i)
        | none => throw Err.typeError
      | _, _ => pure r : Res (OSt × Option Nat)) = Except.ok r' ∧ s.Visits r'.1 ∧
      (∀ c, (r.1.obj c).wrapped = true → (r'.1.obj c).wrapped = true) ∧
      ∀ c, r'.1.obj c = r.1.obj c := by
  cases asRoot with
  | false => exact ⟨r, rfl, hv, fun _ h => h, fun _ => rfl⟩
  | true =>
    cases hr : r.2 with
    | none => exact ⟨r, rfl, hv, fun _ h => h, fun _ => rfl⟩
    | some i =>
      have hlt := hi i hr
      cases hg : r.1.observers.get? i with
      | none =>
        rw [List.get?_eq_none] at hg
        omega
      | some ob =>
        refine ⟨(⟨r.1.heap, r.1.observers.set i ⟨ob.value, ob.dep, ob.vmCount + 1⟩, r.1.cells,
          r.1.deps, r.1.target, r.1.notified, r.1.updated, r.1.customSetterCalls,
          r.1.shouldObserve, r.1.serverRendering, r.1.production⟩, some i), ?_, ?_,
          fun _ h => h, fun _ => rfl⟩
        · simp only [hg]
          rfl
        · refine hv.congrEngine rfl ?_ rfl rfl
          simp only [List.map_set]
          apply List.ext_getElem
          · simp
          · intro k h1 h2
            simp only [List.getElem_set, List.getElem_map]
            split
            · rename_i hik
              subst hik
              rw [List.get?_eq_getElem?, List.getElem?_eq_some_iff] at hg
              obtain ⟨_, hg⟩ := hg
              rw [hg]
            · rfl

/-- With enough recursion depth for the objects not yet wrapped, `observe` on a graph of
plain data returns, and on return every object wrapped by the call has all its
observable members wrapped. -/
theorem observe_visits (U : User) :
    ∀ (fuel : Nat) (st : OSt) (v : Val) (asRoot : Bool) (W : List Nat),
      st.PlainGraph → W.Nodup → (∀ b ∈ W, (st.obj b).wrapped = true) →
      st.heap.length < fuel + W.length →
      ∃ r, observe U fuel st v asRoot = Except.ok r ∧ st.Visits r.1 ∧
        (∀ c, v = Val.ref c → st.observable c = true → (r.1.obj c).wrapped = true) ∧
        ∀ b, (st.obj b).wrapped = false → (r.1.obj b).wrapped = true →
          ∃ c0, v = Val.ref c0 ∧ Relation.ReflTransGen st.edge c0 b := by
  intro fuel
  induction fuel with
  | zero =>
    intro st v asRoot W _ hnd hW hlen
    have := pigeon W st.heap.length hnd (fun b hb => ob_lt_heap st b (by
      obtain ⟨i, hi⟩ := (wrapped_iff _).1 (hW b hb)
      rw [hi]; simp))
    omega
  | succ n ih =>
    intro st v asRoot W hp hnd hW hlen
    cases v with
    | ref a =>
      by_cases hv : (st.obj a).isVNode = true
      · refine ⟨(st, none), ?_, OSt.Visits.selfVisits st, ?_,
          fun b k1 k2 => by rw [k1] at k2; cases k2⟩
        · simp only [observe, hv, if_true]
          rfl
        · intro c hc ho
          simp only [Val.ref.injEq] at hc
          rw [← hc] at ho
          simp [OSt.observable, hv] at ho
      · have e : observe U (n + 1) st (Val.ref a) asRoot =
            (if (st.obj a).isVNode then pure (st, none)
             else (match (st.obj a).ob with
                | ObProp.observer i => pure (st, some i)
                | _ =>
                  if st.shouldObserve && !st.serverRendering &&
                      ((st.obj a).kind = ObjKind.array || (st.obj a).kind = ObjKind.plain) &&
                      (st.obj a).extensible && !(st.obj a).isVue then do
                    let n ← Observer.new U (fun s v => observe U n s v false) n st a
                    pure (n.1, some n.2)
                  else pure (st, none) : Res (OSt × Option Nat)) >>= fun r =>
                (match asRoot, r.2 with
                | true, some i =>
                  match r.1.observers.get? i with
                  | some ob =>
                    pure ({ r.1 with observers := r.1.observers.set i { ob with vmCount := ob.vmCount + 1 } },
                      some i)
                  | none => throw Err.typeError
                | _, _ => pure r : Res (OSt × Option Nat))) := rfl
        have key : ∃ r, (match (st.obj a).ob with
            | ObProp.observer i => pure (st, some i)
            | _ =>
              if st.shouldObserve && !st.serverRendering &&
                  ((st.obj a).kind = ObjKind.array || (st.obj a).kind = ObjKind.plain) &&
                  (st.obj a).extensible && !(st.obj a).isVue then do
                let n ← Observer.new U (fun s v => observe U n s v false) n st a
                pure (n.1, some n.2)
              else pure (st, none) : Res (OSt × Option Nat)) = Except.ok r ∧
            st.Visits r.1 ∧ (∀ i, r.2 = some i → i < r.1.observers.length) ∧
            (st.observable a = true → (r.1.obj a).wrapped = true) ∧
            ∀ b, (st.obj b).wrapped = false → (r.1.obj b).wrapped = true →
              Relation.ReflTransGen st.edge a b := by
          split
          · rename_i i hob
            exact ⟨(st, some i), rfl, OSt.Visits.selfVisits st,
              fun j hj => by
                simp only [Option.some.injEq] at hj
                rw [← hj]; exact hp.valid a i hob,
              fun _ => (wrapped_iff _).2 ⟨i, hob⟩,
              fun b k1 k2 => by rw [k1] at k2; cases k2⟩
          · rename_i hno
            have hu : (st.obj a).wrapped = false :=
              (wrapped_false_iff _).2 (fun i hi => hno i hi)
            by_cases hcond : st.observable a = true
            · have hnot : a ∉ W := fun hm => by
                rw [hW a hm] at hu; cases hu
              obtain ⟨nw, hn, hid, hvis, hwa, htr⟩ := observerNew_visits U
                (fun s v => observe U n s v false) n st a hp hcond hu
                (fun t v h => ih t v false (a :: W) (plainGraph_of_wraps hp h.wraps)
                  (List.nodup_cons.2 ⟨hnot, hnd⟩)
                  (fun b hb => by
                    rcases List.mem_cons.1 hb with e | hb
                    · rw [e]; exact h.here
                    · exact h.wraps.wrapped_mono b (hW b hb))
                  (by
                    rw [h.wraps.len, List.length_cons]
                    omega))
              have hc2 : (st.shouldObserve && !st.serverRendering &&
                  (decide ((st.obj a).kind = ObjKind.array) ||
                    decide ((st.obj a).kind = ObjKind.plain)) &&
                  (st.obj a).extensible && !(st.obj a).isVue) = true := by
                simp only [OSt.observable, Bool.and_eq_true] at hcond
                simp only [Bool.and_eq_true]
                exact hcond.2
              refine ⟨(nw.1, some nw.2), ?_, hvis, ?_, fun _ => hwa, htr⟩
              · rw [if_pos hc2]
                simp only [bind, Except.bind, hn]
                rfl
              · intro j hj
                simp only [Option.some.injEq] at hj
                rw [← hj, hid]
                exact hvis.wraps.grows a hu hwa
            · have hc2 : ¬ ((st.shouldObserve && !st.serverRendering &&
                  (decide ((st.obj a).kind = ObjKind.array) ||
                    decide ((st.obj a).kind = ObjKind.plain)) &&
                  (st.obj a).extensible && !(st.obj a).isVue) = true) := by
                intro hc
                apply hcond
                simp only [OSt.observable, Bool.and_eq_true]
                simp only [Bool.and_eq_true] at hc
                refine ⟨?_, hc⟩
                simpa using hv
              refine ⟨(st, none), ?_, OSt.Visits.selfVisits st, (fun j hj => by cases hj),
                fun h => absurd h hcond, fun b k1 k2 => by rw [k1] at k2; cases k2⟩
              rw [if_neg hc2]
              rfl
        obtain ⟨r, hr, hvis, hidx, hroot, htr⟩ := key
        obtain ⟨r', hr', hvis', hm, hsame⟩ := bump_visits st r asRoot hvis hidx
        refine ⟨r', ?_, hvis', ?_, ?_⟩
        · rw [e, if_neg hv, hr]
          exact hr'
        · intro c hc ho
          simp only [Val.ref.injEq] at hc
          rw [← hc] at ho ⊢
          exact hm a (hroot ho)
        · intro b k1 k2
          rw [hsame] at k2
          exact ⟨a, rfl, htr b k1 k2⟩
    | undefined => exact ⟨(st, none), rfl, OSt.Visits.selfVisits st, (fun c hc => by cases hc),
        fun b k1 k2 => by rw [k1] at k2; cases k2⟩
    | null => exact ⟨(st, none), rfl, OSt.Visits.selfVisits st, (fun c hc => by cases hc),
        fun b k1 k2 => by rw [k1] at k2; cases k2⟩
    | bool b => exact ⟨(st, none), rfl, OSt.Visits.selfVisits st, (fun c hc => by cases hc),
        fun b k1 k2 => by rw [k1] at k2; cases k2⟩
    | num k => exact ⟨(st, none), rfl, OSt.Visits.selfVisits st, (fun c hc => by cases hc),
        fun b k1 k2 => by rw [k1] at k2; cases k2⟩
    | nan => exact ⟨(st, none), rfl, OSt.Visits.selfVisits st, (fun c hc => by cases hc),
        fun b k1 k2 => by rw [k1] at k2; cases k2⟩
    | str x => exact ⟨(st, none), rfl, OSt.Visits.selfVisits st, (fun c hc => by cases hc),
        fun b k1 k2 => by rw [k1] at k2; cases k2⟩
theorem reach_wrapped {s t : OSt} (h : s.Visits t) (c0 : Nat)
    (hroot : s.observable c0 = true → (t.obj c0).wrapped = true) :
    ∀ c, Relation.ReflTransGen s.edge c0 c → s.observable c = true →
      (t.obj c).wrapped = true := by
  intro c hreach
  induction hreach with
  | refl => exact hroot
  | tail _ hedge ih =>
    intro ho
    obtain ⟨hu, hob, hmem⟩ := hedge
    exact h.closed _ hu (ih hob) _ hmem ho

/-- C39: on a finite heap of aggregates, cyclic or not, in which every observable
aggregate that carries no observer is plain data (its own properties are data properties,
and it has no own `__ob__` that cannot be redefined) and every observer carried is one of
the engine, `observe(value, asRootData)` returns once its recursion depth may exceed the
number of objects. The observers it makes are one for each object that it wraps, none
twice. Every observable aggregate that is reached from the value through the array
elements and the enumerable, configurable properties of observable aggregates that
carried no observer is wrapped on return, and only such an object is wrapped: an object
that is not reached that way (one held only by an aggregate that is not observable or
that carried an observer, or only in a property that is not enumerable or not
configurable) is as it was. The recursion stops at a wrapped value: an object that
carried an observer is left as it was, `observe` on it returns its observer at once
without a nested call, and an object without an observer on return is as it was. -/
theorem observe_terminates (U : User) (fuel : Nat) (st : OSt) (v : Val) (asRoot : Bool)
    (hg : st.plainGraph = true) (hfuel : st.heap.length < fuel) :
    ∃ r, observe U fuel st v asRoot = Except.ok r ∧
      (∃ fresh : List Nat,
        r.1.observers.map (fun o => o.value) = st.observers.map (fun o => o.value) ++ fresh ∧
        fresh.Nodup ∧
        ∀ b, b ∈ fresh ↔ ((st.obj b).wrapped = false ∧ (r.1.obj b).wrapped = true)) ∧
      (∀ c0 c, v = Val.ref c0 → Relation.ReflTransGen st.edge c0 c →
        st.observable c = true → (r.1.obj c).wrapped = true) ∧
      (∀ b, (st.obj b).wrapped = false → (r.1.obj b).wrapped = true →
        ∃ c0, v = Val.ref c0 ∧ Relation.ReflTransGen st.edge c0 b) ∧
      (∀ b, (¬ ∃ c0, v = Val.ref c0 ∧ Relation.ReflTransGen st.edge c0 b) →
        r.1.obj b = st.obj b) ∧
      (∀ b, (st.obj b).wrapped = true → r.1.obj b = st.obj b) ∧
      (∀ b i k, (st.obj b).ob = ObProp.observer i → (st.obj b).isVNode = false →
        observe U (k + 1) st (Val.ref b) false = Except.ok (st, some i)) ∧
      (∀ b, (r.1.obj b).wrapped = false → r.1.obj b = st.obj b) := by
  obtain ⟨r, hr, hvis, hroot, htr⟩ := observe_visits U fuel st v asRoot []
    (plainGraph_sound st hg) List.nodup_nil (fun b hb => by cases hb) (by simpa using hfuel)
  refine ⟨r, hr, hvis.wraps.fresh,
    fun c0 c hv hreach ho => reach_wrapped hvis c0 (hroot c0 hv) c hreach ho,
    htr, fun b hno => ?_,
    hvis.wraps.kept,
    fun b i k hob hvn => observe_of_observed U k st b i hob hvn,
    hvis.wraps.same⟩
  by_cases h1 : (st.obj b).wrapped = true
  · exact hvis.wraps.kept b h1
  · simp only [Bool.not_eq_true] at h1
    by_cases h2 : (r.1.obj b).wrapped = true
    · exact absurd (htr b h1 h2) hno
    · simp only [Bool.not_eq_true] at h2
      exact hvis.wraps.same b h2

/-- C39 (witness): `observe` on the record of the cyclic graph `cyclicGraph`, with a
recursion depth of 4 for its 3 objects. -/
theorem observe_terminates_witness :
    ∃ r, observe noUser 4 cyclicGraph (Val.ref 0) true = Except.ok r ∧
      (∃ fresh : List Nat,
        r.1.observers.map (fun o => o.value)
          = cyclicGraph.observers.map (fun o => o.value) ++ fresh ∧
        fresh.Nodup ∧
        ∀ b, b ∈ fresh ↔
          ((cyclicGraph.obj b).wrapped = false ∧ (r.1.obj b).wrapped = true)) ∧
      (∀ c0 c, Val.ref 0 = Val.ref c0 → Relation.ReflTransGen cyclicGraph.edge c0 c →
        cyclicGraph.observable c = true → (r.1.obj c).wrapped = true) ∧
      (∀ b, (cyclicGraph.obj b).wrapped = false → (r.1.obj b).wrapped = true →
        ∃ c0, Val.ref 0 = Val.ref c0 ∧ Relation.ReflTransGen cyclicGraph.edge c0 b) ∧
      (∀ b, (¬ ∃ c0, Val.ref 0 = Val.ref c0 ∧
          Relation.ReflTransGen cyclicGraph.edge c0 b) →
        r.1.obj b = cyclicGraph.obj b) ∧
      (∀ b, (cyclicGraph.obj b).wrapped = true → r.1.obj b = cyclicGraph.obj b) ∧
      (∀ b i k, (cyclicGraph.obj b).ob = ObProp.observer i →
        (cyclicGraph.obj b).isVNode = false →
        observe noUser (k + 1) cyclicGraph (Val.ref b) false
          = Except.ok (cyclicGraph, some i)) ∧
      (∀ b, (r.1.obj b).wrapped = false → r.1.obj b = cyclicGraph.obj b) :=
  observe_terminates noUser 4 cyclicGraph (Val.ref 0) true (by decide) (by decide)

/-- The cyclic graph of a record that holds itself and an array that holds the record,
itself and another record: `observe` on the record returns its observer, and the
observers made are one for the record, one for the array and one for the other record,
in the order of the visit; each of the three objects carries its observer, the properties
of the record are reactive accessors, and the elements of the array are as they were. -/
theorem cyclic_example :
    (observe noUser 4 cyclicGraph (Val.ref 0) false).toOption.map
        (fun r => (r.2, r.1.observers.map (fun o => o.value))) = some (some 0, [0, 1, 2]) ∧
      (observe noUser 4 cyclicGraph (Val.ref 0) false).toOption.map
        (fun r => r.1.heap.map (fun o => (o.ob, o.elems)))
        = some [(ObProp.observer 0, []),
            (ObProp.observer 1, [Val.ref 0, Val.ref 1, Val.ref 2]),
            (ObProp.observer 2, [])] ∧
      (observe noUser 4 cyclicGraph (Val.ref 0) false).toOption.map
        (fun r => r.1.heap.map (fun o => o.props.map (fun p => (p.1, p.2.get))))
        = some [[("self", some (Fn.reactive 0)), ("list", some (Fn.reactive 1))], [], []] := by
  decide

/-- Two finite graphs on which the sentence fails. A record holds a frozen record that
holds an empty record: the empty record is observable and is reached from the value
through properties, but the frozen record is not observable, `observe` does not visit its
properties, and the empty record carries no observer on return (one observer is made, for
the first record). A record whose own `__ob__` is not an observer and is not configurable:
`observe` raises a `TypeError` and the record is not wrapped. -/
theorem observe_terminates_counterexample :
    (Val.ref 1 ∈ frozenGraph.members 0 ∧ Val.ref 2 ∈ frozenGraph.members 1 ∧
      frozenGraph.observable 2 = true ∧ frozenGraph.observable 1 = false ∧
      (observe noUser 4 frozenGraph (Val.ref 0) false).toOption.map
          (fun r => (r.2, r.1.observers.map (fun o => o.value),
            r.1.heap.map (fun o => o.wrapped)))
        = some (some 0, [0], [true, false, false])) ∧
    (sealedObGraph.observable 0 = true ∧ (sealedObGraph.obj 0).wrapped = false ∧
      errorOf (observe noUser 4 sealedObGraph (Val.ref 0) false) = some Err.typeError) := by
  decide

end VueCore
